import Mathlib

/-!
# A verification development for the api-ast toolchain

Shallow embedding of the scanner (`scanner/scanner.go`), the parser
(`parser/parser.go`, `parser/parse.go`, `parser/interface.go`) and the AST
(`ast/ast.go`), followed by theorems about them.

Conventions of the embedding:

* Go strings and byte slices are lists of bytes (`GoString`); `str` turns a
  Lean string into its UTF-8 bytes.
* A rune is an `Int`; `eof` is `-1` as in the source.
* A `token.Pos` is a `Nat` (`NoPos` is `0`): the file base plus the offset.
* Loops are written with an explicit fuel argument and return `none` (or
  `Res.outOfFuel`) when the fuel runs out; theorems show that it does not.
* Go standard library functions whose tables are not reproduced here
  (`unicode.IsLetter`, `strconv.Unquote`, ...) are the fields of `Lib`.
-/

namespace ApiAst

/-- Go strings and byte slices: a list of bytes. -/
abbrev GoString := List Nat

/-- Encoding of one code point as UTF-8 bytes (`utf8.EncodeRune`); code points
outside the Unicode range and surrogates are encoded as U+FFFD. -/
def EncodeRune (r : Int) : GoString :=
  let c := r.toNat
  if r < 0 then [0xEF, 0xBF, 0xBD]
  else if c < 0x80 then [c]
  else if c < 0x800 then [0xC0 + c / 64, 0x80 + c % 64]
  else if 0x10FFFF < c ∨ (0xD800 ≤ c ∧ c ≤ 0xDFFF) then [0xEF, 0xBF, 0xBD]
  else if c < 0x10000 then [0xE0 + c / 4096, 0x80 + c / 64 % 64, 0x80 + c % 64]
  else [0xF0 + c / 262144, 0x80 + c / 4096 % 64, 0x80 + c / 64 % 64, 0x80 + c % 64]

/-- The UTF-8 bytes of a Lean string. -/
def str (s : String) : GoString :=
  s.data.flatMap (fun c => EncodeRune (Int.ofNat c.toNat))

/-- The value `utf8.RuneError`. -/
def RuneError : Int := 0xFFFD

/-- Decoding of the first rune of a byte slice (`utf8.DecodeRune`): the rune
and its width in bytes; `(RuneError, 0)` on an empty slice and `(RuneError, 1)`
on an invalid encoding. -/
def DecodeRune (p : GoString) : Int × Nat :=
  match p with
  | [] => (RuneError, 0)
  | p0 :: rest =>
    if p0 < 0x80 then (Int.ofNat p0, 1)
    else if p0 < 0xC2 ∨ 0xF4 < p0 then (RuneError, 1)
    else
      let sz := if p0 < 0xE0 then 2 else if p0 < 0xF0 then 3 else 4
      let lo := if p0 = 0xE0 then 0xA0 else if p0 = 0xF0 then 0x90 else 0x80
      let hi := if p0 = 0xED then 0x9F else if p0 = 0xF4 then 0x8F else 0xBF
      if rest.length + 1 < sz then (RuneError, 1)
      else
        let b1 := rest.getD 0 0
        if b1 < lo ∨ hi < b1 then (RuneError, 1)
        else if sz ≤ 2 then (Int.ofNat (64 * (p0 % 32) + b1 % 64), 2)
        else
          let b2 := rest.getD 1 0
          if b2 < 0x80 ∨ 0xBF < b2 then (RuneError, 1)
          else if sz ≤ 3 then (Int.ofNat (4096 * (p0 % 16) + 64 * (b1 % 64) + b2 % 64), 3)
          else
            let b3 := rest.getD 2 0
            if b3 < 0x80 ∨ 0xBF < b3 then (RuneError, 1)
            else (Int.ofNat (262144 * (p0 % 8) + 4096 * (b1 % 64) + 64 * (b2 % 64) + b3 % 64), 4)

/-- Functions of the Go standard library that the code calls and whose tables
are not reproduced: `unicode.IsLetter`, `unicode.IsDigit`,
`unicode.IsGraphic`, `unicode.IsSpace`, `strconv.Unquote` (`none` when it
returns an error) and `fmt.Sprintf("%#U", ch)`. -/
structure Lib where
  IsLetter : Int → Bool
  IsDigit : Int → Bool
  IsGraphic : Int → Bool
  IsSpace : Int → Bool
  Unquote : GoString → Option GoString
  SprintU : Int → GoString

/-! ## Tokens (package `token`) -/

/-- Modelled from the spec: the `token.Token` enumeration is declared in a file of
package `token` that is not among the sources; the kinds are the names the
scanner and the parser use (`token.IDENT`, `token.SYNTAX`, ...). -/
inductive Token where
  | ILLEGAL | EOF | COMMENT
  | IDENT | INT | FLOAT | IMAG | CHAR | STRING
  | ADD | SUB | MUL | QUO | REM
  | AND | OR | XOR | SHL | SHR | AND_NOT
  | ADD_ASSIGN | SUB_ASSIGN | MUL_ASSIGN | QUO_ASSIGN | REM_ASSIGN
  | AND_ASSIGN | OR_ASSIGN | XOR_ASSIGN | SHL_ASSIGN | SHR_ASSIGN | AND_NOT_ASSIGN
  | LAND | LOR | ARROW | INC | DEC
  | EQL | LSS | GTR | ASSIGN | NOT
  | NEQ | LEQ | GEQ | DEFINE | ELLIPSIS
  | LPAREN | LBRACK | LBRACE | COMMA | PERIOD
  | RPAREN | RBRACK | RBRACE | SEMICOLON | COLON | TILDE
  | SYNTAX | INFO | IMPORT | TYPE | SERVICE | RETURNS | MAP | STRUCT
  | ATSERVER | DOC | HANDLER
  deriving DecidableEq, Repr

/-- Modelled from the spec: `token.Lookup` is not among the sources; it maps the
keyword-like symbols (`syntax`, `info`, `import`, `type`, `service`,
`returns`, `map`, `struct`) and the annotation identifiers (`@server`,
`@doc`, `@handler`) to their kinds and everything else to `IDENT`. -/
def Lookup (lit : GoString) : Token :=
  if lit = str "syntax" then .SYNTAX
  else if lit = str "info" then .INFO
  else if lit = str "import" then .IMPORT
  else if lit = str "type" then .TYPE
  else if lit = str "service" then .SERVICE
  else if lit = str "returns" then .RETURNS
  else if lit = str "map" then .MAP
  else if lit = str "struct" then .STRUCT
  else if lit = str "@server" then .ATSERVER
  else if lit = str "@doc" then .DOC
  else if lit = str "@handler" then .HANDLER
  else .IDENT

/-- Modelled from the spec: `Token.String` is not among the sources; operators
and keywords print as their source text, the other kinds as their name. -/
def Token.String : Token → GoString
  | .ILLEGAL => str "ILLEGAL" | .EOF => str "EOF" | .COMMENT => str "COMMENT"
  | .IDENT => str "IDENT" | .INT => str "INT" | .FLOAT => str "FLOAT"
  | .IMAG => str "IMAG" | .CHAR => str "CHAR" | .STRING => str "STRING"
  | .ADD => str "+" | .SUB => str "-" | .MUL => str "*" | .QUO => str "/" | .REM => str "%"
  | .AND => str "&" | .OR => str "|" | .XOR => str "^" | .SHL => str "<<" | .SHR => str ">>"
  | .AND_NOT => str "&^"
  | .ADD_ASSIGN => str "+=" | .SUB_ASSIGN => str "-=" | .MUL_ASSIGN => str "*="
  | .QUO_ASSIGN => str "/=" | .REM_ASSIGN => str "%="
  | .AND_ASSIGN => str "&=" | .OR_ASSIGN => str "|=" | .XOR_ASSIGN => str "^="
  | .SHL_ASSIGN => str "<<=" | .SHR_ASSIGN => str ">>=" | .AND_NOT_ASSIGN => str "&^="
  | .LAND => str "&&" | .LOR => str "||" | .ARROW => str "<-" | .INC => str "++" | .DEC => str "--"
  | .EQL => str "==" | .LSS => str "<" | .GTR => str ">" | .ASSIGN => str "=" | .NOT => str "!"
  | .NEQ => str "!=" | .LEQ => str "<=" | .GEQ => str ">=" | .DEFINE => str ":="
  | .ELLIPSIS => str "..."
  | .LPAREN => str "(" | .LBRACK => str "[" | .LBRACE => str "\x7b" | .COMMA => str ","
  | .PERIOD => str "."
  | .RPAREN => str ")" | .RBRACK => str "]" | .RBRACE => str "\x7d" | .SEMICOLON => str ";"
  | .COLON => str ":" | .TILDE => str "~"
  | .SYNTAX => str "syntax" | .INFO => str "info" | .IMPORT => str "import"
  | .TYPE => str "type" | .SERVICE => str "service" | .RETURNS => str "returns"
  | .MAP => str "map" | .STRUCT => str "struct"
  | .ATSERVER => str "@server" | .DOC => str "@doc" | .HANDLER => str "@handler"

/-- The literal kinds (`Token.IsLiteral`): identifiers and basic literals. -/
def Token.IsLiteral (t : Token) : Bool :=
  t = .IDENT ∨ t = .INT ∨ t = .FLOAT ∨ t = .IMAG ∨ t = .CHAR ∨ t = .STRING

/-! ## Positions (Go standard library `go/token`, aliased by `token/types.go`) -/

/-- The value `token.NoPos`. -/
def NoPos : Nat := 0

/-- A `token.Position`: file name, offset, line and column. -/
structure Position where
  Filename : GoString
  Offset : Nat
  Line : Nat
  Column : Nat
  deriving DecidableEq, Repr

/-- A `token.File`: name, base, size and the table of line start offsets
(initially the single entry `0`). -/
structure File where
  name : GoString
  base : Nat
  size : Nat
  lines : List Nat
  deriving DecidableEq, Repr

/-- The method `File.AddLine`: the offset is appended when it is beyond the
last line start and inside the file. -/
def File.AddLine (f : File) (offset : Nat) : File :=
  if (f.lines = [] ∨ f.lines.getLast! < offset) ∧ offset < f.size then
    { f with lines := f.lines ++ [offset] }
  else f

/-- The method `File.Pos`: the position of an offset. -/
def File.Pos (f : File) (offset : Nat) : Nat := f.base + offset

/-- The method `File.Offset`: the offset of a position. -/
def File.Offset (f : File) (p : Nat) : Nat := p - f.base

/-- Line start lookup: the number of line starts at or before the offset and
the last such start. -/
def searchLines : List Nat → Nat → Nat × Nat
  | [], _ => (0, 0)
  | l :: ls, offset =>
    if l ≤ offset then
      let r := searchLines ls offset
      if r.1 = 0 then (1, l) else (r.1 + 1, r.2)
    else (0, 0)

/-- The method `File.Position`; the zero position for `NoPos`. -/
def File.Position (f : File) (p : Nat) : Position :=
  if p = NoPos then ⟨[], 0, 0, 0⟩
  else
    let offset := f.Offset p
    let r := searchLines f.lines offset
    ⟨f.name, offset, r.1, offset - r.2 + 1⟩

/-- The method `File.Line`: the line of a position. -/
def File.Line (f : File) (p : Nat) : Nat := (f.Position p).Line

/-- An entry of a `scanner.ErrorList`. -/
structure Error where
  Pos : Position
  Msg : GoString
  deriving DecidableEq, Repr

/-- The type `scanner.ErrorList` of the Go standard library. -/
abbrev ErrorList := List Error

/-! ## Scanner (`scanner/scanner.go`, `scanner/errors.go`) -/

/-- The scanner mode bit `ScanComments`. -/
def ScanComments : Nat := 1

/-- The scanner mode bit `dontInsertSemis`. -/
def dontInsertSemis : Nat := 2

/-- The constant `bom`: the byte order mark. -/
def bom : Int := 0xFEFF

/-- The constant `eof`. -/
def eof : Int := -1

/-- The struct `Scanner`. The field `errs` is the state of the installed
`ErrorHandler` (the list the handler appends to: the parser installs
`p.errors.Add`); `lib` holds the standard library tables; the unused field
`dir` is left out. -/
structure Scanner where
  lib : Lib
  file : File
  src : GoString
  mode : Nat
  ch : Int
  offset : Nat
  rdOffset : Nat
  lineOffset : Nat
  insertSemi : Bool
  ErrorCount : Nat
  errs : ErrorList

/-- The method `Scanner.error`: the handler is called with the position of the
offset and the message, and the error count grows by one. -/
def Scanner.error (s : Scanner) (offs : Nat) (msg : GoString) : Scanner :=
  { s with errs := s.errs ++ [⟨s.file.Position (s.file.Pos offs), msg⟩],
           ErrorCount := s.ErrorCount + 1 }

/-- The step of `next` that records a new line: when the current character
is a newline, the line starts at the offset. -/
def Scanner.newLine (s : Scanner) : Scanner :=
  if s.ch = 10 then { s with lineOffset := s.offset, file := s.file.AddLine s.offset } else s

/-- The method `Scanner.next`: read the next Unicode character into `ch`;
`ch < 0` means end of file. -/
def Scanner.next (s : Scanner) : Scanner :=
  if s.rdOffset < s.src.length then
    let s2 := ({ s with offset := s.rdOffset } : Scanner).newLine
    let b := s2.src.getD s2.rdOffset 0
    if b = 0 then
      let s3 := s2.error s2.offset (str "illegal character NULL")
      { s3 with rdOffset := s3.rdOffset + 1, ch := 0 }
    else if 0x80 ≤ b then
      -- not ASCII
      let rw := DecodeRune (s2.src.drop s2.rdOffset)
      let s3 := if rw.1 = RuneError ∧ rw.2 = 1 then
          s2.error s2.offset (str "illegal UTF-8 encoding")
        else if rw.1 = bom ∧ 0 < s2.offset then
          s2.error s2.offset (str "illegal byte order mark")
        else s2
      { s3 with rdOffset := s3.rdOffset + rw.2, ch := rw.1 }
    else
      { s2 with rdOffset := s2.rdOffset + 1, ch := Int.ofNat b }
  else
    let s2 := ({ s with offset := s.src.length } : Scanner).newLine
    { s2 with ch := eof }

/-- The method `Scanner.peek`: the byte after the current character, or 0. -/
def Scanner.peek (s : Scanner) : Nat :=
  if s.rdOffset < s.src.length then s.src.getD s.rdOffset 0 else 0

/-- The method `Scanner.Init`. The size check against the file always passes
for the file the parser registers (`len(src)`), so its panic is left out. -/
def Scanner.Init (lib : Lib) (file : File) (src : GoString) (mode : Nat) : Scanner :=
  let s : Scanner :=
    { lib := lib, file := file, src := src, mode := mode, ch := 32, offset := 0,
      rdOffset := 0, lineOffset := 0, insertSemi := false, ErrorCount := 0, errs := [] }
  let s1 := s.next
  if s1.ch = bom then s1.next else s1

/-- The slice `src[lo:hi]`. -/
def slice (src : GoString) (lo hi : Nat) : GoString := (src.take hi).drop lo

/-- The fuel that lets a loop of the scanner read to the end of the source. -/
def Scanner.fuel (s : Scanner) : Nat := s.src.length + 2

/-- Modelled from the spec: `isLetter` is not among the sources; letters are the
ASCII letters, the underscore and the Unicode letters. -/
def isLetter (lib : Lib) (ch : Int) : Bool :=
  (97 ≤ ch ∧ ch ≤ 122) ∨ (65 ≤ ch ∧ ch ≤ 90) ∨ ch = 95 ∨ (128 ≤ ch ∧ lib.IsLetter ch)

/-- Modelled from the spec: `isDecimal` is not among the sources; the decimal digits. -/
def isDecimal (ch : Int) : Bool := 48 ≤ ch ∧ ch ≤ 57

/-- Modelled from the spec: `isDigit` is not among the sources; the decimal digits
and the Unicode digits. -/
def isDigit (lib : Lib) (ch : Int) : Bool :=
  isDecimal ch ∨ (128 ≤ ch ∧ lib.IsDigit ch)

/-- The loop of `skipWhitespace`. -/
def skipWhitespaceLoop : Nat → Scanner → Option Scanner
  | 0, _ => none
  | n + 1, s =>
    if s.ch = 32 ∨ s.ch = 9 ∨ (s.ch = 10 ∧ s.insertSemi = false) ∨ s.ch = 13 then
      skipWhitespaceLoop n s.next
    else some s

/-- Modelled from the spec: `skipWhitespace` is not among the sources; whitespace is
skipped except a newline while the insert-semicolon flag is set (newlines are
significant for statement termination). -/
def Scanner.skipWhitespace (s : Scanner) : Option Scanner :=
  skipWhitespaceLoop s.fuel s

/-- The loop of `scanIdentifier`. -/
def scanIdentifierLoop : Nat → Scanner → Option Scanner
  | 0, _ => none
  | n + 1, s =>
    if isLetter s.lib s.ch ∨ isDigit s.lib s.ch then scanIdentifierLoop n s.next
    else some s

/-- Modelled from the spec: `scanIdentifier` is not among the sources; an identifier
is the maximal run of letters, digits and underscores. -/
def Scanner.scanIdentifier (s : Scanner) : Option (GoString × Scanner) :=
  match scanIdentifierLoop s.fuel s with
  | none => none
  | some s1 => some (slice s1.src s.offset s1.offset, s1)

/-- The loop that reads a run of decimal digits. -/
def digitsLoop : Nat → Scanner → Option Scanner
  | 0, _ => none
  | n + 1, s => if isDecimal s.ch then digitsLoop n s.next else some s

/-- Modelled from the spec: `scanNumber` is not among the sources; a number is a run
of decimal digits with an optional fraction, of kind `INT` or `FLOAT`. -/
def Scanner.scanNumber (s : Scanner) : Option (Token × GoString × Scanner) :=
  match (if s.ch ≠ 46 then digitsLoop s.fuel s else some s) with
  | none => none
  | some s1 =>
    if s1.ch = 46 then
      match digitsLoop s1.fuel s1.next with
      | none => none
      | some s2 => some (.FLOAT, slice s2.src s.offset s2.offset, s2)
    else some (.INT, slice s1.src s.offset s1.offset, s1)

/-- The value of a digit (`digitVal`): 16 for a character that is no digit. -/
def digitVal (ch : Int) : Nat :=
  if 48 ≤ ch ∧ ch ≤ 57 then (ch - 48).toNat
  else if 97 ≤ ch ∧ ch ≤ 102 then (ch - 97).toNat + 10
  else if 65 ≤ ch ∧ ch ≤ 70 then (ch - 65).toNat + 10
  else 16

/-- The digit loop of `scanEscape`: `n` digits of the base; the value read, or
`none` for the value when a character is no digit (an error is reported). -/
def scanEscapeDigits : Nat → Nat → Nat → Scanner → Option Nat × Scanner
  | 0, _, x, s => (some x, s)
  | n + 1, base, x, s =>
    let d := digitVal s.ch
    if base ≤ d then
      let msg := if s.ch < 0 then str "escape sequence not terminated"
        else str "illegal character " ++ s.lib.SprintU s.ch ++ str " in escape sequence"
      (none, s.error s.offset msg)
    else scanEscapeDigits n base (x * base + d) s.next

/-- The end of `scanEscape` for an escape given by digits: `n` digits of the
base are read and their value must be a valid code point of at most `max`. -/
def Scanner.scanEscapeValue (s : Scanner) (offs n base max : Nat) : Bool × Scanner :=
  match scanEscapeDigits n base 0 s with
  | (none, s2) => (false, s2)
  | (some x, s2) =>
    if max < x ∨ (0xD800 ≤ x ∧ x < 0xE000) then
      (false, s2.error offs (str "escape sequence is invalid Unicode code point"))
    else (true, s2)

/-- Modelled from the spec: `scanEscape` is not among the sources; the escape
sequences of the standard lexical rules. Returns whether the escape is
valid. -/
def Scanner.scanEscape (s : Scanner) (quote : Int) : Bool × Scanner :=
  let offs := s.offset
  let ch := s.ch
  if ch = 97 ∨ ch = 98 ∨ ch = 102 ∨ ch = 110 ∨ ch = 114 ∨ ch = 116 ∨ ch = 118 ∨ ch = 92
      ∨ ch = quote then
    (true, s.next)
  else if 48 ≤ ch ∧ ch ≤ 55 then s.scanEscapeValue offs 3 8 255
  else if ch = 120 then s.next.scanEscapeValue offs 2 16 255
  else if ch = 117 then s.next.scanEscapeValue offs 4 16 0x10FFFF
  else if ch = 85 then s.next.scanEscapeValue offs 8 16 0x10FFFF
  else
    let msg := if s.ch < 0 then str "escape sequence not terminated"
      else str "unknown escape sequence"
    (false, s.error offs msg)

/-- The loop of `scanString`. -/
def scanStringLoop : Nat → Nat → Scanner → Option Scanner
  | 0, _, _ => none
  | n + 1, offs, s =>
    let ch := s.ch
    if ch = 10 ∨ ch < 0 then some (s.error offs (str "string literal not terminated"))
    else
      let s1 := s.next
      if ch = 34 then some s1
      else if ch = 92 then scanStringLoop n offs (s1.scanEscape 34).2
      else scanStringLoop n offs s1

/-- Modelled from the spec: `scanString` is not among the sources; a quoted string
with escapes, the opening quote already consumed; the literal is the raw
source text with its quotes. -/
def Scanner.scanString (s : Scanner) : Option (GoString × Scanner) :=
  match scanStringLoop s.fuel (s.offset - 1) s with
  | none => none
  | some s1 => some (slice s1.src (s.offset - 1) s1.offset, s1)

/-- The loop of `scanRune`: the scanner, whether the literal is still valid and
the number of characters read. -/
def scanRuneLoop : Nat → Nat → Bool → Nat → Scanner → Option (Bool × Nat × Scanner)
  | 0, _, _, _, _ => none
  | f + 1, offs, valid, n, s =>
    let ch := s.ch
    if ch = 10 ∨ ch < 0 then
      if valid then some (false, n, s.error offs (str "rune literal not terminated"))
      else some (valid, n, s)
    else
      let s1 := s.next
      if ch = 39 then some (valid, n, s1)
      else if ch = 92 then
        let r := s1.scanEscape 39
        scanRuneLoop f offs (if r.1 then valid else false) (n + 1) r.2
      else scanRuneLoop f offs valid (n + 1) s1

/-- Modelled from the spec: `scanRune` is not among the sources; a single-quoted
character literal, the opening quote already consumed. -/
def Scanner.scanRune (s : Scanner) : Option (GoString × Scanner) :=
  match scanRuneLoop s.fuel (s.offset - 1) true 0 s with
  | none => none
  | some (valid, n, s1) =>
    let s2 := if valid ∧ n ≠ 1 then s1.error (s.offset - 1) (str "illegal rune literal") else s1
    some (slice s2.src (s.offset - 1) s2.offset, s2)

/-- The loop of `scanRawString`. -/
def scanRawStringLoop : Nat → Nat → Scanner → Option Scanner
  | 0, _, _ => none
  | n + 1, offs, s =>
    let ch := s.ch
    if ch < 0 then some (s.error offs (str "raw string literal not terminated"))
    else
      let s1 := s.next
      if ch = 96 then some s1 else scanRawStringLoop n offs s1

/-- Modelled from the spec: `scanRawString` is not among the sources; a
backtick-delimited string, the opening backtick already consumed. -/
def Scanner.scanRawString (s : Scanner) : Option (GoString × Scanner) :=
  match scanRawStringLoop s.fuel (s.offset - 1) s with
  | none => none
  | some s1 => some (slice s1.src (s.offset - 1) s1.offset, s1)

/-- The loop of a `//` comment in `scanComment`: read to the newline or the end. -/
def scanCommentLine : Nat → Scanner → Option Scanner
  | 0, _ => none
  | n + 1, s => if s.ch ≠ 10 ∧ 0 ≤ s.ch then scanCommentLine n s.next else some s

/-- The loop of a general comment in `scanComment`: read to the closing
delimiter; whether it was found. -/
def scanCommentGeneral : Nat → Scanner → Option (Bool × Scanner)
  | 0, _ => none
  | n + 1, s =>
    if 0 ≤ s.ch then
      let ch := s.ch
      let s1 := s.next
      if ch = 42 ∧ s1.ch = 47 then some (true, s1.next) else scanCommentGeneral n s1
    else some (false, s)

/-- Modelled from the spec: `scanComment` is not among the sources; a comment runs
from `//` to the end of the line or from the opening to the closing
delimiter, possibly over several lines; the initial slash is already
consumed and the literal is the raw text with its delimiters. -/
def Scanner.scanComment (s : Scanner) : Option (GoString × Scanner) :=
  let offs := s.offset - 1
  if s.ch = 47 then
    match scanCommentLine s.fuel s.next with
    | none => none
    | some s1 => some (slice s1.src offs s1.offset, s1)
  else
    match scanCommentGeneral s.fuel s.next with
    | none => none
    | some (true, s1) => some (slice s1.src offs s1.offset, s1)
    | some (false, s1) =>
      let s2 := s1.error offs (str "comment not terminated")
      some (slice s2.src offs s2.offset, s2)

/-- The inner loop of `findLineEnd` over the body of a general comment: whether
a newline was found before the closing delimiter. -/
def findLineEndBody : Nat → Scanner → Option (Bool × Scanner)
  | 0, _ => none
  | n + 1, s =>
    if 0 ≤ s.ch then
      let ch := s.ch
      if ch = 10 then some (true, s)
      else
        let s1 := s.next
        if ch = 42 ∧ s1.ch = 47 then some (false, s1.next) else findLineEndBody n s1
    else some (false, s)

/-- The outer loop of `findLineEnd`: read ahead until a newline, the end of the
file or a non-comment token is found. -/
def findLineEndLoop : Nat → Scanner → Option (Bool × Scanner)
  | 0, _ => none
  | n + 1, s =>
    if s.ch = 47 ∨ s.ch = 42 then
      if s.ch = 47 then some (true, s)
      else
        match findLineEndBody s.fuel s.next with
        | none => none
        | some (true, s1) => some (true, s1)
        | some (false, s1) =>
          match s1.skipWhitespace with
          | none => none
          | some s2 =>
            if s2.ch < 0 ∨ s2.ch = 10 then some (true, s2)
            else if s2.ch ≠ 47 then some (false, s2)
            else findLineEndLoop n s2.next
    else some (false, s)

/-- Modelled from the spec: `findLineEnd` is not among the sources; it reports
whether the comments that start here (the initial slash already consumed) are
all that is left of the line, and leaves the scanner where it was called. -/
def Scanner.findLineEnd (s : Scanner) : Option (Bool × Scanner) :=
  let offs := s.offset - 1
  match findLineEndLoop s.fuel s with
  | none => none
  | some (b, s1) => some (b, ({ s1 with ch := 47, offset := offs, rdOffset := offs + 1 }).next)

/-- Modelled from the spec: `switch2` is not among the sources; the second kind
when the next character is `=`. -/
def Scanner.switch2 (s : Scanner) (tok0 tok1 : Token) : Token × Scanner :=
  if s.ch = 61 then (tok1, s.next) else (tok0, s)

/-- Modelled from the spec: `switch3` is not among the sources; as `switch2`, with a
third kind when the next character is `ch2`. -/
def Scanner.switch3 (s : Scanner) (tok0 tok1 : Token) (ch2 : Int) (tok2 : Token) :
    Token × Scanner :=
  if s.ch = 61 then (tok1, s.next)
  else if s.ch = ch2 then (tok2, s.next)
  else (tok0, s)

/-- Modelled from the spec: `switch4` is not among the sources; as `switch3`, with a
fourth kind when `ch2` is followed by `=`. -/
def Scanner.switch4 (s : Scanner) (tok0 tok1 : Token) (ch2 : Int) (tok2 tok3 : Token) :
    Token × Scanner :=
  if s.ch = 61 then (tok1, s.next)
  else if s.ch = ch2 then
    let s1 := s.next
    if s1.ch = 61 then (tok3, s1.next) else (tok2, s1)
  else (tok0, s)

/-- The result of `Scan`: position, kind and literal of the token, and the
scanner afterwards. -/
structure ScanResult where
  pos : Nat
  tok : Token
  lit : GoString
  s : Scanner

/-- The end of `Scan`: unless the mode has `dontInsertSemis`, the
insert-semicolon flag is set to the local `insertSemi`; then the token is
returned. -/
def Scanner.finish (s : Scanner) (pos : Nat) (tok : Token) (lit : GoString)
    (insertSemi : Bool) : ScanResult :=
  ⟨pos, tok, lit,
    if s.mode &&& dontInsertSemis = 0 then { s with insertSemi := insertSemi } else s⟩

/-- The body of `Scan`; the fuel counts the jumps to `scanAgain`. -/
def ScanLoop : Nat → Scanner → Option ScanResult
  | 0, _ => none
  | fuel + 1, s0 =>
    match s0.skipWhitespace with
    | none => none
    | some s =>
      let pos := s.file.Pos s.offset
      let ch := s.ch
      if isLetter s.lib ch then
        match s.scanIdentifier with
        | none => none
        | some (lit, s1) =>
          if 1 < lit.length then
            let tok := Lookup lit
            some (s1.finish pos tok lit (decide (tok = .IDENT)))
          else some (s1.finish pos .IDENT lit true)
      else if isDecimal ch ∨ (ch = 46 ∧ isDecimal (Int.ofNat s.peek)) then
        match s.scanNumber with
        | none => none
        | some (tok, lit, s1) => some (s1.finish pos tok lit true)
      else if ch = 64 then -- '@'
        match s.next.scanIdentifier with
        | none => none
        | some (id, s1) =>
          let lit := str "@" ++ id
          if 1 < lit.length then
            let tok := Lookup lit
            some (s1.finish pos tok lit (decide (tok = .IDENT)))
          else some (s1.finish pos .IDENT lit true)
      else
        let s1 := s.next
        if ch = -1 then
          if s1.insertSemi then
            some ⟨pos, .SEMICOLON, str "\n", { s1 with insertSemi := false }⟩
          else some (s1.finish pos .EOF [] false)
        else if ch = 10 then -- newline
          some ⟨pos, .SEMICOLON, str "\n", { s1 with insertSemi := false }⟩
        else if ch = 34 then -- double quote
          match s1.scanString with
          | none => none
          | some (lit, s2) => some (s2.finish pos .STRING lit true)
        else if ch = 39 then -- single quote
          match s1.scanRune with
          | none => none
          | some (lit, s2) => some (s2.finish pos .CHAR lit true)
        else if ch = 96 then -- backtick
          match s1.scanRawString with
          | none => none
          | some (lit, s2) => some (s2.finish pos .STRING lit true)
        else if ch = 58 then -- ':'
          let r := s1.switch2 .COLON .DEFINE
          some (r.2.finish pos r.1 [] false)
        else if ch = 46 then -- '.'
          if s1.ch = 46 ∧ s1.peek = 46 then some (s1.next.next.finish pos .ELLIPSIS [] false)
          else some (s1.finish pos .PERIOD [] false)
        else if ch = 44 then some (s1.finish pos .COMMA [] false)
        else if ch = 59 then some (s1.finish pos .SEMICOLON (str ";") false)
        else if ch = 40 then some (s1.finish pos .LPAREN [] false)
        else if ch = 41 then some (s1.finish pos .RPAREN [] true)
        else if ch = 91 then some (s1.finish pos .LBRACK [] false)
        else if ch = 93 then some (s1.finish pos .RBRACK [] true)
        else if ch = 123 then some (s1.finish pos .LBRACE [] false)
        else if ch = 125 then some (s1.finish pos .RBRACE [] true)
        else if ch = 43 then -- '+'
          let r := s1.switch3 .ADD .ADD_ASSIGN 43 .INC
          some (r.2.finish pos r.1 [] (decide (r.1 = .INC)))
        else if ch = 45 then -- '-'
          let r := s1.switch3 .SUB .SUB_ASSIGN 45 .DEC
          some (r.2.finish pos r.1 [] (decide (r.1 = .DEC)))
        else if ch = 42 then -- '*'
          let r := s1.switch2 .MUL .MUL_ASSIGN
          some (r.2.finish pos r.1 [] false)
        else if ch = 47 then -- '/'
          if s1.ch = 47 ∨ s1.ch = 42 then
            -- comment
            match (if s1.insertSemi then s1.findLineEnd else some (false, s1)) with
            | none => none
            | some (true, s2) =>
              -- reset position to the beginning of the comment
              some ⟨pos, .SEMICOLON, str "\n",
                { s2 with ch := 47, offset := s2.file.Offset pos,
                          rdOffset := s2.file.Offset pos + 1, insertSemi := false }⟩
            | some (false, s2) =>
              match s2.scanComment with
              | none => none
              | some (comment, s3) =>
                if s3.mode &&& ScanComments = 0 then
                  -- skip comment
                  ScanLoop fuel { s3 with insertSemi := false }
                else some (s3.finish pos .COMMENT comment false)
          else
            let r := s1.switch2 .QUO .QUO_ASSIGN
            some (r.2.finish pos r.1 [] false)
        else if ch = 37 then -- '%'
          let r := s1.switch2 .REM .REM_ASSIGN
          some (r.2.finish pos r.1 [] false)
        else if ch = 94 then -- '^'
          let r := s1.switch2 .XOR .XOR_ASSIGN
          some (r.2.finish pos r.1 [] false)
        else if ch = 60 then -- '<'
          if s1.ch = 45 then some (s1.next.finish pos .ARROW [] false)
          else
            let r := s1.switch4 .LSS .LEQ 60 .SHL .SHL_ASSIGN
            some (r.2.finish pos r.1 [] false)
        else if ch = 62 then -- '>'
          let r := s1.switch4 .GTR .GEQ 62 .SHR .SHR_ASSIGN
          some (r.2.finish pos r.1 [] false)
        else if ch = 61 then -- '='
          let r := s1.switch2 .ASSIGN .EQL
          some (r.2.finish pos r.1 [] false)
        else if ch = 33 then -- '!'
          let r := s1.switch2 .NOT .NEQ
          some (r.2.finish pos r.1 [] false)
        else if ch = 38 then -- '&'
          if s1.ch = 94 then
            let r := s1.next.switch2 .AND_NOT .AND_NOT_ASSIGN
            some (r.2.finish pos r.1 [] false)
          else
            let r := s1.switch3 .AND .AND_ASSIGN 38 .LAND
            some (r.2.finish pos r.1 [] false)
        else if ch = 124 then -- '|'
          let r := s1.switch3 .OR .OR_ASSIGN 124 .LOR
          some (r.2.finish pos r.1 [] false)
        else if ch = 126 then some (s1.finish pos .TILDE [] false)
        else
          -- next reports unexpected BOMs - don't repeat
          let s2 := if ch ≠ bom then
              s1.error (s1.file.Offset pos) (str "illegal character " ++ s1.lib.SprintU ch)
            else s1
          -- preserve insertSemi info
          some (s2.finish pos .ILLEGAL (EncodeRune ch) s2.insertSemi)

/-- The method `Scanner.Scan`: the next token, or `none` when the fuel of a
loop runs out. -/
def Scanner.Scan (s : Scanner) : Option ScanResult := ScanLoop s.fuel s

/-- The first `n` tokens of a scanner (kind and literal), for running the
scanner on examples. -/
def scanN : Nat → Scanner → List (Token × GoString)
  | 0, _ => []
  | n + 1, s =>
    match s.Scan with
    | none => []
    | some r => (r.tok, r.lit) :: scanN n r.s

/-- The standard library tables on ASCII: no rune from 0x80 on is a letter,
a digit, graphic or a space, `Unquote` strips the quotes of a literal without
escapes; for running the code on ASCII sources. -/
def asciiLib : Lib where
  IsLetter := fun _ => false
  IsDigit := fun _ => false
  IsGraphic := fun c => decide (32 ≤ c ∧ c ≤ 126)
  IsSpace := fun c => decide (c = 32 ∨ (9 ≤ c ∧ c ≤ 13))
  Unquote := fun l =>
    if 2 ≤ l.length ∧ (l.head? = some 34 ∨ l.head? = some 96) ∧ l.getLast? = l.head?
        ∧ ¬ (92 ∈ l) ∧ ¬ (10 ∈ l) ∧ ¬ (l.head?.getD 0 ∈ (l.drop 1).dropLast) then
      some ((l.drop 1).dropLast)
    else none
  SprintU := fun c => str "U+" ++ (Nat.toDigits 16 c.toNat).map (fun d => d.toNat)

/-- A scanner over a string, in a file of base 1. -/
def scannerOf (src : String) (mode : Nat) : Scanner :=
  Scanner.Init asciiLib ⟨[], 1, (str src).length, [0]⟩ (str src) mode

/-! ## AST (`ast/ast.go`) -/

/-- A comment (`ast.Comment` of the Go standard library). -/
structure Comment where
  Slash : Nat
  Text : GoString
  deriving DecidableEq, Repr

/-- A comment group (`ast.CommentGroup` of the Go standard library). -/
structure CommentGroup where
  List : List Comment
  deriving DecidableEq, Repr

/-- The node `Ident`. -/
structure Ident where
  NamePos : Nat
  Name : GoString
  deriving DecidableEq, Repr

/-- The method `Ident.Pos`. -/
def Ident.Pos (x : Ident) : Nat := x.NamePos

/-- The method `Ident.End`. -/
def Ident.End (x : Ident) : Nat := x.NamePos + x.Name.length

/-- The node `BasicLit`. -/
structure BasicLit where
  ValuePos : Nat
  Kind : Token
  Value : GoString
  deriving DecidableEq, Repr

/-- The method `BasicLit.Pos`. -/
def BasicLit.Pos (x : BasicLit) : Nat := x.ValuePos

/-- The method `BasicLit.End`. -/
def BasicLit.End (x : BasicLit) : Nat := x.ValuePos + x.Value.length

mutual
/-- The expression nodes: `BadExpr`, `Ident`, `BasicLit`, `SelectorExpr`,
`StarExpr`, `ParenExpr`, `ArrayType`, `StructType` (with the fields of its
`FieldList`) and `MapType`. -/
inductive Expr where
  | BadExpr (From To : Nat)
  | Ident (x : Ident)
  | BasicLit (x : BasicLit)
  | SelectorExpr (X : Expr) (Sel : Ident)
  | StarExpr (Star : Nat) (X : Expr)
  | ParenExpr (Lparen : Nat) (X : Expr) (Rparen : Nat)
  | ArrayType (Lbrack : Nat) (Len : Option Expr) (Elt : Expr)
  | StructType (Struct : Nat) (Opening : Nat) (List : List Field) (Closing : Nat)
  | MapType (Map : Nat) (Key Value : Expr)
/-- The node `Field` (`Typ` is the field `Type`). -/
inductive Field where
  | mk (Doc : Option CommentGroup) (Names : List Ident) (Typ : Expr)
      (Tag : Option BasicLit) (Comment : Option CommentGroup)
end

/-- The node `ParenExpr` where the AST holds one by pointer (`Route.Req`). -/
structure ParenExpr where
  Lparen : Nat
  X : Expr
  Rparen : Nat

/-- The node `SyntaxSpec`. -/
structure SyntaxSpec where
  TokPos : Nat
  Assign : Nat
  Name : Option BasicLit

/-- The node `ImportSpec`. -/
structure ImportSpec where
  Doc : Option CommentGroup
  Path : BasicLit
  Comment : Option CommentGroup
  EndPos : Nat
  deriving DecidableEq, Repr

/-- The method `ImportSpec.Pos`. -/
def ImportSpec.Pos (x : ImportSpec) : Nat := x.Path.Pos

/-- The method `ImportSpec.End`. -/
def ImportSpec.End (x : ImportSpec) : Nat := x.EndPos

/-- The node `TypeSpec` (`Typ` is the field `Type`). -/
structure TypeSpec where
  Doc : Option CommentGroup
  Name : Ident
  Typ : Expr
  Comment : Option CommentGroup

/-- The interface `Spec`: an `ImportSpec` or a `TypeSpec`. -/
inductive Spec where
  | ImportSpec (x : ImportSpec)
  | TypeSpec (x : TypeSpec)

/-- The node `KeyValueExpr`. -/
structure KeyValueExpr where
  Key : Ident
  Colon : Nat
  Value : Expr

/-- The node `GenDecl`. -/
structure GenDecl where
  Doc : Option CommentGroup
  TokPos : Nat
  Tok : Token
  Lparen : Nat
  Specs : List Spec
  Rparen : Nat

/-- The node `InfoType`. -/
structure InfoType where
  TokPos : Nat
  Kvs : List KeyValueExpr
  RParen : Nat

/-- The node `AtServer`. -/
structure AtServer where
  TokPos : Nat
  Kvs : List KeyValueExpr
  RParen : Nat

/-- The node `Route`. -/
structure Route where
  Method : Ident
  Path : Ident
  Req : Option ParenExpr
  ReturnPos : Nat
  Resp : Option ParenExpr
  RPos : Nat

/-- The node `ServiceRoute`. -/
structure ServiceRoute where
  TokPos : Nat
  AtDoc : Option KeyValueExpr
  AtHandler : Option KeyValueExpr
  Route : Route

/-- The node `ServiceApi`. -/
structure ServiceApi where
  TokPos : Nat
  Name : Ident
  LBrace : Nat
  ServiceRoute : List ServiceRoute
  RBrace : Nat

/-- The node `Service`. -/
structure Service where
  AtServer : Option AtServer
  ServiceApi : ServiceApi

/-- The interface `Decl`: `BadDecl`, `GenDecl`, `InfoType` or `Service`. -/
inductive Decl where
  | BadDecl (From To : Nat)
  | GenDecl (x : GenDecl)
  | InfoType (x : InfoType)
  | Service (x : Service)

/-- The node `File`; the fields `Scope` and `Unresolved`, always nil, are left
out. -/
structure AstFile where
  Doc : Option CommentGroup
  Syntax : Option SyntaxSpec
  Decls : List Decl
  Imports : List ImportSpec
  Comments : List CommentGroup

/-- The zero value `&ast.File{}`. -/
def AstFile.zero : AstFile := ⟨none, none, [], [], []⟩

/-! ## Parser (`parser/parser.go`, `parser/parse.go`, `parser/interface.go`) -/

/-- The parser mode bit `ParseComments`. -/
def ParseComments : Nat := 2

/-- The parser mode bit `Trace`. -/
def Trace : Nat := 4

/-- The parser mode bit `DeclarationErrors`. -/
def DeclarationErrors : Nat := 8

/-- The parser mode bit `SpuriousErrors`. -/
def SpuriousErrors : Nat := 16

/-- The parser mode bit `SkipObjectResolution`. -/
def SkipObjectResolution : Nat := 32

/-- The parser mode bit `AllErrors`, the same as `SpuriousErrors`. -/
def AllErrors : Nat := SpuriousErrors

/-- The struct `parser`. The file is the one of the scanner (the source shares
the pointer) and the error list is the scanner field `errs`, which the scanner
error handler installed by `init` appends to; the tracing fields and the
unused `exprLev` are left out. The field `nscan` is not in the source: it
counts the calls of `Scan` and no code reads it. -/
structure parser where
  scanner : Scanner
  mode : Nat
  comments : List CommentGroup
  leadComment : Option CommentGroup
  lineComment : Option CommentGroup
  pos : Nat
  tok : Token
  lit : GoString
  syncPos : Nat
  syncCnt : Nat
  imports : List ImportSpec
  nscan : Nat

/-- The field `p.file`. -/
def parser.file (p : parser) : File := p.scanner.file

/-- The field `p.errors`. -/
def parser.errors (p : parser) : ErrorList := p.scanner.errs

/-- The fuel of the loops of the parser: more than twelve times the number of
tokens a source of this length can hold. -/
def parser.fuel (p : parser) : Nat := 16 * (2 * p.scanner.src.length + 4)

/-- A panic: the `bailout` of the parser or another value. -/
inductive Panic where
  | bailout
  | other (msg : GoString)
  deriving DecidableEq, Repr

/-- The outcome of running a parser method: a value and the parser afterwards,
a panic and the parser at that moment, or a loop out of fuel. -/
inductive Res (α : Type) where
  | ok (a : α) (p : parser)
  | panicked (e : Panic) (p : parser)
  | outOfFuel

/-- A parser method: a function of the parser state. -/
def P (α : Type) : Type := parser → Res α

/-- Sequencing of parser methods: a panic or a loop out of fuel ends the run. -/
def P.bind {α β : Type} (m : P α) (f : α → P β) : P β := fun p =>
  match m p with
  | .ok a p1 => f a p1
  | .panicked e p1 => .panicked e p1
  | .outOfFuel => .outOfFuel

instance : Monad P where
  pure a := fun p => .ok a p
  bind := P.bind

/-- Read the parser state. -/
def getP : P parser := fun p => .ok p p

/-- Change the parser state. -/
def modP (f : parser → parser) : P Unit := fun p => .ok () (f p)

/-- Raise a panic. -/
def goPanic {α : Type} (e : Panic) : P α := fun p => .panicked e p

/-- A loop out of fuel. -/
def outOfFuel {α : Type} : P α := fun _ => .outOfFuel

namespace parser

/-- The method `ErrorList.Add` on `p.errors`. -/
def addError (p : parser) (epos : Position) (msg : GoString) : parser :=
  { p with scanner := { p.scanner with errs := p.scanner.errs ++ [⟨epos, msg⟩] } }

/-- Modelled from the spec: the method `error` is not among the sources; unless
the mode has `AllErrors`, an error on the line of the last recorded error is
discarded and more than ten recorded errors raise the internal abort signal
(`bailout`); otherwise the error is added to the list. -/
def error (pos : Nat) (msg : GoString) : P Unit := fun p =>
  let epos := p.file.Position pos
  if p.mode &&& AllErrors = 0 then
    let n := p.errors.length
    if 0 < n ∧ p.errors.getLast?.map (fun e => e.Pos.Line) = some epos.Line then .ok () p
    else if 10 < n then .panicked .bailout p
    else .ok () (p.addError epos msg)
  else .ok () (p.addError epos msg)

/-- Modelled from the spec: the method `errorExpected` is not among the sources; it
records an error "expected X, found Y" at the position, where Y describes
the current token when the position is the current one. -/
def errorExpected (pos : Nat) (msg : GoString) : P Unit := fun p =>
  let msg1 := str "expected " ++ msg
  let msg2 :=
    if pos = p.pos then
      if p.tok = .SEMICOLON ∧ p.lit = str "\n" then msg1 ++ str ", found newline"
      else if p.tok.IsLiteral then msg1 ++ str ", found " ++ p.lit
      else msg1 ++ str ", found '" ++ p.tok.String ++ str "'"
    else msg1
  error pos msg2 p

/-- The method `next0`: the next token of the scanner becomes the current one
(tracing left out). -/
def next0 : P Unit := fun p =>
  match p.scanner.Scan with
  | none => .outOfFuel
  | some r =>
    .ok () { p with scanner := r.s, pos := r.pos, tok := r.tok, lit := r.lit,
                    nscan := p.nscan + 1 }

/-- The method `consumeComment`: the comment and the line on which it ends. -/
def consumeComment : P (Comment × Int) := fun p =>
  let endline : Int := Int.ofNat (p.file.Line p.pos)
  let endline1 : Int :=
    if p.lit.getD 1 0 = 42 then endline + Int.ofNat (p.lit.count 10) else endline
  let comment : Comment := ⟨p.pos, p.lit⟩
  match next0 p with
  | .ok _ p1 => .ok (comment, endline1) p1
  | .panicked e p1 => .panicked e p1
  | .outOfFuel => .outOfFuel

/-- The loop of `consumeCommentGroup`. -/
def consumeCommentGroupLoop (n : Nat) : Nat → List Comment → Int → P (List Comment × Int)
  | 0, _, _ => outOfFuel
  | f + 1, list, endline => fun p =>
    if p.tok = .COMMENT ∧ Int.ofNat (p.file.Line p.pos) ≤ endline + Int.ofNat n then
      match consumeComment p with
      | .ok (comment, endline1) p1 => consumeCommentGroupLoop n f (list ++ [comment]) endline1 p1
      | .panicked e p1 => .panicked e p1
      | .outOfFuel => .outOfFuel
    else .ok (list, endline) p

/-- The method `consumeCommentGroup`: a group of adjacent comments, added to
the comments of the parser, and the line at which its last comment ends. -/
def consumeCommentGroup (n : Nat) : P (CommentGroup × Int) := fun p =>
  match consumeCommentGroupLoop n p.fuel [] (Int.ofNat (p.file.Line p.pos)) p with
  | .ok (list, endline) p1 =>
    .ok (⟨list⟩, endline) { p1 with comments := p1.comments ++ [⟨list⟩] }
  | .panicked e p1 => .panicked e p1
  | .outOfFuel => .outOfFuel

/-- The loop of `next` over the successor comments: the last group and the
line at which it ends. -/
def nextLoop : Nat → Option CommentGroup → Int → P (Option CommentGroup × Int)
  | 0, _, _ => outOfFuel
  | f + 1, comment, endline => fun p =>
    if p.tok = .COMMENT then
      match consumeCommentGroup 1 p with
      | .ok (c, e) p1 => nextLoop f (some c) e p1
      | .panicked e p1 => .panicked e p1
      | .outOfFuel => .outOfFuel
    else .ok (comment, endline) p

/-- The method `next`: advance to the next non-comment token, collect the
comment groups on the way and remember the last lead and line comments. -/
def next : P Unit := fun p0 =>
  let prev := p0.pos
  match next0 { p0 with leadComment := none, lineComment := none } with
  | .panicked e p1 => .panicked e p1
  | .outOfFuel => .outOfFuel
  | .ok _ p =>
    if p.tok = .COMMENT then
      let first : Res (Option CommentGroup) :=
        if p.file.Line p.pos = p.file.Line prev then
          -- a comment on the line of the previous token
          match consumeCommentGroup 0 p with
          | .ok (comment, endline) p1 =>
            if Int.ofNat (p1.file.Line p1.pos) ≠ endline ∨ p1.tok = .EOF then
              .ok (some comment) { p1 with lineComment := some comment }
            else .ok (some comment) p1
          | .panicked e p1 => .panicked e p1
          | .outOfFuel => .outOfFuel
        else .ok none p
      match first with
      | .panicked e p1 => .panicked e p1
      | .outOfFuel => .outOfFuel
      | .ok comment p1 =>
        -- consume successor comments, if any
        match nextLoop p1.fuel comment (-1) p1 with
        | .panicked e p2 => .panicked e p2
        | .outOfFuel => .outOfFuel
        | .ok (comment2, endline) p2 =>
          if endline + 1 = Int.ofNat (p2.file.Line p2.pos) then
            .ok () { p2 with leadComment := comment2 }
          else .ok () p2
    else .ok () p

/-- The method `expect`. -/
def expect (tok : Token) : P Nat := do
  let p ← getP
  let pos := p.pos
  if p.tok ≠ tok then
    errorExpected pos (str "'" ++ tok.String ++ str "'")
  next
  pure pos

/-- The synchronizing set `stmtStart`. -/
def stmtStart (t : Token) : Bool := t = .TYPE

/-- The synchronizing set `declStart`. -/
def declStart (t : Token) : Bool :=
  t = .IMPORT ∨ t = .INFO ∨ t = .TYPE ∨ t = .SYNTAX ∨ t = .ATSERVER ∨ t = .SERVICE

/-- The synchronizing set `exprEnd`. -/
def exprEnd (t : Token) : Bool :=
  t = .COMMA ∨ t = .COLON ∨ t = .SEMICOLON ∨ t = .RPAREN ∨ t = .RBRACK ∨ t = .RBRACE

/-- The loop of `advance` (`to_` is the parameter `to`). -/
def advanceLoop (to_ : Token → Bool) : Nat → P Unit
  | 0 => outOfFuel
  | f + 1 => fun p =>
    if p.tok ≠ .EOF then
      if to_ p.tok then
        -- Return only if parser made some progress since last sync or if it
        -- has not reached 10 advance calls without progress.
        if p.pos = p.syncPos ∧ p.syncCnt < 10 then
          .ok () { p with syncCnt := p.syncCnt + 1 }
        else if p.syncPos < p.pos then
          .ok () { p with syncPos := p.pos, syncCnt := 0 }
        else
          match next p with
          | .ok _ p1 => advanceLoop to_ f p1
          | .panicked e p1 => .panicked e p1
          | .outOfFuel => .outOfFuel
      else
        match next p with
        | .ok _ p1 => advanceLoop to_ f p1
        | .panicked e p1 => .panicked e p1
        | .outOfFuel => .outOfFuel
    else .ok () p

/-- The method `advance`: skip tokens until one of the synchronizing set is
current, with the limit on calls without progress. -/
def advance (to_ : Token → Bool) : P Unit := fun p => advanceLoop to_ p.fuel p

/-- The method `expectSemi`. -/
def expectSemi : P Unit := do
  let p ← getP
  -- semicolon is optional before a closing ')' or '}'
  if p.tok ≠ .RPAREN ∧ p.tok ≠ .RBRACE then
    if p.tok = .COMMA then
      -- permit a ',' instead of a ';' but complain
      errorExpected p.pos (str "';'")
      next
    else if p.tok = .SEMICOLON then
      next
    else
      errorExpected p.pos (str "';'")
      advance stmtStart

/-- The method `parseIdent`. -/
def parseIdent : P Ident := do
  let p ← getP
  let pos := p.pos
  if p.tok = .IDENT then
    next
    pure ⟨pos, p.lit⟩
  else
    let _ ← expect .IDENT -- use expect() error handling
    pure ⟨pos, str "_"⟩

/-- The method `parseSyntax`. -/
def parseSyntax : P SyntaxSpec := do
  let pos ← expect .SYNTAX
  let assignPos ← expect .ASSIGN
  let p ← getP
  let namePos := p.pos
  let name ←
    if p.tok = .STRING then do
      next
      pure p.lit
    else do
      let _ ← expect .STRING -- use expect() error handling
      pure []
  expectSemi
  pure ⟨pos, assignPos, some ⟨namePos, .STRING, name⟩⟩

/-- The loop of `parseApiIdent` over a path such as `/path/:name`. -/
def apiPathLoop : Nat → GoString → P GoString
  | 0, _ => outOfFuel
  | f + 1, name => fun p =>
    if p.tok ≠ .EOF then
      -- current is Ident, need to check next is Ident. it should break
      let check : Bool := ¬ (p.tok = .QUO ∨ p.tok = .COLON)
      let name1 := if p.tok = .QUO ∨ p.tok = .COLON then name ++ p.tok.String else name ++ p.lit
      match next p with
      | .ok _ p1 =>
        if check ∧ (p1.tok ≠ .QUO ∧ p1.tok ≠ .COLON) then .ok name1 p1
        else apiPathLoop f name1 p1
      | .panicked e p1 => .panicked e p1
      | .outOfFuel => .outOfFuel
    else .ok name p

/-- The loop of `parseApiIdent` over a name such as `user-api`. -/
def apiSubLoop : Nat → GoString → P GoString
  | 0, _ => outOfFuel
  | f + 1, name => fun p =>
    if p.tok = .SUB then
      match next p with
      | .ok _ p1 =>
        match next p1 with
        | .ok _ p2 => apiSubLoop f (name ++ p.lit ++ p1.lit) p2
        | .panicked e p2 => .panicked e p2
        | .outOfFuel => .outOfFuel
      | .panicked e p1 => .panicked e p1
      | .outOfFuel => .outOfFuel
    else .ok name p

/-- The method `parseApiIdent`: an identifier of the api language, such as
`user-api` or `/path/:name`. -/
def parseApiIdent : P Ident := fun p =>
  let pos := p.pos
  if p.tok = .QUO then -- colon for "/path/:name
    match apiPathLoop p.fuel [] p with
    | .ok name p1 => .ok ⟨pos, name⟩ p1
    | .panicked e p1 => .panicked e p1
    | .outOfFuel => .outOfFuel
  else if p.tok = .ATSERVER ∨ p.tok = .DOC ∨ p.tok = .HANDLER then -- support @
    match next p with
    | .ok _ p1 => .ok ⟨pos, p.lit⟩ p1
    | .panicked e p1 => .panicked e p1
    | .outOfFuel => .outOfFuel
  else if p.tok = .IDENT then
    match next p with
    | .ok _ p1 =>
      match apiSubLoop p1.fuel p.lit p1 with -- support user-api
      | .ok name p2 => .ok ⟨pos, name⟩ p2
      | .panicked e p2 => .panicked e p2
      | .outOfFuel => .outOfFuel
    | .panicked e p1 => .panicked e p1
    | .outOfFuel => .outOfFuel
  else
    match expect .IDENT p with -- use expect() error handling
    | .ok _ p1 => .ok ⟨pos, str "_"⟩ p1
    | .panicked e p1 => .panicked e p1
    | .outOfFuel => .outOfFuel

/-- The rune loop of `isValidImport`: whether every rune of the string is
graphic, no space and none of the illegal characters. -/
def validImportRunes (lib : Lib) : Nat → GoString → Bool
  | 0, _ => true
  | _, [] => true
  | f + 1, b :: bs =>
    let rw := DecodeRune (b :: bs)
    let r := rw.1
    if ¬ lib.IsGraphic r ∨ lib.IsSpace r
        ∨ r ∈ ([33, 34, 35, 36, 37, 38, 39, 40, 41, 42, 44, 58, 59, 60, 61, 62, 63, 91, 92,
                93, 94, 123, 124, 125, 96, 0xFFFD] : List Int) then false
    else validImportRunes lib f ((b :: bs).drop rw.2)

/-- The function `isValidImport`. -/
def isValidImport (lib : Lib) (lit : GoString) : Bool :=
  let s := (lib.Unquote lit).getD [] -- go/scanner returns a legal string literal
  validImportRunes lib s.length s ∧ s ≠ []

/-- The method `parseImportSpec`. -/
def parseImportSpec (doc : Option CommentGroup) : P Spec := do
  let p ← getP
  let pos := p.pos
  let path ←
    if p.tok = .STRING then do
      if ¬ isValidImport p.scanner.lib p.lit then
        error pos (str "invalid import path: " ++ p.lit)
      next
      pure p.lit
    else do
      let _ ← expect .STRING -- use expect() error handling
      pure []
  expectSemi
  let p1 ← getP
  let spec : ImportSpec := ⟨doc, ⟨pos, .STRING, path⟩, p1.lineComment, 0⟩
  modP (fun q => { q with imports := q.imports ++ [spec] })
  pure (.ImportSpec spec)

/-- The method `parseTypeName`. If the result is an identifier, it is not
resolved. -/
def parseTypeName (ident : Option Ident) : P Expr := do
  let ident1 ← match ident with
    | none => parseIdent
    | some i => pure i
  let p ← getP
  if p.tok = .PERIOD then
    -- ident is a package name
    next
    let sel ← parseIdent
    pure (.SelectorExpr (.Ident ident1) sel)
  else pure (.Ident ident1)

/-- The method `parseQualifiedIdent`. -/
def parseQualifiedIdent (ident : Ident) : P Expr := parseTypeName (some ident)

/-- The loop of `parseFieldDecl` over the names `name1, name2, ...`. -/
def fieldNamesLoop : Nat → List Ident → P (List Ident)
  | 0, _ => outOfFuel
  | f + 1, names => fun p =>
    if p.tok = .COMMA then
      match next p with
      | .ok _ p1 =>
        match parseIdent p1 with
        | .ok i p2 => fieldNamesLoop f (names ++ [i]) p2
        | .panicked e p2 => .panicked e p2
        | .outOfFuel => .outOfFuel
      | .panicked e p1 => .panicked e p1
      | .outOfFuel => .outOfFuel
    else .ok names p

mutual
/-- The method `parseType`, with the fuel of the recursion. -/
def parseTypeF : Nat → P Expr
  | 0 => outOfFuel
  | n + 1 => do
    let typ ← tryIdentOrTypeF n
    match typ with
    | none =>
      let p ← getP
      let pos := p.pos
      errorExpected pos (str "type")
      advance exprEnd
      let p1 ← getP
      pure (.BadExpr pos p1.pos)
    | some t => pure t
/-- The method `tryIdentOrType`, with the fuel of the recursion; `none` when
no type is found. -/
def tryIdentOrTypeF : Nat → P (Option Expr)
  | 0 => outOfFuel
  | n + 1 => do
    let p ← getP
    if p.tok = .IDENT then
      let t ← parseTypeName none
      pure (some t)
    else if p.tok = .LBRACK then
      let lbrack ← expect .LBRACK
      let t ← parseArrayTypeF n lbrack none
      pure (some t)
    else if p.tok = .STRUCT ∨ p.tok = .LBRACE then
      -- support "type User {"  or "type User struct {"
      let t ← parseStructTypeF n
      pure (some t)
    else if p.tok = .MUL then
      let t ← parsePointerTypeF n
      pure (some t)
    else if p.tok = .MAP then
      let t ← parseMapTypeF n
      pure (some t)
    else if p.tok = .LPAREN then
      let lparen := p.pos
      next
      let typ ← parseTypeF n
      let rparen ← expect .RPAREN
      pure (some (.ParenExpr lparen typ rparen))
    else
      -- no type found
      pure none
/-- The method `parseStructType`, with the fuel of the recursion. -/
def parseStructTypeF : Nat → P Expr
  | 0 => outOfFuel
  | n + 1 => do
    let p ← getP
    let pl ←
      if p.tok = .STRUCT then do
        let pos ← expect .STRUCT
        let lbrace ← expect .LBRACE
        pure (pos, lbrace)
      else do
        let pos ← expect .LBRACE
        pure (pos, pos)
    let list ← structFieldsF n []
    let rbrace ← expect .RBRACE
    pure (.StructType pl.1 pl.2 list rbrace)
/-- The field loop of `parseStructType`. -/
def structFieldsF : Nat → List Field → P (List Field)
  | 0, _ => outOfFuel
  | n + 1, list => do
    let p ← getP
    if p.tok = .IDENT ∨ p.tok = .MUL ∨ p.tok = .LPAREN then
      let f ← parseFieldDeclF n
      structFieldsF n (list ++ [f])
    else pure list
/-- The method `parseFieldDecl`, with the fuel of the recursion. -/
def parseFieldDeclF : Nat → P Field
  | 0 => outOfFuel
  | n + 1 => do
    let p ← getP
    let doc := p.leadComment
    let nt ←
      if p.tok = .IDENT then do
        let name ← parseIdent
        let p1 ← getP
        if p1.tok = .PERIOD ∨ p1.tok = .STRING ∨ p1.tok = .SEMICOLON ∨ p1.tok = .RBRACE then
          -- embedded type
          if p1.tok = .PERIOD then do -- for package.User
            let typ ← parseQualifiedIdent name
            pure (([] : List Ident), typ)
          else pure (([] : List Ident), Expr.Ident name)
        else do
          -- name1, name2, ... T
          let names ← (fun q => fieldNamesLoop q.fuel [name] q : P (List Ident))
          let typ ← parseTypeF n
          pure (names, typ)
      else do
        let typ ← parseTypeF n
        pure (([] : List Ident), typ)
    -- tag
    let p2 ← getP
    let tag ←
      if p2.tok = .STRING then do
        next
        pure (some (⟨p2.pos, p2.tok, p2.lit⟩ : BasicLit))
      else pure none
    expectSemi
    let p3 ← getP
    pure (.mk doc nt.1 nt.2 tag p3.lineComment)
/-- The method `parseArrayType`, with the fuel of the recursion: "[" has
already been consumed, and lbrack is its position. -/
def parseArrayTypeF : Nat → Nat → Option Expr → P Expr
  | 0, _, _ => outOfFuel
  | n + 1, lbrack, len => do
    let _ ← expect .LBRACK
    let elt ← parseTypeF n
    pure (.ArrayType lbrack len elt)
/-- The method `parsePointerType`, with the fuel of the recursion. -/
def parsePointerTypeF : Nat → P Expr
  | 0 => outOfFuel
  | n + 1 => do
    let star ← expect .MUL
    let base ← parseTypeF n
    pure (.StarExpr star base)
/-- The method `parseMapType`, with the fuel of the recursion. -/
def parseMapTypeF : Nat → P Expr
  | 0 => outOfFuel
  | n + 1 => do
    let pos ← expect .MAP
    let _ ← expect .LBRACK
    let key ← parseTypeF n
    let _ ← expect .RBRACK
    let value ← parseTypeF n
    pure (.MapType pos key value)
end

/-- The method `parseType`. -/
def parseType : P Expr := fun p => parseTypeF p.fuel p

/-- The method `tryIdentOrType`. -/
def tryIdentOrType : P (Option Expr) := fun p => tryIdentOrTypeF p.fuel p

/-- The method `parseStructType`. -/
def parseStructType : P Expr := fun p => parseStructTypeF p.fuel p

/-- The method `parseFieldDecl`. -/
def parseFieldDecl : P Field := fun p => parseFieldDeclF p.fuel p

/-- The method `parseArrayType`. -/
def parseArrayType (lbrack : Nat) (len : Option Expr) : P Expr :=
  fun p => parseArrayTypeF p.fuel lbrack len p

/-- The method `parsePointerType`. -/
def parsePointerType : P Expr := fun p => parsePointerTypeF p.fuel p

/-- The method `parseMapType`. -/
def parseMapType : P Expr := fun p => parseMapTypeF p.fuel p

/-- The method `parseTypeSpec`. -/
def parseTypeSpec (doc : Option CommentGroup) : P Spec := do
  let ident ← parseIdent
  -- no need generics
  let typ ← parseType
  expectSemi
  let p ← getP
  pure (.TypeSpec ⟨doc, ident, typ, p.lineComment⟩)

/-- The spec loop of `parseGenDecl`. -/
def genDeclLoop (f : Option CommentGroup → P Spec) : Nat → List Spec → P (List Spec)
  | 0, _ => outOfFuel
  | n + 1, list => fun p =>
    if p.tok ≠ .RPAREN ∧ p.tok ≠ .EOF then
      match f p.leadComment p with
      | .ok spec p1 => genDeclLoop f n (list ++ [spec]) p1
      | .panicked e p1 => .panicked e p1
      | .outOfFuel => .outOfFuel
    else .ok list p

/-- The method `parseGenDecl`; the parse function gets the doc comment (its
other arguments, which both parse functions ignore, are left out). -/
def parseGenDecl (keyword : Token) (f : Option CommentGroup → P Spec) : P GenDecl := do
  let p ← getP
  let doc := p.leadComment
  let pos ← expect keyword
  let p1 ← getP
  if p1.tok = .LPAREN then
    let lparen := p1.pos
    next
    let list ← (fun q => genDeclLoop f q.fuel [] q : P (List Spec))
    let rparen ← expect .RPAREN
    expectSemi
    pure ⟨doc, pos, keyword, lparen, list, rparen⟩
  else
    let spec ← f doc
    pure ⟨doc, pos, keyword, 0, [spec], 0⟩

/-- The method `parseElement`. -/
def parseElement (expectColon : Bool) : P KeyValueExpr := do
  let key ← parseApiIdent
  let colon ← if expectColon then expect .COLON else pure 0
  let p ← getP
  let value ←
    if p.tok = .STRING then do
      next
      pure (Expr.BasicLit ⟨p.pos, .STRING, p.lit⟩)
    else do
      let i ← parseIdent
      pure (Expr.Ident i)
  pure ⟨key, colon, value⟩

/-- The loop of `parseElementList`. -/
def elementListLoop : Nat → List KeyValueExpr → P (List KeyValueExpr)
  | 0, _ => outOfFuel
  | n + 1, kvs => fun p =>
    if p.tok ≠ .RPAREN ∧ p.tok ≠ .EOF then
      match parseElement true p with
      | .ok kv p1 =>
        match expectSemi p1 with
        | .ok _ p2 => elementListLoop n (kvs ++ [kv]) p2
        | .panicked e p2 => .panicked e p2
        | .outOfFuel => .outOfFuel
      | .panicked e p1 => .panicked e p1
      | .outOfFuel => .outOfFuel
    else .ok kvs p

/-- The method `parseElementList`. -/
def parseElementList : P (List KeyValueExpr) := fun p => elementListLoop p.fuel [] p

/-- The method `parseInfoType`. -/
def parseInfoType : P InfoType := do
  let pos ← expect .INFO
  let _ ← expect .LPAREN
  let kvs ← parseElementList
  let endPos ← expect .RPAREN
  expectSemi
  pure ⟨pos, kvs, endPos⟩

/-- The method `parseAtServer`. -/
def parseAtServer : P AtServer := do
  let p ← getP
  let pos := p.pos
  let _ ← expect .LPAREN
  let kvs ← parseElementList
  let rParen ← expect .RPAREN
  expectSemi
  pure ⟨pos, kvs, rParen⟩

/-- The part of `parseRoute` that reads an optional parenthesized type. -/
def parseRouteParen : P (Option ParenExpr) := do
  let p ← getP
  if p.tok = .LPAREN then
    let lparen := p.pos
    next
    let typ ← parseType
    let rparen ← expect .RPAREN
    pure (some ⟨lparen, typ, rparen⟩)
  else pure none

/-- The method `parseRoute`. -/
def parseRoute : P Route := do
  let method ← parseIdent
  let path ← parseApiIdent
  let rPos0 := path.End
  let req ← parseRouteParen
  let rPos1 := match req with
    | some r => r.Rparen
    | none => rPos0
  let p ← getP
  let returnPos ←
    if p.tok = .RETURNS then do
      next
      pure p.pos
    else pure 0
  let rPos2 := if p.tok = .RETURNS then returnPos else rPos1
  let resp ← parseRouteParen
  let rPos3 := match resp with
    | some r => r.Rparen
    | none => rPos2
  expectSemi
  pure ⟨method, path, req, returnPos, resp, rPos3⟩

/-- The loop of `parseServiceRoute` over the `@doc` and `@handler` elements. -/
def routeAtLoop : Nat → Option KeyValueExpr → Option KeyValueExpr →
    P (Option KeyValueExpr × Option KeyValueExpr)
  | 0, _, _ => outOfFuel
  | n + 1, atDoc, atHandler => fun p =>
    if p.tok = .DOC ∨ p.tok = .HANDLER then
      match parseElement false p with
      | .ok kv p1 =>
        match expectSemi p1 with
        | .ok _ p2 =>
          if p.tok = .DOC then routeAtLoop n (some kv) atHandler p2
          else routeAtLoop n atDoc (some kv) p2
        | .panicked e p2 => .panicked e p2
        | .outOfFuel => .outOfFuel
      | .panicked e p1 => .panicked e p1
      | .outOfFuel => .outOfFuel
    else .ok (atDoc, atHandler) p

/-- The method `parseServiceRoute`. -/
def parseServiceRoute : P ServiceRoute := do
  let p ← getP
  let pos := p.pos
  let at_ ← (fun q => routeAtLoop q.fuel none none q :
    P (Option KeyValueExpr × Option KeyValueExpr))
  let route ← parseRoute
  pure ⟨pos, at_.1, at_.2, route⟩

/-- The loop of `parseServiceRouteList`. -/
def serviceRouteListLoop : Nat → List ServiceRoute → P (List ServiceRoute)
  | 0, _ => outOfFuel
  | n + 1, routes => fun p =>
    if p.tok ≠ .RBRACE ∧ p.tok ≠ .EOF then
      match parseServiceRoute p with
      | .ok r p1 => serviceRouteListLoop n (routes ++ [r]) p1
      | .panicked e p1 => .panicked e p1
      | .outOfFuel => .outOfFuel
    else .ok routes p

/-- The method `parseServiceRouteList`. -/
def parseServiceRouteList : P (List ServiceRoute) :=
  fun p => serviceRouteListLoop p.fuel [] p

/-- The method `parseServiceApi`. -/
def parseServiceApi : P ServiceApi := do
  let pos ← expect .SERVICE
  let name ← parseApiIdent
  let lBrace ← expect .LBRACE
  let serviceRoutes ← parseServiceRouteList
  let rBrace ← expect .RBRACE
  expectSemi
  pure ⟨pos, name, lBrace, serviceRoutes, rBrace⟩

/-- The method `parseService`. -/
def parseService : P Service := do
  let p ← getP
  let atServer ←
    if p.tok = .ATSERVER then do
      let a ← parseAtServer
      pure (some a)
    else pure none
  let serviceApi ← parseServiceApi
  pure ⟨atServer, serviceApi⟩

/-- The method `parseDecl` (`sync` is its parameter). -/
def parseDecl (sync : Token → Bool) : P Decl := do
  let p ← getP
  if p.tok = .TYPE then
    let d ← parseGenDecl p.tok parseTypeSpec
    pure (.GenDecl d)
  else if p.tok = .ATSERVER ∨ p.tok = .SERVICE then
    let d ← parseService
    pure (.Service d)
  else if p.tok = .INFO then
    let d ← parseInfoType
    pure (.InfoType d)
  else if p.tok = .IMPORT then
    let d ← parseGenDecl .IMPORT parseImportSpec
    pure (.GenDecl d)
  else
    let pos := p.pos
    errorExpected pos (str "declaration")
    advance sync
    let p1 ← getP
    pure (.BadDecl pos p1.pos)

/-- The declaration loop of `parseFile`. -/
def declsLoop : Nat → List Decl → P (List Decl)
  | 0, _ => outOfFuel
  | n + 1, decls => fun p =>
    if p.tok ≠ .EOF then
      match parseDecl declStart p with
      | .ok d p1 => declsLoop n (decls ++ [d]) p1
      | .panicked e p1 => .panicked e p1
      | .outOfFuel => .outOfFuel
    else .ok decls p

/-- Modelled from the spec: `resolveFile` is not among the sources; the AST has no
scopes or objects to resolve (the spec describes no resolution across
declarations), so it leaves the file and the error list as they are. -/
def resolveFile (_f : AstFile) : P Unit := pure ()

/-- The method `parseFile`; `none` is the nil file. -/
def parseFile : P (Option AstFile) := do
  let p ← getP
  if p.errors.length ≠ 0 then
    pure none
  else
    let doc := p.leadComment
    let syn ←
      if p.tok = .SYNTAX then parseSyntax -- syntax = "v1"
      else do
        expectSemi
        goPanic (Panic.other (str "not finished"))
    let decls ← (fun q => declsLoop q.fuel [] q : P (List Decl))
    let p1 ← getP
    let f : AstFile := ⟨doc, some syn, decls, p1.imports, p1.comments⟩
    if p1.mode &&& SkipObjectResolution = 0 then
      resolveFile f
    pure (some f)

/-- The method `init`. -/
def init (lib : Lib) (base : Nat) (filename : GoString) (src : GoString) (mode : Nat) :
    Res Unit :=
  let file : File := ⟨filename, base, src.length, [0]⟩
  let m := if mode &&& ParseComments ≠ 0 then ScanComments else 0
  next
    { scanner := Scanner.Init lib file src m, mode := mode, comments := [],
      leadComment := none, lineComment := none, pos := 0, tok := .ILLEGAL, lit := [],
      syncPos := 0, syncCnt := 0, imports := [], nscan := 0 }

end parser

/-- The order `ErrorList.Less` of the Go standard library: by file name, line,
column and message. -/
def Error.Less (a b : Error) : Bool :=
  if a.Pos.Filename ≠ b.Pos.Filename then decide (a.Pos.Filename < b.Pos.Filename)
  else if a.Pos.Line ≠ b.Pos.Line then decide (a.Pos.Line < b.Pos.Line)
  else if a.Pos.Column ≠ b.Pos.Column then decide (a.Pos.Column < b.Pos.Column)
  else decide (a.Msg < b.Msg)

/-- The method `ErrorList.Sort` of the Go standard library: the list sorted by
`Less`. -/
def ErrorList.Sort (l : ErrorList) : ErrorList :=
  l.insertionSort (fun a b => Error.Less b a = false)

/-- The method `ErrorList.Err` of the Go standard library: nil for an empty
list. -/
def ErrorList.Err (l : ErrorList) : Option ErrorList :=
  if l.length = 0 then none else some l

/-- The run of `p.init` followed by `p.parseFile` inside `ParseFile`. -/
def parseRun (lib : Lib) (base : Nat) (filename src : GoString) (mode : Nat) :
    Res (Option AstFile) :=
  match parser.init lib base filename src mode with
  | .ok _ p => parser.parseFile p
  | .panicked e p => .panicked e p
  | .outOfFuel => .outOfFuel

/-- The outcome of `ParseFile`: it returns a file and an error, or a panic
escapes, or a loop of the model ran out of fuel. -/
inductive ParseResult where
  | returned (f : AstFile) (err : Option ErrorList)
  | panics (msg : GoString)
  | outOfFuel

/-- The function `ParseFile` on a source that was read. The deferred function
recovers from a `bailout` and panics again on any other value, replaces a nil
file and returns the sorted error list. -/
def ParseFile (lib : Lib) (base : Nat) (filename src : GoString) (mode : Nat) : ParseResult :=
  match parseRun lib base filename src mode with
  | .ok f p => .returned (f.getD AstFile.zero) (ErrorList.Err (ErrorList.Sort p.errors))
  | .panicked .bailout p => .returned AstFile.zero (ErrorList.Err (ErrorList.Sort p.errors))
  | .panicked (.other msg) _ => .panics msg
  | .outOfFuel => .outOfFuel

/-- The outcome of `Parse` of `cmd/apifmt/internal`: it returns a file, which
may be nil (`none`), and an error, or a panic escapes, or a loop of the model
ran out of fuel. -/
inductive ParseOutcome where
  | returned (f : Option AstFile) (err : Option ErrorList)
  | panics (msg : GoString)
  | outOfFuel

/-- The function `Parse` of `cmd/apifmt/internal/internal.go`: the result of
`parser.ParseFile`, with a nil file when the error is not nil. -/
def internal.Parse (lib : Lib) (base : Nat) (filename src : GoString) (parserMode : Nat) :
    ParseOutcome :=
  match ParseFile lib base filename src parserMode with
  | .returned file err =>
    if err ≠ none then .returned none err
    else .returned (some file) err
  | .panics msg => .panics msg
  | .outOfFuel => .outOfFuel

/-! ## Definitions used to state the theorems -/

/-- The error value `ParseFile` returns (`none` for a nil error, and when a
panic escapes). -/
def ParseResult.err : ParseResult → Option ErrorList
  | .returned _ e => e
  | _ => none

/-- The file `ParseFile` returns, if it returns. -/
def ParseResult.file : ParseResult → Option AstFile
  | .returned f _ => some f
  | _ => none

/-- The value of the panic that escapes `ParseFile`, if one does. -/
def ParseResult.panicMsg : ParseResult → Option GoString
  | .panics m => some m
  | _ => none

/-- The parser state at the end of a run, if the run ended. -/
def Res.state {α : Type} : Res α → Option parser
  | .ok _ p => some p
  | .panicked _ p => some p
  | .outOfFuel => none

/-- The names of the services declared in a file, in order. -/
def serviceNames (f : AstFile) : List Ident :=
  f.Decls.filterMap (fun d => match d with
    | .Service x => some x.ServiceApi.Name
    | _ => none)

/-- The order of positions by file name, then line, then column. -/
def Position.le (a b : Position) : Prop :=
  a.Filename < b.Filename ∨
    (a.Filename = b.Filename ∧ (a.Line < b.Line ∨ (a.Line = b.Line ∧ a.Column ≤ b.Column)))

/-- The invariant of the scanner state between two reads: at the end of the
file the read offset is at the end of the source, an ASCII character is one
byte wide, no character is below `eof`, the offset of the current
character is neither beyond the read offset nor beyond the source, at the end
of the file the offset is the length of the source, and before the end it is
inside the source. -/
structure Scanner.Inv (s : Scanner) : Prop where
  atEnd : s.ch = eof → s.src.length ≤ s.rdOffset
  ascii : 0 ≤ s.ch ∧ s.ch < 128 → s.rdOffset = s.offset + 1
  chGe : -1 ≤ s.ch
  offLe : s.offset ≤ s.rdOffset
  offLen : s.offset ≤ s.src.length
  eofOff : s.ch = eof → s.offset = s.src.length
  chLt : s.ch ≠ eof → s.offset < s.src.length

/-- The messages of the scanner begin with one of the words `illegal`,
`comment`, `string`, `raw`, `rune`, `escape` and `unknown`; the first two bytes
tell them from the messages of the parser (`expected ...`, `invalid ...`). -/
def lexMsg (m : GoString) : Bool :=
  m.take 2 ∈ [str "il", str "co", str "st", str "ra", str "ru", str "es", str "un"]

/-- The kinds after which the scanner inserts a semicolon at the end of a line:
identifier, literal, `)`, `]`, `\x7d`, `++` and `--`. -/
def Token.endsStatement (t : Token) : Bool :=
  t = .IDENT ∨ t = .INT ∨ t = .FLOAT ∨ t = .IMAG ∨ t = .CHAR ∨ t = .STRING ∨ t = .RPAREN
    ∨ t = .RBRACK ∨ t = .RBRACE ∨ t = .INC ∨ t = .DEC

/-- The number of calls of `next` until the end of the file is reached, at
most. -/
def Scanner.left (s : Scanner) : Nat :=
  if s.ch = eof then 0 else s.src.length - s.rdOffset + 1

/-- The measure that every `Scan` which does not return `EOF` decreases. -/
def Scanner.measure (s : Scanner) : Nat :=
  2 * s.left + (if s.insertSemi then 1 else 0)

/-- The line table `l2` is `l1` with line starts added at its end, all of them
beyond the offset `x`. -/
def LinesGrow (x : Nat) (l1 l2 : List Nat) : Prop :=
  ∃ t, l2 = l1 ++ t ∧ ∀ e ∈ t, x < e

/-- The scanner `s1` is reached from `s` by reading on: the invariant holds,
nothing is left to read that was not before, the source, the mode, the
library, the file base and the insert-semicolon flag are those
of `s`, the offset did not go back, the line table has only grown, by line
starts beyond the offset of `s`, and the errors of `s` are still there,
followed by the messages of the scanner recorded since. -/
structure Scanner.Reads (s s1 : Scanner) : Prop where
  inv : s1.Inv
  left : s1.left ≤ s.left
  src : s1.src = s.src
  mode : s1.mode = s.mode
  lib : s1.lib = s.lib
  base : s1.file.base = s.file.base
  semi : s1.insertSemi = s.insertSemi
  off : s.offset ≤ s1.offset
  lines : LinesGrow s.offset s.file.lines s1.file.lines
  errs : ∃ l, s1.errs = s.errs ++ l ∧ ∀ e ∈ l, lexMsg e.Msg


/-- What one call of `Scan` establishes: the invariant holds again, the source,
the mode, the library and the file base stay, a token other than `EOF`
decreases the measure, after `EOF` the scanner is at the end of the file with
the insert-semicolon flag cleared, the flag is set exactly after the kinds
that end a statement (an `ILLEGAL` token apart), no semicolon is inserted
while the flag is clear, in the mode `dontInsertSemis` a clear flag stays
clear, the line table of the file only grows at its end, by line starts
beyond the offset before the call, the errors recorded
before are still there, followed by the messages of
the scanner recorded by the call, the position of the token lies between
the offsets of the scanner before and after the call, after an inserted
semicolon the flag is clear, the position of `EOF` is the offset after the
call, a comment ends before that offset, and an `ILLEGAL` token leaves the flag
set only if the call found it set. -/
structure ScanPost (s : Scanner) (r : ScanResult) : Prop where
  inv : r.s.Inv
  src : r.s.src = s.src
  mode : r.s.mode = s.mode
  lib : r.s.lib = s.lib
  base : r.s.file.base = s.file.base
  errs : ∃ l, r.s.errs = s.errs ++ l ∧ ∀ e ∈ l, lexMsg e.Msg
  posLo : s.file.base + s.offset ≤ r.pos
  posHi : r.pos ≤ r.s.file.base + r.s.offset
  dec : r.tok ≠ .EOF → r.s.measure < s.measure
  atEnd : r.tok = .EOF → r.s.ch = eof ∧ r.s.insertSemi = false
  flag : s.mode &&& dontInsertSemis = 0 → r.tok ≠ .ILLEGAL →
    r.s.insertSemi = r.tok.endsStatement
  nosemi : s.insertSemi = false → ¬ (r.tok = .SEMICOLON ∧ r.lit = str "\n")
  keep : s.mode &&& dontInsertSemis ≠ 0 → s.insertSemi = false → r.s.insertSemi = false
  lines : LinesGrow s.offset s.file.lines r.s.file.lines
  synth : r.tok = .SEMICOLON → r.lit = str "\n" → r.s.insertSemi = false
  eofPos : r.tok = .EOF → r.pos = r.s.file.base + r.s.offset
  adv : r.tok = .COMMENT → r.pos < r.s.file.base + r.s.offset
  illegal : s.mode &&& dontInsertSemis = 0 → r.tok = .ILLEGAL → r.s.insertSemi = true →
    s.insertSemi = true

/-- The token, its literal and the local `insertSemi` of a branch of `Scan`
other than the last fit together: the token is not `EOF`, it is no semicolon
with the literal of an inserted one, the flag is set exactly for the kinds that
end a statement, it is no comment and it is not `ILLEGAL`. -/
def TokOK (lit : GoString) (b : Bool) (tok : Token) : Prop :=
  tok ≠ .EOF ∧ (tok = .SEMICOLON → lit ≠ str "\n") ∧
    (tok ≠ .ILLEGAL → b = tok.endsStatement) ∧ tok ≠ .COMMENT ∧ tok ≠ .ILLEGAL

/-- Inside a general comment: whether the line (or the input) ends before the
comment does, and the scanner after the comment when it does not. -/
def commentBreaksLine : Nat → Scanner → Option (Bool × Scanner)
  | 0, _ => none
  | n + 1, s =>
    if s.ch < 0 ∨ s.ch = 10 then some (true, s)
    else if s.ch = 42 ∧ s.next.ch = 47 then some (false, s.next.next)
    else commentBreaksLine n s.next

/-- The loop of `Scanner.lineEnds`. -/
def restOfLineLoop : Nat → Scanner → Option Bool
  | 0, _ => none
  | n + 1, s =>
    if s.ch = 32 ∨ s.ch = 9 ∨ s.ch = 13 then restOfLineLoop n s.next
    else if s.ch < 0 ∨ s.ch = 10 then some true
    else if s.ch = 47 ∧ s.next.ch = 47 then some true
    else if s.ch = 47 ∧ s.next.ch = 42 then
      match commentBreaksLine s.fuel s.next.next with
      | none => none
      | some (true, _) => some true
      | some (false, s1) => restOfLineLoop n s1
    else some false

/-- In the words of the claim: the token just scanned is the last non-comment
token on its line or in the input, that is, from the current character on the
line (or the input) holds only blanks and comments: a newline or the end of
the input follows, or a `//` comment, or a general comment that runs over the
end of the line or is followed by the same. -/
def Scanner.lineEnds (s : Scanner) : Option Bool := restOfLineLoop s.fuel s

/-- The result of the call number `n + 1` of `Scan`. -/
def nthScan : Nat → Scanner → Option ScanResult
  | 0, s => s.Scan
  | n + 1, s =>
    match s.Scan with
    | none => none
    | some r => nthScan n r.s

/-- The token (kind and literal) that the call number `n + 1` of `Scan`
returns. -/
def tokenAt (n : Nat) (s : Scanner) : Option (Token × GoString) :=
  (nthScan n s).map (fun r => (r.tok, r.lit))

/-- Whether the token of the call number `n + 1` of `Scan` is the last
non-comment token on its line or in the input. -/
def lineEndsAfter (n : Nat) (s : Scanner) : Option Bool :=
  (nthScan n s).bind (fun r => r.s.lineEnds)

/-- Whether the file `Parse` returns is nil, if it returns. -/
def ParseOutcome.nilFile : ParseOutcome → Option Bool
  | .returned f _ => some f.isNone
  | _ => none

/-- The error value `Parse` returns (`none` for a nil error, and when a panic
escapes). -/
def ParseOutcome.err : ParseOutcome → Option ErrorList
  | .returned _ e => e
  | _ => none

/-- The runes of a string in the order in which a `range` loop visits them. -/
def runesOf : Nat → GoString → List Int
  | 0, _ => []
  | _, [] => []
  | f + 1, b :: bs =>
    (DecodeRune (b :: bs)).1 :: runesOf f ((b :: bs).drop (DecodeRune (b :: bs)).2)

/-- The characters that the claim excludes from import paths:
`! " # $ % & ' ( ) * , : ; < = > ? [ \ ] ^ \x7b | \x7d`, the backquote and
U+FFFD. -/
def excludedChars : List Int :=
  (str "!\"#$%&'()*,:;<=>?[\\]^\x7b|\x7d").map Int.ofNat ++ [96, 0xFFFD]

/-- In the words of the claim: the literal unquotes successfully to a
non-empty string in which every character is graphic, is not a space
character and is not one of the excluded characters. -/
def validImportPath (lib : Lib) (lit : GoString) : Bool :=
  match lib.Unquote lit with
  | none => false
  | some s =>
    s ≠ [] ∧ (runesOf s.length s).all (fun r =>
      lib.IsGraphic r ∧ ¬ lib.IsSpace r ∧ r ∉ excludedChars)

/-- The loop of `Scanner.tokens`. -/
def tokensLoop : Nat → Scanner → Nat
  | 0, _ => 0
  | f + 1, s =>
    match s.Scan with
    | none => 0
    | some r => if r.tok = .EOF then 0 else tokensLoop f r.s + 1

/-- The number of tokens that `Scan` still returns before `EOF` (comments
count when the scanner returns them). -/
def Scanner.tokens (s : Scanner) : Nat := tokensLoop (s.measure + 1) s

/-- The tokens left to the parser: none when the current token is `EOF`,
otherwise the current token and those the scanner still returns. -/
def parser.left (p : parser) : Nat := if p.tok = .EOF then 0 else p.scanner.tokens + 1

/-- The invariant of the parser state: the invariant of its scanner holds,
when the current token is `EOF` the scanner is at the end of the file with
the insert-semicolon flag cleared, and the position of the current token is
not beyond the offset of the scanner. -/
structure parser.Inv (p : parser) : Prop where
  scan : p.scanner.Inv
  atEnd : p.tok = .EOF → p.scanner.ch = eof ∧ p.scanner.insertSemi = false
  pos : p.pos ≤ p.scanner.file.base + p.scanner.offset

/-- The messages of syntax errors: those of the scanner and the messages
`expected ...` of the parser. -/
def synMsg (m : GoString) : Bool := lexMsg m || m.take 2 == str "ex"

/-- The parser `q` is reached from `p` by a method that returned: the
invariant holds, the mode is the same, the current position did not go back
and the errors of `p` are still there, followed by the errors recorded since;
a count `syncCnt` of at most 10 stays so; for `b = true` moreover the import
list is the same and the new errors are syntax errors. -/
structure parser.Frame (b : Bool) (p q : parser) : Prop where
  inv : q.Inv
  mode : q.mode = p.mode
  pos : p.pos ≤ q.pos
  errs : ∃ l, q.errors = p.errors ++ l ∧ (b = true → ∀ e ∈ l, synMsg e.Msg)
  imports : b = true → q.imports = p.imports
  sync : p.syncCnt ≤ 10 → q.syncCnt ≤ 10

/-- The account of `Scan` calls of a method, for the call count `n` and the
tokens left `t` before and `n1`, `t1` after: the count does not go down; at
the end of the input at most `E` calls are made; while tokens are left every
call consumes one token and at least `K` are consumed; and when the end of
the input is reached, the calls made stay `S` below sixteen per token. -/
def Cost (E S K n t n1 t1 : Nat) : Prop :=
  n ≤ n1 ∧ (t = 0 → t1 = 0 ∧ n1 ≤ n + E) ∧ (0 < t → 0 < t1 → n1 + t1 = n + t ∧ n + K ≤ n1) ∧
    (0 < t → t1 = 0 → n1 + S ≤ n + 16 * t)

/-- The run of a method from the state `p` ended, within the account: it
returned in a state reached from `p`, or (for `c = true` only) it raised the
`bailout` panic, which happens only without the mode `AllErrors`; no loop ran
out of fuel. -/
inductive Res.Good {α : Type} (c b : Bool) (E S K : Nat) (p : parser) : Res α → Prop where
  | ok (a : α) (q : parser) (frame : p.Frame b q)
      (cost : Cost E S K p.nscan p.left q.nscan q.left) : Res.Good c b E S K p (.ok a q)
  | panicked (e : Panic) (q : parser) (may : c = true) (bail : e = .bailout)
      (mode : p.mode &&& AllErrors = 0)
      (cost : Cost E S K p.nscan p.left q.nscan 0) : Res.Good c b E S K p (.panicked e q)

/-- The scanner `s` with the errors `g` recorded before those of `s`: what the
scanner does never depends on the errors recorded. -/
def Scanner.logged (g : ErrorList) (s : Scanner) : Scanner := { s with errs := g ++ s.errs }

/-- The result of `Scan` with the errors `g` recorded before. -/
def ScanResult.logged (g : ErrorList) (r : ScanResult) : ScanResult :=
  { r with s := r.s.logged g }

/-- The tokens at which `tryIdentOrType` finds a type. -/
def startsType (t : Token) : Bool :=
  t = .IDENT ∨ t = .LBRACK ∨ t = .STRUCT ∨ t = .LBRACE ∨ t = .MUL ∨ t = .MAP ∨ t = .LPAREN

/-- The accounts of the methods that parse a type, for the fuel `n` of the
recursion: the fuel suffices when it is five times the number of tokens left,
and a few more. -/
structure parser.TypeGood (n : Nat) : Prop where
  typ : ∀ p : parser, p.Inv → 5 * p.left + 2 ≤ n →
    Res.Good true true 0 13 (startsType p.tok).toNat p (parser.parseTypeF n p)
  tryType : ∀ p : parser, p.Inv → 5 * p.left + 1 ≤ n →
    Res.Good true true 0 13 (startsType p.tok).toNat p (parser.tryIdentOrTypeF n p)
  struct : ∀ p : parser, p.Inv → p.tok = .STRUCT ∨ p.tok = .LBRACE → 5 * p.left ≤ n →
    Res.Good true true 0 13 1 p (parser.parseStructTypeF n p)
  fields : ∀ (list : List Field) (p : parser), p.Inv → 5 * p.left + 4 ≤ n →
    Res.Good true true 0 13 0 p (parser.structFieldsF n list p)
  field : ∀ p : parser, p.Inv → p.tok = .IDENT ∨ p.tok = .MUL ∨ p.tok = .LPAREN →
    5 * p.left + 3 ≤ n → Res.Good true true 0 13 1 p (parser.parseFieldDeclF n p)
  array : ∀ (lbrack : Nat) (len : Option Expr) (p : parser), p.Inv → 5 * p.left + 3 ≤ n →
    Res.Good true true 1 15 0 p (parser.parseArrayTypeF n lbrack len p)
  pointer : ∀ p : parser, p.Inv → p.tok = .MUL → 5 * p.left ≤ n →
    Res.Good true true 0 15 1 p (parser.parsePointerTypeF n p)
  map : ∀ p : parser, p.Inv → p.tok = .MAP → 5 * p.left ≤ n →
    Res.Good true true 0 13 1 p (parser.parseMapTypeF n p)

/-- The calls of `advance` at the current position that may still return
without reading a token. -/
def parser.syncRank (p : parser) : Nat :=
  if p.syncPos < p.pos then 11 else if p.pos = p.syncPos then 10 - p.syncCnt else 0

/-- The tokens at which `parseDecl` finds a declaration. -/
def declTok (t : Token) : Bool :=
  t = .TYPE ∨ t = .ATSERVER ∨ t = .SERVICE ∨ t = .INFO ∨ t = .IMPORT
/-- The parser as `init` sets it up before it reads the first token. -/
def parser.start (lib : Lib) (base : Nat) (filename src : GoString) (mode : Nat) : parser :=
  { scanner := Scanner.Init lib ⟨filename, base, src.length, [0]⟩ src
      (if mode &&& ParseComments ≠ 0 then ScanComments else 0),
    mode := mode, comments := [], leadComment := none, lineComment := none, pos := 0,
    tok := .ILLEGAL, lit := [], syncPos := 0, syncCnt := 0, imports := [], nscan := 0 }

/-- The number of tokens of a source: those that `Scan` returns before `EOF`,
in the scanner mode that `init` chooses for the parser mode. -/
def tokenCount (lib : Lib) (base : Nat) (filename src : GoString) (mode : Nat) : Nat :=
  (parser.start lib base filename src mode).scanner.tokens

/-- The parser when `init` has read the first token of a source. -/
def parser.first (lib : Lib) (base : Nat) (filename src : GoString) (mode : Nat) : parser :=
  match parser.init lib base filename src mode with
  | .ok _ p => p
  | _ => parser.start lib base filename src mode
/-- A part of a route path: `/segment`, or `/:param` when `param` holds, with
the identifier `name`. -/
structure PathPart where
  param : Bool
  name : GoString

/-- The tokens of a part of a route path, with their literals. -/
def PathPart.toks (x : PathPart) : List (Token × GoString) :=
  (Token.QUO, []) :: ((if x.param then [(Token.COLON, [])] else []) ++ [(Token.IDENT, x.name)])

/-- The source text of a part of a route path. -/
def PathPart.text (x : PathPart) : GoString :=
  str "/" ++ ((if x.param then str ":" else []) ++ x.name)

/-- The tokens of a route path. -/
def pathToks : List PathPart → List (Token × GoString)
  | [] => []
  | x :: xs => x.toks ++ pathToks xs

/-- The source text of a route path. -/
def pathText : List PathPart → GoString
  | [] => []
  | x :: xs => x.text ++ pathText xs

/-- The parser after it has read the tokens `ts`, the first of which is its
current token, with `next`; `none` when the tokens are others. -/
def parser.reads : List (Token × GoString) → parser → Option parser
  | [], p => some p
  | (t, l) :: ts, p =>
    if p.tok = t ∧ p.lit = l then
      match parser.next p with
      | .ok _ q => parser.reads ts q
      | _ => none
    else none
/-- The `ImportSpec` nodes among the specs of a declaration, in order. -/
def specImports : List Spec → List ImportSpec
  | [] => []
  | .ImportSpec s :: xs => s :: specImports xs
  | .TypeSpec _ :: xs => specImports xs

/-- The `ImportSpec` nodes obtained by walking the declarations in order and
taking, for each `GenDecl` with `Tok == IMPORT`, its specs in order. -/
def importsOf : List Decl → List ImportSpec
  | [] => []
  | .GenDecl d :: ds => (if d.Tok = .IMPORT then specImports d.Specs else []) ++ importsOf ds
  | .BadDecl _ _ :: ds => importsOf ds
  | .InfoType _ :: ds => importsOf ds
  | .Service _ :: ds => importsOf ds

/-- The source of the example test `ExampleParseFile`. -/
def exampleSrc : GoString :=
  str "\n/*\n * Copyright (c) 2021 The GoPlus Authors (goplus.org). All rights reserved.\n */\n" ++
  str "\n// api语法版本\nsyntax = \"v1\"\n\n" ++
  str "info(\n\tauthor: \"dylan\"\n\tdate: \"2022-01-28\"\n\tdesc: \"api 语法 demo\"\n)\n\n" ++
  str "import \"a/b.api\"\n\nimport(\n\t\"c.api\"\n\t\"d/d.api\"\n)\n\n" ++
  str "type (\n\tUser \x7b\n\t\tName string \n\t\x7d\n)\n\n" ++
  str "service foo-api \x7b\n  @handler ping\n  get /ping\n\n" ++
  str "  @doc \"foo\"\n  @handler bar\n  post /bar/:id (Foo)\n\x7d\n"

/-! ## Printer (`printer/printer.go`, `printer/config.go`) -/

/-- The type `whiteSpace`: a byte. -/
abbrev whiteSpace := Nat

namespace whiteSpace

/-- The white space `ignore`. -/
def ignore : whiteSpace := 0

/-- The white space `blank`. -/
def blank : whiteSpace := 32

/-- The white space `vtab`. -/
def vtab : whiteSpace := 11

/-- The white space `newline`. -/
def newline : whiteSpace := 10

/-- The white space `formfeed`. -/
def formfeed : whiteSpace := 12

/-- The white space `indent` (the byte of the character `>`). -/
def indent : whiteSpace := 62

/-- The white space `unindent` (the byte of the character `<`). -/
def unindent : whiteSpace := 60

end whiteSpace

/-- One call of `writeByte`: the byte, the count and the indentation of the
printer at the call. -/
structure WriteCall where
  ch : Nat
  n : Nat
  indent : Int
  deriving DecidableEq, Repr

/-- The struct `Config` of the printer. -/
structure Config where
  Mode : Nat
  TabWidth : Int
  Indent : Int
  deriving DecidableEq, Repr

/-- The struct `printer`, with the fields that the methods below read or
write: the configuration, the raw result, the current indentation, the flag
`impliedSemi`, the delayed white space and the comments (the empty list is the
nil slice), the level, the mode, the previous open token, the position `last`,
the fields of the embedded struct `commentInfo` (`cindex`, `comment`,
`commentOffset`, `commentNewline`) and the cache of `lineFor`. The field
`calls` is not in the source: it lists the calls of `writeByte`, whose body the
source leaves empty, and no code reads it. -/
structure printer where
  config : Config
  output : GoString
  indent : Int
  impliedSemi : Bool
  wsbuf : List whiteSpace
  comments : List CommentGroup
  calls : List WriteCall
  level : Int
  mode : Nat
  prevOpen : Token
  last : Position
  cindex : Nat
  comment : Option CommentGroup
  commentOffset : Nat
  commentNewline : Bool
  cachedPos : Int
  cachedLine : Nat
  deriving DecidableEq, Repr

/-- The values with which a method of the printer panics: the value of
`internalError`, with the message that it prints before, and the run-time
errors of an index or a slice out of range, and any other value. -/
inductive Crash where
  | internal (msg : GoString) (args : List Int)
  | indexOutOfRange
  | sliceOutOfRange
  | other (msg : GoString)
  deriving DecidableEq, Repr

/-- The outcome of running a method of the printer: the printer afterwards, a
panic and the printer at that moment, or a loop out of fuel. -/
inductive PrintRes (α : Type) where
  | ok (a : α) (p : printer)
  | panicked (e : Crash) (p : printer)
  | outOfFuel
  deriving DecidableEq, Repr

/-- Sequencing of printer methods: a panic or a loop out of fuel ends the
run. -/
def PrintRes.andThen {α β : Type} (r : PrintRes α) (f : α → printer → PrintRes β) :
    PrintRes β :=
  match r with
  | .ok a p => f a p
  | .panicked e p => .panicked e p
  | .outOfFuel => .outOfFuel

namespace printer

/-- The method `internalError`: the condition of its `if` is the constant
`true`, so it prints the message and always panics with `"go/printer"`. -/
def internalError (p : printer) (msg : GoString) (args : List Int) : PrintRes Unit :=
  .panicked (.internal msg args) p

/-- The method `writeByte`: the body is commented out in the source, so no
field of the source changes; the call is noted in `calls`. -/
def writeByte (p : printer) (ch : Nat) (n : Nat) : printer :=
  { p with calls := p.calls ++ [⟨ch, n, p.indent⟩] }

/-- The loop of `writeWhitespace` at index `i`. On a line break followed by an
unindent the two entries change places and the index stays (`i--; continue`
and the `i++` of the loop). -/
def writeWhitespaceLoop : Nat → Nat → Nat → printer → PrintRes Unit
  | 0, _, _, _ => .outOfFuel
  | fuel + 1, n, i, p =>
    if i < n then
      match p.wsbuf[i]? with
      | none => .panicked .indexOutOfRange p
      | some ch =>
        if ch = whiteSpace.ignore then
          -- ignore!
          writeWhitespaceLoop fuel n (i + 1) p
        else if ch = whiteSpace.indent then
          writeWhitespaceLoop fuel n (i + 1) { p with indent := p.indent + 1 }
        else if ch = whiteSpace.unindent then
          let p1 := { p with indent := p.indent - 1 }
          if p1.indent < 0 then
            (p1.internalError (str "negative indentation:") [p1.indent]).andThen fun _ p2 =>
              writeWhitespaceLoop fuel n (i + 1) { p2 with indent := 0 }
          else writeWhitespaceLoop fuel n (i + 1) p1
        else if ch = whiteSpace.newline ∨ ch = whiteSpace.formfeed then
          if i + 1 < n then
            match p.wsbuf[i + 1]? with
            | none => .panicked .indexOutOfRange p
            | some next =>
              if next = whiteSpace.unindent then
                let buf := (p.wsbuf.set i whiteSpace.unindent).set (i + 1) whiteSpace.formfeed
                writeWhitespaceLoop fuel n i { p with wsbuf := buf }
              else writeWhitespaceLoop fuel n (i + 1) (p.writeByte ch 1)
          else writeWhitespaceLoop fuel n (i + 1) (p.writeByte ch 1)
        else writeWhitespaceLoop fuel n (i + 1) (p.writeByte ch 1)
    else .ok () p

/-- The method `writeWhitespace`: write the first `n` white space entries and
shift the remaining entries down. Every entry is visited at most twice, which
the fuel of the loop allows for. -/
def writeWhitespace (p : printer) (n : Nat) : PrintRes Unit :=
  (writeWhitespaceLoop (2 * n + 2) n 0 p).andThen fun _ p1 =>
    if n ≤ p1.wsbuf.length then .ok () { p1 with wsbuf := p1.wsbuf.drop n }
    else .panicked .sliceOutOfRange p1

end printer

/-- A line break: `newline` or `formfeed`. -/
def isLineBreak (c : whiteSpace) : Bool := c = whiteSpace.newline ∨ c = whiteSpace.formfeed

/-- In the words of the claim: the entries with every line break that is
immediately followed by an unindent treated as the unindent followed by a
formfeed; `c` is the entry at hand and the list holds the entries after it. -/
def swapFrom : whiteSpace → List whiteSpace → List whiteSpace
  | c, [] => [c]
  | c, u :: rest =>
    if isLineBreak c ∧ u = whiteSpace.unindent then
      whiteSpace.unindent :: swapFrom whiteSpace.formfeed rest
    else c :: swapFrom u rest

/-- In the words of the claim: the entries in the order in which they take
effect. -/
def lineBreaksSwapped : List whiteSpace → List whiteSpace
  | [] => []
  | c :: rest => swapFrom c rest

/-- In the words of the claim: the number of indent entries minus the number
of unindent entries. -/
def indentChange (l : List whiteSpace) : Int :=
  Int.ofNat (l.count whiteSpace.indent) - Int.ofNat (l.count whiteSpace.unindent)

/-- The bytes that entries taken one after the other have written, each with
the indentation at which it is written, from the indentation `k`. -/
def entriesWritten : List whiteSpace → Int → List WriteCall
  | [], _ => []
  | c :: rest, k =>
    if c = whiteSpace.ignore then entriesWritten rest k
    else if c = whiteSpace.indent then entriesWritten rest (k + 1)
    else if c = whiteSpace.unindent then entriesWritten rest (k - 1)
    else ⟨c, 1, k⟩ :: entriesWritten rest k

/-- In the words of the claim: an unindent entry is processed while the
indentation level is 0. -/
def unindentAtZero : List whiteSpace → Int → Bool
  | [], _ => false
  | c :: rest, k =>
    if c = whiteSpace.unindent then k = 0 || unindentAtZero rest (k - 1)
    else if c = whiteSpace.indent then unindentAtZero rest (k + 1)
    else unindentAtZero rest k

/-- An unindent entry takes the indentation below 0, from the indentation
`k`. -/
def goesNegative : List whiteSpace → Int → Bool
  | [], _ => false
  | c :: rest, k =>
    if c = whiteSpace.unindent then k - 1 < 0 || goesNegative rest (k - 1)
    else if c = whiteSpace.indent then goesNegative rest (k + 1)
    else goesNegative rest k

/-- Whether the loop of `writeWhitespace` finds a line break followed by an
unindent at the head of the entries, as 0 or 1. -/
def swapAhead : List whiteSpace → Nat
  | c :: u :: _ => if isLineBreak c ∧ u = whiteSpace.unindent then 1 else 0
  | _ => 0

/-- What the loop of `writeWhitespace` does with the entries `seg` between
`pre` and `post`: it ends with the entries in the swapped order, the
indentation changed by the entries and the bytes written, or it panics with
the internal error when an unindent takes the indentation below 0. -/
def WsDone (pre seg post : List whiteSpace) (p : printer) (r : PrintRes Unit) : Prop :=
  (∃ q, r = .ok () q ∧ q.wsbuf = pre ++ lineBreaksSwapped seg ++ post ∧
      q.indent = p.indent + indentChange seg ∧
      q.calls = p.calls ++ entriesWritten (lineBreaksSwapped seg) p.indent ∧
      q.output = p.output ∧ goesNegative seg p.indent = false) ∨
  (∃ q a, r = .panicked (.internal (str "negative indentation:") [a]) q ∧ q.indent < 0 ∧
      q.output = p.output ∧ goesNegative seg p.indent = true)

/-- The nodes that `printNode` tells apart in its type switch: the interfaces
`ast.Expr`, `ast.Decl` and `ast.Spec`, and `*ast.File`. -/
inductive Node where
  | Expr (x : Expr)
  | Decl (x : Decl)
  | Spec (x : Spec)
  | File (x : AstFile)

/-- The name that the verb `%T` prints for the type of a node. -/
def Node.typeName : Node → GoString
  | .Expr (.BadExpr _ _) => str "*ast.BadExpr"
  | .Expr (.Ident _) => str "*ast.Ident"
  | .Expr (.BasicLit _) => str "*ast.BasicLit"
  | .Expr (.SelectorExpr _ _) => str "*ast.SelectorExpr"
  | .Expr (.StarExpr _ _) => str "*ast.StarExpr"
  | .Expr (.ParenExpr _ _ _) => str "*ast.ParenExpr"
  | .Expr (.ArrayType _ _ _) => str "*ast.ArrayType"
  | .Expr (.StructType _ _ _ _) => str "*ast.StructType"
  | .Expr (.MapType _ _ _) => str "*ast.MapType"
  | .Decl (.BadDecl _ _) => str "*ast.BadDecl"
  | .Decl (.GenDecl _) => str "*ast.GenDecl"
  | .Decl (.InfoType _) => str "*ast.InfoType"
  | .Decl (.Service _) => str "*ast.Service"
  | .Spec (.ImportSpec _) => str "*ast.ImportSpec"
  | .Spec (.TypeSpec _) => str "*ast.TypeSpec"
  | .File _ => str "*ast.File"

/-- The methods and writers that `printNode` and `fprint` call and that are
not embedded: `nextComment`, `print` with a `pmode` argument, `file`, `flush`
at the end of the input, and the writing of the raw result through the
`trimmer` and the `tabwriter` (the error and the bytes that reach the output).
They are parameters: a theorem about the functions below holds whatever these
do. -/
structure Callees where
  nextComment : printer → PrintRes Unit
  printMode : Nat → printer → PrintRes Unit
  file : AstFile → printer → PrintRes Unit
  flushEnd : printer → PrintRes Unit
  write : Config → GoString → Option GoString × GoString

namespace printer

/-- The method `init` on the zero value of the struct: the configuration is
copied, the white space buffer is empty and the cached position is -1. -/
def init (cfg : Config) : printer :=
  { config := cfg, output := [], indent := 0, impliedSemi := false, wsbuf := [],
    comments := [], calls := [], level := 0, mode := 0, prevOpen := .ILLEGAL,
    last := ⟨[], 0, 0, 0⟩, cindex := 0, comment := none, commentOffset := 0,
    commentNewline := false, cachedPos := -1, cachedLine := 0 }

/-- The method `printNode`: the comments of a file are taken over, the first
comment is fetched, the mode is reset, a file is printed, and in every case
the error `unsupported node type` is returned. -/
def printNode (m : Callees) (node : Node) (p : printer) : PrintRes (Option GoString) :=
  let p1 : printer :=
    match node with
    | .File n => { p with comments := n.Comments }
    | _ => p
  (m.nextComment p1).andThen fun _ p2 =>
  (m.printMode 0 p2).andThen fun _ p3 =>
  let r : PrintRes Unit :=
    match node with
    | .Expr _ => .ok () p3
    | .Decl _ => .ok () p3
    | .Spec _ => .ok () p3
    | .File n => m.file n p3
  r.andThen fun _ p4 =>
  .ok (some (str "go/printer: unsupported node type " ++ node.typeName)) p4

end printer

/-- The outcome of `Fprint`: it returns an error (`none` for nil) after the
bytes that it wrote to the output, or a panic escapes, or a loop of the model
ran out of fuel. -/
inductive FprintResult where
  | returned (err : Option GoString) (written : GoString)
  | panics (e : Crash)
  | outOfFuel

/-- The method `Config.fprint`: print the node and return its error, if any;
otherwise flush the pending white space and write the raw result through the
`trimmer` and, unless the mode has `RawFormat`, the `tabwriter`. -/
def Config.fprint (m : Callees) (cfg : Config) (node : Node) : FprintResult :=
  let p := printer.init cfg
  match p.printNode m node with
  | .panicked e _ => .panics e
  | .outOfFuel => .outOfFuel
  | .ok (some err) _ => .returned (some err) []
  | .ok none p1 =>
    match m.flushEnd { p1 with impliedSemi := false } with
    | .panicked e _ => .panics e
    | .outOfFuel => .outOfFuel
    | .ok _ p2 =>
      let w := m.write cfg p2.output
      .returned w.1 w.2

/-- The method `Config.Fprint`. -/
def Config.Fprint (m : Callees) (cfg : Config) (node : Node) : FprintResult :=
  cfg.fprint m node

/-- The function `Fprint`: `Config.Fprint` with the tab width 8. -/
def Fprint (m : Callees) (node : Node) : FprintResult :=
  Config.Fprint m ⟨0, 8, 0⟩ node

/-- The outcome of `Format`: it returns bytes (`none` for nil) and an error
(`none` for nil), or a panic escapes, or a loop of the model ran out of
fuel. -/
inductive FormatResult where
  | returned (out : Option GoString) (err : Option GoString)
  | panics (e : Crash)
  | outOfFuel

/-- The function `Format` of `cmd/apifmt/internal/internal.go`. Modelled from
the spec: the variable `cfg` that it prints with is not among the sources; it
is a parameter. -/
def internal.Format (m : Callees) (cfg : Config) (file : AstFile) : FormatResult :=
  match cfg.Fprint m (.File file) with
  | .returned (some err) _ => .returned none (some err)
  | .returned none buf => .returned (some buf) none
  | .panics e => .panics e
  | .outOfFuel => .outOfFuel

/-- In the words of the claim: the bytes start with a valid encoding, the
UTF-8 encoding of a Unicode code point that is no surrogate. -/
def ValidEncodingAt (p : GoString) : Prop :=
  ∃ r : Int, 0 ≤ r ∧ r ≤ 0x10FFFF ∧ ¬ (0xD800 ≤ r ∧ r ≤ 0xDFFF) ∧ EncodeRune r <+: p

/-- The scanner with `ScanComments` added to its mode. -/
def Scanner.withComments (s : Scanner) : Scanner := { s with mode := s.mode ||| ScanComments }

/-- The result of `Scan` with `ScanComments` added to the mode of its scanner. -/
def ScanResult.withComments (r : ScanResult) : ScanResult :=
  { r with s := r.s.withComments }

/-- How the body of `Scan` with `ScanComments` (the result `a`) compares with
the body without it (the result `b`, with `g` jumps to `scanAgain` left) from
the scanner `s0`: both run out of fuel, or both return the same token, which is
no comment, or the first returns a comment and the second skips it and scans
on from the scanner `s3` after it. -/
def SkipSim (s0 : Scanner) (g : Nat) (a b : Option ScanResult) : Prop :=
  (a = none ∧ b = none) ∨
  (∃ r : ScanResult, r.tok ≠ .COMMENT ∧ a = some r.withComments ∧ b = some r) ∨
  (∃ (pos : Nat) (c : GoString) (s3 : Scanner), s3.insertSemi = false ∧ s3.mode = s0.mode ∧
    s3.Inv ∧ s3.left < s0.left ∧
    a = some ⟨pos, .COMMENT, c, s3.withComments⟩ ∧ b = ScanLoop g s3)

/-- The loop of `Scanner.tokenList`. -/
def tokensUpTo : Nat → Scanner → List (Token × GoString)
  | 0, _ => []
  | f + 1, s =>
    match s.Scan with
    | none => []
    | some r => if r.tok = .EOF then [] else (r.tok, r.lit) :: tokensUpTo f r.s

/-- The tokens (kind and literal) that the calls of `Scan` return before the
first `EOF`. -/
def Scanner.tokenList (s : Scanner) : List (Token × GoString) := tokensUpTo (s.measure + 1) s

/-- The method `Pos.IsValid`. -/
def IsValid (p : Nat) : Bool := p ≠ NoPos

/-- The method `Pos` of the expression nodes. -/
def Expr.Pos : Expr → Nat
  | .BadExpr From _ => From
  | .Ident x => x.Pos
  | .BasicLit x => x.Pos
  | .SelectorExpr X _ => X.Pos
  | .StarExpr Star _ => Star
  | .ParenExpr Lparen _ _ => Lparen
  | .ArrayType Lbrack _ _ => Lbrack
  | .StructType Struct _ _ _ => Struct
  | .MapType Map _ _ => Map

mutual
/-- The method `End` of the expression nodes; for a `StructType` it is
`FieldList.End` of its fields. -/
def Expr.End : Expr → Nat
  | .BadExpr _ To => To
  | .Ident x => x.End
  | .BasicLit x => x.End
  | .SelectorExpr _ Sel => Sel.End
  | .StarExpr _ X => X.End
  | .ParenExpr _ _ Rparen => Rparen
  | .ArrayType _ _ Elt => Elt.End
  | .StructType _ _ List Closing =>
    if IsValid Closing then Closing + 1
    else Field.lastEnd List
  | .MapType _ _ Value => Value.End
/-- The method `Field.End` (the type of a field is never nil here). -/
def Field.End : Field → Nat
  | .mk _ _ Typ Tag _ =>
    match Tag with
    | some t => t.End
    | none => Typ.End
/-- The end of the last field of a list, `NoPos` for the empty list
(`FieldList.End` without a valid closing position). -/
def Field.lastEnd : List Field → Nat
  | [] => NoPos
  | [f] => f.End
  | _ :: g :: rest => Field.lastEnd (g :: rest)
end

/-- The method `TypeSpec.Pos`. -/
def TypeSpec.Pos (x : TypeSpec) : Nat := x.Name.Pos

/-- The method `TypeSpec.End`. -/
def TypeSpec.End (x : TypeSpec) : Nat := x.Typ.Pos

/-- The method `End` of the interface `Spec`. -/
def Spec.End : Spec → Nat
  | .ImportSpec x => x.End
  | .TypeSpec x => x.End

/-- The method `GenDecl.End`; `none` when the index `Specs[0]` is out of
range (a run-time panic). -/
def GenDecl.End (x : GenDecl) : Option Nat :=
  if IsValid x.Rparen then some (x.Rparen + 1)
  else
    match x.Specs with
    | [] => none
    | s :: _ => some s.End

/-- The type specs of a file: those of its `GenDecl` declarations. -/
def typeSpecsOf (f : AstFile) : List TypeSpec :=
  f.Decls.flatMap fun d =>
    match d with
    | .GenDecl g => g.Specs.filterMap fun s =>
        match s with
        | .TypeSpec t => some t
        | _ => none
    | _ => []

/-- The method `GenDecl.Pos`. -/
def GenDecl.Pos (x : GenDecl) : Nat := x.TokPos

/-- The constant `infinity` of the printer. -/
def infinity : Nat := 1 <<< 30

/-- The method `printer.numLines` for a node whose `Pos()` and `End()` are
`start` and `stop`; the lines are those of the file `f` (`lineFor`). -/
def numLines (f : File) (start stop : Nat) : Int :=
  if IsValid start then
    if IsValid stop then (f.Line stop : Int) - (f.Line start : Int) + 1
    else infinity
  else infinity

/-- The values `numLines(d)` of the `GenDecl` declarations of a file, as
`declList` computes them; `none` where `End` panics. -/
def genDeclLines (f : File) (a : AstFile) : List (Option Int) :=
  a.Decls.filterMap fun d =>
    match d with
    | .GenDecl g => some (g.End.map (numLines f g.Pos))
    | _ => none

/-- What a run of the parser on a source gives for the type specs of the file
it builds: the triples `Pos()`, `End()`, `Type.End()` of the type specs, the
values `numLines` of the `GenDecl` declarations and the errors recorded. -/
def typeSpecSpans (lib : Lib) (base : Nat) (src : GoString) (mode : Nat) :
    Option (List (Nat × Nat × Nat) × List (Option Int) × ErrorList) :=
  match parseRun lib base [] src mode with
  | .ok (some a) p =>
    some ((typeSpecsOf a).map (fun t => (t.Pos, t.End, t.Typ.End)),
      genDeclLines p.scanner.file a, p.errors)
  | _ => none

/-- The line table of the file after a run of the parser on a source. -/
def linesAfter (lib : Lib) (base : Nat) (src : GoString) (mode : Nat) : Option File :=
  match parseRun lib base [] src mode with
  | .ok _ p => some p.scanner.file
  | _ => none

/-- The number of errors recorded when a run returned, with the position it
returned for `expect`. -/
def expectReport (r : Res Nat) : Option (Nat × Token × Nat) :=
  match r with
  | .ok pos q => some (pos, q.tok, q.errors.length)
  | _ => none

/-- A run of `expect` twice in a row, from the first token of a source: what
the first and the second call report. -/
def expectTwice (lib : Lib) (src : GoString) (mode : Nat) (t1 t2 : Token) :
    Option (Nat × Token × Nat) × Option (Nat × Token × Nat) :=
  match parser.expect t1 (parser.first lib 1 [] src mode) with
  | .ok pos q => (expectReport (.ok pos q), expectReport (parser.expect t2 q))
  | r => (expectReport r, none)

/-- A run of `expectSemi` twice in a row, from the first token of a source:
the current token and the number of errors recorded after the first and after
the second call. -/
def expectSemiTwice (lib : Lib) (src : GoString) (mode : Nat) :
    Option (Token × Nat) × Option (Token × Nat) :=
  match parser.expectSemi (parser.first lib 1 [] src mode) with
  | .ok _ q =>
    (some (q.tok, q.errors.length),
      match parser.expectSemi q with
      | .ok _ q1 => some (q1.tok, q1.errors.length)
      | _ => none)
  | _ => (none, none)

/-- The tokens of the names `n1, n2, ...` of a field: identifiers separated by
commas. -/
def nameToks : List GoString → List (Token × GoString)
  | [] => []
  | [n] => [(Token.IDENT, n)]
  | n :: m :: ns => (Token.IDENT, n) :: (Token.COMMA, []) :: nameToks (m :: ns)

/-- The tag of a field when the token after its type is the current one: the
string literal with its text, if the token is one. -/
def tagAt (p : parser) : Option BasicLit :=
  if p.tok = .STRING then some ⟨p.pos, .STRING, p.lit⟩ else none

/-- The outcome `r` of `parseFieldDecl` from the state `p`: it returned a field
with these names, this type and this tag, whose doc comment is the lead
comment of `p`; or the parser gave up after too many errors (the `bailout`
panic, only without the mode `AllErrors`). -/
def FieldIs (p : parser) (r : Res Field) (names : List Ident) (typ : Expr)
    (tag : Option BasicLit) : Prop :=
  (∃ q c, r = .ok (.mk p.leadComment names typ tag c) q) ∨
    (∃ q, r = .panicked .bailout q ∧ p.mode &&& AllErrors = 0)

/-- The tokens after the first name of a field with the names `n1, n2, ...`:
a comma and an identifier for every further name. -/
def moreNameToks : List GoString → List (Token × GoString)
  | [] => []
  | m :: ns => (Token.COMMA, []) :: (Token.IDENT, m) :: moreNameToks ns

/-- The names and the text of the tag of the field a run returned. -/
def fieldReport (r : Res Field) : Option (List GoString × Option GoString) :=
  match r with
  | .ok (.mk _ names _ tag _) _ => some (names.map (fun i => i.Name), tag.map (fun t => t.Value))
  | _ => none

/-- The constant `maxNewlines` of the printer. -/
def maxNewlines : Nat := 2

/-- The printer mode `noExtraBlank`. -/
def noExtraBlank : Nat := 1

/-- The printer mode `noExtraLinebreak`. -/
def noExtraLinebreak : Nat := 2

/-- The method `Position.IsValid` of the Go standard library: the line is
positive. -/
def Position.IsValid (pos : Position) : Bool := 0 < pos.Line

/-- The method `Comment.Pos` of the Go standard library. -/
def Comment.Pos (c : Comment) : Nat := c.Slash

namespace printer

/-- The method `posFor`; `fs` is the method `PositionFor` of the file set, for
absolute positions. -/
def posFor (fs : Nat → Position) (pos : Nat) : Position := fs pos

/-- The method `lineFor`: the line of a position, through the cache of the
last position asked for. -/
def lineFor (fs : Nat → Position) (p : printer) (pos : Nat) : Nat × printer :=
  if Int.ofNat pos ≠ p.cachedPos then
    let p1 := { p with cachedPos := Int.ofNat pos, cachedLine := (fs pos).Line }
    (p1.cachedLine, p1)
  else (p.cachedLine, p)

/-- The loop of `commentsHaveNewline` from the index `i`. -/
def commentsHaveNewlineLoop (fs : Nat → Position) (line : Nat) :
    Nat → List Comment → printer → Bool × printer
  | _, [], p => (false, p)
  | i, c :: rest, p =>
    let lp : Nat × printer := if 0 < i then p.lineFor fs c.Pos else (line, p)
    if lp.1 ≠ line then
      -- not all comments on the same line
      (true, lp.2)
    else if 2 ≤ c.Text.length ∧ (c.Text.getD 1 0 = 47 ∨ 10 ∈ c.Text) then (true, lp.2)
    else commentsHaveNewlineLoop fs line (i + 1) rest lp.2

/-- The method `commentsHaveNewline`, for a list that is not empty. -/
def commentsHaveNewline (fs : Nat → Position) (p : printer) (list : List Comment) :
    Bool × printer :=
  match list with
  | [] => (false, p)
  | c :: _ =>
    let lp := p.lineFor fs c.Pos
    commentsHaveNewlineLoop fs lp.1 0 list lp.2

/-- The loop of `nextComment` over the comment groups from the index
`cindex` on. -/
def nextCommentFrom (fs : Nat → Position) : List CommentGroup → printer → printer
  | [], p => { p with commentOffset := infinity }
  | c :: rest, p =>
    let p1 := { p with cindex := p.cindex + 1 }
    match c.List with
    | [] => nextCommentFrom fs rest p1
    | c0 :: list =>
      let p2 := { p1 with comment := some c, commentOffset := (posFor fs c0.Pos).Offset }
      let r := p2.commentsHaveNewline fs (c0 :: list)
      { r.2 with commentNewline := r.1 }

/-- The method `nextComment`. -/
def nextComment (fs : Nat → Position) (p : printer) : printer :=
  nextCommentFrom fs (p.comments.drop p.cindex) p

/-- The method `commentBefore`. -/
def commentBefore (p : printer) (next : Position) : Bool :=
  p.commentOffset < next.Offset && (!p.impliedSemi || !p.commentNewline)

/-- The method `containsLinebreak`. -/
def containsLinebreak (p : printer) : Bool :=
  p.wsbuf.any fun ch => ch = whiteSpace.newline ∨ ch = whiteSpace.formfeed

/-- The method `writeCommentPrefix`; what follows the second `return` is left
unfinished in the source and does nothing. -/
def writeCommentPrefix (p : printer) (pos : Position) : printer :=
  if p.output.length = 0 then p
  else if pos.IsValid ∧ pos.Filename ≠ p.last.Filename then
    p.writeByte whiteSpace.formfeed maxNewlines
  else p

/-- The method `writeComment`, whose body is left unfinished in the source. -/
def writeComment (p : printer) (_ : Comment) : printer := p

/-- The inner loop of `intersperseComments` over the comments of the pending
group: the last comment written and the printer. -/
def writeGroup (fs : Nat → Position) : List Comment → Option Comment → printer →
    Option Comment × printer
  | [], last, p => (last, p)
  | c :: rest, _, p =>
    writeGroup fs rest (some c) ((p.writeCommentPrefix (posFor fs c.Pos)).writeComment c)

/-- The outer loop of `intersperseComments`; the use of a nil `p.comment` is a
run-time panic. -/
def intersperseLoop (fs : Nat → Position) (next : Position) :
    Nat → Option Comment → printer → PrintRes (Option Comment)
  | 0, _, _ => .outOfFuel
  | fuel + 1, last, p =>
    if p.commentBefore next then
      match p.comment with
      | none => .panicked (.other (str "nil pointer dereference")) p
      | some g =>
        let r := writeGroup fs g.List last p
        intersperseLoop fs next fuel r.1 (r.2.nextComment fs)
    else .ok last p

/-- The loop of `writeCommentSuffix` over the entries of the white space buffer
from the index `i`: the flag `needsLinebreak` and the results `wroteNewline`,
`droppedFF`. -/
def suffixLoop : List whiteSpace → Nat → Bool → Bool → Bool → printer →
    (Bool × Bool × Bool) × printer
  | [], _, needs, wrote, dropped, p => ((needs, wrote, dropped), p)
  | ch :: rest, i, needs, wrote, dropped, p =>
    if ch = whiteSpace.blank ∨ ch = whiteSpace.vtab then
      -- ignore trailing whitespace
      suffixLoop rest (i + 1) needs wrote dropped
        { p with wsbuf := p.wsbuf.set i whiteSpace.ignore }
    else if ch = whiteSpace.indent ∨ ch = whiteSpace.unindent then
      -- don't lose indentation information
      suffixLoop rest (i + 1) needs wrote dropped p
    else if ch = whiteSpace.newline ∨ ch = whiteSpace.formfeed then
      -- if we need a line break, keep exactly one
      if needs then suffixLoop rest (i + 1) false true dropped p
      else
        suffixLoop rest (i + 1) needs wrote (dropped || decide (ch = whiteSpace.formfeed))
          { p with wsbuf := p.wsbuf.set i whiteSpace.ignore }
    else suffixLoop rest (i + 1) needs wrote dropped p

/-- The method `writeCommentSuffix`. -/
def writeCommentSuffix (p : printer) (needsLinebreak : Bool) : PrintRes (Bool × Bool) :=
  let r := suffixLoop p.wsbuf 0 needsLinebreak false false p
  (r.2.writeWhitespace r.2.wsbuf.length).andThen fun _ p1 =>
    -- make sure we have a line break
    if r.1.1 then .ok (true, r.1.2.2) (p1.writeByte whiteSpace.newline 1)
    else .ok (r.1.2.1, r.1.2.2) p1

/-- The method `intersperseComments`; the index `last.Text[1]` out of range is
a run-time panic. -/
def intersperseComments (fs : Nat → Position) (p : printer) (next : Position) (tok : Token) :
    PrintRes (Bool × Bool) :=
  (intersperseLoop fs next (p.comments.length + 2) none p).andThen fun last p1 =>
    match last with
    | none =>
      (p1.internalError (str "intersperseComments called without pending comments") []).andThen
        fun _ p2 => .ok (false, false) p2
    | some last =>
      match last.Text[1]? with
      | none => .panicked .indexOutOfRange p1
      | some t1 =>
        let lp : Bool × printer :=
          if p1.mode &&& noExtraBlank = 0 ∧ t1 = 42 then
            let r := p1.lineFor fs last.Pos
            (decide (r.1 = next.Line), r.2)
          else (false, p1)
        let p2 := lp.2
        let r3 : Bool × printer :=
          if p1.mode &&& noExtraBlank = 0 ∧ t1 = 42 ∧ lp.1 = true ∧ tok ≠ .COMMA ∧
              (tok ≠ .RPAREN ∨ p2.prevOpen = .LPAREN) ∧
              (tok ≠ .RBRACK ∨ p2.prevOpen = .LBRACK) then
            if p2.containsLinebreak ∧ p2.mode &&& noExtraLinebreak = 0 ∧ p2.level = 0 then
              (true, p2)
            else (false, p2.writeByte whiteSpace.blank 1)
          else (false, p2)
        let needsLinebreak : Bool :=
          if t1 = 47 ∨ tok = .EOF ∨ (tok = .RBRACE ∧ r3.2.mode &&& noExtraLinebreak = 0) then true
          else r3.1
        r3.2.writeCommentSuffix needsLinebreak

/-- The method `flush`. -/
def flush (fs : Nat → Position) (p : printer) (next : Position) (tok : Token) :
    PrintRes (Bool × Bool) :=
  if p.commentBefore next then p.intersperseComments fs next tok
  else (p.writeWhitespace p.wsbuf.length).andThen fun _ p1 => .ok (false, false) p1

/-- The method `setComment`; `none` is the nil group. The index `g.List[0]`
and, for a slice that is not nil and has no element, the index
`p.comments[0]` out of range are run-time panics; the parser yields the nil
slice when a file has no comments. -/
def setComment (fs : Nat → Position) (p : printer) (g : Option CommentGroup) : PrintRes Unit :=
  match g with
  | none => .ok () p
  | some g =>
    let r : PrintRes Unit :=
      if p.comments = [] then .ok () { p with comments := [⟨[]⟩] }
      else if p.cindex < p.comments.length then
        match g.List with
        | [] => .panicked .indexOutOfRange p
        | c0 :: _ =>
          (p.flush fs (posFor fs c0.Pos) .ILLEGAL).andThen fun _ p1 =>
            ({ p1 with comments := p1.comments.take 1 } : printer).internalError
              (str "setComment found pending comments") []
      else .ok () p
    r.andThen fun _ p1 =>
      let p2 := { p1 with comments := p1.comments.set 0 g, cindex := 0 }
      if p2.commentOffset = infinity then .ok () (p2.nextComment fs)
      else .ok () p2

end printer

/-- The comment state of the printer is consistent: an offset below
`infinity` comes with a pending comment group whose list is not empty. -/
def printer.Pending (p : printer) : Prop :=
  p.commentOffset < infinity → ∃ g, p.comment = some g ∧ g.List ≠ []

/-- The comment state of `q` is the one of `p`: the comments, the fields of
`commentInfo` and the flag `impliedSemi`. -/
def printer.SameComments (p q : printer) : Prop :=
  q.comments = p.comments ∧ q.cindex = p.cindex ∧ q.comment = p.comment ∧
    q.commentOffset = p.commentOffset ∧ q.commentNewline = p.commentNewline ∧
    q.impliedSemi = p.impliedSemi

/-- The message of the internal error of `intersperseComments`. -/
def noPendingMsg : GoString := str "intersperseComments called without pending comments"

/-- The run `r` of a printer method from the state `p` did not take the
internal-error branch of `intersperseComments` and ended: it returned in a
state with the comment state of `p`, or it panicked with another value. -/
def printer.Spared {α : Type} (p : printer) (r : PrintRes α) : Prop :=
  (∀ a q, r = .ok a q → p.SameComments q) ∧ r ≠ .outOfFuel ∧
    ∀ e q, r = .panicked e q → ∀ a, e ≠ .internal noPendingMsg a

/-! ## Sequencer (`cmd/apifmt/internal/sequencer.go`) -/

/-- A call that a task makes on its `Reporter`: `Write` of bytes, `Warnf` of a
message, `Report` of an error that is not nil, or `ExitCode`. -/
inductive ReporterCall where
  | Write (b : GoString)
  | Warnf (msg : GoString)
  | Report (err : GoString)
  | ExitCode
  deriving DecidableEq, Repr

/-- A task passed to `Add`: the weight and, of the function `f`, the calls it
makes on its `Reporter`, in order, and the error it returns (`none` for
nil). -/
structure Task where
  weight : Int
  calls : List ReporterCall
  err : Option GoString
  deriving DecidableEq, Repr

/-- The calls on the `Reporter` that the goroutine of a task makes before it
hands the state on: those of `f` and then `Report` of the error `f` returned,
if any. -/
def Task.script (t : Task) : List ReporterCall :=
  t.calls ++ (match t.err with
    | some e => [.Report e]
    | none => [])

/-- The goroutine that `Add` starts for a task: the task, the weight acquired
(the local `weight`), the number of calls on the `Reporter` made so far,
whether `r.state` is set, whether the state was sent on
(`next <- r.getState()`), whether the weight was released, and the values that
its calls of `ExitCode` returned. -/
structure Goroutine where
  task : Task
  weight : Int
  pc : Nat
  state : Bool
  sent : Bool
  released : Bool
  read : List Int
  deriving DecidableEq, Repr

/-- The `Sequencer` with what it shares: the weight `cur` that the semaphore
has handed out (the semaphore of `golang.org/x/sync`: `Acquire` with the
context `TODO` blocks until the weight fits and returns no error), the
1-buffered channels in the order of their creation (whether the pointer to the
reporter state is in the buffer: the channel of index `i` is `prev` of the
task `i` and `next` of the task before), the goroutines of the tasks added, in
order, and the one `reporterState`: the bytes written to its sinks `out` and
`err` and its `exitCode`. The index of the writing task that goes with the
bytes is not in the source, and no code reads it. -/
structure Sequencer where
  maxWeight : Int
  cur : Int
  chans : List Bool
  tasks : List Goroutine
  out : List (Nat × GoString)
  err : List (Nat × GoString)
  exitCode : Int
  deriving DecidableEq, Repr

/-- The function `NewSequencer`: the first channel holds the reporter
state. -/
def NewSequencer (maxWeight : Int) : Sequencer :=
  { maxWeight := maxWeight, cur := 0, chans := [true], tasks := [], out := [], err := [],
    exitCode := 0 }

/-- The task of `AddReport`. -/
def reportTask (err : GoString) : Task := ⟨0, [], some err⟩

/-- The task of `GetExitCode`: it sends `r.ExitCode()` on the channel that
`GetExitCode` returns from. -/
def exitCodeTask : Task := ⟨0, [.ExitCode], none⟩

/-- A step of the program: the main goroutine calls `Add` for a task, or the
goroutine of the task `i` receives the reporter state in `getState`, makes its
next call on the `Reporter`, sends the state on to the next task, or releases
its weight. -/
inductive SeqEvent where
  | add (t : Task)
  | getState (i : Nat)
  | call (i : Nat)
  | send (i : Nat)
  | release (i : Nat)
  deriving DecidableEq, Repr

namespace Sequencer

/-- The weight that `Add` acquires for a declared weight. -/
def clip (s : Sequencer) (weight : Int) : Int :=
  if weight < 0 ∨ weight > s.maxWeight then s.maxWeight else weight

/-- One call on the `Reporter` by the task `i`, which holds the reporter
state. -/
def perform (s : Sequencer) (i : Nat) (g : Goroutine) (c : ReporterCall) : Sequencer :=
  match c with
  | .Write b =>
    { s with out := s.out ++ [(i, b)], tasks := s.tasks.set i { g with pc := g.pc + 1 } }
  | .Warnf msg =>
    { s with err := s.err ++ [(i, msg)], tasks := s.tasks.set i { g with pc := g.pc + 1 } }
  | .Report e =>
    { s with err := s.err ++ [(i, e)], exitCode := 2,
             tasks := s.tasks.set i { g with pc := g.pc + 1 } }
  | .ExitCode =>
    { s with tasks := s.tasks.set i { g with pc := g.pc + 1, read := g.read ++ [s.exitCode] } }

/-- The step of an event; `none` when the step cannot be taken (the goroutine
is not there, is blocked or is at another statement). -/
def step (s : Sequencer) : SeqEvent → Option Sequencer
  | .add t =>
    let weight := s.clip t.weight
    -- `Acquire` returns when the weight fits
    if weight ≤ s.maxWeight - s.cur then
      some { s with cur := s.cur + weight, chans := s.chans ++ [false],
                    tasks := s.tasks ++ [⟨t, weight, 0, false, false, false, []⟩] }
    else none
  | .getState i =>
    match s.tasks[i]?, s.chans[i]? with
    | some g, some true =>
      if g.state = false ∧ g.sent = false then
        some { s with chans := s.chans.set i false, tasks := s.tasks.set i { g with state := true } }
      else none
    | _, _ => none
  | .call i =>
    match s.tasks[i]? with
    | some g =>
      if g.state = true ∧ g.sent = false then
        match g.task.script[g.pc]? with
        | some c => some (s.perform i g c)
        | none => none
      else none
    | none => none
  | .send i =>
    match s.tasks[i]?, s.chans[i + 1]? with
    | some g, some false =>
      if g.state = true ∧ g.sent = false ∧ g.task.script[g.pc]? = none then
        some { s with chans := s.chans.set (i + 1) true,
                      tasks := s.tasks.set i { g with sent := true } }
      else none
    | _, _ => none
  | .release i =>
    match s.tasks[i]? with
    | some g =>
      if g.sent = true ∧ g.released = false then
        some { s with cur := s.cur - g.weight, tasks := s.tasks.set i { g with released := true } }
      else none
    | none => none

/-- A run: the steps of a list of events, one after the other. -/
def run (s : Sequencer) : List SeqEvent → Option Sequencer
  | [] => some s
  | e :: es =>
    match s.step e with
    | some s1 => s1.run es
    | none => none

/-- The weight in flight: the weights acquired by the tasks that have not
released theirs. -/
def inFlight (s : Sequencer) : Int :=
  (s.tasks.map fun g => if g.released then 0 else g.weight).sum

end Sequencer

/-- The call is a `Report`. -/
def ReporterCall.isReport : ReporterCall → Bool
  | .Report _ => true
  | _ => false

/-- A task reports an error: it calls `Report` or returns an error. -/
def Task.reports (t : Task) : Bool := t.script.any ReporterCall.isReport

/-- The goroutine has reported an error so far. -/
def Goroutine.reported (g : Goroutine) : Bool := (g.task.script.take g.pc).any ReporterCall.isReport

/-- The reporter state is at the task `k`, in the channel of that task or held
by its goroutine: the tasks before have made all their calls and sent the
state on, the tasks after have not started with theirs; the bytes in the sinks
are those of the tasks up to `k`, in the order of the tasks; the exit code is
2 exactly when a task has reported, and 0 otherwise; and the value that the
task of `GetExitCode` has read is 2 exactly when a task before it reports. -/
structure Sequencer.At (s : Sequencer) (k : Nat) : Prop where
  len : s.chans.length = s.tasks.length + 1
  le : k ≤ s.tasks.length
  before : ∀ (i : Nat) (g : Goroutine), s.tasks[i]? = some g → i < k →
    g.sent = true ∧ g.state = true ∧ g.task.script.length ≤ g.pc
  here : ∀ g : Goroutine, s.tasks[k]? = some g → g.sent = false
  after : ∀ (i : Nat) (g : Goroutine), s.tasks[i]? = some g → k < i →
    g.sent = false ∧ g.state = false ∧ g.pc = 0 ∧ g.read = []
  chan : ∀ i : Nat, s.chans[i]? = some true ↔
    i = k ∧ ∀ g : Goroutine, s.tasks[k]? = some g → g.state = false
  outLe : ∀ x ∈ s.out, x.1 < k ∨ (x.1 = k ∧ ∃ g : Goroutine, s.tasks[k]? = some g ∧ g.state = true)
  errLe : ∀ x ∈ s.err, x.1 < k ∨ (x.1 = k ∧ ∃ g : Goroutine, s.tasks[k]? = some g ∧ g.state = true)
  outSorted : (s.out.map Prod.fst).Pairwise (fun a b => a ≤ b)
  errSorted : (s.err.map Prod.fst).Pairwise (fun a b => a ≤ b)
  code : s.exitCode = 0 ∨ s.exitCode = 2
  codeIff : s.exitCode = 2 ↔ ∃ (i : Nat) (g : Goroutine), s.tasks[i]? = some g ∧ g.reported = true
  exitRead : ∀ (n : Nat) (g : Goroutine), s.tasks[n]? = some g → g.task = exitCodeTask →
    ∀ v ∈ g.read, (v = 0 ∨ v = 2) ∧
      (v = 2 ↔ ∃ (i : Nat) (h : Goroutine), i < n ∧ s.tasks[i]? = some h ∧ h.task.reports = true)

/-- The weights are in order: the semaphore has handed out the weight in
flight; every task has acquired its declared weight when that is between 0 and
the maximum, and the maximum otherwise; and for a maximum that is not negative
no weight is negative and the weight in flight is at most the maximum. -/
structure Sequencer.Weighed (s : Sequencer) : Prop where
  cur : s.cur = s.inFlight
  acquired : ∀ g ∈ s.tasks, g.weight = s.clip g.task.weight
  le : 0 ≤ s.maxWeight → s.inFlight ≤ s.maxWeight ∧ ∀ g ∈ s.tasks, 0 ≤ g.weight

/-- The value that `GetExitCode` returns when its task is the task `n`: the
value its call of `ExitCode` returned. -/
def Sequencer.exitCodeOf (s : Sequencer) (n : Nat) : Option Int :=
  match s.tasks[n]? with
  | some g => g.read.head?
  | none => none

/-- A schedule for two tasks that write `a` and `b`: both are added, then the
goroutine of the first task receives the state, writes and sends it on, the
goroutine of the second does the same, and the weights are released, the
second first. -/
def twoWriters : List SeqEvent :=
  [.add ⟨3, [.Write (str "a")], none⟩, .add ⟨4, [.Write (str "b")], none⟩,
   .getState 0, .call 0, .send 0, .getState 1, .call 1, .send 1, .release 1, .release 0]

/-- A schedule for `AddReport` followed by `GetExitCode`. -/
def reportThenExit : List SeqEvent :=
  [.add (reportTask (str "e")), .add exitCodeTask, .getState 0, .call 0, .send 0,
   .getState 1, .release 0, .call 1]

/-- The positions and the number of specs of the declaration a run returned:
`TokPos`, `Lparen`, the length of `Specs`, `Rparen`, and `End()`. -/
def genDeclReport (r : Res GenDecl) : Option (Nat × Nat × Nat × Nat × Option Nat) :=
  match r with
  | .ok d _ => some (d.TokPos, d.Lparen, d.Specs.length, d.Rparen, d.End)
  | _ => none

/-- The line on which a comment ends: the line on which it starts, and for a
general comment as many lines more as its text has newlines. -/
def Comment.endLine (f : File) (c : Comment) : Nat :=
  f.Line c.Slash + (if c.Text.getD 1 0 = 42 then c.Text.count 10 else 0)

/-- The line on which a comment group starts: the line of its first comment. -/
def CommentGroup.startLine (f : File) (g : CommentGroup) : Nat :=
  match g.List.head? with
  | some c => f.Line c.Slash
  | none => 0

/-- The line on which a comment group ends: the line on which its last
comment ends. -/
def CommentGroup.endLine (f : File) (g : CommentGroup) : Nat :=
  match g.List.getLast? with
  | some c => c.endLine f
  | none => 0

/-- In the words of the claim: of the comment groups consumed, the last one
that does not start on the line of the previous token, if there is one and it
ends on the line immediately before the line of the new current token. -/
def leadCommentOf (f : File) (prev pos : Nat) (gs : List CommentGroup) : Option CommentGroup :=
  match (gs.filter (fun g => g.startLine f ≠ f.Line prev)).getLast? with
  | some g => if g.endLine f + 1 = f.Line pos then some g else none
  | none => none

/-- In the words of the claim: the first comment group consumed, if it starts
on the line of the previous token and the new current token is on a different
line than the line where the group ends, or is `EOF`. -/
def lineCommentOf (f : File) (prev pos : Nat) (tok : Token) (gs : List CommentGroup) :
    Option CommentGroup :=
  match gs.head? with
  | some g =>
    if g.startLine f = f.Line prev ∧ (f.Line pos ≠ g.endLine f ∨ tok = .EOF) then some g
    else none
  | none => none

/-- The parser `q` is reached from `p` by calls of `next0`: the invariant
holds, the file base is the same, the offset of the scanner did not go back,
the line table has only grown, by line starts beyond the offset of `p`, the
current position did not go back, and the lead and line comments are those of
`p`. -/
structure parser.Moved (p q : parser) : Prop where
  inv : q.Inv
  base : q.scanner.file.base = p.scanner.file.base
  off : p.scanner.offset ≤ q.scanner.offset
  lines : LinesGrow p.scanner.offset p.scanner.file.lines q.scanner.file.lines
  pos : p.pos ≤ q.pos
  lead : q.leadComment = p.leadComment
  line : q.lineComment = p.lineComment

/-- The parser after `n` calls of `next`, for running the parser on examples
(the state is left as it is when a call does not return). -/
def parser.nextN : Nat → parser → parser
  | 0, p => p
  | n + 1, p =>
    match parser.next p with
    | .ok _ q => parser.nextN n q
    | _ => p

/-- The scanner without the errors recorded so far. -/
def Scanner.clear (s : Scanner) : Scanner := { s with errs := [] }

/-- The scanner after `k` calls of `Scan`. -/
def Scanner.after : Nat → Scanner → Scanner
  | 0, s => s
  | k + 1, s =>
    match s.Scan with
    | some r => Scanner.after k r.s
    | none => s

/-- The comment that a call of `Scan` returned, if it returned one. -/
def ScanResult.comment (r : ScanResult) : List Comment :=
  if r.tok = .COMMENT then [⟨r.pos, r.lit⟩] else []

/-- The comments that the first `k` calls of `Scan` return, in order, each
with its position and text. -/
def Scanner.commentsIn : Nat → Scanner → List Comment
  | 0, _ => []
  | k + 1, s =>
    match s.Scan with
    | some r => r.comment ++ Scanner.commentsIn k r.s
    | none => []

/-- The comments of a list of comment groups, in order. -/
def commentsOf (gs : List CommentGroup) : List Comment := gs.flatMap (fun g => g.List)

/-- The current token of the parser as a comment, if it is one. -/
def parser.cur (p : parser) : List Comment :=
  if p.tok = .COMMENT then [⟨p.pos, p.lit⟩] else []

/-- The state of the parser inside `next`, for the scanner `S0` that `Init`
prepared and the comments `pend` of the group that is being read: the
invariant holds, the scanner is the one that `S0` becomes after the calls of
`Scan` made so far (the errors recorded apart), and the comments that these
calls returned are those of the groups of the parser, then `pend`, then the
current token when it is a comment; no group is empty; and the errors that
these calls recorded are among the errors of the parser. -/
structure parser.Pending (S0 : Scanner) (p : parser) (pend : List Comment) : Prop where
  src : S0.Inv
  semis : S0.mode &&& dontInsertSemis = 0
  inv : p.Inv
  scan : p.scanner.clear = (S0.after p.nscan).clear
  coll : S0.commentsIn p.nscan = commentsOf p.comments ++ pend ++ p.cur
  full : ∀ g ∈ p.comments, g.List ≠ []
  heard : ∀ e ∈ (S0.after p.nscan).errs, e ∈ p.errors

/-- The state of the parser between two methods, for the scanner `S0` that
`Init` prepared: the current token is no comment, the comments returned by the
calls of `Scan` made so far are those of the groups of the parser, and when
the scanner does not return comments the lead and the line comment are nil. -/
structure parser.Collected (S0 : Scanner) (p : parser) : Prop where
  pend : p.Pending S0 []
  clean : p.tok ≠ .COMMENT
  nodoc : S0.mode &&& ScanComments = 0 → p.leadComment = none ∧ p.lineComment = none

/-- A run of a method kept the comments collected: when it returned, the
state is as between two methods and the value has the property `V`. -/
def Res.Keeps {α : Type} (S0 : Scanner) (V : α → Prop) : Res α → Prop
  | .ok a q => q.Collected S0 ∧ V a
  | _ => True

mutual
/-- No field of the expression has a `Doc` or a `Comment`. -/
def Expr.noDocs : Expr → Bool
  | .BadExpr _ _ => true
  | .Ident _ => true
  | .BasicLit _ => true
  | .SelectorExpr X _ => X.noDocs
  | .StarExpr _ X => X.noDocs
  | .ParenExpr _ X _ => X.noDocs
  | .ArrayType _ Len Elt => Expr.optNoDocs Len && Elt.noDocs
  | .StructType _ _ List _ => Field.allNoDocs List
  | .MapType _ Key Value => Key.noDocs && Value.noDocs
/-- No field of the optional expression has a `Doc` or a `Comment`. -/
def Expr.optNoDocs : Option Expr → Bool
  | none => true
  | some x => x.noDocs
/-- The field and the fields of its type have no `Doc` and no `Comment`. -/
def Field.noDocs : Field → Bool
  | .mk Doc _ Typ _ Comment => Doc.isNone && Comment.isNone && Typ.noDocs
/-- No field of the list has a `Doc` or a `Comment`. -/
def Field.allNoDocs : List Field → Bool
  | [] => true
  | f :: fs => f.noDocs && Field.allNoDocs fs
end

/-- The spec has no `Doc` and no `Comment`, and neither have the fields of its
type. -/
def Spec.noDocs : Spec → Bool
  | .ImportSpec x => x.Doc.isNone && x.Comment.isNone
  | .TypeSpec x => x.Doc.isNone && x.Comment.isNone && x.Typ.noDocs

/-- The declaration and its specs have no `Doc` and no `Comment`. -/
def GenDecl.noDocs (d : GenDecl) : Bool := d.Doc.isNone && d.Specs.all Spec.noDocs

/-- No field of the type of the optional parenthesized expression has a `Doc`
or a `Comment`. -/
def ParenExpr.noDocs : Option ParenExpr → Bool
  | none => true
  | some x => x.X.noDocs

/-- No field in the types of the route has a `Doc` or a `Comment`. -/
def Route.noDocs (r : Route) : Bool := ParenExpr.noDocs r.Req && ParenExpr.noDocs r.Resp

/-- No field in the value of the optional element has a `Doc` or a `Comment`. -/
def KeyValueExpr.noDocs : Option KeyValueExpr → Bool
  | none => true
  | some kv => kv.Value.noDocs

/-- No field in the values of the elements has a `Doc` or a `Comment`. -/
def KeyValueExpr.allNoDocs (kvs : List KeyValueExpr) : Bool :=
  kvs.all (fun kv => kv.Value.noDocs)

/-- No node of the service route has a `Doc` or a `Comment`. -/
def ServiceRoute.noDocs (r : ServiceRoute) : Bool :=
  KeyValueExpr.noDocs r.AtDoc && KeyValueExpr.noDocs r.AtHandler && r.Route.noDocs

/-- No node of the service has a `Doc` or a `Comment`. -/
def Service.noDocs (x : Service) : Bool :=
  (match x.AtServer with
    | some a => KeyValueExpr.allNoDocs a.Kvs
    | none => true) && x.ServiceApi.ServiceRoute.all ServiceRoute.noDocs

/-- No node of the declaration has a `Doc` or a `Comment`. -/
def Decl.noDocs : Decl → Bool
  | .BadDecl _ _ => true
  | .GenDecl d => d.noDocs
  | .InfoType x => KeyValueExpr.allNoDocs x.Kvs
  | .Service x => x.noDocs

/-- No node of the file has a `Doc` or a `Comment`, the specs of the import
list included. -/
def AstFile.noDocs (f : AstFile) : Bool :=
  f.Doc.isNone && f.Decls.all Decl.noDocs &&
    f.Imports.all (fun x => x.Doc.isNone && x.Comment.isNone)

/-- The property `b` holds when the scanner `S0` does not return comments. -/
def Scanner.NoDoc (S0 : Scanner) (b : Bool) : Prop := S0.mode &&& ScanComments = 0 → b = true

/-- The methods of the type grammar, run with fuel `n`, keep the comments
collected and return types without `Doc` and `Comment` fields when the scanner
returns no comments. -/
structure parser.TypeKeeps (S0 : Scanner) (n : Nat) : Prop where
  typ : ∀ p : parser, p.Collected S0 →
    Res.Keeps S0 (fun x => S0.NoDoc x.noDocs) (parser.parseTypeF n p)
  tryType : ∀ p : parser, p.Collected S0 →
    Res.Keeps S0 (fun x => S0.NoDoc (Expr.optNoDocs x)) (parser.tryIdentOrTypeF n p)
  struct : ∀ p : parser, p.Collected S0 →
    Res.Keeps S0 (fun x => S0.NoDoc x.noDocs) (parser.parseStructTypeF n p)
  fields : ∀ (list : List Field) (p : parser), p.Collected S0 →
    S0.NoDoc (Field.allNoDocs list) →
    Res.Keeps S0 (fun l => S0.NoDoc (Field.allNoDocs l)) (parser.structFieldsF n list p)
  field : ∀ p : parser, p.Collected S0 →
    Res.Keeps S0 (fun f => S0.NoDoc f.noDocs) (parser.parseFieldDeclF n p)
  array : ∀ (lbrack : Nat) (len : Option Expr) (p : parser), p.Collected S0 →
    S0.NoDoc (Expr.optNoDocs len) →
    Res.Keeps S0 (fun x => S0.NoDoc x.noDocs) (parser.parseArrayTypeF n lbrack len p)
  pointer : ∀ p : parser, p.Collected S0 →
    Res.Keeps S0 (fun x => S0.NoDoc x.noDocs) (parser.parsePointerTypeF n p)
  map : ∀ p : parser, p.Collected S0 →
    Res.Keeps S0 (fun x => S0.NoDoc x.noDocs) (parser.parseMapTypeF n p)

/-- The comments of the file that a run of the parser built, group by group,
if the run built a file. -/
def commentsReport : Res (Option AstFile) → Option (List (List Comment))
  | .ok (some f) _ => some (f.Comments.map (fun g => g.List))
  | _ => none

/-- A source with a group of two comments before the `syntax` statement, a
line comment after it, a comment inside a struct type and a general comment at
the end. -/
def commentedSrc : GoString :=
  str "// a\n// b\nsyntax = \"v1\" // c\ntype A \x7b // d\n  B int\n\x7d\n/* e */"

/-- What the method `error` does with an error: it records it, discards it, or
gives up with the `bailout` panic. -/
inductive ErrorFate where
  | recorded
  | discarded
  | bailout
  deriving DecidableEq, Repr

/-- Modelled from the spec: what the method `error`, which is not among the
sources, does with an error at the position `pos`. In the mode `AllErrors` the
error is recorded. Without it, an error on the line of the last recorded error
is discarded; any other error raises `bailout` when more than ten errors are
recorded, and is recorded when at most ten are. -/
def parser.errorFate (p : parser) (pos : Nat) : ErrorFate :=
  if p.mode &&& AllErrors = 0 then
    if 0 < p.errors.length ∧
        p.errors.getLast?.map (fun e => e.Pos.Line) = some (p.file.Position pos).Line then
      .discarded
    else if 10 < p.errors.length then .bailout
    else .recorded
  else .recorded

/-- A source of eleven comment lines with a NUL character each: the scanner
reports eleven errors, on eleven lines, before the token that follows. -/
def elevenErrors : GoString := (List.replicate 11 (str "//\x00\n")).flatten

/-! ## Theorems -/

/-! ### The error list of `ParseFile` -/

theorem Error.Less_iff (a b : Error) :
    Error.Less a b = true ↔
      toLex (a.Pos.Filename, toLex (a.Pos.Line, toLex (a.Pos.Column, a.Msg))) <
        toLex (b.Pos.Filename, toLex (b.Pos.Line, toLex (b.Pos.Column, b.Msg))) := by
  unfold Error.Less
  simp only [Prod.Lex.lt_iff, ne_eq, ite_not]
  split_ifs with h1 h2 h3 <;> simp_all

instance Error.notLess_total : IsTotal Error (fun a b => Error.Less b a = false) where
  total a b := by
    have ha := Error.Less_iff a b
    have hb := Error.Less_iff b a
    by_cases h1 : Error.Less b a = true
    · right
      by_cases h2 : Error.Less a b = true
      · exact absurd (lt_trans (ha.1 h2) (hb.1 h1)) (lt_irrefl _)
      · simpa using h2
    · left
      simpa using h1

instance Error.notLess_trans : IsTrans Error (fun a b => Error.Less b a = false) where
  trans a b c hab hbc := by
    have h1 : ¬ Error.Less b a = true := by simp [hab]
    have h2 : ¬ Error.Less c b = true := by simp [hbc]
    rw [Error.Less_iff] at h1 h2
    have h3 : ¬ Error.Less c a = true := by
      rw [Error.Less_iff]
      exact not_lt.2 (le_trans (not_lt.1 h1) (not_lt.1 h2))
    simpa using h3

theorem ErrorList.Sort_sorted (l : ErrorList) :
    List.Sorted (fun a b => Error.Less b a = false) (ErrorList.Sort l) :=
  List.sorted_insertionSort _ l

theorem ErrorList.Sort_perm (l : ErrorList) : List.Perm (ErrorList.Sort l) l :=
  List.perm_insertionSort _ l

theorem Error.notLess_le (a b : Error) (h : Error.Less b a = false) :
    Position.le a.Pos b.Pos := by
  unfold Error.Less at h
  unfold Position.le
  split_ifs at h with h1 h2 h3
  · left
    have := of_decide_eq_false h
    exact lt_of_le_of_ne (not_lt.1 this) (fun e => h1 e.symm)
  · right
    have := of_decide_eq_false h
    exact ⟨(not_not.1 h1).symm, Or.inl (by omega)⟩
  · right
    have := of_decide_eq_false h
    exact ⟨(not_not.1 h1).symm, Or.inr ⟨by omega, by omega⟩⟩
  · right
    exact ⟨(not_not.1 h1).symm, Or.inr ⟨by omega, by omega⟩⟩

theorem ParseFile_err_eq (lib : Lib) (base : Nat) (filename src : GoString) (mode : Nat)
    (errs : ErrorList)
    (h : (ParseFile lib base filename src mode).err = some errs) :
    ∃ p, (parseRun lib base filename src mode).state = some p ∧
      errs = ErrorList.Sort p.errors := by
  unfold ParseFile at h
  cases hr : parseRun lib base filename src mode with
  | ok f p =>
    rw [hr] at h
    simp only [ParseResult.err, ErrorList.Err] at h
    split_ifs at h
    exact ⟨p, rfl, (Option.some.inj h).symm⟩
  | panicked e p =>
    rw [hr] at h
    cases e with
    | bailout =>
      simp only [ParseResult.err, ErrorList.Err] at h
      split_ifs at h
      exact ⟨p, rfl, (Option.some.inj h).symm⟩
    | other msg => simp [ParseResult.err] at h
  | outOfFuel =>
    rw [hr] at h
    simp [ParseResult.err] at h

/-- C5: the error list that `ParseFile` returns, when it is not nil, is sorted
by source position: of two consecutive entries the earlier one has a position
(file name, then line, then column) less than or equal to the later one. -/
theorem ParseFile_errors_sorted (lib : Lib) (base : Nat) (filename src : GoString) (mode : Nat)
    (errs : ErrorList)
    (h : (ParseFile lib base filename src mode).err = some errs) :
    List.Chain' (fun a b => Position.le a.Pos b.Pos) errs := by
  obtain ⟨p, _, rfl⟩ := ParseFile_err_eq lib base filename src mode errs h
  exact List.Chain'.imp (fun a b hab => Error.notLess_le a b hab)
    (List.Pairwise.chain' (ErrorList.Sort_sorted p.errors))

/-- Witness of `ParseFile_errors_sorted`: two imports with a number for a
path give two errors, returned in the order of their positions. -/
theorem ParseFile_errors_sorted_witness :
    (ParseFile asciiLib 1 [] (str "syntax = \"v1\"\nimport 1\nimport 2") 0).err
        = some [⟨⟨[], 21, 2, 8⟩, str "expected 'STRING', found 1"⟩,
                ⟨⟨[], 30, 3, 8⟩, str "expected 'STRING', found 2"⟩] ∧
      List.Chain' (fun a b => Position.le a.Pos b.Pos)
        [(⟨⟨[], 21, 2, 8⟩, str "expected 'STRING', found 1"⟩ : Error),
         ⟨⟨[], 30, 3, 8⟩, str "expected 'STRING', found 2"⟩] :=
  ⟨by decide!,
    ParseFile_errors_sorted asciiLib 1 [] (str "syntax = \"v1\"\nimport 1\nimport 2") 0 _
      (by decide!)⟩

/-- Counterexample to C6 as stated: in the mode `AllErrors`, a second `syntax`
keyword where a declaration is expected makes `parseDecl` report the same
error at the same position each time `advance` returns without progress, and
the returned list holds the same (position, message) pair more than once. -/
theorem ParseFile_errors_duplicates :
    ¬ ((ParseFile asciiLib 1 [] (str "syntax = \"v1\"\nsyntax") AllErrors).err.getD []).Nodup ∧
      ((ParseFile asciiLib 1 [] (str "syntax = \"v1\"\nsyntax") AllErrors).err.getD []).count
        ⟨⟨[], 14, 2, 1⟩, str "expected declaration, found 'syntax'"⟩ = 12 := by
  decide!

/-- C6, amended: the error list that `ParseFile` returns is the list recorded
during the parse in another order: every (position, message) entry is
returned exactly as often as it was recorded, so an error reported several
times is returned several times. -/
theorem ParseFile_errors_count (lib : Lib) (base : Nat) (filename src : GoString) (mode : Nat)
    (errs : ErrorList)
    (h : (ParseFile lib base filename src mode).err = some errs) :
    ∃ p, (parseRun lib base filename src mode).state = some p ∧
      ∀ e, errs.count e = p.errors.count e := by
  obtain ⟨p, hp, rfl⟩ := ParseFile_err_eq lib base filename src mode errs h
  exact ⟨p, hp, fun e => List.Perm.count_eq (ErrorList.Sort_perm p.errors) e⟩

/-- Witness of `ParseFile_errors_count`. -/
theorem ParseFile_errors_count_witness :
    (ParseFile asciiLib 1 [] (str "syntax = \"v1\"\nimport 1") 0).err
        = some [⟨⟨[], 21, 2, 8⟩, str "expected 'STRING', found 1"⟩] ∧
      ∃ p, (parseRun asciiLib 1 [] (str "syntax = \"v1\"\nimport 1") 0).state = some p ∧
        ∀ e, ([⟨⟨[], 21, 2, 8⟩, str "expected 'STRING', found 1"⟩] : ErrorList).count e
          = p.errors.count e :=
  ⟨by decide!,
    ParseFile_errors_count asciiLib 1 [] (str "syntax = \"v1\"\nimport 1") 0 _ (by decide!)⟩

/-! ### Sources without a `syntax` pragma -/

/-- C3, the code at the failing input: on a source that starts with a type
declaration `parseFile` reaches `panic("not finished")`, which is no
`bailout`, so the deferred function of `ParseFile` panics again and
`ParseFile` does not return. The same happens on the empty source. -/
theorem ParseFile_without_pragma_panics :
    (ParseFile asciiLib 1 [] (str "type User \x7b\x7d") 0).panicMsg = some (str "not finished") ∧
      (ParseFile asciiLib 1 [] (str "type User \x7b\x7d") 0).file.isSome = false ∧
      (ParseFile asciiLib 1 [] [] 0).panicMsg = some (str "not finished") := by
  decide!

/-! ### Hyphenated service names -/

/-- C10, the code at the failing input: for `service foo-api` the name that
`parseApiIdent` returns is `fooapi`, without the hyphen (the scanner returns
an empty literal for `-` and the loop appends the literal), so `End() - Pos()`
is 6 and not the 7 bytes of the name in the source. -/
theorem parseApiIdent_drops_hyphen :
    (((ParseFile asciiLib 1 [] (str "syntax = \"v1\"\nservice foo-api \x7b\n get /ping\n\x7d") 0).file.map
        serviceNames).getD []).map (fun i => (i.Name, i.End - i.Pos))
      = [(str "fooapi", 6)] ∧ (str "foo-api").length = 7 := by
  decide!

/-! ### The scanner reads on and every `Scan` returns -/

theorem DecodeRune_multi (b : Nat) (rest : GoString) (hb : 0x80 ≤ b) :
    1 ≤ (DecodeRune (b :: rest)).2 ∧ 128 ≤ (DecodeRune (b :: rest)).1 := by
  unfold DecodeRune
  dsimp only [RuneError]
  have : ¬ b < 128 := by omega
  rw [if_neg this]
  by_cases h1 : b < 194 ∨ 244 < b
  · rw [if_pos h1]
    exact ⟨by omega, by omega⟩
  · rw [if_neg h1]
    by_cases h2 : rest.length + 1 < (if b < 224 then 2 else if b < 240 then 3 else 4)
    · rw [if_pos h2]
      exact ⟨by omega, by omega⟩
    · rw [if_neg h2]
      by_cases h3 : (List.getD rest 0 0 < if b = 224 then 160 else if b = 240 then 144 else 128) ∨
                  (if b = 237 then 159 else if b = 244 then 143 else 191) < List.getD rest 0 0
      · rw [if_pos h3]
        exact ⟨by omega, by omega⟩
      · rw [if_neg h3]
        by_cases h4 : (if b < 224 then 2 else if b < 240 then 3 else 4) ≤ 2
        · rw [if_pos h4]
          refine ⟨by omega, ?_⟩
          simp only [Int.ofNat_eq_coe]
          split_ifs at h4 <;> omega
        · rw [if_neg h4]
          by_cases h5 : List.getD rest 1 0 < 128 ∨ 191 < List.getD rest 1 0
          · rw [if_pos h5]
            exact ⟨by omega, by omega⟩
          · rw [if_neg h5]
            by_cases h6 : (if b < 224 then 2 else if b < 240 then 3 else 4) ≤ 3
            · rw [if_pos h6]
              refine ⟨by omega, ?_⟩
              simp only [Int.ofNat_eq_coe]
              split_ifs at h3 h4 h6 <;> omega
            · rw [if_neg h6]
              by_cases h7 : List.getD rest 2 0 < 128 ∨ 191 < List.getD rest 2 0
              · rw [if_pos h7]
                exact ⟨by omega, by omega⟩
              · rw [if_neg h7]
                refine ⟨by omega, ?_⟩
                simp only [Int.ofNat_eq_coe]
                split_ifs at h3 h4 h6 <;> omega

theorem File.AddLine_base (f : File) (o : Nat) : (f.AddLine o).base = f.base := by
  unfold File.AddLine
  split_ifs <;> rfl

theorem Scanner.newLine_fields (s : Scanner) :
    s.newLine.src = s.src ∧ s.newLine.mode = s.mode ∧ s.newLine.lib = s.lib ∧
      s.newLine.file.base = s.file.base ∧ s.newLine.insertSemi = s.insertSemi ∧
      s.newLine.ch = s.ch ∧ s.newLine.offset = s.offset ∧ s.newLine.rdOffset = s.rdOffset ∧
      s.newLine.errs = s.errs := by
  unfold Scanner.newLine
  split_ifs <;> simp [File.AddLine_base]

theorem Scanner.next_more (s : Scanner) (hlt : s.rdOffset < s.src.length) :
    s.next.src = s.src ∧ s.next.mode = s.mode ∧ s.next.lib = s.lib ∧
      s.next.file.base = s.file.base ∧ s.next.insertSemi = s.insertSemi ∧
      s.next.offset = s.rdOffset ∧ s.rdOffset < s.next.rdOffset ∧ 0 ≤ s.next.ch ∧
      (s.next.ch < 128 → s.next.rdOffset = s.rdOffset + 1 ∧ s.next.ch = Int.ofNat (s.src.getD s.rdOffset 0)) := by
  obtain ⟨b, rest, hdrop⟩ : ∃ b rest, s.src.drop s.rdOffset = b :: rest := by
    cases hd : s.src.drop s.rdOffset with
    | nil =>
      have := congrArg List.length hd
      simp at this
      omega
    | cons b rest => exact ⟨b, rest, rfl⟩
  have hb : s.src.getD s.rdOffset 0 = b := by
    have := congrArg (fun l => l.getD 0 0) hdrop
    simpa using this
  have hn := Scanner.newLine_fields { s with offset := s.rdOffset }
  simp only at hn
  obtain ⟨n1, n2, n3, n4, n5, n6, n7, n8, n9⟩ := hn
  unfold Scanner.next
  rw [if_pos hlt]
  simp only [n1, n8, hb, hdrop]
  by_cases hb0 : b = 0
  · rw [if_pos hb0]
    simp [Scanner.error, n1, n2, n3, n4, n5, n7, n8, hb0]
  · rw [if_neg hb0]
    by_cases hb8 : 128 ≤ b
    · rw [if_pos hb8]
      have hm := DecodeRune_multi b rest hb8
      split_ifs <;> simp [Scanner.error, n1, n2, n3, n4, n5, n7, n8] <;> omega
    · rw [if_neg hb8]
      simp [n1, n2, n3, n4, n5, n7, n8]

theorem Scanner.next_done (s : Scanner) (hlt : ¬ s.rdOffset < s.src.length) :
    s.next.src = s.src ∧ s.next.mode = s.mode ∧ s.next.lib = s.lib ∧
      s.next.file.base = s.file.base ∧ s.next.insertSemi = s.insertSemi ∧
      s.next.offset = s.src.length ∧ s.next.rdOffset = s.rdOffset ∧ s.next.ch = eof
      ∧ s.next.errs = s.errs := by
  have hn := Scanner.newLine_fields { s with offset := s.src.length }
  simp only at hn
  obtain ⟨n1, n2, n3, n4, n5, n6, n7, n8, n9⟩ := hn
  unfold Scanner.next
  rw [if_neg hlt]
  simp [n1, n2, n3, n4, n5, n7, n8, n9]


theorem LinesGrow.self (x : Nat) (l : List Nat) : LinesGrow x l l :=
  ⟨[], by simp, by simp⟩

theorem LinesGrow.extend {x y : Nat} {l1 l2 l3 : List Nat} (h1 : LinesGrow x l1 l2)
    (hxy : x ≤ y) (h2 : LinesGrow y l2 l3) : LinesGrow x l1 l3 := by
  obtain ⟨t1, e1, m1⟩ := h1
  obtain ⟨t2, e2, m2⟩ := h2
  refine ⟨t1 ++ t2, by rw [e2, e1, List.append_assoc], fun e he => ?_⟩
  rcases List.mem_append.mp he with h | h
  · exact m1 e h
  · exact lt_of_le_of_lt hxy (m2 e h)

theorem Scanner.Reads.refl {s : Scanner} (h : s.Inv) : s.Reads s :=
  ⟨h, le_refl _, rfl, rfl, rfl, rfl, rfl, le_refl _, LinesGrow.self _ _, [], by simp, by simp⟩

theorem Scanner.Reads.trans {s s1 s2 : Scanner} (h1 : s.Reads s1) (h2 : s1.Reads s2) :
    s.Reads s2 := by
  obtain ⟨l1, e1, m1⟩ := h1.errs
  obtain ⟨l2, e2, m2⟩ := h2.errs
  refine ⟨h2.inv, le_trans h2.left h1.left, h2.src.trans h1.src, h2.mode.trans h1.mode,
    h2.lib.trans h1.lib, h2.base.trans h1.base, h2.semi.trans h1.semi,
    le_trans h1.off h2.off, h1.lines.extend h1.off h2.lines, l1 ++ l2, ?_, ?_⟩
  · rw [e2, e1, List.append_assoc]
  · intro e he
    rcases List.mem_append.mp he with h | h
    · exact m1 e h
    · exact m2 e h

theorem Scanner.Inv.of_eq {s t : Scanner} (h : s.Inv) (h1 : t.ch = s.ch) (h2 : t.src = s.src)
    (h3 : t.rdOffset = s.rdOffset) (h4 : t.offset = s.offset) : t.Inv := by
  refine ⟨?_, ?_, ?_, ?_, ?_, ?_, ?_⟩
  · rw [h1, h2, h3]
    exact h.atEnd
  · rw [h1, h3, h4]
    exact h.ascii
  · rw [h1]
    exact h.chGe
  · rw [h3, h4]
    exact h.offLe
  · rw [h2, h4]
    exact h.offLen
  · rw [h1, h2, h4]
    exact h.eofOff
  · rw [h1, h2, h4]
    exact h.chLt

theorem lexMsg_illegal (x : GoString) : lexMsg (str "illegal character " ++ x) := by
  have h : str "illegal character " = 105 :: 108 :: str "legal character " := by decide
  rw [h]
  simp only [lexMsg, List.cons_append, List.take_succ_cons, List.take_zero]
  exact (by decide : decide (([105, 108] : GoString) ∈
    [str "il", str "co", str "st", str "ra", str "ru", str "es", str "un"]) = true)

theorem lexMsg_illegal2 (x y : GoString) : lexMsg (str "illegal character " ++ x ++ y) := by
  rw [List.append_assoc]
  exact lexMsg_illegal _

theorem Scanner.error_reads {s : Scanner} (h : s.Inv) (offs : Nat) (msg : GoString)
    (hm : lexMsg msg) : s.Reads (s.error offs msg) :=
  ⟨h.of_eq rfl rfl rfl rfl, le_refl _, rfl, rfl, rfl, rfl, rfl, le_refl _, LinesGrow.self _ _,
    [⟨s.file.Position (s.file.Pos offs), msg⟩], rfl, by simpa using hm⟩

theorem Scanner.next_errs (s : Scanner) :
    ∃ l, s.next.errs = s.errs ++ l ∧ ∀ e ∈ l, lexMsg e.Msg := by
  have key : ∀ (t : Scanner) (o : Nat) (m : GoString), lexMsg m →
      ∃ l, (t.error o m).errs = t.errs ++ l ∧ ∀ e ∈ l, lexMsg e.Msg :=
    fun t o m hm => ⟨[⟨t.file.Position (t.file.Pos o), m⟩], rfl, by simpa using hm⟩
  have nil : ∀ t : Scanner, ∃ l, t.errs = t.errs ++ l ∧ ∀ e ∈ l, lexMsg e.Msg :=
    fun t => ⟨[], by simp, by simp⟩
  unfold Scanner.next
  by_cases hlt : s.rdOffset < s.src.length
  · rw [if_pos hlt]
    have h9 := (Scanner.newLine_fields { s with offset := s.rdOffset }).2.2.2.2.2.2.2.2
    generalize ({ s with offset := s.rdOffset } : Scanner).newLine = s2 at h9 ⊢
    simp only at h9
    rw [← h9]
    simp only
    split_ifs
    · exact key s2 _ _ (by decide)
    · exact key s2 _ _ (by decide)
    · exact key s2 _ _ (by decide)
    · exact nil s2
    · exact nil s2
  · rw [if_neg hlt]
    have h9 := (Scanner.newLine_fields { s with offset := s.src.length }).2.2.2.2.2.2.2.2
    generalize ({ s with offset := s.src.length } : Scanner).newLine = s2 at h9 ⊢
    simp only at h9
    rw [← h9]
    exact nil s2

theorem File.AddLine_lines (f : File) (o x : Nat) (h : x < o) :
    LinesGrow x f.lines (f.AddLine o).lines := by
  unfold File.AddLine
  split_ifs
  · exact ⟨[o], rfl, fun e he => by rw [List.mem_singleton.mp he]; exact h⟩
  · exact LinesGrow.self _ _

theorem Scanner.next_lines {s : Scanner} (hs : s.Inv) :
    LinesGrow s.offset s.file.lines s.next.file.lines := by
  have h : ∀ t : Scanner, (t.ch = 10 → s.offset < t.offset) →
      LinesGrow s.offset t.file.lines t.newLine.file.lines := by
    intro t ht
    unfold Scanner.newLine
    split_ifs with h10
    · exact File.AddLine_lines _ _ _ (ht h10)
    · exact LinesGrow.self _ _
  unfold Scanner.next
  by_cases hlt : s.rdOffset < s.src.length
  · rw [if_pos hlt]
    have h1 := h { s with offset := s.rdOffset } (fun h10 => by
      have := hs.ascii (by rw [show s.ch = 10 from h10]; decide)
      show s.offset < s.rdOffset
      omega)
    dsimp only
    split_ifs <;> exact h1
  · rw [if_neg hlt]
    exact h { s with offset := s.src.length } (fun h10 =>
      hs.chLt (by rw [show s.ch = 10 from h10]; decide))

theorem Scanner.next_file_eq (s : Scanner) (h : s.ch ≠ 10) : s.next.file = s.file := by
  have hn : ∀ t : Scanner, t.ch ≠ 10 → t.newLine = t := by
    intro t ht
    unfold Scanner.newLine
    rw [if_neg ht]
  unfold Scanner.next
  by_cases hlt : s.rdOffset < s.src.length
  · rw [if_pos hlt, hn { s with offset := s.rdOffset } h]
    dsimp only
    split_ifs <;> rfl
  · rw [if_neg hlt, hn { s with offset := s.src.length } h]

theorem Scanner.next_reads {s : Scanner} (h : s.Inv) : s.Reads s.next := by
  have hlines := Scanner.next_lines h
  obtain ⟨h1, h2, h3, h4, h5, h6, h7⟩ := h
  by_cases hlt : s.rdOffset < s.src.length
  · obtain ⟨e1, e2, e3, e4, e5, e6, e7, e8, e9⟩ := Scanner.next_more s hlt
    have hne : s.ch ≠ eof := fun e => by have := h1 e; omega
    refine ⟨⟨?_, ?_, ?_, ?_, ?_, ?_, ?_⟩, ?_, e1, e2, e3, e4, e5, ?_, hlines,
      Scanner.next_errs s⟩
    · intro hc
      rw [hc] at e8
      simp [eof] at e8
    · intro hc
      rw [(e9 hc.2).1, e6]
    · omega
    · omega
    · rw [e1]
      omega
    · intro hc
      rw [hc] at e8
      simp [eof] at e8
    · intro _
      rw [e1]
      omega
    · have hne2 : s.next.ch ≠ eof := fun e => by rw [e] at e8; simp [eof] at e8
      simp only [Scanner.left, hne, hne2, if_false, e1]
      omega
    · omega
  · obtain ⟨e1, e2, e3, e4, e5, e6, e7, e8, e9⟩ := Scanner.next_done s hlt
    refine ⟨⟨?_, ?_, ?_, ?_, ?_, ?_, ?_⟩, ?_, e1, e2, e3, e4, e5, ?_, hlines,
      Scanner.next_errs s⟩
    · intro _
      rw [e7, e1]
      omega
    · intro hc
      rw [e8] at hc
      simp [eof] at hc
    · rw [e8]
      simp [eof]
    · omega
    · rw [e1, e6]
    · intro _
      rw [e1, e6]
    · intro hc
      exact absurd e8 hc
    · simp [Scanner.left, e8]
    · omega

theorem Scanner.next_left {s : Scanner} (h : s.Inv) (hne : s.ch ≠ eof) :
    s.next.left < s.left := by
  obtain ⟨h1, h2, h3⟩ := h
  by_cases hlt : s.rdOffset < s.src.length
  · obtain ⟨e1, e2, e3, e4, e5, e6, e7, e8, e9⟩ := Scanner.next_more s hlt
    have hne2 : s.next.ch ≠ eof := fun e => by rw [e] at e8; simp [eof] at e8
    simp only [Scanner.left, hne, hne2, if_false, e1]
    omega
  · obtain ⟨e1, e2, e3, e4, e5, e6, e7, e8, e9⟩ := Scanner.next_done s hlt
    simp [Scanner.left, e8, hne]

theorem Scanner.left_lt_fuel (s : Scanner) : s.left < s.fuel := by
  unfold Scanner.left Scanner.fuel
  split_ifs <;> omega

theorem Scanner.Reads.fuel {s s1 : Scanner} (h : s.Reads s1) : s1.fuel = s.fuel := by
  unfold Scanner.fuel
  rw [h.src]

theorem skipWhitespaceLoop_reads : ∀ (n : Nat) (s : Scanner), s.Inv → s.left < n →
    ∃ s1, skipWhitespaceLoop n s = some s1 ∧ s.Reads s1 ∧
      ¬ (s1.ch = 32 ∨ s1.ch = 9 ∨ (s1.ch = 10 ∧ s1.insertSemi = false) ∨ s1.ch = 13) := by
  intro n
  induction n with
  | zero => intro s _ h; omega
  | succ n ih =>
    intro s hs hn
    unfold skipWhitespaceLoop
    by_cases hc : s.ch = 32 ∨ s.ch = 9 ∨ (s.ch = 10 ∧ s.insertSemi = false) ∨ s.ch = 13
    · rw [if_pos hc]
      have hne : s.ch ≠ eof := by
        intro e
        rw [e] at hc
        simp [eof] at hc
      have hr := Scanner.next_reads hs
      have hl := Scanner.next_left hs hne
      obtain ⟨s1, e1, r1, c1⟩ := ih s.next hr.inv (by omega)
      exact ⟨s1, e1, hr.trans r1, c1⟩
    · rw [if_neg hc]
      exact ⟨s, rfl, Scanner.Reads.refl hs, hc⟩

theorem Scanner.skipWhitespace_reads {s : Scanner} (hs : s.Inv) :
    ∃ s1, s.skipWhitespace = some s1 ∧ s.Reads s1 ∧
      ¬ (s1.ch = 32 ∨ s1.ch = 9 ∨ (s1.ch = 10 ∧ s1.insertSemi = false) ∨ s1.ch = 13) :=
  skipWhitespaceLoop_reads s.fuel s hs s.left_lt_fuel

theorem isLetter_ne_eof {lib : Lib} {ch : Int} (h : isLetter lib ch = true) : ch ≠ eof := by
  intro e
  rw [e] at h
  simp [isLetter, eof] at h

theorem isDecimal_ne_eof {ch : Int} (h : isDecimal ch = true) : ch ≠ eof := by
  intro e
  rw [e] at h
  simp [isDecimal, eof] at h

theorem scanIdentifierLoop_reads : ∀ (n : Nat) (s : Scanner), s.Inv → s.left < n →
    ∃ s1, scanIdentifierLoop n s = some s1 ∧ s.Reads s1 ∧
      (isLetter s.lib s.ch = true → s1.left < s.left) := by
  intro n
  induction n with
  | zero => intro s _ h; omega
  | succ n ih =>
    intro s hs hn
    unfold scanIdentifierLoop
    by_cases hc : isLetter s.lib s.ch = true ∨ isDigit s.lib s.ch = true
    · rw [if_pos hc]
      have hne : s.ch ≠ eof := by
        rcases hc with hc | hc
        · exact isLetter_ne_eof hc
        · intro e
          rw [e] at hc
          simp [isDigit, isDecimal, eof] at hc
      have hr := Scanner.next_reads hs
      have hl := Scanner.next_left hs hne
      obtain ⟨s1, e1, r1, _⟩ := ih s.next hr.inv (by omega)
      exact ⟨s1, e1, hr.trans r1, fun _ => lt_of_le_of_lt r1.left hl⟩
    · rw [if_neg hc]
      exact ⟨s, rfl, Scanner.Reads.refl hs, fun h => absurd (Or.inl h) hc⟩

theorem Scanner.scanIdentifier_reads {s : Scanner} (hs : s.Inv) :
    ∃ lit s1, s.scanIdentifier = some (lit, s1) ∧ s.Reads s1 ∧
      (isLetter s.lib s.ch = true → s1.left < s.left) := by
  obtain ⟨s1, e1, r1, c1⟩ := scanIdentifierLoop_reads s.fuel s hs s.left_lt_fuel
  exact ⟨slice s1.src s.offset s1.offset, s1, by simp [Scanner.scanIdentifier, e1], r1, c1⟩

theorem digitsLoop_reads : ∀ (n : Nat) (s : Scanner), s.Inv → s.left < n →
    ∃ s1, digitsLoop n s = some s1 ∧ s.Reads s1 ∧
      (isDecimal s.ch = true → s1.left < s.left) := by
  intro n
  induction n with
  | zero => intro s _ h; omega
  | succ n ih =>
    intro s hs hn
    unfold digitsLoop
    by_cases hc : isDecimal s.ch = true
    · rw [if_pos hc]
      have hr := Scanner.next_reads hs
      have hl := Scanner.next_left hs (isDecimal_ne_eof hc)
      obtain ⟨s1, e1, r1, _⟩ := ih s.next hr.inv (by omega)
      exact ⟨s1, e1, hr.trans r1, fun _ => lt_of_le_of_lt r1.left hl⟩
    · rw [if_neg hc]
      exact ⟨s, rfl, Scanner.Reads.refl hs, fun h => absurd h hc⟩

theorem Scanner.scanNumber_reads {s : Scanner} (hs : s.Inv)
    (hc : isDecimal s.ch = true ∨ s.ch = 46) :
    ∃ tok lit s1, s.scanNumber = some (tok, lit, s1) ∧ s.Reads s1 ∧ s1.left < s.left ∧
      (tok = .INT ∨ tok = .FLOAT) := by
  unfold Scanner.scanNumber
  by_cases h46 : s.ch = 46
  · have hne : s.ch ≠ eof := by rw [h46]; simp [eof]
    have hr := Scanner.next_reads hs
    have hl := Scanner.next_left hs hne
    obtain ⟨s2, e2, r2, _⟩ := digitsLoop_reads s.fuel s.next hr.inv
      (by have := s.left_lt_fuel; omega)
    simp only [h46, ne_eq, not_true_eq_false, if_false, if_true, e2]
    exact ⟨_, _, _, rfl, hr.trans r2, lt_of_le_of_lt r2.left hl, Or.inr rfl⟩
  · have hd : isDecimal s.ch = true := by
      rcases hc with hc | hc
      · exact hc
      · exact absurd hc h46
    obtain ⟨s1, e1, r1, l1⟩ := digitsLoop_reads s.fuel s hs s.left_lt_fuel
    simp only [ne_eq, h46, not_false_eq_true, if_true, e1]
    by_cases h1 : s1.ch = 46
    · have hne : s1.ch ≠ eof := by rw [h1]; simp [eof]
      have hr := Scanner.next_reads r1.inv
      obtain ⟨s2, e2, r2, _⟩ := digitsLoop_reads s1.fuel s1.next hr.inv
        (by have := s1.left_lt_fuel; have := hr.left; omega)
      simp only [h1, if_true, e2]
      exact ⟨_, _, _, rfl, (r1.trans hr).trans r2,
        lt_of_le_of_lt (le_trans r2.left hr.left) (l1 hd), Or.inr rfl⟩
    · simp only [h1, if_false]
      exact ⟨_, _, _, rfl, r1, l1 hd, Or.inl rfl⟩

theorem scanEscapeDigits_reads : ∀ (n base x : Nat) (s : Scanner), s.Inv →
    s.Reads (scanEscapeDigits n base x s).2 := by
  intro n
  induction n with
  | zero => intro base x s hs; exact Scanner.Reads.refl hs
  | succ n ih =>
    intro base x s hs
    unfold scanEscapeDigits
    simp only
    split_ifs
    · exact Scanner.error_reads hs _ _ (by decide)
    · exact Scanner.error_reads hs _ _ (lexMsg_illegal2 _ _)
    · exact (Scanner.next_reads hs).trans (ih _ _ _ (Scanner.next_reads hs).inv)

theorem Scanner.scanEscapeValue_reads {s : Scanner} (hs : s.Inv) (offs n base max : Nat) :
    s.Reads (s.scanEscapeValue offs n base max).2 := by
  have hr := scanEscapeDigits_reads n base 0 s hs
  unfold Scanner.scanEscapeValue
  split
  · rename_i s2 heq
    have : s2 = (scanEscapeDigits n base 0 s).2 := by rw [heq]
    rw [this]
    exact hr
  · rename_i x s2 heq
    have : s2 = (scanEscapeDigits n base 0 s).2 := by rw [heq]
    split_ifs
    · rw [this]
      exact hr.trans (Scanner.error_reads hr.inv _ _ (by decide))
    · rw [this]
      exact hr

theorem Scanner.scanEscape_reads {s : Scanner} (hs : s.Inv) (quote : Int) :
    s.Reads (s.scanEscape quote).2 := by
  have hr := Scanner.next_reads hs
  unfold Scanner.scanEscape
  simp only
  split_ifs
  · exact hr
  · exact Scanner.scanEscapeValue_reads hs _ _ _ _
  · exact hr.trans (Scanner.scanEscapeValue_reads hr.inv _ _ _ _)
  · exact hr.trans (Scanner.scanEscapeValue_reads hr.inv _ _ _ _)
  · exact hr.trans (Scanner.scanEscapeValue_reads hr.inv _ _ _ _)
  · exact Scanner.error_reads hs _ _ (by decide)
  · exact Scanner.error_reads hs _ _ (by decide)

theorem scanStringLoop_reads : ∀ (n offs : Nat) (s : Scanner), s.Inv → s.left < n →
    ∃ s1, scanStringLoop n offs s = some s1 ∧ s.Reads s1 := by
  intro n
  induction n with
  | zero => intro _ s _ h; omega
  | succ n ih =>
    intro offs s hs hn
    unfold scanStringLoop
    simp only
    by_cases hc : s.ch = 10 ∨ s.ch < 0
    · rw [if_pos hc]
      exact ⟨_, rfl, Scanner.error_reads hs _ _ (by decide)⟩
    · rw [if_neg hc]
      have hne : s.ch ≠ eof := by
        intro e
        rw [e] at hc
        simp [eof] at hc
      have hr := Scanner.next_reads hs
      have hl := Scanner.next_left hs hne
      split_ifs
      · exact ⟨_, rfl, hr⟩
      · have hr2 := Scanner.scanEscape_reads hr.inv 34
        obtain ⟨s1, e1, r1⟩ := ih offs _ hr2.inv (by have := hr2.left; omega)
        exact ⟨s1, e1, (hr.trans hr2).trans r1⟩
      · obtain ⟨s1, e1, r1⟩ := ih offs _ hr.inv (by omega)
        exact ⟨s1, e1, hr.trans r1⟩

theorem Scanner.scanString_reads {s : Scanner} (hs : s.Inv) :
    ∃ lit s1, s.scanString = some (lit, s1) ∧ s.Reads s1 := by
  obtain ⟨s1, e1, r1⟩ := scanStringLoop_reads s.fuel (s.offset - 1) s hs s.left_lt_fuel
  exact ⟨slice s1.src (s.offset - 1) s1.offset, s1, by simp [Scanner.scanString, e1], r1⟩

theorem scanRuneLoop_reads : ∀ (f offs : Nat) (valid : Bool) (n : Nat) (s : Scanner),
    s.Inv → s.left < f →
    ∃ v m s1, scanRuneLoop f offs valid n s = some (v, m, s1) ∧ s.Reads s1 := by
  intro f
  induction f with
  | zero => intro _ _ _ s _ h; omega
  | succ f ih =>
    intro offs valid n s hs hn
    unfold scanRuneLoop
    simp only
    by_cases hc : s.ch = 10 ∨ s.ch < 0
    · rw [if_pos hc]
      split_ifs
      · exact ⟨_, _, _, rfl, Scanner.error_reads hs _ _ (by decide)⟩
      · exact ⟨_, _, _, rfl, Scanner.Reads.refl hs⟩
    · rw [if_neg hc]
      have hne : s.ch ≠ eof := by
        intro e
        rw [e] at hc
        simp [eof] at hc
      have hr := Scanner.next_reads hs
      have hl := Scanner.next_left hs hne
      by_cases h39 : s.ch = 39
      · rw [if_pos h39]
        exact ⟨_, _, _, rfl, hr⟩
      · rw [if_neg h39]
        by_cases h92 : s.ch = 92
        · rw [if_pos h92]
          have hr2 := Scanner.scanEscape_reads hr.inv 39
          obtain ⟨v, m, s1, e1, r1⟩ := ih offs
            (if (s.next.scanEscape 39).1 = true then valid else false) (n + 1) _ hr2.inv
            (by have := hr2.left; omega)
          exact ⟨v, m, s1, e1, (hr.trans hr2).trans r1⟩
        · rw [if_neg h92]
          obtain ⟨v, m, s1, e1, r1⟩ := ih offs valid (n + 1) _ hr.inv (by omega)
          exact ⟨v, m, s1, e1, hr.trans r1⟩

theorem Scanner.scanRune_reads {s : Scanner} (hs : s.Inv) :
    ∃ lit s1, s.scanRune = some (lit, s1) ∧ s.Reads s1 := by
  obtain ⟨v, m, s1, e1, r1⟩ :=
    scanRuneLoop_reads s.fuel (s.offset - 1) true 0 s hs s.left_lt_fuel
  unfold Scanner.scanRune
  simp only [e1]
  split_ifs
  · exact ⟨_, _, rfl, r1.trans (Scanner.error_reads r1.inv _ _ (by decide))⟩
  · exact ⟨_, _, rfl, r1⟩

theorem scanRawStringLoop_reads : ∀ (n offs : Nat) (s : Scanner), s.Inv → s.left < n →
    ∃ s1, scanRawStringLoop n offs s = some s1 ∧ s.Reads s1 := by
  intro n
  induction n with
  | zero => intro _ s _ h; omega
  | succ n ih =>
    intro offs s hs hn
    unfold scanRawStringLoop
    simp only
    by_cases hc : s.ch < 0
    · rw [if_pos hc]
      exact ⟨_, rfl, Scanner.error_reads hs _ _ (by decide)⟩
    · rw [if_neg hc]
      have hne : s.ch ≠ eof := by
        intro e
        rw [e] at hc
        simp [eof] at hc
      have hr := Scanner.next_reads hs
      have hl := Scanner.next_left hs hne
      split_ifs
      · exact ⟨_, rfl, hr⟩
      · obtain ⟨s1, e1, r1⟩ := ih offs _ hr.inv (by omega)
        exact ⟨s1, e1, hr.trans r1⟩

theorem Scanner.scanRawString_reads {s : Scanner} (hs : s.Inv) :
    ∃ lit s1, s.scanRawString = some (lit, s1) ∧ s.Reads s1 := by
  obtain ⟨s1, e1, r1⟩ := scanRawStringLoop_reads s.fuel (s.offset - 1) s hs s.left_lt_fuel
  exact ⟨slice s1.src (s.offset - 1) s1.offset, s1, by simp [Scanner.scanRawString, e1], r1⟩

theorem scanCommentLine_reads : ∀ (n : Nat) (s : Scanner), s.Inv → s.left < n →
    ∃ s1, scanCommentLine n s = some s1 ∧ s.Reads s1 := by
  intro n
  induction n with
  | zero => intro s _ h; omega
  | succ n ih =>
    intro s hs hn
    unfold scanCommentLine
    by_cases hc : s.ch ≠ 10 ∧ 0 ≤ s.ch
    · rw [if_pos hc]
      have hne : s.ch ≠ eof := by
        intro e
        rw [e] at hc
        simp [eof] at hc
      have hr := Scanner.next_reads hs
      have hl := Scanner.next_left hs hne
      obtain ⟨s1, e1, r1⟩ := ih _ hr.inv (by omega)
      exact ⟨s1, e1, hr.trans r1⟩
    · rw [if_neg hc]
      exact ⟨s, rfl, Scanner.Reads.refl hs⟩

theorem scanCommentGeneral_reads : ∀ (n : Nat) (s : Scanner), s.Inv → s.left < n →
    ∃ b s1, scanCommentGeneral n s = some (b, s1) ∧ s.Reads s1 := by
  intro n
  induction n with
  | zero => intro s _ h; omega
  | succ n ih =>
    intro s hs hn
    unfold scanCommentGeneral
    simp only
    by_cases hc : 0 ≤ s.ch
    · rw [if_pos hc]
      have hne : s.ch ≠ eof := by
        intro e
        rw [e] at hc
        simp [eof] at hc
      have hr := Scanner.next_reads hs
      have hl := Scanner.next_left hs hne
      split_ifs
      · exact ⟨_, _, rfl, hr.trans (Scanner.next_reads hr.inv)⟩
      · obtain ⟨b, s1, e1, r1⟩ := ih _ hr.inv (by omega)
        exact ⟨b, s1, e1, hr.trans r1⟩
    · rw [if_neg hc]
      exact ⟨_, s, rfl, Scanner.Reads.refl hs⟩

theorem Scanner.scanComment_reads {s : Scanner} (hs : s.Inv) :
    ∃ lit s1, s.scanComment = some (lit, s1) ∧ s.Reads s1 := by
  have hr := Scanner.next_reads hs
  unfold Scanner.scanComment
  simp only
  split_ifs
  · obtain ⟨s1, e1, r1⟩ := scanCommentLine_reads s.fuel s.next hr.inv
      (by have := s.left_lt_fuel; have := hr.left; omega)
    simp only [e1]
    exact ⟨_, _, rfl, hr.trans r1⟩
  · obtain ⟨b, s1, e1, r1⟩ := scanCommentGeneral_reads s.fuel s.next hr.inv
      (by have := s.left_lt_fuel; have := hr.left; omega)
    simp only [e1]
    cases b
    · exact ⟨_, _, rfl, (hr.trans r1).trans (Scanner.error_reads r1.inv _ _ (by decide))⟩
    · exact ⟨_, _, rfl, hr.trans r1⟩

theorem findLineEndBody_reads : ∀ (n : Nat) (s : Scanner), s.Inv → s.left < n →
    ∃ b s1, findLineEndBody n s = some (b, s1) ∧ s.Reads s1 := by
  intro n
  induction n with
  | zero => intro s _ h; omega
  | succ n ih =>
    intro s hs hn
    unfold findLineEndBody
    simp only
    by_cases hc : 0 ≤ s.ch
    · rw [if_pos hc]
      have hne : s.ch ≠ eof := by
        intro e
        rw [e] at hc
        simp [eof] at hc
      have hr := Scanner.next_reads hs
      have hl := Scanner.next_left hs hne
      split_ifs
      · exact ⟨_, _, rfl, Scanner.Reads.refl hs⟩
      · exact ⟨_, _, rfl, hr.trans (Scanner.next_reads hr.inv)⟩
      · obtain ⟨b, s1, e1, r1⟩ := ih _ hr.inv (by omega)
        exact ⟨b, s1, e1, hr.trans r1⟩
    · rw [if_neg hc]
      exact ⟨_, s, rfl, Scanner.Reads.refl hs⟩

theorem findLineEndLoop_reads : ∀ (n : Nat) (s : Scanner), s.Inv → s.left < n →
    ∃ b s1, findLineEndLoop n s = some (b, s1) ∧ s.Reads s1 := by
  intro n
  induction n with
  | zero => intro s _ h; omega
  | succ n ih =>
    intro s hs hn
    unfold findLineEndLoop
    by_cases hc : s.ch = 47 ∨ s.ch = 42
    · rw [if_pos hc]
      by_cases h47 : s.ch = 47
      · rw [if_pos h47]
        exact ⟨_, _, rfl, Scanner.Reads.refl hs⟩
      · rw [if_neg h47]
        have hne : s.ch ≠ eof := by
          intro e
          rw [e] at hc
          simp [eof] at hc
        have hr := Scanner.next_reads hs
        have hl := Scanner.next_left hs hne
        obtain ⟨b, s1, e1, r1⟩ := findLineEndBody_reads s.fuel s.next hr.inv
          (by have := s.left_lt_fuel; omega)
        simp only [e1]
        cases b
        · obtain ⟨s2, e2, r2, _⟩ := Scanner.skipWhitespace_reads r1.inv
          simp only [e2]
          split_ifs with h1 h2
          · exact ⟨_, _, rfl, (hr.trans r1).trans r2⟩
          · exact ⟨_, _, rfl, (hr.trans r1).trans r2⟩
          · have hr3 := Scanner.next_reads r2.inv
            obtain ⟨b, s3, e3, r3⟩ := ih _ hr3.inv
              (by have := hr3.left; have := r2.left; have := r1.left; omega)
            exact ⟨b, s3, e3, (((hr.trans r1).trans r2).trans hr3).trans r3⟩
        · exact ⟨_, _, rfl, hr.trans r1⟩
    · rw [if_neg hc]
      exact ⟨_, s, rfl, Scanner.Reads.refl hs⟩

theorem Scanner.findLineEnd_reads {s : Scanner} (hs : s.Inv) (hc : s.ch = 47 ∨ s.ch = 42) :
    ∃ b s1, s.findLineEnd = some (b, s1) ∧ s.Reads s1 := by
  obtain ⟨b, s1, e1, r1⟩ := findLineEndLoop_reads s.fuel s hs s.left_lt_fuel
  unfold Scanner.findLineEnd
  simp only [e1]
  refine ⟨_, _, rfl, ?_⟩
  have hrd : s.rdOffset = s.offset + 1 := hs.ascii (by rcases hc with h | h <;> rw [h] <;> decide)
  have hne : s.ch ≠ eof := by
    rcases hc with h | h <;> rw [h] <;> simp [eof]
  generalize ht : ({ s1 with ch := 47, offset := s.offset - 1, rdOffset := s.offset - 1 + 1 } :
      Scanner) = t
  have t1 : t.ch = 47 := by rw [← ht]
  have t2 : t.rdOffset = s.offset - 1 + 1 := by rw [← ht]
  have t3 : t.offset = s.offset - 1 := by rw [← ht]
  have t4 : t.src = s.src := by rw [← ht]; exact r1.src
  have t5 : t.mode = s.mode := by rw [← ht]; exact r1.mode
  have t6 : t.lib = s.lib := by rw [← ht]; exact r1.lib
  have t7 : t.file.base = s.file.base := by rw [← ht]; exact r1.base
  have t8 : t.insertSemi = s.insertSemi := by rw [← ht]; exact r1.semi
  have t9 : t.errs = s1.errs := by rw [← ht]
  have hi : t.Inv := by
    refine ⟨?_, ?_, ?_, ?_, ?_, ?_, ?_⟩
    · intro e
      rw [t1] at e
      simp [eof] at e
    · intro _
      rw [t2, t3]
    · rw [t1]
      decide
    · rw [t2, t3]
      omega
    · rw [t3, t4]
      have := hs.offLen
      omega
    · intro e
      rw [t1] at e
      simp [eof] at e
    · intro _
      rw [t3, t4]
      have := hs.chLt hne
      omega
  have hr := Scanner.next_reads hi
  have hoff : s.offset ≤ t.next.offset := by
    by_cases hlt : t.rdOffset < t.src.length
    · rw [(Scanner.next_more t hlt).2.2.2.2.2.1, t2]
      omega
    · rw [(Scanner.next_done t hlt).2.2.2.2.2.1, t4]
      exact hs.offLen
  have herrs : ∃ l, t.next.errs = s.errs ++ l ∧ ∀ e ∈ l, lexMsg e.Msg := by
    obtain ⟨l1, e1, m1⟩ := r1.errs
    obtain ⟨l2, e2, m2⟩ := hr.errs
    refine ⟨l1 ++ l2, ?_, ?_⟩
    · rw [e2, t9, e1, List.append_assoc]
    · intro e he
      rcases List.mem_append.mp he with h | h
      · exact m1 e h
      · exact m2 e h
  have hlines : LinesGrow s.offset s.file.lines t.next.file.lines := by
    have h1 : t.file = s1.file := by rw [← ht]
    rw [Scanner.next_file_eq t (by rw [t1]; decide), h1]
    exact r1.lines
  refine ⟨hr.inv, ?_, hr.src.trans t4, hr.mode.trans t5, hr.lib.trans t6,
    hr.base.trans t7, hr.semi.trans t8, hoff, hlines, herrs⟩
  have hl := Scanner.next_left hi (by rw [t1]; simp [eof])
  have htl : t.left = s.src.length - (s.offset - 1 + 1) + 1 := by
    simp [Scanner.left, t1, t2, t4, eof]
  have hsl : s.left = s.src.length - (s.offset + 1) + 1 := by
    simp [Scanner.left, hne, hrd]
  omega

theorem Scanner.switch2_reads {s : Scanner} (hs : s.Inv) (t0 t1 : Token) :
    s.Reads (s.switch2 t0 t1).2 := by
  unfold Scanner.switch2
  split_ifs
  · exact Scanner.next_reads hs
  · exact Scanner.Reads.refl hs

theorem Scanner.switch3_reads {s : Scanner} (hs : s.Inv) (t0 t1 : Token) (c : Int)
    (t2 : Token) : s.Reads (s.switch3 t0 t1 c t2).2 := by
  unfold Scanner.switch3
  split_ifs
  · exact Scanner.next_reads hs
  · exact Scanner.next_reads hs
  · exact Scanner.Reads.refl hs

theorem Scanner.switch4_reads {s : Scanner} (hs : s.Inv) (t0 t1 : Token) (c : Int)
    (t2 t3 : Token) : s.Reads (s.switch4 t0 t1 c t2 t3).2 := by
  unfold Scanner.switch4
  simp only
  split_ifs
  · exact Scanner.next_reads hs
  · exact (Scanner.next_reads hs).trans (Scanner.next_reads (Scanner.next_reads hs).inv)
  · exact Scanner.next_reads hs
  · exact Scanner.Reads.refl hs

theorem Scanner.switch2_cases (P : Token → Prop) (s : Scanner) (t0 t1 : Token)
    (h0 : P t0) (h1 : P t1) : P (s.switch2 t0 t1).1 := by
  unfold Scanner.switch2
  split_ifs <;> assumption

theorem Scanner.switch3_cases (P : Token → Prop) (s : Scanner) (t0 t1 : Token) (c : Int)
    (t2 : Token) (h0 : P t0) (h1 : P t1) (h2 : P t2) : P (s.switch3 t0 t1 c t2).1 := by
  unfold Scanner.switch3
  split_ifs <;> assumption

theorem Scanner.switch4_cases (P : Token → Prop) (s : Scanner) (t0 t1 : Token) (c : Int)
    (t2 t3 : Token) (h0 : P t0) (h1 : P t1) (h2 : P t2) (h3 : P t3) :
    P (s.switch4 t0 t1 c t2 t3).1 := by
  unfold Scanner.switch4
  simp only
  split_ifs <;> assumption

theorem Lookup_cases (lit : GoString) (P : Token → Prop)
    (h : ∀ t, t ∈ [Token.SYNTAX, .INFO, .IMPORT, .TYPE, .SERVICE, .RETURNS, .MAP, .STRUCT,
      .ATSERVER, .DOC, .HANDLER, .IDENT] → P t) : P (Lookup lit) := by
  unfold Lookup
  by_cases h0 : lit = str "syntax"
  · rw [if_pos h0]
    exact h _ (by simp)
  rw [if_neg h0]
  by_cases h1 : lit = str "info"
  · rw [if_pos h1]
    exact h _ (by simp)
  rw [if_neg h1]
  by_cases h2 : lit = str "import"
  · rw [if_pos h2]
    exact h _ (by simp)
  rw [if_neg h2]
  by_cases h3 : lit = str "type"
  · rw [if_pos h3]
    exact h _ (by simp)
  rw [if_neg h3]
  by_cases h4 : lit = str "service"
  · rw [if_pos h4]
    exact h _ (by simp)
  rw [if_neg h4]
  by_cases h5 : lit = str "returns"
  · rw [if_pos h5]
    exact h _ (by simp)
  rw [if_neg h5]
  by_cases h6 : lit = str "map"
  · rw [if_pos h6]
    exact h _ (by simp)
  rw [if_neg h6]
  by_cases h7 : lit = str "struct"
  · rw [if_pos h7]
    exact h _ (by simp)
  rw [if_neg h7]
  by_cases h8 : lit = str "@server"
  · rw [if_pos h8]
    exact h _ (by simp)
  rw [if_neg h8]
  by_cases h9 : lit = str "@doc"
  · rw [if_pos h9]
    exact h _ (by simp)
  rw [if_neg h9]
  by_cases h10 : lit = str "@handler"
  · rw [if_pos h10]
    exact h _ (by simp)
  rw [if_neg h10]
  exact h _ (by simp)

theorem Lookup_TokOK (lit : GoString) :
    TokOK lit (decide (Lookup lit = .IDENT)) (Lookup lit) := by
  refine Lookup_cases lit (fun t => TokOK lit (decide (t = .IDENT)) t) ?_
  intro t ht
  simp only [List.mem_cons, List.mem_singleton, List.not_mem_nil, or_false] at ht
  rcases ht with h | h | h | h | h | h | h | h | h | h | h | h <;> rw [h] <;>
    simp [TokOK, Token.endsStatement]

theorem ScanPost.of_reads {s0 s s1 : Scanner} (hR : s0.Reads s) (h1 : s.Reads s1) :
    (∃ l, s1.errs = s0.errs ++ l ∧ ∀ e ∈ l, lexMsg e.Msg) ∧
      s0.file.base + s0.offset ≤ s.file.Pos s.offset ∧
      s.file.Pos s.offset ≤ s1.file.base + s1.offset := by
  refine ⟨(hR.trans h1).errs, ?_, ?_⟩
  · have := hR.off
    have := hR.base
    unfold File.Pos
    omega
  · have := h1.off
    have := h1.base
    unfold File.Pos
    omega

theorem finish_adv {s0 s s1 : Scanner} (hR : s0.Reads s) (h1 : s.Reads s1)
    (hl : s1.left < s0.left)
    (tok : Token) (lit : GoString) (b : Bool) (ht1 : tok ≠ .EOF)
    (ht2 : tok = .SEMICOLON → lit ≠ str "\n") (ht3 : tok ≠ .ILLEGAL → b = tok.endsStatement)
    (ht4 : tok = .COMMENT → s.offset < s1.offset)
    (ht5 : tok = .ILLEGAL → b = s0.insertSemi) :
    ScanPost s0 (s1.finish (s.file.Pos s.offset) tok lit b) := by
  have h := hR.trans h1
  obtain ⟨hp1, hp2, hp3⟩ := ScanPost.of_reads hR h1
  have hns : ¬ (tok = .SEMICOLON ∧ lit = str "\n") := fun e => ht2 e.1 e.2
  have hadv : tok = .COMMENT → s.file.Pos s.offset < s1.file.base + s1.offset := by
    intro e
    have := ht4 e
    have := h1.base
    unfold File.Pos
    omega
  unfold Scanner.finish
  split_ifs with hm
  · refine ⟨h.inv.of_eq rfl rfl rfl rfl, h.src, h.mode, h.lib, h.base, hp1, hp2, hp3,
      fun _ => ?_, fun e => absurd e ht1, fun _ hi => ht3 hi, fun _ => hns,
      fun hk _ => absurd (h.mode ▸ hm) hk, h.lines, fun e1 e2 => absurd e2 (ht2 e1),
      fun e => absurd e ht1, hadv, fun _ e hb => (ht5 e).symm.trans hb⟩
    have : ({ s1 with insertSemi := b } : Scanner).left = s1.left := rfl
    simp only [Scanner.measure, this]
    split_ifs <;> omega
  · refine ⟨h.inv, h.src, h.mode, h.lib, h.base, hp1, hp2, hp3, fun _ => ?_,
      fun e => absurd e ht1, fun hm0 _ => ?_, fun _ => hns, fun _ h0 => h.semi.trans h0,
      h.lines, fun e1 e2 => absurd e2 (ht2 e1), fun e => absurd e ht1, hadv,
      fun hm0 _ _ => absurd (by rw [h.mode]; exact hm0) hm⟩
    · simp only [Scanner.measure]
      split_ifs <;> omega
    · rw [h.mode] at hm
      exact absurd hm0 hm

theorem finish_post {s0 s s1 : Scanner} (hR : s0.Reads s) (h1 : s.Reads s1)
    (hl : s1.left < s0.left)
    (tok : Token) (lit : GoString) (b : Bool) (ht : TokOK lit b tok) :
    ScanPost s0 (s1.finish (s.file.Pos s.offset) tok lit b) :=
  finish_adv hR h1 hl tok lit b ht.1 ht.2.1 ht.2.2.1 (fun e => absurd e ht.2.2.2.1)
    (fun e => absurd e ht.2.2.2.2)

theorem semi_post {s0 s s1 : Scanner} (hR : s0.Reads s) (h1 : s.Reads s1)
    (hl : s1.left ≤ s0.left)
    (hflag : s0.insertSemi = true) (lit : GoString) :
    ScanPost s0 ⟨s.file.Pos s.offset, .SEMICOLON, lit, { s1 with insertSemi := false }⟩ := by
  have h := hR.trans h1
  obtain ⟨hp1, hp2, hp3⟩ := ScanPost.of_reads hR h1
  refine ⟨h.inv.of_eq rfl rfl rfl rfl, h.src, h.mode, h.lib, h.base, hp1, hp2, hp3,
    fun _ => ?_, fun e => ?_, fun _ _ => rfl, fun e => ?_, fun _ _ => rfl, h.lines,
    fun _ _ => rfl, fun e => ?_, fun e => ?_, fun _ e => Token.noConfusion e⟩
  · have : ({ s1 with insertSemi := false } : Scanner).left = s1.left := rfl
    simp only [Scanner.measure, this, hflag, if_true, Bool.false_eq_true, if_false]
    omega
  · simp at e
  · rw [hflag] at e
    simp at e
  · simp at e
  · simp at e

theorem ScanLoop_post : ∀ (fuel : Nat) (s0 : Scanner), s0.Inv → s0.left < fuel →
    ∃ r, ScanLoop fuel s0 = some r ∧ ScanPost s0 r := by
  intro fuel
  induction fuel with
  | zero => intro s _ h; omega
  | succ fuel ih =>
  intro s0 hs0 hfuel
  unfold ScanLoop
  obtain ⟨s, e, hR, hws⟩ := Scanner.skipWhitespace_reads hs0
  simp only [e]
  by_cases hL : isLetter s.lib s.ch = true
  · rw [if_pos hL]
    obtain ⟨lit, s1, e1, r1, l1⟩ := Scanner.scanIdentifier_reads hR.inv
    simp only [e1]
    have hl := lt_of_lt_of_le (l1 hL) hR.left
    split_ifs
    · exact ⟨_, rfl, finish_post hR r1 hl _ _ _ (Lookup_TokOK _)⟩
    · exact ⟨_, rfl, finish_post hR r1 hl _ _ _ (by simp [TokOK, Token.endsStatement])⟩
  rw [if_neg hL]
  by_cases hD : isDecimal s.ch = true ∨ (s.ch = 46 ∧ isDecimal (Int.ofNat s.peek) = true)
  · rw [if_pos hD]
    obtain ⟨tok, lit, s1, e1, r1, l1, ht⟩ := Scanner.scanNumber_reads hR.inv
      (by rcases hD with h | h; exact Or.inl h; exact Or.inr h.1)
    simp only [e1]
    exact ⟨_, rfl, finish_post hR r1 (lt_of_lt_of_le l1 hR.left) _ _ _
      (by rcases ht with h | h <;> rw [h] <;> simp [TokOK, Token.endsStatement])⟩
  rw [if_neg hD]
  by_cases hAt : s.ch = 64
  · rw [if_pos hAt]
    have hne : s.ch ≠ eof := by rw [hAt]; simp [eof]
    have hr := Scanner.next_reads hR.inv
    have hl := Scanner.next_left hR.inv hne
    obtain ⟨lit, s1, e1, r1, _⟩ := Scanner.scanIdentifier_reads hr.inv
    simp only [e1]
    have hl2 : s1.left < s0.left := lt_of_le_of_lt r1.left (lt_of_lt_of_le hl hR.left)
    split_ifs
    · exact ⟨_, rfl, finish_post hR (hr.trans r1) hl2 _ _ _ (Lookup_TokOK _)⟩
    · exact ⟨_, rfl, finish_post hR (hr.trans r1) hl2 _ _ _ (by simp [TokOK, Token.endsStatement])⟩
  rw [if_neg hAt]
  have hr := Scanner.next_reads hR.inv
  by_cases hE : s.ch = -1
  · rw [if_pos hE]
    have hz : s.left = 0 := by simp [Scanner.left, hE, eof]
    have hnz : s.next.left = 0 := by have := hr.left; omega
    have hch : s.next.ch = eof := by
      by_cases hlt : s.rdOffset < s.src.length
      · have := hR.inv.1 hE
        omega
      · exact (Scanner.next_done s hlt).2.2.2.2.2.2.2.1
    split_ifs with hsemi
    · refine ⟨_, rfl, semi_post hR hr (by omega) ?_ _⟩
      rw [← hR.semi, ← hr.semi]
      exact hsemi
    · refine ⟨_, rfl, ?_⟩
      have hA := hR.trans hr
      obtain ⟨hp1, hp2, hp3⟩ := ScanPost.of_reads hR hr
      have hpe : s.file.Pos s.offset = s.next.file.base + s.next.offset := by
        have h1 := hR.inv.eofOff hE
        have h2 := hr.inv.eofOff hch
        rw [hr.src] at h2
        have h3 := hr.base
        unfold File.Pos
        omega
      unfold Scanner.finish
      split_ifs
      · refine ⟨hA.inv.of_eq rfl rfl rfl rfl, hA.src, hA.mode, hA.lib, hA.base, hp1, hp2, hp3,
          fun h => absurd rfl h, fun _ => ?_, fun _ _ => rfl, fun _ e => ?_, fun _ _ => rfl,
          hA.lines, fun e => ?_, fun _ => hpe, fun e => ?_, fun _ e => Token.noConfusion e⟩
        · exact ⟨hch, rfl⟩
        · simp at e
        · simp at e
        · simp at e
      · refine ⟨hA.inv, hA.src, hA.mode, hA.lib, hA.base, hp1, hp2, hp3,
          fun h => absurd rfl h, fun _ => ?_, fun _ _ => ?_, fun _ e => ?_,
          fun _ _ => by simpa using hsemi, hA.lines, fun e => ?_, fun _ => hpe, fun e => ?_,
          fun _ e => Token.noConfusion e⟩
        · refine ⟨hch, ?_⟩
          simpa using hsemi
        · simpa using hsemi
        · simp at e
        · simp at e
        · simp at e
  rw [if_neg hE]
  have hne : s.ch ≠ eof := hE
  have hlA : s.next.left < s0.left := lt_of_lt_of_le (Scanner.next_left hR.inv hne) hR.left
  have hA : s0.Reads s.next := hR.trans hr
  have hN1 : s.next.Reads s.next.next := Scanner.next_reads hr.inv
  have hN2 : s.next.next.Reads s.next.next.next := Scanner.next_reads hN1.inv
  have hslash : s.ch = 47 → ∃ r, (if s.next.ch = 47 ∨ s.next.ch = 42 then
            match if s.next.insertSemi = true then s.next.findLineEnd else some (false, s.next) with
            | none => none
            | some (true, s2) =>
              some
                { pos := s.file.Pos s.offset, tok := Token.SEMICOLON, lit := str "\n",
                  s :=
                    { lib := s2.lib, file := s2.file, src := s2.src, mode := s2.mode, ch := 47,
                      offset := s2.file.Offset (s.file.Pos s.offset),
                      rdOffset := s2.file.Offset (s.file.Pos s.offset) + 1, lineOffset := s2.lineOffset,
                      insertSemi := false, ErrorCount := s2.ErrorCount, errs := s2.errs } }
            | some (false, s2) =>
              match s2.scanComment with
              | none => none
              | some (comment, s3) =>
                if s3.mode &&& ScanComments = 0 then
                  ScanLoop fuel
                    { lib := s3.lib, file := s3.file, src := s3.src, mode := s3.mode, ch := s3.ch,
                      offset := s3.offset, rdOffset := s3.rdOffset, lineOffset := s3.lineOffset,
                      insertSemi := false, ErrorCount := s3.ErrorCount, errs := s3.errs }
                else some (s3.finish (s.file.Pos s.offset) Token.COMMENT comment false)
          else
            some
              ((s.next.switch2 Token.QUO Token.QUO_ASSIGN).2.finish (s.file.Pos s.offset)
                (s.next.switch2 Token.QUO Token.QUO_ASSIGN).1 [] false)) = some r ∧ ScanPost s0 r := by
    intro h47
    have comment : ∀ s2 : Scanner, s.next.Reads s2 → ∃ r,
        (match s2.scanComment with
          | none => none
          | some (comment, s3) =>
            if s3.mode &&& ScanComments = 0 then
              ScanLoop fuel
                { lib := s3.lib, file := s3.file, src := s3.src, mode := s3.mode, ch := s3.ch,
                  offset := s3.offset, rdOffset := s3.rdOffset, lineOffset := s3.lineOffset,
                  insertSemi := false, ErrorCount := s3.ErrorCount, errs := s3.errs }
            else some (s3.finish (s.file.Pos s.offset) Token.COMMENT comment false)) = some r
          ∧ ScanPost s0 r := by
      intro s2 r2
      obtain ⟨lit, s3, e3, r3⟩ := Scanner.scanComment_reads r2.inv
      simp only [e3]
      have hA3 : s0.Reads s3 := (hA.trans r2).trans r3
      have hl3 : s3.left < s0.left := lt_of_le_of_lt (le_trans r3.left r2.left) hlA
      split_ifs
      · obtain ⟨r, er, pr⟩ := ih { s3 with insertSemi := false }
          (hA3.inv.of_eq rfl rfl rfl rfl) (by show s3.left < fuel; omega)
        have herrs : ∃ l, r.s.errs = s0.errs ++ l ∧ ∀ e ∈ l, lexMsg e.Msg := by
          obtain ⟨l1, e1, m1⟩ := hA3.errs
          obtain ⟨l2, e2, m2⟩ := pr.errs
          refine ⟨l1 ++ l2, ?_, ?_⟩
          · rw [e2]
            show s3.errs ++ l2 = _
            rw [e1, List.append_assoc]
          · intro e he
            rcases List.mem_append.mp he with h | h
            · exact m1 e h
            · exact m2 e h
        have hlo : s0.file.base + s0.offset ≤ r.pos := by
          have h1 : s3.file.base + s3.offset ≤ r.pos := pr.posLo
          have := hA3.off
          have := hA3.base
          omega
        refine ⟨r, er, pr.inv, pr.src.trans hA3.src, pr.mode.trans hA3.mode,
          pr.lib.trans hA3.lib, pr.base.trans hA3.base, herrs, hlo, pr.posHi, fun h => ?_,
          pr.atEnd,
          fun hm => pr.flag (by show s3.mode &&& dontInsertSemis = 0; rw [hA3.mode]; exact hm),
          fun _ => pr.nosemi rfl,
          fun hk _ => pr.keep
            (by show s3.mode &&& dontInsertSemis ≠ 0; rw [hA3.mode]; exact hk) rfl,
          hA3.lines.extend hA3.off pr.lines, pr.synth, pr.eofPos, pr.adv,
          fun hm e hb => absurd (pr.illegal
            (by show s3.mode &&& dontInsertSemis = 0; rw [hA3.mode]; exact hm) e hb)
            Bool.false_ne_true⟩
        have h1 := pr.dec h
        have h2 : ({ s3 with insertSemi := false } : Scanner).measure = 2 * s3.left := by
          simp [Scanner.measure, Scanner.left]
        have h3 : 2 * s0.left ≤ s0.measure := by simp [Scanner.measure]
        omega
      · refine ⟨_, rfl, finish_adv hR ((hr.trans r2).trans r3) hl3 _ _ _ (by simp)
          (by simp) (by simp [Token.endsStatement]) (fun _ => ?_)
          (fun e => Token.noConfusion e)⟩
        have h1 : s.rdOffset = s.offset + 1 := hR.inv.ascii (by rw [h47]; decide)
        have h2 : s.offset < s.next.offset := by
          by_cases hlt : s.rdOffset < s.src.length
          · rw [(Scanner.next_more s hlt).2.2.2.2.2.1]
            omega
          · rw [(Scanner.next_done s hlt).2.2.2.2.2.1]
            exact hR.inv.chLt hne
        exact lt_of_lt_of_le h2 (r2.trans r3).off
    by_cases hc : s.next.ch = 47 ∨ s.next.ch = 42
    · rw [if_pos hc]
      by_cases hsemi : s.next.insertSemi = true
      · rw [if_pos hsemi]
        obtain ⟨b, s2, e2, r2⟩ := Scanner.findLineEnd_reads hr.inv hc
        rw [e2]
        cases b
        · exact comment s2 r2
        · refine ⟨_, rfl, ?_⟩
          have hb : s2.file.Offset (s.file.Pos s.offset) = s.offset := by
            simp [File.Offset, File.Pos, r2.base, hr.base]
          have hrd : s.rdOffset = s.offset + 1 := hR.inv.2 (by rw [h47]; decide)
          have hA2 := hA.trans r2
          have hsemi0 : s0.insertSemi = true := by
            rw [← hR.semi, ← hr.semi]
            exact hsemi
          have hsrc2 : s2.src = s.src := r2.src.trans hr.src
          have hbase2 : s2.file.base = s.file.base := r2.base.trans hr.base
          refine ⟨⟨?_, ?_, ?_, ?_, ?_, ?_, ?_⟩, hA2.src, hA2.mode, hA2.lib, hA2.base, hA2.errs,
            (ScanPost.of_reads hR hr).2.1, ?_, fun _ => ?_, fun e => ?_,
            fun _ _ => rfl, fun e => ?_, fun _ _ => rfl, hA2.lines, fun _ _ => rfl,
            fun e => by simp at e, fun e => by simp at e, fun _ e => Token.noConfusion e⟩
          · intro e
            simp [eof] at e
          · intro _
            rfl
          · show (-1 : Int) ≤ 47
            omega
          · show s2.file.Offset (s.file.Pos s.offset) ≤ s2.file.Offset (s.file.Pos s.offset) + 1
            omega
          · show s2.file.Offset (s.file.Pos s.offset) ≤ s2.src.length
            rw [hb, hsrc2]
            exact hR.inv.offLen
          · intro e
            simp [eof] at e
          · intro _
            show s2.file.Offset (s.file.Pos s.offset) < s2.src.length
            rw [hb, hsrc2]
            exact hR.inv.chLt hne
          · show s.file.Pos s.offset ≤ s2.file.base + s2.file.Offset (s.file.Pos s.offset)
            rw [hb, hbase2]
            exact le_refl _
          · have hsl : s.left = s.src.length - (s.offset + 1) + 1 := by
              simp [Scanner.left, hne, hrd]
            have hle := hR.left
            have hsrc : s2.src = s.src := r2.src.trans hr.src
            simp only [Scanner.measure, Scanner.left, hb, hsemi0, if_true, hsrc,
              show ((47 : Int) = eof) = False by simp [eof], if_false, Bool.false_eq_true]
            simp only [Scanner.left] at hle hsl
            omega
          · simp at e
          · rw [hsemi0] at e
            simp at e
      · rw [if_neg hsemi]
        exact comment s.next (Scanner.Reads.refl hr.inv)
    · rw [if_neg hc]
      exact ⟨_, rfl, finish_post hR (hr.trans (Scanner.switch2_reads hA.inv _ _))
        (lt_of_le_of_lt (Scanner.switch2_reads hA.inv _ _).left hlA) _ _ _
        (Scanner.switch2_cases (fun t => TokOK [] false t) _ _ _
          (by simp [TokOK, Token.endsStatement]) (by simp [TokOK, Token.endsStatement]))⟩
  by_cases h10 : s.ch = 10
  · rw [if_pos h10]
    have hflag : s0.insertSemi = true := by
      rw [← hR.semi]
      by_contra hf
      exact hws (Or.inr (Or.inr (Or.inl ⟨h10, by simpa using hf⟩)))
    exact ⟨_, rfl, semi_post hR hr (le_of_lt hlA) hflag _⟩
  rw [if_neg h10]
  by_cases h34 : s.ch = 34
  · rw [if_pos h34]
    obtain ⟨lit, s2, e2, r2⟩ := Scanner.scanString_reads hr.inv
    simp only [e2]
    exact ⟨_, rfl, finish_post hR (hr.trans r2) (lt_of_le_of_lt r2.left hlA) _ _ _
      (by simp [TokOK, Token.endsStatement])⟩
  rw [if_neg h34]
  by_cases h39 : s.ch = 39
  · rw [if_pos h39]
    obtain ⟨lit, s2, e2, r2⟩ := Scanner.scanRune_reads hr.inv
    simp only [e2]
    exact ⟨_, rfl, finish_post hR (hr.trans r2) (lt_of_le_of_lt r2.left hlA) _ _ _
      (by simp [TokOK, Token.endsStatement])⟩
  rw [if_neg h39]
  by_cases h96 : s.ch = 96
  · rw [if_pos h96]
    obtain ⟨lit, s2, e2, r2⟩ := Scanner.scanRawString_reads hr.inv
    simp only [e2]
    exact ⟨_, rfl, finish_post hR (hr.trans r2) (lt_of_le_of_lt r2.left hlA) _ _ _
      (by simp [TokOK, Token.endsStatement])⟩
  rw [if_neg h96]
  by_cases h58 : s.ch = 58
  · rw [if_pos h58]
    exact ⟨_, rfl, finish_post hR (hr.trans (Scanner.switch2_reads hA.inv _ _)) (lt_of_le_of_lt (Scanner.switch2_reads hA.inv _ _).left hlA) _ _ _ (Scanner.switch2_cases (fun t => TokOK [] false t) _ _ _ (by simp [TokOK, Token.endsStatement]) (by simp [TokOK, Token.endsStatement]))⟩
  rw [if_neg h58]
  by_cases h46 : s.ch = 46
  · rw [if_pos h46]
    split_ifs
    · exact ⟨_, rfl, finish_post hR ((hr.trans hN1).trans hN2) (lt_of_le_of_lt (le_trans hN2.left hN1.left) hlA) _ _ _ (by simp [TokOK, Token.endsStatement])⟩
    · exact ⟨_, rfl, finish_post hR hr (hlA) _ _ _ (by simp [TokOK, Token.endsStatement])⟩
  rw [if_neg h46]
  by_cases h44 : s.ch = 44
  · rw [if_pos h44]
    exact ⟨_, rfl, finish_post hR hr (hlA) _ _ _ (by simp [TokOK, Token.endsStatement])⟩
  rw [if_neg h44]
  by_cases h59 : s.ch = 59
  · rw [if_pos h59]
    exact ⟨_, rfl, finish_post hR hr (hlA) _ _ _
      ⟨by decide, fun _ => by decide, fun _ => by decide, by decide, by decide⟩⟩
  rw [if_neg h59]
  by_cases h40 : s.ch = 40
  · rw [if_pos h40]
    exact ⟨_, rfl, finish_post hR hr (hlA) _ _ _ (by simp [TokOK, Token.endsStatement])⟩
  rw [if_neg h40]
  by_cases h41 : s.ch = 41
  · rw [if_pos h41]
    exact ⟨_, rfl, finish_post hR hr (hlA) _ _ _ (by simp [TokOK, Token.endsStatement])⟩
  rw [if_neg h41]
  by_cases h91 : s.ch = 91
  · rw [if_pos h91]
    exact ⟨_, rfl, finish_post hR hr (hlA) _ _ _ (by simp [TokOK, Token.endsStatement])⟩
  rw [if_neg h91]
  by_cases h93 : s.ch = 93
  · rw [if_pos h93]
    exact ⟨_, rfl, finish_post hR hr (hlA) _ _ _ (by simp [TokOK, Token.endsStatement])⟩
  rw [if_neg h93]
  by_cases h123 : s.ch = 123
  · rw [if_pos h123]
    exact ⟨_, rfl, finish_post hR hr (hlA) _ _ _ (by simp [TokOK, Token.endsStatement])⟩
  rw [if_neg h123]
  by_cases h125 : s.ch = 125
  · rw [if_pos h125]
    exact ⟨_, rfl, finish_post hR hr (hlA) _ _ _ (by simp [TokOK, Token.endsStatement])⟩
  rw [if_neg h125]
  by_cases h43 : s.ch = 43
  · rw [if_pos h43]
    exact ⟨_, rfl, finish_post hR (hr.trans (Scanner.switch3_reads hA.inv _ _ _ _)) (lt_of_le_of_lt (Scanner.switch3_reads hA.inv _ _ _ _).left hlA) _ _ _ (Scanner.switch3_cases (fun t => TokOK [] (decide (t = Token.INC)) t) _ _ _ _ _ (by simp [TokOK, Token.endsStatement]) (by simp [TokOK, Token.endsStatement]) (by simp [TokOK, Token.endsStatement]))⟩
  rw [if_neg h43]
  by_cases h45 : s.ch = 45
  · rw [if_pos h45]
    exact ⟨_, rfl, finish_post hR (hr.trans (Scanner.switch3_reads hA.inv _ _ _ _)) (lt_of_le_of_lt (Scanner.switch3_reads hA.inv _ _ _ _).left hlA) _ _ _ (Scanner.switch3_cases (fun t => TokOK [] (decide (t = Token.DEC)) t) _ _ _ _ _ (by simp [TokOK, Token.endsStatement]) (by simp [TokOK, Token.endsStatement]) (by simp [TokOK, Token.endsStatement]))⟩
  rw [if_neg h45]
  by_cases h42 : s.ch = 42
  · rw [if_pos h42]
    exact ⟨_, rfl, finish_post hR (hr.trans (Scanner.switch2_reads hA.inv _ _)) (lt_of_le_of_lt (Scanner.switch2_reads hA.inv _ _).left hlA) _ _ _ (Scanner.switch2_cases (fun t => TokOK [] false t) _ _ _ (by simp [TokOK, Token.endsStatement]) (by simp [TokOK, Token.endsStatement]))⟩
  rw [if_neg h42]
  by_cases h47 : s.ch = 47
  · rw [if_pos h47]
    exact hslash h47
  rw [if_neg h47]
  by_cases h37 : s.ch = 37
  · rw [if_pos h37]
    exact ⟨_, rfl, finish_post hR (hr.trans (Scanner.switch2_reads hA.inv _ _)) (lt_of_le_of_lt (Scanner.switch2_reads hA.inv _ _).left hlA) _ _ _ (Scanner.switch2_cases (fun t => TokOK [] false t) _ _ _ (by simp [TokOK, Token.endsStatement]) (by simp [TokOK, Token.endsStatement]))⟩
  rw [if_neg h37]
  by_cases h94 : s.ch = 94
  · rw [if_pos h94]
    exact ⟨_, rfl, finish_post hR (hr.trans (Scanner.switch2_reads hA.inv _ _)) (lt_of_le_of_lt (Scanner.switch2_reads hA.inv _ _).left hlA) _ _ _ (Scanner.switch2_cases (fun t => TokOK [] false t) _ _ _ (by simp [TokOK, Token.endsStatement]) (by simp [TokOK, Token.endsStatement]))⟩
  rw [if_neg h94]
  by_cases h60 : s.ch = 60
  · rw [if_pos h60]
    split_ifs
    · exact ⟨_, rfl, finish_post hR (hr.trans hN1) (lt_of_le_of_lt hN1.left hlA) _ _ _ (by simp [TokOK, Token.endsStatement])⟩
    · exact ⟨_, rfl, finish_post hR (hr.trans (Scanner.switch4_reads hA.inv _ _ _ _ _)) (lt_of_le_of_lt (Scanner.switch4_reads hA.inv _ _ _ _ _).left hlA) _ _ _ (Scanner.switch4_cases (fun t => TokOK [] false t) _ _ _ _ _ _ (by simp [TokOK, Token.endsStatement]) (by simp [TokOK, Token.endsStatement]) (by simp [TokOK, Token.endsStatement]) (by simp [TokOK, Token.endsStatement]))⟩
  rw [if_neg h60]
  by_cases h62 : s.ch = 62
  · rw [if_pos h62]
    exact ⟨_, rfl, finish_post hR (hr.trans (Scanner.switch4_reads hA.inv _ _ _ _ _)) (lt_of_le_of_lt (Scanner.switch4_reads hA.inv _ _ _ _ _).left hlA) _ _ _ (Scanner.switch4_cases (fun t => TokOK [] false t) _ _ _ _ _ _ (by simp [TokOK, Token.endsStatement]) (by simp [TokOK, Token.endsStatement]) (by simp [TokOK, Token.endsStatement]) (by simp [TokOK, Token.endsStatement]))⟩
  rw [if_neg h62]
  by_cases h61 : s.ch = 61
  · rw [if_pos h61]
    exact ⟨_, rfl, finish_post hR (hr.trans (Scanner.switch2_reads hA.inv _ _)) (lt_of_le_of_lt (Scanner.switch2_reads hA.inv _ _).left hlA) _ _ _ (Scanner.switch2_cases (fun t => TokOK [] false t) _ _ _ (by simp [TokOK, Token.endsStatement]) (by simp [TokOK, Token.endsStatement]))⟩
  rw [if_neg h61]
  by_cases h33 : s.ch = 33
  · rw [if_pos h33]
    exact ⟨_, rfl, finish_post hR (hr.trans (Scanner.switch2_reads hA.inv _ _)) (lt_of_le_of_lt (Scanner.switch2_reads hA.inv _ _).left hlA) _ _ _ (Scanner.switch2_cases (fun t => TokOK [] false t) _ _ _ (by simp [TokOK, Token.endsStatement]) (by simp [TokOK, Token.endsStatement]))⟩
  rw [if_neg h33]
  by_cases h38 : s.ch = 38
  · rw [if_pos h38]
    split_ifs
    · exact ⟨_, rfl, finish_post hR ((hr.trans hN1).trans (Scanner.switch2_reads hN1.inv _ _)) (lt_of_le_of_lt (le_trans (Scanner.switch2_reads hN1.inv _ _).left hN1.left) hlA) _ _ _ (Scanner.switch2_cases (fun t => TokOK [] false t) _ _ _ (by simp [TokOK, Token.endsStatement]) (by simp [TokOK, Token.endsStatement]))⟩
    · exact ⟨_, rfl, finish_post hR (hr.trans (Scanner.switch3_reads hA.inv _ _ _ _)) (lt_of_le_of_lt (Scanner.switch3_reads hA.inv _ _ _ _).left hlA) _ _ _ (Scanner.switch3_cases (fun t => TokOK [] false t) _ _ _ _ _ (by simp [TokOK, Token.endsStatement]) (by simp [TokOK, Token.endsStatement]) (by simp [TokOK, Token.endsStatement]))⟩
  rw [if_neg h38]
  by_cases h124 : s.ch = 124
  · rw [if_pos h124]
    exact ⟨_, rfl, finish_post hR (hr.trans (Scanner.switch3_reads hA.inv _ _ _ _)) (lt_of_le_of_lt (Scanner.switch3_reads hA.inv _ _ _ _).left hlA) _ _ _ (Scanner.switch3_cases (fun t => TokOK [] false t) _ _ _ _ _ (by simp [TokOK, Token.endsStatement]) (by simp [TokOK, Token.endsStatement]) (by simp [TokOK, Token.endsStatement]))⟩
  rw [if_neg h124]
  by_cases h126 : s.ch = 126
  · rw [if_pos h126]
    exact ⟨_, rfl, finish_post hR hr (hlA) _ _ _ (by simp [TokOK, Token.endsStatement])⟩
  rw [if_neg h126]
  split_ifs
  · exact ⟨_, rfl, finish_adv hR (hr.trans (Scanner.error_reads hA.inv _ _ (lexMsg_illegal _))) hlA
      _ _ _ (by simp) (by simp) (fun h => absurd rfl h) (fun e => Token.noConfusion e)
      (fun _ => (hR.trans (hr.trans (Scanner.error_reads hA.inv _ _ (lexMsg_illegal _)))).semi)⟩
  · exact ⟨_, rfl, finish_adv hR hr hlA _ _ _ (by simp) (by simp) (fun h => absurd rfl h)
      (fun e => Token.noConfusion e) (fun _ => hA.semi)⟩

theorem Scanner.Scan_post {s : Scanner} (hs : s.Inv) :
    ∃ r, s.Scan = some r ∧ ScanPost s r :=
  ScanLoop_post s.fuel s hs s.left_lt_fuel

/-! ### Automatic semicolon insertion -/

theorem restOfLineLoop_mono : ∀ (n : Nat) (s : Scanner) (b : Bool),
    restOfLineLoop n s = some b → restOfLineLoop (n + 1) s = some b := by
  intro n
  induction n with
  | zero => intro s b h; simp [restOfLineLoop] at h
  | succ n ih =>
    intro s b h
    unfold restOfLineLoop at h ⊢
    split_ifs at h ⊢ with h1 h2 h3 h4
    · exact ih _ _ h
    · exact h
    · exact h
    · cases hc : commentBreaksLine s.fuel s.next.next with
      | none => rw [hc] at h; simp at h
      | some p =>
        obtain ⟨bb, s1⟩ := p
        rw [hc] at h
        cases bb
        · exact ih _ _ h
        · exact h
    · exact h

theorem restOfLineLoop_mono_le (n m : Nat) (s : Scanner) (b : Bool) (hnm : n ≤ m)
    (h : restOfLineLoop n s = some b) : restOfLineLoop m s = some b := by
  induction hnm with
  | refl => exact h
  | step _ ih => exact restOfLineLoop_mono _ _ _ ih

theorem commentBreaksLine_body : ∀ (n : Nat) (t : Scanner) (b : Bool) (t1 : Scanner),
    t.Inv → commentBreaksLine n t = some (b, t1) → ∀ m, t.left < m →
    (b = false → findLineEndBody m t = some (false, t1)) ∧
    (b = true → ∃ t2, findLineEndBody m t = some (true, t2) ∨
      (findLineEndBody m t = some (false, t2) ∧ t2.ch < 0 ∧ t.Reads t2)) := by
  intro n
  induction n with
  | zero => intro t b t1 _ h; simp [commentBreaksLine] at h
  | succ n ih =>
    intro t b t1 ht h m hm
    obtain ⟨m, rfl⟩ : ∃ k, m = k + 1 := ⟨m - 1, by omega⟩
    unfold commentBreaksLine at h
    unfold findLineEndBody
    simp only
    by_cases h1 : t.ch < 0
    · rw [if_pos (Or.inl h1)] at h
      rw [if_neg (by omega : ¬ 0 ≤ t.ch)]
      simp only [Option.some.injEq, Prod.mk.injEq] at h
      obtain ⟨rfl, rfl⟩ := h
      exact ⟨fun e => by simp at e, fun _ => ⟨t, Or.inr ⟨rfl, h1, Scanner.Reads.refl ht⟩⟩⟩
    · rw [if_pos (by omega : 0 ≤ t.ch)]
      by_cases h2 : t.ch = 10
      · rw [if_pos (Or.inr h2)] at h
        rw [if_pos h2]
        simp only [Option.some.injEq, Prod.mk.injEq] at h
        obtain ⟨rfl, rfl⟩ := h
        exact ⟨fun e => by simp at e, fun _ => ⟨t, Or.inl rfl⟩⟩
      · rw [if_neg (by rintro (h | h); exact h1 h; exact h2 h), ] at h
        rw [if_neg h2]
        by_cases h3 : t.ch = 42 ∧ t.next.ch = 47
        · rw [if_pos h3] at h
          rw [if_pos h3]
          simp only [Option.some.injEq, Prod.mk.injEq] at h
          obtain ⟨rfl, rfl⟩ := h
          exact ⟨fun _ => rfl, fun e => by simp at e⟩
        · rw [if_neg h3] at h
          rw [if_neg h3]
          have hne : t.ch ≠ eof := by
            intro e
            rw [e] at h1
            simp [eof] at h1
          have hr := Scanner.next_reads ht
          have hl := Scanner.next_left ht hne
          obtain ⟨i1, i2⟩ := ih t.next b t1 hr.inv h m (by omega)
          refine ⟨i1, fun e => ?_⟩
          obtain ⟨t2, h2⟩ := i2 e
          refine ⟨t2, ?_⟩
          rcases h2 with h2 | ⟨h2, h3, h4⟩
          · exact Or.inl h2
          · exact Or.inr ⟨h2, h3, hr.trans h4⟩

theorem skipWhitespace_restOfLine : ∀ (m : Nat) (s : Scanner) (n : Nat) (b : Bool),
    s.Inv → s.insertSemi = true → restOfLineLoop n s = some b → s.left < m →
    ∃ s1, skipWhitespaceLoop m s = some s1 ∧ restOfLineLoop n s1 = some b ∧ s.Reads s1 ∧
      ¬ (s1.ch = 32 ∨ s1.ch = 9 ∨ s1.ch = 13) := by
  intro m
  induction m with
  | zero => intro s n b _ _ _ h; omega
  | succ m ih =>
    intro s n b hs hf h hm
    unfold skipWhitespaceLoop
    by_cases hc : s.ch = 32 ∨ s.ch = 9 ∨ s.ch = 13
    · have hc2 : s.ch = 32 ∨ s.ch = 9 ∨ (s.ch = 10 ∧ s.insertSemi = false) ∨ s.ch = 13 := by
        rcases hc with h | h | h
        · exact Or.inl h
        · exact Or.inr (Or.inl h)
        · exact Or.inr (Or.inr (Or.inr h))
      rw [if_pos hc2]
      have hne : s.ch ≠ eof := by
        intro e
        rw [e] at hc
        simp [eof] at hc
      have hr := Scanner.next_reads hs
      have hl := Scanner.next_left hs hne
      obtain ⟨n, rfl⟩ : ∃ k, n = k + 1 := by
        cases n with
        | zero => simp [restOfLineLoop] at h
        | succ k => exact ⟨k, rfl⟩
      unfold restOfLineLoop at h
      rw [if_pos hc] at h
      obtain ⟨s1, e1, r1, rr, c1⟩ := ih s.next n b hr.inv (by rw [hr.semi]; exact hf) h
        (by omega)
      exact ⟨s1, e1, restOfLineLoop_mono _ _ _ r1, hr.trans rr, c1⟩
    · have hc2 : ¬ (s.ch = 32 ∨ s.ch = 9 ∨ (s.ch = 10 ∧ s.insertSemi = false) ∨ s.ch = 13) := by
        rintro (h | h | h | h)
        · exact hc (Or.inl h)
        · exact hc (Or.inr (Or.inl h))
        · rw [hf] at h
          simp at h
        · exact hc (Or.inr (Or.inr h))
      rw [if_neg hc2]
      exact ⟨s, rfl, h, Scanner.Reads.refl hs, hc⟩

theorem skipWhitespaceLoop_stay (m : Nat) (s : Scanner)
    (h : ¬ (s.ch = 32 ∨ s.ch = 9 ∨ (s.ch = 10 ∧ s.insertSemi = false) ∨ s.ch = 13)) :
    skipWhitespaceLoop (m + 1) s = some s := by
  unfold skipWhitespaceLoop
  rw [if_neg h]

theorem findLineEndLoop_lineEnds : ∀ (n : Nat) (t : Scanner) (b : Bool),
    t.Inv → t.insertSemi = true → t.ch = 47 → restOfLineLoop n t = some b →
    ∀ m, t.next.left < m → ∃ t1, findLineEndLoop m t.next = some (b, t1) := by
  intro n
  induction n with
  | zero => intro t b _ _ _ h; simp [restOfLineLoop] at h
  | succ n ih =>
    intro t b ht hf h47 h m hm
    obtain ⟨m, rfl⟩ : ∃ k, m = k + 1 := ⟨m - 1, by omega⟩
    have hne : t.ch ≠ eof := by rw [h47]; simp [eof]
    have hr := Scanner.next_reads ht
    unfold restOfLineLoop at h
    rw [if_neg (by rw [h47]; decide), if_neg (by rw [h47]; decide)] at h
    unfold findLineEndLoop
    by_cases h1 : t.next.ch = 47
    · rw [if_pos ⟨h47, h1⟩] at h
      rw [if_pos (Or.inl h1), if_pos h1]
      simp only [Option.some.injEq] at h
      subst h
      exact ⟨_, rfl⟩
    · rw [if_neg (fun e => h1 e.2)] at h
      by_cases h2 : t.next.ch = 42
      · rw [if_pos ⟨h47, h2⟩] at h
        rw [if_pos (Or.inr h2), if_neg h1]
        have hne2 : t.next.ch ≠ eof := by rw [h2]; simp [eof]
        have hr2 := Scanner.next_reads hr.inv
        have hl2 := Scanner.next_left hr.inv hne2
        cases hc : commentBreaksLine t.fuel t.next.next with
        | none => rw [hc] at h; simp at h
        | some p =>
          obtain ⟨bb, t1⟩ := p
          rw [hc] at h
          obtain ⟨k1, k2⟩ := commentBreaksLine_body _ _ _ _ hr2.inv hc t.next.fuel
            (by have := t.next.left_lt_fuel; omega)
          cases bb
          · simp only at h
            rw [k1 rfl]
            simp only
            obtain ⟨bx, tx, rb1, rb2⟩ := findLineEndBody_reads t.next.fuel t.next.next hr2.inv
              (by have := t.next.left_lt_fuel; omega)
            rw [k1 rfl] at rb1
            simp only [Option.some.injEq, Prod.mk.injEq] at rb1
            obtain ⟨_, rfl⟩ := rb1
            have hf1 : t1.insertSemi = true := by
              rw [rb2.semi, hr2.semi, hr.semi]
              exact hf
            obtain ⟨s1, e1, q1, rr1, c1⟩ := skipWhitespace_restOfLine t1.fuel t1 n b rb2.inv hf1 h
              t1.left_lt_fuel
            have e1' : t1.skipWhitespace = some s1 := e1
            rw [e1']
            simp only
            obtain ⟨n, rfl⟩ : ∃ k, n = k + 1 := by
              cases n with
              | zero => simp [restOfLineLoop] at q1
              | succ k => exact ⟨k, rfl⟩
            have q2 := q1
            unfold restOfLineLoop at q1
            rw [if_neg c1] at q1
            by_cases h3 : s1.ch < 0 ∨ s1.ch = 10
            · rw [if_pos h3] at q1
              rw [if_pos h3]
              simp only [Option.some.injEq] at q1
              subst q1
              exact ⟨_, rfl⟩
            · rw [if_neg h3] at q1
              rw [if_neg h3]
              by_cases h4 : s1.ch = 47
              · rw [if_neg (by simpa using h4)]
                have hf2 : s1.insertSemi = true := by rw [rr1.semi]; exact hf1
                have hne3 : s1.ch ≠ eof := by rw [h4]; simp [eof]
                have hl3 := Scanner.next_left rr1.inv hne3
                have := rr1.left
                have := rb2.left
                exact ih s1 b rr1.inv hf2 h4 (restOfLineLoop_mono_le _ _ _ _ (by omega) q2) m
                  (by omega)
              · rw [if_neg (fun e => h4 e.1), if_neg (fun e => h4 e.1)] at q1
                rw [if_pos h4]
                simp only [Option.some.injEq] at q1
                subst q1
                exact ⟨_, rfl⟩
          · simp only [Option.some.injEq] at h
            subst h
            obtain ⟨t2, k3⟩ := k2 rfl
            rcases k3 with k3 | ⟨k3, k4, k5⟩
            · rw [k3]
              exact ⟨_, rfl⟩
            · rw [k3]
              simp only
              have : t2.skipWhitespace = some t2 := by
                unfold Scanner.skipWhitespace Scanner.fuel
                exact skipWhitespaceLoop_stay _ _ (by omega)
              rw [this]
              simp only
              rw [if_pos (Or.inl k4)]
              exact ⟨_, rfl⟩
      · rw [if_neg (fun e => h2 e.2)] at h
        rw [if_neg (by rintro (e | e); exact h1 e; exact h2 e)]
        simp only [Option.some.injEq] at h
        subst h
        exact ⟨_, rfl⟩


theorem ScanLoop_lineEnds (fuel : Nat) (s0 s : Scanner) (_ : s0.Inv)
    (e : s0.skipWhitespace = some s) (hR : s0.Reads s) (hf : s0.insertSemi = true)
    (n : Nat) (hn : restOfLineLoop n s = some true)
    (hb : ¬ (s.ch = 32 ∨ s.ch = 9 ∨ s.ch = 13)) :
    ∃ r, ScanLoop (fuel + 1) s0 = some r ∧ r.tok = .SEMICOLON ∧ r.lit = str "\n" := by
  have hfs : s.insertSemi = true := by rw [hR.semi]; exact hf
  have hr := Scanner.next_reads hR.inv
  have hfn : s.next.insertSemi = true := by rw [hr.semi]; exact hfs
  obtain ⟨n, rfl⟩ : ∃ k, n = k + 1 := by
    cases n with
    | zero => simp [restOfLineLoop] at hn
    | succ k => exact ⟨k, rfl⟩
  have hn2 := hn
  unfold restOfLineLoop at hn
  rw [if_neg hb] at hn
  unfold ScanLoop
  simp only [e]
  by_cases h1 : s.ch < 0 ∨ s.ch = 10
  · rcases h1 with h1 | h1
    · have hE : s.ch = -1 := by have := hR.inv.chGe; omega
      simp [hE, isLetter, isDecimal, hfn]
    · simp [h1, isLetter, isDecimal]
  · rw [if_neg h1] at hn
    have h47 : s.ch = 47 := by
      by_contra h47
      rw [if_neg (fun e => h47 e.1), if_neg (fun e => h47 e.1)] at hn
      simp at hn
    have hc : s.next.ch = 47 ∨ s.next.ch = 42 := by
      by_contra hc
      rw [if_neg (fun e => hc (Or.inl e.2)), if_neg (fun e => hc (Or.inr e.2))] at hn
      simp at hn
    obtain ⟨t1, ht1⟩ := findLineEndLoop_lineEnds _ s true hR.inv hfs h47 hn2 s.next.fuel
      s.next.left_lt_fuel
    have hfl : ∃ t2, s.next.findLineEnd = some (true, t2) := by
      unfold Scanner.findLineEnd
      simp only [ht1]
      exact ⟨_, rfl⟩
    obtain ⟨t2, ht2⟩ := hfl
    simp [h47, isLetter, isDecimal, hc, hfn, ht2]

theorem Scanner.lineEnds_semicolon (s : Scanner) (hs : s.Inv) (hf : s.insertSemi = true)
    (h : s.lineEnds = some true) :
    ∃ r, s.Scan = some r ∧ r.tok = .SEMICOLON ∧ r.lit = str "\n" := by
  obtain ⟨s1, e1, q1, r1, c1⟩ := skipWhitespace_restOfLine s.fuel s s.fuel true hs hf h
    s.left_lt_fuel
  exact ScanLoop_lineEnds (s.src.length + 1) s s1 hs e1 r1 hf _ q1 c1


theorem Scanner.Init_inv (lib : Lib) (file : File) (src : GoString) (mode : Nat) :
    (Scanner.Init lib file src mode).Inv ∧ (Scanner.Init lib file src mode).mode = mode := by
  have key : ∀ s : Scanner, s.ch ≠ eof → s.next.Inv ∧ s.next.mode = s.mode := by
    intro s hne
    by_cases hlt : s.rdOffset < s.src.length
    · obtain ⟨e1, e2, e3, e4, e5, e6, e7, e8, e9⟩ := Scanner.next_more s hlt
      refine ⟨⟨?_, ?_, ?_, ?_, ?_, ?_, ?_⟩, e2⟩
      · intro hc
        rw [hc] at e8
        simp [eof] at e8
      · intro hc
        rw [(e9 hc.2).1, e6]
      · omega
      · omega
      · rw [e1]
        omega
      · intro hc
        rw [hc] at e8
        simp [eof] at e8
      · intro _
        rw [e1]
        omega
    · obtain ⟨e1, e2, e3, e4, e5, e6, e7, e8, e9⟩ := Scanner.next_done s hlt
      refine ⟨⟨?_, ?_, ?_, ?_, ?_, ?_, ?_⟩, e2⟩
      · intro _
        rw [e7, e1]
        omega
      · intro hc
        rw [e8] at hc
        simp [eof] at hc
      · rw [e8]
        simp [eof]
      · omega
      · rw [e1, e6]
      · intro _
        rw [e1, e6]
      · intro hc
        exact absurd e8 hc
  unfold Scanner.Init
  simp only
  obtain ⟨k1, k2⟩ := key
    { lib := lib, file := file, src := src, mode := mode, ch := 32, offset := 0,
      rdOffset := 0, lineOffset := 0, insertSemi := false, ErrorCount := 0, errs := [] }
    (by simp [eof])
  split_ifs
  · exact ⟨(Scanner.next_reads k1).inv, (Scanner.next_reads k1).mode.trans k2⟩
  · exact ⟨k1, k2⟩

theorem nthScan_state : ∀ (n : Nat) (s : Scanner) (r : ScanResult), s.Inv →
    nthScan n s = some r → ∃ s1 : Scanner, s1.Inv ∧ s1.mode = s.mode ∧ s1.Scan = some r := by
  intro n
  induction n with
  | zero =>
    intro s r hs h
    exact ⟨s, hs, rfl, h⟩
  | succ n ih =>
    intro s r hs h
    unfold nthScan at h
    obtain ⟨r1, e1, p1⟩ := Scanner.Scan_post hs
    rw [e1] at h
    obtain ⟨s1, i1, m1, q1⟩ := ih r1.s r p1.inv h
    exact ⟨s1, i1, m1.trans p1.mode, q1⟩

theorem nthScan_succ : ∀ (n : Nat) (s : Scanner),
    nthScan (n + 1) s = (nthScan n s).bind (fun r => r.s.Scan) := by
  intro n
  induction n with
  | zero =>
    intro s
    unfold nthScan
    cases s.Scan <;> rfl
  | succ n ih =>
    intro s
    rw [nthScan]
    cases h : s.Scan with
    | none => simp [nthScan, h]
    | some r =>
      simp only
      rw [ih r.s]
      conv_rhs => rw [nthScan]
      simp [h]

/-- C1: automatic semicolon insertion, positive half. For every source and
every token that `Scan` returns, when the mode lets semicolons be inserted,
the kind of the token is an identifier, a literal, `)`, `]`, `\x7d`, `++` or
`--` and the token is the last non-comment token on its line or in the input,
the next call of `Scan` returns the synthetic token (`SEMICOLON`, "\n"). -/
theorem Scan_inserts_semicolon (lib : Lib) (file : File) (src : GoString) (mode n : Nat)
    (hm : mode &&& dontInsertSemis = 0)
    (hk : (tokenAt n (Scanner.Init lib file src mode)).map (fun t => t.1.endsStatement)
      = some true)
    (he : lineEndsAfter n (Scanner.Init lib file src mode) = some true) :
    tokenAt (n + 1) (Scanner.Init lib file src mode) = some (.SEMICOLON, str "\n") := by
  obtain ⟨hi, hmode⟩ := Scanner.Init_inv lib file src mode
  unfold tokenAt lineEndsAfter at *
  cases hr : nthScan n (Scanner.Init lib file src mode) with
  | none => rw [hr] at hk; simp at hk
  | some r =>
    rw [hr] at hk he
    simp only [Option.map_some', Option.some.injEq, Option.some_bind] at hk he
    obtain ⟨s1, i1, m1, q1⟩ := nthScan_state n _ r hi hr
    obtain ⟨r1, e1, p1⟩ := Scanner.Scan_post i1
    rw [q1] at e1
    simp only [Option.some.injEq] at e1
    subst e1
    have hflag : r.s.insertSemi = true := by
      rw [p1.flag (by rw [m1, hmode]; exact hm) (by intro e; rw [e] at hk; simp [Token.endsStatement] at hk)]
      exact hk
    obtain ⟨r2, e2, t2, l2⟩ := Scanner.lineEnds_semicolon r.s p1.inv hflag he
    rw [nthScan_succ, hr]
    simp [e2, t2, l2]

/-- Witness of `Scan_inserts_semicolon`: in `a /* x */ // c` followed by a
line with `b`, the identifier `a` is the last non-comment token of its line
and the next token is the synthetic semicolon. -/
theorem Scan_inserts_semicolon_witness :
    tokenAt 0 (Scanner.Init asciiLib ⟨[], 1, 17, [0]⟩ (str "a /* x */ // c\n b") 0)
        = some (.IDENT, str "a") ∧
      tokenAt 1 (Scanner.Init asciiLib ⟨[], 1, 17, [0]⟩ (str "a /* x */ // c\n b") 0)
        = some (.SEMICOLON, str "\n") :=
  ⟨by decide!,
    Scan_inserts_semicolon asciiLib ⟨[], 1, 17, [0]⟩ (str "a /* x */ // c\n b") 0 0
      (by decide!) (by decide!) (by decide!)⟩

/-- Counterexample to C2 as stated: in `a $` the last token of the line is the
`ILLEGAL` token of the illegal character, which keeps the flag that `a` set,
and `Scan` returns a synthetic semicolon at the newline after it. -/
theorem Scan_semicolon_after_illegal :
    tokenAt 1 (scannerOf "a $\n" 0) = some (.ILLEGAL, str "$") ∧
      tokenAt 2 (scannerOf "a $\n" 0) = some (.SEMICOLON, str "\n") := by
  decide!

/-! ### Running parser methods -/

theorem P.bind_apply {α β : Type} (m : P α) (f : α → P β) (p : parser) :
    (m >>= f) p = P.bind m f p := rfl

theorem P.pure_apply {α : Type} (a : α) (p : parser) : (pure a : P α) p = .ok a p := rfl

/-! ### Import paths -/

theorem DecodeRune_width (b : Nat) (rest : GoString) :
    1 ≤ (DecodeRune (b :: rest)).2 := by
  by_cases hb : b < 128
  · simp only [DecodeRune, hb, if_true, le_refl]
  · exact (DecodeRune_multi b rest (by omega)).1

theorem excludedChars_eq : excludedChars =
    [33, 34, 35, 36, 37, 38, 39, 40, 41, 42, 44, 58, 59, 60, 61, 62, 63, 91, 92,
      93, 94, 123, 124, 125, 96, 0xFFFD] := by
  decide

theorem validImportRunes_eq (lib : Lib) : ∀ (f : Nat) (s : GoString),
    parser.validImportRunes lib f s = (runesOf f s).all (fun r =>
      lib.IsGraphic r ∧ ¬ lib.IsSpace r ∧ r ∉ excludedChars) := by
  intro f
  induction f with
  | zero => intro s; simp [parser.validImportRunes, runesOf]
  | succ f ih =>
    intro s
    cases s with
    | nil => simp [parser.validImportRunes, runesOf]
    | cons b bs =>
      rw [parser.validImportRunes, runesOf, List.all_cons, ← ih, excludedChars_eq]
      by_cases h : ¬ lib.IsGraphic (DecodeRune (b :: bs)).1 = true ∨
          lib.IsSpace (DecodeRune (b :: bs)).1 = true ∨
          (DecodeRune (b :: bs)).1 ∈ ([33, 34, 35, 36, 37, 38, 39, 40, 41, 42, 44, 58, 59, 60,
            61, 62, 63, 91, 92, 93, 94, 123, 124, 125, 96, 0xFFFD] : List Int)
      · rw [if_pos h]
        symm
        rw [Bool.and_eq_false_iff]
        left
        rw [decide_eq_false_iff_not]
        tauto
      · rw [if_neg h]
        push_neg at h
        have : decide (lib.IsGraphic (DecodeRune (b :: bs)).1 = true ∧
            ¬ lib.IsSpace (DecodeRune (b :: bs)).1 = true ∧
            (DecodeRune (b :: bs)).1 ∉ ([33, 34, 35, 36, 37, 38, 39, 40, 41, 42, 44, 58, 59, 60,
            61, 62, 63, 91, 92, 93, 94, 123, 124, 125, 96, 0xFFFD] : List Int)) = true := by
          rw [decide_eq_true_iff]
          exact ⟨h.1, by simpa using h.2.1, h.2.2⟩
        rw [this, Bool.true_and]

/-- The fuel of the rune loop is enough: with the length of the string as fuel
the loop visits the whole string, as with any larger fuel. -/
theorem runesOf_fuel : ∀ (f g : Nat) (s : GoString), s.length ≤ f → s.length ≤ g →
    runesOf f s = runesOf g s := by
  intro f
  induction f with
  | zero =>
    intro g s hf hg
    have : s = [] := List.length_eq_zero.mp (by omega)
    subst this
    cases g <;> rfl
  | succ f ih =>
    intro g s hf hg
    cases s with
    | nil => cases g <;> rfl
    | cons b bs =>
      cases g with
      | zero => simp at hg
      | succ g =>
        rw [runesOf, runesOf]
        have hw := DecodeRune_width b bs
        have hl : ((b :: bs).drop (DecodeRune (b :: bs)).2).length ≤ bs.length := by
          rw [List.length_drop, List.length_cons]
          omega
        simp only [List.length_cons] at hf hg
        rw [ih g _ (by omega) (by omega)]

/-- C13: `isValidImport(lit)` is true exactly when the literal unquotes
successfully to a non-empty string in which every character is graphic, is not
a space character and is none of the excluded characters; it is false when the
literal unquotes to the empty string (the path `""`) and when the unquoted
path holds a character the library classifies as a space. -/
theorem isValidImport_iff (lib : Lib) (lit : GoString) :
    parser.isValidImport lib lit = validImportPath lib lit ∧
      (lib.Unquote lit = some [] → parser.isValidImport lib lit = false) ∧
      (∀ s r, lib.Unquote lit = some s → r ∈ runesOf s.length s → lib.IsSpace r = true →
        parser.isValidImport lib lit = false) := by
  have key : parser.isValidImport lib lit = validImportPath lib lit := by
    unfold parser.isValidImport validImportPath
    cases h : lib.Unquote lit with
    | none => simp [parser.validImportRunes]
    | some s =>
      simp only [Option.getD_some]
      rw [decide_eq_decide, validImportRunes_eq, and_comm]
  refine ⟨key, ?_, ?_⟩
  · intro h
    rw [key]
    simp [validImportPath, h]
  · intro s r h hr hs
    rw [key]
    simp only [validImportPath, h]
    rw [decide_eq_false_iff_not]
    intro hc
    have := List.all_eq_true.mp hc.2 r hr
    simp [hs] at this

/-! ### `ImportSpec.End` -/

/-- C17, the divergence: `ImportSpec.End` returns `EndPos` also when it is
zero, and not the end of the path literal: for every `ImportSpec` with
`EndPos` zero, as the parser builds them, `End()` is `NoPos`, while the path
literal of `import "a.api"` at position 22 ends at position 29. -/
theorem ImportSpec_End_zero (doc comment : Option CommentGroup) (path : BasicLit) :
    (ImportSpec.mk doc path comment 0).End = NoPos ∧
      (ImportSpec.mk none ⟨22, .STRING, str "\"a.api\""⟩ none 0).End = 0 ∧
      (ImportSpec.mk none ⟨22, .STRING, str "\"a.api\""⟩ none 0).Path.End = 29 :=
  ⟨rfl, rfl, by decide⟩

/-- C16, the divergence: the `ImportSpec` that the parser builds for
`import "a.api"` starts at position 22 and its `End()` is 0. -/
theorem ImportSpec_End_before_Pos :
    (ParseFile asciiLib 1 [] (str "syntax = \"v1\"\nimport \"a.api\"") 0).file.map
      (fun f => f.Imports.map (fun i => (i.Pos, i.End))) = some [(22, 0)] := by
  decide!

/-! ### Array types and `@server` blocks -/

/-- C14, the divergence: parsing `type A []int` records the error
"expected '[', found ']'" at the `]` (offset 22, line 2, column 9). -/
theorem parseArrayType_records_error :
    (ParseFile asciiLib 1 [] (str "syntax = \"v1\"\ntype A []int") 0).err =
      some [⟨⟨[], 22, 2, 9⟩, str "expected '[', found ']'"⟩] := by
  decide!

/-- C15, the divergence: parsing a service with a well-formed `@server` block
records errors, the first one "expected '(', found '@server'" at the keyword
(offset 14, line 2, column 1). -/
theorem parseAtServer_records_error :
    (ParseFile asciiLib 1 []
      (str "syntax = \"v1\"\n@server(\n  a: b\n)\nservice foo \x7b\n\x7d") 0).err =
      some [⟨⟨[], 14, 2, 1⟩, str "expected '(', found '@server'"⟩,
        ⟨⟨[], 25, 3, 3⟩, str "expected ':', found a"⟩,
        ⟨⟨[], 47, 6, 2⟩, str "expected ')', found 'EOF'"⟩] := by
  decide!

/-! ### Lexical errors at the first token, and `Parse` -/

/-- Counterexample to C18 as stated: with an illegal character before the
`syntax` pragma, `ParseFile` returns the empty `File` (no `Syntax`, no
`Decls`) and one error; with the same character at the end of the source the
pragma and the declaration are parsed. -/
theorem ParseFile_illegal_first_token :
    (ParseFile asciiLib 1 [] (str "$ syntax = \"v1\"\ntype A \x7b\x7d") 0).file.map
        (fun f => (f.Syntax.isSome, f.Decls.length)) = some (false, 0) ∧
      ((ParseFile asciiLib 1 [] (str "$ syntax = \"v1\"\ntype A \x7b\x7d") 0).err.map
        List.length) = some 1 ∧
      (ParseFile asciiLib 1 [] (str "syntax = \"v1\"\ntype A \x7b\x7d $") 0).file.map
        (fun f => (f.Syntax.isSome, f.Decls.length)) = some (true, 1) := by
  decide!

/-- Counterexample to C19 as stated: for the source `syntax = "v1"` followed
by a line with the lone keyword `type`, `ParseFile` returns a file and an
error, and `Parse` returns a nil file with the error. -/
theorem Parse_returns_nil_file :
    (ParseFile asciiLib 1 [] (str "syntax = \"v1\"\ntype") 0).file.isSome = true ∧
      (ParseFile asciiLib 1 [] (str "syntax = \"v1\"\ntype") 0).err.isSome = true ∧
      (internal.Parse asciiLib 1 [] (str "syntax = \"v1\"\ntype") 0).nilFile = some true := by
  decide!

/-- C19, amended: `Parse` returns the file of `parser.ParseFile` only when the
error is nil; whenever `ParseFile` returns an error, `Parse` returns a nil
file together with that error. -/
theorem Parse_nil_file_on_error (lib : Lib) (base mode : Nat) (filename src : GoString)
    (h : (ParseFile lib base filename src mode).err.isSome = true) :
    (internal.Parse lib base filename src mode).nilFile = some true ∧
      (internal.Parse lib base filename src mode).err =
        (ParseFile lib base filename src mode).err := by
  unfold internal.Parse
  cases hp : ParseFile lib base filename src mode with
  | returned f e =>
    rw [hp] at h
    cases e with
    | none => simp [ParseResult.err] at h
    | some e => simp [ParseOutcome.nilFile, ParseOutcome.err, ParseResult.err]
  | panics m => rw [hp] at h; simp [ParseResult.err] at h
  | outOfFuel => rw [hp] at h; simp [ParseResult.err] at h

/-- Witness of `Parse_nil_file_on_error`: the source with the lone keyword
`type`. -/
theorem Parse_nil_file_on_error_witness :
    (ParseFile asciiLib 1 [] (str "syntax = \"v1\"\ntype") 0).err.isSome = true ∧
      (internal.Parse asciiLib 1 [] (str "syntax = \"v1\"\ntype") 0).nilFile = some true ∧
      (internal.Parse asciiLib 1 [] (str "syntax = \"v1\"\ntype") 0).err =
        (ParseFile asciiLib 1 [] (str "syntax = \"v1\"\ntype") 0).err :=
  ⟨by decide!, Parse_nil_file_on_error asciiLib 1 0 [] (str "syntax = \"v1\"\ntype")
    (by decide!)⟩

/-! ### The tokens left to the scanner -/

theorem Scanner.measure_le (s : Scanner) : s.measure ≤ 2 * s.src.length + 3 := by
  unfold Scanner.measure Scanner.left
  split_ifs <;> omega

theorem tokensLoop_fuel : ∀ (f g : Nat) (s : Scanner), s.Inv → s.measure < f → s.measure < g →
    tokensLoop f s = tokensLoop g s := by
  intro f
  induction f with
  | zero => intro g s _ h; omega
  | succ f ih =>
    intro g s hs hf hg
    cases g with
    | zero => omega
    | succ g =>
      obtain ⟨r, e, pr⟩ := Scanner.Scan_post hs
      unfold tokensLoop
      simp only [e]
      by_cases ht : r.tok = .EOF
      · rw [if_pos ht, if_pos ht]
      · rw [if_neg ht, if_neg ht, ih g r.s pr.inv (by have := pr.dec ht; omega)
          (by have := pr.dec ht; omega)]

theorem Scanner.tokens_scan {s : Scanner} {r : ScanResult} (hs : s.Inv) (e : s.Scan = some r) :
    (r.tok = .EOF → s.tokens = 0) ∧ (r.tok ≠ .EOF → s.tokens = r.s.tokens + 1) := by
  obtain ⟨r1, e1, pr⟩ := Scanner.Scan_post hs
  rw [e] at e1
  cases e1
  unfold Scanner.tokens
  constructor
  · intro ht
    unfold tokensLoop
    simp only [e, ht, if_true]
  · intro ht
    conv_lhs => unfold tokensLoop
    simp only [e, if_neg ht]
    rw [tokensLoop_fuel s.measure (r.s.measure + 1) r.s pr.inv (pr.dec ht) (by omega)]

theorem Scanner.Scan_eof {s : Scanner} (hs : s.Inv) (h1 : s.ch = eof)
    (h2 : s.insertSemi = false) : ∃ r, s.Scan = some r ∧ r.tok = .EOF ∧ ScanPost s r := by
  obtain ⟨r, e, pr⟩ := Scanner.Scan_post hs
  refine ⟨r, e, ?_, pr⟩
  by_contra ht
  have := pr.dec ht
  simp [Scanner.measure, Scanner.left, h1, h2] at this

theorem Scanner.tokens_le (s : Scanner) (hs : s.Inv) : s.tokens ≤ s.measure := by
  have key : ∀ (f : Nat) (s : Scanner), s.Inv → s.measure < f → tokensLoop f s ≤ s.measure := by
    intro f
    induction f with
    | zero => intro s _ h; omega
    | succ f ih =>
      intro s hs hf
      obtain ⟨r, e, pr⟩ := Scanner.Scan_post hs
      unfold tokensLoop
      simp only [e]
      by_cases ht : r.tok = .EOF
      · rw [if_pos ht]
        omega
      · rw [if_neg ht]
        have := pr.dec ht
        have := ih r.s pr.inv (by omega)
        omega
  exact key _ s hs (by omega)

/-! ### What the scanner does is independent of the errors recorded -/

@[simp] theorem Scanner.logged_lib (g : ErrorList) (s : Scanner) : (s.logged g).lib = s.lib := rfl
@[simp] theorem Scanner.logged_file (g : ErrorList) (s : Scanner) : (s.logged g).file = s.file := rfl
@[simp] theorem Scanner.logged_src (g : ErrorList) (s : Scanner) : (s.logged g).src = s.src := rfl
@[simp] theorem Scanner.logged_mode (g : ErrorList) (s : Scanner) : (s.logged g).mode = s.mode := rfl
@[simp] theorem Scanner.logged_ch (g : ErrorList) (s : Scanner) : (s.logged g).ch = s.ch := rfl
@[simp] theorem Scanner.logged_offset (g : ErrorList) (s : Scanner) :
    (s.logged g).offset = s.offset := rfl
@[simp] theorem Scanner.logged_rdOffset (g : ErrorList) (s : Scanner) :
    (s.logged g).rdOffset = s.rdOffset := rfl
@[simp] theorem Scanner.logged_insertSemi (g : ErrorList) (s : Scanner) :
    (s.logged g).insertSemi = s.insertSemi := rfl
@[simp] theorem Scanner.logged_errs (g : ErrorList) (s : Scanner) :
    (s.logged g).errs = g ++ s.errs := rfl
@[simp] theorem Scanner.logged_fuel (g : ErrorList) (s : Scanner) :
    (s.logged g).fuel = s.fuel := rfl
@[simp] theorem Scanner.logged_peek (g : ErrorList) (s : Scanner) :
    (s.logged g).peek = s.peek := rfl

@[simp] theorem Scanner.error_logged (g : ErrorList) (s : Scanner) (offs : Nat) (msg : GoString) :
    (s.logged g).error offs msg = (s.error offs msg).logged g := by
  simp [Scanner.error, Scanner.logged]

@[simp] theorem Scanner.newLine_logged (g : ErrorList) (s : Scanner) :
    (s.logged g).newLine = s.newLine.logged g := by
  unfold Scanner.newLine
  split_ifs <;> simp_all [Scanner.logged]

@[simp] theorem Scanner.next_logged (g : ErrorList) (s : Scanner) :
    (s.logged g).next = s.next.logged g := by
  cases s
  simp only [Scanner.next, Scanner.logged, Scanner.newLine, Scanner.error]
  split_ifs <;> simp

@[simp] theorem skipWhitespaceLoop_logged (g : ErrorList) : ∀ (n : Nat) (s : Scanner),
    skipWhitespaceLoop n (s.logged g) = (skipWhitespaceLoop n s).map (Scanner.logged g) := by
  intro n
  induction n with
  | zero => intro s; rfl
  | succ n ih =>
    intro s
    simp only [skipWhitespaceLoop, Scanner.logged_ch, Scanner.logged_insertSemi,
      Scanner.next_logged, ih]
    split_ifs <;> rfl

@[simp] theorem Scanner.skipWhitespace_logged (g : ErrorList) (s : Scanner) :
    (s.logged g).skipWhitespace = s.skipWhitespace.map (Scanner.logged g) := by
  simp [Scanner.skipWhitespace]

@[simp] theorem scanIdentifierLoop_logged (g : ErrorList) : ∀ (n : Nat) (s : Scanner),
    scanIdentifierLoop n (s.logged g) = (scanIdentifierLoop n s).map (Scanner.logged g) := by
  intro n
  induction n with
  | zero => intro s; rfl
  | succ n ih =>
    intro s
    simp only [scanIdentifierLoop, Scanner.logged_ch, Scanner.logged_lib,
      Scanner.next_logged, ih]
    split_ifs <;> rfl

@[simp] theorem Scanner.scanIdentifier_logged (g : ErrorList) (s : Scanner) :
    (s.logged g).scanIdentifier =
      s.scanIdentifier.map (fun r => (r.1, r.2.logged g)) := by
  simp only [Scanner.scanIdentifier, scanIdentifierLoop_logged, Scanner.logged_fuel,
    Scanner.logged_offset]
  cases scanIdentifierLoop s.fuel s <;> rfl

@[simp] theorem digitsLoop_logged (g : ErrorList) : ∀ (n : Nat) (s : Scanner),
    digitsLoop n (s.logged g) = (digitsLoop n s).map (Scanner.logged g) := by
  intro n
  induction n with
  | zero => intro s; rfl
  | succ n ih =>
    intro s
    simp only [digitsLoop, Scanner.logged_ch, Scanner.next_logged, ih]
    split_ifs <;> rfl

@[simp] theorem Scanner.scanNumber_logged (g : ErrorList) (s : Scanner) :
    (s.logged g).scanNumber =
      s.scanNumber.map (fun r => (r.1, r.2.1, r.2.2.logged g)) := by
  simp only [Scanner.scanNumber, digitsLoop_logged, Scanner.logged_fuel,
    Scanner.logged_offset, Scanner.logged_ch]
  by_cases h : s.ch ≠ 46
  · simp only [if_pos h]
    cases digitsLoop s.fuel s with
    | none => rfl
    | some s1 =>
      simp only [Option.map_some', Scanner.logged_ch, Scanner.next_logged, digitsLoop_logged,
        Scanner.logged_fuel]
      split_ifs
      · cases digitsLoop s1.fuel s1.next <;> rfl
      · rfl
  · simp only [if_neg h, Scanner.logged_ch, Scanner.next_logged, digitsLoop_logged,
      Scanner.logged_fuel]
    split_ifs
    · cases digitsLoop s.fuel s.next <;> rfl
    · rfl

@[simp] theorem scanEscapeDigits_logged (g : ErrorList) : ∀ (n base x : Nat) (s : Scanner),
    scanEscapeDigits n base x (s.logged g) =
      ((scanEscapeDigits n base x s).1, (scanEscapeDigits n base x s).2.logged g) := by
  intro n
  induction n with
  | zero => intro base x s; rfl
  | succ n ih =>
    intro base x s
    simp only [scanEscapeDigits, Scanner.logged_ch, Scanner.logged_lib, Scanner.logged_offset,
      Scanner.next_logged, Scanner.error_logged, ih]
    split_ifs <;> rfl

@[simp] theorem Scanner.scanEscapeValue_logged (g : ErrorList) (s : Scanner)
    (offs n base max : Nat) :
    (s.logged g).scanEscapeValue offs n base max =
      ((s.scanEscapeValue offs n base max).1, (s.scanEscapeValue offs n base max).2.logged g) := by
  simp only [Scanner.scanEscapeValue, scanEscapeDigits_logged]
  rcases h : scanEscapeDigits n base 0 s with ⟨_ | x, s2⟩
  · rfl
  · simp only [Scanner.error_logged]
    split_ifs <;> rfl

@[simp] theorem Scanner.scanEscape_logged (g : ErrorList) (s : Scanner) (quote : Int) :
    (s.logged g).scanEscape quote =
      ((s.scanEscape quote).1, (s.scanEscape quote).2.logged g) := by
  simp only [Scanner.scanEscape, Scanner.logged_ch, Scanner.logged_offset, Scanner.next_logged,
    Scanner.scanEscapeValue_logged, Scanner.error_logged]
  split_ifs <;> rfl

@[simp] theorem scanStringLoop_logged (g : ErrorList) : ∀ (n offs : Nat) (s : Scanner),
    scanStringLoop n offs (s.logged g) = (scanStringLoop n offs s).map (Scanner.logged g) := by
  intro n
  induction n with
  | zero => intro offs s; rfl
  | succ n ih =>
    intro offs s
    simp only [scanStringLoop, Scanner.logged_ch, Scanner.next_logged, Scanner.error_logged,
      Scanner.scanEscape_logged, ih]
    split_ifs <;> rfl

@[simp] theorem Scanner.scanString_logged (g : ErrorList) (s : Scanner) :
    (s.logged g).scanString = s.scanString.map (fun r => (r.1, r.2.logged g)) := by
  simp only [Scanner.scanString, scanStringLoop_logged, Scanner.logged_fuel,
    Scanner.logged_offset]
  cases scanStringLoop s.fuel (s.offset - 1) s <;> rfl

@[simp] theorem scanRuneLoop_logged (g : ErrorList) :
    ∀ (f offs : Nat) (valid : Bool) (n : Nat) (s : Scanner),
    scanRuneLoop f offs valid n (s.logged g) =
      (scanRuneLoop f offs valid n s).map (fun r => (r.1, r.2.1, r.2.2.logged g)) := by
  intro f
  induction f with
  | zero => intro offs valid n s; rfl
  | succ f ih =>
    intro offs valid n s
    simp only [scanRuneLoop, Scanner.logged_ch, Scanner.next_logged, Scanner.error_logged,
      Scanner.scanEscape_logged, ih]
    split_ifs <;> rfl

@[simp] theorem Scanner.scanRune_logged (g : ErrorList) (s : Scanner) :
    (s.logged g).scanRune = s.scanRune.map (fun r => (r.1, r.2.logged g)) := by
  simp only [Scanner.scanRune, scanRuneLoop_logged, Scanner.logged_fuel,
    Scanner.logged_offset]
  rcases h : scanRuneLoop s.fuel (s.offset - 1) true 0 s with _ | ⟨valid, n, s1⟩
  · rfl
  · simp only [Option.map_some', Scanner.error_logged]
    split_ifs <;> rfl

@[simp] theorem scanRawStringLoop_logged (g : ErrorList) : ∀ (n offs : Nat) (s : Scanner),
    scanRawStringLoop n offs (s.logged g) =
      (scanRawStringLoop n offs s).map (Scanner.logged g) := by
  intro n
  induction n with
  | zero => intro offs s; rfl
  | succ n ih =>
    intro offs s
    simp only [scanRawStringLoop, Scanner.logged_ch, Scanner.next_logged, Scanner.error_logged,
      ih]
    split_ifs <;> rfl

@[simp] theorem Scanner.scanRawString_logged (g : ErrorList) (s : Scanner) :
    (s.logged g).scanRawString = s.scanRawString.map (fun r => (r.1, r.2.logged g)) := by
  simp only [Scanner.scanRawString, scanRawStringLoop_logged, Scanner.logged_fuel,
    Scanner.logged_offset]
  cases scanRawStringLoop s.fuel (s.offset - 1) s <;> rfl

@[simp] theorem scanCommentLine_logged (g : ErrorList) : ∀ (n : Nat) (s : Scanner),
    scanCommentLine n (s.logged g) = (scanCommentLine n s).map (Scanner.logged g) := by
  intro n
  induction n with
  | zero => intro s; rfl
  | succ n ih =>
    intro s
    simp only [scanCommentLine, Scanner.logged_ch, Scanner.next_logged, ih]
    split_ifs <;> rfl

@[simp] theorem scanCommentGeneral_logged (g : ErrorList) : ∀ (n : Nat) (s : Scanner),
    scanCommentGeneral n (s.logged g) =
      (scanCommentGeneral n s).map (fun r => (r.1, r.2.logged g)) := by
  intro n
  induction n with
  | zero => intro s; rfl
  | succ n ih =>
    intro s
    simp only [scanCommentGeneral, Scanner.logged_ch, Scanner.next_logged, ih]
    split_ifs <;> rfl

@[simp] theorem Scanner.scanComment_logged (g : ErrorList) (s : Scanner) :
    (s.logged g).scanComment = s.scanComment.map (fun r => (r.1, r.2.logged g)) := by
  simp only [Scanner.scanComment, scanCommentLine_logged, scanCommentGeneral_logged,
    Scanner.logged_fuel, Scanner.logged_offset, Scanner.logged_ch, Scanner.next_logged]
  split_ifs
  · cases scanCommentLine s.fuel s.next <;> rfl
  · rcases h : scanCommentGeneral s.fuel s.next with _ | ⟨_ | _, s1⟩
    · rfl
    · simp only [Option.map_some', Scanner.error_logged]
      rfl
    · rfl

@[simp] theorem findLineEndBody_logged (g : ErrorList) : ∀ (n : Nat) (s : Scanner),
    findLineEndBody n (s.logged g) =
      (findLineEndBody n s).map (fun r => (r.1, r.2.logged g)) := by
  intro n
  induction n with
  | zero => intro s; rfl
  | succ n ih =>
    intro s
    simp only [findLineEndBody, Scanner.logged_ch, Scanner.next_logged, ih]
    split_ifs <;> rfl

@[simp] theorem findLineEndLoop_logged (g : ErrorList) : ∀ (n : Nat) (s : Scanner),
    findLineEndLoop n (s.logged g) =
      (findLineEndLoop n s).map (fun r => (r.1, r.2.logged g)) := by
  intro n
  induction n with
  | zero => intro s; rfl
  | succ n ih =>
    intro s
    simp only [findLineEndLoop, Scanner.logged_ch, Scanner.next_logged, findLineEndBody_logged,
      Scanner.logged_fuel]
    by_cases h1 : s.ch = 47 ∨ s.ch = 42
    · simp only [if_pos h1]
      by_cases h2 : s.ch = 47
      · simp only [if_pos h2]
        rfl
      · simp only [if_neg h2]
        rcases hb : findLineEndBody s.fuel s.next with _ | ⟨_ | _, s1⟩
        · rfl
        · simp only [Option.map_some', Scanner.skipWhitespace_logged]
          cases hw : s1.skipWhitespace with
          | none => rfl
          | some s2 =>
            simp only [Option.map_some', Scanner.logged_ch, Scanner.next_logged, ih]
            split_ifs <;> rfl
        · rfl
    · simp only [if_neg h1]
      rfl

@[simp] theorem Scanner.findLineEnd_logged (g : ErrorList) (s : Scanner) :
    (s.logged g).findLineEnd = s.findLineEnd.map (fun r => (r.1, r.2.logged g)) := by
  simp only [Scanner.findLineEnd, findLineEndLoop_logged, Scanner.logged_fuel,
    Scanner.logged_offset]
  rcases h : findLineEndLoop s.fuel s with _ | ⟨b, s1⟩
  · rfl
  · simp only [Option.map_some']
    rw [← Scanner.next_logged]
    rfl

@[simp] theorem Scanner.switch2_logged (g : ErrorList) (s : Scanner) (tok0 tok1 : Token) :
    (s.logged g).switch2 tok0 tok1 = ((s.switch2 tok0 tok1).1, (s.switch2 tok0 tok1).2.logged g) := by
  simp only [Scanner.switch2, Scanner.logged_ch, Scanner.next_logged]
  split_ifs <;> rfl

@[simp] theorem Scanner.switch3_logged (g : ErrorList) (s : Scanner) (tok0 tok1 : Token)
    (ch2 : Int) (tok2 : Token) :
    (s.logged g).switch3 tok0 tok1 ch2 tok2 =
      ((s.switch3 tok0 tok1 ch2 tok2).1, (s.switch3 tok0 tok1 ch2 tok2).2.logged g) := by
  simp only [Scanner.switch3, Scanner.logged_ch, Scanner.next_logged]
  split_ifs <;> rfl

@[simp] theorem Scanner.switch4_logged (g : ErrorList) (s : Scanner) (tok0 tok1 : Token)
    (ch2 : Int) (tok2 tok3 : Token) :
    (s.logged g).switch4 tok0 tok1 ch2 tok2 tok3 =
      ((s.switch4 tok0 tok1 ch2 tok2 tok3).1, (s.switch4 tok0 tok1 ch2 tok2 tok3).2.logged g) := by
  simp only [Scanner.switch4, Scanner.logged_ch, Scanner.next_logged]
  split_ifs <;> rfl

@[simp] theorem Scanner.finish_logged (g : ErrorList) (s : Scanner) (pos : Nat) (tok : Token)
    (lit : GoString) (b : Bool) :
    (s.logged g).finish pos tok lit b = (s.finish pos tok lit b).logged g := by
  simp only [Scanner.finish, Scanner.logged_mode, ScanResult.logged]
  split_ifs <;> rfl

set_option maxHeartbeats 1000000 in
theorem ScanLoop_logged (g : ErrorList) : ∀ (fuel : Nat) (s0 : Scanner),
    ScanLoop fuel (s0.logged g) = (ScanLoop fuel s0).map (ScanResult.logged g) := by
  intro fuel
  induction fuel with
  | zero => intro s0; rfl
  | succ fuel ih =>
    intro s0
    simp only [ScanLoop, Scanner.skipWhitespace_logged]
    cases h : s0.skipWhitespace with
    | none => rfl
    | some s =>
    simp only [Option.map_some', Scanner.logged_lib, Scanner.logged_ch, Scanner.logged_peek]
    by_cases hL : isLetter s.lib s.ch = true
    · simp only [if_pos hL, Scanner.scanIdentifier_logged]
      rcases s.scanIdentifier with _ | ⟨lit, s1⟩
      · rfl
      · simp only [Option.map_some', Scanner.finish_logged, Scanner.logged_file,
          Scanner.logged_offset]
        split_ifs <;> rfl
    simp only [if_neg hL]
    by_cases hD : isDecimal s.ch = true ∨ (s.ch = 46 ∧ isDecimal (Int.ofNat s.peek) = true)
    · simp only [if_pos hD, Scanner.scanNumber_logged]
      rcases s.scanNumber with _ | ⟨tok, lit, s1⟩
      · rfl
      · simp only [Option.map_some', Scanner.finish_logged, Scanner.logged_file,
          Scanner.logged_offset]
    simp only [if_neg hD]
    by_cases hAt : s.ch = 64
    · simp only [if_pos hAt, Scanner.next_logged, Scanner.scanIdentifier_logged]
      rcases s.next.scanIdentifier with _ | ⟨lit, s1⟩
      · rfl
      · simp only [Option.map_some', Scanner.finish_logged, Scanner.logged_file,
          Scanner.logged_offset]
        split_ifs <;> rfl
    simp only [if_neg hAt]
    by_cases hE : s.ch = -1
    · simp only [if_pos hE, Option.map_some', Scanner.logged_lib, Scanner.logged_ch, Scanner.logged_file,
        Scanner.logged_offset, Scanner.logged_peek, Scanner.logged_mode, Scanner.next_logged,
        Scanner.switch2_logged, Scanner.switch3_logged, Scanner.switch4_logged,
        Scanner.logged_insertSemi, Scanner.error_logged, Scanner.finish_logged]
      split_ifs <;> rfl
    simp only [if_neg hE]
    by_cases h10 : s.ch = 10
    · simp only [if_pos h10, Option.map_some', Scanner.logged_lib, Scanner.logged_ch, Scanner.logged_file,
        Scanner.logged_offset, Scanner.logged_peek, Scanner.logged_mode, Scanner.next_logged,
        Scanner.switch2_logged, Scanner.switch3_logged, Scanner.switch4_logged,
        Scanner.logged_insertSemi, Scanner.error_logged, Scanner.finish_logged]
      rfl
    simp only [if_neg h10]
    by_cases h34 : s.ch = 34
    · simp only [if_pos h34, Scanner.next_logged, Scanner.scanString_logged]
      rcases s.next.scanString with _ | ⟨lit, s2⟩
      · rfl
      · simp only [Option.map_some', Scanner.finish_logged, Scanner.logged_file,
          Scanner.logged_offset]
    simp only [if_neg h34]
    by_cases h39 : s.ch = 39
    · simp only [if_pos h39, Scanner.next_logged, Scanner.scanRune_logged]
      rcases s.next.scanRune with _ | ⟨lit, s2⟩
      · rfl
      · simp only [Option.map_some', Scanner.finish_logged, Scanner.logged_file,
          Scanner.logged_offset]
    simp only [if_neg h39]
    by_cases h96 : s.ch = 96
    · simp only [if_pos h96, Scanner.next_logged, Scanner.scanRawString_logged]
      rcases s.next.scanRawString with _ | ⟨lit, s2⟩
      · rfl
      · simp only [Option.map_some', Scanner.finish_logged, Scanner.logged_file,
          Scanner.logged_offset]
    simp only [if_neg h96]
    by_cases h58 : s.ch = 58
    · simp only [if_pos h58, Option.map_some', Scanner.logged_lib, Scanner.logged_ch, Scanner.logged_file,
        Scanner.logged_offset, Scanner.logged_peek, Scanner.logged_mode, Scanner.next_logged,
        Scanner.switch2_logged, Scanner.switch3_logged, Scanner.switch4_logged,
        Scanner.logged_insertSemi, Scanner.error_logged, Scanner.finish_logged]
    simp only [if_neg h58]
    by_cases h46 : s.ch = 46
    · simp only [if_pos h46, Option.map_some', Scanner.logged_lib, Scanner.logged_ch, Scanner.logged_file,
        Scanner.logged_offset, Scanner.logged_peek, Scanner.logged_mode, Scanner.next_logged,
        Scanner.switch2_logged, Scanner.switch3_logged, Scanner.switch4_logged,
        Scanner.logged_insertSemi, Scanner.error_logged, Scanner.finish_logged]
      split_ifs <;> rfl
    simp only [if_neg h46]
    by_cases h44 : s.ch = 44
    · simp only [if_pos h44, Option.map_some', Scanner.logged_lib, Scanner.logged_ch, Scanner.logged_file,
        Scanner.logged_offset, Scanner.logged_peek, Scanner.logged_mode, Scanner.next_logged,
        Scanner.switch2_logged, Scanner.switch3_logged, Scanner.switch4_logged,
        Scanner.logged_insertSemi, Scanner.error_logged, Scanner.finish_logged]
    simp only [if_neg h44]
    by_cases h59 : s.ch = 59
    · simp only [if_pos h59, Option.map_some', Scanner.logged_lib, Scanner.logged_ch, Scanner.logged_file,
        Scanner.logged_offset, Scanner.logged_peek, Scanner.logged_mode, Scanner.next_logged,
        Scanner.switch2_logged, Scanner.switch3_logged, Scanner.switch4_logged,
        Scanner.logged_insertSemi, Scanner.error_logged, Scanner.finish_logged]
    simp only [if_neg h59]
    by_cases h40 : s.ch = 40
    · simp only [if_pos h40, Option.map_some', Scanner.logged_lib, Scanner.logged_ch, Scanner.logged_file,
        Scanner.logged_offset, Scanner.logged_peek, Scanner.logged_mode, Scanner.next_logged,
        Scanner.switch2_logged, Scanner.switch3_logged, Scanner.switch4_logged,
        Scanner.logged_insertSemi, Scanner.error_logged, Scanner.finish_logged]
    simp only [if_neg h40]
    by_cases h41 : s.ch = 41
    · simp only [if_pos h41, Option.map_some', Scanner.logged_lib, Scanner.logged_ch, Scanner.logged_file,
        Scanner.logged_offset, Scanner.logged_peek, Scanner.logged_mode, Scanner.next_logged,
        Scanner.switch2_logged, Scanner.switch3_logged, Scanner.switch4_logged,
        Scanner.logged_insertSemi, Scanner.error_logged, Scanner.finish_logged]
    simp only [if_neg h41]
    by_cases h91 : s.ch = 91
    · simp only [if_pos h91, Option.map_some', Scanner.logged_lib, Scanner.logged_ch, Scanner.logged_file,
        Scanner.logged_offset, Scanner.logged_peek, Scanner.logged_mode, Scanner.next_logged,
        Scanner.switch2_logged, Scanner.switch3_logged, Scanner.switch4_logged,
        Scanner.logged_insertSemi, Scanner.error_logged, Scanner.finish_logged]
    simp only [if_neg h91]
    by_cases h93 : s.ch = 93
    · simp only [if_pos h93, Option.map_some', Scanner.logged_lib, Scanner.logged_ch, Scanner.logged_file,
        Scanner.logged_offset, Scanner.logged_peek, Scanner.logged_mode, Scanner.next_logged,
        Scanner.switch2_logged, Scanner.switch3_logged, Scanner.switch4_logged,
        Scanner.logged_insertSemi, Scanner.error_logged, Scanner.finish_logged]
    simp only [if_neg h93]
    by_cases h123 : s.ch = 123
    · simp only [if_pos h123, Option.map_some', Scanner.logged_lib, Scanner.logged_ch, Scanner.logged_file,
        Scanner.logged_offset, Scanner.logged_peek, Scanner.logged_mode, Scanner.next_logged,
        Scanner.switch2_logged, Scanner.switch3_logged, Scanner.switch4_logged,
        Scanner.logged_insertSemi, Scanner.error_logged, Scanner.finish_logged]
    simp only [if_neg h123]
    by_cases h125 : s.ch = 125
    · simp only [if_pos h125, Option.map_some', Scanner.logged_lib, Scanner.logged_ch, Scanner.logged_file,
        Scanner.logged_offset, Scanner.logged_peek, Scanner.logged_mode, Scanner.next_logged,
        Scanner.switch2_logged, Scanner.switch3_logged, Scanner.switch4_logged,
        Scanner.logged_insertSemi, Scanner.error_logged, Scanner.finish_logged]
    simp only [if_neg h125]
    by_cases h43 : s.ch = 43
    · simp only [if_pos h43, Option.map_some', Scanner.logged_lib, Scanner.logged_ch, Scanner.logged_file,
        Scanner.logged_offset, Scanner.logged_peek, Scanner.logged_mode, Scanner.next_logged,
        Scanner.switch2_logged, Scanner.switch3_logged, Scanner.switch4_logged,
        Scanner.logged_insertSemi, Scanner.error_logged, Scanner.finish_logged]
    simp only [if_neg h43]
    by_cases h45 : s.ch = 45
    · simp only [if_pos h45, Option.map_some', Scanner.logged_lib, Scanner.logged_ch, Scanner.logged_file,
        Scanner.logged_offset, Scanner.logged_peek, Scanner.logged_mode, Scanner.next_logged,
        Scanner.switch2_logged, Scanner.switch3_logged, Scanner.switch4_logged,
        Scanner.logged_insertSemi, Scanner.error_logged, Scanner.finish_logged]
    simp only [if_neg h45]
    by_cases h42 : s.ch = 42
    · simp only [if_pos h42, Option.map_some', Scanner.logged_lib, Scanner.logged_ch, Scanner.logged_file,
        Scanner.logged_offset, Scanner.logged_peek, Scanner.logged_mode, Scanner.next_logged,
        Scanner.switch2_logged, Scanner.switch3_logged, Scanner.switch4_logged,
        Scanner.logged_insertSemi, Scanner.error_logged, Scanner.finish_logged]
    simp only [if_neg h42]
    by_cases h47 : s.ch = 47
    · simp only [if_pos h47, Scanner.next_logged, Scanner.logged_ch, Scanner.logged_insertSemi]
      by_cases hc : s.next.ch = 47 ∨ s.next.ch = 42
      · simp only [if_pos hc]
        have key : ∀ s2 : Scanner,
            (match (s2.logged g).scanComment with
              | none => none
              | some (comment, s3) =>
                if s3.mode &&& ScanComments = 0 then
                  ScanLoop fuel { s3 with insertSemi := false }
                else some (s3.finish ((s.logged g).file.Pos (s.logged g).offset) .COMMENT comment false)) =
            Option.map (ScanResult.logged g) (match s2.scanComment with
              | none => none
              | some (comment, s3) =>
                if s3.mode &&& ScanComments = 0 then
                  ScanLoop fuel { s3 with insertSemi := false }
                else some (s3.finish (s.file.Pos s.offset) .COMMENT comment false)) := by
          intro s2
          simp only [Scanner.scanComment_logged]
          rcases s2.scanComment with _ | ⟨comment, s3⟩
          · rfl
          · simp only [Option.map_some', Scanner.logged_mode, Scanner.finish_logged,
              Scanner.logged_file, Scanner.logged_offset]
            split_ifs
            · exact ih { s3 with insertSemi := false }
            · rfl
        by_cases hsemi : s.next.insertSemi = true
        · simp only [if_pos hsemi, Scanner.findLineEnd_logged]
          rcases s.next.findLineEnd with _ | ⟨_ | _, s2⟩
          · rfl
          · exact key s2
          · rfl
        · simp only [if_neg hsemi]
          exact key s.next
      · simp only [if_neg hc, Option.map_some', Scanner.logged_lib, Scanner.logged_ch, Scanner.logged_file,
        Scanner.logged_offset, Scanner.logged_peek, Scanner.logged_mode, Scanner.next_logged,
        Scanner.switch2_logged, Scanner.switch3_logged, Scanner.switch4_logged,
        Scanner.logged_insertSemi, Scanner.error_logged, Scanner.finish_logged]
    simp only [if_neg h47]
    by_cases h37 : s.ch = 37
    · simp only [if_pos h37, Option.map_some', Scanner.logged_lib, Scanner.logged_ch, Scanner.logged_file,
        Scanner.logged_offset, Scanner.logged_peek, Scanner.logged_mode, Scanner.next_logged,
        Scanner.switch2_logged, Scanner.switch3_logged, Scanner.switch4_logged,
        Scanner.logged_insertSemi, Scanner.error_logged, Scanner.finish_logged]
    simp only [if_neg h37]
    by_cases h94 : s.ch = 94
    · simp only [if_pos h94, Option.map_some', Scanner.logged_lib, Scanner.logged_ch, Scanner.logged_file,
        Scanner.logged_offset, Scanner.logged_peek, Scanner.logged_mode, Scanner.next_logged,
        Scanner.switch2_logged, Scanner.switch3_logged, Scanner.switch4_logged,
        Scanner.logged_insertSemi, Scanner.error_logged, Scanner.finish_logged]
    simp only [if_neg h94]
    by_cases h60 : s.ch = 60
    · simp only [if_pos h60, Option.map_some', Scanner.logged_lib, Scanner.logged_ch, Scanner.logged_file,
        Scanner.logged_offset, Scanner.logged_peek, Scanner.logged_mode, Scanner.next_logged,
        Scanner.switch2_logged, Scanner.switch3_logged, Scanner.switch4_logged,
        Scanner.logged_insertSemi, Scanner.error_logged, Scanner.finish_logged]
      split_ifs <;> rfl
    simp only [if_neg h60]
    by_cases h62 : s.ch = 62
    · simp only [if_pos h62, Option.map_some', Scanner.logged_lib, Scanner.logged_ch, Scanner.logged_file,
        Scanner.logged_offset, Scanner.logged_peek, Scanner.logged_mode, Scanner.next_logged,
        Scanner.switch2_logged, Scanner.switch3_logged, Scanner.switch4_logged,
        Scanner.logged_insertSemi, Scanner.error_logged, Scanner.finish_logged]
    simp only [if_neg h62]
    by_cases h61 : s.ch = 61
    · simp only [if_pos h61, Option.map_some', Scanner.logged_lib, Scanner.logged_ch, Scanner.logged_file,
        Scanner.logged_offset, Scanner.logged_peek, Scanner.logged_mode, Scanner.next_logged,
        Scanner.switch2_logged, Scanner.switch3_logged, Scanner.switch4_logged,
        Scanner.logged_insertSemi, Scanner.error_logged, Scanner.finish_logged]
    simp only [if_neg h61]
    by_cases h33 : s.ch = 33
    · simp only [if_pos h33, Option.map_some', Scanner.logged_lib, Scanner.logged_ch, Scanner.logged_file,
        Scanner.logged_offset, Scanner.logged_peek, Scanner.logged_mode, Scanner.next_logged,
        Scanner.switch2_logged, Scanner.switch3_logged, Scanner.switch4_logged,
        Scanner.logged_insertSemi, Scanner.error_logged, Scanner.finish_logged]
    simp only [if_neg h33]
    by_cases h38 : s.ch = 38
    · simp only [if_pos h38, Option.map_some', Scanner.logged_lib, Scanner.logged_ch, Scanner.logged_file,
        Scanner.logged_offset, Scanner.logged_peek, Scanner.logged_mode, Scanner.next_logged,
        Scanner.switch2_logged, Scanner.switch3_logged, Scanner.switch4_logged,
        Scanner.logged_insertSemi, Scanner.error_logged, Scanner.finish_logged]
      split_ifs <;> rfl
    simp only [if_neg h38]
    by_cases h124 : s.ch = 124
    · simp only [if_pos h124, Option.map_some', Scanner.logged_lib, Scanner.logged_ch, Scanner.logged_file,
        Scanner.logged_offset, Scanner.logged_peek, Scanner.logged_mode, Scanner.next_logged,
        Scanner.switch2_logged, Scanner.switch3_logged, Scanner.switch4_logged,
        Scanner.logged_insertSemi, Scanner.error_logged, Scanner.finish_logged]
    simp only [if_neg h124]
    by_cases h126 : s.ch = 126
    · simp only [if_pos h126, Option.map_some', Scanner.logged_lib, Scanner.logged_ch, Scanner.logged_file,
        Scanner.logged_offset, Scanner.logged_peek, Scanner.logged_mode, Scanner.next_logged,
        Scanner.switch2_logged, Scanner.switch3_logged, Scanner.switch4_logged,
        Scanner.logged_insertSemi, Scanner.error_logged, Scanner.finish_logged]
    simp only [if_neg h126]
    split_ifs <;> simp only [Option.map_some', Scanner.logged_lib, Scanner.logged_ch, Scanner.logged_file,
        Scanner.logged_offset, Scanner.logged_peek, Scanner.logged_mode, Scanner.next_logged,
        Scanner.switch2_logged, Scanner.switch3_logged, Scanner.switch4_logged,
        Scanner.logged_insertSemi, Scanner.error_logged, Scanner.finish_logged]

@[simp] theorem Scanner.Scan_logged (g : ErrorList) (s : Scanner) :
    (s.logged g).Scan = s.Scan.map (ScanResult.logged g) :=
  ScanLoop_logged g s.fuel s

@[simp] theorem Scanner.measure_logged (g : ErrorList) (s : Scanner) :
    (s.logged g).measure = s.measure := rfl

theorem tokensLoop_logged (g : ErrorList) : ∀ (f : Nat) (s : Scanner),
    tokensLoop f (s.logged g) = tokensLoop f s := by
  intro f
  induction f with
  | zero => intro s; rfl
  | succ f ih =>
    intro s
    simp only [tokensLoop, Scanner.Scan_logged]
    cases s.Scan with
    | none => rfl
    | some r =>
      simp only [Option.map_some']
      show (if r.tok = Token.EOF then 0 else tokensLoop f (r.s.logged g) + 1) = _
      rw [ih]

theorem Scanner.tokens_logged (g : ErrorList) (s : Scanner) : (s.logged g).tokens = s.tokens :=
  tokensLoop_logged g _ s

/-- The tokens left do not depend on the errors recorded. -/
theorem Scanner.tokens_errs (s : Scanner) (l : ErrorList) :
    ({ s with errs := l } : Scanner).tokens = s.tokens := by
  have h1 : ({ s with errs := l } : Scanner) = ({ s with errs := [] } : Scanner).logged l := by
    simp [Scanner.logged]
  have h2 : s = ({ s with errs := [] } : Scanner).logged s.errs := by
    simp [Scanner.logged]
  rw [h1, Scanner.tokens_logged]
  conv_rhs => rw [h2, Scanner.tokens_logged]
/-! ### The account of `Scan` calls -/

theorem Cost.comp {E1 S1 K1 E2 S2 K2 E S K n t n1 t1 n2 t2 : Nat}
    (hc : (E1 + E2 ≤ E ∨ 0 < t) ∧ S + E2 ≤ S1 ∧ S ≤ S2 + 15 * K1 ∧ K ≤ K1 + K2 ∧ K1 ≤ 1)
    (h1 : Cost E1 S1 K1 n t n1 t1) (h2 : Cost E2 S2 K2 n1 t1 n2 t2) : Cost E S K n t n2 t2 := by
  unfold Cost at *
  obtain ⟨a1, a2, a3, a4⟩ := h1
  obtain ⟨b1, b2, b3, b4⟩ := h2
  refine ⟨by omega, fun h => ?_, fun h h' => ?_, fun h h' => ?_⟩
  · have := a2 h
    have := b2 this.1
    omega
  · rcases Nat.eq_zero_or_pos t1 with z | z
    · have := b2 z
      omega
    · have := a3 h z
      have := b3 z h'
      omega
  · rcases Nat.eq_zero_or_pos t1 with z | z
    · have := a4 h z
      have := b2 z
      omega
    · have := a3 h z
      have := b4 z h'
      rcases Nat.eq_zero_or_pos K1 with k | k
      · omega
      · have : K1 = 1 := by omega
        subst this
        omega

theorem Cost.cut {E1 S1 K1 E S K n t n1 : Nat}
    (hc : (E1 ≤ E ∨ 0 < t) ∧ S ≤ S1) (h1 : Cost E1 S1 K1 n t n1 0) : Cost E S K n t n1 0 := by
  unfold Cost at *
  obtain ⟨a1, a2, a3, a4⟩ := h1
  refine ⟨a1, fun h => ?_, fun h h' => absurd h' (lt_irrefl _), fun h _ => ?_⟩
  · have := a2 h
    omega
  · have := a4 h rfl
    omega

theorem Cost.mono {E1 S1 K1 E S K n t n1 t1 : Nat}
    (hc : (E1 ≤ E ∨ 0 < t) ∧ S ≤ S1 ∧ K ≤ K1) (h1 : Cost E1 S1 K1 n t n1 t1) :
    Cost E S K n t n1 t1 := by
  unfold Cost at *
  obtain ⟨a1, a2, a3, a4⟩ := h1
  refine ⟨a1, fun h => ?_, fun h h' => ?_, fun h h' => ?_⟩
  · have := a2 h
    omega
  · have := a3 h h'
    omega
  · have := a4 h h'
    omega

theorem Cost.same (E S n t : Nat) : Cost E S 0 n t n t := by
  unfold Cost
  refine ⟨le_refl _, fun h => ⟨h, by omega⟩, fun _ _ => ⟨rfl, le_refl _⟩, fun h h' => by omega⟩

theorem Cost.stop (E S K n t : Nat) (hs : S ≤ 16) : Cost E S K n t n 0 := by
  unfold Cost
  refine ⟨le_refl _, fun _ => ⟨rfl, by omega⟩, fun _ h' => absurd h' (lt_irrefl _),
    fun h _ => by omega⟩

theorem parser.Frame.here (b : Bool) {p : parser} (hp : p.Inv) : p.Frame b p :=
  ⟨hp, rfl, le_refl _, ⟨[], by simp, fun _ => by simp⟩, fun _ => rfl, fun h => h⟩

theorem parser.Frame.chain {b : Bool} {p q r : parser} (h1 : p.Frame b q) (h2 : q.Frame b r) :
    p.Frame b r := by
  obtain ⟨l1, e1, m1⟩ := h1.errs
  obtain ⟨l2, e2, m2⟩ := h2.errs
  refine ⟨h2.inv, h2.mode.trans h1.mode, le_trans h1.pos h2.pos, ⟨l1 ++ l2, ?_, ?_⟩, ?_,
    fun h => h2.sync (h1.sync h)⟩
  · rw [e2, e1, List.append_assoc]
  · intro hb e he
    rcases List.mem_append.mp he with h | h
    · exact m1 hb e h
    · exact m2 hb e h
  · intro hb
    rw [h2.imports hb, h1.imports hb]

theorem parser.Frame.weakenB {b : Bool} {p q : parser} (h : p.Frame true q) : p.Frame b q := by
  obtain ⟨l1, e1, m1⟩ := h.errs
  exact ⟨h.inv, h.mode, h.pos, ⟨l1, e1, fun _ => m1 rfl⟩, fun _ => h.imports rfl, h.sync⟩

theorem Res.Good.frame {α : Type} {c b : Bool} {E S K : Nat} {p q : parser} {a : α}
    (h : Res.Good c b E S K p (.ok a q)) : p.Frame b q := by
  cases h
  assumption

theorem Res.Good.inv {α : Type} {c b : Bool} {E S K : Nat} {p q : parser} {a : α}
    (h : Res.Good c b E S K p (.ok a q)) : q.Inv := h.frame.inv

theorem Res.Good.cost {α : Type} {c b : Bool} {E S K : Nat} {p q : parser} {a : α}
    (h : Res.Good c b E S K p (.ok a q)) : Cost E S K p.nscan p.left q.nscan q.left := by
  cases h
  assumption

theorem Res.Good.not_outOfFuel {α : Type} {c b : Bool} {E S K : Nat} {p : parser}
    (h : Res.Good c b E S K p (.outOfFuel : Res α)) : False := by
  cases h

/-- The account of a run that continues, from the state `q` it reached, with
a run `r`. -/
theorem Res.Good.after {β : Type} {c b : Bool} (E S K E1 S1 K1 E2 S2 K2 : Nat)
    {p q : parser} {r : Res β}
    (f1 : p.Frame b q) (c1 : Cost E1 S1 K1 p.nscan p.left q.nscan q.left)
    (g2 : Res.Good c b E2 S2 K2 q r)
    (hc : (E1 + E2 ≤ E ∨ 0 < p.left) ∧ S + E2 ≤ S1 ∧ S ≤ S2 + 15 * K1 ∧ K ≤ K1 + K2 ∧ K1 ≤ 1) :
    Res.Good c b E S K p r := by
  cases g2 with
  | ok c r f2 c2 => exact .ok c r (f1.chain f2) (Cost.comp hc c1 c2)
  | panicked e r hy he hm c2 =>
    refine .panicked e r hy he ?_ (Cost.comp hc c1 c2)
    rw [← f1.mode]
    exact hm

/-- The account of a run that ended in a panic, seen as the run of a method
with another result type. -/
theorem Res.Good.panicCut {α β : Type} {c b : Bool} (E S K E1 S1 K1 : Nat) {p q : parser}
    {e : Panic} (h1 : Res.Good c b E1 S1 K1 p (.panicked e q : Res α))
    (hc : (E1 ≤ E ∨ 0 < p.left) ∧ S ≤ S1) :
    Res.Good c b E S K p (.panicked e q : Res β) := by
  cases h1 with
  | panicked _ _ hy he hm c1 => exact .panicked _ _ hy he hm (Cost.cut hc c1)

theorem Res.Good.bind {α β : Type} {c b : Bool} (E S K E1 S1 K1 E2 S2 K2 : Nat)
    {m : P α} {f : α → P β} {p : parser}
    (h1 : Res.Good c b E1 S1 K1 p (m p))
    (h2 : ∀ a q, m p = .ok a q → p.Frame b q → Res.Good c b E2 S2 K2 q (f a q))
    (hc : (E1 + E2 ≤ E ∨ 0 < p.left) ∧ S + E2 ≤ S1 ∧ S ≤ S2 + 15 * K1 ∧ K ≤ K1 + K2 ∧ K1 ≤ 1) :
    Res.Good c b E S K p ((m >>= f) p) := by
  rw [P.bind_apply]
  unfold P.bind
  cases hm : m p with
  | ok a q =>
    rw [hm] at h1
    exact Res.Good.after E S K E1 S1 K1 E2 S2 K2 h1.frame h1.cost (h2 a q hm h1.frame) hc
  | panicked e q =>
    rw [hm] at h1
    exact Res.Good.panicCut E S K E1 S1 K1 h1 ⟨by omega, by omega⟩
  | outOfFuel =>
    rw [hm] at h1
    exact h1.not_outOfFuel.elim

theorem Res.Good.anyB {α : Type} {c b : Bool} (E S K E1 S1 K1 : Nat) {r : Res α}
    {p : parser} (h1 : Res.Good c true E1 S1 K1 p r)
    (hc : (E1 ≤ E ∨ 0 < p.left) ∧ S ≤ S1 ∧ K ≤ K1) :
    Res.Good c b E S K p r := by
  cases h1 with
  | ok a q f c => exact .ok a q f.weakenB (Cost.mono hc c)
  | panicked e q hy he hm c => exact .panicked e q hy he hm (Cost.cut ⟨hc.1, hc.2.1⟩ c)

theorem Res.Good.weaken {α : Type} {c b : Bool} (E S K E1 S1 K1 : Nat) {r : Res α}
    {p : parser} (h1 : Res.Good c b E1 S1 K1 p r)
    (hc : (E1 ≤ E ∨ 0 < p.left) ∧ S ≤ S1 ∧ K ≤ K1) :
    Res.Good c b E S K p r := by
  cases h1 with
  | ok a q f c => exact .ok a q f (Cost.mono hc c)
  | panicked e q hy he hm c => exact .panicked e q hy he hm (Cost.cut ⟨hc.1, hc.2.1⟩ c)

theorem Res.Good.pure {α : Type} (c b : Bool) (E S : Nat) (a : α) {p : parser} (hp : p.Inv) :
    Res.Good c b E S 0 p ((pure a : P α) p) :=
  .ok a p (parser.Frame.here b hp) (Cost.same E S _ _)

theorem parser.left_le (p : parser) (hp : p.Inv) : p.left ≤ 2 * p.scanner.src.length + 4 := by
  unfold parser.left
  have := p.scanner.tokens_le hp.scan
  have := p.scanner.measure_le
  split_ifs <;> omega

theorem lexMsg_synMsg {m : GoString} (h : lexMsg m = true) : synMsg m = true := by
  simp [synMsg, h]

namespace parser

theorem next0_good (c : Bool) (p : parser) (hp : p.Inv) : Res.Good c true 1 15 1 p (next0 p) := by
  unfold next0
  obtain ⟨r, e, pr⟩ := Scanner.Scan_post hp.scan
  simp only [e]
  obtain ⟨l, el, ml⟩ := pr.errs
  refine .ok _ _ ⟨⟨pr.inv, pr.atEnd, pr.posHi⟩, rfl, ?_,
    ⟨l, el, fun _ e he => lexMsg_synMsg (ml e he)⟩, fun _ => rfl, fun h => h⟩ ?_
  · have := hp.pos
    have := pr.posLo
    show p.pos ≤ r.pos
    omega
  · obtain ⟨t1, t2⟩ := Scanner.tokens_scan hp.scan e
    unfold Cost parser.left
    simp only
    by_cases h0 : p.tok = .EOF
    · obtain ⟨r2, e2, ht, _⟩ := Scanner.Scan_eof hp.scan (hp.atEnd h0).1 (hp.atEnd h0).2
      rw [e] at e2
      cases e2
      simp [h0, ht]
    · by_cases h1 : r.tok = .EOF
      · have := t1 h1
        simp [h0, h1, this]
      · have := t2 h1
        simp only [h0, h1, if_false]
        omega

end parser

/-! ### The methods that read tokens -/

theorem Cost.lt {E S n t n1 t1 : Nat} (h : Cost E S 1 n t n1 t1) (ht : 0 < t) : t1 < t := by
  unfold Cost at h
  obtain ⟨a1, a2, a3, a4⟩ := h
  rcases Nat.eq_zero_or_pos t1 with z | z
  · omega
  · have := a3 ht z
    omega

theorem Cost.le {E S K n t n1 t1 : Nat} (h : Cost E S K n t n1 t1) : t1 ≤ t := by
  unfold Cost at h
  obtain ⟨a1, a2, a3, a4⟩ := h
  rcases Nat.eq_zero_or_pos t with z0 | z0
  · have := a2 z0
    omega
  · rcases Nat.eq_zero_or_pos t1 with z | z
    · omega
    · have := a3 z0 z
      omega

theorem parser.Inv.of_same {p q : parser} (hp : p.Inv) (h1 : q.scanner = p.scanner)
    (h2 : q.tok = p.tok) (h3 : q.pos = p.pos) : q.Inv :=
  ⟨by rw [h1]; exact hp.scan, by rw [h1, h2]; exact hp.atEnd, by rw [h1, h3]; exact hp.pos⟩

theorem parser.left_of_eq {p q : parser} (h1 : q.scanner = p.scanner) (h2 : q.tok = p.tok) :
    q.left = p.left := by
  unfold parser.left
  rw [h1, h2]

theorem parser.Frame.of_fields (b : Bool) {p q : parser} (hp : p.Inv) (h1 : q.scanner = p.scanner)
    (h2 : q.tok = p.tok) (h3 : q.pos = p.pos) (h4 : q.mode = p.mode)
    (h5 : q.imports = p.imports) (h7 : q.syncCnt = p.syncCnt) : p.Frame b q :=
  ⟨hp.of_same h1 h2 h3, h4, by rw [h3], ⟨[], by simp [parser.errors, h1], fun _ => by simp⟩,
    fun _ => h5, fun h => by rw [h7]; exact h⟩

theorem parser.Frame.left_eq {b : Bool} {p p1 q : parser} (h : p1.Frame b q)
    (h1 : p1.scanner = p.scanner) (h3 : p1.pos = p.pos) (h4 : p1.mode = p.mode)
    (h5 : p1.imports = p.imports) (h7 : p1.syncCnt = p.syncCnt) : p.Frame b q := by
  obtain ⟨l, e, m⟩ := h.errs
  refine ⟨h.inv, h.mode.trans h4, by rw [← h3]; exact h.pos, ⟨l, ?_, m⟩, fun hb => ?_,
    fun hs => h.sync (by rw [h7]; exact hs)⟩
  · rw [e]
    simp [parser.errors, h1]
  · rw [h.imports hb, h5]

theorem parser.Frame.right_eq {b : Bool} {p q q1 : parser} (h : p.Frame b q)
    (h1 : q1.scanner = q.scanner) (h2 : q1.tok = q.tok) (h3 : q1.pos = q.pos)
    (h4 : q1.mode = q.mode) (h5 : q1.imports = q.imports) (h7 : q1.syncCnt = q.syncCnt) :
    p.Frame b q1 :=
  h.chain (parser.Frame.of_fields b h.inv h1 h2 h3 h4 h5 h7)

/-- A method that returns in a state with the scanner, the token, the
position, the mode, the imports and the call count of the start. -/
theorem Res.Good.ok_eq {α : Type} (c b : Bool) (E S : Nat) (a : α) {p q : parser} (hp : p.Inv)
    (h1 : q.scanner = p.scanner) (h2 : q.tok = p.tok) (h3 : q.pos = p.pos)
    (h4 : q.mode = p.mode) (h5 : q.imports = p.imports) (h6 : q.nscan = p.nscan)
    (h7 : q.syncCnt = p.syncCnt) : Res.Good c b E S 0 p (.ok a q) := by
  refine .ok a q (parser.Frame.of_fields b hp h1 h2 h3 h4 h5 h7) ?_
  rw [parser.left_of_eq h1 h2, h6]
  exact Cost.same _ _ _ _

/-- The start state of a run may be replaced by one with the same scanner,
token, position, mode, imports and call count. -/
theorem Res.Good.of_start {α : Type} {c b : Bool} {E S K : Nat} {r : Res α} {p p1 : parser}
    (h : Res.Good c b E S K p1 r) (h1 : p1.scanner = p.scanner) (h2 : p1.tok = p.tok)
    (h3 : p1.pos = p.pos) (h4 : p1.mode = p.mode) (h5 : p1.imports = p.imports)
    (h6 : p1.nscan = p.nscan) (h7 : p1.syncCnt = p.syncCnt) : Res.Good c b E S K p r := by
  have hl := parser.left_of_eq h1 h2
  cases h with
  | ok a q f c =>
    refine .ok a q (f.left_eq h1 h3 h4 h5 h7) ?_
    rw [← hl, ← h6]
    exact c
  | panicked e q hy he hm c =>
    refine .panicked e q hy he ?_ ?_
    · rw [← h4]
      exact hm
    · rw [← hl, ← h6]
      exact c

/-- The end state of a run that returned may be replaced likewise. -/
theorem Res.Good.of_end {α β : Type} {c b : Bool} {E S K : Nat} {a : α} (x : β)
    {p q q1 : parser}
    (h : Res.Good c b E S K p (.ok a q)) (h1 : q1.scanner = q.scanner) (h2 : q1.tok = q.tok)
    (h3 : q1.pos = q.pos) (h4 : q1.mode = q.mode) (h5 : q1.imports = q.imports)
    (h6 : q1.nscan = q.nscan) (h7 : q1.syncCnt = q.syncCnt) :
    Res.Good c b E S K p (.ok x q1) := by
  refine .ok x q1 (h.frame.right_eq h1 h2 h3 h4 h5 h7) ?_
  rw [parser.left_of_eq h1 h2, h6]
  exact h.cost

/-- The account of a run that returned, followed by a run from the state it
reached. -/
theorem Res.Good.andThen {α β : Type} {c b : Bool} (E S K E1 S1 K1 E2 S2 K2 : Nat)
    {r : Res α} {r2 : Res β} {p q : parser} {a : α}
    (h1 : Res.Good c b E1 S1 K1 p r) (h : r = .ok a q)
    (h2 : p.Frame b q → Cost E1 S1 K1 p.nscan p.left q.nscan q.left → Res.Good c b E2 S2 K2 q r2)
    (hc : (E1 + E2 ≤ E ∨ 0 < p.left) ∧ S + E2 ≤ S1 ∧ S ≤ S2 + 15 * K1 ∧ K ≤ K1 + K2 ∧ K1 ≤ 1) :
    Res.Good c b E S K p r2 := by
  subst h
  exact Res.Good.after E S K E1 S1 K1 E2 S2 K2 h1.frame h1.cost (h2 h1.frame h1.cost) hc

/-- The account of a run that ended in a panic. -/
theorem Res.Good.panicStop {α β : Type} {c b : Bool} (E S K E1 S1 K1 : Nat)
    {r : Res α} {p q : parser} {e : Panic}
    (h1 : Res.Good c b E1 S1 K1 p r) (h : r = .panicked e q)
    (hc : (E1 ≤ E ∨ 0 < p.left) ∧ S ≤ S1) :
    Res.Good c b E S K p (.panicked e q : Res β) := by
  subst h
  exact Res.Good.panicCut E S K E1 S1 K1 h1 hc

/-- A run within the account did not run out of fuel. -/
theorem Res.Good.noFuel {α : Type} {c b : Bool} {E S K : Nat} {r : Res α} {p : parser} {Q : Prop}
    (h1 : Res.Good c b E S K p r) (h : r = .outOfFuel) : Q := by
  subst h
  exact h1.not_outOfFuel.elim

theorem parser.left_pos {p : parser} (h : p.tok ≠ .EOF) : 0 < p.left := by
  unfold parser.left
  rw [if_neg h]
  omega

theorem parser.left_eq_zero {p : parser} (h : p.tok = .EOF) : p.left = 0 := by
  unfold parser.left
  rw [if_pos h]

theorem parser.tokens_lt_fuel (p : parser) (hp : p.Inv) : p.left + 1 < p.fuel := by
  have := p.left_le hp
  unfold parser.fuel
  omega

theorem Res.Good.getP_bind {β : Type} {c b : Bool} {E S K : Nat} {f : parser → P β} {p : parser}
    (h : Res.Good c b E S K p (f p p)) : Res.Good c b E S K p ((getP >>= f) p) := h

namespace parser

theorem addError_good (c b : Bool) (E S : Nat) (p : parser) (hp : p.Inv) (epos : Position)
    (msg : GoString) (hm : b = true → synMsg msg = true) :
    Res.Good c b E S 0 p (.ok () (p.addError epos msg) : Res Unit) := by
  have hl : (p.addError epos msg).left = p.left := by
    unfold parser.left addError
    simp only
    rw [Scanner.tokens_errs]
  refine .ok _ _ ⟨⟨hp.scan.of_eq rfl rfl rfl rfl, hp.atEnd, hp.pos⟩, rfl, le_refl _,
    ⟨[⟨epos, msg⟩], rfl, fun hb e he => ?_⟩, fun _ => rfl, fun h => h⟩ ?_
  · rw [List.mem_singleton.mp he]
    exact hm hb
  · rw [hl]
    exact Cost.same _ _ _ _

theorem error_good (b : Bool) (pos : Nat) (msg : GoString) (p : parser) (hp : p.Inv)
    (hm : b = true → synMsg msg = true) : Res.Good true b 0 16 0 p (error pos msg p) := by
  unfold error
  simp only
  by_cases h : p.mode &&& AllErrors = 0
  · rw [if_pos h]
    split_ifs
    · exact Res.Good.pure true b 0 16 () hp
    · exact .panicked _ _ rfl rfl h (Cost.stop _ _ _ _ _ (le_refl _))
    · exact addError_good true b 0 16 p hp _ _ hm
  · rw [if_neg h]
    exact addError_good true b 0 16 p hp _ _ hm

theorem synMsg_expected (x : GoString) : synMsg (str "expected " ++ x) = true := by
  have h : str "expected " = 101 :: 120 :: str "pected " := by decide
  rw [h]
  simp only [synMsg, List.cons_append, List.take_succ_cons, List.take_zero]
  exact (by decide : (lexMsg [101, 120] || ([101, 120] : GoString) == str "ex") = true)

theorem errorExpected_good (b : Bool) (pos : Nat) (msg : GoString) (p : parser) (hp : p.Inv) :
    Res.Good true b 0 16 0 p (errorExpected pos msg p) := by
  unfold errorExpected
  simp only
  refine error_good b pos _ p hp (fun _ => ?_)
  split_ifs
  · rw [List.append_assoc]
    exact synMsg_expected _
  · rw [List.append_assoc, List.append_assoc]
    exact synMsg_expected _
  · rw [List.append_assoc, List.append_assoc, List.append_assoc]
    exact synMsg_expected _
  · exact synMsg_expected _

theorem consumeComment_good (c : Bool) (p : parser) (hp : p.Inv) :
    Res.Good c true 1 15 1 p (consumeComment p) := by
  have g := next0_good c p hp
  unfold consumeComment
  simp only
  split
  next _ q h =>
    exact Res.Good.andThen 1 15 1 1 15 1 0 15 0 g h (fun f _ => Res.Good.pure c true 0 15 _ f.inv)
      ⟨Or.inl (by omega), by omega, by omega, by omega, by omega⟩
  next e q h => exact Res.Good.panicStop 1 15 1 1 15 1 g h ⟨Or.inl (by omega), by omega⟩
  next h => exact g.noFuel h

theorem consumeCommentGroupLoop_good (c : Bool) (n : Nat) : ∀ (fuel : Nat) (list : List Comment)
    (endline : Int) (p : parser), p.Inv → p.left < fuel →
    Res.Good c true 0 15 0 p (consumeCommentGroupLoop n fuel list endline p) := by
  intro fuel
  induction fuel with
  | zero => intro _ _ p _ h; omega
  | succ fuel ih =>
    intro list endline p hp hf
    unfold consumeCommentGroupLoop
    split_ifs with hc
    · have hpos : 0 < p.left := parser.left_pos (by rw [hc.1]; decide)
      have g := consumeComment_good c p hp
      split
      next cm e q h =>
        exact Res.Good.andThen 0 15 0 1 15 1 0 15 0 g h
          (fun f c => ih _ _ q f.inv (by have := Cost.lt c hpos; omega))
          ⟨Or.inr hpos, by omega, by omega, by omega, by omega⟩
      next e q h => exact Res.Good.panicStop 0 15 0 1 15 1 g h ⟨Or.inr hpos, by omega⟩
      next h => exact g.noFuel h
    · exact Res.Good.pure c true 0 15 _ hp

theorem consumeCommentGroup_good (c : Bool) (n : Nat) (p : parser) (hp : p.Inv) (ht : p.tok = .COMMENT) :
    Res.Good c true 0 15 1 p (consumeCommentGroup n p) := by
  have hpos : 0 < p.left := parser.left_pos (by rw [ht]; decide)
  obtain ⟨f, hf⟩ : ∃ f, p.fuel = f + 1 := ⟨p.fuel - 1, by have := p.tokens_lt_fuel hp; omega⟩
  have hguard : p.tok = .COMMENT ∧
      Int.ofNat (p.file.Line p.pos) ≤ Int.ofNat (p.file.Line p.pos) + Int.ofNat n :=
    ⟨ht, by have : (0 : Int) ≤ Int.ofNat n := Int.ofNat_nonneg n; omega⟩
  have key : Res.Good c true 0 15 1 p
      (consumeCommentGroupLoop n p.fuel [] (Int.ofNat (p.file.Line p.pos)) p) := by
    rw [hf]
    unfold consumeCommentGroupLoop
    rw [if_pos hguard]
    have g := consumeComment_good c p hp
    split
    next cm e q h =>
      exact Res.Good.andThen 0 15 1 1 15 1 0 15 0 g h
        (fun fr hcost => consumeCommentGroupLoop_good c n f _ _ q fr.inv
          (by have := Cost.lt hcost hpos; have := p.tokens_lt_fuel hp; omega))
        ⟨Or.inr hpos, by omega, by omega, by omega, by omega⟩
    next e q h => exact Res.Good.panicStop 0 15 1 1 15 1 g h ⟨Or.inr hpos, by omega⟩
    next h => exact g.noFuel h
  unfold consumeCommentGroup
  split
  next list e q h =>
    rw [h] at key
    exact Res.Good.of_end _ key rfl rfl rfl rfl rfl rfl rfl
  next e q h => exact Res.Good.panicStop 0 15 1 0 15 1 key h ⟨Or.inl (by omega), by omega⟩
  next h => exact key.noFuel h

theorem nextLoop_good (c : Bool) : ∀ (fuel : Nat) (comment : Option CommentGroup) (endline : Int)
    (p : parser), p.Inv → p.left < fuel →
    Res.Good c true 0 15 0 p (nextLoop fuel comment endline p) := by
  intro fuel
  induction fuel with
  | zero => intro _ _ p _ h; omega
  | succ fuel ih =>
    intro comment endline p hp hf
    unfold nextLoop
    split_ifs with hc
    · have hpos : 0 < p.left := parser.left_pos (by rw [hc]; decide)
      have g := consumeCommentGroup_good c 1 p hp hc
      split
      next cm e q h =>
        exact Res.Good.andThen 0 15 0 0 15 1 0 15 0 g h
          (fun f c => ih _ _ q f.inv (by have := Cost.lt c hpos; omega))
          ⟨Or.inr hpos, by omega, by omega, by omega, by omega⟩
      next e q h => exact Res.Good.panicStop 0 15 0 0 15 1 g h ⟨Or.inr hpos, by omega⟩
      next h => exact g.noFuel h
    · exact Res.Good.pure c true 0 15 _ hp

theorem next_good (c : Bool) (p : parser) (hp : p.Inv) : Res.Good c true 1 15 1 p (next p) := by
  have g0 : Res.Good c true 1 15 1 p
      (next0 { p with leadComment := none, lineComment := none }) :=
    Res.Good.of_start (next0_good c _ (hp.of_same rfl rfl rfl)) rfl rfl rfl rfl rfl rfl rfl
  unfold next
  simp only
  split
  next e q h => exact Res.Good.panicStop 1 15 1 1 15 1 g0 h ⟨Or.inl (by omega), by omega⟩
  next h => exact g0.noFuel h
  next _ q h0 =>
    rw [h0] at g0
    have hq := g0.inv
    by_cases hc : q.tok = .COMMENT
    · rw [if_pos hc]
      have g1 : ∀ (r : Res (Option CommentGroup)),
          (if q.file.Line q.pos = q.file.Line p.pos then
            match consumeCommentGroup 0 q with
            | .ok (comment, endline) p1 =>
              if Int.ofNat (p1.file.Line p1.pos) ≠ endline ∨ p1.tok = .EOF then
                .ok (some comment) { p1 with lineComment := some comment }
              else .ok (some comment) p1
            | .panicked e p1 => .panicked e p1
            | .outOfFuel => .outOfFuel
          else (.ok none q : Res (Option CommentGroup))) = r → Res.Good c true 0 15 0 q r := by
        intro r hr
        rw [← hr]
        split_ifs with hl
        · have g := consumeCommentGroup_good c 0 q hq hc
          split
          next cm e q1 h =>
            rw [h] at g
            split_ifs
            · exact Res.Good.weaken 0 15 0 0 15 1 (Res.Good.of_end _ g rfl rfl rfl rfl rfl rfl rfl)
                ⟨Or.inl (by omega), by omega, by omega⟩
            · exact Res.Good.weaken 0 15 0 0 15 1 (Res.Good.of_end _ g rfl rfl rfl rfl rfl rfl rfl) ⟨Or.inl (by omega), by omega, by omega⟩
          next e q1 h => exact Res.Good.panicStop 0 15 0 0 15 1 g h ⟨Or.inl (by omega), by omega⟩
          next h => exact g.noFuel h
        · exact Res.Good.pure c true 0 15 _ hq
      split
      next e q1 h =>
        exact Res.Good.after 1 15 1 1 15 1 0 15 0 g0.frame g0.cost
          (Res.Good.panicStop 0 15 0 0 15 0 (g1 _ h) rfl ⟨Or.inl (by omega), by omega⟩)
          ⟨Or.inl (by omega), by omega, by omega, by omega, by omega⟩
      next h => exact (g1 _ h).noFuel rfl
      next comment q1 h =>
        have g1 := g1 _ h
        have g2 := nextLoop_good c q1.fuel comment (-1) q1 g1.inv
          (by have := q1.tokens_lt_fuel g1.inv; omega)
        have g12 : Res.Good c true 0 15 0 q (nextLoop q1.fuel comment (-1) q1) :=
          Res.Good.after 0 15 0 0 15 0 0 15 0 g1.frame g1.cost g2
            ⟨Or.inl (by omega), by omega, by omega, by omega, by omega⟩
        have g3 : Res.Good c true 1 15 1 p (nextLoop q1.fuel comment (-1) q1) :=
          Res.Good.after 1 15 1 1 15 1 0 15 0 g0.frame g0.cost g12
            ⟨Or.inl (by omega), by omega, by omega, by omega, by omega⟩
        split
        next e q2 h2 => exact Res.Good.panicStop 1 15 1 1 15 1 g3 h2 ⟨Or.inl (by omega), by omega⟩
        next h2 => exact g3.noFuel h2
        next c2 e2 q2 h2 =>
          rw [h2] at g3
          split_ifs
          · exact Res.Good.of_end () g3 rfl rfl rfl rfl rfl rfl rfl
          · exact Res.Good.of_end () g3 rfl rfl rfl rfl rfl rfl rfl
    · rw [if_neg hc]
      exact g0

theorem expect_good (tok : Token) (p : parser) (hp : p.Inv) :
    Res.Good true true 1 15 1 p (expect tok p) := by
  unfold expect
  refine Res.Good.getP_bind ?_
  have tail : ∀ (q : parser), q.Inv →
      Res.Good true true 1 15 1 q ((next >>= fun _ => (pure p.pos : P Nat)) q) := fun q hq =>
    Res.Good.bind 1 15 1 1 15 1 0 15 0 (next_good true q hq)
      (fun _ q2 _ hq2 => Res.Good.pure true true 0 15 _ hq2.inv)
      ⟨Or.inl (by omega), by omega, by omega, by omega, by omega⟩
  split_ifs
  · exact Res.Good.bind 1 15 1 0 16 0 1 15 1 (errorExpected_good true _ _ p hp)
      (fun _ q _ hq => tail q hq.inv)
      ⟨Or.inl (by omega), by omega, by omega, by omega, by omega⟩
  · exact tail p hp

end parser

/-! ### `advance`, `expectSemi` and `parseIdent` -/

/-- A run within an account that allows no panic returned. -/
theorem Res.Good.returns {α : Type} {b : Bool} {E S K : Nat} {r : Res α} {p : parser}
    (h : Res.Good false b E S K p r) :
    ∃ a q, r = .ok a q ∧ p.Frame b q ∧ Cost E S K p.nscan p.left q.nscan q.left := by
  cases h with
  | ok a q f c => exact ⟨a, q, rfl, f, c⟩
  | panicked _ _ hy => cases hy

/-- A method that returns in a state that differs from the start in the fields
`syncPos` and `syncCnt` at most. -/
theorem Res.Good.ok_sync {α : Type} (c b : Bool) (E S : Nat) (a : α) {p q : parser} (hp : p.Inv)
    (h1 : q.scanner = p.scanner) (h2 : q.tok = p.tok) (h3 : q.pos = p.pos)
    (h4 : q.mode = p.mode) (h5 : q.imports = p.imports) (h6 : q.nscan = p.nscan)
    (h7 : q.syncCnt ≤ 10) : Res.Good c b E S 0 p (.ok a q) := by
  refine .ok a q ⟨hp.of_same h1 h2 h3, h4, by rw [h3],
    ⟨[], by simp [parser.errors, h1], fun _ => by simp⟩, fun _ => h5, fun _ => h7⟩ ?_
  rw [parser.left_of_eq h1 h2, h6]
  exact Cost.same _ _ _ _

namespace parser

theorem advanceLoop_good (c : Bool) (to_ : Token → Bool) : ∀ (fuel : Nat) (p : parser),
    p.Inv → p.left < fuel → Res.Good c true 0 15 0 p (advanceLoop to_ fuel p) := by
  intro fuel
  induction fuel with
  | zero => intro p _ h; omega
  | succ fuel ih =>
    intro p hp hf
    have step : p.tok ≠ .EOF → Res.Good c true 0 15 0 p
        (match next p with
          | .ok _ p1 => advanceLoop to_ fuel p1
          | .panicked e p1 => .panicked e p1
          | .outOfFuel => .outOfFuel) := by
      intro h0
      have hpos : 0 < p.left := parser.left_pos h0
      have g := next_good c p hp
      split
      next _ q h =>
        exact Res.Good.andThen 0 15 0 1 15 1 0 15 0 g h
          (fun f hcost => ih q f.inv (by have := Cost.lt hcost hpos; omega))
          ⟨Or.inr hpos, by omega, by omega, by omega, by omega⟩
      next e q h => exact Res.Good.panicStop 0 15 0 1 15 1 g h ⟨Or.inr hpos, by omega⟩
      next h => exact g.noFuel h
    unfold advanceLoop
    split_ifs with h0 h1 h2 h3
    · exact Res.Good.ok_sync c true 0 15 () hp rfl rfl rfl rfl rfl rfl
        (by show p.syncCnt + 1 ≤ 10; omega)
    · exact Res.Good.ok_sync c true 0 15 () hp rfl rfl rfl rfl rfl rfl (Nat.zero_le _)
    · exact step h0
    · exact step h0
    · exact Res.Good.pure c true 0 15 _ hp

theorem advance_good (c : Bool) (to_ : Token → Bool) (p : parser) (hp : p.Inv) :
    Res.Good c true 0 15 0 p (advance to_ p) := by
  unfold advance
  exact advanceLoop_good c to_ _ p hp (by have := p.tokens_lt_fuel hp; omega)

/-- The fuel of `advance` is positive. -/
theorem fuel_succ (p : parser) : ∃ f, p.fuel = f + 1 :=
  ⟨p.fuel - 1, by unfold parser.fuel; omega⟩

theorem advance_eof (to_ : Token → Bool) (p : parser) (h : p.tok = .EOF) :
    advance to_ p = .ok () p := by
  obtain ⟨f, hf⟩ := p.fuel_succ
  unfold advance
  rw [hf]
  unfold advanceLoop
  rw [if_neg (not_not.mpr h)]

theorem advance_count (to_ : Token → Bool) (p : parser) (h0 : p.tok ≠ .EOF)
    (h1 : to_ p.tok = true) (h2 : p.pos = p.syncPos ∧ p.syncCnt < 10) :
    advance to_ p = .ok () { p with syncCnt := p.syncCnt + 1 } := by
  obtain ⟨f, hf⟩ := p.fuel_succ
  unfold advance
  rw [hf]
  unfold advanceLoop
  rw [if_pos h0, if_pos h1, if_pos h2]

theorem advance_sync (to_ : Token → Bool) (p : parser) (h0 : p.tok ≠ .EOF)
    (h1 : to_ p.tok = true) (h2 : ¬ (p.pos = p.syncPos ∧ p.syncCnt < 10))
    (h3 : p.syncPos < p.pos) :
    advance to_ p = .ok () { p with syncPos := p.pos, syncCnt := 0 } := by
  obtain ⟨f, hf⟩ := p.fuel_succ
  unfold advance
  rw [hf]
  unfold advanceLoop
  rw [if_pos h0, if_pos h1, if_neg h2, if_pos h3]

/-- When `advance` neither counts a call without progress nor synchronizes at
a new position, it reads on: fewer tokens are left when it returns. -/
theorem advance_skip (to_ : Token → Bool) (p : parser) (hp : p.Inv) (h0 : p.tok ≠ .EOF)
    (h : ¬ (to_ p.tok = true ∧ ((p.pos = p.syncPos ∧ p.syncCnt < 10) ∨ p.syncPos < p.pos))) :
    ∃ q, advance to_ p = .ok () q ∧ q.left < p.left := by
  obtain ⟨f, hf⟩ := p.fuel_succ
  have hpos : 0 < p.left := parser.left_pos h0
  have step : ∃ q, (match next p with
          | .ok _ p1 => advanceLoop to_ f p1
          | .panicked e p1 => .panicked e p1
          | .outOfFuel => .outOfFuel) = .ok () q ∧ q.left < p.left := by
    obtain ⟨_, q1, e1, f1, c1⟩ := (next_good false p hp).returns
    have l1 := Cost.lt c1 hpos
    rw [e1]
    obtain ⟨_, q, e, fr, cq⟩ := (advanceLoop_good false to_ f q1 f1.inv
      (by have := p.tokens_lt_fuel hp; omega)).returns
    exact ⟨q, e, by have := Cost.le cq; omega⟩
  unfold advance
  rw [hf]
  unfold advanceLoop
  rw [if_pos h0]
  by_cases h1 : to_ p.tok = true
  · rw [if_pos h1]
    have h2 : ¬ (p.pos = p.syncPos ∧ p.syncCnt < 10) := fun h2 => h ⟨h1, Or.inl h2⟩
    have h3 : ¬ p.syncPos < p.pos := fun h3 => h ⟨h1, Or.inr h3⟩
    rw [if_neg h2, if_neg h3]
    exact step
  · rw [if_neg h1]
    exact step

end parser
namespace parser

theorem expectSemi_good (p : parser) (hp : p.Inv) :
    Res.Good true true 0 15 0 p (expectSemi p) := by
  unfold expectSemi
  refine Res.Good.getP_bind ?_
  split_ifs with h1 h2 h3
  · have hpos : 0 < p.left := parser.left_pos (by rw [h2]; decide)
    exact Res.Good.bind 0 15 0 0 16 0 1 15 1 (errorExpected_good true _ _ p hp)
      (fun _ q _ hq => next_good true q hq.inv)
      ⟨Or.inr hpos, by omega, by omega, by omega, by omega⟩
  · have hpos : 0 < p.left := parser.left_pos (by rw [h3]; decide)
    exact Res.Good.weaken 0 15 0 1 15 1 (next_good true p hp) ⟨Or.inr hpos, by omega, by omega⟩
  · exact Res.Good.bind 0 15 0 0 16 0 0 15 0 (errorExpected_good true _ _ p hp)
      (fun _ q _ hq => advance_good true _ q hq.inv)
      ⟨Or.inl (by omega), by omega, by omega, by omega, by omega⟩
  · exact Res.Good.pure true true 0 15 _ hp

theorem parseIdent_good (p : parser) (hp : p.Inv) :
    Res.Good true true 1 15 1 p (parseIdent p) := by
  unfold parseIdent
  refine Res.Good.getP_bind ?_
  split_ifs with h1
  · exact Res.Good.bind 1 15 1 1 15 1 0 15 0 (next_good true p hp)
      (fun _ q _ hq => Res.Good.pure true true 0 15 _ hq.inv)
      ⟨Or.inl (by omega), by omega, by omega, by omega, by omega⟩
  · exact Res.Good.bind 1 15 1 1 15 1 0 15 0 (expect_good _ p hp)
      (fun _ q _ hq => Res.Good.pure true true 0 15 _ hq.inv)
      ⟨Or.inl (by omega), by omega, by omega, by omega, by omega⟩

end parser
namespace parser

/-- A run of `pure` followed by `f` is the run of `f`. -/
theorem pure_bind_good {α β : Type} {c b : Bool} {E S K : Nat} {a : α} {f : α → P β}
    {p : parser} (h : Res.Good c b E S K p (f a p)) :
    Res.Good c b E S K p ((pure a >>= f) p) := h

theorem expectSemi_pure_good {α : Type} (a : α) (p : parser) (hp : p.Inv) :
    Res.Good true true 0 15 0 p ((expectSemi >>= fun _ => (pure a : P α)) p) :=
  Res.Good.bind 0 15 0 0 15 0 0 15 0 (expectSemi_good p hp)
    (fun _ q _ hq => Res.Good.pure true true 0 15 _ hq.inv)
    ⟨Or.inl (by omega), by omega, by omega, by omega, by omega⟩

theorem parseSyntax_good (p : parser) (hp : p.Inv) :
    Res.Good true true 3 13 1 p (parseSyntax p) := by
  unfold parseSyntax
  refine Res.Good.bind 3 13 1 1 15 1 2 14 1 (expect_good _ p hp) (fun _ q1 _ h1 => ?_)
    ⟨Or.inl (by omega), by omega, by omega, by omega, by omega⟩
  refine Res.Good.bind 2 14 1 1 15 1 1 15 1 (expect_good _ q1 h1.inv) (fun _ q2 _ h2 => ?_)
    ⟨Or.inl (by omega), by omega, by omega, by omega, by omega⟩
  refine Res.Good.getP_bind ?_
  split_ifs
  · exact Res.Good.bind 1 15 1 1 15 1 0 15 0 (next_good true q2 h2.inv)
      (fun _ q _ hq => pure_bind_good (expectSemi_pure_good _ q hq.inv))
      ⟨Or.inl (by omega), by omega, by omega, by omega, by omega⟩
  · exact Res.Good.bind 1 15 1 1 15 1 0 15 0 (expect_good _ q2 h2.inv)
      (fun _ q _ hq => pure_bind_good (expectSemi_pure_good _ q hq.inv))
      ⟨Or.inl (by omega), by omega, by omega, by omega, by omega⟩

theorem apiPathLoop_good (c : Bool) : ∀ (fuel : Nat) (name : GoString) (p : parser),
    p.Inv → p.left < fuel → Res.Good c true 0 15 0 p (apiPathLoop fuel name p) := by
  intro fuel
  induction fuel with
  | zero => intro _ p _ h; omega
  | succ fuel ih =>
    intro name p hp hf
    unfold apiPathLoop
    by_cases h0 : p.tok ≠ .EOF
    · rw [if_pos h0]
      have hpos : 0 < p.left := parser.left_pos h0
      have g := next_good c p hp
      simp only
      generalize (if p.tok = .QUO ∨ p.tok = .COLON then name ++ p.tok.String
        else name ++ p.lit) = name1
      split
      next _ q h =>
        refine Res.Good.andThen 0 15 0 1 15 1 0 15 0 g h (fun f hcost => ?_)
          ⟨Or.inr hpos, by omega, by omega, by omega, by omega⟩
        split_ifs
        · exact Res.Good.pure c true 0 15 _ f.inv
        · exact ih _ q f.inv (by have := Cost.lt hcost hpos; omega)
      next e q h => exact Res.Good.panicStop 0 15 0 1 15 1 g h ⟨Or.inr hpos, by omega⟩
      next h => exact g.noFuel h
    · rw [if_neg h0]
      exact Res.Good.pure c true 0 15 _ hp

theorem apiSubLoop_good (c : Bool) : ∀ (fuel : Nat) (name : GoString) (p : parser),
    p.Inv → p.left < fuel → Res.Good c true 0 14 0 p (apiSubLoop fuel name p) := by
  intro fuel
  induction fuel with
  | zero => intro _ p _ h; omega
  | succ fuel ih =>
    intro name p hp hf
    unfold apiSubLoop
    split_ifs with h0
    · have hpos : 0 < p.left := parser.left_pos (by rw [h0]; decide)
      have g := next_good c p hp
      split
      next _ q h =>
        refine Res.Good.andThen 0 14 0 1 15 1 1 15 0 g h (fun f hcost => ?_)
          ⟨Or.inr hpos, by omega, by omega, by omega, by omega⟩
        have g2 := next_good c q f.inv
        split
        next _ q2 h2 =>
          exact Res.Good.andThen 1 15 0 1 15 1 0 14 0 g2 h2
            (fun f2 hcost2 => ih _ q2 f2.inv
              (by have := Cost.lt hcost hpos; have := Cost.le hcost2; omega))
            ⟨Or.inl (by omega), by omega, by omega, by omega, by omega⟩
        next e q2 h2 => exact Res.Good.panicStop 1 15 0 1 15 1 g2 h2 ⟨Or.inl (by omega), by omega⟩
        next h2 => exact g2.noFuel h2
      next e q h => exact Res.Good.panicStop 0 14 0 1 15 1 g h ⟨Or.inr hpos, by omega⟩
      next h => exact g.noFuel h
    · exact Res.Good.pure c true 0 14 _ hp

/-- The path loop of `parseApiIdent` consumes a token when one is left. -/
theorem apiPathLoop_first (c : Bool) (name : GoString) (p : parser) (hp : p.Inv)
    (h0 : p.tok ≠ .EOF) : Res.Good c true 0 15 1 p (apiPathLoop p.fuel name p) := by
  obtain ⟨f, hf⟩ := p.fuel_succ
  have hpos : 0 < p.left := parser.left_pos h0
  have hfuel := p.tokens_lt_fuel hp
  rw [hf]
  unfold apiPathLoop
  rw [if_pos h0]
  have g := next_good c p hp
  simp only
  generalize (if p.tok = .QUO ∨ p.tok = .COLON then name ++ p.tok.String
    else name ++ p.lit) = name1
  split
  next _ q h =>
    refine Res.Good.andThen 0 15 1 1 15 1 0 15 0 g h (fun fr hcost => ?_)
      ⟨Or.inr hpos, by omega, by omega, by omega, by omega⟩
    split_ifs
    · exact Res.Good.pure c true 0 15 _ fr.inv
    · exact apiPathLoop_good c f _ q fr.inv (by have := Cost.lt hcost hpos; omega)
  next e q h => exact Res.Good.panicStop 0 15 1 1 15 1 g h ⟨Or.inr hpos, by omega⟩
  next h => exact g.noFuel h

theorem parseApiIdent_good (p : parser) (hp : p.Inv) :
    Res.Good true true 1 15 1 p (parseApiIdent p) := by
  unfold parseApiIdent
  simp only
  split_ifs with h1 h2 h3
  · have h0 : p.tok ≠ .EOF := by rw [h1]; decide
    have hpos : 0 < p.left := parser.left_pos h0
    have g := apiPathLoop_first true [] p hp h0
    split
    next _ q h =>
      exact Res.Good.andThen 1 15 1 0 15 1 0 15 0 g h
        (fun f _ => Res.Good.pure true true 0 15 _ f.inv)
        ⟨Or.inr hpos, by omega, by omega, by omega, by omega⟩
    next e q h => exact Res.Good.panicStop 1 15 1 0 15 1 g h ⟨Or.inr hpos, by omega⟩
    next h => exact g.noFuel h
  · have g := next_good true p hp
    split
    next _ q h =>
      exact Res.Good.andThen 1 15 1 1 15 1 0 15 0 g h
        (fun f _ => Res.Good.pure true true 0 15 _ f.inv)
        ⟨Or.inl (by omega), by omega, by omega, by omega, by omega⟩
    next e q h => exact Res.Good.panicStop 1 15 1 1 15 1 g h ⟨Or.inl (by omega), by omega⟩
    next h => exact g.noFuel h
  · have hpos : 0 < p.left := parser.left_pos (by rw [h3]; decide)
    have g := next_good true p hp
    split
    next _ q h =>
      refine Res.Good.andThen 1 15 1 1 15 1 0 14 0 g h (fun f hcost => ?_)
        ⟨Or.inr hpos, by omega, by omega, by omega, by omega⟩
      have g2 := apiSubLoop_good true q.fuel p.lit q f.inv
        (by have := q.tokens_lt_fuel f.inv; omega)
      split
      next _ q2 h2 =>
        exact Res.Good.andThen 0 14 0 0 14 0 0 14 0 g2 h2
          (fun f2 _ => Res.Good.pure true true 0 14 _ f2.inv)
          ⟨Or.inl (by omega), by omega, by omega, by omega, by omega⟩
      next e q2 h2 => exact Res.Good.panicStop 0 14 0 0 14 0 g2 h2 ⟨Or.inl (by omega), by omega⟩
      next h2 => exact g2.noFuel h2
    next e q h => exact Res.Good.panicStop 1 15 1 1 15 1 g h ⟨Or.inr hpos, by omega⟩
    next h => exact g.noFuel h
  · have g := expect_good .IDENT p hp
    split
    next _ q h =>
      exact Res.Good.andThen 1 15 1 1 15 1 0 15 0 g h
        (fun f _ => Res.Good.pure true true 0 15 _ f.inv)
        ⟨Or.inl (by omega), by omega, by omega, by omega, by omega⟩
    next e q h => exact Res.Good.panicStop 1 15 1 1 15 1 g h ⟨Or.inl (by omega), by omega⟩
    next h => exact g.noFuel h

end parser
namespace parser

/-- A method that returns in a state that differs from the start in the import
list at most. -/
theorem modP_good (c : Bool) (E S : Nat) (f : parser → parser) (p : parser)
    (hp : p.Inv) (h1 : (f p).scanner = p.scanner) (h2 : (f p).tok = p.tok)
    (h3 : (f p).pos = p.pos) (h4 : (f p).mode = p.mode) (h6 : (f p).nscan = p.nscan)
    (h7 : (f p).syncCnt = p.syncCnt) : Res.Good c false E S 0 p (modP f p) := by
  refine .ok () (f p) ⟨hp.of_same h1 h2 h3, h4, by rw [h3],
    ⟨[], by simp [parser.errors, h1], fun h => Bool.noConfusion h⟩, fun h => Bool.noConfusion h,
    fun h => h7 ▸ h⟩ ?_
  rw [parser.left_of_eq h1 h2, h6]
  exact Cost.same _ _ _ _

theorem parseImportSpec_good (doc : Option CommentGroup) (p : parser) (hp : p.Inv) :
    Res.Good true false 1 15 1 p (parseImportSpec doc p) := by
  unfold parseImportSpec
  refine Res.Good.getP_bind ?_
  have tail : ∀ (path : GoString) (q : parser), q.Inv → Res.Good true false 0 15 0 q
      ((do
        expectSemi
        let p1 ← getP
        let spec : ImportSpec := ⟨doc, ⟨p.pos, .STRING, path⟩, p1.lineComment, 0⟩
        modP (fun q => { q with imports := q.imports ++ [spec] })
        pure (Spec.ImportSpec spec) : P Spec) q) := by
    intro path q hq
    refine Res.Good.bind 0 15 0 0 15 0 0 15 0
      (Res.Good.anyB 0 15 0 0 15 0 (expectSemi_good q hq) ⟨Or.inl (by omega), by omega, by omega⟩)
      (fun _ q2 _ h2 => ?_) ⟨Or.inl (by omega), by omega, by omega, by omega, by omega⟩
    refine Res.Good.getP_bind ?_
    exact Res.Good.bind 0 15 0 0 15 0 0 15 0
      (modP_good true 0 15 _ q2 h2.inv rfl rfl rfl rfl rfl rfl)
      (fun _ q3 _ h3 => Res.Good.pure true false 0 15 _ h3.inv)
      ⟨Or.inl (by omega), by omega, by omega, by omega, by omega⟩
  have tail1 : ∀ (q : parser), q.Inv → Res.Good true false 1 15 1 q
      ((do
        next
        let y ← pure p.lit
        (fun path => do
          expectSemi
          let p1 ← getP
          let spec : ImportSpec := ⟨doc, ⟨p.pos, .STRING, path⟩, p1.lineComment, 0⟩
          modP (fun q => { q with imports := q.imports ++ [spec] })
          pure (Spec.ImportSpec spec) : GoString → P Spec) y) q) := by
    intro q hq
    exact Res.Good.bind 1 15 1 1 15 1 0 15 0
      (Res.Good.anyB 1 15 1 1 15 1 (next_good true q hq) ⟨Or.inl (by omega), by omega, by omega⟩)
      (fun _ q2 _ h2 => pure_bind_good (tail _ q2 h2.inv))
      ⟨Or.inl (by omega), by omega, by omega, by omega, by omega⟩
  split_ifs with h1 h2
  · exact pure_bind_good (tail1 p hp)
  · exact Res.Good.bind 1 15 1 0 16 0 1 15 1 (error_good false _ _ p hp (fun h => Bool.noConfusion h))
      (fun _ q _ hq => tail1 q hq.inv)
      ⟨Or.inl (by omega), by omega, by omega, by omega, by omega⟩
  · exact Res.Good.bind 1 15 1 1 15 1 0 15 0
      (Res.Good.anyB 1 15 1 1 15 1 (expect_good _ p hp) ⟨Or.inl (by omega), by omega, by omega⟩)
      (fun _ q2 _ h2 => pure_bind_good (tail _ q2 h2.inv))
      ⟨Or.inl (by omega), by omega, by omega, by omega, by omega⟩

end parser
namespace parser

theorem parseTypeName_tail_good (ident1 : Ident) (p : parser) (hp : p.Inv) :
    Res.Good true true 0 14 0 p
      ((do
        let p ← getP
        if p.tok = .PERIOD then
          next
          let sel ← parseIdent
          pure (Expr.SelectorExpr (.Ident ident1) sel)
        else pure (Expr.Ident ident1) : P Expr) p) := by
  refine Res.Good.getP_bind ?_
  split_ifs with h
  · have hpos : 0 < p.left := parser.left_pos (by rw [h]; decide)
    refine Res.Good.bind 0 14 0 1 15 1 1 15 1 (next_good true p hp) (fun _ q _ hq => ?_)
      ⟨Or.inr hpos, by omega, by omega, by omega, by omega⟩
    exact Res.Good.bind 1 15 1 1 15 1 0 15 0 (parseIdent_good q hq.inv)
      (fun _ q2 _ h2 => Res.Good.pure true true 0 15 _ h2.inv)
      ⟨Or.inl (by omega), by omega, by omega, by omega, by omega⟩
  · exact Res.Good.pure true true 0 14 _ hp

theorem parseTypeName_none_good (p : parser) (hp : p.Inv) :
    Res.Good true true 1 15 1 p (parseTypeName none p) := by
  unfold parseTypeName
  exact Res.Good.bind 1 15 1 1 15 1 0 14 0 (parseIdent_good p hp)
    (fun i q _ hq => parseTypeName_tail_good i q hq.inv)
    ⟨Or.inl (by omega), by omega, by omega, by omega, by omega⟩

theorem parseQualifiedIdent_good (ident : Ident) (p : parser) (hp : p.Inv) :
    Res.Good true true 0 14 0 p (parseQualifiedIdent ident p) := by
  unfold parseQualifiedIdent parseTypeName
  exact pure_bind_good (parseTypeName_tail_good ident p hp)

theorem fieldNamesLoop_good : ∀ (fuel : Nat) (names : List Ident) (p : parser),
    p.Inv → p.left < fuel → Res.Good true true 0 14 0 p (fieldNamesLoop fuel names p) := by
  intro fuel
  induction fuel with
  | zero => intro _ p _ h; omega
  | succ fuel ih =>
    intro names p hp hf
    unfold fieldNamesLoop
    split_ifs with h0
    · have hpos : 0 < p.left := parser.left_pos (by rw [h0]; decide)
      have g := next_good true p hp
      split
      next _ q h =>
        refine Res.Good.andThen 0 14 0 1 15 1 1 15 0 g h (fun f hcost => ?_)
          ⟨Or.inr hpos, by omega, by omega, by omega, by omega⟩
        have g2 := parseIdent_good q f.inv
        split
        next _ q2 h2 =>
          exact Res.Good.andThen 1 15 0 1 15 1 0 14 0 g2 h2
            (fun f2 hcost2 => ih _ q2 f2.inv
              (by have := Cost.lt hcost hpos; have := Cost.le hcost2; omega))
            ⟨Or.inl (by omega), by omega, by omega, by omega, by omega⟩
        next e q2 h2 => exact Res.Good.panicStop 1 15 0 1 15 1 g2 h2 ⟨Or.inl (by omega), by omega⟩
        next h2 => exact g2.noFuel h2
      next e q h => exact Res.Good.panicStop 0 14 0 1 15 1 g h ⟨Or.inr hpos, by omega⟩
      next h => exact g.noFuel h
    · exact Res.Good.pure true true 0 14 _ hp

theorem fieldNames_good (names : List Ident) (p : parser) (hp : p.Inv) :
    Res.Good true true 0 14 0 p (fieldNamesLoop p.fuel names p) :=
  fieldNamesLoop_good _ _ p hp (by have := p.tokens_lt_fuel hp; omega)

end parser
namespace parser

theorem parseTypeF_good (n : Nat) (ih : TypeGood n) (p : parser) (hp : p.Inv)
    (hn : 5 * p.left + 2 ≤ n + 1) :
    Res.Good true true 0 13 (startsType p.tok).toNat p (parseTypeF (n + 1) p) := by
  unfold parseTypeF
  refine Res.Good.bind 0 13 _ 0 13 (startsType p.tok).toNat 0 15 0
    (ih.tryType p hp (by omega)) (fun typ q _ hq => ?_)
    ⟨Or.inl (by omega), by omega, by omega, by omega, by cases startsType p.tok <;> decide⟩
  cases typ with
  | none =>
    refine Res.Good.getP_bind ?_
    refine Res.Good.bind 0 15 0 0 16 0 0 15 0 (errorExpected_good true _ _ q hq.inv)
      (fun _ q2 _ h2 => ?_) ⟨Or.inl (by omega), by omega, by omega, by omega, by omega⟩
    refine Res.Good.bind 0 15 0 0 15 0 0 15 0 (advance_good true _ q2 h2.inv)
      (fun _ q3 _ h3 => ?_) ⟨Or.inl (by omega), by omega, by omega, by omega, by omega⟩
    refine Res.Good.getP_bind ?_
    exact Res.Good.pure true true 0 15 _ h3.inv
  | some t => exact Res.Good.pure true true 0 15 _ hq.inv

theorem parseArrayTypeF_good (n : Nat) (ih : TypeGood n) (lbrack : Nat) (len : Option Expr)
    (p : parser) (hp : p.Inv) (hn : 5 * p.left + 3 ≤ n + 1) :
    Res.Good true true 1 15 0 p (parseArrayTypeF (n + 1) lbrack len p) := by
  unfold parseArrayTypeF
  have g := expect_good .LBRACK p hp
  refine Res.Good.bind 1 15 0 1 15 1 0 13 0 g (fun _ q e hq => ?_)
    ⟨Or.inl (by omega), by omega, by omega, by omega, by omega⟩
  rw [e] at g
  have hle := Cost.le g.cost
  refine Res.Good.bind 0 13 0 0 13 (startsType q.tok).toNat 0 13 0
    (ih.typ q hq.inv (by omega)) (fun _ q2 _ h2 => Res.Good.pure true true 0 13 _ h2.inv)
    ⟨Or.inl (by omega), by omega, by omega, by omega, by cases startsType q.tok <;> decide⟩

theorem parsePointerTypeF_good (n : Nat) (ih : TypeGood n) (p : parser) (hp : p.Inv)
    (ht : p.tok = .MUL) (hn : 5 * p.left ≤ n + 1) :
    Res.Good true true 0 15 1 p (parsePointerTypeF (n + 1) p) := by
  have hpos : 0 < p.left := parser.left_pos (by rw [ht]; decide)
  unfold parsePointerTypeF
  have g := expect_good .MUL p hp
  refine Res.Good.bind 0 15 1 1 15 1 0 13 0 g (fun _ q e hq => ?_)
    ⟨Or.inr hpos, by omega, by omega, by omega, by omega⟩
  rw [e] at g
  have hlt := Cost.lt g.cost hpos
  refine Res.Good.bind 0 13 0 0 13 (startsType q.tok).toNat 0 13 0
    (ih.typ q hq.inv (by omega)) (fun _ q2 _ h2 => Res.Good.pure true true 0 13 _ h2.inv)
    ⟨Or.inl (by omega), by omega, by omega, by omega, by cases startsType q.tok <;> decide⟩

end parser
namespace parser

theorem toNat_le_one (b : Bool) : b.toNat ≤ 1 := by cases b <;> decide

/-- The account of `parseType` followed by a method `k` that makes at most one
`Scan` call at the end of the input. -/
theorem parseTypeF_then {α : Type} (n : Nat) (ih : TypeGood n) (k : Expr → P α) (p : parser)
    (hp : p.Inv) (hn : 5 * p.left + 2 ≤ n)
    (hk : ∀ t q, q.Inv → q.left ≤ p.left → Res.Good true true 1 15 0 q (k t q)) :
    Res.Good true true 1 12 0 p ((parseTypeF n >>= k) p) := by
  have g := ih.typ p hp hn
  refine Res.Good.bind 1 12 0 0 13 (startsType p.tok).toNat 1 15 0 g
    (fun t q e hq => ?_) ⟨Or.inl (by omega), by omega, by omega, by omega, toNat_le_one _⟩
  rw [e] at g
  exact hk t q hq.inv (Cost.le g.cost)

theorem parseTypeF_pure {α : Type} (n : Nat) (ih : TypeGood n) (k : Expr → α) (p : parser)
    (hp : p.Inv) (hn : 5 * p.left + 2 ≤ n) :
    Res.Good true true 0 13 0 p ((parseTypeF n >>= fun t => (pure (k t) : P α)) p) :=
  Res.Good.bind 0 13 0 0 13 (startsType p.tok).toNat 0 13 0 (ih.typ p hp hn)
    (fun t q _ hq => Res.Good.pure true true 0 13 _ hq.inv)
    ⟨Or.inl (by omega), by omega, by omega, by omega, toNat_le_one _⟩

theorem expect_pure_good {α : Type} (tok : Token) (k : Nat → α) (p : parser) (hp : p.Inv) :
    Res.Good true true 1 15 1 p ((expect tok >>= fun x => (pure (k x) : P α)) p) :=
  Res.Good.bind 1 15 1 1 15 1 0 15 0 (expect_good tok p hp)
    (fun _ q _ hq => Res.Good.pure true true 0 15 _ hq.inv)
    ⟨Or.inl (by omega), by omega, by omega, by omega, by omega⟩

theorem parseMapTypeF_good (n : Nat) (ih : TypeGood n) (p : parser) (hp : p.Inv)
    (ht : p.tok = .MAP) (hn : 5 * p.left ≤ n + 1) :
    Res.Good true true 0 13 1 p (parseMapTypeF (n + 1) p) := by
  have hpos : 0 < p.left := parser.left_pos (by rw [ht]; decide)
  unfold parseMapTypeF
  have g := expect_good .MAP p hp
  refine Res.Good.bind 0 13 1 1 15 1 2 14 0 g (fun _ q e hq => ?_)
    ⟨Or.inr hpos, by omega, by omega, by omega, by omega⟩
  rw [e] at g
  have hlt := Cost.lt g.cost hpos
  have g2 := expect_good .LBRACK q hq.inv
  refine Res.Good.bind 2 14 0 1 15 1 1 12 0 g2 (fun _ q2 e2 h2 => ?_)
    ⟨Or.inl (by omega), by omega, by omega, by omega, by omega⟩
  rw [e2] at g2
  have hle := Cost.le g2.cost
  refine parseTypeF_then n ih _ q2 h2.inv (by omega) (fun key q3 h3 hl3 => ?_)
  have g3 := expect_good .RBRACK q3 h3
  refine Res.Good.bind 1 15 0 1 15 1 0 13 0 g3 (fun _ q4 e4 h4 => ?_)
    ⟨Or.inl (by omega), by omega, by omega, by omega, by omega⟩
  rw [e4] at g3
  have hle4 := Cost.le g3.cost
  exact parseTypeF_pure n ih _ q4 h4.inv (by omega)

end parser
namespace parser

theorem tryIdentOrTypeF_good (n : Nat) (ih : TypeGood n) (p : parser) (hp : p.Inv)
    (hn : 5 * p.left + 1 ≤ n + 1) :
    Res.Good true true 0 13 (startsType p.tok).toNat p (tryIdentOrTypeF (n + 1) p) := by
  unfold tryIdentOrTypeF
  refine Res.Good.getP_bind ?_
  by_cases h0 : startsType p.tok = true
  · have hpos : 0 < p.left := parser.left_pos (by intro h; rw [h] at h0; exact absurd h0 (by decide))
    rw [h0]
    show Res.Good true true 0 13 1 p _
    split_ifs with h1 h2 h3 h4 h5 h6
    · exact Res.Good.bind 0 13 1 1 15 1 0 15 0 (parseTypeName_none_good p hp)
        (fun _ q _ hq => Res.Good.pure true true 0 15 _ hq.inv)
        ⟨Or.inr hpos, by omega, by omega, by omega, by omega⟩
    · have g := expect_good .LBRACK p hp
      refine Res.Good.bind 0 13 1 1 15 1 1 15 0 g (fun _ q e hq => ?_)
        ⟨Or.inr hpos, by omega, by omega, by omega, by omega⟩
      rw [e] at g
      have hlt := Cost.lt g.cost hpos
      exact Res.Good.bind 1 15 0 1 15 0 0 15 0 (ih.array _ _ q hq.inv (by omega))
        (fun _ q2 _ h2 => Res.Good.pure true true 0 15 _ h2.inv)
        ⟨Or.inl (by omega), by omega, by omega, by omega, by omega⟩
    · exact Res.Good.bind 0 13 1 0 13 1 0 15 0 (ih.struct p hp h3 (by omega))
        (fun _ q _ hq => Res.Good.pure true true 0 15 _ hq.inv)
        ⟨Or.inr hpos, by omega, by omega, by omega, by omega⟩
    · exact Res.Good.bind 0 13 1 0 15 1 0 15 0 (ih.pointer p hp h4 (by omega))
        (fun _ q _ hq => Res.Good.pure true true 0 15 _ hq.inv)
        ⟨Or.inr hpos, by omega, by omega, by omega, by omega⟩
    · exact Res.Good.bind 0 13 1 0 13 1 0 15 0 (ih.map p hp h5 (by omega))
        (fun _ q _ hq => Res.Good.pure true true 0 15 _ hq.inv)
        ⟨Or.inr hpos, by omega, by omega, by omega, by omega⟩
    · have g := next_good true p hp
      refine Res.Good.bind 0 13 1 1 15 1 1 12 0 g (fun _ q e hq => ?_)
        ⟨Or.inr hpos, by omega, by omega, by omega, by omega⟩
      rw [e] at g
      have hlt := Cost.lt g.cost hpos
      exact parseTypeF_then n ih _ q hq.inv (by omega) (fun t q2 h2 _ =>
        Res.Good.weaken 1 15 0 1 15 1 (expect_pure_good _ _ q2 h2)
          ⟨Or.inl (by omega), by omega, by omega⟩)
    · exfalso
      revert h0
      unfold startsType
      simp only [h1, h2, h4, h5, h6, not_or.mp h3, or_self, decide_False]
      decide
  · rw [Bool.not_eq_true] at h0
    rw [h0]
    have h1 : p.tok ≠ .IDENT := by intro h; rw [h] at h0; exact absurd h0 (by decide)
    have h2 : p.tok ≠ .LBRACK := by intro h; rw [h] at h0; exact absurd h0 (by decide)
    have h3 : ¬ (p.tok = .STRUCT ∨ p.tok = .LBRACE) := by
      rintro (h | h) <;> rw [h] at h0 <;> exact absurd h0 (by decide)
    have h4 : p.tok ≠ .MUL := by intro h; rw [h] at h0; exact absurd h0 (by decide)
    have h5 : p.tok ≠ .MAP := by intro h; rw [h] at h0; exact absurd h0 (by decide)
    have h6 : p.tok ≠ .LPAREN := by intro h; rw [h] at h0; exact absurd h0 (by decide)
    rw [if_neg h1, if_neg h2, if_neg h3, if_neg h4, if_neg h5, if_neg h6]
    exact Res.Good.pure true true 0 13 _ hp

end parser
namespace parser

theorem expectSemi_getP_good {α : Type} (k : parser → α) (p : parser) (hp : p.Inv) :
    Res.Good true true 0 15 0 p
      ((expectSemi >>= fun _ => getP >>= fun p3 => (pure (k p3) : P α)) p) :=
  Res.Good.bind 0 15 0 0 15 0 0 15 0 (expectSemi_good p hp)
    (fun _ q _ hq => Res.Good.getP_bind (Res.Good.pure true true 0 15 _ hq.inv))
    ⟨Or.inl (by omega), by omega, by omega, by omega, by omega⟩

theorem parseFieldDeclF_good (n : Nat) (ih : TypeGood n) (p : parser) (hp : p.Inv)
    (ht : p.tok = .IDENT ∨ p.tok = .MUL ∨ p.tok = .LPAREN) (hn : 5 * p.left + 3 ≤ n + 1) :
    Res.Good true true 0 13 1 p (parseFieldDeclF (n + 1) p) := by
  have hpos : 0 < p.left := parser.left_pos (by rcases ht with h | h | h <;> rw [h] <;> decide)
  have tail : ∀ (nt : List Ident × Expr) (q : parser), q.Inv → Res.Good true true 0 15 0 q
      ((do
        let p2 ← getP
        let tag ←
          if p2.tok = .STRING then do
            next
            pure (some (⟨p2.pos, p2.tok, p2.lit⟩ : BasicLit))
          else pure none
        expectSemi
        let p3 ← getP
        pure (Field.mk p.leadComment nt.1 nt.2 tag p3.lineComment) : P Field) q) := by
    intro nt q hq
    refine Res.Good.getP_bind ?_
    split_ifs with h
    · have hq0 : 0 < q.left := parser.left_pos (by rw [h]; decide)
      exact Res.Good.bind 0 15 0 1 15 1 0 15 0 (next_good true q hq)
        (fun _ q2 _ h2 => pure_bind_good (expectSemi_getP_good _ q2 h2.inv))
        ⟨Or.inr hq0, by omega, by omega, by omega, by omega⟩
    · exact pure_bind_good (expectSemi_getP_good _ q hq)
  unfold parseFieldDeclF
  refine Res.Good.getP_bind ?_
  split_ifs with h1
  · have g := parseIdent_good p hp
    refine Res.Good.bind 0 13 1 1 15 1 0 13 0 g (fun name q e hq => ?_)
      ⟨Or.inr hpos, by omega, by omega, by omega, by omega⟩
    rw [e] at g
    have hle := Cost.le g.cost
    refine Res.Good.getP_bind ?_
    split_ifs with h2 h3
    · exact Res.Good.bind 0 13 0 0 14 0 0 15 0 (parseQualifiedIdent_good name q hq.inv)
        (fun _ q2 _ h2 => pure_bind_good (tail _ q2 h2.inv))
        ⟨Or.inl (by omega), by omega, by omega, by omega, by omega⟩
    · exact Res.Good.weaken 0 13 0 0 15 0 (pure_bind_good (tail _ q hq.inv))
        ⟨Or.inl (by omega), by omega, by omega⟩
    · have g2 := fieldNames_good [name] q hq.inv
      refine Res.Good.bind 0 13 0 0 14 0 0 13 0 g2 (fun names q2 e2 h2 => ?_)
        ⟨Or.inl (by omega), by omega, by omega, by omega, by omega⟩
      rw [e2] at g2
      have hle2 := Cost.le g2.cost
      exact Res.Good.bind 0 13 0 0 13 (startsType q2.tok).toNat 0 15 0
        (ih.typ q2 h2.inv (by omega))
        (fun _ q3 _ h3 => pure_bind_good (tail _ q3 h3.inv))
        ⟨Or.inl (by omega), by omega, by omega, by omega, toNat_le_one _⟩
  · have hs : (startsType p.tok).toNat = 1 := by
      rcases ht with h | h | h
      · exact absurd h h1
      · rw [h]; rfl
      · rw [h]; rfl
    have g := ih.typ p hp (by omega)
    rw [hs] at g
    exact Res.Good.bind 0 13 1 0 13 1 0 15 0 g
      (fun _ q3 _ h3 => pure_bind_good (tail _ q3 h3.inv))
      ⟨Or.inr hpos, by omega, by omega, by omega, by omega⟩

theorem structFieldsF_good (n : Nat) (ih : TypeGood n) (list : List Field) (p : parser)
    (hp : p.Inv) (hn : 5 * p.left + 4 ≤ n + 1) :
    Res.Good true true 0 13 0 p (structFieldsF (n + 1) list p) := by
  unfold structFieldsF
  refine Res.Good.getP_bind ?_
  split_ifs with h
  · have hpos : 0 < p.left := parser.left_pos (by rcases h with h | h | h <;> rw [h] <;> decide)
    have g := ih.field p hp h (by omega)
    refine Res.Good.bind 0 13 0 0 13 1 0 13 0 g (fun _ q e hq => ?_)
      ⟨Or.inr hpos, by omega, by omega, by omega, by omega⟩
    rw [e] at g
    have hlt := Cost.lt g.cost hpos
    exact ih.fields _ q hq.inv (by omega)
  · exact Res.Good.pure true true 0 13 _ hp

theorem parseStructTypeF_good (n : Nat) (ih : TypeGood n) (p : parser) (hp : p.Inv)
    (ht : p.tok = .STRUCT ∨ p.tok = .LBRACE) (hn : 5 * p.left ≤ n + 1) :
    Res.Good true true 0 13 1 p (parseStructTypeF (n + 1) p) := by
  have hpos : 0 < p.left := parser.left_pos (by rcases ht with h | h <;> rw [h] <;> decide)
  have tail : ∀ (pl : Nat × Nat) (q : parser), q.Inv → 5 * q.left + 4 ≤ n →
      Res.Good true true 1 12 0 q
      ((do
        let list ← structFieldsF n []
        let rbrace ← expect .RBRACE
        pure (Expr.StructType pl.1 pl.2 list rbrace) : P Expr) q) := by
    intro pl q hq hn
    exact Res.Good.bind 1 12 0 0 13 0 1 15 1 (ih.fields [] q hq hn)
      (fun _ q2 _ h2 => expect_pure_good _ _ q2 h2.inv)
      ⟨Or.inl (by omega), by omega, by omega, by omega, by omega⟩
  unfold parseStructTypeF
  refine Res.Good.getP_bind ?_
  split_ifs with h1
  · have g := expect_good .STRUCT p hp
    refine Res.Good.bind 0 13 1 1 15 1 2 14 0 g (fun _ q e hq => ?_)
      ⟨Or.inr hpos, by omega, by omega, by omega, by omega⟩
    rw [e] at g
    have hlt := Cost.lt g.cost hpos
    have g2 := expect_good .LBRACE q hq.inv
    refine Res.Good.bind 2 14 0 1 15 1 1 12 0 g2 (fun _ q2 e2 h2 => ?_)
      ⟨Or.inl (by omega), by omega, by omega, by omega, by omega⟩
    rw [e2] at g2
    have hle := Cost.le g2.cost
    exact pure_bind_good (tail _ q2 h2.inv (by omega))
  · have g := expect_good .LBRACE p hp
    refine Res.Good.bind 0 13 1 1 15 1 1 12 0 g (fun _ q e hq => ?_)
      ⟨Or.inr hpos, by omega, by omega, by omega, by omega⟩
    rw [e] at g
    have hlt := Cost.lt g.cost hpos
    exact pure_bind_good (tail _ q hq.inv (by omega))

theorem TypeGood_all : ∀ n, TypeGood n := by
  intro n
  induction n with
  | zero =>
    refine ⟨fun p _ h => by omega, fun p _ h => by omega, fun p _ ht h => ?_,
      fun _ p _ h => by omega, fun p _ _ h => by omega, fun _ _ p _ h => by omega,
      fun p _ ht h => ?_, fun p _ ht h => ?_⟩
    · have := parser.left_pos (p := p) (by rcases ht with h | h <;> rw [h] <;> decide)
      omega
    · have := parser.left_pos (p := p) (by rw [ht]; decide)
      omega
    · have := parser.left_pos (p := p) (by rw [ht]; decide)
      omega
  | succ n ih =>
    exact ⟨parseTypeF_good n ih, tryIdentOrTypeF_good n ih, parseStructTypeF_good n ih,
      structFieldsF_good n ih, parseFieldDeclF_good n ih, parseArrayTypeF_good n ih,
      parsePointerTypeF_good n ih, parseMapTypeF_good n ih⟩

theorem parseType_good (p : parser) (hp : p.Inv) :
    Res.Good true true 0 13 0 p (parseType p) := by
  unfold parseType
  exact Res.Good.weaken 0 13 0 0 13 (startsType p.tok).toNat
    ((TypeGood_all _).typ p hp (by have := p.left_le hp; unfold parser.fuel; omega))
    ⟨Or.inl (by omega), by omega, by omega⟩

end parser

/-! ### Declarations -/

namespace parser

theorem parseTypeSpec_good (doc : Option CommentGroup) (p : parser) (hp : p.Inv) :
    Res.Good true true 1 15 1 p (parseTypeSpec doc p) := by
  unfold parseTypeSpec
  refine Res.Good.bind 1 15 1 1 15 1 0 13 0 (parseIdent_good p hp) (fun _ q _ hq => ?_)
    ⟨Or.inl (by omega), by omega, by omega, by omega, by omega⟩
  exact Res.Good.bind 0 13 0 0 13 0 0 15 0 (parseType_good q hq.inv)
    (fun _ q2 _ h2 => expectSemi_getP_good _ q2 h2.inv)
    ⟨Or.inl (by omega), by omega, by omega, by omega, by omega⟩

theorem genDeclLoop_good (b : Bool) (f : Option CommentGroup → P Spec)
    (hf : ∀ doc q, q.Inv → Res.Good true b 1 15 1 q (f doc q)) :
    ∀ (fuel : Nat) (list : List Spec) (p : parser), p.Inv → p.left < fuel →
      Res.Good true b 0 15 0 p (genDeclLoop f fuel list p) := by
  intro fuel
  induction fuel with
  | zero => intro _ p _ h; omega
  | succ fuel ih =>
    intro list p hp hl
    unfold genDeclLoop
    split_ifs with h0
    · have hpos : 0 < p.left := parser.left_pos h0.2
      have g := hf p.leadComment p hp
      split
      next _ q h =>
        exact Res.Good.andThen 0 15 0 1 15 1 0 15 0 g h
          (fun fr hcost => ih _ q fr.inv (by have := Cost.lt hcost hpos; omega))
          ⟨Or.inr hpos, by omega, by omega, by omega, by omega⟩
      next e q h => exact Res.Good.panicStop 0 15 0 1 15 1 g h ⟨Or.inr hpos, by omega⟩
      next h => exact g.noFuel h
    · exact Res.Good.pure true b 0 15 _ hp

theorem parseGenDecl_good (b : Bool) (keyword : Token) (f : Option CommentGroup → P Spec)
    (hf : ∀ doc q, q.Inv → Res.Good true b 1 15 1 q (f doc q)) (p : parser) (hp : p.Inv) :
    Res.Good true b 2 14 1 p (parseGenDecl keyword f p) := by
  unfold parseGenDecl
  refine Res.Good.getP_bind ?_
  refine Res.Good.bind 2 14 1 1 15 1 1 14 0
    (Res.Good.anyB 1 15 1 1 15 1 (expect_good _ p hp) ⟨Or.inl (by omega), by omega, by omega⟩)
    (fun pos q _ hq => ?_) ⟨Or.inl (by omega), by omega, by omega, by omega, by omega⟩
  refine Res.Good.getP_bind ?_
  split_ifs with h1
  · have hpos : 0 < q.left := parser.left_pos (by rw [h1]; decide)
    refine Res.Good.bind 1 14 0 1 15 1 1 14 0
      (Res.Good.anyB 1 15 1 1 15 1 (next_good true q hq.inv)
        ⟨Or.inl (by omega), by omega, by omega⟩)
      (fun _ q2 _ h2 => ?_) ⟨Or.inr hpos, by omega, by omega, by omega, by omega⟩
    refine Res.Good.bind 1 14 0 0 15 0 1 15 0
      (genDeclLoop_good b f hf _ [] q2 h2.inv (by have := q2.tokens_lt_fuel h2.inv; omega))
      (fun list q3 _ h3 => ?_) ⟨Or.inl (by omega), by omega, by omega, by omega, by omega⟩
    refine Res.Good.bind 1 15 0 1 15 1 0 15 0
      (Res.Good.anyB 1 15 1 1 15 1 (expect_good _ q3 h3.inv)
        ⟨Or.inl (by omega), by omega, by omega⟩)
      (fun _ q4 _ h4 => ?_) ⟨Or.inl (by omega), by omega, by omega, by omega, by omega⟩
    exact Res.Good.anyB 0 15 0 0 15 0 (expectSemi_pure_good _ q4 h4.inv)
      ⟨Or.inl (by omega), by omega, by omega⟩
  · exact Res.Good.bind 1 14 0 1 15 1 0 15 0 (hf _ q hq.inv)
      (fun _ q2 _ h2 => Res.Good.pure true b 0 15 _ h2.inv)
      ⟨Or.inl (by omega), by omega, by omega, by omega, by omega⟩

theorem parseElement_good (expectColon : Bool) (p : parser) (hp : p.Inv) :
    Res.Good true true 3 13 1 p (parseElement expectColon p) := by
  have tail : ∀ (key : Ident) (colon : Nat) (q : parser), q.Inv →
      Res.Good true true 1 15 1 q
      ((do
        let p ← getP
        let value ←
          if p.tok = .STRING then do
            next
            pure (Expr.BasicLit ⟨p.pos, .STRING, p.lit⟩)
          else do
            let i ← parseIdent
            pure (Expr.Ident i)
        pure ⟨key, colon, value⟩ : P KeyValueExpr) q) := by
    intro key colon q hq
    refine Res.Good.getP_bind ?_
    split_ifs with h
    · exact Res.Good.bind 1 15 1 1 15 1 0 15 0 (next_good true q hq)
        (fun _ q2 _ h2 => pure_bind_good (Res.Good.pure true true 0 15 _ h2.inv))
        ⟨Or.inl (by omega), by omega, by omega, by omega, by omega⟩
    · exact Res.Good.bind 1 15 1 1 15 1 0 15 0 (parseIdent_good q hq)
        (fun _ q2 _ h2 => pure_bind_good (Res.Good.pure true true 0 15 _ h2.inv))
        ⟨Or.inl (by omega), by omega, by omega, by omega, by omega⟩
  unfold parseElement
  refine Res.Good.bind 3 13 1 1 15 1 2 14 0 (parseApiIdent_good p hp) (fun key q _ hq => ?_)
    ⟨Or.inl (by omega), by omega, by omega, by omega, by omega⟩
  cases expectColon with
  | true =>
    exact Res.Good.bind 2 14 0 1 15 1 1 15 1 (expect_good _ q hq.inv)
      (fun _ q2 _ h2 => tail _ _ q2 h2.inv)
      ⟨Or.inl (by omega), by omega, by omega, by omega, by omega⟩
  | false =>
    exact Res.Good.weaken 2 14 0 1 15 1 (pure_bind_good (tail _ _ q hq.inv))
      ⟨Or.inl (by omega), by omega, by omega⟩

theorem elementListLoop_good : ∀ (fuel : Nat) (kvs : List KeyValueExpr) (p : parser),
    p.Inv → p.left < fuel → Res.Good true true 0 13 0 p (elementListLoop fuel kvs p) := by
  intro fuel
  induction fuel with
  | zero => intro _ p _ h; omega
  | succ fuel ih =>
    intro kvs p hp hl
    unfold elementListLoop
    split_ifs with h0
    · have hpos : 0 < p.left := parser.left_pos h0.2
      have g := parseElement_good true p hp
      split
      next kv q h =>
        refine Res.Good.andThen 0 13 0 3 13 1 0 13 0 g h (fun fr hcost => ?_)
          ⟨Or.inr hpos, by omega, by omega, by omega, by omega⟩
        have g2 := expectSemi_good q fr.inv
        split
        next _ q2 h2 =>
          exact Res.Good.andThen 0 13 0 0 15 0 0 13 0 g2 h2
            (fun fr2 hcost2 => ih _ q2 fr2.inv
              (by have := Cost.lt hcost hpos; have := Cost.le hcost2; omega))
            ⟨Or.inl (by omega), by omega, by omega, by omega, by omega⟩
        next e q2 h2 => exact Res.Good.panicStop 0 13 0 0 15 0 g2 h2 ⟨Or.inl (by omega), by omega⟩
        next h2 => exact g2.noFuel h2
      next e q h => exact Res.Good.panicStop 0 13 0 3 13 1 g h ⟨Or.inr hpos, by omega⟩
      next h => exact g.noFuel h
    · exact Res.Good.pure true true 0 13 _ hp

theorem parseElementList_good (p : parser) (hp : p.Inv) :
    Res.Good true true 0 13 0 p (parseElementList p) := by
  unfold parseElementList
  exact elementListLoop_good _ _ p hp (by have := p.tokens_lt_fuel hp; omega)

/-- The account of an element list, the closing parenthesis and the semicolon. -/
theorem elements_close_good {α : Type} (k : List KeyValueExpr → Nat → α) (p : parser)
    (hp : p.Inv) :
    Res.Good true true 1 12 0 p
      ((do
        let kvs ← parseElementList
        let endPos ← expect .RPAREN
        expectSemi
        pure (k kvs endPos) : P α) p) := by
  refine Res.Good.bind 1 12 0 0 13 0 1 15 0 (parseElementList_good p hp) (fun _ q _ hq => ?_)
    ⟨Or.inl (by omega), by omega, by omega, by omega, by omega⟩
  exact Res.Good.bind 1 15 0 1 15 1 0 15 0 (expect_good _ q hq.inv)
    (fun _ q2 _ h2 => expectSemi_pure_good _ q2 h2.inv)
    ⟨Or.inl (by omega), by omega, by omega, by omega, by omega⟩

theorem parseAtServer_good (p : parser) (hp : p.Inv) :
    Res.Good true true 2 14 1 p (parseAtServer p) := by
  unfold parseAtServer
  refine Res.Good.getP_bind ?_
  exact Res.Good.bind 2 14 1 1 15 1 1 12 0 (expect_good _ p hp)
    (fun _ q _ hq => elements_close_good _ q hq.inv)
    ⟨Or.inl (by omega), by omega, by omega, by omega, by omega⟩

theorem parseInfoType_good (p : parser) (hp : p.Inv) :
    Res.Good true true 3 13 1 p (parseInfoType p) := by
  unfold parseInfoType
  refine Res.Good.bind 3 13 1 1 15 1 2 14 1 (expect_good _ p hp) (fun _ q _ hq => ?_)
    ⟨Or.inl (by omega), by omega, by omega, by omega, by omega⟩
  exact Res.Good.bind 2 14 1 1 15 1 1 12 0 (expect_good _ q hq.inv)
    (fun _ q2 _ h2 => elements_close_good _ q2 h2.inv)
    ⟨Or.inl (by omega), by omega, by omega, by omega, by omega⟩

end parser
namespace parser

theorem parseRouteParen_good (p : parser) (hp : p.Inv) :
    Res.Good true true 0 14 0 p (parseRouteParen p) := by
  unfold parseRouteParen
  refine Res.Good.getP_bind ?_
  split_ifs with h
  · have hpos : 0 < p.left := parser.left_pos (by rw [h]; decide)
    refine Res.Good.bind 0 14 0 1 15 1 1 12 0 (next_good true p hp) (fun _ q _ hq => ?_)
      ⟨Or.inr hpos, by omega, by omega, by omega, by omega⟩
    refine Res.Good.bind 1 12 0 0 13 0 1 15 0 (parseType_good q hq.inv) (fun _ q2 _ h2 => ?_)
      ⟨Or.inl (by omega), by omega, by omega, by omega, by omega⟩
    exact Res.Good.weaken 1 15 0 1 15 1 (expect_pure_good _ _ q2 h2.inv)
      ⟨Or.inl (by omega), by omega, by omega⟩
  · exact Res.Good.pure true true 0 14 _ hp

theorem parseRoute_good (p : parser) (hp : p.Inv) :
    Res.Good true true 2 14 1 p (parseRoute p) := by
  unfold parseRoute
  refine Res.Good.bind 2 14 1 1 15 1 1 15 1 (parseIdent_good p hp) (fun method q _ hq => ?_)
    ⟨Or.inl (by omega), by omega, by omega, by omega, by omega⟩
  refine Res.Good.bind 1 15 1 1 15 1 0 14 0 (parseApiIdent_good q hq.inv)
    (fun path q2 _ h2 => ?_) ⟨Or.inl (by omega), by omega, by omega, by omega, by omega⟩
  refine Res.Good.bind 0 14 0 0 14 0 0 14 0 (parseRouteParen_good q2 h2.inv)
    (fun req q3 _ h3 => ?_) ⟨Or.inl (by omega), by omega, by omega, by omega, by omega⟩
  refine Res.Good.getP_bind ?_
  have tail : ∀ (k : Option ParenExpr → Route) (q : parser), q.Inv →
      Res.Good true true 0 14 0 q
        ((parseRouteParen >>= fun resp => expectSemi >>= fun _ => (pure (k resp) : P Route)) q) :=
    fun k q hq => Res.Good.bind 0 14 0 0 14 0 0 15 0 (parseRouteParen_good q hq)
      (fun _ q5 _ h5 => expectSemi_pure_good _ q5 h5.inv)
      ⟨Or.inl (by omega), by omega, by omega, by omega, by omega⟩
  split_ifs with h
  · have hpos : 0 < q3.left := parser.left_pos (by rw [h]; decide)
    refine Res.Good.bind 0 14 0 1 15 1 0 14 0 (next_good true q3 h3.inv) (fun _ q4 _ h4 => ?_)
      ⟨Or.inr hpos, by omega, by omega, by omega, by omega⟩
    exact pure_bind_good (tail _ q4 h4.inv)
  · exact pure_bind_good (tail _ q3 h3.inv)

theorem routeAtLoop_good : ∀ (fuel : Nat) (atDoc atHandler : Option KeyValueExpr) (p : parser),
    p.Inv → p.left < fuel → Res.Good true true 0 13 0 p (routeAtLoop fuel atDoc atHandler p) := by
  intro fuel
  induction fuel with
  | zero => intro _ _ p _ h; omega
  | succ fuel ih =>
    intro atDoc atHandler p hp hl
    unfold routeAtLoop
    by_cases h0 : p.tok = .DOC ∨ p.tok = .HANDLER
    · rw [if_pos h0]
      have hpos : 0 < p.left := parser.left_pos (by rcases h0 with h | h <;> rw [h] <;> decide)
      have g := parseElement_good false p hp
      split
      next kv q h =>
        refine Res.Good.andThen 0 13 0 3 13 1 0 13 0 g h (fun fr hcost => ?_)
          ⟨Or.inr hpos, by omega, by omega, by omega, by omega⟩
        have g2 := expectSemi_good q fr.inv
        split
        next _ q2 h2 =>
          refine Res.Good.andThen 0 13 0 0 15 0 0 13 0 g2 h2 (fun fr2 hcost2 => ?_)
            ⟨Or.inl (by omega), by omega, by omega, by omega, by omega⟩
          have hl2 : q2.left < fuel := by
            have := Cost.lt hcost hpos
            have := Cost.le hcost2
            omega
          split_ifs
          · exact ih _ _ q2 fr2.inv hl2
          · exact ih _ _ q2 fr2.inv hl2
        next e q2 h2 => exact Res.Good.panicStop 0 13 0 0 15 0 g2 h2 ⟨Or.inl (by omega), by omega⟩
        next h2 => exact g2.noFuel h2
      next e q h => exact Res.Good.panicStop 0 13 0 3 13 1 g h ⟨Or.inr hpos, by omega⟩
      next h => exact g.noFuel h
    · rw [if_neg h0]
      exact Res.Good.pure true true 0 13 _ hp

theorem parseServiceRoute_good (p : parser) (hp : p.Inv) :
    Res.Good true true 2 11 1 p (parseServiceRoute p) := by
  unfold parseServiceRoute
  refine Res.Good.getP_bind ?_
  refine Res.Good.bind 2 11 1 0 13 0 2 14 1
    (routeAtLoop_good _ none none p hp (by have := p.tokens_lt_fuel hp; omega))
    (fun _ q _ hq => ?_) ⟨Or.inl (by omega), by omega, by omega, by omega, by omega⟩
  exact Res.Good.bind 2 14 1 2 14 1 0 14 0 (parseRoute_good q hq.inv)
    (fun _ q2 _ h2 => Res.Good.pure true true 0 14 _ h2.inv)
    ⟨Or.inl (by omega), by omega, by omega, by omega, by omega⟩

theorem serviceRouteListLoop_good : ∀ (fuel : Nat) (routes : List ServiceRoute) (p : parser),
    p.Inv → p.left < fuel → Res.Good true true 0 11 0 p (serviceRouteListLoop fuel routes p) := by
  intro fuel
  induction fuel with
  | zero => intro _ p _ h; omega
  | succ fuel ih =>
    intro routes p hp hl
    unfold serviceRouteListLoop
    split_ifs with h0
    · have hpos : 0 < p.left := parser.left_pos h0.2
      have g := parseServiceRoute_good p hp
      split
      next _ q h =>
        exact Res.Good.andThen 0 11 0 2 11 1 0 11 0 g h
          (fun fr hcost => ih _ q fr.inv (by have := Cost.lt hcost hpos; omega))
          ⟨Or.inr hpos, by omega, by omega, by omega, by omega⟩
      next e q h => exact Res.Good.panicStop 0 11 0 2 11 1 g h ⟨Or.inr hpos, by omega⟩
      next h => exact g.noFuel h
    · exact Res.Good.pure true true 0 11 _ hp

theorem parseServiceRouteList_good (p : parser) (hp : p.Inv) :
    Res.Good true true 0 11 0 p (parseServiceRouteList p) := by
  unfold parseServiceRouteList
  exact serviceRouteListLoop_good _ _ p hp (by have := p.tokens_lt_fuel hp; omega)

theorem parseServiceApi_good (p : parser) (hp : p.Inv) :
    Res.Good true true 4 12 1 p (parseServiceApi p) := by
  unfold parseServiceApi
  refine Res.Good.bind 4 12 1 1 15 1 3 13 1 (expect_good _ p hp) (fun _ q _ hq => ?_)
    ⟨Or.inl (by omega), by omega, by omega, by omega, by omega⟩
  refine Res.Good.bind 3 13 1 1 15 1 2 14 1 (parseApiIdent_good q hq.inv)
    (fun _ q2 _ h2 => ?_) ⟨Or.inl (by omega), by omega, by omega, by omega, by omega⟩
  refine Res.Good.bind 2 14 1 1 15 1 1 10 0 (expect_good _ q2 h2.inv)
    (fun _ q3 _ h3 => ?_) ⟨Or.inl (by omega), by omega, by omega, by omega, by omega⟩
  refine Res.Good.bind 1 10 0 0 11 0 1 15 0 (parseServiceRouteList_good q3 h3.inv)
    (fun _ q4 _ h4 => ?_) ⟨Or.inl (by omega), by omega, by omega, by omega, by omega⟩
  exact Res.Good.bind 1 15 0 1 15 1 0 15 0 (expect_good _ q4 h4.inv)
    (fun _ q5 _ h5 => expectSemi_pure_good _ q5 h5.inv)
    ⟨Or.inl (by omega), by omega, by omega, by omega, by omega⟩

theorem parseService_good (p : parser) (hp : p.Inv) :
    Res.Good true true 4 10 1 p (parseService p) := by
  have tail : ∀ (a : Option AtServer) (q : parser), q.Inv → Res.Good true true 4 12 1 q
      ((parseServiceApi >>= fun serviceApi => (pure ⟨a, serviceApi⟩ : P Service)) q) :=
    fun a q hq => Res.Good.bind 4 12 1 4 12 1 0 15 0 (parseServiceApi_good q hq)
      (fun _ q2 _ h2 => Res.Good.pure true true 0 15 _ h2.inv)
      ⟨Or.inl (by omega), by omega, by omega, by omega, by omega⟩
  unfold parseService
  refine Res.Good.getP_bind ?_
  split_ifs with h
  · have hpos : 0 < p.left := parser.left_pos (by rw [h]; decide)
    refine Res.Good.bind 4 10 1 2 14 1 4 12 1 (parseAtServer_good p hp) (fun _ q _ hq => ?_)
      ⟨Or.inr hpos, by omega, by omega, by omega, by omega⟩
    exact pure_bind_good (tail _ q hq.inv)
  · exact Res.Good.weaken 4 10 1 4 12 1 (pure_bind_good (tail _ p hp))
      ⟨Or.inl (by omega), by omega, by omega⟩

end parser
theorem P.bind_eq_ok {α β : Type} {m : P α} {f : α → P β} {p q : parser} {b : β} :
    (m >>= f) p = .ok b q ↔ ∃ a q1, m p = .ok a q1 ∧ f a q1 = .ok b q := by
  rw [P.bind_apply]
  unfold P.bind
  cases h : m p with
  | ok a q1 =>
    constructor
    · intro h2
      exact ⟨a, q1, rfl, h2⟩
    · rintro ⟨a2, q2, e, h2⟩
      cases e
      exact h2
  | panicked e q1 => simp
  | outOfFuel => simp

theorem getP_bind_apply {β : Type} (f : parser → P β) (p : parser) :
    (getP >>= f) p = f p p := rfl

/-- The tokens consumed by a run within an account with `K = 1`. -/
theorem Res.Good.leftLt {α : Type} {c b : Bool} {E S : Nat} {r : Res α} {p q : parser} {a : α}
    (g : Res.Good c b E S 1 p r) (h : r = .ok a q) (hpos : 0 < p.left) : q.left < p.left := by
  subst h
  exact Cost.lt g.cost hpos

theorem Res.Good.leftLe {α : Type} {c b : Bool} {E S K : Nat} {r : Res α} {p q : parser} {a : α}
    (g : Res.Good c b E S K p r) (h : r = .ok a q) : q.left ≤ p.left := by
  subst h
  exact Cost.le g.cost

namespace parser

theorem addError_left (p : parser) (epos : Position) (msg : GoString) :
    (p.addError epos msg).left = p.left := by
  unfold parser.left addError
  simp only
  rw [Scanner.tokens_errs]

theorem error_cases (pos : Nat) (msg : GoString) (p : parser) :
    error pos msg p = .ok () p ∨ error pos msg p = .ok () (p.addError (p.file.Position pos) msg) ∨
      error pos msg p = .panicked .bailout p := by
  unfold error
  simp only
  split_ifs
  · exact Or.inl rfl
  · exact Or.inr (Or.inr rfl)
  · exact Or.inr (Or.inl rfl)
  · exact Or.inr (Or.inl rfl)

/-- What `errorExpected` leaves as it is when it returns. -/
theorem errorExpected_ok {pos : Nat} {msg : GoString} {p q : parser}
    (h : errorExpected pos msg p = .ok () q) :
    q.tok = p.tok ∧ q.pos = p.pos ∧ q.syncPos = p.syncPos ∧ q.syncCnt = p.syncCnt ∧
      q.left = p.left ∧ q.nscan = p.nscan := by
  unfold errorExpected at h
  simp only at h
  rcases error_cases pos _ p with e | e | e <;> rw [e] at h
  · cases h
    exact ⟨rfl, rfl, rfl, rfl, rfl, rfl⟩
  · cases h
    exact ⟨rfl, rfl, rfl, rfl, addError_left _ _ _, rfl⟩
  · cases h

theorem advance_progress (to_ : Token → Bool) (p : parser) (hp : p.Inv) (h0 : p.tok ≠ .EOF) :
    ∃ q, advance to_ p = .ok () q ∧
      (q.left < p.left ∨ (q.left = p.left ∧ q.syncRank < p.syncRank)) := by
  by_cases h1 : to_ p.tok = true ∧ ((p.pos = p.syncPos ∧ p.syncCnt < 10) ∨ p.syncPos < p.pos)
  · by_cases h2 : p.pos = p.syncPos ∧ p.syncCnt < 10
    · refine ⟨_, advance_count to_ p h0 h1.1 h2, Or.inr ⟨parser.left_of_eq rfl rfl, ?_⟩⟩
      unfold syncRank
      simp only [h2.1, lt_irrefl, if_false, if_true]
      omega
    · have h3 : p.syncPos < p.pos := h1.2.resolve_left h2
      refine ⟨_, advance_sync to_ p h0 h1.1 h2 h3, Or.inr ⟨parser.left_of_eq rfl rfl, ?_⟩⟩
      unfold syncRank
      simp only [h3, lt_irrefl, if_false, if_true]
      omega
  · obtain ⟨q, e, hl⟩ := advance_skip to_ p hp h0 h1
    exact ⟨q, e, Or.inl hl⟩

/-- When `advance` returns, the current token is `EOF` or in the set. -/
theorem advanceLoop_stops (to_ : Token → Bool) : ∀ (fuel : Nat) (p q : parser),
    advanceLoop to_ fuel p = .ok () q → q.tok = .EOF ∨ to_ q.tok = true := by
  intro fuel
  induction fuel with
  | zero =>
    intro p q h
    cases h
  | succ fuel ih =>
    intro p q h
    unfold advanceLoop at h
    have step : (match next p with
          | .ok _ p1 => advanceLoop to_ fuel p1
          | .panicked e p1 => .panicked e p1
          | .outOfFuel => .outOfFuel) = .ok () q → q.tok = .EOF ∨ to_ q.tok = true := by
      intro h
      split at h
      next _ q1 _ => exact ih q1 q h
      next => cases h
      next => cases h
    split_ifs at h with h0 h1 h2 h3
    · cases h
      exact Or.inr h1
    · cases h
      exact Or.inr h1
    · exact step h
    · exact step h
    · cases h
      exact Or.inl (not_not.mp h0)

theorem advance_stops {to_ : Token → Bool} {p q : parser} (h : advance to_ p = .ok () q) :
    q.tok = .EOF ∨ to_ q.tok = true :=
  advanceLoop_stops to_ _ p q h

theorem parseDecl_bad (sync : Token → Bool) (p : parser) (h : declTok p.tok = false) :
    parseDecl sync p =
      (errorExpected p.pos (str "declaration") >>= fun _ => advance sync >>= fun _ =>
        getP >>= fun p1 => (pure (Decl.BadDecl p.pos p1.pos) : P Decl)) p := by
  have h1 : p.tok ≠ .TYPE := by intro e; rw [e] at h; exact absurd h (by decide)
  have h2 : ¬ (p.tok = .ATSERVER ∨ p.tok = .SERVICE) := by
    rintro (e | e) <;> rw [e] at h <;> exact absurd h (by decide)
  have h3 : p.tok ≠ .INFO := by intro e; rw [e] at h; exact absurd h (by decide)
  have h4 : p.tok ≠ .IMPORT := by intro e; rw [e] at h; exact absurd h (by decide)
  unfold parseDecl
  rw [getP_bind_apply, if_neg h1, if_neg h2, if_neg h3, if_neg h4]

theorem parseDecl_decl (sync : Token → Bool) (p : parser) (hp : p.Inv)
    (h : declTok p.tok = true) : Res.Good true false 0 10 1 p (parseDecl sync p) := by
  have hpos : 0 < p.left := parser.left_pos (by intro e; rw [e] at h; exact absurd h (by decide))
  unfold parseDecl
  refine Res.Good.getP_bind ?_
  split_ifs with h1 h2 h3 h4
  · exact Res.Good.bind 0 10 1 2 14 1 0 14 0
      (parseGenDecl_good false _ _ (fun doc q hq => Res.Good.anyB 1 15 1 1 15 1
        (parseTypeSpec_good doc q hq) ⟨Or.inl (by omega), by omega, by omega⟩) p hp)
      (fun _ q _ hq => Res.Good.pure true false 0 14 _ hq.inv)
      ⟨Or.inr hpos, by omega, by omega, by omega, by omega⟩
  · exact Res.Good.bind 0 10 1 4 10 1 0 10 0
      (Res.Good.anyB 4 10 1 4 10 1 (parseService_good p hp)
        ⟨Or.inl (by omega), by omega, by omega⟩)
      (fun _ q _ hq => Res.Good.pure true false 0 10 _ hq.inv)
      ⟨Or.inr hpos, by omega, by omega, by omega, by omega⟩
  · exact Res.Good.bind 0 10 1 3 13 1 0 13 0
      (Res.Good.anyB 3 13 1 3 13 1 (parseInfoType_good p hp)
        ⟨Or.inl (by omega), by omega, by omega⟩)
      (fun _ q _ hq => Res.Good.pure true false 0 13 _ hq.inv)
      ⟨Or.inr hpos, by omega, by omega, by omega, by omega⟩
  · exact Res.Good.bind 0 10 1 2 14 1 0 14 0
      (parseGenDecl_good false _ _ (fun doc q hq => parseImportSpec_good doc q hq) p hp)
      (fun _ q _ hq => Res.Good.pure true false 0 14 _ hq.inv)
      ⟨Or.inr hpos, by omega, by omega, by omega, by omega⟩
  · exfalso
    revert h
    unfold declTok
    simp only [h1, h3, h4, not_or.mp h2, or_self, decide_False]
    decide

theorem bad_good (sync : Token → Bool) (p : parser) (hp : p.Inv) :
    Res.Good true true 0 15 0 p
      ((errorExpected p.pos (str "declaration") >>= fun _ => advance sync >>= fun _ =>
        getP >>= fun p1 => (pure (Decl.BadDecl p.pos p1.pos) : P Decl)) p) := by
  refine Res.Good.bind 0 15 0 0 16 0 0 15 0 (errorExpected_good true _ _ p hp)
    (fun _ q _ hq => ?_) ⟨Or.inl (by omega), by omega, by omega, by omega, by omega⟩
  exact Res.Good.bind 0 15 0 0 15 0 0 15 0 (advance_good true _ q hq.inv)
    (fun _ q2 _ h2 => Res.Good.getP_bind (Res.Good.pure true true 0 15 _ h2.inv))
    ⟨Or.inl (by omega), by omega, by omega, by omega, by omega⟩

theorem parseDecl_good (sync : Token → Bool) (p : parser) (hp : p.Inv) :
    Res.Good true false 0 10 0 p (parseDecl sync p) := by
  cases h : declTok p.tok with
  | true =>
    exact Res.Good.weaken 0 10 0 0 10 1 (parseDecl_decl sync p hp h)
      ⟨Or.inl (by omega), by omega, by omega⟩
  | false =>
    rw [parseDecl_bad sync p h]
    exact Res.Good.anyB 0 10 0 0 15 0 (bad_good sync p hp) ⟨Or.inl (by omega), by omega, by omega⟩

theorem parseDecl_progress (sync : Token → Bool) (p : parser) (hp : p.Inv) (h0 : p.tok ≠ .EOF)
    {d : Decl} {q : parser} (h : parseDecl sync p = .ok d q) :
    q.left < p.left ∨ (q.left = p.left ∧ q.syncRank < p.syncRank) := by
  cases ht : declTok p.tok with
  | true => exact Or.inl ((parseDecl_decl sync p hp ht).leftLt h (parser.left_pos h0))
  | false =>
    rw [parseDecl_bad sync p ht, P.bind_eq_ok] at h
    obtain ⟨_, q1, e1, h⟩ := h
    rw [P.bind_eq_ok] at h
    obtain ⟨_, q2, e2, h⟩ := h
    cases h
    obtain ⟨t1, t2, t3, t4, t5, _⟩ := errorExpected_ok e1
    have hq1 : q1.Inv := by
      have g := errorExpected_good true p.pos (str "declaration") p hp
      rw [e1] at g
      exact g.inv
    obtain ⟨q3, e3, hl⟩ := advance_progress sync q1 hq1 (by rw [t1]; exact h0)
    rw [e2] at e3
    cases e3
    have hr : q1.syncRank = p.syncRank := by
      unfold syncRank
      rw [t2, t3, t4]
    rw [t5, hr] at hl
    exact hl

end parser
/-! ### The whole parse -/

theorem Cost.toEnd {E S K n t n1 t1 : Nat} (h : Cost E S K n t n1 t1) (hs : S ≤ 16) :
    Cost E S 0 n t n1 0 := by
  unfold Cost at *
  obtain ⟨a1, a2, a3, a4⟩ := h
  refine ⟨a1, fun h => ⟨rfl, (a2 h).2⟩, fun _ h => absurd h (lt_irrefl _), fun h _ => ?_⟩
  rcases Nat.eq_zero_or_pos t1 with z | z
  · exact a4 h z
  · have := a3 h z
    omega

/-- A run within an account ended in a state, with the `Scan` calls of the
account. -/
theorem Res.Good.ended {α : Type} {c b : Bool} {E S K : Nat} {r : Res α} {p : parser}
    (g : Res.Good c b E S K p r) (hs : S ≤ 16) :
    ∃ q, r.state = some q ∧ Cost E S 0 p.nscan p.left q.nscan 0 := by
  cases g with
  | ok a q f hc => exact ⟨q, rfl, hc.toEnd hs⟩
  | panicked e q _ _ _ hc => exact ⟨q, rfl, hc.toEnd hs⟩

namespace parser

theorem syncRank_le (p : parser) : p.syncRank ≤ 11 := by
  unfold syncRank
  split_ifs <;> omega

theorem declsLoop_good : ∀ (fuel : Nat) (decls : List Decl) (p : parser),
    p.Inv → 12 * p.left + p.syncRank < fuel →
    Res.Good true false 0 10 0 p (declsLoop fuel decls p) := by
  intro fuel
  induction fuel with
  | zero => intro _ p _ h; omega
  | succ fuel ih =>
    intro decls p hp hl
    unfold declsLoop
    split_ifs with h0
    · have g := parseDecl_good declStart p hp
      split
      next d q h =>
        refine Res.Good.andThen 0 10 0 0 10 0 0 10 0 g h (fun fr _ => ih _ q fr.inv ?_)
          ⟨Or.inl (by omega), by omega, by omega, by omega, by omega⟩
        have := q.syncRank_le
        rcases parseDecl_progress declStart p hp h0 h with h1 | ⟨h1, h2⟩ <;> omega
      next e q h => exact Res.Good.panicStop 0 10 0 0 10 0 g h ⟨Or.inl (by omega), by omega⟩
      next h => exact g.noFuel h
    · exact Res.Good.pure true false 0 10 _ hp

theorem decls_good (p : parser) (hp : p.Inv) :
    Res.Good true false 0 10 0 p (declsLoop p.fuel [] p) :=
  declsLoop_good _ _ p hp
    (by have := p.left_le hp; have := p.syncRank_le; unfold parser.fuel; omega)

theorem parseFile_ended (p : parser) (hp : p.Inv) :
    ∃ q, (parseFile p).state = some q ∧ Cost 3 10 0 p.nscan p.left q.nscan 0 := by
  unfold parseFile
  rw [getP_bind_apply]
  split_ifs with h1 h2
  · exact ⟨p, rfl, Cost.stop _ _ _ _ _ (by omega)⟩
  · refine Res.Good.ended (c := true) (b := false) (K := 0) ?_ (by omega)
    refine Res.Good.bind 3 10 0 3 13 1 0 10 0
      (Res.Good.anyB 3 13 1 3 13 1 (parseSyntax_good p hp)
        ⟨Or.inl (by omega), by omega, by omega⟩)
      (fun _ q _ hq => ?_) ⟨Or.inl (by omega), by omega, by omega, by omega, by omega⟩
    refine Res.Good.bind 0 10 0 0 10 0 0 10 0 (decls_good q hq.inv) (fun _ q2 _ h2 => ?_)
      ⟨Or.inl (by omega), by omega, by omega, by omega, by omega⟩
    refine Res.Good.getP_bind ?_
    split_ifs
    · exact pure_bind_good (Res.Good.pure true false 0 10 _ h2.inv)
    · exact pure_bind_good (Res.Good.pure true false 0 10 _ h2.inv)
  · have g := expectSemi_good p hp
    have key : ∀ r : Res Unit, r = expectSemi p →
        ∃ q, (P.bind (fun _ => r) (fun _ => (goPanic (Panic.other (str "not finished")) :
          P (Option AstFile))) p).state = some q ∧ Cost 3 10 0 p.nscan p.left q.nscan 0 := by
      intro r hr
      rw [← hr] at g
      cases g with
      | ok a q f hc =>
        exact ⟨q, rfl, Cost.mono ⟨Or.inl (by omega), by omega, by omega⟩ (hc.toEnd (by omega))⟩
      | panicked e q _ _ _ hc =>
        exact ⟨q, rfl, Cost.mono ⟨Or.inl (by omega), by omega, by omega⟩ (hc.toEnd (by omega))⟩
    obtain ⟨q, e, hc⟩ := key _ rfl
    refine ⟨q, ?_, hc⟩
    rw [← e]
    rfl

theorem start_inv (lib : Lib) (base : Nat) (filename src : GoString) (mode : Nat) :
    (start lib base filename src mode).Inv :=
  ⟨(Scanner.Init_inv _ _ _ _).1, fun h => Token.noConfusion h, Nat.zero_le _⟩

theorem start_left (lib : Lib) (base : Nat) (filename src : GoString) (mode : Nat) :
    (start lib base filename src mode).left = tokenCount lib base filename src mode + 1 := rfl

theorem init_eq (lib : Lib) (base : Nat) (filename src : GoString) (mode : Nat) :
    init lib base filename src mode = next (start lib base filename src mode) := rfl

theorem parseRun_ended (lib : Lib) (base : Nat) (filename src : GoString) (mode : Nat) :
    ∃ q, (parseRun lib base filename src mode).state = some q ∧
      q.nscan + 12 ≤ 16 * (tokenCount lib base filename src mode + 1) := by
  have hs := start_inv lib base filename src mode
  obtain ⟨_, q1, e1, f1, c1⟩ := (next_good false _ hs).returns
  obtain ⟨q, e, c⟩ := parseFile_ended q1 f1.inv
  refine ⟨q, ?_, ?_⟩
  · unfold parseRun
    rw [init_eq, e1]
    exact e
  · have hc : Cost 4 12 0 (start lib base filename src mode).nscan
        (start lib base filename src mode).left q.nscan 0 :=
      Cost.comp ⟨Or.inl (by omega), by omega, by omega, by omega, by omega⟩ c1 c
    rw [start_left] at hc
    have := hc.2.2.2 (by omega) rfl
    have h0 : (start lib base filename src mode).nscan = 0 := rfl
    omega

end parser

/-! ### Termination of the parse and resynchronization -/

theorem Scanner.next_src_eq (s : Scanner) : s.next.src = s.src := by
  cases s
  simp only [Scanner.next, Scanner.newLine, Scanner.error]
  split_ifs <;> simp

theorem Scanner.Init_src (lib : Lib) (file : File) (src : GoString) (mode : Nat) :
    (Scanner.Init lib file src mode).src = src := by
  unfold Scanner.Init
  simp only
  split_ifs
  · rw [Scanner.next_src_eq, Scanner.next_src_eq]
  · rw [Scanner.next_src_eq]

/-- C4: for every source, file base, file name and mode, the run of `init` and
`parseFile` that `ParseFile` starts ends, by returning or with a panic, and no
loop of the parser runs out of its fuel; the number of `Scan` calls made is at
most sixteen times the number of tokens of the source, plus sixteen, and that
number of tokens is at most twice the length of the source plus three. -/
theorem ParseFile_terminates (lib : Lib) (base : Nat) (filename src : GoString) (mode : Nat) :
    (∃ q, (parseRun lib base filename src mode).state = some q ∧
      q.nscan + 12 ≤ 16 * (tokenCount lib base filename src mode + 1)) ∧
      ParseFile lib base filename src mode ≠ .outOfFuel ∧
      tokenCount lib base filename src mode ≤ 2 * src.length + 3 := by
  obtain ⟨q, e, h⟩ := parser.parseRun_ended lib base filename src mode
  refine ⟨⟨q, e, h⟩, ?_, ?_⟩
  · unfold ParseFile
    cases hr : parseRun lib base filename src mode with
    | ok f p => simp
    | panicked x p => cases x <;> simp
    | outOfFuel =>
      rw [hr] at e
      cases e
  · have h1 := Scanner.tokens_le _ (parser.start_inv lib base filename src mode).scan
    have h2 := Scanner.measure_le (parser.start lib base filename src mode).scanner
    have h3 : (parser.start lib base filename src mode).scanner.src = src :=
      Scanner.Init_src _ _ _ _
    rw [h3] at h2
    unfold tokenCount
    omega

/-- C7: `advance` returns, and a count `syncCnt` of at most 10 is at most 10
afterwards. When the current token is not `EOF` and `advance` returns with
no token consumed, the token is in the synchronizing set and either the
position was beyond `syncPos`, which is set to it with `syncCnt` reset to 0,
or the position was `syncPos` with `syncCnt` below 10, which is incremented.
When the current token is not `EOF`, the position is `syncPos` and `syncCnt`
has reached 10, fewer tokens are left when `advance` returns. At `EOF` it
returns at once. -/
theorem advance_bounded_resync (to_ : Token → Bool) (p : parser) (hp : p.Inv) :
    ∃ q, parser.advance to_ p = .ok () q ∧
      (p.syncCnt ≤ 10 → q.syncCnt ≤ 10) ∧
      (p.tok ≠ .EOF → q.left = p.left →
        to_ p.tok = true ∧
          ((p.syncPos < p.pos ∧ q = { p with syncPos := p.pos, syncCnt := 0 }) ∨
            (p.pos = p.syncPos ∧ p.syncCnt < 10 ∧ q = { p with syncCnt := p.syncCnt + 1 }))) ∧
      (p.tok ≠ .EOF → p.pos = p.syncPos → 10 ≤ p.syncCnt → q.left < p.left) ∧
      (p.tok = .EOF → q = p) := by
  obtain ⟨_, q, e, f, _⟩ := (parser.advance_good false to_ p hp).returns
  refine ⟨q, e, f.sync, fun h0 hl => ?_, fun h0 h1 h2 => ?_, fun h0 => ?_⟩
  · by_cases h1 : to_ p.tok = true ∧ ((p.pos = p.syncPos ∧ p.syncCnt < 10) ∨ p.syncPos < p.pos)
    · refine ⟨h1.1, ?_⟩
      by_cases h2 : p.pos = p.syncPos ∧ p.syncCnt < 10
      · rw [parser.advance_count to_ p h0 h1.1 h2] at e
        cases e
        exact Or.inr ⟨h2.1, h2.2, rfl⟩
      · have h3 : p.syncPos < p.pos := h1.2.resolve_left h2
        rw [parser.advance_sync to_ p h0 h1.1 h2 h3] at e
        cases e
        exact Or.inl ⟨h3, rfl⟩
    · obtain ⟨q2, e2, hl2⟩ := parser.advance_skip to_ p hp h0 h1
      rw [e] at e2
      cases e2
      omega
  · obtain ⟨q2, e2, hl2⟩ := parser.advance_skip to_ p hp h0
      (fun h => by rcases h.2 with h3 | h3 <;> omega)
    rw [e] at e2
    cases e2
    exact hl2
  · rw [parser.advance_eof to_ p h0] at e
    cases e
    rfl

/-- Witness of `advance_bounded_resync`: the parser set up by `init` for the
source `type A` before its first token is read. -/
theorem advance_bounded_resync_witness :
    (parser.start asciiLib 1 [] (str "type A") 0).Inv ∧
      ∃ q, parser.advance parser.declStart (parser.start asciiLib 1 [] (str "type A") 0) = .ok () q ∧
        ((parser.start asciiLib 1 [] (str "type A") 0).syncCnt ≤ 10 → q.syncCnt ≤ 10) :=
  ⟨parser.start_inv _ _ _ _ _,
    (advance_bounded_resync parser.declStart _ (parser.start_inv asciiLib 1 [] (str "type A") 0)).imp
      (fun _ h => ⟨h.1, h.2.1⟩)⟩
/-! ### Errors recorded by `parseDecl` and `parseImportSpec` -/

theorem P.bind_ok {α β : Type} {m : P α} {f : α → P β} {p q : parser} {a : α}
    (h : m p = .ok a q) : (m >>= f) p = f a q := by
  rw [P.bind_apply]
  unfold P.bind
  rw [h]

/-- In the mode `AllErrors` a run within an account returned. -/
theorem Res.Good.returns_all {α : Type} {c b : Bool} {E S K : Nat} {r : Res α} {p : parser}
    (h : Res.Good c b E S K p r) (hm : p.mode &&& AllErrors ≠ 0) :
    ∃ a q, r = .ok a q ∧ p.Frame b q ∧ Cost E S K p.nscan p.left q.nscan q.left := by
  cases h with
  | ok a q f c => exact ⟨a, q, rfl, f, c⟩
  | panicked _ _ _ _ h0 => exact absurd h0 hm

namespace parser

theorem error_all (pos : Nat) (msg : GoString) (p : parser) (hm : p.mode &&& AllErrors ≠ 0) :
    error pos msg p = .ok () (p.addError (p.file.Position pos) msg) := by
  unfold error
  simp only
  rw [if_neg hm]

theorem errorExpected_all (msg : GoString) (p : parser) (hm : p.mode &&& AllErrors ≠ 0) :
    ∃ found, errorExpected p.pos msg p =
      .ok () (p.addError (p.file.Position p.pos) (str "expected " ++ msg ++ found)) := by
  unfold errorExpected
  simp only [if_true]
  split_ifs
  · exact ⟨_, error_all _ _ p hm⟩
  · exact ⟨_ ++ _, by rw [← List.append_assoc]; exact error_all _ _ p hm⟩
  · exact ⟨_ ++ (_ ++ _), by
      rw [← List.append_assoc, ← List.append_assoc, List.append_assoc _ msg]
      exact error_all _ _ p hm⟩

theorem addError_inv {p : parser} (hp : p.Inv) (epos : Position) (msg : GoString) :
    (p.addError epos msg).Inv :=
  ⟨hp.scan.of_eq rfl rfl rfl rfl, hp.atEnd, hp.pos⟩

end parser

/-- The import list of a file with the error of the mode `AllErrors` left out
would be the same: the message of an invalid import path is no syntax error. -/
theorem synMsg_invalid {m lit : GoString} (h : synMsg m = true) :
    m ≠ str "invalid import path: " ++ lit := by
  intro e
  rw [e] at h
  have h2 : str "invalid import path: " = 105 :: 110 :: str "valid import path: " := by decide
  rw [h2] at h
  have h3 : synMsg (105 :: 110 :: str "valid import path: " ++ lit) = false := rfl
  rw [h3] at h
  cases h

theorem parser.first_inv (lib : Lib) (base : Nat) (filename src : GoString) (mode : Nat) :
    (parser.first lib base filename src mode).Inv := by
  obtain ⟨_, q, e, f, _⟩ :=
    (parser.next_good false _ (parser.start_inv lib base filename src mode)).returns
  unfold parser.first
  rw [parser.init_eq, e]
  exact f.inv

/-- C20, the claim fails without the mode `AllErrors`: for the source
`syntax = "v1"` followed by the line `) syntax`, `parseDecl` returns twelve
`BadDecl` nodes, for `)` and eleven times for `syntax`, and only the first
error is recorded: the others are on the line of the last recorded error. -/
theorem parseDecl_error_discarded :
    (ParseFile asciiLib 1 [] (str "syntax = \"v1\"\n) syntax") 0).file.map
        (fun f => f.Decls.map (fun d => match d with | .BadDecl _ _ => true | _ => false)) =
      some (List.replicate 12 true) ∧
    (ParseFile asciiLib 1 [] (str "syntax = \"v1\"\n) syntax") 0).err.map
        (fun l => l.map (fun e => (e.Pos.Line, e.Pos.Column, e.Msg))) =
      some [(2, 1, str "expected declaration, found ')'")] := by
  decide!

/-- C12, the claim fails without the mode `AllErrors`: for the import
declaration `import ("a b"; "c d")` on one line both paths are invalid and
both `ImportSpec` nodes are built, but only the error for the first path is
recorded: the second is on the line of the last recorded error. -/
theorem parseImportSpec_error_discarded :
    (ParseFile asciiLib 1 [] (str "syntax = \"v1\"\nimport (\"a b\"; \"c d\")") 0).file.map
        (fun f => f.Imports.map (fun s => (s.Path.Value, parser.isValidImport asciiLib s.Path.Value))) =
      some [(str "\"a b\"", false), (str "\"c d\"", false)] ∧
    (ParseFile asciiLib 1 [] (str "syntax = \"v1\"\nimport (\"a b\"; \"c d\")") 0).err.map
        (fun l => l.map (fun e => (e.Pos.Line, e.Pos.Column, e.Msg))) =
      some [(2, 9, str "invalid import path: \"a b\"")] := by
  decide!

/-! ### The `syntax` pragma -/

namespace parser

theorem expect_ok {tok : Token} {p q : parser} (h : p.tok = tok) (e : next p = .ok () q) :
    expect tok p = .ok p.pos q := by
  unfold expect
  rw [getP_bind_apply, if_neg (not_not.mpr h)]
  exact (P.bind_ok (P.pure_apply _ _)).trans ((P.bind_ok e).trans rfl)

theorem expectSemi_semi {p q : parser} (h : p.tok = .SEMICOLON) (e : next p = .ok () q) :
    expectSemi p = .ok () q := by
  unfold expectSemi
  rw [getP_bind_apply, if_pos (by rw [h]; decide), if_neg (by rw [h]; decide), if_pos h]
  exact e

theorem expectSemi_close {p : parser} (h : p.tok = .RPAREN ∨ p.tok = .RBRACE) :
    expectSemi p = .ok () p := by
  unfold expectSemi
  rw [getP_bind_apply, if_neg (by rcases h with h | h <;> rw [h] <;> decide)]
  rfl

theorem next_returns (p : parser) (hp : p.Inv) : ∃ q, next p = .ok () q ∧ q.Inv := by
  obtain ⟨_, q, e, f, _⟩ := (next_good false p hp).returns
  exact ⟨q, e, f.inv⟩

end parser

/-- C9, the claim fails when another token follows the literal on its line:
for the source `syntax = "v1" info()` the name is `"v1"` and the error
`expected ';', found 'info'` is recorded. -/
theorem parseSyntax_expects_semicolon :
    (ParseFile asciiLib 1 [] (str "syntax = \"v1\" info()") 16).file.map
        (fun f => f.Syntax.map (fun s => s.Name.map (fun n => n.Value))) =
      some (some (some (str "\"v1\""))) ∧
    (ParseFile asciiLib 1 [] (str "syntax = \"v1\" info()") 16).err.map
        (fun l => l.map (fun e => (e.Pos.Line, e.Pos.Column, e.Msg))) =
      some [(1, 15, str "expected ';', found 'info'")] := by
  decide!

/-! ### Route paths -/

namespace parser

theorem reads_cons {t : Token} {l : GoString} {ts : List (Token × GoString)} {p q : parser}
    (h : p.reads ((t, l) :: ts) = some q) :
    p.tok = t ∧ p.lit = l ∧ ∃ p1, next p = .ok () p1 ∧ p1.reads ts = some q := by
  unfold reads at h
  split_ifs at h with h1
  split at h
  next _ p1 e => exact ⟨h1.1, h1.2, p1, e, h⟩
  next => cases h

theorem apiPathLoop_op (fuel : Nat) (name : GoString) {p q : parser}
    (h : p.tok = .QUO ∨ p.tok = .COLON) (e : next p = .ok () q) :
    apiPathLoop (fuel + 1) name p = apiPathLoop fuel (name ++ p.tok.String) q := by
  have h0 : p.tok ≠ .EOF := by rcases h with h | h <;> rw [h] <;> decide
  rw [apiPathLoop]
  dsimp only
  rw [if_pos h0]
  simp only [e, if_pos h]
  rw [if_neg]
  simp [h]

theorem apiPathLoop_ident (fuel : Nat) (name : GoString) {p q : parser}
    (h : p.tok = .IDENT) (e : next p = .ok () q) :
    apiPathLoop (fuel + 1) name p =
      if q.tok ≠ .QUO ∧ q.tok ≠ .COLON then .ok (name ++ p.lit) q
      else apiPathLoop fuel (name ++ p.lit) q := by
  have h0 : p.tok ≠ .EOF := by rw [h]; decide
  have h1 : ¬ (p.tok = .QUO ∨ p.tok = .COLON) := by rw [h]; decide
  rw [apiPathLoop]
  dsimp only
  rw [if_pos h0]
  simp only [e, if_neg h1]
  simp [h1]

theorem apiPathLoop_reads : ∀ (parts : List PathPart), parts ≠ [] →
    ∀ (fuel : Nat) (name : GoString) (p q : parser), p.Inv → p.left + 2 < fuel →
      p.reads (pathToks parts) = some q → q.tok ≠ .QUO ∧ q.tok ≠ .COLON →
      apiPathLoop fuel name p = .ok (name ++ pathText parts) q := by
  intro parts
  induction parts with
  | nil => intro h; exact absurd rfl h
  | cons x xs ih =>
    intro _ fuel name p q hp hf hr hq
    obtain ⟨f, rfl⟩ : ∃ f, fuel = f + 3 := ⟨fuel - 3, by omega⟩
    -- the token `/`
    have hr1 : p.reads ((Token.QUO, []) :: ((if x.param then [(Token.COLON, [])] else []) ++
        [(Token.IDENT, x.name)] ++ pathToks xs)) = some q := by
      have : pathToks (x :: xs) = (Token.QUO, []) :: ((if x.param then [(Token.COLON, [])]
          else []) ++ [(Token.IDENT, x.name)] ++ pathToks xs) := by
        simp [pathToks, PathPart.toks]
      rw [← this]
      exact hr
    obtain ⟨t1, _, p1, e1, r1⟩ := reads_cons hr1
    have g1 := next_good false p hp
    have i1 : p1.Inv := by rw [e1] at g1; exact g1.inv
    have l1 : p1.left < p.left := g1.leftLt e1 (parser.left_pos (by rw [t1]; decide))
    rw [apiPathLoop_op _ name (Or.inl t1) e1, t1]
    -- the token `:`
    have key : ∀ (g : Nat) (name2 : GoString) (p2 : parser), p2.Inv → p2.left + 2 ≤ g →
        p2.reads ((Token.IDENT, x.name) :: pathToks xs) = some q →
        apiPathLoop (g + 1) name2 p2 = .ok (name2 ++ x.name ++ pathText xs) q := by
      intro g name2 p2 i2 l2 r2
      obtain ⟨t3, t4, p3, e3, r3⟩ := reads_cons r2
      have g3 := next_good false p2 i2
      have i3 : p3.Inv := by rw [e3] at g3; exact g3.inv
      have l3 : p3.left < p2.left := g3.leftLt e3 (parser.left_pos (by rw [t3]; decide))
      rw [apiPathLoop_ident _ name2 t3 e3, t4]
      cases xs with
      | nil =>
        have : q = p3 := by
          unfold pathToks reads at r3
          cases r3
          rfl
        subst this
        rw [if_pos hq]
        simp [pathText]
      | cons y ys =>
        have r3' : p3.reads ((Token.QUO, []) :: ((if y.param then [(Token.COLON, [])] else []) ++
            [(Token.IDENT, y.name)] ++ pathToks ys)) = some q := by
          have : pathToks (y :: ys) = (Token.QUO, []) :: ((if y.param then [(Token.COLON, [])]
              else []) ++ [(Token.IDENT, y.name)] ++ pathToks ys) := by
            simp [pathToks, PathPart.toks]
          rw [← this]
          exact r3
        have t5 := (reads_cons r3').1
        rw [if_neg (by rw [t5]; decide)]
        exact ih (by simp) _ _ p3 q i3 (by omega) r3 hq
    cases hx : x.param with
    | false =>
      rw [hx] at r1
      have e := key (f + 1) (name ++ str "/") p1 i1 (by omega) (by simpa using r1)
      show apiPathLoop (f + 1 + 1) (name ++ Token.QUO.String) p1 = _
      rw [show Token.QUO.String = str "/" from rfl, e]
      simp [pathText, PathPart.text, hx, List.append_assoc]
    | true =>
      rw [hx] at r1
      obtain ⟨t2, _, p2, e2, r2⟩ := reads_cons (by simpa using r1 :
        p1.reads ((Token.COLON, []) :: (Token.IDENT, x.name) :: pathToks xs) = some q)
      have g2 := next_good false p1 i1
      have i2 : p2.Inv := by rw [e2] at g2; exact g2.inv
      have l2 : p2.left < p1.left := g2.leftLt e2 (parser.left_pos (by rw [t2]; decide))
      have e := key f (name ++ str "/" ++ str ":") p2 i2 (by omega) r2
      show apiPathLoop (f + 1 + 1) (name ++ Token.QUO.String) p1 = _
      rw [apiPathLoop_op _ _ (Or.inr t2) e2, t2,
        show Token.QUO.String = str "/" from rfl, show Token.COLON.String = str ":" from rfl, e]
      simp [pathText, PathPart.text, hx, List.append_assoc]

theorem pathToks_head {x : PathPart} {xs : List PathPart} {p q : parser}
    (h : p.reads (pathToks (x :: xs)) = some q) : p.tok = .QUO := by
  have : pathToks (x :: xs) = (Token.QUO, []) :: ((if x.param then [(Token.COLON, [])]
      else []) ++ [(Token.IDENT, x.name)] ++ pathToks xs) := by
    simp [pathToks, PathPart.toks]
  rw [this] at h
  exact (reads_cons h).1

end parser

/-- C11: for a route path of one or more parts, each `/segment` or `/:param`
with an identifier, when the parser reads the tokens of the path and the
token after them is no `/` and no `:` (as `(`, `returns` and the end of the
line are), `parseApiIdent` returns the identifier at the position of the
first token whose name is the text of the path, and the parser is then in
the state reached by reading the tokens of the path, with the token after the
path current and no error recorded by `parseApiIdent`. -/
theorem parseApiIdent_path (parts : List PathPart) (p q : parser) (hp : p.Inv)
    (hne : parts ≠ []) (hr : p.reads (pathToks parts) = some q)
    (hq : q.tok ≠ .QUO ∧ q.tok ≠ .COLON) :
    parser.parseApiIdent p = .ok ⟨p.pos, pathText parts⟩ q := by
  cases parts with
  | nil => exact absurd rfl hne
  | cons x xs =>
    have h0 := parser.pathToks_head hr
    have e := parser.apiPathLoop_reads (x :: xs) hne p.fuel [] p q hp
      (by have := p.left_le hp; unfold parser.fuel; omega) hr hq
    unfold parser.parseApiIdent
    simp only [if_pos h0, e, List.nil_append]

/-- Witness of `parseApiIdent_path`: the path `/bar/:id` of the source
`/bar/:id (Foo)`. -/
theorem parseApiIdent_path_witness :
    ∃ q, (parser.first asciiLib 1 [] (str "/bar/:id (Foo)") 0).Inv ∧
      ([⟨false, str "bar"⟩, ⟨true, str "id"⟩] : List PathPart) ≠ [] ∧
      (parser.first asciiLib 1 [] (str "/bar/:id (Foo)") 0).reads
        (pathToks [⟨false, str "bar"⟩, ⟨true, str "id"⟩]) = some q ∧
      (q.tok ≠ .QUO ∧ q.tok ≠ .COLON) ∧
      parser.parseApiIdent (parser.first asciiLib 1 [] (str "/bar/:id (Foo)") 0) =
        .ok ⟨(parser.first asciiLib 1 [] (str "/bar/:id (Foo)") 0).pos,
          pathText [⟨false, str "bar"⟩, ⟨true, str "id"⟩]⟩ q ∧
      pathText [⟨false, str "bar"⟩, ⟨true, str "id"⟩] = str "/bar/:id" ∧
      q.tok = .LPAREN ∧
      q.errors = (parser.first asciiLib 1 [] (str "/bar/:id (Foo)") 0).errors := by
  have h : ((parser.first asciiLib 1 [] (str "/bar/:id (Foo)") 0).reads
      (pathToks [⟨false, str "bar"⟩, ⟨true, str "id"⟩])).map
        (fun q => (q.tok, decide (q.errors =
          (parser.first asciiLib 1 [] (str "/bar/:id (Foo)") 0).errors))) =
      some (.LPAREN, true) := by decide!
  cases hr : (parser.first asciiLib 1 [] (str "/bar/:id (Foo)") 0).reads
      (pathToks [⟨false, str "bar"⟩, ⟨true, str "id"⟩]) with
  | none =>
    rw [hr] at h
    cases h
  | some q =>
    rw [hr] at h
    simp only [Option.map_some', Option.some.injEq, Prod.mk.injEq, decide_eq_true_eq] at h
    have hq : q.tok ≠ .QUO ∧ q.tok ≠ .COLON := by rw [h.1]; decide
    exact ⟨q, parser.first_inv _ _ _ _ _, by simp, rfl, hq,
      parseApiIdent_path _ _ q (parser.first_inv _ _ _ _ _) (by simp) hr hq, by decide, h.1, h.2⟩
/-! ### The import list -/

theorem Res.Good.frame_eq {α : Type} {c b : Bool} {E S K : Nat} {r : Res α} {p q : parser}
    {a : α} (g : Res.Good c b E S K p r) (h : r = .ok a q) : p.Frame b q := by
  subst h
  exact g.frame

theorem importsOf_append (a b : List Decl) : importsOf (a ++ b) = importsOf a ++ importsOf b := by
  induction a with
  | nil => rfl
  | cons d ds ih =>
    cases d <;> simp [importsOf, ih, List.append_assoc]

theorem specImports_append (a b : List Spec) :
    specImports (a ++ b) = specImports a ++ specImports b := by
  induction a with
  | nil => rfl
  | cons d ds ih =>
    cases d <;> simp [specImports, ih]

namespace parser

theorem parseImportSpec_imports {doc : Option CommentGroup} {p q : parser} {s : Spec}
    (hp : p.Inv) (h : parseImportSpec doc p = .ok s q) :
    q.imports = p.imports ++ specImports [s] := by
  have tail : ∀ (path : GoString) (q2 : parser), q2.Inv →
      ((do
        expectSemi
        let p1 ← getP
        let spec : ImportSpec := ⟨doc, ⟨p.pos, .STRING, path⟩, p1.lineComment, 0⟩
        modP (fun q => { q with imports := q.imports ++ [spec] })
        pure (Spec.ImportSpec spec) : P Spec) q2) = .ok s q →
      q.imports = q2.imports ++ specImports [s] := by
    intro path q2 h2 h
    obtain ⟨_, q3, e3, h⟩ := P.bind_eq_ok.mp h
    have f3 := (expectSemi_good q2 h2).frame_eq e3
    cases h
    show q3.imports ++ _ = _
    rw [f3.imports rfl]
    rfl
  have tail1 : ∀ (q1 : parser), q1.Inv →
      ((do
        next
        let y ← pure p.lit
        (fun path => do
          expectSemi
          let p1 ← getP
          let spec : ImportSpec := ⟨doc, ⟨p.pos, .STRING, path⟩, p1.lineComment, 0⟩
          modP (fun q => { q with imports := q.imports ++ [spec] })
          pure (Spec.ImportSpec spec) : GoString → P Spec) y) q1) = .ok s q →
      q.imports = q1.imports ++ specImports [s] := by
    intro q1 h1 h
    obtain ⟨_, q2, e2, h⟩ := P.bind_eq_ok.mp h
    have f2 := (next_good false q1 h1).frame_eq e2
    rw [← f2.imports rfl]
    exact tail _ q2 f2.inv h
  unfold parseImportSpec at h
  rw [getP_bind_apply] at h
  split_ifs at h with h1 h2
  · exact tail1 p hp h
  · obtain ⟨_, q1, e1, h⟩ := P.bind_eq_ok.mp h
    have f1 := (error_good false _ _ p hp (fun h => Bool.noConfusion h)).frame_eq e1
    have i1 : q1.imports = p.imports := by
      rcases error_cases p.pos (str "invalid import path: " ++ p.lit) p with e | e | e <;>
        rw [e] at e1 <;> cases e1 <;> rfl
    rw [← i1]
    exact tail1 q1 f1.inv h
  · obtain ⟨_, q1, e1, h⟩ := P.bind_eq_ok.mp h
    have f1 := (expect_good _ p hp).frame_eq e1
    rw [← f1.imports rfl]
    exact tail _ q1 f1.inv h

theorem genDeclLoop_imports : ∀ (fuel : Nat) (list : List Spec) (p q : parser) (r : List Spec),
    p.Inv → genDeclLoop parseImportSpec fuel list p = .ok r q →
    ∃ new, r = list ++ new ∧ q.imports = p.imports ++ specImports new := by
  intro fuel
  induction fuel with
  | zero =>
    intro _ _ _ _ _ h
    cases h
  | succ fuel ih =>
    intro list p q r hp h
    unfold genDeclLoop at h
    split_ifs at h with h0
    · split at h
      next s q1 e1 =>
        have f1 := (parseImportSpec_good p.leadComment p hp).frame_eq e1
        obtain ⟨new, e, hi⟩ := ih _ q1 q r f1.inv h
        refine ⟨s :: new, by rw [e]; simp, ?_⟩
        rw [hi, parseImportSpec_imports hp e1, List.append_assoc, ← specImports_append]
        rfl
      next => cases h
      next => cases h
    · cases h
      exact ⟨[], by simp, by simp [specImports]⟩

theorem parseGenDecl_tok {keyword : Token} {f : Option CommentGroup → P Spec} {p q : parser}
    {d : GenDecl} (h : parseGenDecl keyword f p = .ok d q) : d.Tok = keyword := by
  unfold parseGenDecl at h
  rw [getP_bind_apply] at h
  obtain ⟨_, q1, _, h⟩ := P.bind_eq_ok.mp h
  rw [getP_bind_apply] at h
  split_ifs at h
  · obtain ⟨_, q2, _, h⟩ := P.bind_eq_ok.mp h
    obtain ⟨_, q3, _, h⟩ := P.bind_eq_ok.mp h
    obtain ⟨_, q4, _, h⟩ := P.bind_eq_ok.mp h
    obtain ⟨_, q5, _, h⟩ := P.bind_eq_ok.mp h
    cases h
    rfl
  · obtain ⟨_, q2, _, h⟩ := P.bind_eq_ok.mp h
    cases h
    rfl

theorem parseGenDecl_imports {p q : parser} {d : GenDecl} (hp : p.Inv)
    (h : parseGenDecl .IMPORT parseImportSpec p = .ok d q) :
    q.imports = p.imports ++ specImports d.Specs := by
  unfold parseGenDecl at h
  rw [getP_bind_apply] at h
  obtain ⟨_, q1, e1, h⟩ := P.bind_eq_ok.mp h
  have f1 := (expect_good _ p hp).frame_eq e1
  rw [getP_bind_apply] at h
  rw [← f1.imports rfl]
  split_ifs at h
  · obtain ⟨_, q2, e2, h⟩ := P.bind_eq_ok.mp h
    have f2 := (next_good false q1 f1.inv).frame_eq e2
    obtain ⟨list, q3, e3, h⟩ := P.bind_eq_ok.mp h
    obtain ⟨new, en, hi⟩ := genDeclLoop_imports _ _ q2 q3 list f2.inv e3
    have f3 := (genDeclLoop_good false _ parseImportSpec_good _ [] q2 f2.inv
      (by have := q2.tokens_lt_fuel f2.inv; omega)).frame_eq e3
    obtain ⟨_, q4, e4, h⟩ := P.bind_eq_ok.mp h
    have f4 := (expect_good _ q3 f3.inv).frame_eq e4
    obtain ⟨_, q5, e5, h⟩ := P.bind_eq_ok.mp h
    have f5 := (expectSemi_good q4 f4.inv).frame_eq e5
    cases h
    rw [f5.imports rfl, f4.imports rfl, hi, f2.imports rfl, en]
    rfl
  · obtain ⟨s, q2, e2, h⟩ := P.bind_eq_ok.mp h
    cases h
    exact parseImportSpec_imports f1.inv e2

theorem parseDecl_imports {sync : Token → Bool} {p q : parser} {d : Decl} (hp : p.Inv)
    (h : parseDecl sync p = .ok d q) : q.imports = p.imports ++ importsOf [d] := by
  cases ht : declTok p.tok with
  | false =>
    have g := bad_good sync p hp
    rw [← parseDecl_bad sync p ht] at g
    have e := h
    rw [parseDecl_bad sync p ht] at e
    obtain ⟨_, q1, _, e⟩ := P.bind_eq_ok.mp e
    obtain ⟨_, q2, _, e⟩ := P.bind_eq_ok.mp e
    cases e
    rw [(g.frame_eq h).imports rfl]
    simp [importsOf]
  | true =>
    unfold parseDecl at h
    rw [getP_bind_apply] at h
    split_ifs at h with h1 h2 h3 h4
    · obtain ⟨x, q1, e1, h⟩ := P.bind_eq_ok.mp h
      cases h
      have g := parseGenDecl_good true p.tok parseTypeSpec
        (fun doc q hq => parseTypeSpec_good doc q hq) p hp
      have ht := parseGenDecl_tok e1
      rw [(g.frame_eq e1).imports rfl]
      simp [importsOf, ht, h1]
    · obtain ⟨x, q1, e1, h⟩ := P.bind_eq_ok.mp h
      cases h
      rw [((parseService_good p hp).frame_eq e1).imports rfl]
      simp [importsOf]
    · obtain ⟨x, q1, e1, h⟩ := P.bind_eq_ok.mp h
      cases h
      rw [((parseInfoType_good p hp).frame_eq e1).imports rfl]
      simp [importsOf]
    · obtain ⟨x, q1, e1, h⟩ := P.bind_eq_ok.mp h
      cases h
      rw [parseGenDecl_imports hp e1]
      simp [importsOf, parseGenDecl_tok e1]
    · exfalso
      revert ht
      unfold declTok
      simp only [h1, h3, h4, not_or.mp h2, or_self, decide_False]
      decide

theorem declsLoop_imports : ∀ (fuel : Nat) (decls : List Decl) (p q : parser) (r : List Decl),
    p.Inv → declsLoop fuel decls p = .ok r q →
    ∃ new, r = decls ++ new ∧ q.imports = p.imports ++ importsOf new := by
  intro fuel
  induction fuel with
  | zero =>
    intro _ _ _ _ _ h
    cases h
  | succ fuel ih =>
    intro decls p q r hp h
    unfold declsLoop at h
    split_ifs at h with h0
    · split at h
      next d q1 e1 =>
        have f1 := (parseDecl_good declStart p hp).frame_eq e1
        obtain ⟨new, e, hi⟩ := ih _ q1 q r f1.inv h
        refine ⟨d :: new, by rw [e]; simp, ?_⟩
        rw [hi, parseDecl_imports hp e1, List.append_assoc, ← importsOf_append]
        rfl
      next => cases h
      next => cases h
    · cases h
      exact ⟨[], by simp, by simp [importsOf]⟩

theorem parseFile_imports {p q : parser} {f : AstFile} (hp : p.Inv) (hi : p.imports = [])
    (h : parseFile p = .ok (some f) q) : f.Imports = importsOf f.Decls := by
  unfold parseFile at h
  rw [getP_bind_apply] at h
  split_ifs at h with h1 h2
  · cases h
  · obtain ⟨syn, q1, e1, h⟩ := P.bind_eq_ok.mp h
    have f1 := (parseSyntax_good p hp).frame_eq e1
    obtain ⟨decls, q2, e2, h⟩ := P.bind_eq_ok.mp h
    obtain ⟨new, en, hn⟩ := declsLoop_imports _ _ q1 q2 decls f1.inv e2
    rw [getP_bind_apply] at h
    have key : f = ⟨p.leadComment, some syn, decls, q2.imports, q2.comments⟩ := by
      split_ifs at h
      · obtain ⟨_, q3, e3, h⟩ := P.bind_eq_ok.mp h
        cases e3
        cases h
        rfl
      · obtain ⟨_, q3, e3, h⟩ := P.bind_eq_ok.mp h
        cases e3
        cases h
        rfl
    rw [key]
    show q2.imports = importsOf decls
    rw [hn, f1.imports rfl, hi, en]
    rfl
  · obtain ⟨_, q1, _, h⟩ := P.bind_eq_ok.mp h
    obtain ⟨_, q2, e2, _⟩ := P.bind_eq_ok.mp h
    cases e2

end parser

theorem parseRun_imports {lib : Lib} {base : Nat} {filename src : GoString} {mode : Nat}
    {f : AstFile} {q : parser} (h : parseRun lib base filename src mode = .ok (some f) q) :
    f.Imports = importsOf f.Decls := by
  obtain ⟨_, q1, e1, f1, _⟩ :=
    (parser.next_good false _ (parser.start_inv lib base filename src mode)).returns
  unfold parseRun at h
  rw [parser.init_eq, e1] at h
  exact parser.parseFile_imports f1.inv (f1.imports rfl) h
/-- C8: for every input on which `parseFile` builds a `File`, and for every
`File` that `ParseFile` returns, `File.Imports` is the sequence of the
`ImportSpec` nodes obtained by walking `File.Decls` in order and taking, for
each `GenDecl` with `Tok == IMPORT`, its specs in order. For the source of
the example test the paths are `"a/b.api"`, `"c.api"` and `"d/d.api"`, in
that order. -/
theorem ParseFile_imports :
    (∀ (lib : Lib) (base : Nat) (filename src : GoString) (mode : Nat) (f : AstFile)
      (q : parser), parseRun lib base filename src mode = .ok (some f) q →
        f.Imports = importsOf f.Decls) ∧
    (∀ (lib : Lib) (base : Nat) (filename src : GoString) (mode : Nat) (f : AstFile)
      (err : Option ErrorList), ParseFile lib base filename src mode = .returned f err →
        f.Imports = importsOf f.Decls) ∧
    (ParseFile asciiLib 1 [] exampleSrc 18).file.map
        (fun f => f.Imports.map (fun s => s.Path.Value)) =
      some [str "\"a/b.api\"", str "\"c.api\"", str "\"d/d.api\""] := by
  refine ⟨fun lib base filename src mode f q h => parseRun_imports h,
    fun lib base filename src mode f err h => ?_, by decide!⟩
  unfold ParseFile at h
  cases hr : parseRun lib base filename src mode with
  | ok x p =>
    rw [hr] at h
    cases x with
    | none =>
      cases h
      rfl
    | some g =>
      cases h
      exact parseRun_imports hr
  | panicked e p =>
    rw [hr] at h
    cases e with
    | bailout =>
      cases h
      rfl
    | other m => cases h
  | outOfFuel =>
    rw [hr] at h
    cases h

/-- Witness of `ParseFile_imports`: the file that `ParseFile` returns for the
source of the example test. -/
theorem ParseFile_imports_witness :
    ∃ f err, ParseFile asciiLib 1 [] exampleSrc 18 = .returned f err ∧
      f.Imports = importsOf f.Decls ∧
      f.Imports.map (fun s => s.Path.Value) =
        [str "\"a/b.api\"", str "\"c.api\"", str "\"d/d.api\""] := by
  have h3 := ParseFile_imports.2.2
  cases h : ParseFile asciiLib 1 [] exampleSrc 18 with
  | returned f err =>
    rw [h] at h3
    exact ⟨f, err, rfl, ParseFile_imports.2.1 asciiLib 1 [] exampleSrc 18 f err h,
      Option.some.inj h3⟩
  | panics m =>
    rw [h] at h3
    cases h3
  | outOfFuel =>
    rw [h] at h3
    cases h3

theorem swapFrom_plain (c : whiteSpace) (rest : List whiteSpace) (h : swapAhead (c :: rest) = 0) :
    swapFrom c rest = c :: lineBreaksSwapped rest := by
  cases rest with
  | nil => rfl
  | cons u r =>
    have : ¬ (isLineBreak c = true ∧ u = whiteSpace.unindent) := by
      intro hc; simp [swapAhead, hc] at h
    simp [swapFrom, lineBreaksSwapped, this]

theorem swapAhead_le (l : List whiteSpace) : swapAhead l ≤ 1 := by
  unfold swapAhead; split
  · split_ifs <;> omega
  · omega

theorem swapAhead_plain (c : whiteSpace) (rest : List whiteSpace) (h : isLineBreak c = false) :
    swapAhead (c :: rest) = 0 := by
  cases rest with
  | nil => rfl
  | cons u r => simp [swapAhead, h]

theorem lineBreaksSwapped_length (l : List whiteSpace) :
    (lineBreaksSwapped l).length = l.length := by
  have h : ∀ (rest : List whiteSpace) (c : whiteSpace), (swapFrom c rest).length = rest.length + 1 := by
    intro rest
    induction rest with
    | nil => intro c; rfl
    | cons u r ih =>
      intro c; unfold swapFrom; split_ifs
      · simp [ih]
      · simp [ih]
  cases l with
  | nil => rfl
  | cons c rest => exact h rest c

theorem wsbuf_at (pre seg post : List whiteSpace) (c : whiteSpace) :
    (pre ++ (c :: seg) ++ post)[pre.length]? = some c := by
  rw [List.append_assoc, List.getElem?_append_right (Nat.le_refl _)]
  simp

theorem wsbuf_next (pre seg post : List whiteSpace) (c u : whiteSpace) :
    (pre ++ (c :: u :: seg) ++ post)[pre.length + 1]? = some u := by
  rw [List.append_assoc, List.getElem?_append_right (Nat.le_add_right _ _)]
  simp

theorem wsbuf_set (pre seg post : List whiteSpace) (c u x y : whiteSpace) :
    ((pre ++ (c :: u :: seg) ++ post).set pre.length x).set (pre.length + 1) y
      = pre ++ (x :: y :: seg) ++ post := by
  simp [List.set_append]
theorem indentChange_cons (c : whiteSpace) (l : List whiteSpace) :
    indentChange (c :: l) = indentChange l
      + (if c = whiteSpace.indent then 1 else 0) - (if c = whiteSpace.unindent then 1 else 0) := by
  unfold indentChange
  simp only [List.count_cons, beq_iff_eq, Int.ofNat_eq_coe]
  split_ifs with h1 h2 h2
  · rw [h1] at h2; simp [whiteSpace.indent, whiteSpace.unindent] at h2
  · push_cast; omega
  · push_cast; omega
  · push_cast; omega

theorem WsDone.advance {pre rest post : List whiteSpace} {c : whiteSpace} {p p1 : printer}
    {r : PrintRes Unit} (h : WsDone (pre ++ [c]) rest post p1 r) (hs : swapAhead (c :: rest) = 0)
    (hi : p1.indent + indentChange rest = p.indent + indentChange (c :: rest))
    (hc : ∀ l, p1.calls ++ entriesWritten l p1.indent = p.calls ++ entriesWritten (c :: l) p.indent)
    (ho : p1.output = p.output)
    (hg : goesNegative (c :: rest) p.indent = goesNegative rest p1.indent) :
    WsDone pre (c :: rest) post p r := by
  have hl : lineBreaksSwapped (c :: rest) = c :: lineBreaksSwapped rest := swapFrom_plain c rest hs
  rcases h with ⟨q, e, hw, hk, hcl, hout, hn⟩ | ⟨q, a, e, hk, hout, hn⟩
  · refine Or.inl ⟨q, e, ?_, ?_, ?_, ?_, ?_⟩
    · rw [hw, hl]; simp
    · rw [hk, hi]
    · rw [hcl, hl, hc]
    · rw [hout, ho]
    · rw [hg, hn]
  · exact Or.inr ⟨q, a, e, hk, by rw [hout, ho], by rw [hg, hn]⟩

theorem writeWhitespaceLoop_done : ∀ (fuel : Nat) (pre seg post : List whiteSpace) (p : printer),
    p.wsbuf = pre ++ seg ++ post → 2 * seg.length + swapAhead seg < fuel →
    WsDone pre seg post p
      (printer.writeWhitespaceLoop fuel (pre.length + seg.length) pre.length p) := by
  intro fuel
  induction fuel with
  | zero => intro pre seg post p _ h; omega
  | succ f ih =>
    intro pre seg post p hb hf
    cases seg with
    | nil =>
      refine Or.inl ⟨p, ?_, ?_, ?_, ?_, rfl, rfl⟩
      · simp [printer.writeWhitespaceLoop]
      · simpa [lineBreaksSwapped] using hb
      · simp [indentChange]
      · simp [lineBreaksSwapped, entriesWritten]
    | cons c rest =>
      have hlt : pre.length < pre.length + (c :: rest).length := by simp
      have hat : p.wsbuf[pre.length]? = some c := by rw [hb]; exact wsbuf_at pre rest post c
      have hn1 : pre.length + (c :: rest).length = (pre ++ [c]).length + rest.length := by
        simp; omega
      have hp1 : (pre ++ [c]).length = pre.length + 1 := by simp
      have hb1 : p.wsbuf = (pre ++ [c]) ++ rest ++ post := by rw [hb]; simp
      have hle := swapAhead_le rest
      have hf1 : 2 * rest.length + swapAhead rest < f := by
        simp only [List.length_cons] at hf; omega
      rw [printer.writeWhitespaceLoop, if_pos hlt, hat]
      dsimp only
      by_cases h1 : c = whiteSpace.ignore
      · rw [if_pos h1, hn1, ← hp1]
        refine (ih (pre ++ [c]) rest post p hb1 hf1).advance ?_ ?_ ?_ rfl ?_
        · exact swapAhead_plain c rest (by rw [h1]; rfl)
        · rw [indentChange_cons, h1]; simp [whiteSpace.ignore, whiteSpace.indent, whiteSpace.unindent]
        · intro l; rw [h1]; simp [entriesWritten]
        · rw [h1]; simp [goesNegative, whiteSpace.ignore, whiteSpace.indent, whiteSpace.unindent]
      rw [if_neg h1]
      by_cases h2 : c = whiteSpace.indent
      · rw [if_pos h2, hn1, ← hp1]
        refine (ih (pre ++ [c]) rest post { p with indent := p.indent + 1 } hb1 hf1).advance
          ?_ ?_ ?_ rfl ?_
        · exact swapAhead_plain c rest (by rw [h2]; rfl)
        · rw [indentChange_cons, h2]
          simp [whiteSpace.indent, whiteSpace.unindent]; omega
        · intro l; rw [h2]; simp [entriesWritten, whiteSpace.ignore, whiteSpace.indent]
        · rw [h2]; simp [goesNegative, whiteSpace.indent, whiteSpace.unindent]
      rw [if_neg h2]
      by_cases h3 : c = whiteSpace.unindent
      · rw [if_pos h3]
        by_cases hneg : p.indent - 1 < 0
        · rw [if_pos hneg]
          refine Or.inr ⟨_, p.indent - 1, rfl, hneg, rfl, ?_⟩
          rw [h3]; simp [goesNegative, hneg]
        · rw [if_neg hneg, hn1, ← hp1]
          refine (ih (pre ++ [c]) rest post { p with indent := p.indent - 1 } hb1 hf1).advance
            ?_ ?_ ?_ rfl ?_
          · exact swapAhead_plain c rest (by rw [h3]; rfl)
          · rw [indentChange_cons, h3]
            simp [whiteSpace.indent, whiteSpace.unindent]; omega
          · intro l; rw [h3]
            simp [entriesWritten, whiteSpace.ignore, whiteSpace.indent, whiteSpace.unindent]
          · rw [h3]; simp [goesNegative, hneg]
      rw [if_neg h3]
      have hplain : ∀ (hs : swapAhead (c :: rest) = 0),
          WsDone pre (c :: rest) post p
            (printer.writeWhitespaceLoop f (pre.length + (c :: rest).length) (pre.length + 1)
              (p.writeByte c 1)) := by
        intro hs
        rw [hn1, ← hp1]
        refine (ih (pre ++ [c]) rest post (p.writeByte c 1) hb1 hf1).advance hs ?_ ?_ rfl ?_
        · rw [indentChange_cons, if_neg h2, if_neg h3]; simp [printer.writeByte]
        · intro l; simp [entriesWritten, h1, h2, h3, printer.writeByte]
        · simp [goesNegative, h2, h3, printer.writeByte]
      by_cases h4 : c = whiteSpace.newline ∨ c = whiteSpace.formfeed
      · rw [if_pos h4]
        have hbrk : isLineBreak c = true := by simpa [isLineBreak] using h4
        cases rest with
        | nil =>
          have : ¬ (pre.length + 1 < pre.length + [c].length) := by simp
          rw [if_neg this]
          exact hplain rfl
        | cons u r =>
          have hlt2 : pre.length + 1 < pre.length + (c :: u :: r).length := by simp
          have hat2 : p.wsbuf[pre.length + 1]? = some u := by
            rw [hb]; exact wsbuf_next pre r post c u
          rw [if_pos hlt2, hat2]
          dsimp only
          by_cases h5 : u = whiteSpace.unindent
          · rw [if_pos h5]
            have hbuf : (p.wsbuf.set pre.length whiteSpace.unindent).set (pre.length + 1)
                whiteSpace.formfeed
                = pre ++ (whiteSpace.unindent :: whiteSpace.formfeed :: r) ++ post := by
              rw [hb]; exact wsbuf_set pre r post c u _ _
            rw [hbuf]
            have hsw : swapAhead (c :: u :: r) = 1 := by simp [swapAhead, hbrk, h5]
            have hf2 : 2 * (whiteSpace.unindent :: whiteSpace.formfeed :: r).length
                + swapAhead (whiteSpace.unindent :: whiteSpace.formfeed :: r) < f := by
              have : swapAhead (whiteSpace.unindent :: whiteSpace.formfeed :: r) = 0 := by
                simp [swapAhead, isLineBreak, whiteSpace.unindent, whiteSpace.newline,
                  whiteSpace.formfeed]
              rw [this]; simp only [List.length_cons] at hf ⊢; omega
            have hlen : (c :: u :: r).length
                = (whiteSpace.unindent :: whiteSpace.formfeed :: r).length := rfl
            rw [hlen]
            have key := ih pre (whiteSpace.unindent :: whiteSpace.formfeed :: r) post
              { p with wsbuf := pre ++ (whiteSpace.unindent :: whiteSpace.formfeed :: r) ++ post }
              rfl hf2
            have e1 : lineBreaksSwapped (c :: u :: r)
                = lineBreaksSwapped (whiteSpace.unindent :: whiteSpace.formfeed :: r) := by
              have a : swapFrom c (u :: r)
                  = whiteSpace.unindent :: swapFrom whiteSpace.formfeed r := by
                rw [swapFrom, if_pos ⟨hbrk, h5⟩]
              have b : swapFrom whiteSpace.unindent (whiteSpace.formfeed :: r)
                  = whiteSpace.unindent :: swapFrom whiteSpace.formfeed r := by
                rw [swapFrom, if_neg (by decide)]
              show swapFrom c (u :: r) = swapFrom whiteSpace.unindent (whiteSpace.formfeed :: r)
              rw [a, b]
            have e2 : indentChange (c :: u :: r)
                = indentChange (whiteSpace.unindent :: whiteSpace.formfeed :: r) := by
              rw [indentChange_cons, indentChange_cons, indentChange_cons, indentChange_cons,
                if_neg h2, if_neg h3, h5]
              simp [whiteSpace.indent, whiteSpace.unindent, whiteSpace.formfeed]
            have e3 : ∀ k, goesNegative (c :: u :: r) k
                = goesNegative (whiteSpace.unindent :: whiteSpace.formfeed :: r) k := by
              intro k
              have a : goesNegative (c :: u :: r) k
                  = (decide (k - 1 < 0) || goesNegative r (k - 1)) := by
                rw [goesNegative, if_neg h3, if_neg h2, h5, goesNegative, if_pos rfl]
              have b : goesNegative (whiteSpace.unindent :: whiteSpace.formfeed :: r) k
                  = (decide (k - 1 < 0) || goesNegative r (k - 1)) := by
                rw [goesNegative, if_pos rfl, goesNegative, if_neg (by decide),
                  if_neg (by decide)]
              rw [a, b]
            unfold WsDone at key ⊢
            rw [e1, e2, e3]
            exact key
          · rw [if_neg h5]
            exact hplain (by simp [swapAhead, h5])
      · rw [if_neg h4]
        exact hplain (swapAhead_plain c rest (by simpa [isLineBreak] using h4))
theorem writeWhitespaceLoop_fuel : ∀ (fuel n i : Nat) (p : printer),
    (2 * (n - i) + 1 < fuel ∨
      (2 * (n - i) < fuel ∧ ∀ c, p.wsbuf[i]? = some c → isLineBreak c = false)) →
    printer.writeWhitespaceLoop fuel n i p ≠ .outOfFuel := by
  intro fuel
  induction fuel with
  | zero => intro n i p h; omega
  | succ f ih =>
    intro n i p h
    have hadv : ∀ q : printer, i < n → printer.writeWhitespaceLoop f n (i + 1) q ≠ .outOfFuel := by
      intro q hlt
      exact ih n (i + 1) q (Or.inl (by omega))
    rw [printer.writeWhitespaceLoop]
    by_cases hlt : i < n
    · rw [if_pos hlt]
      cases hch : p.wsbuf[i]? with
      | none => exact fun e => PrintRes.noConfusion e
      | some ch =>
        dsimp only
        by_cases h1 : ch = whiteSpace.ignore
        · rw [if_pos h1]; exact hadv _ hlt
        rw [if_neg h1]
        by_cases h2 : ch = whiteSpace.indent
        · rw [if_pos h2]; exact hadv _ hlt
        rw [if_neg h2]
        by_cases h3 : ch = whiteSpace.unindent
        · rw [if_pos h3]
          by_cases hneg : p.indent - 1 < 0
          · rw [if_pos hneg]; exact fun e => PrintRes.noConfusion e
          · rw [if_neg hneg]; exact hadv _ hlt
        rw [if_neg h3]
        by_cases h4 : ch = whiteSpace.newline ∨ ch = whiteSpace.formfeed
        · rw [if_pos h4]
          by_cases h5 : i + 1 < n
          · rw [if_pos h5]
            cases hu : p.wsbuf[i + 1]? with
            | none => exact fun e => PrintRes.noConfusion e
            | some u =>
              dsimp only
              by_cases h6 : u = whiteSpace.unindent
              · rw [if_pos h6]
                have hbrk : isLineBreak ch = true := by simpa [isLineBreak] using h4
                have hfu : 2 * (n - i) + 1 < f + 1 := by
                  rcases h with h | ⟨_, h⟩
                  · exact h
                  · rw [h ch hch] at hbrk; exact Bool.noConfusion hbrk
                refine ih n i _ (Or.inr ⟨by omega, ?_⟩)
                intro c hc
                have hlen : i < p.wsbuf.length := by
                  by_contra hge
                  rw [List.getElem?_eq_none (by omega)] at hch
                  exact Option.noConfusion hch
                have : c = whiteSpace.unindent := by
                  simp [List.getElem?_set, hlen] at hc
                  exact hc.symm
                rw [this]; rfl
              · rw [if_neg h6]; exact hadv _ hlt
          · rw [if_neg h5]; exact hadv _ hlt
        · rw [if_neg h4]; exact hadv _ hlt
    · rw [if_neg hlt]; exact fun e => PrintRes.noConfusion e

theorem writeWhitespace_returns (p : printer) (n : Nat) : p.writeWhitespace n ≠ .outOfFuel := by
  unfold printer.writeWhitespace
  have h := writeWhitespaceLoop_fuel (2 * n + 2) n 0 p (Or.inl (by omega))
  cases e : printer.writeWhitespaceLoop (2 * n + 2) n 0 p with
  | ok _ q =>
    simp only [PrintRes.andThen]
    split_ifs <;> exact fun e => PrintRes.noConfusion e
  | panicked c q => exact fun e => PrintRes.noConfusion e
  | outOfFuel => exact absurd e h

theorem writeWhitespace_done (p : printer) (n : Nat) (hn : n ≤ p.wsbuf.length) :
    (∃ q, p.writeWhitespace n = .ok () q ∧ q.wsbuf = p.wsbuf.drop n ∧
        q.indent = p.indent + indentChange (p.wsbuf.take n) ∧
        q.calls = p.calls ++ entriesWritten (lineBreaksSwapped (p.wsbuf.take n)) p.indent ∧
        q.output = p.output ∧ goesNegative (p.wsbuf.take n) p.indent = false) ∨
    (∃ q a, p.writeWhitespace n = .panicked (.internal (str "negative indentation:") [a]) q ∧
        q.indent < 0 ∧ q.output = p.output ∧ goesNegative (p.wsbuf.take n) p.indent = true) := by
  have hlen : (p.wsbuf.take n).length = n := by simp [hn]
  have hb : p.wsbuf = [] ++ p.wsbuf.take n ++ p.wsbuf.drop n := by simp
  have hsw := swapAhead_le (p.wsbuf.take n)
  have h := writeWhitespaceLoop_done (2 * n + 2) [] (p.wsbuf.take n) (p.wsbuf.drop n) p hb
    (by rw [hlen]; omega)
  rw [hlen] at h
  simp only [List.length_nil, Nat.zero_add] at h
  unfold printer.writeWhitespace
  rcases h with ⟨q, e, hw, hk, hc, ho, hg⟩ | ⟨q, a, e, hk, ho, hg⟩
  · have hql : n ≤ q.wsbuf.length := by
      rw [hw]; simp only [List.length_append, lineBreaksSwapped_length, hlen]; omega
    refine Or.inl ⟨{ q with wsbuf := q.wsbuf.drop n }, ?_, ?_, hk, hc, ho, hg⟩
    · rw [e]; simp only [PrintRes.andThen]; rw [if_pos hql]
    · show q.wsbuf.drop n = p.wsbuf.drop n
      rw [hw, List.nil_append, List.drop_append_eq_append_drop]
      have hl2 : (lineBreaksSwapped (List.take n p.wsbuf)).length = n := by
        rw [lineBreaksSwapped_length, hlen]
      rw [List.drop_of_length_le (by omega), hl2]
      simp
  · exact Or.inr ⟨q, a, by rw [e]; rfl, hk, ho, hg⟩

theorem goesNegative_eq : ∀ (l : List whiteSpace) (k : Int), 0 ≤ k →
    goesNegative l k = unindentAtZero l k := by
  intro l
  induction l with
  | nil => intro k _; rfl
  | cons c rest ih =>
    intro k hk
    rw [goesNegative, unindentAtZero]
    split_ifs with h1 h2
    · by_cases h0 : k = 0
      · simp [h0]
      · rw [ih (k - 1) (by omega)]
        have a : decide (k - 1 < 0) = false := by simp; omega
        have b : decide (k = 0) = false := by simp [h0]
        rw [a, b]
    · exact ih (k + 1) (by omega)
    · exact ih k hk

theorem goesNegative_indent : ∀ (l : List whiteSpace) (k : Int), 0 ≤ k →
    goesNegative l k = false → 0 ≤ k + indentChange l := by
  intro l
  induction l with
  | nil => intro k hk _; simpa [indentChange] using hk
  | cons c rest ih =>
    intro k hk hg
    rw [goesNegative] at hg
    rw [indentChange_cons]
    split_ifs at hg with h1 h2
    · simp only [Bool.or_eq_false_iff, decide_eq_false_iff_not] at hg
      have := ih (k - 1) (by omega) hg.2
      have hne : ¬ c = whiteSpace.indent := by rw [h1]; decide
      rw [if_neg hne, if_pos h1]; omega
    · have := ih (k + 1) (by omega) hg
      rw [if_pos h2, if_neg h1]; omega
    · have := ih k hk hg
      rw [if_neg h2, if_neg h1]; omega

/-- C29: `writeWhitespace(n)` with `n` at most the length of the white space
buffer never runs out of the fuel of the model, and it either panics with the
internal error or returns; when it returns, the buffer holds the entries after
the first `n` in their order, the indentation has changed by the number of
indent entries minus the number of unindent entries among the first `n`, and
the bytes written, each with the indentation at which it is written, are those
of the first `n` entries taken in order after every line break immediately
followed by an unindent has been replaced by the unindent followed by a
formfeed. The first statement holds for every `n`. -/
theorem writeWhitespace_first_n (p : printer) (n : Nat) :
    p.writeWhitespace n ≠ .outOfFuel ∧
    (n ≤ p.wsbuf.length →
      (∃ q, p.writeWhitespace n = .ok () q ∧ q.wsbuf = p.wsbuf.drop n ∧
          q.indent = p.indent + indentChange (p.wsbuf.take n) ∧
          q.calls = p.calls ++ entriesWritten (lineBreaksSwapped (p.wsbuf.take n)) p.indent ∧
          q.output = p.output) ∨
      (∃ q a, p.writeWhitespace n
          = .panicked (.internal (str "negative indentation:") [a]) q)) := by
  refine ⟨writeWhitespace_returns p n, fun hn => ?_⟩
  rcases writeWhitespace_done p n hn with ⟨q, e, hw, hk, hc, ho, _⟩ | ⟨q, a, e, _⟩
  · exact Or.inl ⟨q, e, hw, hk, hc, ho⟩
  · exact Or.inr ⟨q, a, e⟩

/-- Witness of C29: indentation 1 and the buffer `newline, unindent, blank,
indent` with `n = 3`. -/
theorem writeWhitespace_first_n_witness :
    3 ≤ ([10, 60, 32, 62] : List whiteSpace).length ∧
    ((∃ q, printer.writeWhitespace { printer.init ⟨0, 8, 0⟩ with indent := 1, wsbuf := [10, 60, 32, 62] } 3
            = .ok () q ∧
          q.wsbuf = [62] ∧ q.indent = 1 + indentChange [10, 60, 32] ∧
          q.calls = [] ++ entriesWritten (lineBreaksSwapped [10, 60, 32]) 1 ∧
          q.output = []) ∨
      (∃ q a, printer.writeWhitespace { printer.init ⟨0, 8, 0⟩ with indent := 1, wsbuf := [10, 60, 32, 62] } 3
          = .panicked (.internal (str "negative indentation:") [a]) q)) :=
  ⟨by decide,
    (writeWhitespace_first_n { printer.init ⟨0, 8, 0⟩ with indent := 1, wsbuf := [10, 60, 32, 62] } 3).2
      (by decide)⟩

theorem printNode_error (m : Callees) (node : Node) (p : printer) (q : printer)
    (a : Option GoString) (h : p.printNode m node = .ok a q) :
    a = some (str "go/printer: unsupported node type " ++ node.typeName) := by
  unfold printer.printNode at h
  simp only [PrintRes.andThen] at h
  split at h
  · split at h
    · split at h
      · cases h; rfl
      · exact PrintRes.noConfusion h
      · exact PrintRes.noConfusion h
    · exact PrintRes.noConfusion h
    · exact PrintRes.noConfusion h
  · exact PrintRes.noConfusion h
  · exact PrintRes.noConfusion h

theorem fprint_cases (m : Callees) (cfg : Config) (node : Node) :
    cfg.fprint m node
        = .returned (some (str "go/printer: unsupported node type " ++ node.typeName)) [] ∨
      (∃ e, cfg.fprint m node = .panics e) ∨ cfg.fprint m node = .outOfFuel := by
  unfold Config.fprint
  dsimp only
  generalize hr : printer.printNode m node (printer.init cfg) = r
  cases r with
  | ok a q =>
    have ha := printNode_error m node _ q a hr
    subst ha
    exact Or.inl rfl
  | panicked e q => exact Or.inr (Or.inl ⟨e, rfl⟩)
  | outOfFuel => exact Or.inr (Or.inr rfl)

/-- C27 (the code departs from the claim): whatever the methods that are not
embedded do, `Fprint` of a file does not return a nil error. It returns the
error `go/printer: unsupported node type *ast.File` with nothing written,
unless a panic escapes or a method that is not embedded does not return. -/
theorem Fprint_file_unsupported (m : Callees) (f : AstFile) :
    Fprint m (.File f)
        = .returned (some (str "go/printer: unsupported node type *ast.File")) [] ∨
      (∃ e, Fprint m (.File f) = .panics e) ∨ Fprint m (.File f) = .outOfFuel :=
  fprint_cases m ⟨0, 8, 0⟩ (.File f)

/-- C28 (the code departs from the claim): whatever the methods that are not
embedded do, `Format` of a file never succeeds with an output. It returns nil
bytes and the error `go/printer: unsupported node type *ast.File`, unless a
panic escapes or a method that is not embedded does not return. -/
theorem Format_returns_error (m : Callees) (cfg : Config) (f : AstFile) :
    internal.Format m cfg f
        = .returned none (some (str "go/printer: unsupported node type *ast.File")) ∨
      (∃ e, internal.Format m cfg f = .panics e) ∨ internal.Format m cfg f = .outOfFuel := by
  have hf : Config.Fprint m cfg (.File f) = cfg.fprint m (.File f) := rfl
  have heq : str "go/printer: unsupported node type " ++ (Node.File f).typeName
      = str "go/printer: unsupported node type *ast.File" := rfl
  unfold internal.Format
  rw [hf]
  rcases fprint_cases m cfg (.File f) with h | ⟨e, h⟩ | h
  · rw [h, heq]; exact Or.inl rfl
  · rw [h]; exact Or.inr (Or.inl ⟨e, rfl⟩)
  · rw [h]; exact Or.inr (Or.inr rfl)

theorem EncodeRune_two (b b1 : Nat) (h : 194 ≤ b ∧ b < 224) (h1 : 128 ≤ b1 ∧ b1 ≤ 191) :
    EncodeRune (Int.ofNat (64 * (b % 32) + b1 % 64)) = [b, b1] := by
  unfold EncodeRune
  simp only [Int.ofNat_eq_coe, Int.toNat_ofNat]
  rw [if_neg (by omega), if_neg (by omega), if_pos (by omega)]
  congr 1
  · omega
  · congr 1; omega

theorem EncodeRune_three (b b1 b2 : Nat) (h : 224 ≤ b ∧ b < 240) (h1 : 128 ≤ b1 ∧ b1 ≤ 191)
    (hlo : b = 224 → 160 ≤ b1) (hhi : b = 237 → b1 ≤ 159) (h2 : 128 ≤ b2 ∧ b2 ≤ 191) :
    EncodeRune (Int.ofNat (4096 * (b % 16) + 64 * (b1 % 64) + b2 % 64)) = [b, b1, b2] := by
  unfold EncodeRune
  simp only [Int.ofNat_eq_coe, Int.toNat_ofNat]
  rw [if_neg (by omega), if_neg (by omega), if_neg (by omega), if_neg (by omega),
    if_pos (by omega)]
  congr 1
  · omega
  · congr 1
    · omega
    · congr 1; omega

theorem EncodeRune_four (b b1 b2 b3 : Nat) (h : 240 ≤ b ∧ b ≤ 244) (h1 : 128 ≤ b1 ∧ b1 ≤ 191)
    (hlo : b = 240 → 144 ≤ b1) (hhi : b = 244 → b1 ≤ 143) (h2 : 128 ≤ b2 ∧ b2 ≤ 191)
    (h3 : 128 ≤ b3 ∧ b3 ≤ 191) :
    EncodeRune (Int.ofNat (262144 * (b % 8) + 4096 * (b1 % 64) + 64 * (b2 % 64) + b3 % 64))
      = [b, b1, b2, b3] := by
  unfold EncodeRune
  simp only [Int.ofNat_eq_coe, Int.toNat_ofNat]
  rw [if_neg (by omega), if_neg (by omega), if_neg (by omega), if_neg (by omega),
    if_neg (by omega)]
  congr 1
  · omega
  · congr 1
    · omega
    · congr 1
      · omega
      · congr 1; omega

theorem DecodeRune_invalid (b : Nat) (rest : GoString) (hb : 0x80 ≤ b)
    (hv : ¬ ValidEncodingAt (b :: rest)) : DecodeRune (b :: rest) = (RuneError, 1) := by
  unfold DecodeRune
  dsimp only
  have : ¬ b < 128 := by omega
  rw [if_neg this]
  by_cases h1 : b < 194 ∨ 244 < b
  · rw [if_pos h1]
  · rw [if_neg h1]
    by_cases h2 : rest.length + 1 < (if b < 224 then 2 else if b < 240 then 3 else 4)
    · rw [if_pos h2]
    · rw [if_neg h2]
      by_cases h3 : (List.getD rest 0 0 < if b = 224 then 160 else if b = 240 then 144 else 128) ∨
                  (if b = 237 then 159 else if b = 244 then 143 else 191) < List.getD rest 0 0
      · rw [if_pos h3]
      · rw [if_neg h3]
        by_cases h4 : (if b < 224 then 2 else if b < 240 then 3 else 4) ≤ 2
        · exfalso
          apply hv
          cases rest with
          | nil => split_ifs at h2 <;> simp at h2
          | cons b1 r1 =>
            simp only [List.getD_cons_zero] at h3
            have hb2 : b < 224 := by split_ifs at h4 <;> omega
            have hb1 : 128 ≤ b1 ∧ b1 ≤ 191 := by split_ifs at h3 <;> omega
            refine ⟨Int.ofNat (64 * (b % 32) + b1 % 64), Int.ofNat_nonneg _, ?_, ?_, ?_⟩
            · simp only [Int.ofNat_eq_coe]; omega
            · simp only [Int.ofNat_eq_coe]; omega
            · rw [EncodeRune_two b b1 (by omega) hb1]
              exact ⟨r1, rfl⟩
        · rw [if_neg h4]
          by_cases h5 : List.getD rest 1 0 < 128 ∨ 191 < List.getD rest 1 0
          · rw [if_pos h5]
          · rw [if_neg h5]
            by_cases h6 : (if b < 224 then 2 else if b < 240 then 3 else 4) ≤ 3
            · exfalso
              apply hv
              have hb2 : 224 ≤ b ∧ b < 240 := by split_ifs at h4 h6 <;> omega
              rw [if_neg (by omega), if_pos (by omega)] at h2
              match rest, h2, h3, h5 with
              | b1 :: b2 :: r2, _, h3, h5 =>
                simp only [List.getD_cons_zero, List.getD_cons_succ] at h3 h5
                have hb1 : 128 ≤ b1 ∧ b1 ≤ 191 := by split_ifs at h3 <;> omega
                have hlo : b = 224 → 160 ≤ b1 := by intro e; split_ifs at h3 <;> omega
                have hhi : b = 237 → b1 ≤ 159 := by intro e; split_ifs at h3 <;> omega
                refine ⟨Int.ofNat (4096 * (b % 16) + 64 * (b1 % 64) + b2 % 64),
                  Int.ofNat_nonneg _, ?_, ?_, ?_⟩
                · simp only [Int.ofNat_eq_coe]; omega
                · simp only [Int.ofNat_eq_coe]; omega
                · rw [EncodeRune_three b b1 b2 hb2 hb1 hlo hhi (by omega)]
                  exact ⟨r2, rfl⟩
              | [_], h2, _, _ => simp at h2
              | [], h2, _, _ => simp at h2
            · rw [if_neg h6]
              by_cases h7 : List.getD rest 2 0 < 128 ∨ 191 < List.getD rest 2 0
              · rw [if_pos h7]
              · exfalso
                apply hv
                have hb2 : 240 ≤ b ∧ b ≤ 244 := by split_ifs at h4 h6 <;> omega
                rw [if_neg (by omega), if_neg (by omega)] at h2
                match rest, h2, h3, h5, h7 with
                | b1 :: b2 :: b3 :: r3, _, h3, h5, h7 =>
                  simp only [List.getD_cons_zero, List.getD_cons_succ] at h3 h5 h7
                  have hb1 : 128 ≤ b1 ∧ b1 ≤ 191 := by split_ifs at h3 <;> omega
                  have hlo : b = 240 → 144 ≤ b1 := by
                    intro e; split_ifs at h3 <;> omega
                  have hhi : b = 244 → b1 ≤ 143 := by
                    intro e; split_ifs at h3 <;> omega
                  refine ⟨Int.ofNat (262144 * (b % 8) + 4096 * (b1 % 64) + 64 * (b2 % 64)
                    + b3 % 64), Int.ofNat_nonneg _, ?_, ?_, ?_⟩
                  · simp only [Int.ofNat_eq_coe]; omega
                  · simp only [Int.ofNat_eq_coe]; omega
                  · rw [EncodeRune_four b b1 b2 b3 hb2 hb1 hlo hhi (by omega) (by omega)]
                    exact ⟨r3, rfl⟩
                | [_, _], h2, _, _, _ => simp at h2
                | [_], h2, _, _, _ => simp at h2
                | [], h2, _, _, _ => simp at h2

theorem ValidEncodingAt.first {b : Nat} {rest : GoString} (h : ValidEncodingAt (b :: rest)) :
    b < 128 ∨ (194 ≤ b ∧ b ≤ 244) := by
  obtain ⟨r, h0, h1, h2, h3⟩ := h
  obtain ⟨c, rfl⟩ := Int.eq_ofNat_of_zero_le h0
  unfold EncodeRune at h3
  simp only [Int.toNat_ofNat] at h3
  split_ifs at h3 with a1 a2 a3 a4 a5
  · omega
  · have := List.IsPrefix.head h3 (by simp)
    simp at this; omega
  · have := List.IsPrefix.head h3 (by simp)
    simp at this; omega
  · omega
  · have := List.IsPrefix.head h3 (by simp)
    simp at this; omega
  · have := List.IsPrefix.head h3 (by simp)
    simp at this; omega
theorem File.Position_offset (f : File) (o : Nat) : (f.Position (f.Pos o)).Offset = o := by
  unfold File.Position File.Pos File.Offset NoPos
  split_ifs with h
  · simp only; omega
  · simp

theorem nthScan_reaches_eof : ∀ (m : Nat) (s : Scanner), s.Inv → s.measure ≤ m →
    ∃ n r, nthScan n s = some r ∧ r.tok = .EOF := by
  intro m
  induction m with
  | zero =>
    intro s hs hm
    obtain ⟨r, e, pr⟩ := Scanner.Scan_post hs
    by_cases ht : r.tok = .EOF
    · exact ⟨0, r, e, ht⟩
    · have := pr.dec ht; omega
  | succ m ih =>
    intro s hs hm
    obtain ⟨r, e, pr⟩ := Scanner.Scan_post hs
    by_cases ht : r.tok = .EOF
    · exact ⟨0, r, e, ht⟩
    · obtain ⟨n, r2, e2, t2⟩ := ih r.s pr.inv (by have := pr.dec ht; omega)
      exact ⟨n + 1, r2, by rw [nthScan, e]; exact e2, t2⟩

theorem Scanner.next_reports (s : Scanner) (hlt : s.rdOffset < s.src.length) :
    (0x80 ≤ s.src.getD s.rdOffset 0 → DecodeRune (s.src.drop s.rdOffset) = (RuneError, 1) →
      s.next.errs = s.errs ++ [⟨s.next.file.Position (s.next.file.Pos s.rdOffset),
        str "illegal UTF-8 encoding"⟩] ∧
      s.next.ErrorCount = s.ErrorCount + 1 ∧ s.next.ch = 0xFFFD ∧
      s.next.rdOffset = s.rdOffset + 1) ∧
    (s.src.getD s.rdOffset 0 = 0 →
      s.next.errs = s.errs ++ [⟨s.next.file.Position (s.next.file.Pos s.rdOffset),
        str "illegal character NULL"⟩] ∧
      s.next.ErrorCount = s.ErrorCount + 1 ∧ s.next.ch = 0 ∧
      s.next.rdOffset = s.rdOffset + 1) := by
  constructor
  · intro hb hd
    have hb0 : ¬ s.src.getD s.rdOffset 0 = 0 := by omega
    unfold Scanner.next Scanner.newLine
    rw [if_pos hlt]
    split_ifs <;> simp_all [Scanner.error, RuneError]
  · intro hb
    unfold Scanner.next Scanner.newLine
    rw [if_pos hlt]
    split_ifs <;> simp_all [Scanner.error]

/-- C26: `Scanner.next` at a byte of the source. When the byte is at least
0x80 and the bytes from it on do not start with a valid encoding, exactly one
error `illegal UTF-8 encoding` is reported, at the offset of the byte, the
error count grows by one, the current character is U+FFFD and the read offset
grows by one. When the byte is NUL, exactly one error `illegal character NULL`
is reported, at the offset of the byte, the error count grows by one and the
read offset grows by one. In both cases, and in every other, the calls of
`Scan` that follow all return and one of them returns `EOF`. -/
theorem Scanner.next_invalid_byte (s : Scanner) (hs : s.Inv) (hlt : s.rdOffset < s.src.length) :
    (0x80 ≤ s.src.getD s.rdOffset 0 → ¬ ValidEncodingAt (s.src.drop s.rdOffset) →
      s.next.errs = s.errs ++ [⟨s.next.file.Position (s.next.file.Pos s.rdOffset),
        str "illegal UTF-8 encoding"⟩] ∧
      (s.next.file.Position (s.next.file.Pos s.rdOffset)).Offset = s.rdOffset ∧
      s.next.ErrorCount = s.ErrorCount + 1 ∧ s.next.ch = 0xFFFD ∧
      s.next.rdOffset = s.rdOffset + 1) ∧
    (s.src.getD s.rdOffset 0 = 0 →
      s.next.errs = s.errs ++ [⟨s.next.file.Position (s.next.file.Pos s.rdOffset),
        str "illegal character NULL"⟩] ∧
      (s.next.file.Position (s.next.file.Pos s.rdOffset)).Offset = s.rdOffset ∧
      s.next.ErrorCount = s.ErrorCount + 1 ∧ s.next.rdOffset = s.rdOffset + 1) ∧
    (∃ n r, nthScan n s.next = some r ∧ r.tok = .EOF) := by
  obtain ⟨b, rest, hdrop⟩ : ∃ b rest, s.src.drop s.rdOffset = b :: rest := by
    cases hd : s.src.drop s.rdOffset with
    | nil =>
      have := congrArg List.length hd
      simp at this
      omega
    | cons b rest => exact ⟨b, rest, rfl⟩
  have hb : s.src.getD s.rdOffset 0 = b := by
    have := congrArg (fun l => l.getD 0 0) hdrop
    simpa using this
  have hr := Scanner.next_reports s hlt
  refine ⟨?_, ?_, ?_⟩
  · intro h1 h2
    rw [hdrop] at h2
    rw [hb] at h1
    have hd := DecodeRune_invalid b rest h1 h2
    rw [← hdrop] at hd
    obtain ⟨a1, a2, a3, a4⟩ := hr.1 (by rw [hb]; exact h1) hd
    exact ⟨a1, File.Position_offset _ _, a2, a3, a4⟩
  · intro h1
    obtain ⟨a1, a2, _, a4⟩ := hr.2 h1
    exact ⟨a1, File.Position_offset _ _, a2, a4⟩
  · exact nthScan_reaches_eof _ s.next (Scanner.next_reads hs).inv (Nat.le_refl _)

/-- Witness of C26: the scanner of the source `A`, 0xFF, 0x00, `B`, whose
first `next` reads the byte 0xFF. -/
theorem Scanner.next_invalid_byte_witness :
    (Scanner.Init asciiLib ⟨[], 1, 4, [0]⟩ [65, 255, 0, 66] 0).next.errs
        = [⟨⟨[], 1, 1, 2⟩, str "illegal UTF-8 encoding"⟩] ∧
      (Scanner.Init asciiLib ⟨[], 1, 4, [0]⟩ [65, 255, 0, 66] 0).next.ch = 0xFFFD ∧
      (Scanner.Init asciiLib ⟨[], 1, 4, [0]⟩ [65, 255, 0, 66] 0).next.rdOffset = 2 ∧
      ∃ n r, nthScan n (Scanner.Init asciiLib ⟨[], 1, 4, [0]⟩ [65, 255, 0, 66] 0).next = some r ∧
        r.tok = .EOF :=
  have h := Scanner.next_invalid_byte (Scanner.Init asciiLib ⟨[], 1, 4, [0]⟩ [65, 255, 0, 66] 0)
    (Scanner.Init_inv _ _ _ _).1 (by decide)
  have h1 := h.1 (by decide) (fun v => absurd (ValidEncodingAt.first v) (by decide))
  ⟨h1.1, h1.2.2.2.1, h1.2.2.2.2, h.2.2⟩
theorem nthScan_returns : ∀ (n : Nat) (s : Scanner), s.Inv → ∃ r, nthScan n s = some r := by
  intro n
  induction n with
  | zero =>
    intro s hs
    obtain ⟨r, e, _⟩ := Scanner.Scan_post hs
    exact ⟨r, e⟩
  | succ n ih =>
    intro s hs
    obtain ⟨r, e, pr⟩ := Scanner.Scan_post hs
    obtain ⟨r2, e2⟩ := ih r.s pr.inv
    exact ⟨r2, by rw [nthScan, e]; exact e2⟩

theorem nthScan_pos_step (n : Nat) (s : Scanner) (hs : s.Inv) (r1 r2 : ScanResult)
    (h1 : nthScan n s = some r1) (h2 : nthScan (n + 1) s = some r2) :
    r1.pos ≤ r2.pos ∧ r2.pos ≤ r2.s.file.base + r2.s.offset := by
  obtain ⟨s1, i1, _, e1⟩ := nthScan_state n s r1 hs h1
  obtain ⟨r, e, pr⟩ := Scanner.Scan_post i1
  rw [e1] at e
  cases e
  rw [nthScan_succ, h1] at h2
  obtain ⟨r3, e3, p3⟩ := Scanner.Scan_post pr.inv
  have h2 : r1.s.Scan = some r2 := h2
  rw [h2] at e3
  cases e3
  exact ⟨Nat.le_trans pr.posHi p3.posLo, p3.posHi⟩

theorem nthScan_pos_le (s : Scanner) (hs : s.Inv) (n : Nat) : ∀ (k : Nat) (r1 r2 : ScanResult),
    nthScan n s = some r1 → nthScan (n + k) s = some r2 → r1.pos ≤ r2.pos := by
  intro k
  induction k with
  | zero =>
    intro r1 r2 h1 h2
    rw [Nat.add_zero, h1] at h2
    cases h2
    exact Nat.le_refl _
  | succ k ih =>
    intro r1 r2 h1 h2
    obtain ⟨r, e⟩ := nthScan_returns (n + k) s hs
    exact Nat.le_trans (ih r1 r h1 e) (nthScan_pos_step (n + k) s hs r r2 e h2).1

/-- C25: for every source, file and mode, every call of `Scan` on the scanner
that `Init` prepares returns, and the position that a call returns is at most
the position that any later call returns. -/
theorem Scan_positions_monotone (lib : Lib) (file : File) (src : GoString) (mode n k : Nat) :
    ∃ r1 r2, nthScan n (Scanner.Init lib file src mode) = some r1 ∧
      nthScan (n + k) (Scanner.Init lib file src mode) = some r2 ∧ r1.pos ≤ r2.pos := by
  have hs := (Scanner.Init_inv lib file src mode).1
  obtain ⟨r1, e1⟩ := nthScan_returns n _ hs
  obtain ⟨r2, e2⟩ := nthScan_returns (n + k) _ hs
  exact ⟨r1, r2, e1, e2, nthScan_pos_le _ hs n k r1 r2 e1 e2⟩
/-! ### Comments are skipped without `ScanComments` -/

@[simp] theorem Scanner.withComments_lib (s : Scanner) : (s.withComments).lib = s.lib := rfl
@[simp] theorem Scanner.withComments_file (s : Scanner) : (s.withComments).file = s.file := rfl
@[simp] theorem Scanner.withComments_src (s : Scanner) : (s.withComments).src = s.src := rfl
@[simp] theorem Scanner.withComments_mode (s : Scanner) :
    (s.withComments).mode = s.mode ||| ScanComments := rfl
@[simp] theorem Scanner.withComments_ch (s : Scanner) : (s.withComments).ch = s.ch := rfl
@[simp] theorem Scanner.withComments_offset (s : Scanner) :
    (s.withComments).offset = s.offset := rfl
@[simp] theorem Scanner.withComments_rdOffset (s : Scanner) :
    (s.withComments).rdOffset = s.rdOffset := rfl
@[simp] theorem Scanner.withComments_insertSemi (s : Scanner) :
    (s.withComments).insertSemi = s.insertSemi := rfl
@[simp] theorem Scanner.withComments_errs (s : Scanner) :
    (s.withComments).errs = s.errs := rfl
@[simp] theorem Scanner.withComments_fuel (s : Scanner) :
    (s.withComments).fuel = s.fuel := rfl
@[simp] theorem Scanner.withComments_peek (s : Scanner) :
    (s.withComments).peek = s.peek := rfl

@[simp] theorem Scanner.error_withComments (s : Scanner) (offs : Nat) (msg : GoString) :
    (s.withComments).error offs msg = (s.error offs msg).withComments := by
  simp [Scanner.error, Scanner.withComments]

@[simp] theorem Scanner.newLine_withComments (s : Scanner) :
    (s.withComments).newLine = s.newLine.withComments := by
  unfold Scanner.newLine
  split_ifs <;> simp_all [Scanner.withComments]

@[simp] theorem Scanner.next_withComments (s : Scanner) :
    (s.withComments).next = s.next.withComments := by
  cases s
  simp only [Scanner.next, Scanner.withComments, Scanner.newLine, Scanner.error]
  split_ifs <;> simp

@[simp] theorem skipWhitespaceLoop_withComments : ∀ (n : Nat) (s : Scanner),
    skipWhitespaceLoop n (s.withComments) = (skipWhitespaceLoop n s).map Scanner.withComments := by
  intro n
  induction n with
  | zero => intro s; rfl
  | succ n ih =>
    intro s
    simp only [skipWhitespaceLoop, Scanner.withComments_ch, Scanner.withComments_insertSemi,
      Scanner.next_withComments, ih]
    split_ifs <;> rfl

@[simp] theorem Scanner.skipWhitespace_withComments (s : Scanner) :
    (s.withComments).skipWhitespace = s.skipWhitespace.map Scanner.withComments := by
  simp [Scanner.skipWhitespace]

@[simp] theorem scanIdentifierLoop_withComments : ∀ (n : Nat) (s : Scanner),
    scanIdentifierLoop n (s.withComments) = (scanIdentifierLoop n s).map Scanner.withComments := by
  intro n
  induction n with
  | zero => intro s; rfl
  | succ n ih =>
    intro s
    simp only [scanIdentifierLoop, Scanner.withComments_ch, Scanner.withComments_lib,
      Scanner.next_withComments, ih]
    split_ifs <;> rfl

@[simp] theorem Scanner.scanIdentifier_withComments (s : Scanner) :
    (s.withComments).scanIdentifier =
      s.scanIdentifier.map (fun r => (r.1, r.2.withComments)) := by
  simp only [Scanner.scanIdentifier, scanIdentifierLoop_withComments, Scanner.withComments_fuel,
    Scanner.withComments_offset]
  cases scanIdentifierLoop s.fuel s <;> rfl

@[simp] theorem digitsLoop_withComments : ∀ (n : Nat) (s : Scanner),
    digitsLoop n (s.withComments) = (digitsLoop n s).map Scanner.withComments := by
  intro n
  induction n with
  | zero => intro s; rfl
  | succ n ih =>
    intro s
    simp only [digitsLoop, Scanner.withComments_ch, Scanner.next_withComments, ih]
    split_ifs <;> rfl

@[simp] theorem Scanner.scanNumber_withComments (s : Scanner) :
    (s.withComments).scanNumber =
      s.scanNumber.map (fun r => (r.1, r.2.1, r.2.2.withComments)) := by
  simp only [Scanner.scanNumber, digitsLoop_withComments, Scanner.withComments_fuel,
    Scanner.withComments_offset, Scanner.withComments_ch]
  by_cases h : s.ch ≠ 46
  · simp only [if_pos h]
    cases digitsLoop s.fuel s with
    | none => rfl
    | some s1 =>
      simp only [Option.map_some', Scanner.withComments_ch, Scanner.next_withComments, digitsLoop_withComments,
        Scanner.withComments_fuel]
      split_ifs
      · cases digitsLoop s1.fuel s1.next <;> rfl
      · rfl
  · simp only [if_neg h, Scanner.withComments_ch, Scanner.next_withComments, digitsLoop_withComments,
      Scanner.withComments_fuel]
    split_ifs
    · cases digitsLoop s.fuel s.next <;> rfl
    · rfl

@[simp] theorem scanEscapeDigits_withComments : ∀ (n base x : Nat) (s : Scanner),
    scanEscapeDigits n base x (s.withComments) =
      ((scanEscapeDigits n base x s).1, (scanEscapeDigits n base x s).2.withComments) := by
  intro n
  induction n with
  | zero => intro base x s; rfl
  | succ n ih =>
    intro base x s
    simp only [scanEscapeDigits, Scanner.withComments_ch, Scanner.withComments_lib, Scanner.withComments_offset,
      Scanner.next_withComments, Scanner.error_withComments, ih]
    split_ifs <;> rfl

@[simp] theorem Scanner.scanEscapeValue_withComments (s : Scanner)
    (offs n base max : Nat) :
    (s.withComments).scanEscapeValue offs n base max =
      ((s.scanEscapeValue offs n base max).1, (s.scanEscapeValue offs n base max).2.withComments) := by
  simp only [Scanner.scanEscapeValue, scanEscapeDigits_withComments]
  rcases h : scanEscapeDigits n base 0 s with ⟨_ | x, s2⟩
  · rfl
  · simp only [Scanner.error_withComments]
    split_ifs <;> rfl

@[simp] theorem Scanner.scanEscape_withComments (s : Scanner) (quote : Int) :
    (s.withComments).scanEscape quote =
      ((s.scanEscape quote).1, (s.scanEscape quote).2.withComments) := by
  simp only [Scanner.scanEscape, Scanner.withComments_ch, Scanner.withComments_offset, Scanner.next_withComments,
    Scanner.scanEscapeValue_withComments, Scanner.error_withComments]
  split_ifs <;> rfl

@[simp] theorem scanStringLoop_withComments : ∀ (n offs : Nat) (s : Scanner),
    scanStringLoop n offs (s.withComments) = (scanStringLoop n offs s).map Scanner.withComments := by
  intro n
  induction n with
  | zero => intro offs s; rfl
  | succ n ih =>
    intro offs s
    simp only [scanStringLoop, Scanner.withComments_ch, Scanner.next_withComments, Scanner.error_withComments,
      Scanner.scanEscape_withComments, ih]
    split_ifs <;> rfl

@[simp] theorem Scanner.scanString_withComments (s : Scanner) :
    (s.withComments).scanString = s.scanString.map (fun r => (r.1, r.2.withComments)) := by
  simp only [Scanner.scanString, scanStringLoop_withComments, Scanner.withComments_fuel,
    Scanner.withComments_offset]
  cases scanStringLoop s.fuel (s.offset - 1) s <;> rfl

@[simp] theorem scanRuneLoop_withComments :
    ∀ (f offs : Nat) (valid : Bool) (n : Nat) (s : Scanner),
    scanRuneLoop f offs valid n (s.withComments) =
      (scanRuneLoop f offs valid n s).map (fun r => (r.1, r.2.1, r.2.2.withComments)) := by
  intro f
  induction f with
  | zero => intro offs valid n s; rfl
  | succ f ih =>
    intro offs valid n s
    simp only [scanRuneLoop, Scanner.withComments_ch, Scanner.next_withComments, Scanner.error_withComments,
      Scanner.scanEscape_withComments, ih]
    split_ifs <;> rfl

@[simp] theorem Scanner.scanRune_withComments (s : Scanner) :
    (s.withComments).scanRune = s.scanRune.map (fun r => (r.1, r.2.withComments)) := by
  simp only [Scanner.scanRune, scanRuneLoop_withComments, Scanner.withComments_fuel,
    Scanner.withComments_offset]
  rcases h : scanRuneLoop s.fuel (s.offset - 1) true 0 s with _ | ⟨valid, n, s1⟩
  · rfl
  · simp only [Option.map_some', Scanner.error_withComments]
    split_ifs <;> rfl

@[simp] theorem scanRawStringLoop_withComments : ∀ (n offs : Nat) (s : Scanner),
    scanRawStringLoop n offs (s.withComments) =
      (scanRawStringLoop n offs s).map Scanner.withComments := by
  intro n
  induction n with
  | zero => intro offs s; rfl
  | succ n ih =>
    intro offs s
    simp only [scanRawStringLoop, Scanner.withComments_ch, Scanner.next_withComments, Scanner.error_withComments,
      ih]
    split_ifs <;> rfl

@[simp] theorem Scanner.scanRawString_withComments (s : Scanner) :
    (s.withComments).scanRawString = s.scanRawString.map (fun r => (r.1, r.2.withComments)) := by
  simp only [Scanner.scanRawString, scanRawStringLoop_withComments, Scanner.withComments_fuel,
    Scanner.withComments_offset]
  cases scanRawStringLoop s.fuel (s.offset - 1) s <;> rfl

@[simp] theorem scanCommentLine_withComments : ∀ (n : Nat) (s : Scanner),
    scanCommentLine n (s.withComments) = (scanCommentLine n s).map Scanner.withComments := by
  intro n
  induction n with
  | zero => intro s; rfl
  | succ n ih =>
    intro s
    simp only [scanCommentLine, Scanner.withComments_ch, Scanner.next_withComments, ih]
    split_ifs <;> rfl

@[simp] theorem scanCommentGeneral_withComments : ∀ (n : Nat) (s : Scanner),
    scanCommentGeneral n (s.withComments) =
      (scanCommentGeneral n s).map (fun r => (r.1, r.2.withComments)) := by
  intro n
  induction n with
  | zero => intro s; rfl
  | succ n ih =>
    intro s
    simp only [scanCommentGeneral, Scanner.withComments_ch, Scanner.next_withComments, ih]
    split_ifs <;> rfl

@[simp] theorem Scanner.scanComment_withComments (s : Scanner) :
    (s.withComments).scanComment = s.scanComment.map (fun r => (r.1, r.2.withComments)) := by
  simp only [Scanner.scanComment, scanCommentLine_withComments, scanCommentGeneral_withComments,
    Scanner.withComments_fuel, Scanner.withComments_offset, Scanner.withComments_ch, Scanner.next_withComments]
  split_ifs
  · cases scanCommentLine s.fuel s.next <;> rfl
  · rcases h : scanCommentGeneral s.fuel s.next with _ | ⟨_ | _, s1⟩
    · rfl
    · simp only [Option.map_some', Scanner.error_withComments]
      rfl
    · rfl

@[simp] theorem findLineEndBody_withComments : ∀ (n : Nat) (s : Scanner),
    findLineEndBody n (s.withComments) =
      (findLineEndBody n s).map (fun r => (r.1, r.2.withComments)) := by
  intro n
  induction n with
  | zero => intro s; rfl
  | succ n ih =>
    intro s
    simp only [findLineEndBody, Scanner.withComments_ch, Scanner.next_withComments, ih]
    split_ifs <;> rfl

@[simp] theorem findLineEndLoop_withComments : ∀ (n : Nat) (s : Scanner),
    findLineEndLoop n (s.withComments) =
      (findLineEndLoop n s).map (fun r => (r.1, r.2.withComments)) := by
  intro n
  induction n with
  | zero => intro s; rfl
  | succ n ih =>
    intro s
    simp only [findLineEndLoop, Scanner.withComments_ch, Scanner.next_withComments, findLineEndBody_withComments,
      Scanner.withComments_fuel]
    by_cases h1 : s.ch = 47 ∨ s.ch = 42
    · simp only [if_pos h1]
      by_cases h2 : s.ch = 47
      · simp only [if_pos h2]
        rfl
      · simp only [if_neg h2]
        rcases hb : findLineEndBody s.fuel s.next with _ | ⟨_ | _, s1⟩
        · rfl
        · simp only [Option.map_some', Scanner.skipWhitespace_withComments]
          cases hw : s1.skipWhitespace with
          | none => rfl
          | some s2 =>
            simp only [Option.map_some', Scanner.withComments_ch, Scanner.next_withComments, ih]
            split_ifs <;> rfl
        · rfl
    · simp only [if_neg h1]
      rfl

@[simp] theorem Scanner.findLineEnd_withComments (s : Scanner) :
    (s.withComments).findLineEnd = s.findLineEnd.map (fun r => (r.1, r.2.withComments)) := by
  simp only [Scanner.findLineEnd, findLineEndLoop_withComments, Scanner.withComments_fuel,
    Scanner.withComments_offset]
  rcases h : findLineEndLoop s.fuel s with _ | ⟨b, s1⟩
  · rfl
  · simp only [Option.map_some']
    rw [← Scanner.next_withComments]
    rfl

@[simp] theorem Scanner.switch2_withComments (s : Scanner) (tok0 tok1 : Token) :
    (s.withComments).switch2 tok0 tok1 = ((s.switch2 tok0 tok1).1, (s.switch2 tok0 tok1).2.withComments) := by
  simp only [Scanner.switch2, Scanner.withComments_ch, Scanner.next_withComments]
  split_ifs <;> rfl

@[simp] theorem Scanner.switch3_withComments (s : Scanner) (tok0 tok1 : Token)
    (ch2 : Int) (tok2 : Token) :
    (s.withComments).switch3 tok0 tok1 ch2 tok2 =
      ((s.switch3 tok0 tok1 ch2 tok2).1, (s.switch3 tok0 tok1 ch2 tok2).2.withComments) := by
  simp only [Scanner.switch3, Scanner.withComments_ch, Scanner.next_withComments]
  split_ifs <;> rfl

@[simp] theorem Scanner.switch4_withComments (s : Scanner) (tok0 tok1 : Token)
    (ch2 : Int) (tok2 tok3 : Token) :
    (s.withComments).switch4 tok0 tok1 ch2 tok2 tok3 =
      ((s.switch4 tok0 tok1 ch2 tok2 tok3).1, (s.switch4 tok0 tok1 ch2 tok2 tok3).2.withComments) := by
  simp only [Scanner.switch4, Scanner.withComments_ch, Scanner.next_withComments]
  split_ifs <;> rfl

theorem withComments_semis (m : Nat) :
    (m ||| ScanComments) &&& dontInsertSemis = m &&& dontInsertSemis := by
  apply Nat.eq_of_testBit_eq
  intro i
  simp only [Nat.testBit_and, Nat.testBit_or]
  by_cases hi : i = 1
  · subst hi
    have a : Nat.testBit ScanComments 1 = false := by decide
    simp [a]
  · have : Nat.testBit dontInsertSemis i = false := by
      unfold dontInsertSemis
      rw [show (2 : Nat) = 2 ^ 1 from rfl, Nat.testBit_two_pow]
      simp; omega
    simp [this]

theorem withComments_comments (m : Nat) : (m ||| ScanComments) &&& ScanComments ≠ 0 := by
  intro h
  have := congrArg (fun x => Nat.testBit x 0) h
  simp [Nat.testBit_and, Nat.testBit_or, ScanComments] at this

@[simp] theorem Scanner.finish_withComments (s : Scanner) (pos : Nat) (tok : Token)
    (lit : GoString) (b : Bool) :
    (s.withComments).finish pos tok lit b = (s.finish pos tok lit b).withComments := by
  simp only [Scanner.finish, Scanner.withComments_mode, ScanResult.withComments,
    withComments_semis]
  split_ifs <;> rfl
theorem SkipSim.bothNone {s0 : Scanner} {g : Nat} : SkipSim s0 g none none := Or.inl ⟨rfl, rfl⟩

theorem SkipSim.sameToken {s0 : Scanner} {g : Nat} (r : ScanResult) (h : r.tok ≠ .COMMENT) :
    SkipSim s0 g (some r.withComments) (some r) := Or.inr (Or.inl ⟨r, h, rfl, rfl⟩)

theorem Lookup_ne_comment (lit : GoString) : Lookup lit ≠ .COMMENT := by
  refine Lookup_cases lit (fun t => t ≠ .COMMENT) ?_
  intro t ht
  simp only [List.mem_cons, List.mem_singleton, List.not_mem_nil, or_false] at ht
  rcases ht with h | h | h | h | h | h | h | h | h | h | h | h <;> rw [h] <;> decide

theorem Scanner.scanNumber_tok {s s1 : Scanner} {tok : Token} {lit : GoString}
    (h : s.scanNumber = some (tok, lit, s1)) : tok ≠ .COMMENT := by
  unfold Scanner.scanNumber at h
  split at h
  · exact Option.noConfusion h
  · split_ifs at h
    · split at h
      · exact Option.noConfusion h
      · cases h; decide
    · cases h; decide

set_option maxHeartbeats 2000000 in
theorem ScanLoop_skipSim (f g : Nat) (s0 : Scanner) (hs0 : s0.Inv)
    (hm0 : s0.mode &&& ScanComments = 0)
    (hJ : s0.mode &&& dontInsertSemis ≠ 0 → s0.insertSemi = false) :
    SkipSim s0 g (ScanLoop (f + 1) s0.withComments) (ScanLoop (g + 1) s0) := by
  simp only [ScanLoop, Scanner.skipWhitespace_withComments]
  obtain ⟨s, e, hR, hws⟩ := Scanner.skipWhitespace_reads hs0
  simp only [e, Option.map_some', Scanner.withComments_lib, Scanner.withComments_ch,
    Scanner.withComments_peek]
  have hr : s.Reads s.next := Scanner.next_reads hR.inv
  by_cases hL : isLetter s.lib s.ch = true
  · simp only [if_pos hL, Scanner.scanIdentifier_withComments]
    rcases s.scanIdentifier with _ | ⟨lit, s1⟩
    · exact SkipSim.bothNone
    · simp only [Option.map_some', Scanner.finish_withComments, Scanner.withComments_file,
        Scanner.withComments_offset]
      split_ifs
      · exact SkipSim.sameToken _ (Lookup_ne_comment lit)
      · exact SkipSim.sameToken _ (fun h => Token.noConfusion h)
  simp only [if_neg hL]
  by_cases hD : isDecimal s.ch = true ∨ (s.ch = 46 ∧ isDecimal (Int.ofNat s.peek) = true)
  · simp only [if_pos hD, Scanner.scanNumber_withComments]
    cases hN : s.scanNumber with
    | none => exact SkipSim.bothNone
    | some x =>
      obtain ⟨tok, lit, s1⟩ := x
      simp only [Option.map_some', Scanner.finish_withComments, Scanner.withComments_file,
        Scanner.withComments_offset]
      exact SkipSim.sameToken _ (Scanner.scanNumber_tok hN)
  simp only [if_neg hD]
  by_cases hAt : s.ch = 64
  · simp only [if_pos hAt, Scanner.next_withComments, Scanner.scanIdentifier_withComments]
    rcases s.next.scanIdentifier with _ | ⟨lit, s1⟩
    · exact SkipSim.bothNone
    · simp only [Option.map_some', Scanner.finish_withComments, Scanner.withComments_file,
        Scanner.withComments_offset]
      split_ifs
      · exact SkipSim.sameToken _ (show Lookup (str "@" ++ lit) ≠ .COMMENT from Lookup_ne_comment _)
      · exact SkipSim.sameToken _ (fun h => Token.noConfusion h)
  simp only [if_neg hAt]
  by_cases hE : s.ch = -1
  · simp only [if_pos hE, Option.map_some', Scanner.withComments_lib, Scanner.withComments_ch, Scanner.withComments_file,
        Scanner.withComments_offset, Scanner.withComments_peek, Scanner.next_withComments,
        Scanner.switch2_withComments, Scanner.switch3_withComments, Scanner.switch4_withComments,
        Scanner.withComments_insertSemi, Scanner.error_withComments, Scanner.finish_withComments]
    split_ifs
    · refine Or.inr (Or.inl ⟨⟨s.file.Pos s.offset, .SEMICOLON, str "\n",
        { s.next with insertSemi := false }⟩, fun h => Token.noConfusion h, rfl, rfl⟩)
    · exact SkipSim.sameToken _ (fun h => Token.noConfusion h)
  simp only [if_neg hE]
  by_cases h10 : s.ch = 10
  · simp only [if_pos h10, Option.map_some', Scanner.withComments_lib, Scanner.withComments_ch, Scanner.withComments_file,
        Scanner.withComments_offset, Scanner.withComments_peek, Scanner.next_withComments,
        Scanner.switch2_withComments, Scanner.switch3_withComments, Scanner.switch4_withComments,
        Scanner.withComments_insertSemi, Scanner.error_withComments, Scanner.finish_withComments]
    refine Or.inr (Or.inl ⟨⟨s.file.Pos s.offset, .SEMICOLON, str "\n",
        { s.next with insertSemi := false }⟩, fun h => Token.noConfusion h, rfl, rfl⟩)
  simp only [if_neg h10]
  by_cases h34 : s.ch = 34
  · simp only [if_pos h34, Scanner.next_withComments, Scanner.scanString_withComments]
    rcases s.next.scanString with _ | ⟨lit, s2⟩
    · exact SkipSim.bothNone
    · simp only [Option.map_some', Scanner.finish_withComments, Scanner.withComments_file,
        Scanner.withComments_offset]
      exact SkipSim.sameToken _ (fun h => Token.noConfusion h)
  simp only [if_neg h34]
  by_cases h39 : s.ch = 39
  · simp only [if_pos h39, Scanner.next_withComments, Scanner.scanRune_withComments]
    rcases s.next.scanRune with _ | ⟨lit, s2⟩
    · exact SkipSim.bothNone
    · simp only [Option.map_some', Scanner.finish_withComments, Scanner.withComments_file,
        Scanner.withComments_offset]
      exact SkipSim.sameToken _ (fun h => Token.noConfusion h)
  simp only [if_neg h39]
  by_cases h96 : s.ch = 96
  · simp only [if_pos h96, Scanner.next_withComments, Scanner.scanRawString_withComments]
    rcases s.next.scanRawString with _ | ⟨lit, s2⟩
    · exact SkipSim.bothNone
    · simp only [Option.map_some', Scanner.finish_withComments, Scanner.withComments_file,
        Scanner.withComments_offset]
      exact SkipSim.sameToken _ (fun h => Token.noConfusion h)
  simp only [if_neg h96]
  by_cases h58 : s.ch = 58
  · simp only [if_pos h58, Option.map_some', Scanner.withComments_lib, Scanner.withComments_ch, Scanner.withComments_file,
        Scanner.withComments_offset, Scanner.withComments_peek, Scanner.next_withComments,
        Scanner.switch2_withComments, Scanner.switch3_withComments, Scanner.switch4_withComments,
        Scanner.withComments_insertSemi, Scanner.error_withComments, Scanner.finish_withComments]
    exact SkipSim.sameToken _ (Scanner.switch2_cases (fun t => t ≠ .COMMENT) _ _ _ (fun h => Token.noConfusion h) (fun h => Token.noConfusion h))
  simp only [if_neg h58]
  by_cases h46 : s.ch = 46
  · simp only [if_pos h46, Option.map_some', Scanner.withComments_lib, Scanner.withComments_ch, Scanner.withComments_file,
        Scanner.withComments_offset, Scanner.withComments_peek, Scanner.next_withComments,
        Scanner.switch2_withComments, Scanner.switch3_withComments, Scanner.switch4_withComments,
        Scanner.withComments_insertSemi, Scanner.error_withComments, Scanner.finish_withComments]
    split_ifs
    · exact SkipSim.sameToken _ (fun h => Token.noConfusion h)
    · exact SkipSim.sameToken _ (fun h => Token.noConfusion h)
  simp only [if_neg h46]
  by_cases h44 : s.ch = 44
  · simp only [if_pos h44, Option.map_some', Scanner.withComments_lib, Scanner.withComments_ch, Scanner.withComments_file,
        Scanner.withComments_offset, Scanner.withComments_peek, Scanner.next_withComments,
        Scanner.switch2_withComments, Scanner.switch3_withComments, Scanner.switch4_withComments,
        Scanner.withComments_insertSemi, Scanner.error_withComments, Scanner.finish_withComments]
    exact SkipSim.sameToken _ (fun h => Token.noConfusion h)
  simp only [if_neg h44]
  by_cases h59 : s.ch = 59
  · simp only [if_pos h59, Option.map_some', Scanner.withComments_lib, Scanner.withComments_ch, Scanner.withComments_file,
        Scanner.withComments_offset, Scanner.withComments_peek, Scanner.next_withComments,
        Scanner.switch2_withComments, Scanner.switch3_withComments, Scanner.switch4_withComments,
        Scanner.withComments_insertSemi, Scanner.error_withComments, Scanner.finish_withComments]
    exact SkipSim.sameToken _ (fun h => Token.noConfusion h)
  simp only [if_neg h59]
  by_cases h40 : s.ch = 40
  · simp only [if_pos h40, Option.map_some', Scanner.withComments_lib, Scanner.withComments_ch, Scanner.withComments_file,
        Scanner.withComments_offset, Scanner.withComments_peek, Scanner.next_withComments,
        Scanner.switch2_withComments, Scanner.switch3_withComments, Scanner.switch4_withComments,
        Scanner.withComments_insertSemi, Scanner.error_withComments, Scanner.finish_withComments]
    exact SkipSim.sameToken _ (fun h => Token.noConfusion h)
  simp only [if_neg h40]
  by_cases h41 : s.ch = 41
  · simp only [if_pos h41, Option.map_some', Scanner.withComments_lib, Scanner.withComments_ch, Scanner.withComments_file,
        Scanner.withComments_offset, Scanner.withComments_peek, Scanner.next_withComments,
        Scanner.switch2_withComments, Scanner.switch3_withComments, Scanner.switch4_withComments,
        Scanner.withComments_insertSemi, Scanner.error_withComments, Scanner.finish_withComments]
    exact SkipSim.sameToken _ (fun h => Token.noConfusion h)
  simp only [if_neg h41]
  by_cases h91 : s.ch = 91
  · simp only [if_pos h91, Option.map_some', Scanner.withComments_lib, Scanner.withComments_ch, Scanner.withComments_file,
        Scanner.withComments_offset, Scanner.withComments_peek, Scanner.next_withComments,
        Scanner.switch2_withComments, Scanner.switch3_withComments, Scanner.switch4_withComments,
        Scanner.withComments_insertSemi, Scanner.error_withComments, Scanner.finish_withComments]
    exact SkipSim.sameToken _ (fun h => Token.noConfusion h)
  simp only [if_neg h91]
  by_cases h93 : s.ch = 93
  · simp only [if_pos h93, Option.map_some', Scanner.withComments_lib, Scanner.withComments_ch, Scanner.withComments_file,
        Scanner.withComments_offset, Scanner.withComments_peek, Scanner.next_withComments,
        Scanner.switch2_withComments, Scanner.switch3_withComments, Scanner.switch4_withComments,
        Scanner.withComments_insertSemi, Scanner.error_withComments, Scanner.finish_withComments]
    exact SkipSim.sameToken _ (fun h => Token.noConfusion h)
  simp only [if_neg h93]
  by_cases h123 : s.ch = 123
  · simp only [if_pos h123, Option.map_some', Scanner.withComments_lib, Scanner.withComments_ch, Scanner.withComments_file,
        Scanner.withComments_offset, Scanner.withComments_peek, Scanner.next_withComments,
        Scanner.switch2_withComments, Scanner.switch3_withComments, Scanner.switch4_withComments,
        Scanner.withComments_insertSemi, Scanner.error_withComments, Scanner.finish_withComments]
    exact SkipSim.sameToken _ (fun h => Token.noConfusion h)
  simp only [if_neg h123]
  by_cases h125 : s.ch = 125
  · simp only [if_pos h125, Option.map_some', Scanner.withComments_lib, Scanner.withComments_ch, Scanner.withComments_file,
        Scanner.withComments_offset, Scanner.withComments_peek, Scanner.next_withComments,
        Scanner.switch2_withComments, Scanner.switch3_withComments, Scanner.switch4_withComments,
        Scanner.withComments_insertSemi, Scanner.error_withComments, Scanner.finish_withComments]
    exact SkipSim.sameToken _ (fun h => Token.noConfusion h)
  simp only [if_neg h125]
  by_cases h43 : s.ch = 43
  · simp only [if_pos h43, Option.map_some', Scanner.withComments_lib, Scanner.withComments_ch, Scanner.withComments_file,
        Scanner.withComments_offset, Scanner.withComments_peek, Scanner.next_withComments,
        Scanner.switch2_withComments, Scanner.switch3_withComments, Scanner.switch4_withComments,
        Scanner.withComments_insertSemi, Scanner.error_withComments, Scanner.finish_withComments]
    exact SkipSim.sameToken _
      (Scanner.switch3_cases (fun t => t ≠ .COMMENT) _ _ _ _ _ (fun h => Token.noConfusion h) (fun h => Token.noConfusion h) (fun h => Token.noConfusion h))
  simp only [if_neg h43]
  by_cases h45 : s.ch = 45
  · simp only [if_pos h45, Option.map_some', Scanner.withComments_lib, Scanner.withComments_ch, Scanner.withComments_file,
        Scanner.withComments_offset, Scanner.withComments_peek, Scanner.next_withComments,
        Scanner.switch2_withComments, Scanner.switch3_withComments, Scanner.switch4_withComments,
        Scanner.withComments_insertSemi, Scanner.error_withComments, Scanner.finish_withComments]
    exact SkipSim.sameToken _
      (Scanner.switch3_cases (fun t => t ≠ .COMMENT) _ _ _ _ _ (fun h => Token.noConfusion h) (fun h => Token.noConfusion h) (fun h => Token.noConfusion h))
  simp only [if_neg h45]
  by_cases h42 : s.ch = 42
  · simp only [if_pos h42, Option.map_some', Scanner.withComments_lib, Scanner.withComments_ch, Scanner.withComments_file,
        Scanner.withComments_offset, Scanner.withComments_peek, Scanner.next_withComments,
        Scanner.switch2_withComments, Scanner.switch3_withComments, Scanner.switch4_withComments,
        Scanner.withComments_insertSemi, Scanner.error_withComments, Scanner.finish_withComments]
    exact SkipSim.sameToken _ (Scanner.switch2_cases (fun t => t ≠ .COMMENT) _ _ _ (fun h => Token.noConfusion h) (fun h => Token.noConfusion h))
  simp only [if_neg h42]
  by_cases h47 : s.ch = 47
  · simp only [if_pos h47, Scanner.next_withComments, Scanner.withComments_ch,
      Scanner.withComments_insertSemi]
    by_cases hc : s.next.ch = 47 ∨ s.next.ch = 42
    · simp only [if_pos hc]
      have hne : s.ch ≠ eof := by rw [h47]; decide
      have hlA : s.next.left < s0.left :=
        lt_of_lt_of_le (Scanner.next_left hR.inv hne) hR.left
      have key : ∀ s2 : Scanner, s.next.Reads s2 → SkipSim s0 g
          (match (s2.withComments).scanComment with
            | none => none
            | some (comment, s3) =>
              if s3.mode &&& ScanComments = 0 then
                ScanLoop f { s3 with insertSemi := false }
              else some (s3.finish ((s.withComments).file.Pos (s.withComments).offset)
                .COMMENT comment false))
          (match s2.scanComment with
            | none => none
            | some (comment, s3) =>
              if s3.mode &&& ScanComments = 0 then
                ScanLoop g { s3 with insertSemi := false }
              else some (s3.finish (s.file.Pos s.offset) .COMMENT comment false)) := by
        intro s2 r2
        obtain ⟨lit, s3, e3, r3⟩ := Scanner.scanComment_reads r2.inv
        have hA3 : s0.Reads s3 := ((hR.trans hr).trans r2).trans r3
        have hl3 : s3.left < s0.left := lt_of_le_of_lt (le_trans r3.left r2.left) hlA
        have hm3 : s3.mode &&& ScanComments = 0 := by rw [hA3.mode]; exact hm0
        simp only [Scanner.scanComment_withComments, e3, Option.map_some',
          Scanner.withComments_mode, if_neg (withComments_comments s3.mode), if_pos hm3,
          Scanner.withComments_file, Scanner.withComments_offset]
        refine Or.inr (Or.inr ⟨s.file.Pos s.offset, lit, { s3 with insertSemi := false }, rfl,
          hA3.mode, hA3.inv.of_eq rfl rfl rfl rfl, hl3, ?_, rfl⟩)
        unfold Scanner.finish
        simp only [Scanner.withComments_mode, withComments_semis]
        split_ifs with hd
        · rfl
        · have h0 : s3.insertSemi = false := by
            rw [hA3.semi]
            exact hJ (by rw [← hA3.mode]; exact hd)
          have : ({ s3 with insertSemi := false } : Scanner) = s3 := by
            cases s3
            simp only at h0
            simp [h0]
          rw [this]
      by_cases hsemi : s.next.insertSemi = true
      · simp only [if_pos hsemi, Scanner.findLineEnd_withComments]
        obtain ⟨b, s2, e2, r2⟩ := Scanner.findLineEnd_reads hr.inv hc
        simp only [e2, Option.map_some']
        cases b
        · exact key s2 r2
        · refine Or.inr (Or.inl ⟨⟨s.file.Pos s.offset, .SEMICOLON, str "\n",
            { s2 with ch := 47, offset := s2.file.Offset (s.file.Pos s.offset),
                      rdOffset := s2.file.Offset (s.file.Pos s.offset) + 1,
                      insertSemi := false }⟩, fun h => Token.noConfusion h, rfl, rfl⟩)
      · simp only [if_neg hsemi]
        exact key s.next (Scanner.Reads.refl hr.inv)
    · simp only [if_neg hc, Option.map_some', Scanner.withComments_lib, Scanner.withComments_ch, Scanner.withComments_file,
        Scanner.withComments_offset, Scanner.withComments_peek, Scanner.next_withComments,
        Scanner.switch2_withComments, Scanner.switch3_withComments, Scanner.switch4_withComments,
        Scanner.withComments_insertSemi, Scanner.error_withComments, Scanner.finish_withComments]
      exact SkipSim.sameToken _ (Scanner.switch2_cases (fun t => t ≠ .COMMENT) _ _ _ (fun h => Token.noConfusion h) (fun h => Token.noConfusion h))
  simp only [if_neg h47]
  by_cases h37 : s.ch = 37
  · simp only [if_pos h37, Option.map_some', Scanner.withComments_lib, Scanner.withComments_ch, Scanner.withComments_file,
        Scanner.withComments_offset, Scanner.withComments_peek, Scanner.next_withComments,
        Scanner.switch2_withComments, Scanner.switch3_withComments, Scanner.switch4_withComments,
        Scanner.withComments_insertSemi, Scanner.error_withComments, Scanner.finish_withComments]
    exact SkipSim.sameToken _ (Scanner.switch2_cases (fun t => t ≠ .COMMENT) _ _ _ (fun h => Token.noConfusion h) (fun h => Token.noConfusion h))
  simp only [if_neg h37]
  by_cases h94 : s.ch = 94
  · simp only [if_pos h94, Option.map_some', Scanner.withComments_lib, Scanner.withComments_ch, Scanner.withComments_file,
        Scanner.withComments_offset, Scanner.withComments_peek, Scanner.next_withComments,
        Scanner.switch2_withComments, Scanner.switch3_withComments, Scanner.switch4_withComments,
        Scanner.withComments_insertSemi, Scanner.error_withComments, Scanner.finish_withComments]
    exact SkipSim.sameToken _ (Scanner.switch2_cases (fun t => t ≠ .COMMENT) _ _ _ (fun h => Token.noConfusion h) (fun h => Token.noConfusion h))
  simp only [if_neg h94]
  by_cases h60 : s.ch = 60
  · simp only [if_pos h60, Option.map_some', Scanner.withComments_lib, Scanner.withComments_ch, Scanner.withComments_file,
        Scanner.withComments_offset, Scanner.withComments_peek, Scanner.next_withComments,
        Scanner.switch2_withComments, Scanner.switch3_withComments, Scanner.switch4_withComments,
        Scanner.withComments_insertSemi, Scanner.error_withComments, Scanner.finish_withComments]
    split_ifs
    · exact SkipSim.sameToken _ (fun h => Token.noConfusion h)
    · exact SkipSim.sameToken _
        (Scanner.switch4_cases (fun t => t ≠ .COMMENT) _ _ _ _ _ _ (fun h => Token.noConfusion h) (fun h => Token.noConfusion h) (fun h => Token.noConfusion h) (fun h => Token.noConfusion h))
  simp only [if_neg h60]
  by_cases h62 : s.ch = 62
  · simp only [if_pos h62, Option.map_some', Scanner.withComments_lib, Scanner.withComments_ch, Scanner.withComments_file,
        Scanner.withComments_offset, Scanner.withComments_peek, Scanner.next_withComments,
        Scanner.switch2_withComments, Scanner.switch3_withComments, Scanner.switch4_withComments,
        Scanner.withComments_insertSemi, Scanner.error_withComments, Scanner.finish_withComments]
    exact SkipSim.sameToken _
      (Scanner.switch4_cases (fun t => t ≠ .COMMENT) _ _ _ _ _ _ (fun h => Token.noConfusion h) (fun h => Token.noConfusion h) (fun h => Token.noConfusion h) (fun h => Token.noConfusion h))
  simp only [if_neg h62]
  by_cases h61 : s.ch = 61
  · simp only [if_pos h61, Option.map_some', Scanner.withComments_lib, Scanner.withComments_ch, Scanner.withComments_file,
        Scanner.withComments_offset, Scanner.withComments_peek, Scanner.next_withComments,
        Scanner.switch2_withComments, Scanner.switch3_withComments, Scanner.switch4_withComments,
        Scanner.withComments_insertSemi, Scanner.error_withComments, Scanner.finish_withComments]
    exact SkipSim.sameToken _ (Scanner.switch2_cases (fun t => t ≠ .COMMENT) _ _ _ (fun h => Token.noConfusion h) (fun h => Token.noConfusion h))
  simp only [if_neg h61]
  by_cases h33 : s.ch = 33
  · simp only [if_pos h33, Option.map_some', Scanner.withComments_lib, Scanner.withComments_ch, Scanner.withComments_file,
        Scanner.withComments_offset, Scanner.withComments_peek, Scanner.next_withComments,
        Scanner.switch2_withComments, Scanner.switch3_withComments, Scanner.switch4_withComments,
        Scanner.withComments_insertSemi, Scanner.error_withComments, Scanner.finish_withComments]
    exact SkipSim.sameToken _ (Scanner.switch2_cases (fun t => t ≠ .COMMENT) _ _ _ (fun h => Token.noConfusion h) (fun h => Token.noConfusion h))
  simp only [if_neg h33]
  by_cases h38 : s.ch = 38
  · simp only [if_pos h38, Option.map_some', Scanner.withComments_lib, Scanner.withComments_ch, Scanner.withComments_file,
        Scanner.withComments_offset, Scanner.withComments_peek, Scanner.next_withComments,
        Scanner.switch2_withComments, Scanner.switch3_withComments, Scanner.switch4_withComments,
        Scanner.withComments_insertSemi, Scanner.error_withComments, Scanner.finish_withComments]
    split_ifs
    · exact SkipSim.sameToken _ (Scanner.switch2_cases (fun t => t ≠ .COMMENT) _ _ _ (fun h => Token.noConfusion h) (fun h => Token.noConfusion h))
    · exact SkipSim.sameToken _
        (Scanner.switch3_cases (fun t => t ≠ .COMMENT) _ _ _ _ _ (fun h => Token.noConfusion h) (fun h => Token.noConfusion h) (fun h => Token.noConfusion h))
  simp only [if_neg h38]
  by_cases h124 : s.ch = 124
  · simp only [if_pos h124, Option.map_some', Scanner.withComments_lib, Scanner.withComments_ch, Scanner.withComments_file,
        Scanner.withComments_offset, Scanner.withComments_peek, Scanner.next_withComments,
        Scanner.switch2_withComments, Scanner.switch3_withComments, Scanner.switch4_withComments,
        Scanner.withComments_insertSemi, Scanner.error_withComments, Scanner.finish_withComments]
    exact SkipSim.sameToken _
      (Scanner.switch3_cases (fun t => t ≠ .COMMENT) _ _ _ _ _ (fun h => Token.noConfusion h) (fun h => Token.noConfusion h) (fun h => Token.noConfusion h))
  simp only [if_neg h124]
  by_cases h126 : s.ch = 126
  · simp only [if_pos h126, Option.map_some', Scanner.withComments_lib, Scanner.withComments_ch, Scanner.withComments_file,
        Scanner.withComments_offset, Scanner.withComments_peek, Scanner.next_withComments,
        Scanner.switch2_withComments, Scanner.switch3_withComments, Scanner.switch4_withComments,
        Scanner.withComments_insertSemi, Scanner.error_withComments, Scanner.finish_withComments]
    exact SkipSim.sameToken _ (fun h => Token.noConfusion h)
  simp only [if_neg h126]
  split_ifs <;> simp only [Option.map_some', Scanner.withComments_lib, Scanner.withComments_ch, Scanner.withComments_file,
        Scanner.withComments_offset, Scanner.withComments_peek, Scanner.next_withComments,
        Scanner.switch2_withComments, Scanner.switch3_withComments, Scanner.switch4_withComments,
        Scanner.withComments_insertSemi, Scanner.error_withComments, Scanner.finish_withComments] <;>
    exact SkipSim.sameToken _ (fun h => Token.noConfusion h)
theorem Scanner.withComments_inv {s : Scanner} (h : s.Inv) : s.withComments.Inv :=
  h.of_eq rfl rfl rfl rfl

theorem Scanner.withComments_measure (s : Scanner) : s.withComments.measure = s.measure := rfl

theorem tokensUpTo_fuel : ∀ (f g : Nat) (s : Scanner), s.Inv → s.measure < f → s.measure < g →
    tokensUpTo f s = tokensUpTo g s := by
  intro f
  induction f with
  | zero => intro g s _ h; omega
  | succ f ih =>
    intro g s hs hf hg
    cases g with
    | zero => omega
    | succ g =>
      obtain ⟨r, e, pr⟩ := Scanner.Scan_post hs
      unfold tokensUpTo
      simp only [e]
      by_cases ht : r.tok = .EOF
      · rw [if_pos ht, if_pos ht]
      · rw [if_neg ht, if_neg ht, ih g r.s pr.inv (by have := pr.dec ht; omega)
          (by have := pr.dec ht; omega)]

theorem Scanner.tokenList_scan {s : Scanner} {r : ScanResult} (hs : s.Inv)
    (e : s.Scan = some r) :
    s.tokenList = if r.tok = .EOF then [] else (r.tok, r.lit) :: r.s.tokenList := by
  obtain ⟨r1, e1, pr⟩ := Scanner.Scan_post hs
  rw [e] at e1
  cases e1
  unfold Scanner.tokenList
  conv_lhs => unfold tokensUpTo
  simp only [e]
  by_cases ht : r.tok = .EOF
  · rw [if_pos ht, if_pos ht]
  · rw [if_neg ht, if_neg ht,
      tokensUpTo_fuel s.measure (r.s.measure + 1) r.s pr.inv (pr.dec ht) (by omega)]

theorem Scanner.measure_skip {s0 s3 : Scanner} (h1 : s3.insertSemi = false)
    (h2 : s3.left < s0.left) : s3.measure < s0.measure := by
  unfold Scanner.measure
  rw [h1]
  split_ifs <;> simp <;> omega

theorem ScanLoop_no_comment : ∀ (j : Nat) (s : Scanner) (r : ScanResult), s.Inv →
    s.mode &&& ScanComments = 0 → (s.mode &&& dontInsertSemis ≠ 0 → s.insertSemi = false) →
    ScanLoop j s = some r → r.tok ≠ .COMMENT := by
  intro j
  induction j with
  | zero => intro s r _ _ _ h; exact Option.noConfusion h
  | succ j ih =>
    intro s r hs hm hJ h
    rcases ScanLoop_skipSim 0 j s hs hm hJ with ⟨_, b⟩ | ⟨r1, t1, _, b⟩ |
      ⟨pos, c, s3, h1, h2, h3, _, _, b⟩
    · rw [h] at b; exact Option.noConfusion b
    · rw [h] at b; cases b; exact t1
    · rw [h] at b
      exact ih s3 r h3 (by rw [h2]; exact hm) (fun _ => h1) b.symm

theorem nthScan_no_comment : ∀ (n : Nat) (s : Scanner) (r : ScanResult), s.Inv →
    s.mode &&& ScanComments = 0 → (s.mode &&& dontInsertSemis ≠ 0 → s.insertSemi = false) →
    nthScan n s = some r → r.tok ≠ .COMMENT := by
  intro n
  induction n with
  | zero =>
    intro s r hs hm hJ h
    exact ScanLoop_no_comment _ s r hs hm hJ h
  | succ n ih =>
    intro s r hs hm hJ h
    obtain ⟨r1, e1, p1⟩ := Scanner.Scan_post hs
    rw [nthScan, e1] at h
    exact ih r1.s r p1.inv (by rw [p1.mode]; exact hm)
      (fun hk => p1.keep (by rw [← p1.mode]; exact hk) (hJ (by rw [← p1.mode]; exact hk))) h

theorem tokenList_skip : ∀ (n : Nat) (s : Scanner) (j : Nat), s.measure ≤ n → s.Inv →
    s.mode &&& ScanComments = 0 → (s.mode &&& dontInsertSemis ≠ 0 → s.insertSemi = false) →
    s.left < j →
    (match ScanLoop j s with
      | none => []
      | some r => if r.tok = .EOF then [] else (r.tok, r.lit) :: r.s.tokenList)
      = s.withComments.tokenList.filter (fun t => t.1 ≠ .COMMENT) := by
  intro n
  induction n using Nat.strong_induction_on with
  | _ n ih =>
    intro s j hn hs hm hJ hj
    obtain ⟨i, rfl⟩ : ∃ i, j = i + 1 := ⟨j - 1, by omega⟩
    have hf : s.withComments.fuel = (s.src.length + 1) + 1 := rfl
    obtain ⟨rs, es, ps⟩ := ScanLoop_post (i + 1) s hs hj
    have hW := Scanner.withComments_inv hs
    rcases ScanLoop_skipSim (s.src.length + 1) i s hs hm hJ with ⟨_, b⟩ | ⟨r1, t1, a, b⟩ |
      ⟨pos, c, s3, h1, h2, h3, h4, a, b⟩
    · rw [es] at b; exact Option.noConfusion b
    · rw [es] at b
      cases b
      have eW : s.withComments.Scan = some rs.withComments := a
      rw [es, Scanner.tokenList_scan hW eW]
      show (if rs.tok = .EOF then [] else (rs.tok, rs.lit) :: rs.s.tokenList)
        = List.filter (fun t => decide (t.1 ≠ .COMMENT))
            (if rs.tok = .EOF then [] else (rs.tok, rs.lit) :: rs.s.withComments.tokenList)
      by_cases ht : rs.tok = .EOF
      · rw [if_pos ht, if_pos ht]; rfl
      · rw [if_neg ht, if_neg ht, List.filter_cons_of_pos (by simpa using t1)]
        congr 1
        have hd := ps.dec ht
        obtain ⟨r2, e2, _⟩ := Scanner.Scan_post ps.inv
        have key := ih rs.s.measure (by omega) rs.s rs.s.fuel (Nat.le_refl _) ps.inv
          (by rw [ps.mode]; exact hm)
          (fun hk => ps.keep (by rw [← ps.mode]; exact hk)
            (hJ (by rw [← ps.mode]; exact hk)))
          rs.s.left_lt_fuel
        rw [← key]
        have e3 : ScanLoop rs.s.fuel rs.s = some r2 := e2
        rw [e3, Scanner.tokenList_scan ps.inv e2]
    · have eW : s.withComments.Scan = some ⟨pos, .COMMENT, c, s3.withComments⟩ := a
      rw [Scanner.tokenList_scan hW eW, b]
      have hne : ¬ (Token.COMMENT = Token.EOF) := by decide
      simp only [if_neg hne]
      rw [List.filter_cons_of_neg (by simp)]
      have hd : s3.measure < s.measure := Scanner.measure_skip h1 h4
      exact ih s3.measure (by omega) s3 i (Nat.le_refl _) h3 (by rw [h2]; exact hm)
        (fun _ => h1) (by omega)

theorem Scanner.tokenList_filter (s : Scanner) (hs : s.Inv) (hm : s.mode &&& ScanComments = 0)
    (hJ : s.mode &&& dontInsertSemis ≠ 0 → s.insertSemi = false) :
    s.tokenList = s.withComments.tokenList.filter (fun t => t.1 ≠ .COMMENT) := by
  obtain ⟨r, e, _⟩ := Scanner.Scan_post hs
  rw [← tokenList_skip s.measure s s.fuel (Nat.le_refl _) hs hm hJ s.left_lt_fuel]
  have e3 : ScanLoop s.fuel s = some r := e
  rw [e3, Scanner.tokenList_scan hs e]

theorem Scanner.Init_withComments (lib : Lib) (file : File) (src : GoString) (mode : Nat) :
    Scanner.Init lib file src (mode ||| ScanComments)
      = (Scanner.Init lib file src mode).withComments := by
  have h : ∀ s : Scanner, (if s.withComments.next.ch = bom then s.withComments.next.next
      else s.withComments.next) = (if s.next.ch = bom then s.next.next else s.next).withComments := by
    intro s
    simp only [Scanner.next_withComments, Scanner.withComments_ch]
    split_ifs <;> rfl
  exact h { lib := lib, file := file, src := src, mode := mode, ch := 32, offset := 0,
            rdOffset := 0, lineOffset := 0, insertSemi := false, ErrorCount := 0, errs := [] }

theorem Scanner.Init_insertSemi (lib : Lib) (file : File) (src : GoString) (mode : Nat) :
    (Scanner.Init lib file src mode).insertSemi = false := by
  have h : ∀ s : Scanner, s.next.insertSemi = s.insertSemi := by
    intro s
    by_cases hlt : s.rdOffset < s.src.length
    · exact (Scanner.next_more s hlt).2.2.2.2.1
    · exact (Scanner.next_done s hlt).2.2.2.2.1
  unfold Scanner.Init
  simp only
  split_ifs
  · rw [h, h]
  · rw [h]

/-- C24: for every source, file and mode without `ScanComments`, no call of
`Scan` on the scanner that `Init` prepares returns a `COMMENT` token, and the
tokens (kind and literal) that the calls return before the first `EOF` are
those that they return with `ScanComments` added to the mode, with the
`COMMENT` tokens deleted. -/
theorem Scan_skips_comments (lib : Lib) (file : File) (src : GoString) (mode : Nat)
    (hm : mode &&& ScanComments = 0) :
    (∀ n r, nthScan n (Scanner.Init lib file src mode) = some r → r.tok ≠ .COMMENT) ∧
    (Scanner.Init lib file src mode).tokenList
      = (Scanner.Init lib file src (mode ||| ScanComments)).tokenList.filter
          (fun t => t.1 ≠ .COMMENT) := by
  obtain ⟨hs, hmode⟩ := Scanner.Init_inv lib file src mode
  have hm1 : (Scanner.Init lib file src mode).mode &&& ScanComments = 0 := by rw [hmode]; exact hm
  have hJ : (Scanner.Init lib file src mode).mode &&& dontInsertSemis ≠ 0 →
      (Scanner.Init lib file src mode).insertSemi = false :=
    fun _ => Scanner.Init_insertSemi lib file src mode
  refine ⟨fun n r h => nthScan_no_comment n _ r hs hm1 hJ h, ?_⟩
  rw [Scanner.Init_withComments]
  exact Scanner.tokenList_filter _ hs hm1 hJ

/-- Witness of C24: the source `a /* x */ b // c`, a newline and `d`, in the
mode 0. -/
theorem Scan_skips_comments_witness :
    (0 &&& ScanComments = 0) ∧
    (∀ n r, nthScan n (Scanner.Init asciiLib ⟨[], 1, 18, [0]⟩ (str "a /* x */ b // c\nd") 0)
        = some r → r.tok ≠ .COMMENT) ∧
    (Scanner.Init asciiLib ⟨[], 1, 18, [0]⟩ (str "a /* x */ b // c\nd") 0).tokenList
      = (Scanner.Init asciiLib ⟨[], 1, 18, [0]⟩ (str "a /* x */ b // c\nd")
          (0 ||| ScanComments)).tokenList.filter (fun t => t.1 ≠ .COMMENT) :=
  ⟨by decide,
    Scan_skips_comments asciiLib ⟨[], 1, 18, [0]⟩ (str "a /* x */ b // c\nd") 0 (by decide)⟩

/-- C40 (the code differs from the claim): `TypeSpec.End` returns the start of
the type expression, `Type.Pos()`, not its end. For the source
`syntax = "v1"`, `type A {`, `  B int`, `}` (base 1), which parses without
error, the type spec starts at 20 and its type ends at 33 (the declaration
spans three lines, 15 to 33), but `End` is 22 and `numLines` of the
declaration is 1. -/
theorem TypeSpec_End_is_Type_Pos :
    (∀ x : TypeSpec, x.End = x.Typ.Pos) ∧
    typeSpecSpans asciiLib 1 (str "syntax = \"v1\"\ntype A \x7b\n  B int\n\x7d") 0
      = some ([(20, 22, 33)], [some 1], []) ∧
    (linesAfter asciiLib 1 (str "syntax = \"v1\"\ntype A \x7b\n  B int\n\x7d") 0).map
      (fun f => numLines f 15 33) = some 3 := by
  refine ⟨fun _ => rfl, ?_⟩
  decide!

theorem expected_quoted (t found : GoString) :
    str "expected " ++ (str "'" ++ t ++ str "'") ++ found =
      str "expected '" ++ t ++ str "'" ++ found := by
  have h : str "expected '" = str "expected " ++ str "'" := by decide
  rw [h]
  simp only [List.append_assoc]

/-- C34, the claim fails without the mode `AllErrors`: on the source `a b`,
`expect` of `(` at `a` records an error and reads on to `b`; `expect` of `(`
at `b` returns the position of `b` and reads on, but records no error: it
would be on the line of the last recorded error. -/
theorem expect_error_discarded :
    expectTwice asciiLib (str "a b") 0 .LPAREN .LPAREN =
      (some (1, .IDENT, 1), some (3, .SEMICOLON, 1)) := by
  decide!

/-- C35, the claim fails without the mode `AllErrors`: on the source `, , x`,
`expectSemi` at the first `,` records an error and reads on; at the second
`,` it reads on to `x` but records no error: it would be on the line of the
last recorded error. -/
theorem expectSemi_error_discarded :
    expectSemiTwice asciiLib (str ", , x") 0 = (some (.COMMA, 1), some (.IDENT, 1)) := by
  decide!

theorem P.bind_panicked {α β : Type} {m : P α} {f : α → P β} {p q : parser} {e : Panic}
    (h : m p = .panicked e q) : (m >>= f) p = .panicked e q := by
  rw [P.bind_apply]
  unfold P.bind
  rw [h]

/-- A run within an account returned, or raised `bailout` without the mode
`AllErrors`. -/
theorem Res.Good.outcome {α : Type} {c b : Bool} {E S K : Nat} {r : Res α} {p : parser}
    (h : Res.Good c b E S K p r) :
    (∃ a q, r = .ok a q ∧ p.Frame b q) ∨
      (∃ q, r = .panicked .bailout q ∧ p.mode &&& AllErrors = 0) := by
  cases h with
  | ok a q f c => exact Or.inl ⟨a, q, rfl, f⟩
  | panicked e q _ he hm _ => exact Or.inr ⟨q, by rw [he], hm⟩

namespace parser

/-- The end of `parseFieldDecl`: the tag, the semicolon and the field. -/
theorem fieldTail (doc : Option CommentGroup) (nt : List Ident × Expr) (q : parser)
    (hq : q.Inv) :
    (∃ q1 c, ((do
        let p2 ← getP
        let tag ←
          if p2.tok = .STRING then do
            next
            pure (some (⟨p2.pos, p2.tok, p2.lit⟩ : BasicLit))
          else pure none
        expectSemi
        let p3 ← getP
        pure (Field.mk doc nt.1 nt.2 tag p3.lineComment) : P Field) q) =
          .ok (.mk doc nt.1 nt.2 (tagAt q) c) q1) ∨
    (∃ q1, ((do
        let p2 ← getP
        let tag ←
          if p2.tok = .STRING then do
            next
            pure (some (⟨p2.pos, p2.tok, p2.lit⟩ : BasicLit))
          else pure none
        expectSemi
        let p3 ← getP
        pure (Field.mk doc nt.1 nt.2 tag p3.lineComment) : P Field) q) =
          .panicked .bailout q1 ∧ q.mode &&& AllErrors = 0) := by
  rw [getP_bind_apply]
  by_cases h : q.tok = .STRING
  · obtain ⟨q2, e2, i2⟩ := next_returns q hq
    have f2 := (next_good false q hq).frame_eq e2
    rw [if_pos h, P.bind_ok e2, P.bind_ok (P.pure_apply _ _)]
    dsimp only
    rcases (expectSemi_good q2 i2).outcome with ⟨_, q3, e4, _⟩ | ⟨q3, e4, hm⟩
    · refine Or.inl ⟨q3, q3.lineComment, ?_⟩
      rw [P.bind_ok e4, getP_bind_apply]
      simp only [tagAt, if_pos h, h]
      rfl
    · refine Or.inr ⟨q3, ?_, ?_⟩
      · rw [P.bind_panicked e4]
      · rw [← f2.mode]
        exact hm
  · rw [if_neg h, P.bind_ok (P.pure_apply _ _)]
    dsimp only
    rcases (expectSemi_good q hq).outcome with ⟨_, q3, e4, _⟩ | ⟨q3, e4, hm⟩
    · refine Or.inl ⟨q3, q3.lineComment, ?_⟩
      rw [P.bind_ok e4, getP_bind_apply]
      simp only [tagAt, if_neg h]
      rfl
    · exact Or.inr ⟨q3, by rw [P.bind_panicked e4], hm⟩

end parser

theorem nameToks_cons (n : GoString) (ns : List GoString) :
    nameToks (n :: ns) = (Token.IDENT, n) :: moreNameToks ns := by
  induction ns generalizing n with
  | nil => rfl
  | cons m ms ih =>
    show (Token.IDENT, n) :: (Token.COMMA, []) :: nameToks (m :: ms) = _
    rw [ih m]
    rfl

namespace parser

theorem parseIdent_ident {p q : parser} (h : p.tok = .IDENT) (e : next p = .ok () q) :
    parseIdent p = .ok ⟨p.pos, p.lit⟩ q := by
  unfold parseIdent
  rw [getP_bind_apply, if_pos h, P.bind_ok e]
  rfl

theorem fieldNamesLoop_reads : ∀ (ns : List GoString) (fuel : Nat) (ids : List Ident)
    (p q : parser), p.Inv → p.left < fuel → p.reads (moreNameToks ns) = some q →
    q.tok ≠ .COMMA →
    ∃ more, fieldNamesLoop fuel ids p = .ok (ids ++ more) q ∧ more.map (fun i => i.Name) = ns ∧
      q.Inv ∧ q.left ≤ p.left ∧ q.mode = p.mode := by
  intro ns
  induction ns with
  | nil =>
    intro fuel ids p q hp hf hr hq
    obtain ⟨f, rfl⟩ : ∃ f, fuel = f + 1 := ⟨fuel - 1, by omega⟩
    have : q = p := by
      unfold moreNameToks reads at hr
      cases hr
      rfl
    subst this
    refine ⟨[], ?_, rfl, hp, le_refl _, rfl⟩
    unfold fieldNamesLoop
    rw [if_neg hq, List.append_nil]
  | cons m ms ih =>
    intro fuel ids p q hp hf hr hq
    obtain ⟨f, rfl⟩ : ∃ f, fuel = f + 1 := ⟨fuel - 1, by omega⟩
    have hr1 : p.reads ((Token.COMMA, []) :: (Token.IDENT, m) :: moreNameToks ms) = some q := hr
    obtain ⟨t1, _, p1, e1, r1⟩ := reads_cons hr1
    obtain ⟨t2, l2, p2, e2, r2⟩ := reads_cons r1
    have g1 := next_good false p hp
    have f1 := g1.frame_eq e1
    have c1 : p1.left < p.left := g1.leftLt e1 (parser.left_pos (by rw [t1]; decide))
    have g2 := next_good false p1 f1.inv
    have f2 := g2.frame_eq e2
    have c2 : p2.left < p1.left := g2.leftLt e2 (parser.left_pos (by rw [t2]; decide))
    obtain ⟨more, e3, h3, i3, c3, m3⟩ := ih f (ids ++ [⟨p1.pos, p1.lit⟩]) p2 q f2.inv
      (by omega) r2 hq
    refine ⟨⟨p1.pos, p1.lit⟩ :: more, ?_, ?_, i3, by omega, ?_⟩
    · unfold fieldNamesLoop
      rw [if_pos t1]
      simp only [e1, parseIdent_ident t2 e2]
      rw [e3, List.append_assoc]
      rfl
    · simp [h3, l2]
    · rw [m3, f2.mode, f1.mode]

end parser

/-- C37: `parseFieldDecl` at an identifier, with fuel for the recursion. When
the token after the identifier is a string literal, a semicolon or a closing
brace, the field is embedded: no names, and the identifier as type. When it is
`.` followed by an identifier, the field is embedded with the `SelectorExpr`
of the two identifiers as type. When the parser reads the identifiers
`n1, ..., nk` separated by commas, the token after them is none of these (for
one name) and no comma, and `parseType` returns the type `T` there, the field
has names with the texts `n1, ..., nk` in order, the first at the position of
the call, and the type `T`. In all cases the tag is the string literal that is
the current token after the type, with its position and text, or nil when that
token is no string literal; the field is returned unless the parser gives up
after too many errors. -/
theorem parseFieldDecl_fields (n : Nat) (p : parser) (hp : p.Inv) (ht : p.tok = .IDENT)
    (hn : 5 * p.left + 3 ≤ n + 1) :
    (∀ p1, parser.next p = .ok () p1 →
      p1.tok = .STRING ∨ p1.tok = .SEMICOLON ∨ p1.tok = .RBRACE →
      FieldIs p (parser.parseFieldDeclF (n + 1) p) [] (.Ident ⟨p.pos, p.lit⟩) (tagAt p1)) ∧
    (∀ p1 p2 p3, parser.next p = .ok () p1 → p1.tok = .PERIOD →
      parser.next p1 = .ok () p2 → p2.tok = .IDENT → parser.next p2 = .ok () p3 →
      FieldIs p (parser.parseFieldDeclF (n + 1) p) []
        (.SelectorExpr (.Ident ⟨p.pos, p.lit⟩) ⟨p2.pos, p2.lit⟩) (tagAt p3)) ∧
    (∀ (names : List GoString) (q1 q2 : parser) (typ : Expr), names ≠ [] →
      p.reads (nameToks names) = some q1 → q1.tok ≠ .COMMA →
      (names.length = 1 → q1.tok ≠ .PERIOD ∧ q1.tok ≠ .STRING ∧ q1.tok ≠ .SEMICOLON ∧
        q1.tok ≠ .RBRACE) →
      parser.parseTypeF n q1 = .ok typ q2 →
      ∃ ids : List Ident, ids.map (fun i => i.Name) = names ∧
        ids.head?.map (fun i => i.NamePos) = some p.pos ∧
        FieldIs p (parser.parseFieldDeclF (n + 1) p) ids typ (tagAt q2)) := by
  have lift : ∀ (nt : List Ident × Expr) (q : parser) (tag : Option BasicLit),
      q.mode = p.mode →
      ((∃ q1 c, ((do
        let p2 ← getP
        let tag ←
          if p2.tok = .STRING then do
            parser.next
            pure (some (⟨p2.pos, p2.tok, p2.lit⟩ : BasicLit))
          else pure none
        parser.expectSemi
        let p3 ← getP
        pure (Field.mk p.leadComment nt.1 nt.2 tag p3.lineComment) : P Field) q) =
          .ok (.mk p.leadComment nt.1 nt.2 tag c) q1) ∨
      (∃ q1, ((do
        let p2 ← getP
        let tag ←
          if p2.tok = .STRING then do
            parser.next
            pure (some (⟨p2.pos, p2.tok, p2.lit⟩ : BasicLit))
          else pure none
        parser.expectSemi
        let p3 ← getP
        pure (Field.mk p.leadComment nt.1 nt.2 tag p3.lineComment) : P Field) q) =
          .panicked .bailout q1 ∧ q.mode &&& AllErrors = 0)) →
      ∀ r : Res Field, r = ((do
        let p2 ← getP
        let tag ←
          if p2.tok = .STRING then do
            parser.next
            pure (some (⟨p2.pos, p2.tok, p2.lit⟩ : BasicLit))
          else pure none
        parser.expectSemi
        let p3 ← getP
        pure (Field.mk p.leadComment nt.1 nt.2 tag p3.lineComment) : P Field) q) →
      FieldIs p r nt.1 nt.2 tag := by
    intro nt q tag hm h r hr
    rcases h with ⟨q1, c, e⟩ | ⟨q1, e, h0⟩
    · exact Or.inl ⟨q1, c, hr.trans e⟩
    · exact Or.inr ⟨q1, hr.trans e, by rw [← hm]; exact h0⟩
  refine ⟨?_, ?_, ?_⟩
  · intro p1 e1 h1
    have f1 := (parser.next_good false p hp).frame_eq e1
    refine lift ([], .Ident ⟨p.pos, p.lit⟩) p1 _ f1.mode (parser.fieldTail _ _ p1 f1.inv) _ ?_
    have hper : p1.tok ≠ .PERIOD := by rcases h1 with h | h | h <;> rw [h] <;> decide
    unfold parser.parseFieldDeclF
    rw [getP_bind_apply, if_pos ht, P.bind_ok (parser.parseIdent_ident ht e1), getP_bind_apply,
      if_pos (Or.inr h1), if_neg hper, P.bind_ok (P.pure_apply _ _)]
  · intro p1 p2 p3 e1 h1 e2 h2 e3
    have f1 := (parser.next_good false p hp).frame_eq e1
    have f2 := (parser.next_good false p1 f1.inv).frame_eq e2
    have f3 := (parser.next_good false p2 f2.inv).frame_eq e3
    refine lift ([], .SelectorExpr (.Ident ⟨p.pos, p.lit⟩) ⟨p2.pos, p2.lit⟩) p3 _
      (by rw [f3.mode, f2.mode, f1.mode]) (parser.fieldTail _ _ p3 f3.inv) _ ?_
    have eq : parser.parseQualifiedIdent ⟨p.pos, p.lit⟩ p1 =
        .ok (.SelectorExpr (.Ident ⟨p.pos, p.lit⟩) ⟨p2.pos, p2.lit⟩) p3 := by
      unfold parser.parseQualifiedIdent parser.parseTypeName
      dsimp only
      rw [P.bind_ok (P.pure_apply _ _)]
      rw [getP_bind_apply, if_pos h1, P.bind_ok e2,
        P.bind_ok (parser.parseIdent_ident h2 e3)]
      rfl
    unfold parser.parseFieldDeclF
    rw [getP_bind_apply, if_pos ht, P.bind_ok (parser.parseIdent_ident ht e1), getP_bind_apply,
      if_pos (Or.inl h1), if_pos h1, P.bind_ok eq, P.bind_ok (P.pure_apply _ _)]
  · intro names q1 q2 typ hne hr hq hone et
    cases names with
    | nil => exact absurd rfl hne
    | cons m ms =>
      rw [nameToks_cons] at hr
      obtain ⟨_, l1, p1, e1, r1⟩ := parser.reads_cons hr
      have g1 := parser.next_good false p hp
      have f1 := g1.frame_eq e1
      have c1 : p1.left < p.left := g1.leftLt e1 (parser.left_pos (by rw [ht]; decide))
      obtain ⟨more, e2, h2, i2, c2, m2⟩ := parser.fieldNamesLoop_reads ms p1.fuel
        [⟨p.pos, p.lit⟩] p1 q1 f1.inv (by have := p1.tokens_lt_fuel f1.inv; omega) r1 hq
      have g3 := (parser.TypeGood_all n).typ q1 i2 (by omega)
      have f3 := g3.frame_eq et
      have h4 : ¬ (p1.tok = .PERIOD ∨ p1.tok = .STRING ∨ p1.tok = .SEMICOLON ∨
          p1.tok = .RBRACE) := by
        cases ms with
        | nil =>
          have : q1 = p1 := by
            unfold moreNameToks parser.reads at r1
            cases r1
            rfl
          subst this
          have := hone rfl
          tauto
        | cons k ks =>
          have r1' : p1.reads ((Token.COMMA, []) :: (Token.IDENT, k) :: moreNameToks ks) =
            some q1 := r1
          have t := (parser.reads_cons r1').1
          rw [t]
          decide
      refine ⟨⟨p.pos, p.lit⟩ :: more, by simp [h2, l1], rfl, ?_⟩
      refine lift (⟨p.pos, p.lit⟩ :: more, typ) q2 _ (by rw [f3.mode, m2, f1.mode])
        (parser.fieldTail _ _ q2 f3.inv) _ ?_
      have e2' : (fun q => parser.fieldNamesLoop q.fuel [⟨p.pos, p.lit⟩] q : P (List Ident)) p1 =
          .ok ([⟨p.pos, p.lit⟩] ++ more) q1 := e2
      unfold parser.parseFieldDeclF
      rw [getP_bind_apply, if_pos ht, P.bind_ok (parser.parseIdent_ident ht e1),
        getP_bind_apply, if_neg h4]
      rw [P.bind_ok (m := fun q => parser.fieldNamesLoop q.fuel [⟨p.pos, p.lit⟩] q) e2']
      rw [P.bind_ok et, P.bind_ok (P.pure_apply _ _)]
      rfl

/-- Witness of `parseFieldDecl_fields`: the parser at the first token of the
source `x, y int "j"`, where the field returned has the names `x`, `y` and the
tag `"j"`. -/
theorem parseFieldDecl_fields_witness :
    ((parser.first asciiLib 1 [] (str "x, y int \"j\"") 0).Inv ∧
      (parser.first asciiLib 1 [] (str "x, y int \"j\"") 0).tok = .IDENT ∧
      5 * (parser.first asciiLib 1 [] (str "x, y int \"j\"") 0).left + 3 ≤ 200 + 1) ∧
    fieldReport (parser.parseFieldDeclF (200 + 1)
        (parser.first asciiLib 1 [] (str "x, y int \"j\"") 0)) =
      some ([str "x", str "y"], some (str "\"j\"")) ∧
    ∀ (names : List GoString) (q1 q2 : parser) (typ : Expr), names ≠ [] →
      (parser.first asciiLib 1 [] (str "x, y int \"j\"") 0).reads (nameToks names) = some q1 →
      q1.tok ≠ .COMMA →
      (names.length = 1 → q1.tok ≠ .PERIOD ∧ q1.tok ≠ .STRING ∧ q1.tok ≠ .SEMICOLON ∧
        q1.tok ≠ .RBRACE) →
      parser.parseTypeF 200 q1 = .ok typ q2 →
      ∃ ids : List Ident, ids.map (fun i => i.Name) = names ∧
        ids.head?.map (fun i => i.NamePos) =
          some (parser.first asciiLib 1 [] (str "x, y int \"j\"") 0).pos ∧
        FieldIs (parser.first asciiLib 1 [] (str "x, y int \"j\"") 0)
          (parser.parseFieldDeclF (200 + 1) (parser.first asciiLib 1 [] (str "x, y int \"j\"") 0))
          ids typ (tagAt q2) :=
  ⟨⟨parser.first_inv _ _ _ _ _, by decide!, by decide!⟩, by decide!,
    (parseFieldDecl_fields 200 _ (parser.first_inv _ _ _ _ _) (by decide!) (by decide!)).2.2⟩

namespace printer

theorem sameComments_refl (p : printer) : p.SameComments p := ⟨rfl, rfl, rfl, rfl, rfl, rfl⟩

theorem sameComments_trans {p q r : printer} (h1 : p.SameComments q) (h2 : q.SameComments r) :
    p.SameComments r :=
  ⟨h2.1.trans h1.1, h2.2.1.trans h1.2.1, h2.2.2.1.trans h1.2.2.1,
    h2.2.2.2.1.trans h1.2.2.2.1, h2.2.2.2.2.1.trans h1.2.2.2.2.1,
    h2.2.2.2.2.2.trans h1.2.2.2.2.2⟩

theorem sameComments_pending {p q : printer} (h : p.SameComments q) (hp : p.Pending) :
    q.Pending := by
  intro hlt
  rw [h.2.2.2.1] at hlt
  rw [h.2.2.1]
  exact hp hlt

theorem lineFor_same (fs : Nat → Position) (p : printer) (pos : Nat) :
    p.SameComments (p.lineFor fs pos).2 := by
  unfold lineFor
  split_ifs
  · exact ⟨rfl, rfl, rfl, rfl, rfl, rfl⟩
  · exact sameComments_refl p

theorem commentsHaveNewlineLoop_same (fs : Nat → Position) (line : Nat) :
    ∀ (list : List Comment) (i : Nat) (p : printer),
      p.SameComments (commentsHaveNewlineLoop fs line i list p).2 := by
  intro list
  induction list with
  | nil => intro i p; exact sameComments_refl p
  | cons c rest ih =>
    intro i p
    unfold commentsHaveNewlineLoop
    by_cases hi : 0 < i
    · simp only [hi, if_true]
      split_ifs
      · exact lineFor_same fs p _
      · exact lineFor_same fs p _
      · exact sameComments_trans (lineFor_same fs p _) (ih _ _)
    · simp only [hi, if_false]
      split_ifs
      · exact sameComments_refl p
      · exact sameComments_refl p
      · exact ih _ _

theorem commentsHaveNewline_same (fs : Nat → Position) (p : printer) (list : List Comment) :
    p.SameComments (p.commentsHaveNewline fs list).2 := by
  unfold commentsHaveNewline
  cases list with
  | nil => exact sameComments_refl p
  | cons c rest =>
    exact sameComments_trans (lineFor_same fs p _) (commentsHaveNewlineLoop_same fs _ _ _ _)

theorem nextCommentFrom_pending (fs : Nat → Position) :
    ∀ (l : List CommentGroup) (p : printer), (nextCommentFrom fs l p).Pending := by
  intro l
  induction l with
  | nil =>
    intro p h
    exact absurd h (lt_irrefl _)
  | cons c rest ih =>
    intro p
    unfold nextCommentFrom
    simp only
    split
    next h0 => exact ih _
    next c0 list h0 =>
      intro _
      refine ⟨c, ?_, by rw [h0]; simp⟩
      show (commentsHaveNewline fs _ (c0 :: list)).2.comment = some c
      rw [(commentsHaveNewline_same fs _ _).2.2.1]

/-- After `nextComment` an offset below `infinity` comes with a pending group
whose list is not empty. -/
theorem nextComment_pending (fs : Nat → Position) (p : printer) : (p.nextComment fs).Pending :=
  nextCommentFrom_pending fs _ p

theorem nextCommentFrom_none (fs : Nat → Position) :
    ∀ (l : List CommentGroup) (p : printer), (∀ g ∈ l, g.List = []) →
      (nextCommentFrom fs l p).commentOffset = infinity := by
  intro l
  induction l with
  | nil => intro p _; rfl
  | cons c rest ih =>
    intro p h
    unfold nextCommentFrom
    simp only
    have h0 : c.List = [] := h c (List.mem_cons_self _ _)
    split
    next => exact ih _ (fun g hg => h g (List.mem_cons_of_mem _ hg))
    next c0 list h1 =>
      rw [h0] at h1
      cases h1

end printer

namespace printer

theorem writeByte_same (p : printer) (ch n : Nat) : p.SameComments (p.writeByte ch n) :=
  ⟨rfl, rfl, rfl, rfl, rfl, rfl⟩

theorem writeCommentPrefix_same (p : printer) (pos : Position) :
    p.SameComments (p.writeCommentPrefix pos) := by
  unfold writeCommentPrefix
  split_ifs
  · exact sameComments_refl p
  · exact writeByte_same p _ _
  · exact sameComments_refl p

theorem writeGroup_same (fs : Nat → Position) : ∀ (l : List Comment) (last : Option Comment)
    (p : printer), p.SameComments (writeGroup fs l last p).2 := by
  intro l
  induction l with
  | nil => intro _ p; exact sameComments_refl p
  | cons c rest ih =>
    intro last p
    unfold writeGroup
    exact sameComments_trans (writeCommentPrefix_same p _) (ih _ _)

theorem writeGroup_last (fs : Nat → Position) : ∀ (l : List Comment) (last : Option Comment)
    (p : printer), l ≠ [] → ∃ c, (writeGroup fs l last p).1 = some c := by
  intro l
  induction l with
  | nil => intro _ _ h; exact absurd rfl h
  | cons c rest ih =>
    intro last p _
    unfold writeGroup
    cases rest with
    | nil => exact ⟨c, rfl⟩
    | cons d ds => exact ih _ _ (by simp)

theorem writeGroup_some (fs : Nat → Position) : ∀ (l : List Comment) (c : Comment)
    (p : printer), ∃ d, (writeGroup fs l (some c) p).1 = some d := by
  intro l
  induction l with
  | nil => intro c _; exact ⟨c, rfl⟩
  | cons c rest ih =>
    intro _ p
    unfold writeGroup
    exact ih _ _

theorem suffixLoop_same : ∀ (l : List whiteSpace) (i : Nat) (a b c : Bool) (p : printer),
    p.SameComments (suffixLoop l i a b c p).2 := by
  intro l
  induction l with
  | nil => intro _ _ _ _ p; exact sameComments_refl p
  | cons ch rest ih =>
    intro i a b c p
    unfold suffixLoop
    split_ifs
    · exact sameComments_trans ⟨rfl, rfl, rfl, rfl, rfl, rfl⟩ (ih _ _ _ _ _)
    · exact ih _ _ _ _ _
    · exact ih _ _ _ _ _
    · exact sameComments_trans ⟨rfl, rfl, rfl, rfl, rfl, rfl⟩ (ih _ _ _ _ _)
    · exact ih _ _ _ _ _

theorem writeWhitespaceLoop_same : ∀ (fuel n i : Nat) (p q : printer),
    writeWhitespaceLoop fuel n i p = .ok () q → p.SameComments q := by
  intro fuel
  induction fuel with
  | zero =>
    intro n i p q h
    unfold writeWhitespaceLoop at h
    cases h
  | succ fuel ih =>
    intro n i p q h
    unfold writeWhitespaceLoop at h
    by_cases hi : i < n
    · rw [if_pos hi] at h
      cases hch : p.wsbuf[i]? with
      | none =>
        rw [hch] at h
        cases h
      | some ch =>
        rw [hch] at h
        dsimp only at h
        by_cases h1 : ch = whiteSpace.ignore
        · rw [if_pos h1] at h
          exact ih _ _ _ _ h
        rw [if_neg h1] at h
        by_cases h2 : ch = whiteSpace.indent
        · rw [if_pos h2] at h
          refine sameComments_trans ?_ (ih _ _ _ _ h)
          exact ⟨rfl, rfl, rfl, rfl, rfl, rfl⟩
        rw [if_neg h2] at h
        by_cases h3 : ch = whiteSpace.unindent
        · rw [if_pos h3] at h
          by_cases h4 : p.indent - 1 < 0
          · rw [if_pos h4] at h
            unfold internalError PrintRes.andThen at h
            cases h
          · rw [if_neg h4] at h
            refine sameComments_trans ?_ (ih _ _ _ _ h)
            exact ⟨rfl, rfl, rfl, rfl, rfl, rfl⟩
        rw [if_neg h3] at h
        by_cases h5 : ch = whiteSpace.newline ∨ ch = whiteSpace.formfeed
        · rw [if_pos h5] at h
          by_cases h6 : i + 1 < n
          · rw [if_pos h6] at h
            cases hnx : p.wsbuf[i + 1]? with
            | none =>
              rw [hnx] at h
              cases h
            | some nx =>
              rw [hnx] at h
              dsimp only at h
              by_cases h7 : nx = whiteSpace.unindent
              · rw [if_pos h7] at h
                refine sameComments_trans ?_ (ih _ _ _ _ h)
                exact ⟨rfl, rfl, rfl, rfl, rfl, rfl⟩
              · rw [if_neg h7] at h
                exact sameComments_trans (writeByte_same p _ _) (ih _ _ _ _ h)
          · rw [if_neg h6] at h
            exact sameComments_trans (writeByte_same p _ _) (ih _ _ _ _ h)
        · rw [if_neg h5] at h
          exact sameComments_trans (writeByte_same p _ _) (ih _ _ _ _ h)
    · rw [if_neg hi] at h
      cases h
      exact sameComments_refl p

theorem writeWhitespace_same {p q : printer} {n : Nat} (h : p.writeWhitespace n = .ok () q) :
    p.SameComments q := by
  unfold writeWhitespace at h
  cases hl : writeWhitespaceLoop (2 * n + 2) n 0 p with
  | ok a p1 =>
    rw [hl] at h
    unfold PrintRes.andThen at h
    dsimp only at h
    split_ifs at h
    cases h
    exact sameComments_trans (writeWhitespaceLoop_same _ _ _ _ _ hl) ⟨rfl, rfl, rfl, rfl, rfl, rfl⟩
  | panicked e p1 =>
    rw [hl] at h
    cases h
  | outOfFuel =>
    rw [hl] at h
    cases h

end printer

namespace printer

theorem nextCommentFrom_fields (fs : Nat → Position) :
    ∀ (l : List CommentGroup) (p : printer),
      (nextCommentFrom fs l p).comments = p.comments ∧
      (nextCommentFrom fs l p).impliedSemi = p.impliedSemi ∧
      (l = [] → (nextCommentFrom fs l p).commentOffset = infinity ∧
        (nextCommentFrom fs l p).cindex = p.cindex) ∧
      (l ≠ [] → p.cindex < (nextCommentFrom fs l p).cindex) := by
  intro l
  induction l with
  | nil => intro p; exact ⟨rfl, rfl, fun _ => ⟨rfl, rfl⟩, fun h => absurd rfl h⟩
  | cons c rest ih =>
    intro p
    unfold nextCommentFrom
    simp only
    split
    next h0 =>
      obtain ⟨a1, a2, a3, a4⟩ := ih { p with cindex := p.cindex + 1 }
      refine ⟨a1, a2, fun h => List.noConfusion h, fun _ => ?_⟩
      by_cases hr : rest = []
      · rw [(a3 hr).2]
        exact Nat.lt_succ_self _
      · exact lt_trans (Nat.lt_succ_self _) (a4 hr)
    next c0 list h0 =>
      have hs := commentsHaveNewline_same fs
        { p with cindex := p.cindex + 1, comment := some c,
                 commentOffset := (posFor fs c0.Pos).Offset } (c0 :: list)
      refine ⟨hs.1, hs.2.2.2.2.2, fun h => List.noConfusion h, fun _ => ?_⟩
      show p.cindex < (commentsHaveNewline fs _ (c0 :: list)).2.cindex
      rw [hs.2.1]
      exact Nat.lt_succ_self _

/-- The loop of `intersperseComments` ends: from a consistent comment state,
for a position with an offset of at most `infinity`, it returns in a
consistent state in which no comment comes before the position, with a last
comment when it wrote a group or had one before. -/
theorem intersperseLoop_ends (fs : Nat → Position) (next : Position)
    (hn : next.Offset ≤ infinity) : ∀ (fuel : Nat) (last : Option Comment) (p : printer),
    p.Pending →
    (if p.commentOffset = infinity then 1 else p.comments.length - p.cindex + 2) ≤ fuel →
    ∃ last1 q, intersperseLoop fs next fuel last p = .ok last1 q ∧ q.Pending ∧
      q.commentBefore next = false ∧
      (p.commentBefore next = true ∨ last.isSome = true → last1.isSome = true) := by
  intro fuel
  induction fuel with
  | zero =>
    intro last p _ hf
    split_ifs at hf <;> omega
  | succ fuel ih =>
    intro last p hp hf
    unfold intersperseLoop
    by_cases hb : p.commentBefore next = true
    · rw [if_pos hb]
      have hlt : p.commentOffset < infinity := by
        unfold commentBefore at hb
        simp only [Bool.and_eq_true, decide_eq_true_eq] at hb
        omega
      have hne : p.commentOffset ≠ infinity := by omega
      rw [if_neg hne] at hf
      obtain ⟨g, hg, hl⟩ := hp hlt
      rw [hg]
      dsimp only
      have hs := writeGroup_same fs g.List last p
      obtain ⟨c, hc⟩ := writeGroup_last fs g.List last p hl
      generalize (writeGroup fs g.List last p).2 = w at hs
      generalize (writeGroup fs g.List last p).1 = l1 at hc
      obtain ⟨a1, a2, a3, a4⟩ := nextCommentFrom_fields fs (w.comments.drop w.cindex) w
      have hs1 := hs.1
      have hs2 := hs.2.1
      have hlen : w.comments.length = p.comments.length := by rw [hs1]
      have hfuel : (if (w.nextComment fs).commentOffset = infinity then 1
          else (w.nextComment fs).comments.length - (w.nextComment fs).cindex + 2) ≤ fuel := by
        unfold nextComment
        by_cases hd : w.comments.drop w.cindex = []
        · rw [if_pos (a3 hd).1]
          omega
        · have h4 := a4 hd
          have h5 : w.cindex < w.comments.length := by
            by_contra hge
            exact hd (List.drop_eq_nil_of_le (by omega))
          rw [a1]
          split_ifs <;> omega
      obtain ⟨last1, q, e, hq, hqb, hl1⟩ := ih l1 (w.nextComment fs)
        (nextComment_pending fs _) hfuel
      exact ⟨last1, q, e, hq, hqb, fun _ => hl1 (Or.inr (by rw [hc]; rfl))⟩
    · rw [if_neg hb]
      exact ⟨last, p, rfl, hp, by simpa using hb, fun h => h.resolve_left hb⟩

end printer

namespace printer

theorem writeWhitespace_spared (p : printer) : p.Spared (p.writeWhitespace p.wsbuf.length) := by
  refine ⟨fun a q h => writeWhitespace_same h, writeWhitespace_returns p _, fun e q h a he => ?_⟩
  rcases writeWhitespace_done p _ (le_refl _) with ⟨q1, e1, _⟩ | ⟨q1, a1, e1, _⟩
  · rw [e1] at h
    cases h
  · rw [e1] at h
    cases h
    cases he

theorem spared_of_same {α : Type} {p p1 : printer} {r : PrintRes α} (h : p.SameComments p1)
    (h1 : p1.Spared r) : p.Spared r :=
  ⟨fun a q e => sameComments_trans h (h1.1 a q e), h1.2.1, h1.2.2⟩

theorem writeCommentSuffix_spared (p : printer) (b : Bool) :
    p.Spared (p.writeCommentSuffix b) := by
  unfold writeCommentSuffix
  have hs := suffixLoop_same p.wsbuf 0 b false false p
  generalize suffixLoop p.wsbuf 0 b false false p = r at hs
  obtain ⟨w1, w2, w3⟩ := writeWhitespace_spared r.2
  refine spared_of_same hs ?_
  dsimp only
  cases hw : r.2.writeWhitespace r.2.wsbuf.length with
  | ok a p1 =>
    have s1 := w1 a p1 hw
    unfold PrintRes.andThen
    dsimp only
    split_ifs
    · refine ⟨fun a q e => ?_, fun e => PrintRes.noConfusion e, fun e q h => PrintRes.noConfusion h⟩
      cases e
      exact sameComments_trans s1 (writeByte_same p1 _ _)
    · refine ⟨fun a q e => ?_, fun e => PrintRes.noConfusion e, fun e q h => PrintRes.noConfusion h⟩
      cases e
      exact s1
  | panicked e p1 =>
    refine ⟨fun a q h => PrintRes.noConfusion h, fun h => PrintRes.noConfusion h, fun e1 q h => ?_⟩
    unfold PrintRes.andThen at h
    cases h
    exact w3 e p1 hw
  | outOfFuel => exact absurd hw w2

theorem intersperseTail_spared (fs : Nat → Position) (p1 : printer) (next : Position)
    (tok : Token) (last : Comment) :
    p1.Spared (match last.Text[1]? with
      | none => (.panicked .indexOutOfRange p1 : PrintRes (Bool × Bool))
      | some t1 =>
        let lp : Bool × printer :=
          if p1.mode &&& noExtraBlank = 0 ∧ t1 = 42 then
            let r := p1.lineFor fs last.Pos
            (decide (r.1 = next.Line), r.2)
          else (false, p1)
        let p2 := lp.2
        let r3 : Bool × printer :=
          if p1.mode &&& noExtraBlank = 0 ∧ t1 = 42 ∧ lp.1 = true ∧ tok ≠ .COMMA ∧
              (tok ≠ .RPAREN ∨ p2.prevOpen = .LPAREN) ∧
              (tok ≠ .RBRACK ∨ p2.prevOpen = .LBRACK) then
            if p2.containsLinebreak ∧ p2.mode &&& noExtraLinebreak = 0 ∧ p2.level = 0 then
              (true, p2)
            else (false, p2.writeByte whiteSpace.blank 1)
          else (false, p2)
        let needsLinebreak : Bool :=
          if t1 = 47 ∨ tok = .EOF ∨ (tok = .RBRACE ∧ r3.2.mode &&& noExtraLinebreak = 0) then true
          else r3.1
        r3.2.writeCommentSuffix needsLinebreak) := by
  cases last.Text[1]? with
  | none =>
    exact ⟨fun a q h => PrintRes.noConfusion h, fun h => PrintRes.noConfusion h,
      fun e q h a he => by cases h; cases he⟩
  | some t1 =>
    dsimp only
    have h2 : p1.SameComments
        (if p1.mode &&& noExtraBlank = 0 ∧ t1 = 42 then
          ((decide ((p1.lineFor fs last.Pos).1 = next.Line), (p1.lineFor fs last.Pos).2) :
            Bool × printer)
        else (false, p1)).2 := by
      split_ifs
      · exact lineFor_same fs p1 _
      · exact sameComments_refl p1
    generalize (if p1.mode &&& noExtraBlank = 0 ∧ t1 = 42 then
          ((decide ((p1.lineFor fs last.Pos).1 = next.Line), (p1.lineFor fs last.Pos).2) :
            Bool × printer)
        else (false, p1)) = lp at h2
    have h3 : lp.2.SameComments
        (if p1.mode &&& noExtraBlank = 0 ∧ t1 = 42 ∧ lp.1 = true ∧ tok ≠ .COMMA ∧
              (tok ≠ .RPAREN ∨ lp.2.prevOpen = .LPAREN) ∧
              (tok ≠ .RBRACK ∨ lp.2.prevOpen = .LBRACK) then
            if lp.2.containsLinebreak ∧ lp.2.mode &&& noExtraLinebreak = 0 ∧ lp.2.level = 0 then
              ((true, lp.2) : Bool × printer)
            else (false, lp.2.writeByte whiteSpace.blank 1)
          else (false, lp.2)).2 := by
      split_ifs
      · exact sameComments_refl _
      · exact writeByte_same _ _ _
      · exact sameComments_refl _
    generalize (if p1.mode &&& noExtraBlank = 0 ∧ t1 = 42 ∧ lp.1 = true ∧ tok ≠ .COMMA ∧
              (tok ≠ .RPAREN ∨ lp.2.prevOpen = .LPAREN) ∧
              (tok ≠ .RBRACK ∨ lp.2.prevOpen = .LBRACK) then
            if lp.2.containsLinebreak ∧ lp.2.mode &&& noExtraLinebreak = 0 ∧ lp.2.level = 0 then
              ((true, lp.2) : Bool × printer)
            else (false, lp.2.writeByte whiteSpace.blank 1)
          else (false, lp.2)) = r3 at h3
    exact spared_of_same (sameComments_trans h2 h3) (writeCommentSuffix_spared _ _)

end printer

namespace printer

theorem intersperseComments_spared (fs : Nat → Position) (p : printer) (next : Position)
    (tok : Token) (hp : p.Pending) (hn : next.Offset ≤ infinity)
    (hb : p.commentBefore next = true) :
    (∃ c q, intersperseLoop fs next (p.comments.length + 2) none p = .ok (some c) q) ∧
    (∀ a q, p.intersperseComments fs next tok ≠ .panicked (.internal noPendingMsg a) q) ∧
    p.intersperseComments fs next tok ≠ .outOfFuel ∧
    (∀ r q, p.intersperseComments fs next tok = .ok r q → q.Pending) := by
  obtain ⟨last1, q1, e, hq, _, hl⟩ := intersperseLoop_ends fs next hn (p.comments.length + 2)
    none p hp (by split_ifs <;> omega)
  have hsome := hl (Or.inl hb)
  cases last1 with
  | none => cases hsome
  | some c =>
    have hsp : q1.Spared (p.intersperseComments fs next tok) := by
      unfold intersperseComments
      rw [e]
      exact intersperseTail_spared fs q1 next tok c
    exact ⟨⟨c, q1, e⟩, fun a q h => hsp.2.2 _ q h a rfl, fun h => hsp.2.1 h,
      fun r q h => sameComments_pending (hsp.1 r q h) hq⟩

theorem setComment_pending (fs : Nat → Position) (p q : printer) (g : Option CommentGroup)
    (hp : p.Pending) (h : p.setComment fs g = .ok () q) : q.Pending := by
  unfold setComment at h
  cases g with
  | none =>
    cases h
    exact hp
  | some g =>
    dsimp only at h
    have key : ∀ p1 : printer, p1.Pending →
        (if ({ p1 with comments := p1.comments.set 0 g, cindex := 0 } : printer).commentOffset
            = infinity then
          (.ok () (({ p1 with comments := p1.comments.set 0 g, cindex := 0 } : printer).nextComment
            fs) : PrintRes Unit)
        else .ok () { p1 with comments := p1.comments.set 0 g, cindex := 0 }) = .ok () q →
        q.Pending := by
      intro p1 h1 e
      split_ifs at e
      · cases e
        exact nextComment_pending fs _
      · cases e
        exact h1
    by_cases h1 : p.comments = []
    · rw [if_pos h1] at h
      exact key { p with comments := [⟨[]⟩] } hp h
    · rw [if_neg h1] at h
      by_cases h2 : p.cindex < p.comments.length
      · rw [if_pos h2] at h
        cases hl : g.List with
        | nil =>
          rw [hl] at h
          cases h
        | cons c0 rest =>
          rw [hl] at h
          dsimp only at h
          cases hf : p.flush fs (posFor fs c0.Pos) Token.ILLEGAL with
          | ok a p1 =>
            rw [hf] at h
            cases h
          | panicked e p1 =>
            rw [hf] at h
            cases h
          | outOfFuel =>
            rw [hf] at h
            cases h
      · rw [if_neg h2] at h
        exact key p hp h

end printer

/-- C38, amended: the comment state is consistent when an offset
`commentOffset` below `infinity` comes with a pending group `p.comment` whose
list is not empty. `nextComment` makes the state consistent, whatever it was,
and `setComment` and `flush` keep it so when they return. At a call of `flush`
in a consistent state, for a position `next` whose offset is at most
`infinity`: when `commentBefore(next)` holds, the pending group is not nil and
its list is not empty, the loop of `intersperseComments` ends with a last
comment written, and `flush` does not end in the internal error
`intersperseComments called without pending comments`; the call ends. When no
group from `cindex` on has a comment, after `nextComment` `commentBefore` is
false for every such position, the one of the final flush, with the offset
`infinity`, included. -/
theorem flush_pending_comment (fs : Nat → Position) (p : printer) (next : Position)
    (tok : Token) (hp : p.Pending) (hn : next.Offset ≤ infinity) :
    (p.commentBefore next = true → ∃ g, p.comment = some g ∧ g.List ≠ []) ∧
    (p.commentBefore next = true →
      ∃ c q, printer.intersperseLoop fs next (p.comments.length + 2) none p = .ok (some c) q) ∧
    (∀ a q, p.flush fs next tok ≠ .panicked (.internal noPendingMsg a) q) ∧
    p.flush fs next tok ≠ .outOfFuel ∧
    (∀ r q, p.flush fs next tok = .ok r q → q.Pending) ∧
    (∀ g q, p.setComment fs g = .ok () q → q.Pending) ∧
    (∀ p0 : printer, (p0.nextComment fs).Pending) ∧
    (∀ p0 : printer, (∀ g ∈ p0.comments.drop p0.cindex, g.List = []) →
      (p0.nextComment fs).commentBefore next = false ∧
      (p0.nextComment fs).commentBefore ⟨[], infinity, infinity, 0⟩ = false) := by
  have hlt : p.commentBefore next = true → p.commentOffset < infinity := by
    intro hb
    unfold printer.commentBefore at hb
    simp only [Bool.and_eq_true, decide_eq_true_eq] at hb
    omega
  refine ⟨fun hb => hp (hlt hb), fun hb =>
    (printer.intersperseComments_spared fs p next tok hp hn hb).1, ?_, ?_, ?_,
    fun g q h => printer.setComment_pending fs p q g hp h,
    fun p0 => printer.nextComment_pending fs p0, fun p0 h0 => ?_⟩
  · intro a q h
    unfold printer.flush at h
    by_cases hb : p.commentBefore next = true
    · rw [if_pos hb] at h
      exact (printer.intersperseComments_spared fs p next tok hp hn hb).2.1 a q h
    · rw [if_neg hb] at h
      cases hw : p.writeWhitespace p.wsbuf.length with
      | ok a1 p1 =>
        rw [hw] at h
        cases h
      | panicked e p1 =>
        rw [hw] at h
        cases h
        exact (printer.writeWhitespace_spared p).2.2 _ q hw a rfl
      | outOfFuel =>
        rw [hw] at h
        cases h
  · intro h
    unfold printer.flush at h
    by_cases hb : p.commentBefore next = true
    · rw [if_pos hb] at h
      exact (printer.intersperseComments_spared fs p next tok hp hn hb).2.2.1 h
    · rw [if_neg hb] at h
      cases hw : p.writeWhitespace p.wsbuf.length with
      | ok a1 p1 =>
        rw [hw] at h
        cases h
      | panicked e p1 =>
        rw [hw] at h
        cases h
      | outOfFuel => exact (printer.writeWhitespace_spared p).2.1 hw
  · intro r q h
    unfold printer.flush at h
    by_cases hb : p.commentBefore next = true
    · rw [if_pos hb] at h
      exact (printer.intersperseComments_spared fs p next tok hp hn hb).2.2.2 r q h
    · rw [if_neg hb] at h
      cases hw : p.writeWhitespace p.wsbuf.length with
      | ok a1 p1 =>
        rw [hw] at h
        cases h
        exact printer.sameComments_pending ((printer.writeWhitespace_spared p).1 _ _ hw) hp
      | panicked e p1 =>
        rw [hw] at h
        cases h
      | outOfFuel =>
        rw [hw] at h
        cases h
  · have e := printer.nextCommentFrom_none fs _ p0 h0
    have e1 : (p0.nextComment fs).commentOffset = infinity := e
    unfold printer.commentBefore
    rw [e1]
    constructor
    · simp only [Bool.and_eq_false_imp, decide_eq_true_eq]
      intro h
      omega
    · simp

/-- Witness of `flush_pending_comment`: the printer with the one comment group
`// c` at the position 5, at `flush` for the end of the input. -/
theorem flush_pending_comment_witness :
    (({ printer.init ⟨0, 8, 0⟩ with comments := [⟨[⟨5, str "// c"⟩]⟩] } : printer).nextComment
        (fun pos => ⟨[], pos, 1, pos + 1⟩)).Pending ∧
    (⟨[], infinity, infinity, 0⟩ : Position).Offset ≤ infinity ∧
    (({ printer.init ⟨0, 8, 0⟩ with comments := [⟨[⟨5, str "// c"⟩]⟩] } : printer).nextComment
        (fun pos => ⟨[], pos, 1, pos + 1⟩)).commentBefore ⟨[], infinity, infinity, 0⟩ = true ∧
    (∃ g, (({ printer.init ⟨0, 8, 0⟩ with comments := [⟨[⟨5, str "// c"⟩]⟩] } :
        printer).nextComment (fun pos => ⟨[], pos, 1, pos + 1⟩)).comment = some g ∧
      g.List ≠ []) ∧
    ∀ a q, (({ printer.init ⟨0, 8, 0⟩ with comments := [⟨[⟨5, str "// c"⟩]⟩] } :
        printer).nextComment (fun pos => ⟨[], pos, 1, pos + 1⟩)).flush
          (fun pos => ⟨[], pos, 1, pos + 1⟩) ⟨[], infinity, infinity, 0⟩ .EOF ≠
        .panicked (.internal noPendingMsg a) q :=
  ⟨printer.nextComment_pending _ _, le_refl _, by decide!,
    (flush_pending_comment (fun pos => ⟨[], pos, 1, pos + 1⟩) _ ⟨[], infinity, infinity, 0⟩ .EOF
      (printer.nextComment_pending _ _) (le_refl _)).1 (by decide!),
    (flush_pending_comment (fun pos => ⟨[], pos, 1, pos + 1⟩) _ ⟨[], infinity, infinity, 0⟩ .EOF
      (printer.nextComment_pending _ _) (le_refl _)).2.2.1⟩

/-- C38, the claim fails for a position beyond `infinity`: for a printer
without comments, after `nextComment`, `commentBefore` holds for the position
with the offset `infinity + 1` although no comment is pending, and `flush`
for that position uses the nil group. -/
theorem commentBefore_beyond_infinity :
    ((printer.init ⟨0, 8, 0⟩).nextComment (fun _ => ⟨[], 0, 0, 0⟩)).commentBefore
        ⟨[], infinity + 1, 1, 1⟩ = true ∧
    ((printer.init ⟨0, 8, 0⟩).nextComment (fun _ => ⟨[], 0, 0, 0⟩)).comment = none ∧
    ((printer.init ⟨0, 8, 0⟩).nextComment (fun _ => ⟨[], 0, 0, 0⟩)).flush
        (fun _ => ⟨[], 0, 0, 0⟩) ⟨[], infinity + 1, 1, 1⟩ .EOF =
      .panicked (.other (str "nil pointer dereference"))
        ((printer.init ⟨0, 8, 0⟩).nextComment (fun _ => ⟨[], 0, 0, 0⟩)) := by
  decide!

theorem getElem?_set_iff {α : Type} {l : List α} {k : Nat} {g : α} (hk : l[k]? = some g)
    (a : α) (j : Nat) (x : α) :
    (l.set k a)[j]? = some x ↔ (j = k ∧ x = a) ∨ (j ≠ k ∧ l[j]? = some x) := by
  have hlt : k < l.length := (List.getElem?_eq_some.mp hk).1
  rw [List.getElem?_set]
  by_cases h : k = j
  · subst h
    simp [hlt, eq_comm]
  · have h' : j ≠ k := fun e => h e.symm
    simp [h, h']

theorem getElem?_concat_iff {α : Type} (l : List α) (a : α) (j : Nat) (x : α) :
    (l ++ [a])[j]? = some x ↔ (j = l.length ∧ x = a) ∨ (j < l.length ∧ l[j]? = some x) := by
  rw [List.getElem?_append]
  by_cases h : j < l.length
  · have : j ≠ l.length := by omega
    simp [h, this]
  · rw [if_neg h]
    by_cases h1 : j = l.length
    · subst h1
      simp [eq_comm]
    · have : j - l.length ≠ 0 := by omega
      obtain ⟨m, hm⟩ : ∃ m, j - l.length = m + 1 := ⟨j - l.length - 1, by omega⟩
      simp [h, h1, hm]

theorem getElem?_some_lt {α : Type} {l : List α} {j : Nat} {x : α} (h : l[j]? = some x) :
    j < l.length := (List.getElem?_eq_some.mp h).1

namespace Sequencer

theorem NewSequencer_at (m : Int) : (NewSequencer m).At 0 := by
  refine ⟨rfl, le_refl _, ?_, ?_, ?_, ?_, ?_, ?_, ?_, ?_, Or.inl rfl, ?_, ?_⟩
  · intro i g h
    simp [NewSequencer] at h
  · intro g h
    simp [NewSequencer] at h
  · intro i g h
    simp [NewSequencer] at h
  · intro i
    cases i with
    | zero => simp [NewSequencer]
    | succ n => simp [NewSequencer]
  · intro x hx
    simp [NewSequencer] at hx
  · intro x hx
    simp [NewSequencer] at hx
  · simp [NewSequencer]
  · simp [NewSequencer]
  · simp [NewSequencer]
  · intro n g h
    simp [NewSequencer] at h

theorem At.index {s : Sequencer} {k i : Nat} {g : Goroutine} (h : s.At k)
    (hg : s.tasks[i]? = some g) (h1 : g.state = true) (h2 : g.sent = false) : i = k := by
  rcases Nat.lt_trichotomy i k with hlt | heq | hgt
  · have := (h.before i g hg hlt).1
    rw [h2] at this
    cases this
  · exact heq
  · have := (h.after i g hg hgt).2.1
    rw [h1] at this
    cases this

theorem At.add {s : Sequencer} {k : Nat} (h : s.At k) (t : Task) (w cur : Int) :
    ({ s with cur := cur, chans := s.chans ++ [false],
              tasks := s.tasks ++ [⟨t, w, 0, false, false, false, []⟩] } : Sequencer).At k := by
  have hle := h.le
  refine ⟨?_, ?_, ?_, ?_, ?_, ?_, ?_, ?_, h.outSorted, h.errSorted, h.code, ?_, ?_⟩
  · simp [h.len]
  · simp only [List.length_append, List.length_singleton]
    omega
  · intro i g hg hi
    rcases (getElem?_concat_iff _ _ _ _).mp hg with ⟨rfl, _⟩ | ⟨_, hg⟩
    · omega
    · exact h.before i g hg hi
  · intro g hg
    rcases (getElem?_concat_iff _ _ _ _).mp hg with ⟨_, rfl⟩ | ⟨_, hg⟩
    · rfl
    · exact h.here g hg
  · intro i g hg hi
    rcases (getElem?_concat_iff _ _ _ _).mp hg with ⟨_, rfl⟩ | ⟨_, hg⟩
    · exact ⟨rfl, rfl, rfl, rfl⟩
    · exact h.after i g hg hi
  · intro i
    show (s.chans ++ [false])[i]? = some true ↔ _
    rw [getElem?_concat_iff]
    constructor
    · rintro (⟨_, e⟩ | ⟨_, hc⟩)
      · cases e
      · obtain ⟨e, hs⟩ := (h.chan i).mp hc
        refine ⟨e, fun g hg => ?_⟩
        rcases (getElem?_concat_iff _ _ _ _).mp hg with ⟨_, rfl⟩ | ⟨_, hg⟩
        · rfl
        · exact hs g hg
    · rintro ⟨rfl, hs⟩
      refine Or.inr ⟨by rw [h.len]; omega, (h.chan i).mpr ⟨rfl, fun g hg => ?_⟩⟩
      exact hs g ((getElem?_concat_iff _ _ _ _).mpr (Or.inr ⟨getElem?_some_lt hg, hg⟩))
  · intro x hx
    rcases h.outLe x hx with h1 | ⟨h1, g, hg, hs⟩
    · exact Or.inl h1
    · exact Or.inr ⟨h1, g,
        (getElem?_concat_iff _ _ _ _).mpr (Or.inr ⟨getElem?_some_lt hg, hg⟩), hs⟩
  · intro x hx
    rcases h.errLe x hx with h1 | ⟨h1, g, hg, hs⟩
    · exact Or.inl h1
    · exact Or.inr ⟨h1, g,
        (getElem?_concat_iff _ _ _ _).mpr (Or.inr ⟨getElem?_some_lt hg, hg⟩), hs⟩
  · show s.exitCode = 2 ↔ _
    rw [h.codeIff]
    constructor
    · rintro ⟨i, g, hg, hr⟩
      exact ⟨i, g, (getElem?_concat_iff _ _ _ _).mpr (Or.inr ⟨getElem?_some_lt hg, hg⟩), hr⟩
    · rintro ⟨i, g, hg, hr⟩
      rcases (getElem?_concat_iff _ _ _ _).mp hg with ⟨_, rfl⟩ | ⟨_, hg⟩
      · simp [Goroutine.reported] at hr
      · exact ⟨i, g, hg, hr⟩
  · intro n g hg ht v hv
    rcases (getElem?_concat_iff _ _ _ _).mp hg with ⟨_, rfl⟩ | ⟨hn, hg⟩
    · simp at hv
    · obtain ⟨a, b⟩ := h.exitRead n g hg ht v hv
      refine ⟨a, b.trans ⟨?_, ?_⟩⟩
      · rintro ⟨i, x, hi, hx, hr⟩
        exact ⟨i, x, hi, (getElem?_concat_iff _ _ _ _).mpr (Or.inr ⟨getElem?_some_lt hx, hx⟩), hr⟩
      · rintro ⟨i, x, hi, hx, hr⟩
        rcases (getElem?_concat_iff _ _ _ _).mp hx with ⟨e, _⟩ | ⟨_, hx⟩
        · omega
        · exact ⟨i, x, hi, hx, hr⟩

end Sequencer

namespace Sequencer

theorem reports_set {l : List Goroutine} {k : Nat} {g a : Goroutine} (hk : l[k]? = some g)
    (ht : a.task = g.task) (n : Nat) :
    (∃ (i : Nat) (h : Goroutine), i < n ∧ (l.set k a)[i]? = some h ∧ h.task.reports = true) ↔
      ∃ (i : Nat) (h : Goroutine), i < n ∧ l[i]? = some h ∧ h.task.reports = true := by
  constructor
  · rintro ⟨i, x, hi, hx, hr⟩
    rcases (getElem?_set_iff hk a i x).mp hx with ⟨rfl, rfl⟩ | ⟨_, hx⟩
    · exact ⟨i, g, hi, hk, by rw [← ht]; exact hr⟩
    · exact ⟨i, x, hi, hx, hr⟩
  · rintro ⟨i, x, hi, hx, hr⟩
    by_cases e : i = k
    · subst e
      rw [hk] at hx
      cases hx
      exact ⟨i, a, hi, (getElem?_set_iff hk a i a).mpr (Or.inl ⟨rfl, rfl⟩), by rw [ht]; exact hr⟩
    · exact ⟨i, x, hi, (getElem?_set_iff hk a i x).mpr (Or.inr ⟨e, hx⟩), hr⟩

theorem At.getState {s : Sequencer} {k : Nat} (h : s.At k) {i : Nat} {g : Goroutine}
    (hg : s.tasks[i]? = some g) (hc : s.chans[i]? = some true) :
    i = k ∧ ({ s with chans := s.chans.set i false,
                      tasks := s.tasks.set i { g with state := true } } : Sequencer).At k := by
  obtain ⟨rfl, hst⟩ := (h.chan i).mp hc
  refine ⟨rfl, ?_⟩
  have hlt := getElem?_some_lt hg
  refine ⟨?_, ?_, ?_, ?_, ?_, ?_, ?_, ?_, h.outSorted, h.errSorted, h.code, ?_, ?_⟩
  · simp [h.len]
  · simp only [List.length_set]
    exact h.le
  · intro j x hx hj
    rcases (getElem?_set_iff hg _ j x).mp hx with ⟨rfl, _⟩ | ⟨_, hx⟩
    · omega
    · exact h.before j x hx hj
  · intro x hx
    rcases (getElem?_set_iff hg _ i x).mp hx with ⟨_, rfl⟩ | ⟨e, _⟩
    · exact h.here g hg
    · exact absurd rfl e
  · intro j x hx hj
    rcases (getElem?_set_iff hg _ j x).mp hx with ⟨rfl, _⟩ | ⟨_, hx⟩
    · omega
    · exact h.after j x hx hj
  · intro j
    show (s.chans.set i false)[j]? = some true ↔ _
    constructor
    · intro hj
      rcases (getElem?_set_iff hc false j true).mp hj with ⟨_, e⟩ | ⟨e, hj⟩
      · cases e
      · exact absurd ((h.chan j).mp hj).1 e
    · rintro ⟨_, hs⟩
      have := hs _ ((getElem?_set_iff hg _ i _).mpr (Or.inl ⟨rfl, rfl⟩))
      cases this
  · intro x hx
    rcases h.outLe x hx with h1 | ⟨h1, y, hy, hs⟩
    · exact Or.inl h1
    · rw [hg] at hy
      cases hy
      rw [hst g hg] at hs
      cases hs
  · intro x hx
    rcases h.errLe x hx with h1 | ⟨h1, y, hy, hs⟩
    · exact Or.inl h1
    · rw [hg] at hy
      cases hy
      rw [hst g hg] at hs
      cases hs
  · show s.exitCode = 2 ↔ _
    rw [h.codeIff]
    constructor
    · rintro ⟨j, x, hx, hr⟩
      by_cases e : j = i
      · subst e
        rw [hg] at hx
        cases hx
        exact ⟨j, _, (getElem?_set_iff hg _ j _).mpr (Or.inl ⟨rfl, rfl⟩), hr⟩
      · exact ⟨j, x, (getElem?_set_iff hg _ j x).mpr (Or.inr ⟨e, hx⟩), hr⟩
    · rintro ⟨j, x, hx, hr⟩
      rcases (getElem?_set_iff hg _ j x).mp hx with ⟨rfl, rfl⟩ | ⟨_, hx⟩
      · exact ⟨j, g, hg, hr⟩
      · exact ⟨j, x, hx, hr⟩
  · intro n x hx ht v hv
    dsimp only at hx ⊢
    rw [reports_set (a := { g with state := true }) hg rfl]
    rcases (getElem?_set_iff hg _ n x).mp hx with ⟨rfl, rfl⟩ | ⟨_, hx⟩
    · exact h.exitRead n g hg ht v hv
    · exact h.exitRead n x hx ht v hv

theorem At.release {s : Sequencer} {k : Nat} (h : s.At k) {i : Nat} {g : Goroutine}
    (hg : s.tasks[i]? = some g) (cur : Int) :
    ({ s with cur := cur, tasks := s.tasks.set i { g with released := true } } : Sequencer).At k := by
  have hlt := getElem?_some_lt hg
  have back : ∀ (j : Nat) (x : Goroutine),
      (s.tasks.set i { g with released := true })[j]? = some x →
      ∃ y, s.tasks[j]? = some y ∧ x.task = y.task ∧ x.pc = y.pc ∧ x.state = y.state ∧
        x.sent = y.sent ∧ x.read = y.read := by
    intro j x hx
    rcases (getElem?_set_iff hg _ j x).mp hx with ⟨rfl, rfl⟩ | ⟨_, hx⟩
    · exact ⟨g, hg, rfl, rfl, rfl, rfl, rfl⟩
    · exact ⟨x, hx, rfl, rfl, rfl, rfl, rfl⟩
  have forth : ∀ (j : Nat) (y : Goroutine), s.tasks[j]? = some y →
      ∃ x, (s.tasks.set i { g with released := true })[j]? = some x ∧ x.task = y.task ∧
        x.pc = y.pc ∧ x.state = y.state ∧ x.sent = y.sent ∧ x.read = y.read := by
    intro j y hy
    by_cases e : j = i
    · subst e
      rw [hg] at hy
      cases hy
      exact ⟨_, (getElem?_set_iff hg _ j _).mpr (Or.inl ⟨rfl, rfl⟩), rfl, rfl, rfl, rfl, rfl⟩
    · exact ⟨y, (getElem?_set_iff hg _ j y).mpr (Or.inr ⟨e, hy⟩), rfl, rfl, rfl, rfl, rfl⟩
  refine ⟨?_, ?_, ?_, ?_, ?_, ?_, ?_, ?_, h.outSorted, h.errSorted, h.code, ?_, ?_⟩
  · simp [h.len]
  · simp only [List.length_set]
    exact h.le
  · intro j x hx hj
    obtain ⟨y, hy, e1, e2, e3, e4, _⟩ := back j x hx
    obtain ⟨a, b, c⟩ := h.before j y hy hj
    exact ⟨by rw [e4]; exact a, by rw [e3]; exact b, by rw [e1, e2]; exact c⟩
  · intro x hx
    obtain ⟨y, hy, _, _, _, e4, _⟩ := back k x hx
    rw [e4]
    exact h.here y hy
  · intro j x hx hj
    obtain ⟨y, hy, _, e2, e3, e4, e5⟩ := back j x hx
    obtain ⟨a, b, c, d⟩ := h.after j y hy hj
    exact ⟨by rw [e4]; exact a, by rw [e3]; exact b, by rw [e2]; exact c, by rw [e5]; exact d⟩
  · intro j
    show s.chans[j]? = some true ↔ _
    rw [h.chan j]
    constructor
    · rintro ⟨e, hs⟩
      refine ⟨e, fun x hx => ?_⟩
      obtain ⟨y, hy, _, _, e3, _⟩ := back k x hx
      rw [e3]
      exact hs y hy
    · rintro ⟨e, hs⟩
      refine ⟨e, fun y hy => ?_⟩
      obtain ⟨x, hx, _, _, e3, _⟩ := forth k y hy
      rw [← e3]
      exact hs x hx
  · intro x hx
    rcases h.outLe x hx with h1 | ⟨h1, y, hy, hs⟩
    · exact Or.inl h1
    · obtain ⟨z, hz, _, _, e3, _⟩ := forth k y hy
      exact Or.inr ⟨h1, z, hz, by rw [e3]; exact hs⟩
  · intro x hx
    rcases h.errLe x hx with h1 | ⟨h1, y, hy, hs⟩
    · exact Or.inl h1
    · obtain ⟨z, hz, _, _, e3, _⟩ := forth k y hy
      exact Or.inr ⟨h1, z, hz, by rw [e3]; exact hs⟩
  · show s.exitCode = 2 ↔ _
    rw [h.codeIff]
    constructor
    · rintro ⟨j, y, hy, hr⟩
      obtain ⟨x, hx, e1, e2, _⟩ := forth j y hy
      exact ⟨j, x, hx, by unfold Goroutine.reported at hr ⊢; rw [e1, e2]; exact hr⟩
    · rintro ⟨j, x, hx, hr⟩
      obtain ⟨y, hy, e1, e2, _⟩ := back j x hx
      exact ⟨j, y, hy, by unfold Goroutine.reported at hr ⊢; rw [← e1, ← e2]; exact hr⟩
  · intro n x hx ht v hv
    dsimp only at hx ⊢
    rw [reports_set (a := { g with released := true }) hg rfl]
    obtain ⟨y, hy, e1, _, _, _, e5⟩ := back n x hx
    exact h.exitRead n y hy (by rw [← e1]; exact ht) v (by rw [← e5]; exact hv)

end Sequencer

namespace Sequencer

theorem reported_of_done {g : Goroutine} (h : g.task.script.length ≤ g.pc) :
    g.reported = g.task.reports := by
  unfold Goroutine.reported Task.reports
  rw [List.take_of_length_le h]

theorem reported_step {g : Goroutine} {c : ReporterCall} (h : g.task.script[g.pc]? = some c)
    (read : List Int) :
    ({ g with pc := g.pc + 1, read := read } : Goroutine).reported =
      (g.reported || c.isReport) := by
  unfold Goroutine.reported
  show (g.task.script.take (g.pc + 1)).any ReporterCall.isReport = _
  rw [List.take_succ, h, List.any_append]
  simp

theorem sorted_snoc {l : List (Nat × GoString)} {k : Nat} (b : GoString)
    (h : (l.map Prod.fst).Pairwise (fun a b => a ≤ b)) (hle : ∀ x ∈ l, x.1 ≤ k) :
    ((l ++ [(k, b)]).map Prod.fst).Pairwise (fun a b => a ≤ b) := by
  rw [List.map_append, List.pairwise_append]
  refine ⟨h, by simp, ?_⟩
  intro a ha b1 hb
  simp only [List.map_cons, List.map_nil, List.mem_singleton] at hb
  obtain ⟨x, hx, rfl⟩ := List.mem_map.mp ha
  rw [hb]
  exact hle x hx

/-- A call on the `Reporter` by the task that holds the reporter state. -/
theorem At.call {s : Sequencer} {k : Nat} (h : s.At k) {g : Goroutine} {c : ReporterCall}
    (hg : s.tasks[k]? = some g) (hs : g.state = true)
    (hc : g.task.script[g.pc]? = some c)
    (out err : List (Nat × GoString)) (code : Int) (read : List Int)
    (hout : out = s.out ∨ ∃ b, out = s.out ++ [(k, b)])
    (herr : err = s.err ∨ ∃ b, err = s.err ++ [(k, b)])
    (hcode : code = if c.isReport then 2 else s.exitCode)
    (hread : read = g.read ∨ read = g.read ++ [s.exitCode]) :
    ({ s with out := out, err := err, exitCode := code,
              tasks := s.tasks.set k { g with pc := g.pc + 1, read := read } } : Sequencer).At k := by
  have hlt := getElem?_some_lt hg
  have hsent := h.here g hg
  have hself : (s.tasks.set k { g with pc := g.pc + 1, read := read })[k]? =
      some { g with pc := g.pc + 1, read := read } :=
    (getElem?_set_iff hg _ k _).mpr (Or.inl ⟨rfl, rfl⟩)
  have hle : ∀ l : List (Nat × GoString),
      (∀ x ∈ l, x.1 < k ∨ (x.1 = k ∧ ∃ g : Goroutine, s.tasks[k]? = some g ∧ g.state = true)) →
      ∀ x ∈ l, x.1 ≤ k := by
    intro l hl x hx
    rcases hl x hx with h1 | ⟨h1, _⟩ <;> omega
  have hnew : ∀ (l l1 : List (Nat × GoString)),
      (∀ x ∈ l, x.1 < k ∨ (x.1 = k ∧ ∃ g : Goroutine, s.tasks[k]? = some g ∧ g.state = true)) →
      (l1 = l ∨ ∃ b, l1 = l ++ [(k, b)]) →
      ∀ x ∈ l1, x.1 < k ∨ (x.1 = k ∧ ∃ g1 : Goroutine,
        (s.tasks.set k { g with pc := g.pc + 1, read := read })[k]? = some g1 ∧
          g1.state = true) := by
    intro l l1 hl h1 x hx
    have old : ∀ y ∈ l, y.1 < k ∨ (y.1 = k ∧ ∃ g1 : Goroutine,
        (s.tasks.set k { g with pc := g.pc + 1, read := read })[k]? = some g1 ∧
          g1.state = true) := by
      intro y hy
      rcases hl y hy with a | ⟨a, _⟩
      · exact Or.inl a
      · exact Or.inr ⟨a, _, hself, hs⟩
    rcases h1 with rfl | ⟨b, rfl⟩
    · exact old x hx
    · rcases List.mem_append.mp hx with hx | hx
      · exact old x hx
      · rw [List.mem_singleton.mp hx]
        exact Or.inr ⟨rfl, _, hself, hs⟩
  have hsorted : ∀ (l l1 : List (Nat × GoString)),
      (∀ x ∈ l, x.1 < k ∨ (x.1 = k ∧ ∃ g : Goroutine, s.tasks[k]? = some g ∧ g.state = true)) →
      (l.map Prod.fst).Pairwise (fun a b => a ≤ b) →
      (l1 = l ∨ ∃ b, l1 = l ++ [(k, b)]) →
      (l1.map Prod.fst).Pairwise (fun a b => a ≤ b) := by
    intro l l1 hl hp h1
    rcases h1 with rfl | ⟨b, rfl⟩
    · exact hp
    · exact sorted_snoc b hp (hle l hl)
  have hrep : (∃ (i : Nat) (x : Goroutine),
      (s.tasks.set k { g with pc := g.pc + 1, read := read })[i]? = some x ∧
        x.reported = true) ↔ (c.isReport = true ∨ s.exitCode = 2) := by
    rw [h.codeIff]
    constructor
    · rintro ⟨i, x, hx, hr⟩
      rcases (getElem?_set_iff hg _ i x).mp hx with ⟨rfl, rfl⟩ | ⟨_, hx⟩
      · rw [reported_step hc] at hr
        rcases Bool.or_eq_true _ _ ▸ hr with a | a
        · exact Or.inr ⟨i, g, hg, a⟩
        · exact Or.inl a
      · exact Or.inr ⟨i, x, hx, hr⟩
    · rintro (a | ⟨i, x, hx, hr⟩)
      · exact ⟨k, _, hself, by rw [reported_step hc, a]; simp⟩
      · by_cases e : i = k
        · subst e
          rw [hg] at hx
          cases hx
          exact ⟨i, _, hself, by rw [reported_step hc, hr]; simp⟩
        · exact ⟨i, x, (getElem?_set_iff hg _ i x).mpr (Or.inr ⟨e, hx⟩), hr⟩
  refine ⟨?_, ?_, ?_, ?_, ?_, ?_, hnew _ _ h.outLe hout, hnew _ _ h.errLe herr,
    hsorted _ _ h.outLe h.outSorted hout, hsorted _ _ h.errLe h.errSorted herr, ?_, ?_, ?_⟩
  · simp [h.len]
  · simp only [List.length_set]
    exact h.le
  · intro j x hx hj
    rcases (getElem?_set_iff hg _ j x).mp hx with ⟨rfl, _⟩ | ⟨_, hx⟩
    · omega
    · exact h.before j x hx hj
  · intro x hx
    rw [hself] at hx
    cases hx
    exact hsent
  · intro j x hx hj
    rcases (getElem?_set_iff hg _ j x).mp hx with ⟨rfl, _⟩ | ⟨_, hx⟩
    · omega
    · exact h.after j x hx hj
  · intro j
    show s.chans[j]? = some true ↔ _
    rw [h.chan j]
    constructor
    · rintro ⟨_, hst⟩
      have := hst g hg
      rw [hs] at this
      cases this
    · rintro ⟨_, hst⟩
      have := hst _ hself
      rw [show ({ g with pc := g.pc + 1, read := read } : Goroutine).state = true from hs]
        at this
      cases this
  · show code = 0 ∨ code = 2
    rw [hcode]
    split_ifs
    · exact Or.inr rfl
    · exact h.code
  · show code = 2 ↔ _
    rw [hrep, hcode]
    by_cases a : c.isReport = true
    · simp [a]
    · simp [a]
  · intro n x hx ht v hv
    dsimp only at hx ⊢
    rw [reports_set (a := { g with pc := g.pc + 1, read := read }) hg rfl]
    rcases (getElem?_set_iff hg _ n x).mp hx with ⟨rfl, rfl⟩ | ⟨_, hx⟩
    · have ht' : g.task = exitCodeTask := ht
      have hold := h.exitRead n g hg ht'
      have hnew : ∀ v, v = s.exitCode → (v = 0 ∨ v = 2) ∧
          (v = 2 ↔ ∃ (i : Nat) (y : Goroutine), i < n ∧ s.tasks[i]? = some y ∧
            y.task.reports = true) := by
        intro v e
        subst e
        refine ⟨h.code, h.codeIff.trans ⟨?_, ?_⟩⟩
        · rintro ⟨i, y, hy, hr⟩
          rcases Nat.lt_trichotomy i n with a | a | a
          · refine ⟨i, y, a, hy, ?_⟩
            rw [← reported_of_done (h.before i y hy a).2.2]
            exact hr
          · subst a
            rw [hg] at hy
            cases hy
            unfold Goroutine.reported at hr
            rw [ht'] at hr
            have : ∀ m, (List.take m exitCodeTask.script).any ReporterCall.isReport = false := by
              intro m
              cases m <;> simp [exitCodeTask, Task.script, ReporterCall.isReport]
            rw [this] at hr
            cases hr
          · have := (h.after i y hy a).2.2.1
            unfold Goroutine.reported at hr
            rw [this] at hr
            simp at hr
        · rintro ⟨i, y, a, hy, hr⟩
          exact ⟨i, y, hy, by rw [reported_of_done (h.before i y hy a).2.2]; exact hr⟩
      change v ∈ read at hv
      rcases hread with e | e
      · rw [e] at hv
        exact hold v hv
      · rw [e] at hv
        rcases List.mem_append.mp hv with a | a
        · exact hold v a
        · exact hnew v (List.mem_singleton.mp a)
    · exact h.exitRead n x hx ht v hv

theorem At.send {s : Sequencer} {k : Nat} (h : s.At k) {g : Goroutine}
    (hg : s.tasks[k]? = some g) (hs : g.state = true)
    (hc : g.task.script[g.pc]? = none) (hch : s.chans[k + 1]? = some false) :
    ({ s with chans := s.chans.set (k + 1) true,
              tasks := s.tasks.set k { g with sent := true } } : Sequencer).At (k + 1) := by
  have hlt := getElem?_some_lt hg
  have hdone : g.task.script.length ≤ g.pc := by
    by_contra hn
    rw [List.getElem?_eq_getElem (by omega)] at hc
    cases hc
  have hself : (s.tasks.set k { g with sent := true })[k]? = some { g with sent := true } :=
    (getElem?_set_iff hg _ k _).mpr (Or.inl ⟨rfl, rfl⟩)
  have hle : ∀ l : List (Nat × GoString),
      (∀ x ∈ l, x.1 < k ∨ (x.1 = k ∧ ∃ g : Goroutine, s.tasks[k]? = some g ∧ g.state = true)) →
      ∀ x ∈ l, x.1 < k + 1 ∨ (x.1 = k + 1 ∧ ∃ g1 : Goroutine,
        (s.tasks.set k { g with sent := true })[k + 1]? = some g1 ∧ g1.state = true) := by
    intro l hl x hx
    rcases hl x hx with h1 | ⟨h1, _⟩
    · exact Or.inl (by omega)
    · exact Or.inl (by omega)
  refine ⟨?_, ?_, ?_, ?_, ?_, ?_, hle _ h.outLe, hle _ h.errLe, h.outSorted, h.errSorted,
    h.code, ?_, ?_⟩
  · simp [h.len]
  · simp only [List.length_set]
    omega
  · intro j x hx hj
    rcases (getElem?_set_iff hg _ j x).mp hx with ⟨rfl, rfl⟩ | ⟨e, hx⟩
    · exact ⟨rfl, hs, hdone⟩
    · exact h.before j x hx (by omega)
  · intro x hx
    rcases (getElem?_set_iff hg _ (k + 1) x).mp hx with ⟨e, _⟩ | ⟨_, hx⟩
    · omega
    · exact (h.after (k + 1) x hx (by omega)).1
  · intro j x hx hj
    rcases (getElem?_set_iff hg _ j x).mp hx with ⟨rfl, _⟩ | ⟨_, hx⟩
    · omega
    · exact h.after j x hx (by omega)
  · intro j
    show (s.chans.set (k + 1) true)[j]? = some true ↔ _
    rw [getElem?_set_iff hch]
    constructor
    · rintro (⟨e, _⟩ | ⟨_, hj⟩)
      · refine ⟨e, fun x hx => ?_⟩
        rcases (getElem?_set_iff hg _ (k + 1) x).mp hx with ⟨e1, _⟩ | ⟨_, hx⟩
        · omega
        · exact (h.after (k + 1) x hx (by omega)).2.1
      · have := ((h.chan j).mp hj).2 g hg
        rw [hs] at this
        cases this
    · rintro ⟨e, _⟩
      exact Or.inl ⟨e, rfl⟩
  · show s.exitCode = 2 ↔ _
    rw [h.codeIff]
    constructor
    · rintro ⟨j, x, hx, hr⟩
      by_cases e : j = k
      · subst e
        rw [hg] at hx
        cases hx
        exact ⟨j, _, hself, hr⟩
      · exact ⟨j, x, (getElem?_set_iff hg _ j x).mpr (Or.inr ⟨e, hx⟩), hr⟩
    · rintro ⟨j, x, hx, hr⟩
      rcases (getElem?_set_iff hg _ j x).mp hx with ⟨rfl, rfl⟩ | ⟨_, hx⟩
      · exact ⟨j, g, hg, hr⟩
      · exact ⟨j, x, hx, hr⟩
  · intro n x hx ht v hv
    dsimp only at hx ⊢
    rw [reports_set (a := { g with sent := true }) hg rfl]
    rcases (getElem?_set_iff hg _ n x).mp hx with ⟨rfl, rfl⟩ | ⟨_, hx⟩
    · exact h.exitRead n g hg ht v hv
    · exact h.exitRead n x hx ht v hv

end Sequencer

namespace Sequencer

theorem step_at {s s1 : Sequencer} {k : Nat} (e : SeqEvent) (h : s.At k)
    (hs : s.step e = some s1) : ∃ k1, s1.At k1 := by
  cases e with
  | add t =>
    rw [step] at hs
    split_ifs at hs
    cases hs
    exact ⟨k, h.add t _ _⟩
  | getState i =>
    rw [step] at hs
    split at hs
    next g hg hc =>
      split_ifs at hs
      cases hs
      exact ⟨k, (h.getState hg hc).2⟩
    next => cases hs
  | call i =>
    rw [step] at hs
    split at hs
    next g hg =>
      split_ifs at hs with h1
      split at hs
      next c hc =>
        cases hs
        have hi := h.index hg h1.1 h1.2
        subst hi
        unfold perform
        cases c with
        | Write b =>
          exact ⟨i, h.call hg h1.1 hc _ _ _ _ (Or.inr ⟨b, rfl⟩) (Or.inl rfl) rfl (Or.inl rfl)⟩
        | Warnf msg =>
          exact ⟨i, h.call hg h1.1 hc _ _ _ _ (Or.inl rfl) (Or.inr ⟨msg, rfl⟩) rfl (Or.inl rfl)⟩
        | Report err =>
          exact ⟨i, h.call hg h1.1 hc _ _ _ _ (Or.inl rfl) (Or.inr ⟨err, rfl⟩) rfl (Or.inl rfl)⟩
        | ExitCode =>
          exact ⟨i, h.call hg h1.1 hc _ _ _ _ (Or.inl rfl) (Or.inl rfl) rfl (Or.inr rfl)⟩
      next => cases hs
    next => cases hs
  | send i =>
    rw [step] at hs
    split at hs
    next g hg hc =>
      split_ifs at hs with h1
      cases hs
      have hi := h.index hg h1.1 h1.2.1
      subst hi
      exact ⟨i + 1, h.send hg h1.1 h1.2.2 hc⟩
    next => cases hs
  | release i =>
    rw [step] at hs
    split at hs
    next g hg =>
      split_ifs at hs
      cases hs
      exact ⟨k, h.release hg _⟩
    next => cases hs

theorem run_at : ∀ (es : List SeqEvent) (s s1 : Sequencer) (k : Nat), s.At k →
    s.run es = some s1 → ∃ k1, s1.At k1 := by
  intro es
  induction es with
  | nil =>
    intro s s1 k h hr
    cases hr
    exact ⟨k, h⟩
  | cons e es ih =>
    intro s s1 k h hr
    unfold run at hr
    cases hs : s.step e with
    | none =>
      rw [hs] at hr
      cases hr
    | some s2 =>
      rw [hs] at hr
      obtain ⟨k2, h2⟩ := step_at e h hs
      exact ih s2 s1 k2 h2 hr

theorem inFlight_set {l : List Goroutine} {i : Nat} {g a : Goroutine} (hg : l[i]? = some g) :
    ((l.set i a).map fun g => if g.released then 0 else g.weight).sum =
      (l.map fun g => if g.released then 0 else g.weight).sum
        - (if g.released then 0 else g.weight) + (if a.released then 0 else a.weight) := by
  induction l generalizing i with
  | nil => simp at hg
  | cons x xs ih =>
    cases i with
    | zero =>
      simp only [List.getElem?_cons_zero, Option.some.injEq] at hg
      subst hg
      simp only [List.set_cons_zero, List.map_cons, List.sum_cons]
      omega
    | succ n =>
      simp only [List.getElem?_cons_succ] at hg
      simp only [List.set_cons_succ, List.map_cons, List.sum_cons, ih hg]
      omega

theorem step_weighed {s s1 : Sequencer} (e : SeqEvent) (h : s.Weighed)
    (hs : s.step e = some s1) : s1.maxWeight = s.maxWeight ∧ s1.Weighed := by
  have keep : ∀ (i : Nat) (g a : Goroutine) (s2 : Sequencer), s.tasks[i]? = some g →
      s2.tasks = s.tasks.set i a →
      a.task = g.task → a.weight = g.weight → a.released = g.released →
      s2.maxWeight = s.maxWeight → s2.cur = s.cur →
      s2.maxWeight = s.maxWeight ∧ s2.Weighed := by
    intro i g a s2 hg e6 e1 e2 e3 e4 e5
    have hin : s2.inFlight = s.inFlight := by
      unfold inFlight
      rw [e6, inFlight_set hg, e2, e3]
      omega
    have hclip : ∀ w, s2.clip w = s.clip w := by
      intro w
      unfold clip
      rw [e4]
    refine ⟨e4, ⟨by rw [e5, hin]; exact h.cur, ?_, ?_⟩⟩
    · intro x hx
      rw [e6] at hx
      obtain ⟨j, hj⟩ := List.mem_iff_getElem?.mp hx
      rw [hclip]
      rcases (getElem?_set_iff hg a j x).mp hj with ⟨_, rfl⟩ | ⟨_, hj⟩
      · rw [e1, e2]
        exact h.acquired g (List.mem_iff_getElem?.mpr ⟨i, hg⟩)
      · exact h.acquired x (List.mem_iff_getElem?.mpr ⟨j, hj⟩)
    · intro h0
      rw [e4] at h0
      obtain ⟨a1, a2⟩ := h.le h0
      refine ⟨by rw [hin, e4]; exact a1, fun x hx => ?_⟩
      rw [e6] at hx
      obtain ⟨j, hj⟩ := List.mem_iff_getElem?.mp hx
      rcases (getElem?_set_iff hg a j x).mp hj with ⟨_, rfl⟩ | ⟨_, hj⟩
      · rw [e2]
        exact a2 g (List.mem_iff_getElem?.mpr ⟨i, hg⟩)
      · exact a2 x (List.mem_iff_getElem?.mpr ⟨j, hj⟩)
  cases e with
  | add t =>
    rw [step] at hs
    split_ifs at hs with hfit
    cases hs
    have hin : ∀ s2 : Sequencer,
        s2.tasks = s.tasks ++ [⟨t, s.clip t.weight, 0, false, false, false, []⟩] →
        s2.inFlight = s.inFlight + s.clip t.weight := by
      intro s2 e2
      unfold inFlight
      rw [e2]
      simp
    have hin := hin ⟨s.maxWeight, s.cur + s.clip t.weight, s.chans ++ [false],
      s.tasks ++ [⟨t, s.clip t.weight, 0, false, false, false, []⟩], s.out, s.err, s.exitCode⟩ rfl
    refine ⟨rfl, ⟨?_, ?_, ?_⟩⟩
    · rw [hin]
      show s.cur + _ = _
      rw [h.cur]
    · intro x hx
      rcases List.mem_append.mp hx with hx | hx
      · exact h.acquired x hx
      · rw [List.mem_singleton.mp hx]
        rfl
    · intro h0
      have h0' : 0 ≤ s.maxWeight := h0
      refine ⟨?_, fun x hx => ?_⟩
      · rw [hin]
        show _ ≤ s.maxWeight
        have := h.cur
        omega
      · rcases List.mem_append.mp hx with hx | hx
        · exact (h.le h0').2 x hx
        · rw [List.mem_singleton.mp hx]
          show 0 ≤ s.clip t.weight
          unfold clip
          split_ifs with hc
          · exact h0'
          · omega
  | getState i =>
    rw [step] at hs
    split at hs
    next g hg hc =>
      split_ifs at hs
      cases hs
      exact keep i g _ _ hg rfl rfl rfl rfl rfl rfl
    next => cases hs
  | call i =>
    rw [step] at hs
    split at hs
    next g hg =>
      split_ifs at hs with h1
      split at hs
      next c hc =>
        cases hs
        unfold perform
        cases c <;> exact keep i g _ _ hg rfl rfl rfl rfl rfl rfl
      next => cases hs
    next => cases hs
  | send i =>
    rw [step] at hs
    split at hs
    next g hg hc =>
      split_ifs at hs with h1
      cases hs
      exact keep i g _ _ hg rfl rfl rfl rfl rfl rfl
    next => cases hs
  | release i =>
    rw [step] at hs
    split at hs
    next g hg =>
      split_ifs at hs with h1
      cases hs
      have hmem := h.acquired g (List.mem_iff_getElem?.mpr ⟨i, hg⟩)
      have hin : ∀ s2 : Sequencer, s2.tasks = s.tasks.set i { g with released := true } →
          s2.inFlight = s.inFlight - g.weight := by
        intro s2 e2
        unfold inFlight
        rw [e2, inFlight_set hg, h1.2]
        simp
      have hin := hin ⟨s.maxWeight, s.cur - g.weight, s.chans,
        s.tasks.set i { g with released := true }, s.out, s.err, s.exitCode⟩ rfl
      refine ⟨rfl, ⟨?_, ?_, ?_⟩⟩
      · rw [hin]
        show s.cur - _ = _
        rw [h.cur]
      · intro x hx
        obtain ⟨j, hj⟩ := List.mem_iff_getElem?.mp hx
        rcases (getElem?_set_iff hg _ j x).mp hj with ⟨_, rfl⟩ | ⟨_, hj⟩
        · exact hmem
        · exact h.acquired x (List.mem_iff_getElem?.mpr ⟨j, hj⟩)
      · intro h0
        have h0' : 0 ≤ s.maxWeight := h0
        obtain ⟨a1, a2⟩ := h.le h0'
        have hg0 := a2 g (List.mem_iff_getElem?.mpr ⟨i, hg⟩)
        refine ⟨?_, fun x hx => ?_⟩
        · rw [hin]
          show _ ≤ s.maxWeight
          omega
        · obtain ⟨j, hj⟩ := List.mem_iff_getElem?.mp hx
          rcases (getElem?_set_iff hg _ j x).mp hj with ⟨_, rfl⟩ | ⟨_, hj⟩
          · exact hg0
          · exact a2 x (List.mem_iff_getElem?.mpr ⟨j, hj⟩)
    next => cases hs

theorem run_weighed : ∀ (es : List SeqEvent) (s s1 : Sequencer), s.Weighed →
    s.run es = some s1 → s1.maxWeight = s.maxWeight ∧ s1.Weighed := by
  intro es
  induction es with
  | nil =>
    intro s s1 h hr
    cases hr
    exact ⟨rfl, h⟩
  | cons e es ih =>
    intro s s1 h hr
    unfold run at hr
    cases hs : s.step e with
    | none =>
      rw [hs] at hr
      cases hr
    | some s2 =>
      rw [hs] at hr
      obtain ⟨e2, h2⟩ := step_weighed e h hs
      obtain ⟨e3, h3⟩ := ih s2 s1 h2 hr
      exact ⟨e3.trans e2, h3⟩

theorem NewSequencer_weighed (m : Int) : (NewSequencer m).Weighed :=
  ⟨rfl, fun g hg => by simp [NewSequencer] at hg,
    fun h => ⟨h, fun g hg => by simp [NewSequencer] at hg⟩⟩

end Sequencer

namespace Sequencer

theorem step_exitCode {s s1 : Sequencer} (e : SeqEvent) (hs : s.step e = some s1)
    (h : s.exitCode = 2) : s1.exitCode = 2 := by
  cases e with
  | add t =>
    rw [step] at hs
    split_ifs at hs
    cases hs
    exact h
  | getState i =>
    rw [step] at hs
    split at hs
    next g hg hc =>
      split_ifs at hs
      cases hs
      exact h
    next => cases hs
  | call i =>
    rw [step] at hs
    split at hs
    next g hg =>
      split_ifs at hs with h1
      split at hs
      next c hc =>
        cases hs
        unfold perform
        cases c
        · exact h
        · exact h
        · rfl
        · exact h
      next => cases hs
    next => cases hs
  | send i =>
    rw [step] at hs
    split at hs
    next g hg hc =>
      split_ifs at hs with h1
      cases hs
      exact h
    next => cases hs
  | release i =>
    rw [step] at hs
    split at hs
    next g hg =>
      split_ifs at hs
      cases hs
      exact h
    next => cases hs

theorem run_exitCode : ∀ (es : List SeqEvent) (s s1 : Sequencer), s.run es = some s1 →
    s.exitCode = 2 → s1.exitCode = 2 := by
  intro es
  induction es with
  | nil =>
    intro s s1 hr h
    cases hr
    exact h
  | cons e es ih =>
    intro s s1 hr h
    unfold run at hr
    cases hs : s.step e with
    | none =>
      rw [hs] at hr
      cases hr
    | some s2 =>
      rw [hs] at hr
      exact ih s2 s1 hr (step_exitCode e hs h)

end Sequencer

/-- C31: in every state that the program reaches, for every sequence of tasks
added and every order of the steps of their goroutines, the bytes written to
the output sink and those written to the error sink stand in the order of the
tasks: what was written through the `Reporter` of a task comes before what was
written through the `Reporter` of every task added later. -/
theorem Sequencer_output_order (m : Int) (es : List SeqEvent) (s : Sequencer)
    (h : (NewSequencer m).run es = some s) :
    (s.out.map Prod.fst).Pairwise (fun i j => i ≤ j) ∧
      (s.err.map Prod.fst).Pairwise (fun i j => i ≤ j) := by
  obtain ⟨k, hk⟩ := Sequencer.run_at es _ s 0 (Sequencer.NewSequencer_at m) h
  exact ⟨hk.outSorted, hk.errSorted⟩

/-- Witness of `Sequencer_output_order`: two tasks that write `a` and `b`. -/
theorem Sequencer_output_order_witness :
    ∃ s, (NewSequencer 10).run twoWriters = some s ∧
      s.out = [(0, str "a"), (1, str "b")] ∧
      (s.out.map Prod.fst).Pairwise (fun i j => i ≤ j) ∧
      (s.err.map Prod.fst).Pairwise (fun i j => i ≤ j) := by
  have h0 : ((NewSequencer 10).run twoWriters).map (fun s => s.out) =
      some [(0, str "a"), (1, str "b")] := by decide
  cases hs : (NewSequencer 10).run twoWriters with
  | none =>
    rw [hs] at h0
    cases h0
  | some s =>
    rw [hs] at h0
    exact ⟨s, rfl, Option.some.inj h0, Sequencer_output_order 10 twoWriters s hs⟩

/-- C32: in every state that the program reaches, the value that the call of
`ExitCode` of the task of `GetExitCode` has returned, which `GetExitCode`
returns, is 2 when a task added before it calls `Report` or returns an error
(as the task of `AddReport` does), and 0 otherwise; and an exit code 2 of the
reporter state stays 2 in every run from there. -/
theorem GetExitCode_value (m : Int) (es : List SeqEvent) (s : Sequencer)
    (h : (NewSequencer m).run es = some s) :
    (∀ (n : Nat) (g : Goroutine) (v : Int), s.tasks[n]? = some g → g.task = exitCodeTask →
      s.exitCodeOf n = some v →
      (v = 2 ∧ ∃ (i : Nat) (x : Goroutine), i < n ∧ s.tasks[i]? = some x ∧
          x.task.reports = true) ∨
        (v = 0 ∧ ¬ ∃ (i : Nat) (x : Goroutine), i < n ∧ s.tasks[i]? = some x ∧
          x.task.reports = true)) ∧
    (∀ (es1 : List SeqEvent) (s1 : Sequencer), s.run es1 = some s1 → s.exitCode = 2 →
      s1.exitCode = 2) := by
  obtain ⟨k, hk⟩ := Sequencer.run_at es _ s 0 (Sequencer.NewSequencer_at m) h
  refine ⟨fun n g v hg ht hv => ?_, fun es1 s1 h1 h2 => Sequencer.run_exitCode es1 s s1 h1 h2⟩
  unfold Sequencer.exitCodeOf at hv
  rw [hg] at hv
  dsimp only at hv
  have hmem : v ∈ g.read := by
    cases hr : g.read with
    | nil =>
      rw [hr] at hv
      cases hv
    | cons a rest =>
      rw [hr] at hv
      cases hv
      exact List.mem_cons_self _ _
  obtain ⟨a, b⟩ := hk.exitRead n g hg ht v hmem
  rcases a with a | a
  · refine Or.inr ⟨a, fun hc => ?_⟩
    have := b.mpr hc
    omega
  · exact Or.inl ⟨a, b.mp a⟩

/-- Witness of `GetExitCode_value`: `AddReport` and then `GetExitCode`, which
returns 2. -/
theorem GetExitCode_value_witness :
    ∃ s, (NewSequencer 10).run reportThenExit = some s ∧ s.exitCodeOf 1 = some 2 ∧
      ∀ (n : Nat) (g : Goroutine) (v : Int), s.tasks[n]? = some g → g.task = exitCodeTask →
        s.exitCodeOf n = some v →
        (v = 2 ∧ ∃ (i : Nat) (x : Goroutine), i < n ∧ s.tasks[i]? = some x ∧
            x.task.reports = true) ∨
          (v = 0 ∧ ¬ ∃ (i : Nat) (x : Goroutine), i < n ∧ s.tasks[i]? = some x ∧
            x.task.reports = true) := by
  have h0 : ((NewSequencer 10).run reportThenExit).map (fun s => s.exitCodeOf 1) =
      some (some 2) := by decide
  cases hs : (NewSequencer 10).run reportThenExit with
  | none =>
    rw [hs] at h0
    cases h0
  | some s =>
    rw [hs] at h0
    exact ⟨s, rfl, Option.some.inj h0, (GetExitCode_value 10 reportThenExit s hs).1⟩

/-- C33: in every state that the program reaches: a call of `Add` that goes on
acquires the declared weight when that is between 0 and the maximum, and the
maximum otherwise, and this is the weight of its goroutine; the weight that a
goroutine releases is the weight it acquired; the weight that the semaphore
has handed out is the sum of the weights acquired and not released; and for a
maximum that is not negative this weight in flight is at most the maximum. -/
theorem Add_acquires_weight (m : Int) (es : List SeqEvent) (s : Sequencer)
    (h : (NewSequencer m).run es = some s) :
    (∀ (t : Task) (s1 : Sequencer), s.step (.add t) = some s1 →
      s1.cur = s.cur + (if 0 ≤ t.weight ∧ t.weight ≤ m then t.weight else m) ∧
      s1.tasks = s.tasks ++ [⟨t, if 0 ≤ t.weight ∧ t.weight ≤ m then t.weight else m,
        0, false, false, false, []⟩]) ∧
    (∀ (i : Nat) (g : Goroutine) (s1 : Sequencer), s.tasks[i]? = some g →
      s.step (.release i) = some s1 →
      s1.cur = s.cur - g.weight ∧
      g.weight = if 0 ≤ g.task.weight ∧ g.task.weight ≤ m then g.task.weight else m) ∧
    s.cur = s.inFlight ∧ (0 ≤ m → s.inFlight ≤ m) := by
  obtain ⟨hm, hw⟩ := Sequencer.run_weighed es _ s (Sequencer.NewSequencer_weighed m) h
  have hm : s.maxWeight = m := hm
  have hclip : ∀ w : Int, s.clip w = if 0 ≤ w ∧ w ≤ m then w else m := by
    intro w
    unfold Sequencer.clip
    rw [hm]
    split_ifs <;> omega
  refine ⟨fun t s1 hs => ?_, fun i g s1 hg hs => ?_, hw.cur,
    fun h0 => by rw [← hm]; exact (hw.le (by rw [hm]; exact h0)).1⟩
  · rw [Sequencer.step] at hs
    split_ifs at hs
    cases hs
    rw [← hclip]
    exact ⟨rfl, rfl⟩
  · rw [Sequencer.step, hg] at hs
    dsimp only at hs
    split_ifs at hs
    cases hs
    refine ⟨rfl, ?_⟩
    rw [← hclip]
    exact hw.acquired g (List.mem_iff_getElem?.mpr ⟨i, hg⟩)

/-- Witness of `Add_acquires_weight`: the maximum 10 and tasks with the weights
3 and 4; while the task of weight 3 is in flight a task of weight -1, which
asks for the whole maximum, cannot be added. -/
theorem Add_acquires_weight_witness :
    ((NewSequencer 10).run [.add ⟨3, [], none⟩]).map
        (fun s => (s.cur, s.step (.add ⟨-1, [], none⟩))) = some (3, none) ∧
    ∃ s, (NewSequencer 10).run twoWriters = some s ∧ s.cur = s.inFlight ∧
      ((0 : Int) ≤ 10 → s.inFlight ≤ 10) := by
  have h0 : ((NewSequencer 10).run twoWriters).isSome = true := by decide
  cases hs : (NewSequencer 10).run twoWriters with
  | none =>
    rw [hs] at h0
    cases h0
  | some s =>
    exact ⟨by decide, s, rfl, (Add_acquires_weight 10 twoWriters s hs).2.2⟩

theorem nthScan_eof_stays : ∀ (n : Nat) (t : Scanner), t.Inv → t.ch = eof →
    t.insertSemi = false →
    ∃ r, nthScan n t = some r ∧ r.tok = .EOF ∧ r.pos = t.file.base + t.offset := by
  have one : ∀ t : Scanner, t.Inv → t.ch = eof → t.insertSemi = false →
      ∃ r, t.Scan = some r ∧ r.tok = .EOF ∧ r.pos = t.file.base + t.offset ∧ r.s.Inv ∧
        r.s.ch = eof ∧ r.s.insertSemi = false ∧
        r.s.file.base + r.s.offset = t.file.base + t.offset := by
    intro t ht h1 h2
    obtain ⟨r, e, he, pr⟩ := Scanner.Scan_eof ht h1 h2
    have a1 := ht.eofOff h1
    have a2 := pr.inv.eofOff (pr.atEnd he).1
    rw [pr.src] at a2
    have a3 := pr.base
    have a4 := pr.eofPos he
    exact ⟨r, e, he, by omega, pr.inv, (pr.atEnd he).1, (pr.atEnd he).2, by omega⟩
  intro n
  induction n with
  | zero =>
    intro t ht h1 h2
    obtain ⟨r, e, he, hp, _⟩ := one t ht h1 h2
    exact ⟨r, e, he, hp⟩
  | succ n ih =>
    intro t ht h1 h2
    obtain ⟨r, e, _, _, i1, c1, f1, p1⟩ := one t ht h1 h2
    obtain ⟨r2, e2, he2, hp2⟩ := ih r.s i1 c1 f1
    refine ⟨r2, ?_, he2, hp2.trans p1⟩
    rw [nthScan, e]
    exact e2

/-- C36: for every state of the scanner between two calls, `Scan` returns.
When it returns an inserted semicolon (the literal is a newline), the
insert-semicolon flag is false on return, the next call of `Scan` returns and
its token is no inserted semicolon, and when the semicolon was returned at
the end of the input (the scanner has reached the end, or the position of the
semicolon is the end of the source) the next call returns `EOF`. When it
returns `EOF`, every later call returns `EOF` at the same position. -/
theorem Scan_synthetic_semicolon (s : Scanner) (hs : s.Inv) :
    ∃ r, s.Scan = some r ∧
      (r.tok = .SEMICOLON → r.lit = str "\n" →
        r.s.insertSemi = false ∧
        (∃ r2, r.s.Scan = some r2 ∧ ¬ (r2.tok = .SEMICOLON ∧ r2.lit = str "\n")) ∧
        (r.s.ch = eof ∨ r.pos = s.file.base + s.src.length →
          ∃ r2, r.s.Scan = some r2 ∧ r2.tok = .EOF)) ∧
      (r.tok = .EOF → ∀ n, ∃ r2, nthScan n r.s = some r2 ∧ r2.tok = .EOF ∧ r2.pos = r.pos) := by
  obtain ⟨r, e, pr⟩ := Scanner.Scan_post hs
  refine ⟨r, e, fun h1 h2 => ?_, fun he n => ?_⟩
  · have hf := pr.synth h1 h2
    obtain ⟨r2, e2, p2⟩ := Scanner.Scan_post pr.inv
    refine ⟨hf, ⟨r2, e2, p2.nosemi hf⟩, fun hend => ?_⟩
    have hch : r.s.ch = eof := by
      rcases hend with h | h
      · exact h
      · by_contra hne
        have a1 := pr.inv.chLt hne
        rw [pr.src] at a1
        have a2 := pr.posHi
        have a3 := pr.base
        omega
    obtain ⟨r3, e3, h3, _⟩ := Scanner.Scan_eof pr.inv hch hf
    exact ⟨r3, e3, h3⟩
  · obtain ⟨r2, e2, h2, p2⟩ := nthScan_eof_stays n r.s pr.inv (pr.atEnd he).1 (pr.atEnd he).2
    exact ⟨r2, e2, h2, p2.trans (pr.eofPos he).symm⟩

/-- Witness of `Scan_synthetic_semicolon`: the scanner that `Init` prepares
for the source `a`; its calls of `Scan` return the identifier, the inserted
semicolon at the end of the input with the flag cleared, and then `EOF` at the
position 2 again and again. -/
theorem Scan_synthetic_semicolon_witness :
    (Scanner.Init asciiLib ⟨[], 1, 1, [0]⟩ (str "a") 0).Inv ∧
    (List.range 4).map (fun n => (nthScan n (Scanner.Init asciiLib ⟨[], 1, 1, [0]⟩ (str "a") 0)).map
        (fun r => (r.pos, r.tok, r.lit, r.s.insertSemi))) =
      [some (1, .IDENT, str "a", true), some (2, .SEMICOLON, str "\n", false),
        some (2, .EOF, [], false), some (2, .EOF, [], false)] ∧
    ∃ r, (Scanner.Init asciiLib ⟨[], 1, 1, [0]⟩ (str "a") 0).Scan = some r ∧
      (r.tok = .SEMICOLON → r.lit = str "\n" →
        r.s.insertSemi = false ∧
        (∃ r2, r.s.Scan = some r2 ∧ ¬ (r2.tok = .SEMICOLON ∧ r2.lit = str "\n")) ∧
        (r.s.ch = eof ∨ r.pos = (Scanner.Init asciiLib ⟨[], 1, 1, [0]⟩ (str "a") 0).file.base +
            (Scanner.Init asciiLib ⟨[], 1, 1, [0]⟩ (str "a") 0).src.length →
          ∃ r2, r.s.Scan = some r2 ∧ r2.tok = .EOF)) ∧
      (r.tok = .EOF → ∀ n, ∃ r2, nthScan n r.s = some r2 ∧ r2.tok = .EOF ∧ r2.pos = r.pos) :=
  ⟨(Scanner.Init_inv _ _ _ _).1, by decide!,
    Scan_synthetic_semicolon _ (Scanner.Init_inv _ _ _ _).1⟩

theorem parser.expect_pos {tok : Token} {p q : parser} {pos : Nat}
    (h : parser.expect tok p = .ok pos q) : pos = p.pos := by
  unfold parser.expect at h
  rw [getP_bind_apply] at h
  split_ifs at h
  · obtain ⟨_, q1, _, h⟩ := P.bind_eq_ok.mp h
    obtain ⟨_, q2, _, h⟩ := P.bind_eq_ok.mp h
    cases h
    rfl
  · obtain ⟨_, q1, _, h⟩ := P.bind_eq_ok.mp h
    obtain ⟨_, q2, _, h⟩ := P.bind_eq_ok.mp h
    cases h
    rfl

/-- C39: `parseGenDecl` called at a token with a valid position (as every
token of a file with a positive base has), with a parse function that keeps
the account of the parser (as `parseImportSpec` and `parseTypeSpec` do). For
every `GenDecl` it returns: `Rparen` is valid or `Specs` has exactly one
element, so `End()` does not index an empty list; and with the token `p1.tok`
that follows the keyword: `Lparen` is valid exactly when that token is `(`;
in this parenthesized form `Rparen` is valid, and otherwise `Rparen` is not
valid and `Specs` has exactly one element. -/
theorem parseGenDecl_End_defined (b : Bool) (keyword : Token)
    (f : Option CommentGroup → P Spec)
    (hf : ∀ doc q, q.Inv → Res.Good true b 1 15 1 q (f doc q)) (p : parser) (hp : p.Inv)
    (h0 : IsValid p.pos = true) (d : GenDecl) (q : parser)
    (h : parser.parseGenDecl keyword f p = .ok d q) :
    (IsValid d.Rparen = true ∨ d.Specs.length = 1) ∧ d.End.isSome = true ∧
      ∃ p1, parser.expect keyword p = .ok d.TokPos p1 ∧
        (IsValid d.Lparen = true ↔ p1.tok = .LPAREN) ∧
        (p1.tok = .LPAREN → IsValid d.Rparen = true) ∧
        (p1.tok ≠ .LPAREN → IsValid d.Rparen = false ∧ d.Specs.length = 1) := by
  have hv : ∀ x : Nat, IsValid x = true ↔ 0 < x := by
    intro x
    simp [IsValid, NoPos, Nat.pos_iff_ne_zero]
  have h0 := (hv _).mp h0
  unfold parser.parseGenDecl at h
  rw [getP_bind_apply] at h
  obtain ⟨pos, q1, e1, h⟩ := P.bind_eq_ok.mp h
  have f1 := (parser.expect_good _ p hp).frame_eq e1
  rw [getP_bind_apply] at h
  split_ifs at h with hl
  · obtain ⟨_, q2, e2, h⟩ := P.bind_eq_ok.mp h
    have f2 := (parser.next_good false q1 f1.inv).frame_eq e2
    obtain ⟨list, q3, e3, h⟩ := P.bind_eq_ok.mp h
    have f3 := (parser.genDeclLoop_good b f hf _ [] q2 f2.inv
      (by have := q2.tokens_lt_fuel f2.inv; omega)).frame_eq e3
    obtain ⟨rp, q4, e4, h⟩ := P.bind_eq_ok.mp h
    obtain ⟨_, q5, e5, h⟩ := P.bind_eq_ok.mp h
    cases h
    have hrp : rp = q3.pos := parser.expect_pos e4
    have hpos : pos = p.pos := parser.expect_pos e1
    have a1 := f1.pos
    have a2 := f2.pos
    have a3 := f3.pos
    have hr : IsValid rp = true := (hv _).mpr (by omega)
    refine ⟨Or.inl hr, ?_, q1, e1, ?_, fun _ => hr, fun hn => absurd hl hn⟩
    · show (GenDecl.End ⟨_, _, _, _, _, rp⟩).isSome = true
      unfold GenDecl.End
      simp [hr]
    · exact ⟨fun _ => hl, fun _ => (hv q1.pos).mpr (by omega)⟩
  · obtain ⟨s, q2, e2, h⟩ := P.bind_eq_ok.mp h
    cases h
    have hpos : pos = p.pos := parser.expect_pos e1
    refine ⟨Or.inr rfl, rfl, q1, e1, ?_, fun hc => absurd hc hl, fun _ => ⟨rfl, rfl⟩⟩
    exact ⟨fun hc => absurd ((hv 0).mp hc) (by omega), fun hc => absurd hc hl⟩

/-- Witness of `parseGenDecl_End_defined`: the source `import (`, where the
input ends after the parenthesis: `Specs` is empty, `Rparen` is the position 9
of the end of the input, and `End()` is 10. -/
theorem parseGenDecl_End_defined_witness :
    ((parser.first asciiLib 1 [] (str "import (") 0).Inv ∧
      IsValid (parser.first asciiLib 1 [] (str "import (") 0).pos = true) ∧
    genDeclReport (parser.parseGenDecl .IMPORT parser.parseImportSpec
        (parser.first asciiLib 1 [] (str "import (") 0)) = some (1, 8, 0, 9, some 10) ∧
    ∃ d q, parser.parseGenDecl .IMPORT parser.parseImportSpec
        (parser.first asciiLib 1 [] (str "import (") 0) = .ok d q ∧
      (IsValid d.Rparen = true ∨ d.Specs.length = 1) ∧ d.End.isSome = true ∧
      ∃ p1, parser.expect .IMPORT (parser.first asciiLib 1 [] (str "import (") 0) =
          .ok d.TokPos p1 ∧
        (IsValid d.Lparen = true ↔ p1.tok = .LPAREN) ∧
        (p1.tok = .LPAREN → IsValid d.Rparen = true) ∧
        (p1.tok ≠ .LPAREN → IsValid d.Rparen = false ∧ d.Specs.length = 1) := by
  have h0 : genDeclReport (parser.parseGenDecl .IMPORT parser.parseImportSpec
      (parser.first asciiLib 1 [] (str "import (") 0)) = some (1, 8, 0, 9, some 10) := by
    decide!
  refine ⟨⟨parser.first_inv _ _ _ _ _, by decide!⟩, h0, ?_⟩
  cases hs : parser.parseGenDecl .IMPORT parser.parseImportSpec
      (parser.first asciiLib 1 [] (str "import (") 0) with
  | ok d q =>
    exact ⟨d, q, rfl, parseGenDecl_End_defined false .IMPORT parser.parseImportSpec
      parser.parseImportSpec_good _ (parser.first_inv _ _ _ _ _) (by decide!) d q hs⟩
  | panicked e q =>
    rw [hs] at h0
    cases h0
  | outOfFuel =>
    rw [hs] at h0
    cases h0

theorem searchLines_append (l t : List Nat) (x : Nat) (h : ∀ e ∈ t, x < e) :
    searchLines (l ++ t) x = searchLines l x := by
  induction l with
  | nil =>
    cases t with
    | nil => rfl
    | cons e t =>
      have := h e (List.mem_cons_self _ _)
      simp only [List.nil_append, searchLines]
      rw [if_neg (by omega)]
  | cons a l ih =>
    rw [List.cons_append]
    unfold searchLines
    rw [ih]

theorem searchLines_fst (l : List Nat) (a x : Nat) (h : a ≤ x) :
    (searchLines (a :: l) x).1 = (searchLines l x).1 + 1 := by
  simp only [searchLines, if_pos h]
  split_ifs with h0
  · rw [h0]
  · rfl

theorem searchLines_mono (l : List Nat) {x y : Nat} (h : x ≤ y) :
    (searchLines l x).1 ≤ (searchLines l y).1 := by
  induction l with
  | nil => simp [searchLines]
  | cons a l ih =>
    by_cases ha : a ≤ x
    · rw [searchLines_fst l a x ha, searchLines_fst l a y (le_trans ha h)]
      omega
    · simp [searchLines, ha]

theorem File.Line_eq (f : File) (x : Nat) :
    f.Line x = if x = 0 then 0 else (searchLines f.lines (x - f.base)).1 := by
  unfold File.Line File.Position File.Offset NoPos
  split_ifs <;> rfl

theorem File.Line_grow {f g : File} {o x : Nat} (hb : g.base = f.base)
    (hg : LinesGrow o f.lines g.lines) (hx : x ≤ f.base + o) : g.Line x = f.Line x := by
  obtain ⟨t, e, m⟩ := hg
  rw [File.Line_eq, File.Line_eq, e, hb,
    searchLines_append _ _ _ (fun a ha => by have := m a ha; omega)]

theorem File.Line_mono (f : File) {x y : Nat} (h : x ≤ y) : f.Line x ≤ f.Line y := by
  rw [File.Line_eq, File.Line_eq]
  split_ifs with h1 h2
  · exact le_refl _
  · exact Nat.zero_le _
  · omega
  · exact searchLines_mono _ (by omega)

theorem File.Line_pos (f : File) {x : Nat} (hx : 0 < x) (hl : f.lines.head? = some 0) :
    0 < f.Line x := by
  rw [File.Line_eq, if_neg (by omega)]
  cases hf : f.lines with
  | nil =>
    rw [hf] at hl
    cases hl
  | cons a l =>
    rw [hf] at hl
    cases hl
    rw [searchLines_fst l 0 _ (Nat.zero_le _)]
    omega

theorem LinesGrow.head {o : Nat} {l1 l2 : List Nat} (h : LinesGrow o l1 l2)
    (hl : l1.head? = some 0) : l2.head? = some 0 := by
  obtain ⟨t, e, _⟩ := h
  rw [e]
  cases l1 with
  | nil => cases hl
  | cons a l => exact hl

namespace parser

theorem Moved.start {p : parser} (hp : p.Inv) : p.Moved p :=
  ⟨hp, rfl, le_refl _, LinesGrow.self _ _, le_refl _, rfl, rfl⟩

theorem Moved.further {p q r : parser} (h1 : p.Moved q) (h2 : q.Moved r) : p.Moved r :=
  ⟨h2.inv, h2.base.trans h1.base, le_trans h1.off h2.off, h1.lines.extend h1.off h2.lines,
    le_trans h1.pos h2.pos, h2.lead.trans h1.lead, h2.line.trans h1.line⟩

theorem Moved.sameScan {p q r : parser} (h : p.Moved q) (h1 : r.scanner = q.scanner)
    (h2 : r.tok = q.tok) (h3 : r.pos = q.pos) (h4 : r.leadComment = q.leadComment)
    (h5 : r.lineComment = q.lineComment) : p.Moved r :=
  ⟨h.inv.of_same h1 h2 h3, by rw [h1]; exact h.base, by rw [h1]; exact h.off,
    by rw [h1]; exact h.lines, by rw [h3]; exact h.pos, h4.trans h.lead, h5.trans h.line⟩

/-- The line of a position that the scanner of `p` has passed is the same in
the file of `q`. -/
theorem Moved.line_eq {p q : parser} (h : p.Moved q) {x : Nat}
    (hx : x ≤ p.scanner.file.base + p.scanner.offset) : q.file.Line x = p.file.Line x :=
  File.Line_grow h.base h.lines hx

theorem Moved.endLine_eq {p q : parser} (h : p.Moved q) {c : Comment}
    (hx : c.Slash ≤ p.scanner.file.base + p.scanner.offset) :
    c.endLine q.file = c.endLine p.file := by
  unfold Comment.endLine
  rw [h.line_eq hx]

theorem next0_moved (p : parser) (hp : p.Inv) :
    ∃ q r, p.scanner.Scan = some r ∧ next0 p = .ok () q ∧ p.Moved q ∧
      q.comments = p.comments ∧ q.pos = r.pos ∧ q.tok = r.tok ∧ q.lit = r.lit ∧
      p.scanner.file.base + p.scanner.offset ≤ q.pos := by
  obtain ⟨r, e, pr⟩ := Scanner.Scan_post hp.scan
  refine ⟨{ p with scanner := r.s, pos := r.pos, tok := r.tok, lit := r.lit,
                   nscan := p.nscan + 1 }, r, e, ?_, ?_, rfl, rfl, rfl, rfl, pr.posLo⟩
  · unfold next0
    simp only [e]
  · have a1 := pr.posLo
    have a2 := pr.posHi
    have a3 := pr.base
    have a4 := hp.pos
    exact ⟨⟨pr.inv, pr.atEnd, pr.posHi⟩, pr.base, by show p.scanner.offset ≤ r.s.offset; omega,
      pr.lines, by show p.pos ≤ r.pos; omega, rfl, rfl⟩

theorem consumeComment_trace (p : parser) (hp : p.Inv) :
    ∃ q, consumeComment p =
        .ok (⟨p.pos, p.lit⟩, Int.ofNat (Comment.endLine p.file ⟨p.pos, p.lit⟩)) q ∧
      p.Moved q ∧ q.comments = p.comments := by
  obtain ⟨q, r, _, e, m, c, _⟩ := next0_moved p hp
  refine ⟨q, ?_, m, c⟩
  unfold consumeComment
  simp only [e]
  unfold Comment.endLine
  split_ifs <;> simp

end parser

namespace parser

theorem groupLoop_trace (n : Nat) : ∀ (fuel : Nat) (list : List Comment) (endline : Int)
    (p q : parser) (list1 : List Comment) (e1 : Int), p.Inv →
    consumeCommentGroupLoop n fuel list endline p = .ok (list1, e1) q →
    ∃ new, list1 = list ++ new ∧ p.Moved q ∧ q.comments = p.comments ∧
      (∀ c ∈ new, p.pos ≤ c.Slash ∧ c.Slash ≤ q.pos) ∧
      (q.tok = .COMMENT → e1 + Int.ofNat n < Int.ofNat (q.file.Line q.pos)) ∧
      (new = [] → e1 = endline ∧ q = p) ∧
      (∀ c, new.getLast? = some c → e1 = Int.ofNat (c.endLine q.file)) ∧
      (∀ c, new.head? = some c → c = ⟨p.pos, p.lit⟩) ∧
      (p.tok = .COMMENT → Int.ofNat (p.file.Line p.pos) ≤ endline + Int.ofNat n →
        new ≠ []) := by
  intro fuel
  induction fuel with
  | zero =>
    intro list endline p q list1 e1 _ h
    cases h
  | succ fuel ih =>
    intro list endline p q list1 e1 hp h
    unfold consumeCommentGroupLoop at h
    by_cases hc : p.tok = .COMMENT ∧ Int.ofNat (p.file.Line p.pos) ≤ endline + Int.ofNat n
    · rw [if_pos hc] at h
      obtain ⟨p1, ec, m1, c1⟩ := consumeComment_trace p hp
      rw [ec] at h
      obtain ⟨new, a1, a2, a3, a4, a5, a6, a7, a8, a9⟩ := ih _ _ p1 q list1 e1 m1.inv h
      have hm := m1.further a2
      refine ⟨⟨p.pos, p.lit⟩ :: new, by rw [a1, List.append_assoc]; rfl, hm, a3.trans c1,
        ?_, a5, fun e => List.noConfusion e, ?_, ?_, fun _ _ => List.cons_ne_nil _ _⟩
      · intro c hcm
        rcases List.mem_cons.mp hcm with e | e
        · rw [e]
          exact ⟨le_refl _, hm.pos⟩
        · exact ⟨le_trans m1.pos (a4 c e).1, (a4 c e).2⟩
      · intro c hcl
        cases new with
        | nil =>
          simp only [List.getLast?_singleton, Option.some.injEq] at hcl
          rw [← hcl, (a6 rfl).1, (a6 rfl).2, m1.endLine_eq hp.pos]
        | cons b rest =>
          rw [List.getLast?_cons_cons] at hcl
          exact a7 c hcl
      · intro c hch
        simp only [List.head?_cons, Option.some.injEq] at hch
        exact hch.symm
    · rw [if_neg hc] at h
      cases h
      refine ⟨[], (by simp), Moved.start hp, rfl, fun c hcm => absurd hcm (List.not_mem_nil c),
        fun ht => ?_, fun _ => ⟨rfl, rfl⟩, fun c hcl => (by simp at hcl),
        fun c hch => (by simp at hch), fun ht hle => absurd ⟨ht, hle⟩ hc⟩
      by_contra hlt
      exact hc ⟨ht, by omega⟩

end parser

namespace parser

theorem group_trace (n : Nat) (p q : parser) (g : CommentGroup) (e : Int) (hp : p.Inv)
    (ht : p.tok = .COMMENT) (h : consumeCommentGroup n p = .ok (g, e) q) :
    g.List.head? = some ⟨p.pos, p.lit⟩ ∧ p.Moved q ∧ q.comments = p.comments ++ [g] ∧
      (∀ c ∈ g.List, p.pos ≤ c.Slash ∧ c.Slash ≤ q.pos) ∧
      (q.tok = .COMMENT → e + Int.ofNat n < Int.ofNat (q.file.Line q.pos)) ∧
      e = Int.ofNat (g.endLine q.file) ∧ g.startLine q.file = q.file.Line p.pos ∧
      g.startLine q.file ≤ g.endLine q.file := by
  unfold consumeCommentGroup at h
  split at h
  next list endline p1 hl =>
    cases h
    obtain ⟨new, a1, a2, a3, a4, a5, a6, a7, a8, a9⟩ :=
      groupLoop_trace n _ _ _ p p1 list e hp hl
    rw [List.nil_append] at a1
    subst a1
    have hne : list ≠ [] := a9 ht (by
      have : (0 : Int) ≤ Int.ofNat n := Int.ofNat_zero_le n
      omega)
    obtain ⟨c0, rest, rfl⟩ : ∃ c0 rest, list = c0 :: rest := by
      cases list with
      | nil => exact absurd rfl hne
      | cons c0 rest => exact ⟨c0, rest, rfl⟩
    have h0 : c0 = ⟨p.pos, p.lit⟩ := a8 c0 rfl
    obtain ⟨cl, hcl⟩ : ∃ cl, (c0 :: rest).getLast? = some cl :=
      ⟨(c0 :: rest).getLast (List.cons_ne_nil _ _), List.getLast?_eq_getLast _ _⟩
    have hmem : cl ∈ c0 :: rest := List.mem_of_getLast?_eq_some hcl
    have hstart : CommentGroup.startLine p1.file ⟨c0 :: rest⟩ = p1.file.Line p.pos := by
      show p1.file.Line c0.Slash = _
      rw [h0]
    have hend : CommentGroup.endLine p1.file ⟨c0 :: rest⟩ = cl.endLine p1.file := by
      unfold CommentGroup.endLine
      rw [hcl]
    refine ⟨by rw [h0]; rfl, a2.sameScan rfl rfl rfl rfl rfl, by show _ = _; rw [a3], a4, a5,
      ?_, hstart, ?_⟩
    · show e = Int.ofNat (CommentGroup.endLine p1.file ⟨c0 :: rest⟩)
      rw [hend]
      exact a7 cl hcl
    · show CommentGroup.startLine p1.file ⟨c0 :: rest⟩ ≤ CommentGroup.endLine p1.file ⟨c0 :: rest⟩
      rw [hstart, hend]
      have := File.Line_mono p1.file (a4 cl hmem).1
      unfold Comment.endLine
      omega
  next => cases h
  next => cases h

end parser

namespace parser

theorem Moved.posLine_eq {p q : parser} (h : p.Moved q) (hp : p.Inv) {x : Nat}
    (hx : x ≤ p.pos) : q.file.Line x = p.file.Line x :=
  h.line_eq (le_trans hx hp.pos)

theorem Moved.groupEnd_eq {p q : parser} (h : p.Moved q) (hp : p.Inv) {g : CommentGroup}
    (hg : ∀ c ∈ g.List, c.Slash ≤ p.pos) : g.endLine q.file = g.endLine p.file := by
  unfold CommentGroup.endLine
  cases hl : g.List.getLast? with
  | none => rfl
  | some c => exact h.endLine_eq (le_trans (hg c (List.mem_of_getLast?_eq_some hl)) hp.pos)

theorem Moved.groupStart_eq {p q : parser} (h : p.Moved q) (hp : p.Inv) {g : CommentGroup}
    (hg : ∀ c ∈ g.List, c.Slash ≤ p.pos) : g.startLine q.file = g.startLine p.file := by
  unfold CommentGroup.startLine
  cases hl : g.List.head? with
  | none => rfl
  | some c => exact h.posLine_eq hp (hg c (List.mem_of_mem_head? hl))

theorem nextLoop_trace : ∀ (fuel : Nat) (comment : Option CommentGroup) (endline : Int)
    (p q : parser) (c2 : Option CommentGroup) (e2 : Int), p.Inv →
    nextLoop fuel comment endline p = .ok (c2, e2) q →
    ∃ gs, p.Moved q ∧ q.comments = p.comments ++ gs ∧ q.tok ≠ .COMMENT ∧
      (gs = [] → c2 = comment ∧ e2 = endline ∧ q = p) ∧
      (∀ g, gs.getLast? = some g → c2 = some g ∧ e2 = Int.ofNat (g.endLine q.file)) ∧
      (∀ g ∈ gs, g.List ≠ [] ∧ ∀ c ∈ g.List, p.pos ≤ c.Slash ∧ c.Slash ≤ q.pos) ∧
      (p.tok = .COMMENT ↔ gs ≠ []) ∧
      (∀ g, gs.head? = some g → g.List.head? = some ⟨p.pos, p.lit⟩) := by
  intro fuel
  induction fuel with
  | zero =>
    intro comment endline p q c2 e2 _ h
    cases h
  | succ fuel ih =>
    intro comment endline p q c2 e2 hp h
    unfold nextLoop at h
    by_cases ht : p.tok = .COMMENT
    · rw [if_pos ht] at h
      split at h
      next g e p1 hg =>
        obtain ⟨b1, b2, b3, b4, b5, b6, b7, b8⟩ := group_trace 1 p p1 g e hp ht hg
        obtain ⟨gs, a1, a2, a3, a4, a5, a6, a7, a8⟩ := ih _ _ p1 q c2 e2 b2.inv h
        have hm := b2.further a1
        have hgne : g.List ≠ [] := by
          intro e0
          rw [e0] at b1
          cases b1
        refine ⟨g :: gs, hm, by rw [a2, b3, List.append_assoc]; rfl, a3,
          fun e0 => List.noConfusion e0, ?_, ?_, ⟨fun _ => List.cons_ne_nil _ _, fun _ => ht⟩, ?_⟩
        · intro g1 hl
          cases gs with
          | nil =>
            simp only [List.getLast?_singleton, Option.some.injEq] at hl
            obtain ⟨d1, d2, d3⟩ := a4 rfl
            rw [← hl, d1, d2, d3]
            exact ⟨rfl, b6⟩
          | cons x rest =>
            rw [List.getLast?_cons_cons] at hl
            exact a5 g1 hl
        · intro g1 hmem
          rcases List.mem_cons.mp hmem with e0 | e0
          · rw [e0]
            exact ⟨hgne, fun c hc => ⟨(b4 c hc).1, le_trans (b4 c hc).2 a1.pos⟩⟩
          · exact ⟨(a6 g1 e0).1, fun c hc =>
              ⟨le_trans b2.pos ((a6 g1 e0).2 c hc).1, ((a6 g1 e0).2 c hc).2⟩⟩
        · intro g1 hh
          simp only [List.head?_cons, Option.some.injEq] at hh
          rw [← hh]
          exact b1
      next => cases h
      next => cases h
    · rw [if_neg ht] at h
      cases h
      exact ⟨[], Moved.start hp, (by simp), ht, fun _ => ⟨rfl, rfl, rfl⟩,
        fun g hl => (by simp at hl), fun g hm => absurd hm (List.not_mem_nil g),
        ⟨fun h0 => absurd h0 ht, fun h0 => absurd rfl h0⟩, fun g hh => (by simp at hh)⟩

end parser

theorem leadCommentOf_loop (f : File) (prev pos : Nat) (gs : List CommentGroup)
    (c2 : Option CommentGroup) (e2 : Int)
    (hall : ∀ g ∈ gs, g.startLine f ≠ f.Line prev) (h0 : gs = [] → e2 = -1)
    (h1 : ∀ g, gs.getLast? = some g → c2 = some g ∧ e2 = Int.ofNat (g.endLine f))
    (hpos : 0 < f.Line pos) :
    (if e2 + 1 = Int.ofNat (f.Line pos) then c2 else none) = leadCommentOf f prev pos gs := by
  have hf : gs.filter (fun g => g.startLine f ≠ f.Line prev) = gs :=
    List.filter_eq_self.mpr (fun g hg => by simpa using hall g hg)
  unfold leadCommentOf
  rw [hf]
  cases hl : gs.getLast? with
  | none =>
    have hnil : gs = [] := List.getLast?_eq_none_iff.mp hl
    rw [h0 hnil, if_neg]
    simp only [Int.ofNat_eq_coe]
    omega
  | some g =>
    obtain ⟨a, b⟩ := h1 g hl
    rw [a, b]
    simp only [Int.ofNat_eq_coe]
    by_cases he : g.endLine f + 1 = f.Line pos
    · rw [if_pos he, if_pos (by omega)]
    · rw [if_neg he, if_neg (by omega)]

theorem leadCommentOf_cons (f : File) (prev pos : Nat) (g0 : CommentGroup)
    (gs : List CommentGroup) (h : g0.startLine f = f.Line prev) :
    leadCommentOf f prev pos (g0 :: gs) = leadCommentOf f prev pos gs := by
  unfold leadCommentOf
  rw [List.filter_cons_of_neg (by simpa using h)]

namespace parser

theorem next_trace (p0 : parser) (hp : p0.Inv) (hb : 0 < p0.scanner.file.base)
    (hl : p0.scanner.file.lines.head? = some 0) :
    ∃ q gs r, next p0 = .ok () q ∧ p0.scanner.Scan = some r ∧ q.Inv ∧ q.tok ≠ .COMMENT ∧
      q.comments = p0.comments ++ gs ∧ (∀ g ∈ gs, g.List ≠ []) ∧
      (r.tok = .COMMENT ↔ gs ≠ []) ∧
      (∀ g, gs.head? = some g → g.List.head? = some ⟨r.pos, r.lit⟩) ∧
      q.leadComment = leadCommentOf q.file p0.pos q.pos gs ∧
      q.lineComment = lineCommentOf q.file p0.pos q.pos q.tok gs := by
  obtain ⟨q, eq, hq⟩ := next_returns p0 hp
  have hP : ({ p0 with leadComment := none, lineComment := none } : parser).Inv :=
    hp.of_same rfl rfl rfl
  obtain ⟨p, r, er, e0, m0, c0, r1, r2, r3, lo⟩ := next0_moved _ hP
  have er : p0.scanner.Scan = some r := er
  have hpp : p0.pos ≤ p.pos := m0.pos
  have hpos0 : 0 < p.pos := by
    have : p0.scanner.file.base + p0.scanner.offset ≤ p.pos := lo
    omega
  have hlp : p.scanner.file.lines.head? = some 0 := m0.lines.head hl
  have hlead0 : p.leadComment = none := m0.lead
  have hline0 : p.lineComment = none := m0.line
  have hcom0 : p.comments = p0.comments := c0
  have hpi := m0.inv
  refine ⟨q, ?_⟩
  have eq0 := eq
  unfold next at eq
  simp only [e0] at eq
  clear e0 m0 c0 lo hP
  by_cases hc : p.tok = .COMMENT
  · rw [if_pos hc] at eq
    have hrc : r.tok = .COMMENT := by rw [← r2]; exact hc
    by_cases hs : p.file.Line p.pos = p.file.Line p0.pos
    · rw [if_pos hs] at eq
      split at eq
      next => cases eq
      next => cases eq
      next comment p1x hfirst =>
        split at hfirst
        next g0 e1 p1 hg =>
          obtain ⟨b1, b2, b3, b4, b5, b6, b7, b8⟩ := group_trace 0 p p1 g0 e1 hpi hc hg
          have hx : p1x.scanner = p1.scanner ∧ p1x.tok = p1.tok ∧ p1x.pos = p1.pos ∧
              p1x.comments = p1.comments ∧ p1x.leadComment = p1.leadComment ∧
              comment = some g0 ∧
              p1x.lineComment = (if Int.ofNat (p1.file.Line p1.pos) ≠ e1 ∨ p1.tok = .EOF
                then some g0 else p1.lineComment) := by
            by_cases hcond : Int.ofNat (p1.file.Line p1.pos) ≠ e1 ∨ p1.tok = .EOF
            · rw [if_pos hcond] at hfirst
              cases hfirst
              rw [if_pos hcond]
              exact ⟨rfl, rfl, rfl, rfl, rfl, rfl, rfl⟩
            · rw [if_neg hcond] at hfirst
              cases hfirst
              rw [if_neg hcond]
              exact ⟨rfl, rfl, rfl, rfl, rfl, rfl, rfl⟩
          obtain ⟨x1, x2, x3, x4, x5, x6, x7⟩ := hx
          have hxi : p1x.Inv := b2.inv.of_same x1 x2 x3
          split at eq
          next => cases eq
          next => cases eq
          next c2 e2 p2 hn =>
            obtain ⟨gs, a1, a2, a3, a4, a5, a6, a7, a8⟩ :=
              nextLoop_trace _ _ _ p1x p2 c2 e2 hxi hn
            have hy : q.scanner = p2.scanner ∧ q.tok = p2.tok ∧ q.pos = p2.pos ∧
                q.comments = p2.comments ∧ q.lineComment = p2.lineComment ∧
                q.leadComment = (if e2 + 1 = Int.ofNat (p2.file.Line p2.pos) then c2
                  else p2.leadComment) := by
              by_cases hcond : e2 + 1 = Int.ofNat (p2.file.Line p2.pos)
              · rw [if_pos hcond] at eq
                cases eq
                rw [if_pos hcond]
                exact ⟨rfl, rfl, rfl, rfl, rfl, rfl⟩
              · rw [if_neg hcond] at eq
                cases eq
                rw [if_neg hcond]
                exact ⟨rfl, rfl, rfl, rfl, rfl, rfl⟩
            obtain ⟨y1, y2, y3, y4, y5, y6⟩ := hy
            have hF : q.file = p2.file := by unfold parser.file; rw [y1]
            have f1 : p1x.file = p1.file := by unfold parser.file; rw [x1]
            -- lines seen from the final file
            have lineP1 : ∀ x, x ≤ p1.pos → p2.file.Line x = p1.file.Line x := by
              intro x hx
              rw [a1.posLine_eq hxi (by rw [x3]; exact hx), f1]
            have lineP : ∀ x, x ≤ p.pos → p2.file.Line x = p.file.Line x := by
              intro x hx
              rw [lineP1 x (le_trans hx b2.pos), b2.posLine_eq hpi hx]
            have hg0le : ∀ c ∈ g0.List, c.Slash ≤ p1x.pos := fun c hcm => by
              rw [x3]; exact (b4 c hcm).2
            have hstart0 : g0.startLine p2.file = p2.file.Line p0.pos := by
              rw [a1.groupStart_eq hxi hg0le, f1, b7, b2.posLine_eq hpi (le_refl _), hs,
                lineP _ hpp]
            have hend0 : g0.endLine p2.file = g0.endLine p1.file := by
              rw [a1.groupEnd_eq hxi hg0le, f1]
            have hse : g0.startLine p1.file ≤ g0.endLine p1.file := b8
            have hst1 : g0.startLine p1.file = p2.file.Line p0.pos := by
              rw [← hstart0, a1.groupStart_eq hxi hg0le, f1]
            have hlines2 : p2.scanner.file.lines.head? = some 0 := by
              refine a1.lines.head ?_
              rw [x1]
              exact b2.lines.head hlp
            have hpos2 : 0 < p2.file.Line p2.pos :=
              File.Line_pos _ (by have := b2.pos; have := a1.pos; omega) hlines2
            have hloopLine : gs ≠ [] → g0.endLine p1.file < p2.file.Line p1.pos := by
              intro hne
              have ht1 : p1.tok = .COMMENT := by rw [← x2]; exact a7.mpr hne
              have := b5 ht1
              rw [b6] at this
              rw [lineP1 _ (le_refl _)]
              simp only [Int.ofNat_eq_coe] at this
              omega
            have hall : ∀ g ∈ gs, g.startLine p2.file ≠ p2.file.Line p0.pos := by
              intro g hgm
              have hne : gs ≠ [] := List.ne_nil_of_mem hgm
              obtain ⟨n1, n2⟩ := a6 g hgm
              obtain ⟨c, rest, hcr⟩ : ∃ c rest, g.List = c :: rest := by
                cases hgl : g.List with
                | nil => exact absurd hgl n1
                | cons c rest => exact ⟨c, rest, rfl⟩
              have hsl : g.startLine p2.file = p2.file.Line c.Slash := by
                unfold CommentGroup.startLine
                rw [hcr]
                rfl
              have hcs := (n2 c (by rw [hcr]; exact List.mem_cons_self _ _)).1
              rw [x3] at hcs
              have := File.Line_mono p2.file hcs
              have := hloopLine hne
              omega
            refine ⟨g0 :: gs, r, eq0, er, hq, by rw [y2]; exact a3,
              by rw [y4, a2, x4, b3, hcom0, List.append_assoc]; rfl, ?_,
              ⟨fun _ => List.cons_ne_nil _ _, fun _ => hrc⟩, ?_, ?_, ?_⟩
            · intro g hgm
              rcases List.mem_cons.mp hgm with e | e
              · rw [e]
                intro h0
                rw [h0] at b1
                cases b1
              · exact (a6 g e).1
            · intro g hh
              simp only [List.head?_cons, Option.some.injEq] at hh
              rw [← hh, b1, r1, r3]
            · rw [hF, y3, y6, a1.lead, x5, b2.lead, hlead0,
                leadCommentOf_cons _ _ _ _ _ hstart0]
              exact leadCommentOf_loop _ _ _ gs c2 e2 hall (fun h0 => (a4 h0).2.1) a5 hpos2
            · rw [hF, y3, y2, y5, a1.line, x7, b2.line, hline0]
              unfold lineCommentOf
              simp only [List.head?_cons]
              rw [hend0]
              by_cases hgs : gs = []
              · obtain ⟨_, _, d3⟩ := a4 hgs
                rw [d3, x3, x2, f1, b6, hst1]
                simp only [Int.ofNat_eq_coe, ne_eq, Nat.cast_inj, true_and]
                have hf2 : p2.file = p1.file := by rw [d3, f1]
                rw [hf2]
                simp only [true_and]
              · have h1 := hloopLine hgs
                have h2 := File.Line_mono p2.file (show p1.pos ≤ p2.pos by rw [← x3]; exact a1.pos)
                have ht1 : p1.tok = .COMMENT := by rw [← x2]; exact a7.mpr hgs
                have h3 := b5 ht1
                rw [b6] at h3
                simp only [Int.ofNat_eq_coe] at h3
                rw [if_pos (Or.inl (by rw [b6]; simp only [Int.ofNat_eq_coe]; omega)),
                  if_pos ⟨hstart0, Or.inl (by omega)⟩]
        next => cases hfirst
        next => cases hfirst
    · rw [if_neg hs] at eq
      simp only at eq
      split at eq
      next => cases eq
      next => cases eq
      next c2 e2 p2 hn =>
        obtain ⟨gs, a1, a2, a3, a4, a5, a6, a7, a8⟩ := nextLoop_trace _ _ _ p p2 c2 e2 hpi hn
        have hy : q.scanner = p2.scanner ∧ q.tok = p2.tok ∧ q.pos = p2.pos ∧
            q.comments = p2.comments ∧ q.lineComment = p2.lineComment ∧
            q.leadComment = (if e2 + 1 = Int.ofNat (p2.file.Line p2.pos) then c2
              else p2.leadComment) := by
          by_cases hcond : e2 + 1 = Int.ofNat (p2.file.Line p2.pos)
          · rw [if_pos hcond] at eq
            cases eq
            rw [if_pos hcond]
            exact ⟨rfl, rfl, rfl, rfl, rfl, rfl⟩
          · rw [if_neg hcond] at eq
            cases eq
            rw [if_neg hcond]
            exact ⟨rfl, rfl, rfl, rfl, rfl, rfl⟩
        obtain ⟨y1, y2, y3, y4, y5, y6⟩ := hy
        have hF : q.file = p2.file := by unfold parser.file; rw [y1]
        have lineP : ∀ x, x ≤ p.pos → p2.file.Line x = p.file.Line x :=
          fun x hx => a1.posLine_eq hpi hx
        have hne : gs ≠ [] := a7.mp hc
        have hlines2 : p2.scanner.file.lines.head? = some 0 := a1.lines.head hlp
        have hpos2 : 0 < p2.file.Line p2.pos :=
          File.Line_pos _ (by have := a1.pos; omega) hlines2
        have hlt : p2.file.Line p0.pos < p2.file.Line p.pos := by
          have h1 := File.Line_mono p2.file hpp
          rw [lineP _ hpp, lineP _ (le_refl _)] at h1 ⊢
          omega
        have hall : ∀ g ∈ gs, g.startLine p2.file ≠ p2.file.Line p0.pos := by
          intro g hgm
          obtain ⟨n1, n2⟩ := a6 g hgm
          obtain ⟨c, rest, hcr⟩ : ∃ c rest, g.List = c :: rest := by
            cases hgl : g.List with
            | nil => exact absurd hgl n1
            | cons c rest => exact ⟨c, rest, rfl⟩
          have hsl : g.startLine p2.file = p2.file.Line c.Slash := by
            unfold CommentGroup.startLine
            rw [hcr]
            rfl
          have hcs := (n2 c (by rw [hcr]; exact List.mem_cons_self _ _)).1
          have := File.Line_mono p2.file hcs
          omega
        refine ⟨gs, r, eq0, er, hq, by rw [y2]; exact a3, by rw [y4, a2, hcom0],
          fun g hgm => (a6 g hgm).1, ⟨fun _ => hne, fun _ => hrc⟩, ?_, ?_, ?_⟩
        · intro g hh
          rw [a8 g hh, r1, r3]
        · rw [hF, y3, y6, a1.lead, hlead0]
          exact leadCommentOf_loop _ _ _ gs c2 e2 hall (fun h0 => absurd h0 hne) a5 hpos2
        · rw [hF, y3, y2, y5, a1.line, hline0]
          unfold lineCommentOf
          cases hh : gs.head? with
          | none => rfl
          | some g =>
            simp only
            rw [if_neg]
            intro hcon
            exact hall g (List.mem_of_mem_head? hh) hcon.1
  · rw [if_neg hc] at eq
    cases eq
    refine ⟨[], r, eq0, er, hq, hc, by rw [hcom0]; simp, fun g hgm => absurd hgm (List.not_mem_nil g),
      ⟨fun h0 => absurd (by rw [r2]; exact h0) hc, fun h0 => absurd rfl h0⟩,
      fun g hh => (by simp at hh), ?_, ?_⟩
    · rw [hlead0]
      rfl
    · rw [hline0]
      rfl

end parser

theorem parser.nextN_inv : ∀ (n : Nat) (p : parser), p.Inv → (parser.nextN n p).Inv := by
  intro n
  induction n with
  | zero => exact fun p hp => hp
  | succ n ih =>
    intro p hp
    obtain ⟨q, e, hq⟩ := parser.next_returns p hp
    unfold parser.nextN
    rw [e]
    exact ih q hq

/-- C22: `next` called in a state of the parser whose file has a positive
base and a line table that starts with 0 (as every file of a file set has)
returns, at a token that is no comment, with the comment groups consumed
added to the comments, none of them empty. Its lead comment is, in the words
of the claim (`leadCommentOf`): the last of the consumed groups that do not
start on the line of the previous token, when there is such a group and it
ends on the line immediately before the line of the new current token, and
nil otherwise. A group that starts on the line of the previous token is not
the lead comment. -/
theorem next_leadComment (p : parser) (hp : p.Inv) (hb : 0 < p.scanner.file.base)
    (hl : p.scanner.file.lines.head? = some 0) :
    ∃ q gs, parser.next p = .ok () q ∧ q.tok ≠ .COMMENT ∧ q.comments = p.comments ++ gs ∧
      (∀ g ∈ gs, g.List ≠ []) ∧
      q.leadComment = leadCommentOf q.file p.pos q.pos gs ∧
      (∀ g ∈ gs, g.startLine q.file = q.file.Line p.pos → q.leadComment ≠ some g) := by
  obtain ⟨q, gs, r, e, _, _, a1, a2, a3, _, _, a4, _⟩ := parser.next_trace p hp hb hl
  refine ⟨q, gs, e, a1, a2, a3, a4, fun g _ hs hc => ?_⟩
  rw [a4] at hc
  unfold leadCommentOf at hc
  cases hlast : (gs.filter (fun g => g.startLine q.file ≠ q.file.Line p.pos)).getLast? with
  | none =>
    rw [hlast] at hc
    cases hc
  | some g1 =>
    rw [hlast] at hc
    simp only at hc
    split_ifs at hc
    cases hc
    have := List.of_mem_filter (List.mem_of_getLast?_eq_some hlast)
    simp only [ne_eq, decide_not, Bool.not_eq_true', decide_eq_false_iff_not] at this
    exact this hs

/-- Witness of `next_leadComment`: the source `a`, `// c`, `b` on three
lines, with the parser at the semicolon after `a`: `next` consumes the
comment and stops at `b` with the comment as lead comment. -/
theorem next_leadComment_witness :
    ((parser.nextN 1 (parser.first asciiLib 1 [] (str "a\n// c\nb") ParseComments)).Inv ∧
      0 < (parser.nextN 1
        (parser.first asciiLib 1 [] (str "a\n// c\nb") ParseComments)).scanner.file.base ∧
      (parser.nextN 1
        (parser.first asciiLib 1 [] (str "a\n// c\nb") ParseComments)).scanner.file.lines.head?
          = some 0) ∧
    (parser.nextN 2 (parser.first asciiLib 1 [] (str "a\n// c\nb") ParseComments)).leadComment
      = some ⟨[⟨3, str "// c"⟩]⟩ ∧
    ∃ q gs, parser.next (parser.nextN 1
        (parser.first asciiLib 1 [] (str "a\n// c\nb") ParseComments)) = .ok () q ∧
      q.tok ≠ .COMMENT ∧
      q.comments = (parser.nextN 1
        (parser.first asciiLib 1 [] (str "a\n// c\nb") ParseComments)).comments ++ gs ∧
      (∀ g ∈ gs, g.List ≠ []) ∧
      q.leadComment = leadCommentOf q.file (parser.nextN 1
        (parser.first asciiLib 1 [] (str "a\n// c\nb") ParseComments)).pos q.pos gs ∧
      (∀ g ∈ gs, g.startLine q.file = q.file.Line (parser.nextN 1
        (parser.first asciiLib 1 [] (str "a\n// c\nb") ParseComments)).pos →
          q.leadComment ≠ some g) :=
  ⟨⟨parser.nextN_inv _ _ (parser.first_inv _ _ _ _ _), by decide!, by decide!⟩, by decide!,
    next_leadComment _ (parser.nextN_inv _ _ (parser.first_inv _ _ _ _ _)) (by decide!)
      (by decide!)⟩

/-- C23: `next` called in a state of the parser whose file has a positive
base and a line table that starts with 0 returns, at a token that is no
comment; comment groups were consumed exactly when the first token scanned
was a comment, and that comment is the first one of the first group. Its line
comment is, in the words of the claim (`lineCommentOf`): the first group
consumed, when it starts on the line of the previous token and the new
current token, the first one after the group that is no comment, is on a
different line than the line where the group ends, or is `EOF`; and nil
otherwise. -/
theorem next_lineComment (p : parser) (hp : p.Inv) (hb : 0 < p.scanner.file.base)
    (hl : p.scanner.file.lines.head? = some 0) :
    ∃ q gs r, parser.next p = .ok () q ∧ p.scanner.Scan = some r ∧ q.tok ≠ .COMMENT ∧
      q.comments = p.comments ++ gs ∧ (r.tok = .COMMENT ↔ gs ≠ []) ∧
      (∀ g, gs.head? = some g → g.List.head? = some ⟨r.pos, r.lit⟩) ∧
      q.lineComment = lineCommentOf q.file p.pos q.pos q.tok gs := by
  obtain ⟨q, gs, r, e, a0, _, a1, a2, _, a3, a4, _, a5⟩ := parser.next_trace p hp hb hl
  exact ⟨q, gs, r, e, a0, a1, a2, a3, a4, a5⟩

/-- Witness of `next_lineComment`: the source `a // c`, `b` on two lines, with
the parser at the semicolon that the scanner inserts before the comment:
`next` consumes the comment and stops at `b` with the comment as line
comment. -/
theorem next_lineComment_witness :
    ((parser.nextN 1 (parser.first asciiLib 1 [] (str "a // c\nb") ParseComments)).Inv ∧
      0 < (parser.nextN 1
        (parser.first asciiLib 1 [] (str "a // c\nb") ParseComments)).scanner.file.base ∧
      (parser.nextN 1
        (parser.first asciiLib 1 [] (str "a // c\nb") ParseComments)).scanner.file.lines.head?
          = some 0) ∧
    (parser.nextN 2 (parser.first asciiLib 1 [] (str "a // c\nb") ParseComments)).lineComment
      = some ⟨[⟨3, str "// c"⟩]⟩ ∧
    ∃ q gs r, parser.next (parser.nextN 1
        (parser.first asciiLib 1 [] (str "a // c\nb") ParseComments)) = .ok () q ∧
      (parser.nextN 1
        (parser.first asciiLib 1 [] (str "a // c\nb") ParseComments)).scanner.Scan = some r ∧
      q.tok ≠ .COMMENT ∧
      q.comments = (parser.nextN 1
        (parser.first asciiLib 1 [] (str "a // c\nb") ParseComments)).comments ++ gs ∧
      (r.tok = .COMMENT ↔ gs ≠ []) ∧
      (∀ g, gs.head? = some g → g.List.head? = some ⟨r.pos, r.lit⟩) ∧
      q.lineComment = lineCommentOf q.file (parser.nextN 1
        (parser.first asciiLib 1 [] (str "a // c\nb") ParseComments)).pos q.pos q.tok gs :=
  ⟨⟨parser.nextN_inv _ _ (parser.first_inv _ _ _ _ _), by decide!, by decide!⟩, by decide!,
    next_lineComment _ (parser.nextN_inv _ _ (parser.first_inv _ _ _ _ _)) (by decide!)
      (by decide!)⟩

theorem Scanner.clear_logged (s : Scanner) : s.clear.logged s.errs = s := by
  cases s
  simp [Scanner.clear, Scanner.logged]

theorem Scanner.logged_clear (g : ErrorList) (s : Scanner) : (s.logged g).clear = s.clear := rfl

/-- What `Scan` returns does not depend on the errors recorded. -/
theorem Scanner.Scan_clear {s t : Scanner} (h : s.clear = t.clear) {r : ScanResult}
    (e : s.Scan = some r) :
    ∃ r1, t.Scan = some r1 ∧ r1.pos = r.pos ∧ r1.tok = r.tok ∧ r1.lit = r.lit ∧
      r1.s.clear = r.s.clear := by
  have hs : s.Scan = s.clear.Scan.map (ScanResult.logged s.errs) := by
    conv_lhs => rw [← Scanner.clear_logged s]
    exact Scanner.Scan_logged _ _
  have ht : t.Scan = t.clear.Scan.map (ScanResult.logged t.errs) := by
    conv_lhs => rw [← Scanner.clear_logged t]
    exact Scanner.Scan_logged _ _
  rw [hs] at e
  rw [ht, ← h]
  cases hc : s.clear.Scan with
  | none =>
    rw [hc] at e
    cases e
  | some r0 =>
    rw [hc] at e
    cases e
    exact ⟨_, rfl, rfl, rfl, rfl, rfl⟩
/-- The errors that a call of `Scan` adds do not depend on the errors recorded
before. -/
theorem Scanner.Scan_errs {s t : Scanner} (h : s.clear = t.clear) {r r1 : ScanResult}
    (e : s.Scan = some r) (e1 : t.Scan = some r1) :
    ∃ d, r.s.errs = s.errs ++ d ∧ r1.s.errs = t.errs ++ d := by
  have hs : s.Scan = s.clear.Scan.map (ScanResult.logged s.errs) := by
    conv_lhs => rw [← Scanner.clear_logged s]
    exact Scanner.Scan_logged _ _
  have ht : t.Scan = t.clear.Scan.map (ScanResult.logged t.errs) := by
    conv_lhs => rw [← Scanner.clear_logged t]
    exact Scanner.Scan_logged _ _
  rw [hs] at e
  rw [ht, ← h] at e1
  cases hc : s.clear.Scan with
  | none =>
    rw [hc] at e
    cases e
  | some r0 =>
    rw [hc] at e e1
    cases e
    cases e1
    exact ⟨r0.s.errs, rfl, rfl⟩

theorem Scanner.after_inv : ∀ (k : Nat) (s : Scanner), s.Inv →
    (s.after k).Inv ∧ (s.after k).mode = s.mode ∧ (s.after k).file.base = s.file.base ∧
      s.offset ≤ (s.after k).offset := by
  intro k
  induction k with
  | zero => exact fun s hs => ⟨hs, rfl, rfl, le_refl _⟩
  | succ k ih =>
    intro s hs
    obtain ⟨r, e, pr⟩ := Scanner.Scan_post hs
    unfold Scanner.after
    rw [e]
    simp only
    obtain ⟨a1, a2, a3, a4⟩ := ih r.s pr.inv
    have b1 := pr.posLo
    have b2 := pr.posHi
    have b3 := pr.base
    exact ⟨a1, a2.trans pr.mode, a3.trans pr.base, by omega⟩

/-- One more call of `Scan`, at the end. -/
theorem Scanner.after_succ : ∀ (k : Nat) (s : Scanner), s.Inv →
    ∃ r, (s.after k).Scan = some r ∧ s.after (k + 1) = r.s ∧
      s.commentsIn (k + 1) = s.commentsIn k ++ r.comment := by
  intro k
  induction k with
  | zero =>
    intro s hs
    obtain ⟨r, e, pr⟩ := Scanner.Scan_post hs
    refine ⟨r, e, ?_, ?_⟩
    · show Scanner.after 1 s = _
      unfold Scanner.after
      rw [e]
      rfl
    · unfold Scanner.commentsIn
      rw [e]
      simp [Scanner.commentsIn]
  | succ k ih =>
    intro s hs
    obtain ⟨r, e, pr⟩ := Scanner.Scan_post hs
    obtain ⟨r1, e1, a1, a2⟩ := ih r.s pr.inv
    refine ⟨r1, ?_, ?_, ?_⟩
    · unfold Scanner.after
      rw [e]
      exact e1
    · conv_lhs => unfold Scanner.after
      rw [e]
      exact a1
    · conv_lhs => unfold Scanner.commentsIn
      conv_rhs => unfold Scanner.commentsIn
      rw [e]
      simp only
      rw [a2, List.append_assoc]

theorem Scanner.commentsIn_sorted : ∀ (k : Nat) (s : Scanner), s.Inv →
    (s.commentsIn k).Pairwise (fun a b => a.Slash < b.Slash) ∧
      ∀ c ∈ s.commentsIn k, s.file.base + s.offset ≤ c.Slash := by
  intro k
  induction k with
  | zero =>
    intro s _
    simp [Scanner.commentsIn]
  | succ k ih =>
    intro s hs
    obtain ⟨r, e, pr⟩ := Scanner.Scan_post hs
    obtain ⟨a1, a2⟩ := ih r.s pr.inv
    unfold Scanner.commentsIn
    rw [e]
    simp only
    have b1 := pr.posLo
    have b2 := pr.posHi
    have b3 := pr.base
    unfold ScanResult.comment
    by_cases hc : r.tok = .COMMENT
    · rw [if_pos hc]
      have b4 := pr.adv hc
      refine ⟨?_, ?_⟩
      · rw [List.singleton_append, List.pairwise_cons]
        refine ⟨fun c hcm => ?_, a1⟩
        have := a2 c hcm
        show r.pos < c.Slash
        omega
      · intro c hcm
        rw [List.singleton_append] at hcm
        rcases List.mem_cons.mp hcm with h | h
        · rw [h]
          exact b1
        · have := a2 c h
          omega
    · rw [if_neg hc, List.nil_append]
      refine ⟨a1, fun c hcm => ?_⟩
      have := a2 c hcm
      omega

theorem Scanner.Scan_no_comment {s : Scanner} (hs : s.Inv) (hm : s.mode &&& ScanComments = 0)
    (hd : s.mode &&& dontInsertSemis = 0) {r : ScanResult} (e : s.Scan = some r) :
    r.tok ≠ .COMMENT :=
  ScanLoop_no_comment _ s r hs hm (fun h => absurd hd h) e

theorem Scanner.commentsIn_none : ∀ (k : Nat) (s : Scanner), s.Inv →
    s.mode &&& ScanComments = 0 → s.mode &&& dontInsertSemis = 0 → s.commentsIn k = [] := by
  intro k
  induction k with
  | zero => exact fun _ _ _ _ => rfl
  | succ k ih =>
    intro s hs hm hd
    obtain ⟨r, e, pr⟩ := Scanner.Scan_post hs
    unfold Scanner.commentsIn
    rw [e]
    simp only
    rw [ih r.s pr.inv (by rw [pr.mode]; exact hm) (by rw [pr.mode]; exact hd)]
    unfold ScanResult.comment
    rw [if_neg (Scanner.Scan_no_comment hs hm hd e)]
    rfl

/-- After `EOF` no more comments come. -/
theorem Scanner.commentsIn_eof (s : Scanner) (hs : s.Inv) (k : Nat)
    (h1 : (s.after k).ch = eof) (h2 : (s.after k).insertSemi = false) :
    ∀ n, s.commentsIn (k + n) = s.commentsIn k := by
  have key : ∀ n, (s.after (k + n)).ch = eof ∧ (s.after (k + n)).insertSemi = false ∧
      s.commentsIn (k + n) = s.commentsIn k := by
    intro n
    induction n with
    | zero => exact ⟨h1, h2, rfl⟩
    | succ n ih =>
      obtain ⟨c1, c2, c3⟩ := ih
      obtain ⟨r, e, a1, a2⟩ := Scanner.after_succ (k + n) s hs
      obtain ⟨r2, e2, ht, pr⟩ := Scanner.Scan_eof (Scanner.after_inv (k + n) s hs).1 c1 c2
      rw [e] at e2
      cases e2
      have : k + (n + 1) = k + n + 1 := rfl
      rw [this, a1, a2, c3]
      refine ⟨(pr.atEnd ht).1, (pr.atEnd ht).2, ?_⟩
      unfold ScanResult.comment
      rw [if_neg (by rw [ht]; decide), List.append_nil]
  exact fun n => (key n).2.2
theorem commentsOf_append (a b : List CommentGroup) :
    commentsOf (a ++ b) = commentsOf a ++ commentsOf b := by
  simp [commentsOf]

theorem commentsOf_single (g : CommentGroup) : commentsOf [g] = g.List := by
  simp [commentsOf]

namespace parser

theorem Pending.mode {S0 : Scanner} {p : parser} {pend : List Comment}
    (h : p.Pending S0 pend) : p.scanner.mode = S0.mode := by
  have h1 : p.scanner.clear.mode = (S0.after p.nscan).clear.mode := by rw [h.scan]
  exact h1.trans (Scanner.after_inv _ _ h.src).2.1

theorem cur_clean {p : parser} (h : p.tok ≠ .COMMENT) : p.cur = [] := by
  unfold parser.cur
  rw [if_neg h]

theorem cur_comment {p : parser} (h : p.tok = .COMMENT) : p.cur = [⟨p.pos, p.lit⟩] := by
  unfold parser.cur
  rw [if_pos h]

theorem next0_pending {S0 : Scanner} {p : parser} {pend : List Comment}
    (h : p.Pending S0 pend) :
    ∃ q, next0 p = .ok () q ∧ q.Pending S0 (pend ++ p.cur) ∧ q.comments = p.comments ∧
      q.leadComment = p.leadComment ∧ q.lineComment = p.lineComment ∧
      (S0.mode &&& ScanComments = 0 → q.tok ≠ .COMMENT) := by
  obtain ⟨r, e, pr⟩ := Scanner.Scan_post h.inv.scan
  obtain ⟨r0, e0, a1, a2⟩ := Scanner.after_succ p.nscan S0 h.src
  obtain ⟨r1, e1, b1, b2, b3, b4⟩ := Scanner.Scan_clear h.scan e
  rw [e0] at e1
  cases e1
  obtain ⟨d, d1, d2⟩ := Scanner.Scan_errs h.scan e e0
  have key : ∀ q : parser, q.scanner = r.s → q.pos = r.pos → q.tok = r.tok → q.lit = r.lit →
      q.nscan = p.nscan + 1 → q.comments = p.comments → q.Pending S0 (pend ++ p.cur) := by
    intro q q1 q2 q3 q4 q5 q6
    refine ⟨h.src, h.semis, ⟨by rw [q1]; exact pr.inv, by rw [q1, q3]; exact pr.atEnd,
      by rw [q1, q2]; exact pr.posHi⟩, ?_, ?_, by rw [q6]; exact h.full, ?_⟩
    · rw [q1, q5, a1, b4]
    · rw [q5, a2, h.coll, q6]
      have hc : r0.comment = q.cur := by
        unfold ScanResult.comment parser.cur
        rw [b1, b2, b3, q2, q3, q4]
      rw [hc]
      simp only [List.append_assoc]
    · intro x hx
      show x ∈ q.scanner.errs
      rw [q5, a1, d2] at hx
      rw [q1, d1]
      rcases List.mem_append.mp hx with hx | hx
      · exact List.mem_append_left _ (h.heard x hx)
      · exact List.mem_append_right _ hx
  obtain ⟨q, hq⟩ : ∃ q : parser, q = { p with scanner := r.s, pos := r.pos, tok := r.tok, lit := r.lit, nscan := p.nscan + 1 } := ⟨_, rfl⟩
  refine ⟨q, ?_, key q (by rw [hq]) (by rw [hq]) (by rw [hq]) (by rw [hq]) (by rw [hq])
    (by rw [hq]), by rw [hq], by rw [hq], by rw [hq], fun hm => ?_⟩
  · unfold next0
    simp only [e]
    rw [hq]
  · rw [hq]
    show r.tok ≠ .COMMENT
    exact Scanner.Scan_no_comment h.inv.scan (by rw [h.mode]; exact hm)
      (by rw [h.mode]; exact h.semis) e

theorem consumeComment_pending {S0 : Scanner} {p : parser} {pend : List Comment}
    (h : p.Pending S0 pend) :
    ∃ e q, consumeComment p = .ok (⟨p.pos, p.lit⟩, e) q ∧ q.Pending S0 (pend ++ p.cur) ∧
      q.comments = p.comments ∧ q.leadComment = p.leadComment ∧
      q.lineComment = p.lineComment := by
  obtain ⟨q, e, a1, a2, a3, a4, _⟩ := next0_pending h
  refine ⟨Int.ofNat (Comment.endLine p.file ⟨p.pos, p.lit⟩), q, ?_, a1, a2, a3, a4⟩
  unfold consumeComment
  simp only [e]
  unfold Comment.endLine
  split_ifs <;> simp

theorem groupLoop_pending {S0 : Scanner} (n : Nat) : ∀ (fuel : Nat) (list : List Comment)
    (endline : Int) (p q : parser) (list1 : List Comment) (e1 : Int), p.Pending S0 list →
    consumeCommentGroupLoop n fuel list endline p = .ok (list1, e1) q →
    q.Pending S0 list1 ∧ q.comments = p.comments ∧ q.leadComment = p.leadComment ∧
      q.lineComment = p.lineComment := by
  intro fuel
  induction fuel with
  | zero =>
    intro list endline p q list1 e1 _ h
    cases h
  | succ fuel ih =>
    intro list endline p q list1 e1 hp h
    unfold consumeCommentGroupLoop at h
    by_cases hc : p.tok = .COMMENT ∧ Int.ofNat (p.file.Line p.pos) ≤ endline + Int.ofNat n
    · rw [if_pos hc] at h
      obtain ⟨e, p1, ec, a1, a2, a3, a4⟩ := consumeComment_pending hp
      rw [ec] at h
      rw [cur_comment hc.1] at a1
      obtain ⟨b1, b2, b3, b4⟩ := ih _ _ p1 q list1 e1 a1 h
      exact ⟨b1, b2.trans a2, b3.trans a3, b4.trans a4⟩
    · rw [if_neg hc] at h
      cases h
      exact ⟨hp, rfl, rfl, rfl⟩

theorem group_pending {S0 : Scanner} (n : Nat) {p q : parser} {g : CommentGroup} {e : Int}
    (hp : p.Pending S0 []) (ht : p.tok = .COMMENT)
    (h : consumeCommentGroup n p = .ok (g, e) q) :
    q.Pending S0 [] ∧ q.comments = p.comments ++ [g] ∧ g.List ≠ [] ∧
      q.leadComment = p.leadComment ∧ q.lineComment = p.lineComment ∧ q.tok = q.tok := by
  have hne : g.List ≠ [] := by
    have := (group_trace n p q g e hp.inv ht h).1
    intro h0
    rw [h0] at this
    cases this
  unfold consumeCommentGroup at h
  split at h
  next list endline p1 hl =>
    cases h
    obtain ⟨a1, a2, a3, a4⟩ := groupLoop_pending n _ _ _ p p1 list e hp hl
    refine ⟨⟨a1.src, a1.semis, a1.inv.of_same rfl rfl rfl, a1.scan, ?_, ?_, a1.heard⟩,
      (by show p1.comments ++ _ = _; rw [a2]), hne, a3, a4, rfl⟩
    · show S0.commentsIn p1.nscan = commentsOf (p1.comments ++ [⟨list⟩]) ++ [] ++ p1.cur
      rw [a1.coll, commentsOf_append, commentsOf_single, List.append_nil]
    · intro g1 hg1
      rcases List.mem_append.mp hg1 with h1 | h1
      · exact a1.full g1 h1
      · rw [List.mem_singleton.mp h1]
        exact hne
  next => cases h
  next => cases h

theorem nextLoop_pending {S0 : Scanner} : ∀ (fuel : Nat) (comment : Option CommentGroup)
    (endline : Int) (p q : parser) (c2 : Option CommentGroup) (e2 : Int), p.Pending S0 [] →
    nextLoop fuel comment endline p = .ok (c2, e2) q →
    q.Pending S0 [] ∧ q.tok ≠ .COMMENT ∧ q.leadComment = p.leadComment ∧
      q.lineComment = p.lineComment := by
  intro fuel
  induction fuel with
  | zero =>
    intro comment endline p q c2 e2 _ h
    cases h
  | succ fuel ih =>
    intro comment endline p q c2 e2 hp h
    unfold nextLoop at h
    by_cases ht : p.tok = .COMMENT
    · rw [if_pos ht] at h
      split at h
      next g e p1 hg =>
        obtain ⟨a1, a2, a3, a4, a5, _⟩ := group_pending 1 hp ht hg
        obtain ⟨b1, b2, b3, b4⟩ := ih _ _ p1 q c2 e2 a1 h
        exact ⟨b1, b2, b3.trans a4, b4.trans a5⟩
      next => cases h
      next => cases h
    · rw [if_neg ht] at h
      cases h
      exact ⟨hp, ht, rfl, rfl⟩

end parser
namespace parser

theorem Pending.sameFields {S0 : Scanner} {p q : parser} {pend : List Comment}
    (h : p.Pending S0 pend) (h1 : q.scanner = p.scanner) (h2 : q.tok = p.tok)
    (h3 : q.pos = p.pos) (h4 : q.lit = p.lit) (h5 : q.nscan = p.nscan)
    (h6 : q.comments = p.comments) : q.Pending S0 pend := by
  refine ⟨h.src, h.semis, h.inv.of_same h1 h2 h3, by rw [h1, h5]; exact h.scan, ?_,
    by rw [h6]; exact h.full,
    by show ∀ e ∈ (S0.after q.nscan).errs, e ∈ q.scanner.errs; rw [h1, h5]; exact h.heard⟩
  have hc : q.cur = p.cur := by
    unfold parser.cur
    rw [h2, h3, h4]
  rw [h5, h6, hc]
  exact h.coll

/-- A state that differs from a collected one in the errors recorded, the
fields of `advance` and the import list at most is collected. -/
theorem Collected.sameState {S0 : Scanner} {p q : parser} (h : p.Collected S0)
    (hi : q.Inv) (h1 : q.scanner.clear = p.scanner.clear) (h2 : q.tok = p.tok)
    (h3 : q.pos = p.pos) (h4 : q.lit = p.lit) (h5 : q.nscan = p.nscan)
    (h6 : q.comments = p.comments) (h7 : q.leadComment = p.leadComment)
    (h8 : q.lineComment = p.lineComment) (h9 : ∀ e ∈ p.errors, e ∈ q.errors) :
    q.Collected S0 := by
  refine ⟨⟨h.pend.src, h.pend.semis, hi, by rw [h1, h5]; exact h.pend.scan, ?_,
    by rw [h6]; exact h.pend.full,
    fun e he => h9 e (h.pend.heard e (by rw [← h5]; exact he))⟩,
    by rw [h2]; exact h.clean, by rw [h7, h8]; exact h.nodoc⟩
  have hc : q.cur = p.cur := by
    unfold parser.cur
    rw [h2, h3, h4]
  rw [h5, h6, hc]
  exact h.pend.coll

theorem next_collected {S0 : Scanner} {p q : parser} (hp : p.Collected S0)
    (h : next p = .ok () q) : q.Collected S0 := by
  have hP : ({ p with leadComment := none, lineComment := none } : parser).Pending S0 [] :=
    hp.pend.sameFields rfl rfl rfl rfl rfl rfl
  obtain ⟨p1, e, a1, a2, a3, a4, a5⟩ := next0_pending hP
  have hcl : parser.cur { p with leadComment := none, lineComment := none } = [] :=
    cur_clean hp.clean
  rw [hcl, List.append_nil] at a1
  have a3 : p1.leadComment = none := a3
  have a4 : p1.lineComment = none := a4
  unfold next at h
  simp only [e] at h
  clear e hP hcl
  by_cases hc : p1.tok = .COMMENT
  · have hN : ¬ S0.mode &&& ScanComments = 0 := fun hm => a5 hm hc
    rw [if_pos hc] at h
    have tail : ∀ (p2 p3 q : parser) (c2 : Option CommentGroup), p2.Pending S0 [] →
        p3.Pending S0 [] → p3.tok ≠ .COMMENT → q.scanner = p3.scanner → q.tok = p3.tok →
        q.pos = p3.pos → q.lit = p3.lit → q.nscan = p3.nscan → q.comments = p3.comments →
        q.Collected S0 := by
      intro p2 p3 q c2 _ h3 hcl q1 q2 q3 q4 q5 q6
      exact ⟨h3.sameFields q1 q2 q3 q4 q5 q6, by rw [q2]; exact hcl, fun hm => absurd hm hN⟩
    by_cases hs : p1.file.Line p1.pos = p1.file.Line p.pos
    · rw [if_pos hs] at h
      split at h
      next => cases h
      next => cases h
      next comment p1x hfirst =>
        split at hfirst
        next g0 e1 p2 hg =>
          obtain ⟨b1, _⟩ := group_pending 0 a1 hc hg
          have hx : p1x.Pending S0 [] := by
            split_ifs at hfirst
            · cases hfirst
              exact b1.sameFields rfl rfl rfl rfl rfl rfl
            · cases hfirst
              exact b1
          split at h
          next => cases h
          next => cases h
          next c2 e2 p3 hn =>
            obtain ⟨d1, d2, _⟩ := nextLoop_pending _ _ _ p1x p3 c2 e2 hx hn
            split_ifs at h
            · cases h
              exact tail p1x _ _ c2 hx d1 d2 rfl rfl rfl rfl rfl rfl
            · cases h
              exact tail p1x _ _ c2 hx d1 d2 rfl rfl rfl rfl rfl rfl
        next => cases hfirst
        next => cases hfirst
    · rw [if_neg hs] at h
      simp only at h
      split at h
      next => cases h
      next => cases h
      next c2 e2 p3 hn =>
        obtain ⟨d1, d2, _⟩ := nextLoop_pending _ _ _ p1 p3 c2 e2 a1 hn
        split_ifs at h
        · cases h
          exact tail p1 _ _ c2 a1 d1 d2 rfl rfl rfl rfl rfl rfl
        · cases h
          exact tail p1 _ _ c2 a1 d1 d2 rfl rfl rfl rfl rfl rfl
  · rw [if_neg hc] at h
    cases h
    exact ⟨a1, hc, fun _ => ⟨a3, a4⟩⟩

end parser

namespace Res

theorem Keeps.ret {α : Type} {S0 : Scanner} {V : α → Prop} {p : parser} {a : α}
    (hp : p.Collected S0) (ha : V a) : Res.Keeps S0 V ((pure a : P α) p) := ⟨hp, ha⟩

theorem Keeps.seq {α β : Type} {S0 : Scanner} {V1 : α → Prop} {V : β → Prop} {m : P α}
    {f : α → P β} {p : parser} (h1 : Res.Keeps S0 V1 (m p))
    (h2 : ∀ a q, q.Collected S0 → V1 a → Res.Keeps S0 V (f a q)) :
    Res.Keeps S0 V ((m >>= f) p) := by
  rw [P.bind_apply]
  unfold P.bind
  cases hm : m p with
  | ok a q =>
    rw [hm] at h1
    exact h2 a q h1.1 h1.2
  | panicked e q => exact trivial
  | outOfFuel => exact trivial

theorem Keeps.atState {β : Type} {S0 : Scanner} {V : β → Prop} {f : parser → P β}
    {p : parser} (h : Res.Keeps S0 V (f p p)) : Res.Keeps S0 V ((getP >>= f) p) := h

theorem Keeps.weaker {α : Type} {S0 : Scanner} {V1 V : α → Prop} {r : Res α}
    (h : Res.Keeps S0 V1 r) (hv : ∀ a, V1 a → V a) : Res.Keeps S0 V r := by
  cases r with
  | ok a q => exact ⟨h.1, hv a h.2⟩
  | panicked e q => exact trivial
  | outOfFuel => exact trivial

/-- What a run that kept the comments returned. -/
theorem Keeps.of_ok {α : Type} {S0 : Scanner} {V : α → Prop} {r : Res α} {a : α} {q : parser}
    (h : Res.Keeps S0 V r) (e : r = .ok a q) : q.Collected S0 ∧ V a := by
  rw [e] at h
  exact h

end Res
namespace Res

/-- The run goes on after a method that kept the comments has returned. -/
theorem Keeps.goOn {α β : Type} {S0 : Scanner} {V1 : α → Prop} {V : β → Prop} {r1 : Res α}
    {r : Res β} {a : α} {q : parser} (g : Res.Keeps S0 V1 r1) (h : r1 = .ok a q)
    (k : q.Collected S0 → V1 a → Res.Keeps S0 V r) : Res.Keeps S0 V r :=
  k (g.of_ok h).1 (g.of_ok h).2

theorem Keeps.pure_bind {α β : Type} {S0 : Scanner} {V : β → Prop} {a : α} {f : α → P β}
    {p : parser} (h : Res.Keeps S0 V (f a p)) : Res.Keeps S0 V ((Pure.pure a >>= f) p) := h

end Res

namespace parser

theorem next_keeps {S0 : Scanner} (p : parser) (hp : p.Collected S0) :
    Res.Keeps S0 (fun _ => True) (next p) := by
  cases h : next p with
  | ok a q => exact ⟨next_collected hp h, trivial⟩
  | panicked e q => exact trivial
  | outOfFuel => exact trivial

theorem addError_collected {S0 : Scanner} {p : parser} (hp : p.Collected S0)
    (epos : Position) (msg : GoString) : (p.addError epos msg).Collected S0 :=
  hp.sameState (addError_inv hp.pend.inv epos msg) rfl rfl rfl rfl rfl rfl rfl rfl
    (fun _ he => List.mem_append_left _ he)

theorem error_keeps {S0 : Scanner} (pos : Nat) (msg : GoString) (p : parser)
    (hp : p.Collected S0) : Res.Keeps S0 (fun _ => True) (error pos msg p) := by
  unfold error
  simp only
  split_ifs
  · exact ⟨hp, trivial⟩
  · exact trivial
  · exact ⟨addError_collected hp _ _, trivial⟩
  · exact ⟨addError_collected hp _ _, trivial⟩

theorem errorExpected_keeps {S0 : Scanner} (pos : Nat) (msg : GoString) (p : parser)
    (hp : p.Collected S0) : Res.Keeps S0 (fun _ => True) (errorExpected pos msg p) := by
  unfold errorExpected
  exact error_keeps _ _ p hp

theorem expect_keeps {S0 : Scanner} (tok : Token) (p : parser) (hp : p.Collected S0) :
    Res.Keeps S0 (fun _ => True) (expect tok p) := by
  unfold expect
  refine Res.Keeps.atState ?_
  have tail : ∀ (q : parser), q.Collected S0 →
      Res.Keeps S0 (fun _ => True) ((next >>= fun _ => (pure p.pos : P Nat)) q) := fun q hq =>
    Res.Keeps.seq (next_keeps q hq) (fun _ q2 h2 _ => Res.Keeps.ret h2 trivial)
  split_ifs
  · exact Res.Keeps.seq (errorExpected_keeps _ _ p hp) (fun _ q hq _ => tail q hq)
  · exact tail p hp

theorem advanceLoop_keeps {S0 : Scanner} (to_ : Token → Bool) : ∀ (fuel : Nat) (p : parser),
    p.Collected S0 → Res.Keeps S0 (fun _ => True) (advanceLoop to_ fuel p) := by
  intro fuel
  induction fuel with
  | zero => exact fun _ _ => trivial
  | succ fuel ih =>
    intro p hp
    have step : Res.Keeps S0 (fun _ => True)
        (match next p with
          | .ok _ p1 => advanceLoop to_ fuel p1
          | .panicked e p1 => .panicked e p1
          | .outOfFuel => .outOfFuel) := by
      have g := next_keeps p hp
      split
      next _ q h => exact Res.Keeps.goOn g h (fun hq _ => ih q hq)
      next => exact trivial
      next => exact trivial
    unfold advanceLoop
    split_ifs
    · exact ⟨hp.sameState (hp.pend.inv.of_same rfl rfl rfl) rfl rfl rfl rfl rfl rfl rfl rfl
        (fun _ he => he), trivial⟩
    · exact ⟨hp.sameState (hp.pend.inv.of_same rfl rfl rfl) rfl rfl rfl rfl rfl rfl rfl rfl
        (fun _ he => he), trivial⟩
    · exact step
    · exact step
    · exact ⟨hp, trivial⟩

theorem advance_keeps {S0 : Scanner} (to_ : Token → Bool) (p : parser)
    (hp : p.Collected S0) : Res.Keeps S0 (fun _ => True) (advance to_ p) := by
  unfold advance
  exact advanceLoop_keeps to_ _ p hp

theorem expectSemi_keeps {S0 : Scanner} (p : parser) (hp : p.Collected S0) :
    Res.Keeps S0 (fun _ => True) (expectSemi p) := by
  unfold expectSemi
  refine Res.Keeps.atState ?_
  split_ifs
  · exact Res.Keeps.seq (errorExpected_keeps _ _ p hp) (fun _ q hq _ => next_keeps q hq)
  · exact next_keeps p hp
  · exact Res.Keeps.seq (errorExpected_keeps _ _ p hp) (fun _ q hq _ => advance_keeps _ q hq)
  · exact Res.Keeps.ret hp trivial

theorem parseIdent_keeps {S0 : Scanner} (p : parser) (hp : p.Collected S0) :
    Res.Keeps S0 (fun _ => True) (parseIdent p) := by
  unfold parseIdent
  refine Res.Keeps.atState ?_
  split_ifs
  · exact Res.Keeps.seq (next_keeps p hp) (fun _ q hq _ => Res.Keeps.ret hq trivial)
  · exact Res.Keeps.seq (expect_keeps _ p hp) (fun _ q hq _ => Res.Keeps.ret hq trivial)

theorem expectSemi_pure_keeps {S0 : Scanner} {α : Type} {V : α → Prop} (a : α) (ha : V a)
    (p : parser) (hp : p.Collected S0) :
    Res.Keeps S0 V ((expectSemi >>= fun _ => (pure a : P α)) p) :=
  Res.Keeps.seq (expectSemi_keeps p hp) (fun _ _ hq _ => Res.Keeps.ret hq ha)

theorem parseSyntax_keeps {S0 : Scanner} (p : parser) (hp : p.Collected S0) :
    Res.Keeps S0 (fun _ => True) (parseSyntax p) := by
  unfold parseSyntax
  refine Res.Keeps.seq (expect_keeps _ p hp) (fun _ q1 h1 _ => ?_)
  refine Res.Keeps.seq (expect_keeps _ q1 h1) (fun _ q2 h2 _ => ?_)
  refine Res.Keeps.atState ?_
  split_ifs
  · exact Res.Keeps.seq (next_keeps q2 h2)
      (fun _ q hq _ => Res.Keeps.pure_bind (expectSemi_pure_keeps _ trivial q hq))
  · exact Res.Keeps.seq (expect_keeps _ q2 h2)
      (fun _ q hq _ => Res.Keeps.pure_bind (expectSemi_pure_keeps _ trivial q hq))

theorem apiPathLoop_keeps {S0 : Scanner} : ∀ (fuel : Nat) (name : GoString) (p : parser),
    p.Collected S0 → Res.Keeps S0 (fun _ => True) (apiPathLoop fuel name p) := by
  intro fuel
  induction fuel with
  | zero => exact fun _ _ _ => trivial
  | succ fuel ih =>
    intro name p hp
    unfold apiPathLoop
    by_cases h0 : p.tok ≠ .EOF
    · rw [if_pos h0]
      have g := next_keeps p hp
      simp only
      generalize (if p.tok = .QUO ∨ p.tok = .COLON then name ++ p.tok.String
        else name ++ p.lit) = name1
      split
      next _ q h =>
        refine Res.Keeps.goOn g h (fun hq _ => ?_)
        split_ifs
        · exact ⟨hq, trivial⟩
        · exact ih _ q hq
      next => exact trivial
      next => exact trivial
    · rw [if_neg h0]
      exact ⟨hp, trivial⟩

theorem apiSubLoop_keeps {S0 : Scanner} : ∀ (fuel : Nat) (name : GoString) (p : parser),
    p.Collected S0 → Res.Keeps S0 (fun _ => True) (apiSubLoop fuel name p) := by
  intro fuel
  induction fuel with
  | zero => exact fun _ _ _ => trivial
  | succ fuel ih =>
    intro name p hp
    unfold apiSubLoop
    split_ifs
    · have g := next_keeps p hp
      split
      next _ q h =>
        refine Res.Keeps.goOn g h (fun hq _ => ?_)
        have g2 := next_keeps q hq
        split
        next _ q2 h2 => exact Res.Keeps.goOn g2 h2 (fun hq2 _ => ih _ q2 hq2)
        next => exact trivial
        next => exact trivial
      next => exact trivial
      next => exact trivial
    · exact ⟨hp, trivial⟩

theorem parseApiIdent_keeps {S0 : Scanner} (p : parser) (hp : p.Collected S0) :
    Res.Keeps S0 (fun _ => True) (parseApiIdent p) := by
  unfold parseApiIdent
  simp only
  split_ifs
  · have g := apiPathLoop_keeps p.fuel [] p hp
    split
    next _ q h => exact Res.Keeps.goOn g h (fun hq _ => ⟨hq, trivial⟩)
    next => exact trivial
    next => exact trivial
  · have g := next_keeps p hp
    split
    next _ q h => exact Res.Keeps.goOn g h (fun hq _ => ⟨hq, trivial⟩)
    next => exact trivial
    next => exact trivial
  · have g := next_keeps p hp
    split
    next _ q h =>
      refine Res.Keeps.goOn g h (fun hq _ => ?_)
      have g2 := apiSubLoop_keeps q.fuel p.lit q hq
      split
      next _ q2 h2 => exact Res.Keeps.goOn g2 h2 (fun hq2 _ => ⟨hq2, trivial⟩)
      next => exact trivial
      next => exact trivial
    next => exact trivial
    next => exact trivial
  · have g := expect_keeps .IDENT p hp
    split
    next _ q h => exact Res.Keeps.goOn g h (fun hq _ => ⟨hq, trivial⟩)
    next => exact trivial
    next => exact trivial

theorem modP_keeps {S0 : Scanner} (f : parser → parser) (p : parser) (hp : p.Collected S0)
    (h1 : (f p).scanner = p.scanner) (h2 : (f p).tok = p.tok) (h3 : (f p).pos = p.pos)
    (h4 : (f p).lit = p.lit) (h5 : (f p).nscan = p.nscan) (h6 : (f p).comments = p.comments)
    (h7 : (f p).leadComment = p.leadComment) (h8 : (f p).lineComment = p.lineComment) :
    Res.Keeps S0 (fun _ => True) (modP f p) :=
  ⟨hp.sameState (hp.pend.inv.of_same h1 h2 h3) (by rw [h1]) h2 h3 h4 h5 h6 h7 h8
    (by show ∀ e ∈ p.scanner.errs, e ∈ (f p).scanner.errs; rw [h1]; exact fun _ he => he),
    trivial⟩

theorem parseImportSpec_keeps {S0 : Scanner} (doc : Option CommentGroup)
    (hdoc : S0.mode &&& ScanComments = 0 → doc = none) (p : parser) (hp : p.Collected S0) :
    Res.Keeps S0 (fun s => S0.NoDoc s.noDocs) (parseImportSpec doc p) := by
  unfold parseImportSpec
  refine Res.Keeps.atState ?_
  have tail : ∀ (path : GoString) (q : parser), q.Collected S0 →
      Res.Keeps S0 (fun s => S0.NoDoc s.noDocs)
      ((do
        expectSemi
        let p1 ← getP
        let spec : ImportSpec := ⟨doc, ⟨p.pos, .STRING, path⟩, p1.lineComment, 0⟩
        modP (fun q => { q with imports := q.imports ++ [spec] })
        pure (Spec.ImportSpec spec) : P Spec) q) := by
    intro path q hq
    refine Res.Keeps.seq (expectSemi_keeps q hq) (fun _ q2 h2 _ => ?_)
    refine Res.Keeps.atState ?_
    refine Res.Keeps.seq (modP_keeps _ q2 h2 rfl rfl rfl rfl rfl rfl rfl rfl)
      (fun _ q3 h3 _ => Res.Keeps.ret h3 (fun hm => ?_))
    show (Option.isNone doc && Option.isNone q2.lineComment) = true
    rw [hdoc hm, (h2.nodoc hm).2]
    rfl
  have tail1 : ∀ (q : parser), q.Collected S0 → Res.Keeps S0 (fun s => S0.NoDoc s.noDocs)
      ((do
        next
        let y ← pure p.lit
        (fun path => do
          expectSemi
          let p1 ← getP
          let spec : ImportSpec := ⟨doc, ⟨p.pos, .STRING, path⟩, p1.lineComment, 0⟩
          modP (fun q => { q with imports := q.imports ++ [spec] })
          pure (Spec.ImportSpec spec) : GoString → P Spec) y) q) := by
    intro q hq
    exact Res.Keeps.seq (next_keeps q hq)
      (fun _ q2 h2 _ => Res.Keeps.pure_bind (tail _ q2 h2))
  split_ifs
  · exact Res.Keeps.pure_bind (tail1 p hp)
  · exact Res.Keeps.seq (error_keeps _ _ p hp) (fun _ q hq _ => tail1 q hq)
  · exact Res.Keeps.seq (expect_keeps _ p hp)
      (fun _ q2 h2 _ => Res.Keeps.pure_bind (tail _ q2 h2))

theorem parseTypeName_tail_keeps {S0 : Scanner} (ident1 : Ident) (p : parser)
    (hp : p.Collected S0) :
    Res.Keeps S0 (fun x => S0.NoDoc x.noDocs)
      ((do
        let p ← getP
        if p.tok = .PERIOD then
          next
          let sel ← parseIdent
          pure (Expr.SelectorExpr (.Ident ident1) sel)
        else pure (Expr.Ident ident1) : P Expr) p) := by
  refine Res.Keeps.atState ?_
  split_ifs
  · refine Res.Keeps.seq (next_keeps p hp) (fun _ q hq _ => ?_)
    exact Res.Keeps.seq (parseIdent_keeps q hq)
      (fun _ q2 h2 _ => Res.Keeps.ret h2 (fun _ => rfl))
  · exact Res.Keeps.ret hp (fun _ => rfl)

theorem parseTypeName_none_keeps {S0 : Scanner} (p : parser) (hp : p.Collected S0) :
    Res.Keeps S0 (fun x => S0.NoDoc x.noDocs) (parseTypeName none p) := by
  unfold parseTypeName
  exact Res.Keeps.seq (parseIdent_keeps p hp)
    (fun i q hq _ => parseTypeName_tail_keeps i q hq)

theorem parseQualifiedIdent_keeps {S0 : Scanner} (ident : Ident) (p : parser)
    (hp : p.Collected S0) :
    Res.Keeps S0 (fun x => S0.NoDoc x.noDocs) (parseQualifiedIdent ident p) := by
  unfold parseQualifiedIdent parseTypeName
  exact Res.Keeps.pure_bind (parseTypeName_tail_keeps ident p hp)

theorem fieldNamesLoop_keeps {S0 : Scanner} : ∀ (fuel : Nat) (names : List Ident)
    (p : parser), p.Collected S0 →
    Res.Keeps S0 (fun _ => True) (fieldNamesLoop fuel names p) := by
  intro fuel
  induction fuel with
  | zero => exact fun _ _ _ => trivial
  | succ fuel ih =>
    intro names p hp
    unfold fieldNamesLoop
    split_ifs
    · have g := next_keeps p hp
      split
      next _ q h =>
        refine Res.Keeps.goOn g h (fun hq _ => ?_)
        have g2 := parseIdent_keeps q hq
        split
        next _ q2 h2 => exact Res.Keeps.goOn g2 h2 (fun hq2 _ => ih _ q2 hq2)
        next => exact trivial
        next => exact trivial
      next => exact trivial
      next => exact trivial
    · exact ⟨hp, trivial⟩

end parser

theorem Field.allNoDocs_snoc (l : List Field) (f : Field) :
    Field.allNoDocs (l ++ [f]) = (Field.allNoDocs l && f.noDocs) := by
  induction l with
  | nil =>
    show Field.allNoDocs [f] = (Field.allNoDocs [] && f.noDocs)
    simp only [Field.allNoDocs, Bool.and_true, Bool.true_and]
  | cons a l ih =>
    rw [List.cons_append]
    simp only [Field.allNoDocs, ih, Bool.and_assoc]

namespace parser

theorem parseTypeF_keeps {S0 : Scanner} (n : Nat) (ih : TypeKeeps S0 n) (p : parser)
    (hp : p.Collected S0) :
    Res.Keeps S0 (fun x => S0.NoDoc x.noDocs) (parseTypeF (n + 1) p) := by
  unfold parseTypeF
  refine Res.Keeps.seq (ih.tryType p hp) (fun typ q hq hv => ?_)
  cases typ with
  | none =>
    refine Res.Keeps.atState ?_
    refine Res.Keeps.seq (errorExpected_keeps _ _ q hq) (fun _ q2 h2 _ => ?_)
    refine Res.Keeps.seq (advance_keeps _ q2 h2) (fun _ q3 h3 _ => ?_)
    refine Res.Keeps.atState ?_
    exact Res.Keeps.ret h3 (fun _ => rfl)
  | some t => exact Res.Keeps.ret hq hv

theorem parseArrayTypeF_keeps {S0 : Scanner} (n : Nat) (ih : TypeKeeps S0 n) (lbrack : Nat)
    (len : Option Expr) (p : parser) (hp : p.Collected S0)
    (hl : S0.NoDoc (Expr.optNoDocs len)) :
    Res.Keeps S0 (fun x => S0.NoDoc x.noDocs) (parseArrayTypeF (n + 1) lbrack len p) := by
  unfold parseArrayTypeF
  refine Res.Keeps.seq (expect_keeps .LBRACK p hp) (fun _ q hq _ => ?_)
  refine Res.Keeps.seq (ih.typ q hq) (fun t q2 h2 hv => Res.Keeps.ret h2 (fun hm => ?_))
  show (Expr.optNoDocs len && t.noDocs) = true
  rw [hl hm, hv hm]
  rfl

theorem parsePointerTypeF_keeps {S0 : Scanner} (n : Nat) (ih : TypeKeeps S0 n) (p : parser)
    (hp : p.Collected S0) :
    Res.Keeps S0 (fun x => S0.NoDoc x.noDocs) (parsePointerTypeF (n + 1) p) := by
  unfold parsePointerTypeF
  refine Res.Keeps.seq (expect_keeps .MUL p hp) (fun _ q hq _ => ?_)
  exact Res.Keeps.seq (ih.typ q hq) (fun t q2 h2 hv => Res.Keeps.ret h2 hv)

theorem parseMapTypeF_keeps {S0 : Scanner} (n : Nat) (ih : TypeKeeps S0 n) (p : parser)
    (hp : p.Collected S0) :
    Res.Keeps S0 (fun x => S0.NoDoc x.noDocs) (parseMapTypeF (n + 1) p) := by
  unfold parseMapTypeF
  refine Res.Keeps.seq (expect_keeps .MAP p hp) (fun _ q hq _ => ?_)
  refine Res.Keeps.seq (expect_keeps .LBRACK q hq) (fun _ q2 h2 _ => ?_)
  refine Res.Keeps.seq (ih.typ q2 h2) (fun key q3 h3 hk => ?_)
  refine Res.Keeps.seq (expect_keeps .RBRACK q3 h3) (fun _ q4 h4 _ => ?_)
  refine Res.Keeps.seq (ih.typ q4 h4) (fun value q5 h5 hv => Res.Keeps.ret h5 (fun hm => ?_))
  show (key.noDocs && value.noDocs) = true
  rw [hk hm, hv hm]
  rfl

theorem tryIdentOrTypeF_keeps {S0 : Scanner} (n : Nat) (ih : TypeKeeps S0 n) (p : parser)
    (hp : p.Collected S0) :
    Res.Keeps S0 (fun x => S0.NoDoc (Expr.optNoDocs x)) (tryIdentOrTypeF (n + 1) p) := by
  unfold tryIdentOrTypeF
  refine Res.Keeps.atState ?_
  split_ifs with h1 h2 h3 h4 h5 h6
  · exact Res.Keeps.seq (parseTypeName_none_keeps p hp)
      (fun _ q hq hv => Res.Keeps.ret hq hv)
  · refine Res.Keeps.seq (expect_keeps _ p hp) (fun _ q hq _ => ?_)
    exact Res.Keeps.seq (ih.array _ _ q hq (fun _ => rfl))
      (fun _ q2 h2 hv => Res.Keeps.ret h2 hv)
  · exact Res.Keeps.seq (ih.struct p hp) (fun _ q hq hv => Res.Keeps.ret hq hv)
  · exact Res.Keeps.seq (ih.pointer p hp) (fun _ q hq hv => Res.Keeps.ret hq hv)
  · exact Res.Keeps.seq (ih.map p hp) (fun _ q hq hv => Res.Keeps.ret hq hv)
  · refine Res.Keeps.seq (next_keeps p hp) (fun _ q hq _ => ?_)
    refine Res.Keeps.seq (ih.typ q hq) (fun t q2 h2 hv => ?_)
    exact Res.Keeps.seq (expect_keeps _ q2 h2) (fun _ q3 h3 _ => Res.Keeps.ret h3 hv)
  · exact Res.Keeps.ret hp (fun _ => rfl)

theorem parseFieldDeclF_keeps {S0 : Scanner} (n : Nat) (ih : TypeKeeps S0 n) (p : parser)
    (hp : p.Collected S0) :
    Res.Keeps S0 (fun f => S0.NoDoc f.noDocs) (parseFieldDeclF (n + 1) p) := by
  have fin : ∀ (nt : List Ident × Expr) (tag : Option BasicLit) (q2 : parser),
      q2.Collected S0 → S0.NoDoc nt.2.noDocs → Res.Keeps S0 (fun f => S0.NoDoc f.noDocs)
      ((expectSemi >>= fun _ => getP >>= fun p3 =>
        (pure (Field.mk p.leadComment nt.1 nt.2 tag p3.lineComment) : P Field)) q2) := by
    intro nt tag q2 h2 hnt
    refine Res.Keeps.seq (expectSemi_keeps q2 h2) (fun _ q3 h3 _ => ?_)
    refine Res.Keeps.atState ?_
    refine Res.Keeps.ret h3 (fun hm => ?_)
    show (Option.isNone p.leadComment && Option.isNone q3.lineComment && nt.2.noDocs) = true
    rw [(hp.nodoc hm).1, (h3.nodoc hm).2, hnt hm]
    rfl
  have tail : ∀ (nt : List Ident × Expr) (q : parser), q.Collected S0 →
      S0.NoDoc nt.2.noDocs → Res.Keeps S0 (fun f => S0.NoDoc f.noDocs)
      ((do
        let p2 ← getP
        let tag ←
          if p2.tok = .STRING then do
            next
            pure (some (⟨p2.pos, p2.tok, p2.lit⟩ : BasicLit))
          else pure none
        expectSemi
        let p3 ← getP
        pure (Field.mk p.leadComment nt.1 nt.2 tag p3.lineComment) : P Field) q) := by
    intro nt q hq hnt
    refine Res.Keeps.atState ?_
    split_ifs with h
    · exact Res.Keeps.seq (next_keeps q hq)
        (fun _ q2 h2 _ => Res.Keeps.pure_bind (fin nt _ q2 h2 hnt))
    · exact Res.Keeps.pure_bind (fin nt _ q hq hnt)
  unfold parseFieldDeclF
  refine Res.Keeps.atState ?_
  split_ifs with h1
  · refine Res.Keeps.seq (parseIdent_keeps p hp) (fun name q hq _ => ?_)
    refine Res.Keeps.atState ?_
    split_ifs with h2 h3
    · exact Res.Keeps.seq (parseQualifiedIdent_keeps name q hq)
        (fun _ q2 h2 hv => Res.Keeps.pure_bind (tail _ q2 h2 hv))
    · exact Res.Keeps.pure_bind (tail _ q hq (fun _ => rfl))
    · have g : Res.Keeps S0 (fun _ => True)
          ((fun q => fieldNamesLoop q.fuel [name] q : P (List Ident)) q) :=
        fieldNamesLoop_keeps _ _ q hq
      refine Res.Keeps.seq g (fun names q2 h2 _ => ?_)
      exact Res.Keeps.seq (ih.typ q2 h2)
        (fun _ q3 h3 hv => Res.Keeps.pure_bind (tail _ q3 h3 hv))
  · exact Res.Keeps.seq (ih.typ p hp)
      (fun _ q3 h3 hv => Res.Keeps.pure_bind (tail _ q3 h3 hv))

theorem structFieldsF_keeps {S0 : Scanner} (n : Nat) (ih : TypeKeeps S0 n) (list : List Field)
    (p : parser) (hp : p.Collected S0) (hl : S0.NoDoc (Field.allNoDocs list)) :
    Res.Keeps S0 (fun l => S0.NoDoc (Field.allNoDocs l)) (structFieldsF (n + 1) list p) := by
  unfold structFieldsF
  refine Res.Keeps.atState ?_
  split_ifs with h
  · refine Res.Keeps.seq (ih.field p hp) (fun f q hq hv => ?_)
    refine ih.fields _ q hq (fun hm => ?_)
    rw [Field.allNoDocs_snoc, hl hm, hv hm]
    rfl
  · exact Res.Keeps.ret hp hl

theorem parseStructTypeF_keeps {S0 : Scanner} (n : Nat) (ih : TypeKeeps S0 n) (p : parser)
    (hp : p.Collected S0) :
    Res.Keeps S0 (fun x => S0.NoDoc x.noDocs) (parseStructTypeF (n + 1) p) := by
  have tail : ∀ (pl : Nat × Nat) (q : parser), q.Collected S0 →
      Res.Keeps S0 (fun x => S0.NoDoc x.noDocs)
      ((do
        let list ← structFieldsF n []
        let rbrace ← expect .RBRACE
        pure (Expr.StructType pl.1 pl.2 list rbrace) : P Expr) q) := by
    intro pl q hq
    refine Res.Keeps.seq (ih.fields [] q hq (fun _ => rfl)) (fun l q2 h2 hv => ?_)
    exact Res.Keeps.seq (expect_keeps _ q2 h2) (fun _ q3 h3 _ => Res.Keeps.ret h3 hv)
  unfold parseStructTypeF
  refine Res.Keeps.atState ?_
  split_ifs with h1
  · refine Res.Keeps.seq (expect_keeps .STRUCT p hp) (fun _ q hq _ => ?_)
    refine Res.Keeps.seq (expect_keeps .LBRACE q hq) (fun _ q2 h2 _ => ?_)
    exact Res.Keeps.pure_bind (tail _ q2 h2)
  · refine Res.Keeps.seq (expect_keeps .LBRACE p hp) (fun _ q hq _ => ?_)
    exact Res.Keeps.pure_bind (tail _ q hq)

theorem TypeKeeps_all {S0 : Scanner} : ∀ n, TypeKeeps S0 n := by
  intro n
  induction n with
  | zero =>
    exact ⟨fun _ _ => trivial, fun _ _ => trivial, fun _ _ => trivial,
      fun _ _ _ _ => trivial, fun _ _ => trivial, fun _ _ _ _ _ => trivial,
      fun _ _ => trivial, fun _ _ => trivial⟩
  | succ n ih =>
    exact ⟨parseTypeF_keeps n ih, tryIdentOrTypeF_keeps n ih, parseStructTypeF_keeps n ih,
      structFieldsF_keeps n ih, parseFieldDeclF_keeps n ih, parseArrayTypeF_keeps n ih,
      parsePointerTypeF_keeps n ih, parseMapTypeF_keeps n ih⟩

theorem parseType_keeps {S0 : Scanner} (p : parser) (hp : p.Collected S0) :
    Res.Keeps S0 (fun x => S0.NoDoc x.noDocs) (parseType p) :=
  (TypeKeeps_all _).typ p hp

end parser

theorem all_append_single {α : Type} (f : α → Bool) (l : List α) (a : α)
    (h1 : l.all f = true) (h2 : f a = true) : (l ++ [a]).all f = true := by
  rw [List.all_append, h1, List.all_cons, h2]
  rfl

namespace parser

theorem parseTypeSpec_keeps {S0 : Scanner} (doc : Option CommentGroup)
    (hdoc : S0.mode &&& ScanComments = 0 → doc = none) (p : parser) (hp : p.Collected S0) :
    Res.Keeps S0 (fun s => S0.NoDoc s.noDocs) (parseTypeSpec doc p) := by
  unfold parseTypeSpec
  refine Res.Keeps.seq (parseIdent_keeps p hp) (fun ident q hq _ => ?_)
  refine Res.Keeps.seq (parseType_keeps q hq) (fun typ q2 h2 hv => ?_)
  refine Res.Keeps.seq (expectSemi_keeps q2 h2) (fun _ q3 h3 _ => ?_)
  refine Res.Keeps.atState ?_
  refine Res.Keeps.ret h3 (fun hm => ?_)
  show (Option.isNone doc && Option.isNone q3.lineComment && typ.noDocs) = true
  rw [hdoc hm, (h3.nodoc hm).2, hv hm]
  rfl

theorem genDeclLoop_keeps {S0 : Scanner} (f : Option CommentGroup → P Spec)
    (hf : ∀ doc, (S0.mode &&& ScanComments = 0 → doc = none) → ∀ q : parser, q.Collected S0 →
      Res.Keeps S0 (fun s => S0.NoDoc s.noDocs) (f doc q)) :
    ∀ (fuel : Nat) (list : List Spec) (p : parser), p.Collected S0 →
      S0.NoDoc (list.all Spec.noDocs) →
      Res.Keeps S0 (fun l => S0.NoDoc (l.all Spec.noDocs)) (genDeclLoop f fuel list p) := by
  intro fuel
  induction fuel with
  | zero => exact fun _ _ _ _ => trivial
  | succ fuel ih =>
    intro list p hp hl
    unfold genDeclLoop
    split_ifs with h0
    · have g := hf p.leadComment (fun hm => (hp.nodoc hm).1) p hp
      split
      next spec q h =>
        exact Res.Keeps.goOn g h (fun hq hv => ih _ q hq
          (fun hm => all_append_single _ _ _ (hl hm) (hv hm)))
      next => exact trivial
      next => exact trivial
    · exact ⟨hp, hl⟩

theorem parseGenDecl_keeps {S0 : Scanner} (keyword : Token) (f : Option CommentGroup → P Spec)
    (hf : ∀ doc, (S0.mode &&& ScanComments = 0 → doc = none) → ∀ q : parser, q.Collected S0 →
      Res.Keeps S0 (fun s => S0.NoDoc s.noDocs) (f doc q))
    (p : parser) (hp : p.Collected S0) :
    Res.Keeps S0 (fun d => S0.NoDoc d.noDocs) (parseGenDecl keyword f p) := by
  unfold parseGenDecl
  refine Res.Keeps.atState ?_
  refine Res.Keeps.seq (expect_keeps _ p hp) (fun pos q hq _ => ?_)
  refine Res.Keeps.atState ?_
  split_ifs with h1
  · refine Res.Keeps.seq (next_keeps q hq) (fun _ q2 h2 _ => ?_)
    have g : Res.Keeps S0 (fun l => S0.NoDoc (l.all Spec.noDocs))
        ((fun q => genDeclLoop f q.fuel [] q : P (List Spec)) q2) :=
      genDeclLoop_keeps f hf _ [] q2 h2 (fun _ => rfl)
    refine Res.Keeps.seq g (fun list q3 h3 hv => ?_)
    refine Res.Keeps.seq (expect_keeps _ q3 h3) (fun _ q4 h4 _ => ?_)
    refine expectSemi_pure_keeps _ (fun hm => ?_) q4 h4
    show (Option.isNone p.leadComment && list.all Spec.noDocs) = true
    rw [(hp.nodoc hm).1, hv hm]
    rfl
  · refine Res.Keeps.seq (hf _ (fun hm => (hp.nodoc hm).1) q hq)
      (fun spec q2 h2 hv => Res.Keeps.ret h2 (fun hm => ?_))
    show (Option.isNone p.leadComment && [spec].all Spec.noDocs) = true
    rw [(hp.nodoc hm).1, List.all_cons, hv hm]
    rfl

theorem parseElement_keeps {S0 : Scanner} (expectColon : Bool) (p : parser)
    (hp : p.Collected S0) :
    Res.Keeps S0 (fun kv => kv.Value.noDocs = true) (parseElement expectColon p) := by
  have tail : ∀ (key : Ident) (colon : Nat) (q : parser), q.Collected S0 →
      Res.Keeps S0 (fun kv => kv.Value.noDocs = true)
      ((do
        let p ← getP
        let value ←
          if p.tok = .STRING then do
            next
            pure (Expr.BasicLit ⟨p.pos, .STRING, p.lit⟩)
          else do
            let i ← parseIdent
            pure (Expr.Ident i)
        pure ⟨key, colon, value⟩ : P KeyValueExpr) q) := by
    intro key colon q hq
    refine Res.Keeps.atState ?_
    split_ifs with h
    · exact Res.Keeps.seq (next_keeps q hq)
        (fun _ q2 h2 _ => Res.Keeps.pure_bind (Res.Keeps.ret h2 rfl))
    · exact Res.Keeps.seq (parseIdent_keeps q hq)
        (fun _ q2 h2 _ => Res.Keeps.pure_bind (Res.Keeps.ret h2 rfl))
  unfold parseElement
  refine Res.Keeps.seq (parseApiIdent_keeps p hp) (fun key q hq _ => ?_)
  cases expectColon with
  | true => exact Res.Keeps.seq (expect_keeps _ q hq) (fun _ q2 h2 _ => tail _ _ q2 h2)
  | false => exact Res.Keeps.pure_bind (tail _ _ q hq)

theorem elementListLoop_keeps {S0 : Scanner} : ∀ (fuel : Nat) (kvs : List KeyValueExpr)
    (p : parser), p.Collected S0 → KeyValueExpr.allNoDocs kvs = true →
    Res.Keeps S0 (fun l => KeyValueExpr.allNoDocs l = true) (elementListLoop fuel kvs p) := by
  intro fuel
  induction fuel with
  | zero => exact fun _ _ _ _ => trivial
  | succ fuel ih =>
    intro kvs p hp hl
    unfold elementListLoop
    split_ifs with h0
    · have g := parseElement_keeps true p hp
      split
      next kv q h =>
        refine Res.Keeps.goOn g h (fun hq hv => ?_)
        have g2 := expectSemi_keeps q hq
        split
        next _ q2 h2 =>
          exact Res.Keeps.goOn g2 h2 (fun hq2 _ => ih _ q2 hq2 (all_append_single _ _ _ hl hv))
        next => exact trivial
        next => exact trivial
      next => exact trivial
      next => exact trivial
    · exact ⟨hp, hl⟩

theorem parseElementList_keeps {S0 : Scanner} (p : parser) (hp : p.Collected S0) :
    Res.Keeps S0 (fun l => KeyValueExpr.allNoDocs l = true) (parseElementList p) := by
  unfold parseElementList
  exact elementListLoop_keeps _ _ p hp rfl

/-- An element list, the closing parenthesis and the semicolon keep the
comments collected. -/
theorem elements_close_keeps {S0 : Scanner} {α : Type} (k : List KeyValueExpr → Nat → α)
    (V : α → Prop) (hk : ∀ kvs e, KeyValueExpr.allNoDocs kvs = true → V (k kvs e))
    (p : parser) (hp : p.Collected S0) :
    Res.Keeps S0 V
      ((do
        let kvs ← parseElementList
        let endPos ← expect .RPAREN
        expectSemi
        pure (k kvs endPos) : P α) p) := by
  refine Res.Keeps.seq (parseElementList_keeps p hp) (fun kvs q hq hv => ?_)
  exact Res.Keeps.seq (expect_keeps _ q hq)
    (fun e q2 h2 _ => expectSemi_pure_keeps _ (hk kvs e hv) q2 h2)

theorem parseAtServer_keeps {S0 : Scanner} (p : parser) (hp : p.Collected S0) :
    Res.Keeps S0 (fun a => KeyValueExpr.allNoDocs a.Kvs = true) (parseAtServer p) := by
  unfold parseAtServer
  refine Res.Keeps.atState ?_
  exact Res.Keeps.seq (expect_keeps _ p hp)
    (fun _ q hq _ => elements_close_keeps _ _ (fun _ _ h => h) q hq)

theorem parseInfoType_keeps {S0 : Scanner} (p : parser) (hp : p.Collected S0) :
    Res.Keeps S0 (fun a => KeyValueExpr.allNoDocs a.Kvs = true) (parseInfoType p) := by
  unfold parseInfoType
  refine Res.Keeps.seq (expect_keeps _ p hp) (fun _ q hq _ => ?_)
  exact Res.Keeps.seq (expect_keeps _ q hq)
    (fun _ q2 h2 _ => elements_close_keeps _ _ (fun _ _ h => h) q2 h2)

theorem parseRouteParen_keeps {S0 : Scanner} (p : parser) (hp : p.Collected S0) :
    Res.Keeps S0 (fun x => S0.NoDoc (ParenExpr.noDocs x)) (parseRouteParen p) := by
  unfold parseRouteParen
  refine Res.Keeps.atState ?_
  split_ifs with h
  · refine Res.Keeps.seq (next_keeps p hp) (fun _ q hq _ => ?_)
    refine Res.Keeps.seq (parseType_keeps q hq) (fun typ q2 h2 hv => ?_)
    exact Res.Keeps.seq (expect_keeps _ q2 h2) (fun _ q3 h3 _ => Res.Keeps.ret h3 hv)
  · exact Res.Keeps.ret hp (fun _ => rfl)

theorem parseRoute_keeps {S0 : Scanner} (p : parser) (hp : p.Collected S0) :
    Res.Keeps S0 (fun r => S0.NoDoc r.noDocs) (parseRoute p) := by
  unfold parseRoute
  refine Res.Keeps.seq (parseIdent_keeps p hp) (fun method q hq _ => ?_)
  refine Res.Keeps.seq (parseApiIdent_keeps q hq) (fun path q2 h2 _ => ?_)
  refine Res.Keeps.seq (parseRouteParen_keeps q2 h2) (fun req q3 h3 hreq => ?_)
  refine Res.Keeps.atState ?_
  have tail : ∀ (k : Option ParenExpr → Route), (∀ resp, (k resp).Req = req) →
      (∀ resp, (k resp).Resp = resp) → ∀ q : parser, q.Collected S0 →
      Res.Keeps S0 (fun r => S0.NoDoc r.noDocs)
        ((parseRouteParen >>= fun resp => expectSemi >>= fun _ => (pure (k resp) : P Route)) q) := by
    intro k k1 k2 q hq
    refine Res.Keeps.seq (parseRouteParen_keeps q hq) (fun resp q5 h5 hresp => ?_)
    refine expectSemi_pure_keeps _ (fun hm => ?_) q5 h5
    unfold Route.noDocs
    rw [k1, k2, hreq hm, hresp hm]
    rfl
  split_ifs with h
  · refine Res.Keeps.seq (next_keeps q3 h3) (fun _ q4 h4 _ => ?_)
    exact Res.Keeps.pure_bind (tail _ (fun _ => rfl) (fun _ => rfl) q4 h4)
  · exact Res.Keeps.pure_bind (tail _ (fun _ => rfl) (fun _ => rfl) q3 h3)

theorem routeAtLoop_keeps {S0 : Scanner} : ∀ (fuel : Nat) (atDoc atHandler : Option KeyValueExpr)
    (p : parser), p.Collected S0 → KeyValueExpr.noDocs atDoc = true →
    KeyValueExpr.noDocs atHandler = true →
    Res.Keeps S0 (fun x => KeyValueExpr.noDocs x.1 = true ∧ KeyValueExpr.noDocs x.2 = true)
      (routeAtLoop fuel atDoc atHandler p) := by
  intro fuel
  induction fuel with
  | zero => exact fun _ _ _ _ _ _ => trivial
  | succ fuel ih =>
    intro atDoc atHandler p hp hd hh
    unfold routeAtLoop
    by_cases h0 : p.tok = .DOC ∨ p.tok = .HANDLER
    · rw [if_pos h0]
      have g := parseElement_keeps false p hp
      split
      next kv q h =>
        refine Res.Keeps.goOn g h (fun hq hv => ?_)
        have g2 := expectSemi_keeps q hq
        split
        next _ q2 h2 =>
          refine Res.Keeps.goOn g2 h2 (fun hq2 _ => ?_)
          split_ifs
          · exact ih _ _ q2 hq2 hv hh
          · exact ih _ _ q2 hq2 hd hv
        next => exact trivial
        next => exact trivial
      next => exact trivial
      next => exact trivial
    · rw [if_neg h0]
      exact ⟨hp, hd, hh⟩

theorem parseServiceRoute_keeps {S0 : Scanner} (p : parser) (hp : p.Collected S0) :
    Res.Keeps S0 (fun r => S0.NoDoc r.noDocs) (parseServiceRoute p) := by
  unfold parseServiceRoute
  refine Res.Keeps.atState ?_
  have g : Res.Keeps S0
      (fun x => KeyValueExpr.noDocs x.1 = true ∧ KeyValueExpr.noDocs x.2 = true)
      ((fun q => routeAtLoop q.fuel none none q :
        P (Option KeyValueExpr × Option KeyValueExpr)) p) :=
    routeAtLoop_keeps _ none none p hp rfl rfl
  refine Res.Keeps.seq g (fun at_ q hq hat => ?_)
  refine Res.Keeps.seq (parseRoute_keeps q hq)
    (fun route q2 h2 hv => Res.Keeps.ret h2 (fun hm => ?_))
  show (KeyValueExpr.noDocs at_.1 && KeyValueExpr.noDocs at_.2 && route.noDocs) = true
  rw [hat.1, hat.2, hv hm]
  rfl

theorem serviceRouteListLoop_keeps {S0 : Scanner} : ∀ (fuel : Nat)
    (routes : List ServiceRoute) (p : parser), p.Collected S0 →
    S0.NoDoc (routes.all ServiceRoute.noDocs) →
    Res.Keeps S0 (fun l => S0.NoDoc (l.all ServiceRoute.noDocs))
      (serviceRouteListLoop fuel routes p) := by
  intro fuel
  induction fuel with
  | zero => exact fun _ _ _ _ => trivial
  | succ fuel ih =>
    intro routes p hp hl
    unfold serviceRouteListLoop
    split_ifs with h0
    · have g := parseServiceRoute_keeps p hp
      split
      next r q h =>
        exact Res.Keeps.goOn g h (fun hq hv => ih _ q hq
          (fun hm => all_append_single _ _ _ (hl hm) (hv hm)))
      next => exact trivial
      next => exact trivial
    · exact ⟨hp, hl⟩

theorem parseServiceRouteList_keeps {S0 : Scanner} (p : parser) (hp : p.Collected S0) :
    Res.Keeps S0 (fun l => S0.NoDoc (l.all ServiceRoute.noDocs)) (parseServiceRouteList p) := by
  unfold parseServiceRouteList
  exact serviceRouteListLoop_keeps _ _ p hp (fun _ => rfl)

theorem parseServiceApi_keeps {S0 : Scanner} (p : parser) (hp : p.Collected S0) :
    Res.Keeps S0 (fun x => S0.NoDoc (x.ServiceRoute.all ServiceRoute.noDocs))
      (parseServiceApi p) := by
  unfold parseServiceApi
  refine Res.Keeps.seq (expect_keeps _ p hp) (fun _ q hq _ => ?_)
  refine Res.Keeps.seq (parseApiIdent_keeps q hq) (fun _ q2 h2 _ => ?_)
  refine Res.Keeps.seq (expect_keeps _ q2 h2) (fun _ q3 h3 _ => ?_)
  refine Res.Keeps.seq (parseServiceRouteList_keeps q3 h3) (fun l q4 h4 hv => ?_)
  refine Res.Keeps.seq (expect_keeps _ q4 h4) (fun _ q5 h5 _ => ?_)
  exact Res.Keeps.seq (expectSemi_keeps q5 h5) (fun _ q6 h6 _ => Res.Keeps.ret h6 hv)

theorem parseService_keeps {S0 : Scanner} (p : parser) (hp : p.Collected S0) :
    Res.Keeps S0 (fun x => S0.NoDoc x.noDocs) (parseService p) := by
  have tail : ∀ (a : Option AtServer) (q : parser), q.Collected S0 →
      (match a with
        | some x => KeyValueExpr.allNoDocs x.Kvs
        | none => true) = true →
      Res.Keeps S0 (fun x => S0.NoDoc x.noDocs)
      ((parseServiceApi >>= fun serviceApi => (pure ⟨a, serviceApi⟩ : P Service)) q) := by
    intro a q hq ha
    refine Res.Keeps.seq (parseServiceApi_keeps q hq)
      (fun api q2 h2 hv => Res.Keeps.ret h2 (fun hm => ?_))
    unfold Service.noDocs
    simp only
    rw [ha, hv hm]
    rfl
  unfold parseService
  refine Res.Keeps.atState ?_
  split_ifs with h
  · refine Res.Keeps.seq (parseAtServer_keeps p hp) (fun a q hq hv => ?_)
    exact Res.Keeps.pure_bind (tail _ q hq hv)
  · exact Res.Keeps.pure_bind (tail _ p hp rfl)

theorem parseDecl_keeps {S0 : Scanner} (sync : Token → Bool) (p : parser)
    (hp : p.Collected S0) :
    Res.Keeps S0 (fun d => S0.NoDoc d.noDocs) (parseDecl sync p) := by
  unfold parseDecl
  refine Res.Keeps.atState ?_
  split_ifs with h1 h2 h3 h4
  · exact Res.Keeps.seq
      (parseGenDecl_keeps _ parseTypeSpec (fun doc hd q hq => parseTypeSpec_keeps doc hd q hq) p hp)
      (fun _ q hq hv => Res.Keeps.ret hq hv)
  · exact Res.Keeps.seq (parseService_keeps p hp) (fun _ q hq hv => Res.Keeps.ret hq hv)
  · exact Res.Keeps.seq (parseInfoType_keeps p hp)
      (fun _ q hq hv => Res.Keeps.ret hq (fun _ => hv))
  · exact Res.Keeps.seq
      (parseGenDecl_keeps _ parseImportSpec
        (fun doc hd q hq => parseImportSpec_keeps doc hd q hq) p hp)
      (fun _ q hq hv => Res.Keeps.ret hq hv)
  · refine Res.Keeps.seq (errorExpected_keeps _ _ p hp) (fun _ q hq _ => ?_)
    refine Res.Keeps.seq (advance_keeps _ q hq) (fun _ q2 h2 _ => ?_)
    refine Res.Keeps.atState ?_
    exact Res.Keeps.ret h2 (fun _ => rfl)

theorem declsLoop_keeps {S0 : Scanner} : ∀ (fuel : Nat) (decls : List Decl) (p : parser),
    p.Collected S0 → S0.NoDoc (decls.all Decl.noDocs) →
    Res.Keeps S0 (fun l => S0.NoDoc (l.all Decl.noDocs)) (declsLoop fuel decls p) := by
  intro fuel
  induction fuel with
  | zero => exact fun _ _ _ _ => trivial
  | succ fuel ih =>
    intro decls p hp hl
    unfold declsLoop
    split_ifs with h0
    · have g := parseDecl_keeps declStart p hp
      split
      next d q h =>
        exact Res.Keeps.goOn g h (fun hq hv => ih _ q hq
          (fun hm => all_append_single _ _ _ (hl hm) (hv hm)))
      next => exact trivial
      next => exact trivial
    · exact ⟨hp, hl⟩

theorem declsLoop_eof : ∀ (fuel : Nat) (decls : List Decl) (p q : parser) (r : List Decl),
    declsLoop fuel decls p = .ok r q → q.tok = .EOF := by
  intro fuel
  induction fuel with
  | zero =>
    intro _ _ _ _ h
    cases h
  | succ fuel ih =>
    intro decls p q r h
    unfold declsLoop at h
    split_ifs at h with h0
    · split at h
      next d q1 e1 => exact ih _ q1 q r h
      next => cases h
      next => cases h
    · cases h
      exact not_not.mp h0

end parser

theorem specImports_noDocs : ∀ specs : List Spec, specs.all Spec.noDocs = true →
    (specImports specs).all (fun x => x.Doc.isNone && x.Comment.isNone) = true
  | [], _ => rfl
  | .ImportSpec s :: xs, h => by
    rw [List.all_cons, Bool.and_eq_true] at h
    unfold specImports
    rw [List.all_cons, Bool.and_eq_true]
    exact ⟨h.1, specImports_noDocs xs h.2⟩
  | .TypeSpec _ :: xs, h => by
    rw [List.all_cons, Bool.and_eq_true] at h
    unfold specImports
    exact specImports_noDocs xs h.2

theorem importsOf_noDocs : ∀ ds : List Decl, ds.all Decl.noDocs = true →
    (importsOf ds).all (fun x => x.Doc.isNone && x.Comment.isNone) = true
  | [], _ => rfl
  | .GenDecl d :: ds, h => by
    rw [List.all_cons, Bool.and_eq_true] at h
    unfold importsOf
    rw [List.all_append, Bool.and_eq_true]
    refine ⟨?_, importsOf_noDocs ds h.2⟩
    split_ifs
    · have hd : (d.Doc.isNone && d.Specs.all Spec.noDocs) = true := h.1
      rw [Bool.and_eq_true] at hd
      exact specImports_noDocs _ hd.2
    · rfl
  | .BadDecl _ _ :: ds, h => by
    rw [List.all_cons, Bool.and_eq_true] at h
    unfold importsOf
    exact importsOf_noDocs ds h.2
  | .InfoType _ :: ds, h => by
    rw [List.all_cons, Bool.and_eq_true] at h
    unfold importsOf
    exact importsOf_noDocs ds h.2
  | .Service _ :: ds, h => by
    rw [List.all_cons, Bool.and_eq_true] at h
    unfold importsOf
    exact importsOf_noDocs ds h.2

theorem commentsOf_eq_nil : ∀ gs : List CommentGroup, commentsOf gs = [] →
    (∀ g ∈ gs, g.List ≠ []) → gs = []
  | [], _, _ => rfl
  | g :: gs, h, hf => by
    have e : commentsOf (g :: gs) = g.List ++ commentsOf gs := by simp [commentsOf]
    rw [e] at h
    exact absurd (List.append_eq_nil.mp h).1 (hf g (List.mem_cons_self _ _))

namespace parser

theorem start_collected (lib : Lib) (base : Nat) (filename src : GoString) (mode : Nat) :
    (start lib base filename src mode).Collected (start lib base filename src mode).scanner := by
  have hi := Scanner.Init_inv lib ⟨filename, base, src.length, [0]⟩ src
    (if mode &&& ParseComments ≠ 0 then ScanComments else 0)
  refine ⟨⟨hi.1, ?_, start_inv _ _ _ _ _, rfl, rfl, fun g hg => absurd hg (List.not_mem_nil g),
    fun _ he => he⟩, fun h => Token.noConfusion h, fun _ => ⟨rfl, rfl⟩⟩
  show (Scanner.Init lib ⟨filename, base, src.length, [0]⟩ src
    (if mode &&& ParseComments ≠ 0 then ScanComments else 0)).mode &&& dontInsertSemis = 0
  rw [hi.2]
  split_ifs <;> decide

theorem start_mode (lib : Lib) (base : Nat) (filename src : GoString) (mode : Nat)
    (h : mode &&& ParseComments = 0) :
    (start lib base filename src mode).scanner.mode &&& ScanComments = 0 := by
  have hi := Scanner.Init_inv lib ⟨filename, base, src.length, [0]⟩ src
    (if mode &&& ParseComments ≠ 0 then ScanComments else 0)
  show (Scanner.Init lib ⟨filename, base, src.length, [0]⟩ src
    (if mode &&& ParseComments ≠ 0 then ScanComments else 0)).mode &&& ScanComments = 0
  rw [hi.2, if_neg (not_not.mpr h)]
  decide

/-- The file that `parseFile` builds: the parser is at the end of the input,
the comments of the file are the groups of the parser, and without comments
from the scanner no declaration has a `Doc` or a `Comment`. -/
theorem parseFile_collected {S0 : Scanner} {p q : parser} {f : AstFile} (hp : p.Collected S0)
    (h : parseFile p = .ok (some f) q) :
    q.Collected S0 ∧ q.tok = .EOF ∧ f.Comments = q.comments ∧
      S0.NoDoc (f.Doc.isNone && f.Decls.all Decl.noDocs) := by
  unfold parseFile at h
  rw [getP_bind_apply] at h
  split_ifs at h with h1 h2
  · cases h
  · obtain ⟨syn, q1, e1, h⟩ := P.bind_eq_ok.mp h
    have c1 := (parseSyntax_keeps p hp).of_ok e1
    obtain ⟨decls, q2, e2, h⟩ := P.bind_eq_ok.mp h
    have c2 := (declsLoop_keeps _ [] q1 c1.1 (fun _ => rfl)).of_ok e2
    have t2 := declsLoop_eof _ _ _ _ _ e2
    rw [getP_bind_apply] at h
    have key : f = ⟨p.leadComment, some syn, decls, q2.imports, q2.comments⟩ ∧ q = q2 := by
      split_ifs at h
      · obtain ⟨_, q3, e3, h⟩ := P.bind_eq_ok.mp h
        cases e3
        cases h
        exact ⟨rfl, rfl⟩
      · obtain ⟨_, q3, e3, h⟩ := P.bind_eq_ok.mp h
        cases e3
        cases h
        exact ⟨rfl, rfl⟩
    rw [key.1, key.2]
    refine ⟨c2.1, t2, rfl, fun hm => ?_⟩
    show (Option.isNone p.leadComment && decls.all Decl.noDocs) = true
    rw [(hp.nodoc hm).1, c2.2 hm]
    rfl
  · obtain ⟨_, q1, _, h⟩ := P.bind_eq_ok.mp h
    obtain ⟨_, q2, e2, _⟩ := P.bind_eq_ok.mp h
    cases e2

end parser

theorem parseRun_collected {lib : Lib} {base : Nat} {filename src : GoString} {mode : Nat}
    {f : AstFile} {q : parser} (h : parseRun lib base filename src mode = .ok (some f) q) :
    q.Collected (parser.start lib base filename src mode).scanner ∧ q.tok = .EOF ∧
      f.Comments = q.comments ∧
      (parser.start lib base filename src mode).scanner.NoDoc
        (f.Doc.isNone && f.Decls.all Decl.noDocs) := by
  unfold parseRun at h
  rw [parser.init_eq] at h
  split at h
  next _ p1 e1 =>
    exact parser.parseFile_collected
      ((parser.next_keeps _ (parser.start_collected lib base filename src mode)).of_ok e1).1 h
  next => cases h
  next => cases h

/-- The comments of the file that a run built are the comments that the
scanner returns, however long it goes on scanning. -/
theorem parseRun_comments {lib : Lib} {base : Nat} {filename src : GoString} {mode : Nat}
    {f : AstFile} {q : parser} (h : parseRun lib base filename src mode = .ok (some f) q) :
    (∀ n, q.nscan ≤ n →
      commentsOf f.Comments = (parser.start lib base filename src mode).scanner.commentsIn n) ∧
    (∀ g ∈ f.Comments, g.List ≠ []) ∧
    (commentsOf f.Comments).Pairwise (fun a b => a.Slash < b.Slash) := by
  obtain ⟨c, t, e, _⟩ := parseRun_collected h
  have hc : commentsOf f.Comments =
      (parser.start lib base filename src mode).scanner.commentsIn q.nscan := by
    rw [c.pend.coll, parser.cur_clean c.clean, e, List.append_nil, List.append_nil]
  have h1 : q.scanner.clear.ch = ((parser.start lib base filename src mode).scanner.after
      q.nscan).clear.ch := by rw [c.pend.scan]
  have h2 : q.scanner.clear.insertSemi = ((parser.start lib base filename src mode).scanner.after
      q.nscan).clear.insertSemi := by rw [c.pend.scan]
  have he := c.pend.inv.atEnd t
  refine ⟨fun n hn => ?_, fun g hg => c.pend.full g (by rw [← e]; exact hg), ?_⟩
  · have := Scanner.commentsIn_eof _ c.pend.src q.nscan (h1.symm.trans he.1)
      (h2.symm.trans he.2) (n - q.nscan)
    rw [Nat.add_sub_cancel' hn] at this
    rw [this]
    exact hc
  · rw [hc]
    exact (Scanner.commentsIn_sorted _ _ c.pend.src).1

/-- C21, as the code has it: for every `File` that `parseFile` builds, in
every mode, `File.Comments` contains every comment that the scanner returns
for the source (however many calls of `Scan` follow the parse) exactly once
and in the order of the source: the comments of the groups, group after group,
are the comments of the scanner; no group is empty; and the positions
increase along the groups and inside each group. Without
`ParseComments`, every `File` that `ParseFile` returns has an empty `Comments`
and no `Doc` or `Comment` field set, in the file, its declarations, specs,
fields and import list. -/
theorem ParseFile_comments (lib : Lib) (base : Nat) (filename src : GoString) (mode : Nat) :
    (∀ (f : AstFile) (q : parser), parseRun lib base filename src mode = .ok (some f) q →
      (∀ n, q.nscan ≤ n →
        commentsOf f.Comments =
          (parser.start lib base filename src mode).scanner.commentsIn n) ∧
      (∀ g ∈ f.Comments, g.List ≠ []) ∧
      (commentsOf f.Comments).Pairwise (fun a b => a.Slash < b.Slash)) ∧
    (mode &&& ParseComments = 0 → ∀ (f : AstFile) (err : Option ErrorList),
      ParseFile lib base filename src mode = .returned f err →
      f.Comments = [] ∧ f.noDocs = true) := by
  refine ⟨fun f q h => parseRun_comments h, fun hm f err h => ?_⟩
  have zero : AstFile.zero.Comments = [] ∧ AstFile.zero.noDocs = true := ⟨rfl, rfl⟩
  unfold ParseFile at h
  split at h
  next fo p e =>
    cases h
    cases fo with
    | none => exact zero
    | some f0 =>
      obtain ⟨c, _, _, hd⟩ := parseRun_collected e
      obtain ⟨hc, hf, _⟩ := parseRun_comments e
      have hm0 := parser.start_mode lib base filename src mode hm
      refine ⟨commentsOf_eq_nil _ ?_ hf, ?_⟩
      · show commentsOf f0.Comments = []
        rw [hc p.nscan (le_refl _)]
        exact Scanner.commentsIn_none _ _ c.pend.src hm0 c.pend.semis
      · show (f0.Doc.isNone && f0.Decls.all Decl.noDocs &&
          f0.Imports.all (fun x => x.Doc.isNone && x.Comment.isNone)) = true
        have hd0 := hd hm0
        rw [hd0, parseRun_imports e]
        rw [Bool.and_eq_true] at hd0
        rw [importsOf_noDocs _ hd0.2]
        rfl
  next p e =>
    cases h
    exact zero
  next => cases h
  next => cases h

/-- Witness of `ParseFile_comments`: for `commentedSrc` in the mode
`ParseComments` the parser builds a file with the four groups of the five
comments of the source; in the mode 0 `ParseFile` returns a file without
comments, `Doc` and `Comment`. -/
theorem ParseFile_comments_witness :
    commentsReport (parseRun asciiLib 1 [] commentedSrc ParseComments) =
      some [[⟨1, str "// a"⟩, ⟨6, str "// b"⟩], [⟨25, str "// c"⟩], [⟨39, str "// d"⟩],
        [⟨54, str "/* e */"⟩]] ∧
    (∃ f q, parseRun asciiLib 1 [] commentedSrc ParseComments = .ok (some f) q ∧
      (∀ n, q.nscan ≤ n → commentsOf f.Comments =
        (parser.start asciiLib 1 [] commentedSrc ParseComments).scanner.commentsIn n) ∧
      (∀ g ∈ f.Comments, g.List ≠ []) ∧
      (commentsOf f.Comments).Pairwise (fun a b => a.Slash < b.Slash)) ∧
    0 &&& ParseComments = 0 ∧
    ∃ f err, ParseFile asciiLib 1 [] commentedSrc 0 = .returned f err ∧
      f.Comments = [] ∧ f.noDocs = true := by
  have h0 : commentsReport (parseRun asciiLib 1 [] commentedSrc ParseComments) =
      some [[⟨1, str "// a"⟩, ⟨6, str "// b"⟩], [⟨25, str "// c"⟩], [⟨39, str "// d"⟩],
        [⟨54, str "/* e */"⟩]] := by
    decide!
  have h1 : (ParseFile asciiLib 1 [] commentedSrc 0).file.isSome = true := by decide!
  refine ⟨h0, ?_, by decide, ?_⟩
  · cases hs : parseRun asciiLib 1 [] commentedSrc ParseComments with
    | ok fo q =>
      cases fo with
      | some f => exact ⟨f, q, rfl, (ParseFile_comments asciiLib 1 [] commentedSrc
          ParseComments).1 f q hs⟩
      | none =>
        rw [hs] at h0
        cases h0
    | panicked e q =>
      rw [hs] at h0
      cases h0
    | outOfFuel =>
      rw [hs] at h0
      cases h0
  · cases hs : ParseFile asciiLib 1 [] commentedSrc 0 with
    | returned f err =>
      exact ⟨f, err, rfl, (ParseFile_comments asciiLib 1 [] commentedSrc 0).2 (by decide)
        f err hs⟩
    | panics m =>
      rw [hs] at h1
      cases h1
    | outOfFuel =>
      rw [hs] at h1
      cases h1

/-- Counterexample to C21 as stated: in the source `$ // c` the second call of
`Scan` returns the comment `// c`, but the first token is illegal, so that in
the mode `ParseComments` the parser has an error after `init`, `parseFile`
builds no file, and the `File` that `ParseFile` returns has an empty
`Comments`. -/
theorem ParseFile_comment_dropped :
    (parser.start asciiLib 1 [] (str "$ // c") ParseComments).scanner.commentsIn 2 =
      [⟨3, str "// c"⟩] ∧
    (ParseFile asciiLib 1 [] (str "$ // c") ParseComments).file.map (fun f => f.Comments) =
      some [] := by
  decide!

/-! ### What `error` does with an error, in every mode -/

namespace parser

theorem error_by_fate (pos : Nat) (msg : GoString) (p : parser) :
    error pos msg p =
      match p.errorFate pos with
      | .recorded => .ok () (p.addError (p.file.Position pos) msg)
      | .discarded => .ok () p
      | .bailout => .panicked .bailout p := by
  unfold error errorFate
  simp only
  split_ifs <;> rfl

theorem error_when_recorded {pos : Nat} {p : parser} (msg : GoString)
    (h : p.errorFate pos = .recorded) :
    error pos msg p = .ok () (p.addError (p.file.Position pos) msg) := by
  rw [error_by_fate, h]

theorem error_when_discarded {pos : Nat} {p : parser} (msg : GoString)
    (h : p.errorFate pos = .discarded) : error pos msg p = .ok () p := by
  rw [error_by_fate, h]

theorem error_when_bailout {pos : Nat} {p : parser} (msg : GoString)
    (h : p.errorFate pos = .bailout) : error pos msg p = .panicked .bailout p := by
  rw [error_by_fate, h]

/-- The parser gives up only without the mode `AllErrors` and with more than
ten errors recorded. -/
theorem errorFate_gives_up {pos : Nat} {p : parser} (h : p.errorFate pos = .bailout) :
    p.mode &&& AllErrors = 0 ∧ 10 < p.errors.length := by
  unfold errorFate at h
  split_ifs at h with h1 h2 h3
  exact ⟨h1, h3⟩

theorem errorFate_allErrors {p : parser} (pos : Nat) (hm : p.mode &&& AllErrors ≠ 0) :
    p.errorFate pos = .recorded := by
  unfold errorFate
  rw [if_neg hm]

/-- The fate of an error by mode: in the mode `AllErrors` it is recorded; it is
discarded only without that mode and on the line of the last recorded error;
the parser gives up only without that mode and with more than ten errors
recorded. -/
theorem errorFate_modes (p : parser) (pos : Nat) :
    (p.mode &&& AllErrors ≠ 0 → p.errorFate pos = .recorded) ∧
    (p.errorFate pos = .discarded → p.mode &&& AllErrors = 0 ∧
      p.errors.getLast?.map (fun e => e.Pos.Line) = some (p.file.Position pos).Line) ∧
    (p.errorFate pos = .bailout → p.mode &&& AllErrors = 0 ∧ 10 < p.errors.length) := by
  refine ⟨errorFate_allErrors pos, fun h => ?_, errorFate_gives_up⟩
  unfold errorFate at h
  split_ifs at h with h1 h2 h3
  exact ⟨h1, h2.2⟩

/-- The message that `errorExpected` hands to `error` at the current position:
the expectation, followed by what was found. -/
theorem errorExpected_found (msg : GoString) (p : parser) :
    ∃ found, errorExpected p.pos msg p = error p.pos (str "expected " ++ msg ++ found) p := by
  unfold errorExpected
  simp only [if_true]
  split_ifs
  · exact ⟨_, rfl⟩
  · exact ⟨_ ++ _, by rw [← List.append_assoc]⟩
  · exact ⟨_ ++ (_ ++ _), by
      rw [← List.append_assoc, ← List.append_assoc, List.append_assoc _ msg]⟩

end parser

/-- C34, amended: `expect(tok)` in every mode. When the current token is `tok`
it is one call of `next` on the state of the call and returns the position of
that token. When the current token differs, `error` gets the error
`expected 'tok'` (followed by what was found) at that position: if it records
it, `expect` is `next` on the state with that error added; if it discards it
(without `AllErrors`, on the line of the last recorded error), `expect` is
`next` on the state of the call, with no error recorded; in both cases the
position of the token is returned. If `error` gives up (without `AllErrors`,
more than ten errors recorded) `expect` panics with `bailout` in the state of
the call: nothing is consumed and it does not return. -/
theorem expect_consumes_one (tok : Token) (p : parser) (hp : p.Inv) :
    (p.tok ≠ tok → p.errorFate p.pos = .bailout →
      parser.expect tok p = .panicked .bailout p) ∧
    (p.tok = tok ∨ p.errorFate p.pos ≠ .bailout →
      ∃ q, parser.expect tok p = .ok p.pos q ∧
        (p.tok = tok ∨ p.errorFate p.pos = .discarded → parser.next p = .ok () q) ∧
        (p.tok ≠ tok → p.errorFate p.pos = .recorded → ∃ found,
          parser.next (p.addError (p.file.Position p.pos)
            (str "expected '" ++ tok.String ++ str "'" ++ found)) = .ok () q)) ∧
    ((p.mode &&& AllErrors ≠ 0 → p.errorFate p.pos = .recorded) ∧
      (p.errorFate p.pos = .discarded → p.mode &&& AllErrors = 0 ∧
        p.errors.getLast?.map (fun e => e.Pos.Line) = some (p.file.Position p.pos).Line) ∧
      (p.errorFate p.pos = .bailout → p.mode &&& AllErrors = 0 ∧ 10 < p.errors.length)) := by
  refine (fun (h : _ ∧ _) => ⟨h.1, h.2, parser.errorFate_modes p p.pos⟩) ?_
  obtain ⟨found, e1⟩ := parser.errorExpected_found (str "'" ++ tok.String ++ str "'") p
  rw [expected_quoted] at e1
  have hun : ∀ r : Res Nat, p.tok ≠ tok →
      (parser.errorExpected p.pos (str "'" ++ tok.String ++ str "'") >>= fun _ =>
        parser.next >>= fun _ => (pure p.pos : P Nat)) p = r → parser.expect tok p = r := by
    intro r ht h
    unfold parser.expect
    rw [getP_bind_apply]
    simp only [ne_eq, ht, not_false_eq_true, if_true]
    exact h
  by_cases ht : p.tok = tok
  · obtain ⟨q, e, _⟩ := parser.next_returns p hp
    exact ⟨fun h => absurd ht h, fun _ => ⟨q, parser.expect_ok ht e, fun _ => e,
      fun h => absurd ht h⟩⟩
  · cases hf : p.errorFate p.pos with
    | bailout =>
      refine ⟨fun _ _ => hun _ ht ?_, fun h => ?_⟩
      · rw [parser.error_when_bailout _ hf] at e1
        exact P.bind_panicked e1
      · rcases h with h | h
        · exact absurd h ht
        · exact absurd rfl h
    | discarded =>
      obtain ⟨q, e, _⟩ := parser.next_returns p hp
      rw [parser.error_when_discarded _ hf] at e1
      refine ⟨fun _ h => ErrorFate.noConfusion h, fun _ => ⟨q, hun _ ht ?_, fun _ => e,
        fun _ h => ErrorFate.noConfusion h⟩⟩
      rw [P.bind_ok e1, P.bind_ok e]
      rfl
    | recorded =>
      rw [parser.error_when_recorded _ hf] at e1
      obtain ⟨q, e, _⟩ := parser.next_returns _ (parser.addError_inv hp (p.file.Position p.pos)
        (str "expected '" ++ tok.String ++ str "'" ++ found))
      refine ⟨fun _ h => ErrorFate.noConfusion h, fun _ => ⟨q, hun _ ht ?_, fun h => ?_,
        fun _ _ => ⟨found, e⟩⟩⟩
      · rw [P.bind_ok e1, P.bind_ok e]
        rfl
      · rcases h with h | h
        · exact absurd h ht
        · exact ErrorFate.noConfusion h

/-- Witness of `expect_consumes_one`: the parser at the first token of the
source `a b`, without the mode `AllErrors`, expecting `(`: no error is
recorded yet, so the error is recorded and `b` becomes the current token.
After eleven errors of the scanner on earlier lines, `expect` of `(` at `a`
panics with `bailout` in the state of the call. -/
theorem expect_consumes_one_witness :
    ((parser.first asciiLib 1 [] (str "a b") 0).Inv ∧
      ∃ q, parser.expect .LPAREN (parser.first asciiLib 1 [] (str "a b") 0) =
          .ok (parser.first asciiLib 1 [] (str "a b") 0).pos q ∧
        ∃ found, parser.next ((parser.first asciiLib 1 [] (str "a b") 0).addError
          ((parser.first asciiLib 1 [] (str "a b") 0).file.Position
            (parser.first asciiLib 1 [] (str "a b") 0).pos)
          (str "expected '" ++ Token.String .LPAREN ++ str "'" ++ found)) = .ok () q) ∧
    ((parser.first asciiLib 1 [] (elevenErrors ++ str "a b") 0).errors.length = 11 ∧
      parser.expect .LPAREN (parser.first asciiLib 1 [] (elevenErrors ++ str "a b") 0) =
        .panicked .bailout (parser.first asciiLib 1 [] (elevenErrors ++ str "a b") 0)) := by
  obtain ⟨q, e, _, h⟩ := (expect_consumes_one .LPAREN _ (parser.first_inv asciiLib 1 []
    (str "a b") 0)).2.1 (Or.inr (by decide!))
  exact ⟨⟨parser.first_inv _ _ _ _ _, q, e, h (by decide!) (by decide!)⟩, by decide!,
    (expect_consumes_one .LPAREN _ (parser.first_inv asciiLib 1 []
      (elevenErrors ++ str "a b") 0)).1 (by decide!) (by decide!)⟩

namespace parser

/-- The run of `expectSemi` at a token other than `)`, a closing brace and a
semicolon, by what `error` does with the error `expected ';'`. -/
theorem expectSemi_other (p : parser) (hp : p.Inv) (h1a : p.tok ≠ .RPAREN)
    (h1b : p.tok ≠ .RBRACE) (h2 : p.tok ≠ .SEMICOLON) :
    (p.errorFate p.pos = .bailout → expectSemi p = .panicked .bailout p) ∧
    (p.errorFate p.pos ≠ .bailout →
      ∃ p1 q, expectSemi p = .ok () q ∧
        (p.errorFate p.pos = .discarded → p1 = p) ∧
        (p.errorFate p.pos = .recorded → ∃ found,
          p1 = p.addError (p.file.Position p.pos) (str "expected ';'" ++ found)) ∧
        (p.tok = .COMMA → next p1 = .ok () q) ∧
        (p.tok ≠ .COMMA → advance stmtStart p1 = .ok () q)) := by
  have hmsg : ∀ found : GoString,
      str "expected " ++ str "';'" ++ found = str "expected ';'" ++ found := by
    intro found
    have h : str "expected ';'" = str "expected " ++ str "';'" := by decide
    rw [h]
  obtain ⟨found, e1⟩ := errorExpected_found (str "';'") p
  rw [hmsg] at e1
  have hun : ∀ r : Res Unit,
      (p.tok = .COMMA → (errorExpected p.pos (str "';'") >>= fun _ => next) p = r) →
      (p.tok ≠ .COMMA → (errorExpected p.pos (str "';'") >>= fun _ =>
        advance stmtStart) p = r) → expectSemi p = r := by
    intro r hc hn
    unfold expectSemi
    rw [getP_bind_apply, if_pos ⟨h1a, h1b⟩]
    by_cases h3 : p.tok = .COMMA
    · rw [if_pos h3]
      exact hc h3
    · rw [if_neg h3, if_neg h2]
      exact hn h3
  have run : ∀ p1 : parser, p1.Inv → errorExpected p.pos (str "';'") p = .ok () p1 →
      ∃ q, expectSemi p = .ok () q ∧ (p.tok = .COMMA → next p1 = .ok () q) ∧
        (p.tok ≠ .COMMA → advance stmtStart p1 = .ok () q) := by
    intro p1 h1 e
    by_cases h3 : p.tok = .COMMA
    · obtain ⟨q, en, _⟩ := next_returns p1 h1
      refine ⟨q, hun _ (fun _ => ?_) (fun h => absurd h3 h), fun _ => en, fun h => absurd h3 h⟩
      rw [P.bind_ok e]
      exact en
    · obtain ⟨_, q, ea, _, _⟩ := (advance_good false stmtStart p1 h1).returns
      refine ⟨q, hun _ (fun h => absurd h h3) (fun _ => ?_), fun h => absurd h h3, fun _ => ea⟩
      rw [P.bind_ok e]
      exact ea
  cases hf : p.errorFate p.pos with
  | bailout =>
    rw [error_when_bailout _ hf] at e1
    exact ⟨fun _ => hun _ (fun _ => P.bind_panicked e1) (fun _ => P.bind_panicked e1),
      fun h => absurd rfl h⟩
  | discarded =>
    rw [error_when_discarded _ hf] at e1
    obtain ⟨q, e, a, b⟩ := run p hp e1
    exact ⟨fun h => ErrorFate.noConfusion h, fun _ => ⟨p, q, e, fun _ => rfl,
      fun h => ErrorFate.noConfusion h, a, b⟩⟩
  | recorded =>
    rw [error_when_recorded _ hf] at e1
    obtain ⟨q, e, a, b⟩ := run _ (addError_inv hp (p.file.Position p.pos)
      (str "expected ';'" ++ found)) e1
    exact ⟨fun h => ErrorFate.noConfusion h, fun _ => ⟨_, q, e,
      fun h => ErrorFate.noConfusion h, fun _ => ⟨found, rfl⟩, a, b⟩⟩

/-- When `expectSemi` panics, `error` has given up in the state of the call. -/
theorem expectSemi_panics {p q : parser} {e : Panic} (hp : p.Inv)
    (h : expectSemi p = .panicked e q) :
    e = .bailout ∧ q = p ∧ p.errorFate p.pos = .bailout := by
  by_cases h1 : p.tok = .RPAREN ∨ p.tok = .RBRACE
  · rw [expectSemi_close h1] at h
    cases h
  by_cases h2 : p.tok = .SEMICOLON
  · obtain ⟨q1, e1, _⟩ := next_returns p hp
    rw [expectSemi_semi h2 e1] at h
    cases h
  have hc := expectSemi_other p hp (fun e => h1 (Or.inl e)) (fun e => h1 (Or.inr e)) h2
  by_cases hf : p.errorFate p.pos = .bailout
  · rw [hc.1 hf] at h
    cases h
    exact ⟨rfl, rfl, hf⟩
  · obtain ⟨_, q1, e1, _⟩ := hc.2 hf
    rw [e1] at h
    cases h

end parser

/-- C35, amended: `expectSemi` in every mode. At `)` or a closing brace it
leaves the parser as it is (nothing consumed, no error); at a semicolon,
written or inserted, it is one call of `next` (that token consumed, no error
recorded by `expectSemi`). At every other token `error` gets the error
`expected ';'` (followed by what was found) at the current position: the state
`p1` is the state of the call with that error added if `error` records it, and
the state of the call if `error` discards it (without `AllErrors`, on the line
of the last recorded error); then at `,` `expectSemi` is one call of `next`
from `p1`, and at any other token it is `advance` with the statement-start set
from `p1`. If `error` gives up (without `AllErrors`, more than ten errors
recorded) `expectSemi` panics with `bailout` in the state of the call. -/
theorem expectSemi_cases (p : parser) (hp : p.Inv) :
    (p.tok = .RPAREN ∨ p.tok = .RBRACE → parser.expectSemi p = .ok () p) ∧
    (p.tok = .SEMICOLON → ∃ q, parser.expectSemi p = .ok () q ∧ parser.next p = .ok () q) ∧
    (p.tok ≠ .RPAREN → p.tok ≠ .RBRACE → p.tok ≠ .SEMICOLON →
      (p.errorFate p.pos = .bailout → parser.expectSemi p = .panicked .bailout p) ∧
      (p.errorFate p.pos ≠ .bailout →
        ∃ p1 q, parser.expectSemi p = .ok () q ∧
          (p.errorFate p.pos = .discarded → p1 = p) ∧
          (p.errorFate p.pos = .recorded → ∃ found,
            p1 = p.addError (p.file.Position p.pos) (str "expected ';'" ++ found)) ∧
          (p.tok = .COMMA → parser.next p1 = .ok () q) ∧
          (p.tok ≠ .COMMA → parser.advance parser.stmtStart p1 = .ok () q))) ∧
    ((p.mode &&& AllErrors ≠ 0 → p.errorFate p.pos = .recorded) ∧
      (p.errorFate p.pos = .discarded → p.mode &&& AllErrors = 0 ∧
        p.errors.getLast?.map (fun e => e.Pos.Line) = some (p.file.Position p.pos).Line) ∧
      (p.errorFate p.pos = .bailout → p.mode &&& AllErrors = 0 ∧ 10 < p.errors.length)) := by
  refine (fun (h : _ ∧ _ ∧ _) => ⟨h.1, h.2.1, h.2.2, parser.errorFate_modes p p.pos⟩) ?_
  refine ⟨fun h => parser.expectSemi_close h, fun h => ?_,
    fun h1a h1b h2 => parser.expectSemi_other p hp h1a h1b h2⟩
  obtain ⟨q, e, _⟩ := parser.next_returns p hp
  exact ⟨q, parser.expectSemi_semi h e, e⟩

/-- Witness of `expectSemi_cases`: the parser at the first token of the
source `a b`, without the mode `AllErrors`: no error is recorded yet, so the
error is recorded, and `advance` follows. After eleven errors of the scanner
on earlier lines, `expectSemi` at `a` panics with `bailout` in the state of
the call. -/
theorem expectSemi_cases_witness :
    ((parser.first asciiLib 1 [] (str "a b") 0).Inv ∧
      ∃ p1 q, parser.expectSemi (parser.first asciiLib 1 [] (str "a b") 0) = .ok () q ∧
        (∃ found, p1 = (parser.first asciiLib 1 [] (str "a b") 0).addError
          ((parser.first asciiLib 1 [] (str "a b") 0).file.Position
            (parser.first asciiLib 1 [] (str "a b") 0).pos)
          (str "expected ';'" ++ found)) ∧
        parser.advance parser.stmtStart p1 = .ok () q) ∧
    ((parser.first asciiLib 1 [] (elevenErrors ++ str "a b") 0).errors.length = 11 ∧
      parser.expectSemi (parser.first asciiLib 1 [] (elevenErrors ++ str "a b") 0) =
        .panicked .bailout (parser.first asciiLib 1 [] (elevenErrors ++ str "a b") 0)) := by
  obtain ⟨p1, q, e, _, h1, _, h2⟩ := ((expectSemi_cases _ (parser.first_inv asciiLib 1 []
    (str "a b") 0)).2.2.1 (by decide!) (by decide!) (by decide!)).2 (by decide!)
  exact ⟨⟨parser.first_inv _ _ _ _ _, p1, q, e, h1 (by decide!), h2 (by decide!)⟩, by decide!,
    ((expectSemi_cases _ (parser.first_inv asciiLib 1 [] (elevenErrors ++ str "a b") 0)).2.2.1
      (by decide!) (by decide!) (by decide!)).1 (by decide!)⟩


/-- C20, amended: `parseDecl` at a token that starts no declaration (it is not
`type`, `@server`, `service`, `info` or `import`), in every mode. `error` gets
the error `expected declaration` (followed by what was found) at the position
of that token. Unless `error` gives up (without `AllErrors`, more than ten
errors recorded), in which case `parseDecl` panics with `bailout` in the state
of the call, `parseDecl` returns a `BadDecl` from that position to the position
of the token at which parsing resumes, which is not before it; on return the
current token is `EOF` or in the synchronizing set; the state is reached by
`advance` from the state `p1`, which is the state of the call with the error
added if `error` records it and the state of the call if `error` discards it
(without `AllErrors`, on the line of the last recorded error). -/
theorem parseDecl_bad_declaration (sync : Token → Bool) (p : parser) (hp : p.Inv)
    (ht : declTok p.tok = false) :
    (p.errorFate p.pos = .bailout → parser.parseDecl sync p = .panicked .bailout p) ∧
    (p.errorFate p.pos ≠ .bailout →
      ∃ p1 q l, parser.parseDecl sync p = .ok (.BadDecl p.pos q.pos) q ∧ p.pos ≤ q.pos ∧
        (q.tok = .EOF ∨ sync q.tok = true) ∧
        parser.advance sync p1 = .ok () q ∧ q.errors = p1.errors ++ l ∧
        (p.errorFate p.pos = .recorded → ∃ found,
          p1 = p.addError (p.file.Position p.pos) (str "expected declaration" ++ found)) ∧
        (p.errorFate p.pos = .discarded → p1 = p)) ∧
    ((p.mode &&& AllErrors ≠ 0 → p.errorFate p.pos = .recorded) ∧
      (p.errorFate p.pos = .discarded → p.mode &&& AllErrors = 0 ∧
        p.errors.getLast?.map (fun e => e.Pos.Line) = some (p.file.Position p.pos).Line) ∧
      (p.errorFate p.pos = .bailout → p.mode &&& AllErrors = 0 ∧ 10 < p.errors.length)) := by
  refine (fun (h : _ ∧ _) => ⟨h.1, h.2, parser.errorFate_modes p p.pos⟩) ?_
  obtain ⟨found, e1⟩ := parser.errorExpected_found (str "declaration") p
  have hd : str "expected " ++ str "declaration" = str "expected declaration" := by decide
  rw [hd] at e1
  have run : ∀ p1 : parser, p1.Inv → p1.pos = p.pos →
      parser.errorExpected p.pos (str "declaration") p = .ok () p1 →
      ∃ q l, parser.parseDecl sync p = .ok (.BadDecl p.pos q.pos) q ∧ p.pos ≤ q.pos ∧
        (q.tok = .EOF ∨ sync q.tok = true) ∧
        parser.advance sync p1 = .ok () q ∧ q.errors = p1.errors ++ l := by
    intro p1 h1 hpos e
    obtain ⟨_, q, e2, f2, _⟩ := (parser.advance_good false sync p1 h1).returns
    obtain ⟨l, el, _⟩ := f2.errs
    refine ⟨q, l, ?_, ?_, parser.advance_stops e2, e2, el⟩
    · rw [parser.parseDecl_bad sync p ht, P.bind_ok e, P.bind_ok e2]
      rfl
    · rw [← hpos]
      exact f2.pos
  cases hf : p.errorFate p.pos with
  | bailout =>
    rw [parser.error_when_bailout _ hf] at e1
    refine ⟨fun _ => ?_, fun h => absurd rfl h⟩
    rw [parser.parseDecl_bad sync p ht]
    exact P.bind_panicked e1
  | discarded =>
    rw [parser.error_when_discarded _ hf] at e1
    obtain ⟨q, l, a1, a2, a3, a4, a5⟩ := run p hp rfl e1
    exact ⟨fun h => ErrorFate.noConfusion h, fun _ => ⟨p, q, l, a1, a2, a3, a4, a5,
      fun h => ErrorFate.noConfusion h, fun _ => rfl⟩⟩
  | recorded =>
    rw [parser.error_when_recorded _ hf] at e1
    obtain ⟨q, l, a1, a2, a3, a4, a5⟩ := run _ (parser.addError_inv hp (p.file.Position p.pos)
      (str "expected declaration" ++ found)) rfl e1
    exact ⟨fun h => ErrorFate.noConfusion h, fun _ => ⟨_, q, l, a1, a2, a3, a4, a5,
      fun _ => ⟨found, rfl⟩, fun h => ErrorFate.noConfusion h⟩⟩

/-- Witness of `parseDecl_bad_declaration`: the parser at the first token of
the source `) type`, without the mode `AllErrors`: no error is recorded yet,
so the error is recorded. After eleven errors of the scanner on earlier lines,
`parseDecl` at `)` panics with `bailout` in the state of the call. -/
theorem parseDecl_bad_declaration_witness :
    ((parser.first asciiLib 1 [] (str ") type") 0).Inv ∧
      declTok (parser.first asciiLib 1 [] (str ") type") 0).tok = false ∧
      ∃ p1 q l, parser.parseDecl parser.declStart (parser.first asciiLib 1 [] (str ") type") 0) =
          .ok (.BadDecl (parser.first asciiLib 1 [] (str ") type") 0).pos q.pos) q ∧
        (parser.first asciiLib 1 [] (str ") type") 0).pos ≤ q.pos ∧
        (q.tok = .EOF ∨ parser.declStart q.tok = true) ∧
        parser.advance parser.declStart p1 = .ok () q ∧ q.errors = p1.errors ++ l ∧
        ∃ found, p1 = (parser.first asciiLib 1 [] (str ") type") 0).addError
          ((parser.first asciiLib 1 [] (str ") type") 0).file.Position
            (parser.first asciiLib 1 [] (str ") type") 0).pos)
          (str "expected declaration" ++ found)) ∧
    ((parser.first asciiLib 1 [] (elevenErrors ++ str ") type") 0).errors.length = 11 ∧
      parser.parseDecl parser.declStart
          (parser.first asciiLib 1 [] (elevenErrors ++ str ") type") 0) =
        .panicked .bailout (parser.first asciiLib 1 [] (elevenErrors ++ str ") type") 0)) := by
  obtain ⟨p1, q, l, a1, a2, a3, a4, a5, a6, _⟩ :=
    (parseDecl_bad_declaration parser.declStart _ (parser.first_inv asciiLib 1 []
      (str ") type") 0) (by decide!)).2.1 (by decide!)
  exact ⟨⟨parser.first_inv _ _ _ _ _, by decide!, p1, q, l, a1, a2, a3, a4, a5,
      a6 (by decide!)⟩, by decide!,
    (parseDecl_bad_declaration parser.declStart _ (parser.first_inv asciiLib 1 []
      (elevenErrors ++ str ") type") 0) (by decide!)).1 (by decide!)⟩

/-- C12, amended: `parseImportSpec` at a path token that is the string literal
`L`, in every mode. When `isValidImport(L)` is false, `error` gets the error
`invalid import path: L` at the position of the literal; if `error` gives up
(without `AllErrors`, more than ten errors recorded) `parseImportSpec` panics
with `bailout` in the state of the call. Otherwise it either returns an
`ImportSpec` whose `Path.Value` is `L` and appends it to the import list, or
(only without `AllErrors`) the `expectSemi` that follows gives up and
`parseImportSpec` panics with `bailout`, with more than ten errors recorded.
When it returns, the errors it recorded are the error `invalid import path: L`
exactly when `isValidImport(L)` is false and `error` did not discard the error
(without `AllErrors`, on the line of the last recorded error), followed by
errors with other messages. -/
theorem parseImportSpec_invalid_path (doc : Option CommentGroup) (p : parser) (hp : p.Inv)
    (ht : p.tok = .STRING) :
    (parser.isValidImport p.scanner.lib p.lit = false → p.errorFate p.pos = .bailout →
      parser.parseImportSpec doc p = .panicked .bailout p) ∧
    (parser.isValidImport p.scanner.lib p.lit = true ∨ p.errorFate p.pos ≠ .bailout →
      (∃ q spec l, parser.parseImportSpec doc p = .ok (.ImportSpec spec) q ∧
        spec.Path.Value = p.lit ∧ q.imports = p.imports ++ [spec] ∧
        q.errors = p.errors ++
          (if parser.isValidImport p.scanner.lib p.lit = true ∨
              p.errorFate p.pos = .discarded then []
            else [⟨p.file.Position p.pos, str "invalid import path: " ++ p.lit⟩]) ++ l ∧
        ∀ e ∈ l, e.Msg ≠ str "invalid import path: " ++ p.lit) ∨
      (p.mode &&& AllErrors = 0 ∧
        ∃ q, parser.parseImportSpec doc p = .panicked .bailout q ∧ 10 < q.errors.length)) ∧
    ((p.mode &&& AllErrors ≠ 0 → p.errorFate p.pos = .recorded) ∧
      (p.errorFate p.pos = .discarded → p.mode &&& AllErrors = 0 ∧
        p.errors.getLast?.map (fun e => e.Pos.Line) = some (p.file.Position p.pos).Line) ∧
      (p.errorFate p.pos = .bailout → p.mode &&& AllErrors = 0 ∧ 10 < p.errors.length)) := by
  refine (fun (h : _ ∧ _) => ⟨h.1, h.2, parser.errorFate_modes p p.pos⟩) ?_
  have tail : ∀ q1 : parser, q1.Inv → q1.mode = p.mode → q1.imports = p.imports →
      (∃ q spec l, ((do
          parser.next
          let y ← pure p.lit
          (fun path => do
            parser.expectSemi
            let p1 ← getP
            let spec : ImportSpec := ⟨doc, ⟨p.pos, .STRING, path⟩, p1.lineComment, 0⟩
            modP (fun q => { q with imports := q.imports ++ [spec] })
            pure (Spec.ImportSpec spec) : GoString → P Spec) y) q1) = .ok (.ImportSpec spec) q ∧
        spec.Path.Value = p.lit ∧ q.imports = p.imports ++ [spec] ∧
        q.errors = q1.errors ++ l ∧ ∀ e ∈ l, e.Msg ≠ str "invalid import path: " ++ p.lit) ∨
      (p.mode &&& AllErrors = 0 ∧ ∃ q, ((do
          parser.next
          let y ← pure p.lit
          (fun path => do
            parser.expectSemi
            let p1 ← getP
            let spec : ImportSpec := ⟨doc, ⟨p.pos, .STRING, path⟩, p1.lineComment, 0⟩
            modP (fun q => { q with imports := q.imports ++ [spec] })
            pure (Spec.ImportSpec spec) : GoString → P Spec) y) q1) = .panicked .bailout q ∧
        10 < q.errors.length) := by
    intro q1 h1 hm1 hi1
    obtain ⟨_, q2, e2, f2, _⟩ := (parser.next_good false q1 h1).returns
    have g3 := parser.expectSemi_good q2 f2.inv
    cases e3 : parser.expectSemi q2 with
    | ok u q3 =>
      have f3 := g3.frame_eq e3
      obtain ⟨l2, el2, m2⟩ := f2.errs
      obtain ⟨l3, el3, m3⟩ := f3.errs
      refine Or.inl ⟨{ q3 with imports := q3.imports ++
          [(⟨doc, ⟨p.pos, .STRING, p.lit⟩, q3.lineComment, 0⟩ : ImportSpec)] },
        ⟨doc, ⟨p.pos, .STRING, p.lit⟩, q3.lineComment, 0⟩, l2 ++ l3, ?_, rfl, ?_, ?_, ?_⟩
      · exact (P.bind_ok e2).trans ((P.bind_ok (P.pure_apply _ _)).trans
          ((P.bind_ok e3).trans rfl))
      · show q3.imports ++ _ = _
        rw [f3.imports rfl, f2.imports rfl, hi1]
      · show q3.errors = _
        rw [el3, el2, List.append_assoc]
      · intro e he
        rcases List.mem_append.mp he with h | h
        · exact synMsg_invalid (m2 rfl e h)
        · exact synMsg_invalid (m3 rfl e h)
    | panicked x q3 =>
      obtain ⟨hx, hq, hf⟩ := parser.expectSemi_panics f2.inv e3
      obtain ⟨b1, b2⟩ := parser.errorFate_gives_up hf
      refine Or.inr ⟨by rw [← hm1, ← f2.mode]; exact b1, q2, ?_, b2⟩
      rw [hx, hq] at e3
      exact (P.bind_ok e2).trans ((P.bind_ok (P.pure_apply _ _)).trans (P.bind_panicked e3))
    | outOfFuel => exact g3.noFuel e3
  refine ⟨fun hv hf => ?_, fun h => ?_⟩
  · unfold parser.parseImportSpec
    rw [getP_bind_apply, if_pos ht, if_pos (by rw [hv]; decide)]
    exact P.bind_panicked (parser.error_when_bailout _ hf)
  · by_cases hv : parser.isValidImport p.scanner.lib p.lit = true
    · rcases tail p hp rfl rfl with ⟨q, spec, l, e, h1, h2, h3, h4⟩ | ⟨hm, q, e, h1⟩
      · refine Or.inl ⟨q, spec, l, ?_, h1, h2, ?_, h4⟩
        · rw [← e]
          unfold parser.parseImportSpec
          rw [getP_bind_apply, if_pos ht, if_neg (not_not.mpr hv)]
          rfl
        · rw [h3, if_pos (Or.inl hv), List.append_nil]
      · refine Or.inr ⟨hm, q, ?_, h1⟩
        rw [← e]
        unfold parser.parseImportSpec
        rw [getP_bind_apply, if_pos ht, if_neg (not_not.mpr hv)]
        rfl
    · have hnb : p.errorFate p.pos ≠ .bailout := by
        rcases h with h | h
        · exact absurd h hv
        · exact h
      cases hf : p.errorFate p.pos with
      | bailout => exact absurd hf hnb
      | discarded =>
        rcases tail p hp rfl rfl with ⟨q, spec, l, e, h1, h2, h3, h4⟩ | ⟨hm, q, e, h1⟩
        · refine Or.inl ⟨q, spec, l, ?_, h1, h2, ?_, h4⟩
          · rw [← e]
            unfold parser.parseImportSpec
            rw [getP_bind_apply, if_pos ht, if_pos hv,
              P.bind_ok (parser.error_when_discarded _ hf)]
          · rw [h3, if_pos (Or.inr rfl), List.append_nil]
        · refine Or.inr ⟨hm, q, ?_, h1⟩
          rw [← e]
          unfold parser.parseImportSpec
          rw [getP_bind_apply, if_pos ht, if_pos hv,
            P.bind_ok (parser.error_when_discarded _ hf)]
      | recorded =>
        rcases tail _ (parser.addError_inv hp (p.file.Position p.pos)
          (str "invalid import path: " ++ p.lit)) rfl rfl with
          ⟨q, spec, l, e, h1, h2, h3, h4⟩ | ⟨hm, q, e, h1⟩
        · refine Or.inl ⟨q, spec, l, ?_, h1, h2, ?_, h4⟩
          · rw [← e]
            unfold parser.parseImportSpec
            rw [getP_bind_apply, if_pos ht, if_pos hv,
              P.bind_ok (parser.error_when_recorded _ hf)]
          · rw [h3, if_neg (by
              rintro (h | h)
              · exact hv h
              · exact ErrorFate.noConfusion h)]
            rfl
        · refine Or.inr ⟨hm, q, ?_, h1⟩
          rw [← e]
          unfold parser.parseImportSpec
          rw [getP_bind_apply, if_pos ht, if_pos hv,
            P.bind_ok (parser.error_when_recorded _ hf)]

/-- Witness of `parseImportSpec_invalid_path`: the parser at the string
literal `"a b.api"`, in the mode `AllErrors`, where the parser never gives
up: the `ImportSpec` is returned and the error recorded. Without that mode,
after eleven errors of the scanner on earlier lines, `parseImportSpec` at that
literal panics with `bailout` in the state of the call. -/
theorem parseImportSpec_invalid_path_witness :
    ((parser.first asciiLib 1 [] (str "\"a b.api\"") 16).Inv ∧
      (parser.first asciiLib 1 [] (str "\"a b.api\"") 16).tok = .STRING ∧
      ∃ q spec l, parser.parseImportSpec none (parser.first asciiLib 1 [] (str "\"a b.api\"") 16) =
          .ok (.ImportSpec spec) q ∧
        spec.Path.Value = (parser.first asciiLib 1 [] (str "\"a b.api\"") 16).lit ∧
        q.imports = (parser.first asciiLib 1 [] (str "\"a b.api\"") 16).imports ++ [spec] ∧
        q.errors = (parser.first asciiLib 1 [] (str "\"a b.api\"") 16).errors ++
          [⟨(parser.first asciiLib 1 [] (str "\"a b.api\"") 16).file.Position
              (parser.first asciiLib 1 [] (str "\"a b.api\"") 16).pos,
              str "invalid import path: " ++
                (parser.first asciiLib 1 [] (str "\"a b.api\"") 16).lit⟩] ++ l ∧
        ∀ e ∈ l, e.Msg ≠ str "invalid import path: " ++
          (parser.first asciiLib 1 [] (str "\"a b.api\"") 16).lit) ∧
    ((parser.first asciiLib 1 [] (elevenErrors ++ str "\"a b.api\"") 0).errors.length = 11 ∧
      parser.parseImportSpec none
          (parser.first asciiLib 1 [] (elevenErrors ++ str "\"a b.api\"") 0) =
        .panicked .bailout
          (parser.first asciiLib 1 [] (elevenErrors ++ str "\"a b.api\"") 0)) := by
  refine ⟨?_, by decide!,
    (parseImportSpec_invalid_path none _ (parser.first_inv asciiLib 1 []
      (elevenErrors ++ str "\"a b.api\"") 0) (by decide!)).1 (by decide!) (by decide!)⟩
  rcases (parseImportSpec_invalid_path none _ (parser.first_inv asciiLib 1 []
      (str "\"a b.api\"") 16) (by decide!)).2.1 (Or.inr (by decide!)) with
    ⟨q, spec, l, a1, a2, a3, a4, a5⟩ | ⟨hm, _⟩
  · refine ⟨parser.first_inv _ _ _ _ _, by decide!, q, spec, l, a1, a2, a3, ?_, a5⟩
    rw [a4, if_neg (by decide!)]
  · exact absurd hm (by decide!)


/-- C9, amended: when the current token is `syntax`, the tokens after it can
be read, and when they are `=` and a string literal `L`, `parseSyntax` returns
the `SyntaxSpec` with the position of `syntax`, the position of `=` and the
name `L` at its position, with the text of the token, as follows. When `L` is
followed by a semicolon (which the scanner also inserts at the end of the
line), `)` or a closing brace, the parser is then in the state reached by
reading these tokens, so that `parseSyntax` has recorded no error. When
another token follows, `error` gets the error `expected ';'` (followed by what
was found) at that token: unless `error` gives up (without `AllErrors`, more
than ten errors recorded), in which case `parseSyntax` panics with `bailout`,
the `SyntaxSpec` is returned in the state reached from `p5` by `next` (at `,`)
or by `advance` with the statement-start set, where `p5` is the state at that
token with the error added if `error` records it, and that state itself if
`error` discards it (without `AllErrors`, on the line of the last recorded
error). -/
theorem parseSyntax_pragma (p : parser) (hp : p.Inv) (h0 : p.tok = .SYNTAX) :
    ∃ p1 p2 p3 p4, parser.next p = .ok () p1 ∧ parser.next p1 = .ok () p2 ∧
      parser.next p2 = .ok () p3 ∧ parser.next p3 = .ok () p4 ∧
      (p1.tok = .ASSIGN → p2.tok = .STRING →
        (p3.tok = .SEMICOLON → parser.parseSyntax p =
          .ok ⟨p.pos, p1.pos, some ⟨p2.pos, .STRING, p2.lit⟩⟩ p4) ∧
        (p3.tok = .RPAREN ∨ p3.tok = .RBRACE → parser.parseSyntax p =
          .ok ⟨p.pos, p1.pos, some ⟨p2.pos, .STRING, p2.lit⟩⟩ p3) ∧
        (p3.tok ≠ .SEMICOLON → p3.tok ≠ .RPAREN → p3.tok ≠ .RBRACE →
          (p3.errorFate p3.pos = .bailout →
            parser.parseSyntax p = .panicked .bailout p3) ∧
          (p3.errorFate p3.pos ≠ .bailout →
            ∃ p5 q, parser.parseSyntax p =
                .ok ⟨p.pos, p1.pos, some ⟨p2.pos, .STRING, p2.lit⟩⟩ q ∧
              (p3.errorFate p3.pos = .discarded → p5 = p3) ∧
              (p3.errorFate p3.pos = .recorded → ∃ found,
                p5 = p3.addError (p3.file.Position p3.pos) (str "expected ';'" ++ found)) ∧
              (p3.tok = .COMMA → parser.next p5 = .ok () q) ∧
              (p3.tok ≠ .COMMA → parser.advance parser.stmtStart p5 = .ok () q)))) ∧
      ((p3.mode &&& AllErrors ≠ 0 → p3.errorFate p3.pos = .recorded) ∧
        (p3.errorFate p3.pos = .discarded → p3.mode &&& AllErrors = 0 ∧
          p3.errors.getLast?.map (fun e => e.Pos.Line) = some (p3.file.Position p3.pos).Line) ∧
        (p3.errorFate p3.pos = .bailout → p3.mode &&& AllErrors = 0 ∧ 10 < p3.errors.length)) := by
  obtain ⟨p1, e1, i1⟩ := parser.next_returns p hp
  obtain ⟨p2, e2, i2⟩ := parser.next_returns p1 i1
  obtain ⟨p3, e3, i3⟩ := parser.next_returns p2 i2
  obtain ⟨p4, e4, _⟩ := parser.next_returns p3 i3
  refine ⟨p1, p2, p3, p4, e1, e2, e3, e4, fun h1 h2 => ?_, parser.errorFate_modes p3 p3.pos⟩
  have key : ∀ q, parser.expectSemi p3 = .ok () q → parser.parseSyntax p =
      .ok ⟨p.pos, p1.pos, some ⟨p2.pos, .STRING, p2.lit⟩⟩ q := by
    intro q e
    unfold parser.parseSyntax
    refine (P.bind_ok (parser.expect_ok h0 e1)).trans ?_
    refine (P.bind_ok (parser.expect_ok h1 e2)).trans ?_
    rw [getP_bind_apply, if_pos h2]
    exact (P.bind_ok e3).trans ((P.bind_ok (P.pure_apply _ _)).trans ((P.bind_ok e).trans rfl))
  have bail : parser.expectSemi p3 = .panicked .bailout p3 → parser.parseSyntax p =
      .panicked .bailout p3 := by
    intro e
    unfold parser.parseSyntax
    refine (P.bind_ok (parser.expect_ok h0 e1)).trans ?_
    refine (P.bind_ok (parser.expect_ok h1 e2)).trans ?_
    rw [getP_bind_apply, if_pos h2]
    exact (P.bind_ok e3).trans ((P.bind_ok (P.pure_apply _ _)).trans (P.bind_panicked e))
  refine ⟨fun h3 => key p4 (parser.expectSemi_semi h3 e4),
    fun h3 => key p3 (parser.expectSemi_close h3), fun a b c => ?_⟩
  obtain ⟨c1, c2⟩ := parser.expectSemi_other p3 i3 b c a
  refine ⟨fun hf => bail (c1 hf), fun hf => ?_⟩
  obtain ⟨p5, q, e, r1, r2, r3, r4⟩ := c2 hf
  exact ⟨p5, q, key q e, r1, r2, r3, r4⟩

/-- Witness of `parseSyntax_pragma`: the parser at the first token of the
source of the line `syntax = "v1"`, for which the name is the text `"v1"` of
four characters. After eleven errors of the scanner on earlier lines, at
`syntax = "v1" x` without the mode `AllErrors`, `parseSyntax` panics with
`bailout`. -/
theorem parseSyntax_pragma_witness :
    ((parser.first asciiLib 1 [] (str "// api\nsyntax = \"v1\"\n") 0).Inv ∧
      (parser.first asciiLib 1 [] (str "// api\nsyntax = \"v1\"\n") 0).tok = .SYNTAX ∧
      (∃ p1 p2 p3 p4,
        parser.next (parser.first asciiLib 1 [] (str "// api\nsyntax = \"v1\"\n") 0) = .ok () p1 ∧
        parser.next p1 = .ok () p2 ∧ parser.next p2 = .ok () p3 ∧ parser.next p3 = .ok () p4 ∧
        (p1.tok = .ASSIGN → p2.tok = .STRING →
          (p3.tok = .SEMICOLON →
            parser.parseSyntax (parser.first asciiLib 1 [] (str "// api\nsyntax = \"v1\"\n") 0) =
              .ok ⟨(parser.first asciiLib 1 [] (str "// api\nsyntax = \"v1\"\n") 0).pos, p1.pos,
                some ⟨p2.pos, .STRING, p2.lit⟩⟩ p4) ∧
          (p3.tok = .RPAREN ∨ p3.tok = .RBRACE →
            parser.parseSyntax (parser.first asciiLib 1 [] (str "// api\nsyntax = \"v1\"\n") 0) =
              .ok ⟨(parser.first asciiLib 1 [] (str "// api\nsyntax = \"v1\"\n") 0).pos, p1.pos,
                some ⟨p2.pos, .STRING, p2.lit⟩⟩ p3))) ∧
      (match parser.parseSyntax (parser.first asciiLib 1 [] (str "// api\nsyntax = \"v1\"\n") 0) with
        | .ok s q => some (s.TokPos, s.Assign, s.Name.map (fun n => (n.ValuePos, n.Value)),
            q.errors.length)
        | _ => none) = some (8, 15, some (17, str "\"v1\""), 0)) ∧
    ((parser.first asciiLib 1 [] (elevenErrors ++ str "syntax = \"v1\" x") 0).tok = .SYNTAX ∧
      ∃ q, parser.parseSyntax (parser.first asciiLib 1 [] (elevenErrors ++ str "syntax = \"v1\" x") 0) = .panicked .bailout q ∧
        q.tok = .IDENT ∧ q.errors.length = 11) := by
  obtain ⟨p1, p2, p3, p4, e1, e2, e3, e4, h, _⟩ :=
    parseSyntax_pragma _ (parser.first_inv asciiLib 1 [] (str "// api\nsyntax = \"v1\"\n") 0)
      (by decide!)
  refine ⟨⟨parser.first_inv _ _ _ _ _, by decide!,
    ⟨p1, p2, p3, p4, e1, e2, e3, e4, fun a b => ⟨(h a b).1, (h a b).2.1⟩⟩, by decide!⟩,
    by decide!, ?_⟩
  obtain ⟨b1, b2, b3, b4, f1, f2, f3, f4, g, _⟩ :=
    parseSyntax_pragma _ (parser.first_inv asciiLib 1 [] (elevenErrors ++ str "syntax = \"v1\" x") 0)
      (by decide!)
  have t1 : (match parser.next (parser.first asciiLib 1 [] (elevenErrors ++ str "syntax = \"v1\" x") 0) with
      | .ok _ q => some q.tok | _ => none) = some .ASSIGN := by decide!
  have t2 : (match (parser.next >>= fun _ => parser.next)
        (parser.first asciiLib 1 [] (elevenErrors ++ str "syntax = \"v1\" x") 0) with
      | .ok _ q => some q.tok | _ => none) = some .STRING := by decide!
  have t3 : (match (parser.next >>= fun _ => parser.next >>= fun _ => parser.next)
        (parser.first asciiLib 1 [] (elevenErrors ++ str "syntax = \"v1\" x") 0) with
      | .ok _ q => some (q.tok, q.errorFate q.pos, q.errors.length) | _ => none) =
        some (.IDENT, .bailout, 11) := by decide!
  rw [P.bind_ok f1, P.bind_ok f2, f3] at t3
  rw [P.bind_ok f1, f2] at t2
  rw [f1] at t1
  simp only [Option.some.injEq, Prod.mk.injEq] at t1 t2 t3
  refine ⟨b3, ((g t1 t2).2.2 ?_ ?_ ?_).1 t3.2.1, t3.1, t3.2.2⟩ <;> rw [t3.1] <;> decide


/-- C30: from an indentation that is not negative and with `n` at most the
length of the buffer, `writeWhitespace(n)` signals the internal error
`negative indentation:` exactly when, going through the first `n` entries, an
unindent entry comes while the indentation is 0, and a call that returns
leaves an indentation that is not negative. But the second half of the claim
fails for the calls that signal the error: `internalError` always panics, the
statement `p.indent = 0` after it is never reached, and the printer is left
with a negative indentation. -/
theorem writeWhitespace_negative_indentation (p : printer) (n : Nat) (h0 : 0 ≤ p.indent)
    (hn : n ≤ p.wsbuf.length) :
    ((∃ q a, p.writeWhitespace n = .panicked (.internal (str "negative indentation:") a) q)
        ↔ unindentAtZero (p.wsbuf.take n) p.indent = true) ∧
    (∀ q, p.writeWhitespace n = .ok () q → 0 ≤ q.indent) ∧
    (∀ q a, p.writeWhitespace n = .panicked (.internal (str "negative indentation:") a) q →
      q.indent < 0) := by
  rcases writeWhitespace_done p n hn with ⟨q, e, _, hk, _, _, hg⟩ | ⟨q, a, e, hneg, _, hg⟩
  · refine ⟨⟨?_, ?_⟩, ?_, ?_⟩
    · rintro ⟨q1, a1, e1⟩
      rw [e] at e1; exact PrintRes.noConfusion e1
    · intro hu
      rw [goesNegative_eq _ _ h0, hu] at hg
      exact Bool.noConfusion hg
    · intro q1 e1
      rw [e] at e1
      cases e1
      rw [hk]
      exact goesNegative_indent _ _ h0 hg
    · intro q1 a1 e1
      rw [e] at e1; exact PrintRes.noConfusion e1
  · refine ⟨⟨fun _ => ?_, fun _ => ⟨q, [a], e⟩⟩, ?_, ?_⟩
    · rw [← goesNegative_eq _ _ h0]; exact hg
    · intro q1 e1
      rw [e] at e1; exact PrintRes.noConfusion e1
    · intro q1 a1 e1
      rw [e] at e1
      cases e1
      exact hneg

/-- Witness of C30, the failing input: indentation 0 and the buffer
`unindent` with `n = 1`. The call panics with the internal error and leaves
the indentation -1. -/
theorem writeWhitespace_negative_indentation_witness :
    (0 : Int) ≤ 0 ∧ 1 ≤ ([60] : List whiteSpace).length ∧
    unindentAtZero [60] 0 = true ∧
    (∃ q a, printer.writeWhitespace { printer.init ⟨0, 8, 0⟩ with wsbuf := [60] } 1
        = .panicked (.internal (str "negative indentation:") a) q ∧ q.indent < 0) ∧
    (match printer.writeWhitespace { printer.init ⟨0, 8, 0⟩ with wsbuf := [60] } 1 with
      | .panicked _ q => some q.indent
      | _ => none) = some (-1) := by
  have h := writeWhitespace_negative_indentation { printer.init ⟨0, 8, 0⟩ with wsbuf := [60] } 1
    (by decide) (by decide)
  obtain ⟨q, a, e⟩ := h.1.mpr (by decide)
  exact ⟨by decide, by decide, by decide, ⟨q, a, e, h.2.2 q a e⟩, by decide⟩


/-- At the end of the input, with the flag clear, `Scan` records no error. -/
theorem Scanner.Scan_eof_errs {s : Scanner} (hs : s.Inv) (h1 : s.ch = eof)
    (h2 : s.insertSemi = false) : ∃ r, s.Scan = some r ∧ r.s.errs = s.errs := by
  have hlt : ¬ s.rdOffset < s.src.length := by
    intro hlt
    have := hs.1 h1
    omega
  obtain ⟨n1, n2, n3, n4, n5, n6, n7, n8, n9⟩ := Scanner.next_done s hlt
  have hch : s.ch = -1 := h1
  have hw : ¬ (s.ch = 32 ∨ s.ch = 9 ∨ (s.ch = 10 ∧ s.insertSemi = false) ∨ s.ch = 13) := by
    rw [hch]
    rintro (h | h | h | h)
    · exact absurd h (by decide)
    · exact absurd h (by decide)
    · exact absurd h.1 (by decide)
    · exact absurd h (by decide)
  have hsk : s.skipWhitespace = some s := by
    unfold Scanner.skipWhitespace Scanner.fuel
    exact skipWhitespaceLoop_stay _ s hw
  have hL : ¬ isLetter s.lib s.ch = true := by
    rw [hch]
    simp [isLetter]
  have hD : ¬ (isDecimal s.ch = true ∨ (s.ch = 46 ∧ isDecimal (Int.ofNat s.peek) = true)) := by
    rw [hch]
    simp [isDecimal]
  have hf : s.next.insertSemi = false := by rw [n5, h2]
  unfold Scanner.Scan Scanner.fuel
  unfold ScanLoop
  simp only [hsk]
  rw [if_neg hL, if_neg hD, if_neg (by rw [hch]; decide), if_pos hch]
  simp only [hf, Bool.false_eq_true, if_false]
  refine ⟨_, rfl, ?_⟩
  unfold Scanner.finish
  simp only
  split_ifs
  · exact n9
  · exact n9


theorem Scanner.after_errs_step (k : Nat) (s : Scanner) (hs : s.Inv) :
    ∀ e ∈ (s.after k).errs, e ∈ (s.after (k + 1)).errs := by
  intro e he
  obtain ⟨r, er, a1, _⟩ := Scanner.after_succ k s hs
  obtain ⟨r1, e1, pr⟩ := Scanner.Scan_post (Scanner.after_inv k s hs).1
  rw [er] at e1
  cases e1
  obtain ⟨l, el, _⟩ := pr.errs
  rw [a1, el]
  exact List.mem_append_left _ he

theorem Scanner.after_errs_mono (s : Scanner) (hs : s.Inv) (k : Nat) :
    ∀ n, ∀ e ∈ (s.after k).errs, e ∈ (s.after (k + n)).errs
  | 0 => fun _ he => he
  | n + 1 => fun e he =>
    Scanner.after_errs_step (k + n) s hs e (Scanner.after_errs_mono s hs k n e he)

/-- Once the end of the input is reached, further calls of `Scan` record no
error. -/
theorem Scanner.after_eof_errs (s : Scanner) (hs : s.Inv) (k : Nat)
    (h1 : (s.after k).ch = eof) (h2 : (s.after k).insertSemi = false) :
    ∀ n, (s.after (k + n)).errs = (s.after k).errs := by
  have key : ∀ n, (s.after (k + n)).ch = eof ∧ (s.after (k + n)).insertSemi = false ∧
      (s.after (k + n)).errs = (s.after k).errs := by
    intro n
    induction n with
    | zero => exact ⟨h1, h2, rfl⟩
    | succ n ih =>
      obtain ⟨c1, c2, c3⟩ := ih
      have hi := (Scanner.after_inv (k + n) s hs).1
      obtain ⟨r, e, a1, _⟩ := Scanner.after_succ (k + n) s hs
      obtain ⟨r2, e2, ht, pr⟩ := Scanner.Scan_eof hi c1 c2
      obtain ⟨r3, e3, x3⟩ := Scanner.Scan_eof_errs hi c1 c2
      rw [e] at e2 e3
      cases e2
      cases e3
      have : k + (n + 1) = k + n + 1 := rfl
      rw [this, a1]
      exact ⟨(pr.atEnd ht).1, (pr.atEnd ht).2, x3.trans c3⟩
  exact fun n => (key n).2.2

namespace parser

/-- From a state without errors at the token `syntax`, `parseFile` builds a
file with the `syntax` statement, or the parser gives up, which it does only
without the mode `AllErrors`. -/
theorem parseFile_outcome (p : parser) (hp : p.Inv) (he : p.errors = [])
    (ht : p.tok = .SYNTAX) :
    (∃ f q, parseFile p = .ok (some f) q ∧ f.Syntax.isSome = true) ∨
    (p.mode &&& AllErrors = 0 ∧ ∃ q, parseFile p = .panicked .bailout q) := by
  have hl : ¬ p.errors.length ≠ 0 := by
    rw [he]
    simp
  have g : Res.Good true false 3 10 0 p (parseFile p) := by
    unfold parseFile
    rw [getP_bind_apply]
    split_ifs
    refine Res.Good.bind 3 10 0 3 13 1 0 10 0
      (Res.Good.anyB 3 13 1 3 13 1 (parseSyntax_good p hp)
        ⟨Or.inl (by omega), by omega, by omega⟩)
      (fun _ q _ hq => ?_) ⟨Or.inl (by omega), by omega, by omega, by omega, by omega⟩
    refine Res.Good.bind 0 10 0 0 10 0 0 10 0 (decls_good q hq.inv) (fun _ q2 _ h2 => ?_)
      ⟨Or.inl (by omega), by omega, by omega, by omega, by omega⟩
    refine Res.Good.getP_bind ?_
    split_ifs
    · exact pure_bind_good (Res.Good.pure true false 0 10 _ h2.inv)
    · exact pure_bind_good (Res.Good.pure true false 0 10 _ h2.inv)
  rcases g.outcome with ⟨a, q, h, _⟩ | ⟨q, h, hm⟩
  · refine Or.inl ?_
    have h0 := h
    unfold parseFile at h
    rw [getP_bind_apply] at h
    split_ifs at h
    obtain ⟨syn, q1, e1, h⟩ := P.bind_eq_ok.mp h
    obtain ⟨decls, q2, e2, h⟩ := P.bind_eq_ok.mp h
    rw [getP_bind_apply] at h
    have key : a = some ⟨p.leadComment, some syn, decls, q2.imports, q2.comments⟩ := by
      split_ifs at h
      · obtain ⟨_, q3, e3, h⟩ := P.bind_eq_ok.mp h
        cases e3
        cases h
        rfl
      · obtain ⟨_, q3, e3, h⟩ := P.bind_eq_ok.mp h
        cases e3
        cases h
        rfl
    rw [key] at h0
    exact ⟨_, q, h0, rfl⟩
  · exact Or.inr ⟨hm, q, h⟩

end parser

/-- Every error that the scanner records for the source, in any number of
calls of `Scan`, is among the errors of the parser when `parseFile` has built
a file. -/
theorem parseRun_hears {lib : Lib} {base : Nat} {filename src : GoString} {mode : Nat}
    {f : AstFile} {q : parser} (h : parseRun lib base filename src mode = .ok (some f) q) :
    ∀ n, ∀ e ∈ ((parser.start lib base filename src mode).scanner.after n).errs,
      e ∈ q.errors := by
  obtain ⟨c, t, _, _⟩ := parseRun_collected h
  have h1 : q.scanner.clear.ch = ((parser.start lib base filename src mode).scanner.after
      q.nscan).clear.ch := by rw [c.pend.scan]
  have h2 : q.scanner.clear.insertSemi = ((parser.start lib base filename src mode).scanner.after
      q.nscan).clear.insertSemi := by rw [c.pend.scan]
  have he := c.pend.inv.atEnd t
  intro n e hn
  have m1 := Scanner.after_errs_mono _ c.pend.src n q.nscan e hn
  rw [Nat.add_comm, Scanner.after_eof_errs _ c.pend.src q.nscan (h1.symm.trans he.1)
    (h2.symm.trans he.2) n] at m1
  exact c.pend.heard e m1

/-- C18, amended: a lexical error in or before the very first token blocks the
construction of the AST: when an error has been recorded while `init` reads
the first token, `ParseFile` returns the empty `File` with the sorted list of
the errors recorded so far. When no error has been recorded up to the first
token and that token is `syntax`, then, whatever lexical errors the rest of
the source holds, `parseFile` builds a `File` with the `syntax` statement from
the whole source (the parser is at `EOF`), `ParseFile` returns it with the
sorted list of the errors, and every error that the scanner records for the
source is in that list; or the parser gives up, only without the mode
`AllErrors`, and `ParseFile` returns the empty `File` with the sorted list of
the errors recorded so far. -/
theorem ParseFile_lexical_errors (lib : Lib) (base mode : Nat) (filename src : GoString)
    (p : parser) (hi : parser.init lib base filename src mode = .ok () p) :
    (p.errors ≠ [] →
      ParseFile lib base filename src mode =
        .returned AstFile.zero (some (ErrorList.Sort p.errors))) ∧
    (p.errors = [] → p.tok = .SYNTAX →
      (∃ f q, parseRun lib base filename src mode = .ok (some f) q ∧
        ParseFile lib base filename src mode =
          .returned f (ErrorList.Err (ErrorList.Sort q.errors)) ∧
        f.Syntax.isSome = true ∧ q.tok = .EOF ∧
        ∀ n, ∀ e ∈ ((parser.start lib base filename src mode).scanner.after n).errs,
          e ∈ ErrorList.Sort q.errors) ∨
      (mode &&& AllErrors = 0 ∧
        ∃ q, parseRun lib base filename src mode = .panicked .bailout q ∧
          ParseFile lib base filename src mode =
            .returned AstFile.zero (ErrorList.Err (ErrorList.Sort q.errors)))) := by
  have hrun : parseRun lib base filename src mode = parser.parseFile p := by
    unfold parseRun
    rw [hi]
  have fr := (parser.next_good false _ (parser.start_inv lib base filename src mode)).frame_eq
    ((parser.init_eq lib base filename src mode).symm.trans hi)
  refine ⟨fun he => ?_, fun he ht => ?_⟩
  · have h1 : parser.parseFile p = .ok none p := by
      have : p.errors.length ≠ 0 := fun h => he (List.length_eq_zero.mp h)
      simp only [parser.parseFile, P.bind_apply, P.bind, getP, if_pos this, P.pure_apply]
    unfold ParseFile
    rw [hrun]
    simp only [h1, Option.getD_none]
    congr 1
    unfold ErrorList.Err
    have : (ErrorList.Sort p.errors).length ≠ 0 := by
      rw [(ErrorList.Sort_perm p.errors).length_eq]
      exact fun h => he (List.length_eq_zero.mp h)
    rw [if_neg this]
  · rcases parser.parseFile_outcome p fr.inv he ht with ⟨f, q, e, hs⟩ | ⟨hm, q, e⟩
    · rw [← hrun] at e
      obtain ⟨_, t, _, _⟩ := parseRun_collected e
      refine Or.inl ⟨f, q, e, ?_, hs, t, fun n x hx => ?_⟩
      · unfold ParseFile
        rw [e]
        rfl
      · exact (ErrorList.Sort_perm q.errors).mem_iff.mpr (parseRun_hears e n x hx)
    · rw [← hrun] at e
      refine Or.inr ⟨?_, q, e, ?_⟩
      · have hmode : p.mode = mode := fr.mode
        rw [← hmode]
        exact hm
      · unfold ParseFile
        rw [e]

/-- Witness of `ParseFile_lexical_errors`: a source with the illegal character
`$` at its end, in the mode `AllErrors`: the file is built from the whole
source and the error of the scanner is in the list. -/
theorem ParseFile_lexical_errors_witness :
    ∃ p, parser.init asciiLib 1 [] (str "syntax = \"v1\"\ntype A \x7b\x7d $") 16 = .ok () p ∧
      p.errors = [] ∧ p.tok = .SYNTAX ∧
      ∃ f q, parseRun asciiLib 1 [] (str "syntax = \"v1\"\ntype A \x7b\x7d $") 16 =
          .ok (some f) q ∧
        ParseFile asciiLib 1 [] (str "syntax = \"v1\"\ntype A \x7b\x7d $") 16 =
          .returned f (ErrorList.Err (ErrorList.Sort q.errors)) ∧
        f.Syntax.isSome = true ∧ q.tok = .EOF ∧
        ∀ n, ∀ e ∈ ((parser.start asciiLib 1 []
            (str "syntax = \"v1\"\ntype A \x7b\x7d $") 16).scanner.after n).errs,
          e ∈ ErrorList.Sort q.errors := by
  have h : (parser.init asciiLib 1 [] (str "syntax = \"v1\"\ntype A \x7b\x7d $") 16).state.map
      (fun p => (p.errors.length, p.tok)) = some (0, .SYNTAX) := by decide!
  have h3 : (match parser.init asciiLib 1 [] (str "syntax = \"v1\"\ntype A \x7b\x7d $") 16 with
      | .ok _ _ => true
      | _ => false) = true := by decide!
  cases hi : parser.init asciiLib 1 [] (str "syntax = \"v1\"\ntype A \x7b\x7d $") 16 with
  | ok u p =>
    rw [hi] at h
    simp only [Res.state, Option.map_some', Option.some.injEq, Prod.mk.injEq] at h
    have he : p.errors = [] := List.length_eq_zero.mp h.1
    rcases (ParseFile_lexical_errors asciiLib 1 16 [] _ p hi).2 he h.2 with r | ⟨hm, _⟩
    · exact ⟨p, rfl, he, h.2, r⟩
    · exact absurd hm (by decide)
  | panicked e p =>
    rw [hi] at h3
    cases h3
  | outOfFuel =>
    rw [hi] at h3
    cases h3


/-- C2, amended: automatic semicolon insertion, negative half. For every source
and every token that `Scan` returns, when the mode lets semicolons be
inserted: if the kind of the token is neither one of those that end a
statement nor `ILLEGAL`, the next call of `Scan` returns a token and that
token is not the synthetic semicolon. An `ILLEGAL` token never sets the flag:
when the token after an `ILLEGAL` token is the synthetic semicolon, the token
before the `ILLEGAL` token is of a kind that ends a statement or `ILLEGAL` in
turn; and after an `ILLEGAL` token that is the first token of the input the
next token is not the synthetic semicolon. -/
theorem Scan_inserts_no_semicolon (lib : Lib) (file : File) (src : GoString) (mode n : Nat)
    (hm : mode &&& dontInsertSemis = 0) :
    ((tokenAt n (Scanner.Init lib file src mode)).map
        (fun t => (t.1.endsStatement, decide (t.1 = .ILLEGAL))) = some (false, false) →
      ∃ t, tokenAt (n + 1) (Scanner.Init lib file src mode) = some t ∧
        t ≠ (.SEMICOLON, str "\n")) ∧
    ((tokenAt (n + 1) (Scanner.Init lib file src mode)).map (fun t => t.1) = some .ILLEGAL →
      tokenAt (n + 2) (Scanner.Init lib file src mode) = some (.SEMICOLON, str "\n") →
      (tokenAt n (Scanner.Init lib file src mode)).map
        (fun t => t.1.endsStatement || decide (t.1 = .ILLEGAL)) = some true) ∧
    ((tokenAt 0 (Scanner.Init lib file src mode)).map (fun t => t.1) = some .ILLEGAL →
      ∃ t, tokenAt 1 (Scanner.Init lib file src mode) = some t ∧
        t ≠ (.SEMICOLON, str "\n")) := by
  obtain ⟨hi, hmode⟩ := Scanner.Init_inv lib file src mode
  refine ⟨fun hk => ?_, fun h1 h2 => ?_, fun h1 => ?_⟩
  · unfold tokenAt at *
    cases hr : nthScan n (Scanner.Init lib file src mode) with
    | none => rw [hr] at hk; simp at hk
    | some r =>
      rw [hr] at hk
      simp only [Option.map_some', Option.some.injEq, Prod.mk.injEq,
        decide_eq_false_iff_not] at hk
      obtain ⟨s1, i1, m1, q1⟩ := nthScan_state n _ r hi hr
      obtain ⟨r1, e1, p1⟩ := Scanner.Scan_post i1
      rw [q1] at e1
      simp only [Option.some.injEq] at e1
      subst e1
      have hflag : r.s.insertSemi = false := by
        rw [p1.flag (by rw [m1, hmode]; exact hm) hk.2]
        exact hk.1
      obtain ⟨r2, e2, p2⟩ := Scanner.Scan_post p1.inv
      rw [nthScan_succ, hr]
      refine ⟨(r2.tok, r2.lit), by simp [e2], ?_⟩
      intro e
      simp only [Prod.mk.injEq] at e
      exact p2.nosemi hflag e
  · unfold tokenAt at *
    cases hr : nthScan n (Scanner.Init lib file src mode) with
    | none =>
      rw [nthScan_succ, hr] at h1
      simp at h1
    | some r =>
      obtain ⟨s0, i0, m0, q0⟩ := nthScan_state n _ r hi hr
      obtain ⟨r0, e0, p0⟩ := Scanner.Scan_post i0
      rw [q0] at e0
      simp only [Option.some.injEq] at e0
      subst e0
      obtain ⟨r1, e1, p1⟩ := Scanner.Scan_post p0.inv
      have hr1 : nthScan (n + 1) (Scanner.Init lib file src mode) = some r1 := by
        rw [nthScan_succ, hr]
        simp [e1]
      obtain ⟨r2, e2, p2⟩ := Scanner.Scan_post p1.inv
      have hr2 : nthScan (n + 2) (Scanner.Init lib file src mode) = some r2 := by
        rw [nthScan_succ, hr1]
        simp [e2]
      rw [hr1] at h1
      rw [hr2] at h2
      simp only [Option.map_some', Option.some.injEq, Prod.mk.injEq] at h1 h2
      have hm0 : r.s.mode &&& dontInsertSemis = 0 := by
        rw [p0.mode, m0, hmode]
        exact hm
      have f1 : r1.s.insertSemi = true := by
        cases hf : r1.s.insertSemi with
        | true => rfl
        | false => exact absurd h2 (p2.nosemi hf)
      have f0 : r.s.insertSemi = true := p1.illegal hm0 h1 f1
      simp only [Option.map_some', Option.some.injEq, Bool.or_eq_true, decide_eq_true_eq]
      by_cases hI : r.tok = .ILLEGAL
      · exact Or.inr hI
      · left
        rw [← p0.flag (by rw [m0, hmode]; exact hm) hI]
        exact f0
  · unfold tokenAt at *
    obtain ⟨r0, e0, p0⟩ := Scanner.Scan_post hi
    have hr0 : nthScan 0 (Scanner.Init lib file src mode) = some r0 := by
      rw [nthScan]
      exact e0
    rw [hr0] at h1
    simp only [Option.map_some', Option.some.injEq] at h1
    have f0 : r0.s.insertSemi = false := by
      cases hf : r0.s.insertSemi with
      | false => rfl
      | true =>
        have := p0.illegal (by rw [hmode]; exact hm) h1 hf
        rw [Scanner.Init_insertSemi] at this
        cases this
    obtain ⟨r1, e1, p1⟩ := Scanner.Scan_post p0.inv
    rw [nthScan_succ, hr0]
    refine ⟨(r1.tok, r1.lit), by simp [e1], ?_⟩
    intro e
    simp only [Prod.mk.injEq] at e
    exact p1.nosemi f0 e

/-- Witness of `Scan_inserts_no_semicolon`: after the keyword `returns` at the
end of a line the next token is the identifier of the next line; in `a $`
followed by a newline the synthetic semicolon after the `ILLEGAL` token has
the identifier before it; and after a `$` that starts the input the line end
gives no semicolon. -/
theorem Scan_inserts_no_semicolon_witness :
    (tokenAt 0 (Scanner.Init asciiLib ⟨[], 1, 10, [0]⟩ (str "returns\n b") 0)
        = some (.RETURNS, str "returns") ∧
      ∃ t, tokenAt 1 (Scanner.Init asciiLib ⟨[], 1, 10, [0]⟩ (str "returns\n b") 0) = some t ∧
        t ≠ (.SEMICOLON, str "\n")) ∧
    ((tokenAt 1 (Scanner.Init asciiLib ⟨[], 1, 4, [0]⟩ (str "a $\n") 0)).map (fun t => t.1)
        = some .ILLEGAL ∧
      tokenAt 2 (Scanner.Init asciiLib ⟨[], 1, 4, [0]⟩ (str "a $\n") 0)
        = some (.SEMICOLON, str "\n") ∧
      (tokenAt 0 (Scanner.Init asciiLib ⟨[], 1, 4, [0]⟩ (str "a $\n") 0)).map
        (fun t => t.1.endsStatement || decide (t.1 = .ILLEGAL)) = some true) ∧
    ((tokenAt 0 (Scanner.Init asciiLib ⟨[], 1, 3, [0]⟩ (str "$\nb") 0)).map (fun t => t.1)
        = some .ILLEGAL ∧
      ∃ t, tokenAt 1 (Scanner.Init asciiLib ⟨[], 1, 3, [0]⟩ (str "$\nb") 0) = some t ∧
        t ≠ (.SEMICOLON, str "\n")) :=
  ⟨⟨by decide!,
    (Scan_inserts_no_semicolon asciiLib ⟨[], 1, 10, [0]⟩ (str "returns\n b") 0 0
      (by decide!)).1 (by decide!)⟩,
   ⟨by decide!, by decide!,
    (Scan_inserts_no_semicolon asciiLib ⟨[], 1, 4, [0]⟩ (str "a $\n") 0 0
      (by decide!)).2.1 (by decide!) (by decide!)⟩,
   ⟨by decide!,
    (Scan_inserts_no_semicolon asciiLib ⟨[], 1, 3, [0]⟩ (str "$\nb") 0 0
      (by decide!)).2.2 (by decide!)⟩⟩

end ApiAst
